import Mathlib

/-!
# The regexp package of libgo (gcc-4.6.3): compiler and matcher

A shallow embedding of `libgo/go/regexp/regexp.go` and of the two functions of
`libgo/go/strings/strings.go` it calls.

* Go strings and byte slices are lists of bytes (`List Nat`).
* A pointer to an instruction is the index of the instruction in `Regexp.inst`
  (every instruction the parser creates is added to that slice); the nil
  pointer is `none`.
* Code that can panic returns in `Except Abort` (parser) or `Option` (matcher);
  loops and recursion run on fuel, and running out of fuel is a failure of its own.
* A match vector is a value (`List Int`); the arena of reference-counted
  vectors is an allocation device and is not represented.
-/

namespace GoRegexp

/-! ## utf8 (not part of the sources) -/

/-- The rune utf8.RuneError, U+FFFD. -/
def RuneError : Int := 65533

/-- Modelled from the spec: utf8.DecodeRune / utf8.DecodeRuneInString, which are not
under src/ ("decode_rune(bytes, pos) -> (codepoint, width), UTF-8 semantics, returning a
replacement codepoint and width 1 on malformed input"); width 0 on empty input. -/
def DecodeRune (b : List Nat) : Int × Nat :=
  match b with
  | [] => (RuneError, 0)
  | b0 :: t =>
    if b0 < 128 then ((b0 : Int), 1)
    else if b0 < 192 then (RuneError, 1)
    else if b0 < 224 then
      match t with
      | b1 :: _ =>
        if 128 ≤ b1 ∧ b1 < 192 ∧ 128 ≤ (b0 % 32) * 64 + b1 % 64
        then ((((b0 % 32) * 64 + b1 % 64 : Nat) : Int), 2) else (RuneError, 1)
      | _ => (RuneError, 1)
    else if b0 < 240 then
      match t with
      | b1 :: b2 :: _ =>
        let r := (b0 % 16) * 4096 + (b1 % 64) * 64 + b2 % 64
        if 128 ≤ b1 ∧ b1 < 192 ∧ 128 ≤ b2 ∧ b2 < 192 ∧ 2048 ≤ r ∧ ¬ (55296 ≤ r ∧ r < 57344)
        then (((r : Nat) : Int), 3) else (RuneError, 1)
      | _ => (RuneError, 1)
    else if b0 < 248 then
      match t with
      | b1 :: b2 :: b3 :: _ =>
        let r := (b0 % 8) * 262144 + (b1 % 64) * 4096 + (b2 % 64) * 64 + b3 % 64
        if 128 ≤ b1 ∧ b1 < 192 ∧ 128 ≤ b2 ∧ b2 < 192 ∧ 128 ≤ b3 ∧ b3 < 192 ∧
            65536 ≤ r ∧ r < 1114112
        then (((r : Nat) : Int), 4) else (RuneError, 1)
      | _ => (RuneError, 1)
    else (RuneError, 1)

/-- Modelled from the spec: utf8.DecodeRuneInString, the string form of DecodeRune. -/
def DecodeRuneInString (s : List Nat) : Int × Nat := DecodeRune s

/-- Modelled from the spec: utf8.EncodeRune, which is not under src/; a rune that is not a
Unicode scalar value is encoded as U+FFFD. -/
def EncodeRune (r : Int) : List Nat :=
  let n := r.toNat
  if r < 0 then [239, 191, 189]
  else if n < 128 then [n]
  else if n < 2048 then [192 + n / 64, 128 + n % 64]
  else if 55296 ≤ n ∧ n < 57344 then [239, 191, 189]
  else if n < 65536 then [224 + n / 4096, 128 + (n / 64) % 64, 128 + n % 64]
  else if n < 1114112 then
    [240 + n / 262144, 128 + (n / 4096) % 64, 128 + (n / 64) % 64, 128 + n % 64]
  else [239, 191, 189]

/-- The UTF-8 bytes of a string literal. -/
def bytesOf (s : String) : List Nat :=
  s.toList.flatMap (fun c => EncodeRune (c.toNat : Int))

/-! ## strings.Index and strings.HasPrefix -/

/-- The loop `for i := 0; i < len(s); i++ { if s[i] == c { return i } }; return -1`
of strings.Index, on the bytes not yet visited, `i` being the index of the first. -/
def indexByteFrom (c : Nat) : List Nat → Nat → Int
  | [], _ => -1
  | b :: t, i => if b = c then (i : Int) else indexByteFrom c t (i + 1)

/-- The loop `for i := 0; i+n <= len(s); i++ { if s[i] == c && s[i:i+n] == sep { return i } }`
of strings.Index, on the bytes not yet visited. -/
def indexFrom (sep : List Nat) (c : Nat) : List Nat → Nat → Int
  | [], _ => -1
  | b :: t, i =>
    if sep.length ≤ (b :: t).length then
      if b = c ∧ (b :: t).take sep.length = sep then (i : Int) else indexFrom sep c t (i + 1)
    else -1

/-- Index returns the index of the first instance of sep in s, or -1 if sep is not
present in s (strings.Index). -/
def Index (s sep : List Nat) : Int :=
  match sep with
  | [] => 0
  | [c] => indexByteFrom c s 0
  | c :: _ => indexFrom sep c s 0

/-- HasPrefix tests whether the string s begins with the given bytes (strings.HasPrefix). -/
def HasPrefix (s pre : List Nat) : Bool :=
  decide (s.length ≥ pre.length) && decide (s.take pre.length = pre)

/-! ## Errors, instructions, character classes -/

/-- Error codes returned by failures to parse an expression. -/
inductive Error
  | ErrInternal
  | ErrUnmatchedLpar
  | ErrUnmatchedRpar
  | ErrUnmatchedLbkt
  | ErrUnmatchedRbkt
  | ErrBadRange
  | ErrExtraneousBackslash
  | ErrBadClosure
  | ErrBareClosure
  | ErrBadBackslash
  deriving DecidableEq, Repr

/-- The ways a run of the parser ends without a value: `panic(err)` with a parse Error
(`parser.error`), a run-time panic of Go (nil pointer dereference), or exhausted fuel. -/
inductive Abort
  | error (e : Error)
  | crash
  | fuel
  deriving DecidableEq, Repr

/-- The instruction kinds (the `iota` constants iStart .. iNop). -/
inductive Kind
  | iStart | iEnd | iBOT | iEOT | iChar | iCharClass | iAny | iNotNL | iBra | iAlt | iNop
  deriving DecidableEq, Repr

/-- A character class: `ranges` is stored pairwise, [a-z] is (a,z), x is (x,x). -/
structure charClass where
  negate : Bool
  ranges : List Int
  cmin : Int
  cmax : Int
  deriving DecidableEq, Repr

/-- An instruction executed by the NFA. -/
structure instr where
  kind : Kind
  index : Nat := 0
  next : Option Nat := none
  char : Int := 0
  braNum : Nat := 0
  cclass : Option charClass := none
  left : Option Nat := none
  deriving DecidableEq, Repr

/-- Regexp is the representation of a compiled regular expression. -/
structure Regexp where
  expr : List Nat
  prefixBytes : List Nat := []
  inst : List instr := []
  start : Option Nat := none
  prefixStart : Option Nat := none
  nbra : Nat := 0
  deriving DecidableEq, Repr

/-- Range a through b inclusive is added to the class (charClass.addRange). -/
def charClass.addRange (cclass : charClass) (a b : Int) : charClass :=
  { cclass with
    ranges := cclass.ranges ++ [a, b]
    cmin := if a < cclass.cmin then a else cclass.cmin
    cmax := if b > cclass.cmax then b else cclass.cmax }

/-- The loop of charClass.matches over the pairs of `ranges`. -/
def rangesMatch (c : Int) : List Int → Bool
  | a :: b :: t => if a ≤ c ∧ c ≤ b then true else rangesMatch c t
  | _ => false

/-- Whether the class accepts c (charClass.matches). -/
def charClass.matches (cclass : charClass) (c : Int) : Bool :=
  if c < cclass.cmin ∨ c > cclass.cmax then cclass.negate
  else if rangesMatch c cclass.ranges then !cclass.negate
  else cclass.negate

/-- The class of a fresh iCharClass instruction (newCharClass). -/
def newCharClass : charClass :=
  { negate := false, ranges := [], cmin := 1114112, cmax := -1 }

/-- The instruction is appended to the program; its pointer is returned (Regexp.add). -/
def Regexp.add (re : Regexp) (i : instr) : Regexp × Option Nat :=
  ({ re with inst := re.inst ++ [{ i with index := re.inst.length }] }, some re.inst.length)

/-- The assignment `i.next = j` through the pointer i. -/
def Regexp.setNext (re : Regexp) (i j : Option Nat) : Except Abort Regexp :=
  match i with
  | none => .error .crash
  | some k =>
    match re.inst[k]? with
    | none => .error .crash
    | some x => .ok { re with inst := re.inst.set k { x with next := j } }

/-- The assignment `i.left = j` through the pointer i. -/
def Regexp.setLeft (re : Regexp) (i j : Option Nat) : Except Abort Regexp :=
  match i with
  | none => .error .crash
  | some k =>
    match re.inst[k]? with
    | none => .error .crash
    | some x => .ok { re with inst := re.inst.set k { x with left := j } }

/-! ## The parser -/

/-- The state of the parser. -/
structure parser where
  re : Regexp
  nlpar : Nat
  pos : Nat
  ch : Int
  deriving DecidableEq, Repr

/-- The sentinel returned at the end of the pattern. -/
def endOfFile : Int := -1

/-- The current rune (parser.c). -/
def parser.c (p : parser) : Int := p.ch

/-- The next rune of the pattern is loaded into `ch` (parser.nextc). -/
def parser.nextc (p : parser) : parser :=
  if p.pos ≥ p.re.expr.length then { p with ch := endOfFile }
  else
    let cw := DecodeRuneInString (p.re.expr.drop p.pos)
    { p with ch := cw.1, pos := p.pos + cw.2 }

/-- A parser on the pattern of re, its first rune loaded (newParser). -/
def newParser (re : Regexp) : parser :=
  parser.nextc { re := re, nlpar := 0, pos := 0, ch := 0 }

/-- The runes of the string literal in `special`. -/
def specialRunes : List Int := [92, 46, 43, 42, 63, 40, 41, 124, 91, 93, 94, 36]

/-- Whether c is one of the metacharacters (special). -/
def special (c : Int) : Bool := decide (c ∈ specialRunes)

/-- The runes of the string literal in `ispunct`. -/
def punctRunes : List Int :=
  [33, 34, 35, 36, 37, 38, 39, 40, 41, 42, 43, 44, 45, 46, 47, 58, 59, 60, 61, 62, 63, 64,
   91, 92, 93, 94, 95, 96, 123, 124, 125, 126]

/-- Whether c is an ASCII punctuation character (ispunct). -/
def ispunct (c : Int) : Bool := decide (c ∈ punctRunes)

/-- The bytes "abfnrtv". -/
def escapes : List Int := [97, 98, 102, 110, 114, 116, 118]

/-- The bytes "\a\b\f\n\r\t\v". -/
def escaped : List Int := [7, 8, 12, 10, 13, 9, 11]

/-- The index of c in `escapes`, or -1 (escape). -/
def escape (c : Int) : Int :=
  match escapes.indexOf? c with
  | some i => (i : Int)
  | none => -1

/-- The rune after an optional backslash (parser.checkBackslash). -/
def parser.checkBackslash (p : parser) : Except Abort (parser × Int) :=
  let c := p.c
  if c = 92 then
    let p := p.nextc
    let c := p.ch
    if c = endOfFile then .error (.error .ErrExtraneousBackslash)
    else if ispunct c then .ok (p, c)
    else if escape c ≥ 0 then .ok (p, escaped.getD (escape c).toNat 0)
    else .error (.error .ErrBadBackslash)
  else .ok (p, c)

/-- The `for` loop of parser.charClass. -/
def parser.charClassLoop : Nat → parser → charClass → Int → Except Abort (parser × Option Nat)
  | 0, _, _, _ => .error .fuel
  | fuel + 1, p, cc, left =>
    let c := p.c
    if c = 93 ∨ c = endOfFile then
      if left ≥ 0 then .error (.error .ErrBadRange)
      else if cc.negate ∧ cc.ranges.length = 2 ∧ cc.ranges.getD 0 0 = 10 ∧ cc.ranges.getD 1 0 = 10 then
        let r := p.re.add { kind := .iNotNL }
        .ok ({ p with re := r.1 }, r.2)
      else if ¬ cc.negate ∧ cc.ranges.length = 2 ∧ cc.ranges.getD 0 0 = cc.ranges.getD 1 0 then
        let r := p.re.add { kind := .iChar, char := cc.ranges.getD 0 0 }
        .ok ({ p with re := r.1 }, r.2)
      else
        let r := p.re.add { kind := .iCharClass, cclass := some cc }
        .ok ({ p with re := r.1 }, r.2)
    else if c = 45 then .error (.error .ErrBadRange)
    else
      match p.checkBackslash with
      | .error e => .error e
      | .ok (p, c) =>
        let p := p.nextc
        if left < 0 then
          if p.c = 45 then parser.charClassLoop fuel p.nextc cc c
          else parser.charClassLoop fuel p (cc.addRange c c) left
        else if left ≤ c then parser.charClassLoop fuel p (cc.addRange left c) (-1)
        else .error (.error .ErrBadRange)

/-- A character class, the opening bracket already consumed (parser.charClass). -/
def parser.charClass (fuel : Nat) (p : parser) : Except Abort (parser × Option Nat) :=
  let cc := newCharClass
  if p.c = 94 then parser.charClassLoop fuel p.nextc { cc with negate := true } (-1)
  else parser.charClassLoop fuel p cc (-1)

mutual

/-- A term of the grammar (parser.term). -/
def parser.term : Nat → parser → Except Abort (parser × Option Nat × Option Nat)
  | 0, _ => .error .fuel
  | fuel + 1, p =>
    let c := p.c
    if c = 124 ∨ c = endOfFile then .ok (p, none, none)
    else if c = 42 ∨ c = 43 ∨ c = 63 then .error (.error .ErrBareClosure)
    else if c = 41 then
      if p.nlpar = 0 then .error (.error .ErrUnmatchedRpar) else .ok (p, none, none)
    else if c = 93 then .error (.error .ErrUnmatchedRbkt)
    else if c = 94 then
      let p := p.nextc
      let r := p.re.add { kind := .iBOT }
      .ok ({ p with re := r.1 }, r.2, r.2)
    else if c = 36 then
      let p := p.nextc
      let r := p.re.add { kind := .iEOT }
      .ok ({ p with re := r.1 }, r.2, r.2)
    else if c = 46 then
      let p := p.nextc
      let r := p.re.add { kind := .iAny }
      .ok ({ p with re := r.1 }, r.2, r.2)
    else if c = 91 then
      match parser.charClass fuel p.nextc with
      | .error e => .error e
      | .ok (p, start) =>
        if p.c ≠ 93 then .error (.error .ErrUnmatchedLbkt)
        else .ok (p.nextc, start, start)
    else if c = 40 then
      let p := p.nextc
      let p := { p with nlpar := p.nlpar + 1 }
      let p := { p with re := { p.re with nbra := p.re.nbra + 1 } }
      let nbra := p.re.nbra
      match parser.regexp fuel p with
      | .error e => .error e
      | .ok (p, start, end') =>
        if p.c ≠ 41 then .error (.error .ErrUnmatchedLpar)
        else
          let p := { p with nlpar := p.nlpar - 1 }
          let p := p.nextc
          let rb := p.re.add { kind := .iBra, braNum := 2 * nbra }
          let bra := rb.2
          let re := rb.1.add { kind := .iBra, braNum := 2 * nbra + 1 }
          let ebra := re.2
          if start = none then
            if end' = none then .error (.error .ErrInternal)
            else
              match re.1.setNext bra ebra with
              | .error e => .error e
              | .ok r => .ok ({ p with re := r }, bra, ebra)
          else
            match re.1.setNext end' ebra with
            | .error e => .error e
            | .ok r =>
              match r.setNext bra start with
              | .error e => .error e
              | .ok r => .ok ({ p with re := r }, bra, ebra)
    else
      match p.checkBackslash with
      | .error e => .error e
      | .ok (p, c) =>
        let p := p.nextc
        let r := p.re.add { kind := .iChar, char := c }
        .ok ({ p with re := r.1 }, r.2, r.2)

/-- A term with an optional quantifier (parser.closure). -/
def parser.closure : Nat → parser → Except Abort (parser × Option Nat × Option Nat)
  | 0, _ => .error .fuel
  | fuel + 1, p =>
    match parser.term fuel p with
    | .error e => .error e
    | .ok (p, start, end') =>
      if start = none then .ok (p, start, end')
      else
        let quantified : Option (Except Abort (Regexp × Option Nat × Option Nat)) :=
          if p.c = 42 then
            let ra := p.re.add { kind := .iAlt }
            let alt := ra.2
            some (match ra.1.setNext end' alt with
              | .error e => .error e
              | .ok r =>
                match r.setLeft alt start with
                | .error e => .error e
                | .ok r => .ok (r, alt, alt))
          else if p.c = 43 then
            let ra := p.re.add { kind := .iAlt }
            let alt := ra.2
            some (match ra.1.setNext end' alt with
              | .error e => .error e
              | .ok r =>
                match r.setLeft alt start with
                | .error e => .error e
                | .ok r => .ok (r, start, alt))
          else if p.c = 63 then
            let ra := p.re.add { kind := .iAlt }
            let alt := ra.2
            let rn := ra.1.add { kind := .iNop }
            let nop := rn.2
            some (match rn.1.setLeft alt start with
              | .error e => .error e
              | .ok r =>
                match r.setNext alt nop with
                | .error e => .error e
                | .ok r =>
                  match r.setNext end' nop with
                  | .error e => .error e
                  | .ok r => .ok (r, alt, nop))
          else none
        match quantified with
        | none => .ok (p, start, end')
        | some (.error e) => .error e
        | some (.ok (r, start, end')) =>
          let p := { p with re := r }
          let p := p.nextc
          if p.ch = 42 ∨ p.ch = 43 ∨ p.ch = 63 then .error (.error .ErrBadClosure)
          else .ok (p, start, end')

/-- The `for` loop of parser.concatenation, `start` and `end` being those of the closures
linked so far. -/
def parser.concatenationLoop :
    Nat → parser → Option Nat → Option Nat → Except Abort (parser × Option Nat × Option Nat)
  | 0, _, _, _ => .error .fuel
  | fuel + 1, p, start, end' =>
    match parser.closure fuel p with
    | .error e => .error e
    | .ok (p, nstart, nend) =>
      if nstart = none then
        if start = none then
          let r := p.re.add { kind := .iNop }
          .ok ({ p with re := r.1 }, r.2, r.2)
        else .ok (p, start, end')
      else if start = none then parser.concatenationLoop fuel p nstart nend
      else
        match p.re.setNext end' nstart with
        | .error e => .error e
        | .ok r => parser.concatenationLoop fuel { p with re := r } start nend

/-- A sequence of closures (parser.concatenation). -/
def parser.concatenation : Nat → parser → Except Abort (parser × Option Nat × Option Nat)
  | 0, _ => .error .fuel
  | fuel + 1, p => parser.concatenationLoop fuel p none none

/-- The `for` loop of parser.regexp. -/
def parser.regexpLoop :
    Nat → parser → Option Nat → Option Nat → Except Abort (parser × Option Nat × Option Nat)
  | 0, _, _, _ => .error .fuel
  | fuel + 1, p, start, end' =>
    if p.c = 124 then
      let p := p.nextc
      match parser.concatenation fuel p with
      | .error e => .error e
      | .ok (p, nstart, nend) =>
        let ra := p.re.add { kind := .iAlt }
        let alt := ra.2
        match ra.1.setLeft alt start with
        | .error e => .error e
        | .ok r =>
          match r.setNext alt nstart with
          | .error e => .error e
          | .ok r =>
            let rn := r.add { kind := .iNop }
            let nop := rn.2
            match rn.1.setNext end' nop with
            | .error e => .error e
            | .ok r =>
              match r.setNext nend nop with
              | .error e => .error e
              | .ok r => parser.regexpLoop fuel { p with re := r } alt nop
    else .ok (p, start, end')

/-- An alternation of concatenations (parser.regexp). -/
def parser.regexp : Nat → parser → Except Abort (parser × Option Nat × Option Nat)
  | 0, _ => .error .fuel
  | fuel + 1, p =>
    match parser.concatenation fuel p with
    | .error e => .error e
    | .ok (p, start, end') => parser.regexpLoop fuel p start end'

end

/-- The first instruction that is not a Nop on the chain of `next` links from i (unNop). -/
def unNop (inst : List instr) : Nat → Option Nat → Except Abort (Option Nat)
  | 0, _ => .error .fuel
  | fuel + 1, i =>
    match i with
    | none => .error .crash
    | some k =>
      match inst[k]? with
      | none => .error .crash
      | some x => if x.kind = .iNop then unNop inst fuel x.next else .ok (some k)

/-- The body of the loop of eliminateNops, for the instruction at index k. -/
def eliminateNopsAt (inst : List instr) (k : Nat) : Except Abort (List instr) :=
  match inst[k]? with
  | none => .error .crash
  | some x =>
    if x.kind = .iEnd then .ok inst
    else
      match unNop inst (inst.length + 1) x.next with
      | .error e => .error e
      | .ok n =>
        let inst := inst.set k { x with next := n }
        if x.kind = .iAlt then
          match unNop inst (inst.length + 1) x.left with
          | .error e => .error e
          | .ok l => .ok (inst.set k { x with next := n, left := l })
        else .ok inst

/-- The loop of eliminateNops over the instructions from index k on, n of them left. -/
def eliminateNopsFrom : Nat → Nat → List instr → Except Abort (List instr)
  | 0, _, inst => .ok inst
  | n + 1, k, inst =>
    match eliminateNopsAt inst k with
    | .error e => .error e
    | .ok inst => eliminateNopsFrom n (k + 1) inst

/-- Every link to a Nop is redirected to the first instruction after it that is not a Nop
(Regexp.eliminateNops). -/
def Regexp.eliminateNops (re : Regexp) : Except Abort Regexp :=
  match eliminateNopsFrom re.inst.length 0 re.inst with
  | .error e => .error e
  | .ok inst => .ok { re with inst := inst }

/-- The loop `for inst.kind == iBOT { inst = inst.next }` of setPrefix. -/
def skipBOT (inst : List instr) : Nat → Option Nat → Except Abort (Option Nat)
  | 0, _ => .error .fuel
  | fuel + 1, i =>
    match i with
    | none => .error .crash
    | some k =>
      match inst[k]? with
      | none => .error .crash
      | some x => if x.kind = .iBOT then skipBOT inst fuel x.next else .ok (some k)

/-- The loop of setPrefix that collects the leading iChar instructions: the result is the
instruction the loop stops at and the bytes collected. -/
def prefixLoop (inst : List instr) : Nat → Option Nat → List Nat → Except Abort (Option Nat × List Nat)
  | 0, _, _ => .error .fuel
  | fuel + 1, i, b =>
    match i with
    | none => .error .crash
    | some k =>
      match inst[k]? with
      | none => .error .crash
      | some x =>
        if x.kind = .iEnd then .ok (i, b)
        else if x.kind ≠ .iChar then .ok (i, b)
        else
          match x.next with
          | none => .error .crash
          | some n =>
            match inst[n]? with
            | none => .error .crash
            | some y =>
              if y.kind = .iBOT ∨ y.kind = .iEOT ∨ y.kind = .iAlt then .ok (i, b)
              else prefixLoop inst fuel x.next (b ++ EncodeRune x.char)

/-- The regular text at the beginning of the pattern, possibly after a leading iBOT, is
extracted (Regexp.setPrefix). -/
def Regexp.setPrefix (re : Regexp) : Except Abort Regexp :=
  match re.inst[0]? with
  | none => .error .crash
  | some s =>
    match skipBOT re.inst (re.inst.length + 1) s.next with
    | .error e => .error e
    | .ok i =>
      match prefixLoop re.inst (re.inst.length + 1) i [] with
      | .error e => .error e
      | .ok (i, b) => .ok { re with prefixStart := i, prefixBytes := b }

/-- The fuel given to the parser for a pattern of n bytes. -/
def parseFuel (n : Nat) : Nat := 10 * n + 16

/-- The pattern of re is parsed into its instructions (Regexp.doParse). -/
def Regexp.doParse (re : Regexp) : Except Abort Regexp :=
  let p := newParser re
  let rs := p.re.add { kind := .iStart }
  let start := rs.2
  let p := { p with re := rs.1 }
  match parser.regexp (parseFuel re.expr.length) p with
  | .error e => .error e
  | .ok (p, s, e) =>
    match p.re.setNext start s with
    | .error e => .error e
    | .ok r =>
      let r := { r with start := start }
      let rend := r.add { kind := .iEnd }
      match rend.1.setNext e rend.2 with
      | .error e => .error e
      | .ok r =>
        match r.eliminateNops with
        | .error e => .error e
        | .ok r => r.setPrefix

/-- Compile parses a regular expression and returns, if successful, a Regexp that can be
used to match against text: `.ok re` stands for (re, nil), `.error (.error e)` for (nil, e),
the other two results for a panic that is not recovered and for exhausted fuel. -/
def Compile (str : List Nat) : Except Abort Regexp :=
  Regexp.doParse { expr := str }

/-- NumSubexp returns the number of parenthesized subexpressions in this Regexp. -/
def Regexp.NumSubexp (re : Regexp) : Nat := re.nbra

/-! ## The matcher -/

/-- A thread of the simulation: the next instruction to execute, whether the match began
with a fixed prefix, and the match vector (the contents of `match.m`). -/
structure state where
  inst : Nat
  prefixed : Bool
  m : List Int
  deriving DecidableEq, Repr

/-- The contents of the vector returned by matchArena.noMatch for an arena of length n. -/
def noMatch (n : Nat) : List Int := List.replicate n (-1)

/-- The assignment `m[i] = v`, which panics when i is out of range. -/
def vecSet (m : List Int) (i : Nat) (v : Int) : Option (List Int) :=
  if i < m.length then some (m.set i v) else none

/-- Append new state to the to-do list, unless its instruction is already in it
(matchArena.addState). The result is `none` when the call panics or runs out of fuel. -/
def addState (inst : List instr) :
    Nat → List state → Option Nat → Bool → List Int → Nat → Nat → Option (List state)
  | 0, _, _, _, _, _, _ => none
  | fuel + 1, s, i, prefixed, m, pos, end' =>
    match i with
    | none => none
    | some k =>
      match inst[k]? with
      | none => none
      | some x =>
        if x.kind = .iBOT then
          if pos = 0 then addState inst fuel s x.next prefixed m pos end' else some s
        else if x.kind = .iEOT then
          if pos = end' then addState inst fuel s x.next prefixed m pos end' else some s
        else if x.kind = .iBra then
          match vecSet m x.braNum (pos : Int) with
          | none => none
          | some m => addState inst fuel s x.next prefixed m pos end'
        else if s.any (fun st => st.inst = k) then some s
        else
          let s := s ++ [{ inst := k, prefixed := prefixed, m := m }]
          if x.kind = .iAlt then
            match addState inst fuel s x.left prefixed m pos end' with
            | none => none
            | some s => addState inst fuel s x.next prefixed m pos end'
          else some s

/-- The variables of the loop of doExecute that one step of a thread can change: the list
s[out], the best match so far (`none` for the zero state, whose match is nil) and `found`. -/
structure execState where
  out : List state
  final : Option state
  found : Bool
  deriving DecidableEq, Repr

/-- The condition of the iEnd case of doExecute: "choose leftmost longest". -/
def better (found : Bool) (final : Option state) (st : state) (pos charwidth : Nat) :
    Option Bool :=
  if !found then some true
  else
    match final, st.m[0]? with
    | some f, some s0 =>
      match f.m[0]?, f.m[1]? with
      | some f0, some f1 =>
        some (decide (s0 < f0) || (decide (s0 = f0) && decide ((pos : Int) - charwidth > f1)))
      | _, _ => none
    | _, _ => none

/-- The body of `for _, st := range s[in]` in doExecute: the thread st is advanced over the
rune c; pos is already past c, which is charwidth bytes wide. -/
def stepState (inst : List instr) (fuel : Nat) (c : Int) (pos charwidth end' : Nat)
    (acc : execState) (st : state) : Option execState :=
  match inst[st.inst]? with
  | none => none
  | some x =>
    match x.kind with
    | .iBOT => some acc
    | .iEOT => some acc
    | .iChar =>
      if c = x.char then
        (addState inst fuel acc.out x.next st.prefixed st.m pos end').map
          (fun o => { acc with out := o })
      else some acc
    | .iCharClass =>
      match x.cclass with
      | none => none
      | some cc =>
        if cc.matches c then
          (addState inst fuel acc.out x.next st.prefixed st.m pos end').map
            (fun o => { acc with out := o })
        else some acc
    | .iAny =>
      if c ≠ endOfFile then
        (addState inst fuel acc.out x.next st.prefixed st.m pos end').map
          (fun o => { acc with out := o })
      else some acc
    | .iNotNL =>
      if c ≠ endOfFile ∧ c ≠ 10 then
        (addState inst fuel acc.out x.next st.prefixed st.m pos end').map
          (fun o => { acc with out := o })
      else some acc
    | .iBra => some acc
    | .iAlt => some acc
    | .iEnd =>
      match better acc.found acc.final st pos charwidth with
      | none => none
      | some true =>
        match vecSet st.m 1 ((pos : Int) - charwidth) with
        | none => none
        | some m => some { acc with final := some { st with m := m }, found := true }
      | some false => some { acc with found := true }
    | _ => none

/-- The loop `for _, st := range s[in]` of doExecute. -/
def stepAll (inst : List instr) (fuel : Nat) (c : Int) (pos charwidth end' : Nat) :
    List state → execState → Option execState
  | [], acc => some acc
  | st :: t, acc =>
    match stepState inst fuel c pos charwidth end' acc st with
    | none => none
    | some acc => stepAll inst fuel c pos charwidth end' t acc

/-- The fuel given to one call of addState on the program of re. -/
def addFuel (re : Regexp) : Nat :=
  (re.inst.length + 1) * (2 * (re.inst.length + 1) * (re.inst.length + 1) + 2)

/-- The main loop of doExecute, `for startPos := pos; pos <= end; { ... }` on the subject b:
the result is the final state when the loop ends. -/
def executeLoop (re : Regexp) (b : List Nat) (end' startPos : Nat) (anchored : Bool) :
    Nat → Nat → List state → Option state → Bool → Option (Option state)
  | 0, _, _, _, _ => none
  | fuel + 1, pos, out, final, found =>
    if ¬ pos ≤ end' then some final
    else
      let prime : Bool := !found && (decide (pos = startPos) || !anchored)
      if ¬ prime ∧ out.length = 0 then some final
      else
        let seeded : Option (List state) :=
          if prime then
            match re.start with
            | none => none
            | some k =>
              match re.inst[k]?, vecSet (noMatch (2 * (re.nbra + 1))) 0 (pos : Int) with
              | some x, some m => addState re.inst (addFuel re) out x.next false m pos end'
              | _, _ => none
          else some out
        match seeded with
        | none => none
        | some sin =>
          let cw : Int × Nat :=
            if pos < end' then DecodeRune ((b.drop pos).take (end' - pos)) else (endOfFile, 1)
          let pos := pos + cw.2
          match stepAll re.inst (addFuel re) cw.1 pos cw.2 end' sin
              { out := [], final := final, found := found } with
          | none => none
          | some acc => executeLoop re b end' startPos anchored fuel pos acc.out acc.final acc.found

/-- Modelled from the spec: bytes.Index, which is not under src/; the byte-slice form of
strings.Index. -/
def bytesIndex (s sep : List Nat) : Int := Index s sep

/-- Modelled from the spec: bytes.HasPrefix, which is not under src/; the byte-slice form
of strings.HasPrefix. -/
def bytesHasPrefix (s pre : List Nat) : Bool := HasPrefix s pre

/-- The matcher (Regexp.doExecute): str is scanned when bytestr is nil (`none`), bytestr
otherwise. The result is `none` when the call panics or runs out of fuel, `some none` for
the nil slice (no match) and `some (some m)` for the match vector m. -/
def Regexp.doExecute (re : Regexp) (str : List Nat) (bytestr : Option (List Nat)) (pos : Nat) :
    Option (Option (List Int)) :=
  let end' : Nat := match bytestr with
    | none => str.length
    | some b => b.length
  match re.inst[0]? with
  | none => none
  | some i0 =>
    match i0.next with
    | none => none
    | some n0 =>
      match re.inst[n0]? with
      | none => none
      | some i1 =>
        let anchored : Bool := decide (i1.kind = .iBOT)
        if anchored ∧ pos > 0 then some none
        else
          let advance : Int :=
            if re.prefixBytes ≠ [] then
              if anchored then
                match bytestr with
                | none => if ¬ HasPrefix str re.prefixBytes then -1 else 0
                | some b => if ¬ bytesHasPrefix b re.prefixBytes then -1 else 0
              else
                match bytestr with
                | none => Index (str.drop pos) re.prefixBytes
                | some b => bytesIndex (b.drop pos) re.prefixBytes
            else 0
          if advance = -1 then some none
          else
            let pos := pos + advance.toNat
            let b := match bytestr with
              | none => str
              | some b => b
            match executeLoop re b end' pos anchored (end' + 2) pos [] none false with
            | none => none
            | some none => some none
            | some (some final) =>
              if final.prefixed ∧ final.m.length > 0 then
                match final.m[0]? with
                | none => none
                | some m0 => some (some (final.m.set 0 (m0 - re.prefixBytes.length)))
              else some (some final.m)

/-! ## The entry points -/

/-- FindStringIndex returns a two-element slice of integers defining the location of the
leftmost match in s of the regular expression; nil (`some none`) indicates no match. -/
def Regexp.FindStringIndex (re : Regexp) (s : List Nat) : Option (Option (List Int)) :=
  match re.doExecute s none 0 with
  | none => none
  | some none => some none
  | some (some a) => if 2 ≤ a.length then some (some (a.take 2)) else none

/-- FindStringSubmatchIndex returns the index pairs of the leftmost match and of its
subexpressions; nil (`some none`) indicates no match. -/
def Regexp.FindStringSubmatchIndex (re : Regexp) (s : List Nat) : Option (Option (List Int)) :=
  re.doExecute s none 0

/-- The loop of Regexp.allMatches on the string s (`b == nil`); the vectors handed to
`deliver` are collected in order. -/
def allMatchesLoop (re : Regexp) (s : List Nat) (n : Int) (end' : Nat) :
    Nat → Nat → Int → Int → Option (List (List Int))
  | 0, _, _, _ => none
  | fuel + 1, pos, i, prevMatchEnd =>
    if ¬ (i < n ∧ pos ≤ end') then some []
    else
      match re.doExecute s none pos with
      | none => none
      | some none => some []
      | some (some a) =>
        if a.length = 0 then some []
        else
          match a[0]?, a[1]? with
          | some m0, some m1 =>
            let empty : Bool := decide (m1 = (pos : Int))
            let accept : Bool := !(empty && decide (m0 = prevMatchEnd))
            let width : Nat := (DecodeRuneInString ((s.drop pos).take (end' - pos))).2
            let pos : Nat :=
              if empty then (if width > 0 then pos + width else end' + 1) else m1.toNat
            if accept then
              (allMatchesLoop re s n end' fuel pos (i + 1) m1).map (fun r => a :: r)
            else allMatchesLoop re s n end' fuel pos i m1
          | _, _ => none

/-- The matches of re in the string s, at most n of them (Regexp.allMatches with b == nil). -/
def Regexp.allMatches (re : Regexp) (s : List Nat) (n : Int) : Option (List (List Int)) :=
  allMatchesLoop re s n s.length (s.length + 2) 0 0 (-1)

/-- FindAllStringIndex is the All version of FindStringIndex: the successive matches of
the expression, each as its slice `match[0:2]`; the nil result is the empty list. -/
def Regexp.FindAllStringIndex (re : Regexp) (s : List Nat) (n : Int) :
    Option (List (List Int)) :=
  let n := if n < 0 then (s.length : Int) + 1 else n
  (re.allMatches s n).map (fun r => r.map (fun a => a.take 2))

/-- The slice `s[i:j]`, which panics (`none`) unless 0 ≤ i ≤ j ≤ len(s). -/
def sliceOf (s : List Nat) (i j : Int) : Option (List Nat) :=
  if 0 ≤ i ∧ i ≤ j ∧ j ≤ (s.length : Int) then
    some ((s.drop i.toNat).take (j.toNat - i.toNat))
  else none

/-- The loop `for searchPos <= len(src)` of ReplaceAllStringFunc; buf is the contents of the
buffer, and the result is the contents of the buffer after the copy of the unmatched bytes
that follow the last match. -/
def replaceLoop (re : Regexp) (src : List Nat) (repl : List Nat → List Nat) :
    Nat → Int → Nat → List Nat → Option (List Nat)
  | 0, _, _, _ => none
  | fuel + 1, lastMatchEnd, searchPos, buf =>
    if ¬ searchPos ≤ src.length then
      (sliceOf src lastMatchEnd src.length).map (fun t => buf ++ t)
    else
      match re.doExecute src none searchPos with
      | none => none
      | some none => (sliceOf src lastMatchEnd src.length).map (fun t => buf ++ t)
      | some (some a) =>
        if a.length = 0 then (sliceOf src lastMatchEnd src.length).map (fun t => buf ++ t)
        else
          match a[0]?, a[1]? with
          | some a0, some a1 =>
            match sliceOf src lastMatchEnd a0 with
            | none => none
            | some before =>
              let buf := buf ++ before
              let written : Option (List Nat) :=
                if a1 > lastMatchEnd ∨ a0 = 0 then
                  (sliceOf src a0 a1).map (fun t => buf ++ repl t)
                else some buf
              match written with
              | none => none
              | some buf =>
                let width : Nat := (DecodeRuneInString (src.drop searchPos)).2
                let searchPos : Nat :=
                  if (searchPos : Int) + width > a1 then searchPos + width
                  else if (searchPos : Int) + 1 > a1 then searchPos + 1
                  else a1.toNat
                replaceLoop re src repl fuel a1 searchPos buf
          | _, _ => none

/-- ReplaceAllStringFunc returns a copy of src in which all matches for the Regexp have
been replaced by the return value of the function repl (whose argument is the matched
string). -/
def Regexp.ReplaceAllStringFunc (re : Regexp) (src : List Nat) (repl : List Nat → List Nat) :
    Option (List Nat) :=
  replaceLoop re src repl (src.length + 2) 0 0 []

end GoRegexp

namespace GoRegexp

/-! ## The syntax tree of a pattern and the runs of the parser -/

/-- The syntax tree of a pattern under the grammar of the package comment; a group carries
the number the parser gives it, a class its negation flag and its ranges stored pairwise. -/
inductive Ast
  | bot
  | eot
  | any
  | char (c : Int)
  | cls (negate : Bool) (ranges : List Int)
  | group (k : Nat) (r : Ast)
  | star (r : Ast)
  | plus (r : Ast)
  | opt (r : Ast)
  | empty
  | cat (r1 r2 : Ast)
  | alt (r1 r2 : Ast)
  deriving DecidableEq, Repr

/-- The instruction parser.charClass adds for the class cc: iNotNL for the class of all
runes but newline, iChar for a class of one rune, iCharClass otherwise. -/
def classInstr (cc : charClass) : instr :=
  if cc.negate ∧ cc.ranges.length = 2 ∧ cc.ranges.getD 0 0 = 10 ∧ cc.ranges.getD 1 0 = 10 then
    { kind := .iNotNL }
  else if ¬ cc.negate ∧ cc.ranges.length = 2 ∧ cc.ranges.getD 0 0 = cc.ranges.getD 1 0 then
    { kind := .iChar, char := cc.ranges.getD 0 0 }
  else { kind := .iCharClass, cclass := some cc }

/-- The parser after an opening parenthesis: the rune after it is loaded, and the counts of
unclosed and of all parentheses are incremented. -/
def parser.lpar (p : parser) : parser :=
  let p := p.nextc
  let p := { p with nlpar := p.nlpar + 1 }
  { p with re := { p.re with nbra := p.re.nbra + 1 } }

/-- The parser after a closing parenthesis: the count of unclosed parentheses is
decremented and the rune after the parenthesis is loaded. -/
def parser.rpar (p : parser) : parser :=
  let p := { p with nlpar := p.nlpar - 1 }
  p.nextc

/-- The parser p with the instruction i added to its program. -/
def parser.addI (p : parser) (i : instr) : parser := { p with re := (p.re.add i).1 }

/-- The runs of the loop of parser.charClass that end without an error: from parser p,
class cc and pending range start `left`, the loop stops in parser p2 with class cc2. -/
inductive ClassRun : parser → charClass → Int → parser → charClass → Prop
  | done {p : parser} {cc : charClass} {left : Int} : (p.c = 93 ∨ p.c = endOfFile) → left < 0 → ClassRun p cc left p cc
  | single {p : parser} {p1 : parser} {cc : charClass} {left : Int} {c : Int} {p2 : parser} {cc2 : charClass} : ¬ (p.c = 93 ∨ p.c = endOfFile) → p.c ≠ 45 →
      p.checkBackslash = .ok (p1, c) → left < 0 → p1.nextc.c ≠ 45 →
      ClassRun p1.nextc (cc.addRange c c) left p2 cc2 → ClassRun p cc left p2 cc2
  | lower {p : parser} {p1 : parser} {cc : charClass} {left : Int} {c : Int} {p2 : parser} {cc2 : charClass} : ¬ (p.c = 93 ∨ p.c = endOfFile) → p.c ≠ 45 →
      p.checkBackslash = .ok (p1, c) → left < 0 → p1.nextc.c = 45 →
      ClassRun p1.nextc.nextc cc c p2 cc2 → ClassRun p cc left p2 cc2
  | upper {p : parser} {p1 : parser} {cc : charClass} {left : Int} {c : Int} {p2 : parser} {cc2 : charClass} : ¬ (p.c = 93 ∨ p.c = endOfFile) → p.c ≠ 45 →
      p.checkBackslash = .ok (p1, c) → ¬ left < 0 → left ≤ c →
      ClassRun p1.nextc (cc.addRange left c) (-1) p2 cc2 → ClassRun p cc left p2 cc2

/-- The nonterminal a run of the parser is for; the two loops carry the tree and the
fragment (start, end) they have built so far. -/
inductive NT
  | term
  | closure
  | concat
  | concatLoop (acc : Ast) (s e : Nat)
  | regexp
  | regexpLoop (acc : Ast) (s e : Nat)

/-- The parser state p is one in which parser.term returns (nil, nil). -/
def TermNil (p : parser) : Prop :=
  p.c = 124 ∨ p.c = endOfFile ∨ (p.c = 41 ∧ p.nlpar ≠ 0)

/-- The runes at which parser.term does not take its default case. -/
def termSpecial : List Int := [124, -1, 42, 43, 63, 41, 93, 94, 36, 46, 91, 40]

/-- The runs of the parser that end without an error: `Parse nt p r p2 s e` says that the
function for nt, called in state p, returns in state p2 the fragment with start
instruction s and end instruction e, having read the tree r. -/
inductive Parse : NT → parser → Ast → parser → Nat → Nat → Prop
  | bot {p : parser} : p.c = 94 →
      Parse .term p .bot (p.nextc.addI { kind := .iBOT }) p.re.inst.length p.re.inst.length
  | eot {p : parser} : p.c = 36 →
      Parse .term p .eot (p.nextc.addI { kind := .iEOT }) p.re.inst.length p.re.inst.length
  | any {p : parser} : p.c = 46 →
      Parse .term p .any (p.nextc.addI { kind := .iAny }) p.re.inst.length p.re.inst.length
  | char {p : parser} {p1 : parser} {c : Int} : p.c ∉ termSpecial → p.checkBackslash = .ok (p1, c) →
      Parse .term p (.char c) (p1.nextc.addI { kind := .iChar, char := c })
        p.re.inst.length p.re.inst.length
  | cls {p : parser} {p1 : parser} {cc : charClass} : p.c = 91 →
      ClassRun (if p.nextc.c = 94 then p.nextc.nextc else p.nextc)
        { newCharClass with negate := decide (p.nextc.c = 94) } (-1) p1 cc →
      p1.c = 93 →
      Parse .term p (.cls cc.negate cc.ranges) (p1.addI (classInstr cc)).nextc
        p.re.inst.length p.re.inst.length
  | group {p : parser} {p2 : parser} {r : Ast} {s : Nat} {e : Nat} {re1 : Regexp} {re2 : Regexp} :
      p.c = 40 →
      Parse .regexp p.lpar r p2 s e →
      p2.c = 41 →
      ((p2.rpar.re.add { kind := .iBra, braNum := 2 * p.lpar.re.nbra }).1.add
          { kind := .iBra, braNum := 2 * p.lpar.re.nbra + 1 }).1.setNext
        (some e) (some (p2.rpar.re.add { kind := .iBra, braNum := 2 * p.lpar.re.nbra }).1.inst.length)
          = .ok re1 →
      re1.setNext (some p2.rpar.re.inst.length) (some s) = .ok re2 →
      Parse .term p (.group p.lpar.re.nbra r) { p2.rpar with re := re2 }
        p2.re.inst.length (p2.re.inst.length + 1)
  | plain {p : parser} {r : Ast} {p1 : parser} {s : Nat} {e : Nat} : Parse .term p r p1 s e → p1.c ≠ 42 → p1.c ≠ 43 → p1.c ≠ 63 →
      Parse .closure p r p1 s e
  | star {p : parser} {r : Ast} {p1 : parser} {s : Nat} {e : Nat} {re1 : Regexp} {re2 : Regexp} : Parse .term p r p1 s e → p1.c = 42 →
      (p1.re.add { kind := .iAlt }).1.setNext (some e) (some p1.re.inst.length) = .ok re1 →
      re1.setLeft (some p1.re.inst.length) (some s) = .ok re2 →
      ¬ (({ p1 with re := re2 } : parser).nextc.ch = 42 ∨
         ({ p1 with re := re2 } : parser).nextc.ch = 43 ∨
         ({ p1 with re := re2 } : parser).nextc.ch = 63) →
      Parse .closure p (.star r) ({ p1 with re := re2 } : parser).nextc
        p1.re.inst.length p1.re.inst.length
  | plus {p : parser} {r : Ast} {p1 : parser} {s : Nat} {e : Nat} {re1 : Regexp} {re2 : Regexp} : Parse .term p r p1 s e → p1.c = 43 →
      (p1.re.add { kind := .iAlt }).1.setNext (some e) (some p1.re.inst.length) = .ok re1 →
      re1.setLeft (some p1.re.inst.length) (some s) = .ok re2 →
      ¬ (({ p1 with re := re2 } : parser).nextc.ch = 42 ∨
         ({ p1 with re := re2 } : parser).nextc.ch = 43 ∨
         ({ p1 with re := re2 } : parser).nextc.ch = 63) →
      Parse .closure p (.plus r) ({ p1 with re := re2 } : parser).nextc
        s p1.re.inst.length
  | opt {p : parser} {r : Ast} {p1 : parser} {s : Nat} {e : Nat} {re1 : Regexp} {re2 : Regexp} {re3 : Regexp} : Parse .term p r p1 s e → p1.c = 63 →
      ((p1.re.add { kind := .iAlt }).1.add { kind := .iNop }).1.setLeft
        (some p1.re.inst.length) (some s) = .ok re1 →
      re1.setNext (some p1.re.inst.length)
        (some (p1.re.add { kind := .iAlt }).1.inst.length) = .ok re2 →
      re2.setNext (some e) (some (p1.re.add { kind := .iAlt }).1.inst.length) = .ok re3 →
      ¬ (({ p1 with re := re3 } : parser).nextc.ch = 42 ∨
         ({ p1 with re := re3 } : parser).nextc.ch = 43 ∨
         ({ p1 with re := re3 } : parser).nextc.ch = 63) →
      Parse .closure p (.opt r) ({ p1 with re := re3 } : parser).nextc
        p1.re.inst.length (p1.re.inst.length + 1)
  | emptyConcat {p : parser} : TermNil p →
      Parse .concat p .empty (p.addI { kind := .iNop }) p.re.inst.length p.re.inst.length
  | first {p : parser} {c : Ast} {p1 : parser} {s1 : Nat} {e1 : Nat} {r : Ast} {p2 : parser} {s : Nat} {e : Nat} : Parse .closure p c p1 s1 e1 →
      Parse (.concatLoop c s1 e1) p1 r p2 s e → Parse .concat p r p2 s e
  | last {p : parser} {a : Ast} {s : Nat} {e : Nat} : TermNil p → Parse (.concatLoop a s e) p a p s e
  | next {p : parser} {a : Ast} {s : Nat} {e : Nat} {c : Ast} {p1 : parser} {s1 : Nat} {e1 : Nat} {re1 : Regexp} {r : Ast} {p2 : parser} {s2 : Nat} {e2 : Nat} : Parse .closure p c p1 s1 e1 →
      p1.re.setNext (some e) (some s1) = .ok re1 →
      Parse (.concatLoop (.cat a c) s e1) { p1 with re := re1 } r p2 s2 e2 →
      Parse (.concatLoop a s e) p r p2 s2 e2
  | regexp {p : parser} {c : Ast} {p1 : parser} {s1 : Nat} {e1 : Nat} {r : Ast} {p2 : parser} {s : Nat} {e : Nat} : Parse .concat p c p1 s1 e1 →
      Parse (.regexpLoop c s1 e1) p1 r p2 s e → Parse .regexp p r p2 s e
  | done {p : parser} {a : Ast} {s : Nat} {e : Nat} : p.c ≠ 124 → Parse (.regexpLoop a s e) p a p s e
  | bar {p : parser} {a : Ast} {s : Nat} {e : Nat} {c : Ast} {p1 : parser} {s1 : Nat} {e1 : Nat} {re1 : Regexp} {re2 : Regexp} {re3 : Regexp} {re4 : Regexp} {r : Ast} {p2 : parser} {s2 : Nat} {e2 : Nat} : p.c = 124 →
      Parse .concat p.nextc c p1 s1 e1 →
      (p1.re.add { kind := .iAlt }).1.setLeft (some p1.re.inst.length) (some s) = .ok re1 →
      re1.setNext (some p1.re.inst.length) (some s1) = .ok re2 →
      (re2.add { kind := .iNop }).1.setNext (some e) (some re2.inst.length) = .ok re3 →
      re3.setNext (some e1) (some re2.inst.length) = .ok re4 →
      Parse (.regexpLoop (.alt a c) p1.re.inst.length (p1.re.inst.length + 1))
        { p1 with re := re4 } r p2 s2 e2 →
      Parse (.regexpLoop a s e) p r p2 s2 e2

/-- The measure of the input the parser has not read yet: twice the bytes after `pos`,
plus one when a rune is loaded in `ch`. -/
def parser.rem (p : parser) : Nat :=
  2 * (p.re.expr.length - p.pos) + (if p.ch = endOfFile then 0 else 1)

/-! ## The shape of the program the parser builds -/

/-- The instructions G after the assignment of j to the `next` link of instruction k. -/
def updNext (G : List instr) (k : Nat) (j : Option Nat) : List instr :=
  match G[k]? with
  | some x => G.set k { x with next := j }
  | none => G

/-- The instructions G after the assignment of j to the `left` link of instruction k. -/
def updLeft (G : List instr) (k : Nat) (j : Option Nat) : List instr :=
  match G[k]? with
  | some x => G.set k { x with left := j }
  | none => G

/-- What holds of the instruction x at index i of a fragment: the fragment is made of the
instructions of G from index m on, its end is e, nb bounds the group numbers, and rk
decreases along every `next` link that does not leave an iAlt. -/
structure NodeOK (G : List instr) (m e nb : Nat) (rk : Nat → Nat) (i : Nat) (x : instr) :
    Prop where
  notStart : x.kind ≠ .iStart
  notEnd : x.kind ≠ .iEnd
  atEnd : i = e → x.next = none
  next : i ≠ e → ∃ j, x.next = some j ∧ m ≤ j ∧ j < G.length
  left : x.kind = .iAlt → ∃ j, x.left = some j ∧ m ≤ j ∧ j < G.length
  nop : x.kind = .iNop → ∀ j, x.next = some j → i < j
  bra : x.kind = .iBra → 2 ≤ x.braNum ∧ x.braNum ≤ 2 * nb + 1
  cls : x.kind = .iCharClass → x.cclass ≠ none
  rank : x.kind ≠ .iAlt → ∀ j, x.next = some j → rk j < rk i
  rankLt : rk i < G.length - m

/-- The instructions of G from index m on form a fragment with start s and end e: every
link of theirs but the `next` link of e, which is nil, leads into the fragment. -/
structure IsFrag (G : List instr) (nb m s e : Nat) : Prop where
  hs : m ≤ s ∧ s < G.length
  he : m ≤ e ∧ e < G.length
  nodes : ∃ rk : Nat → Nat, ∀ i, m ≤ i → i < G.length → ∃ x, G[i]? = some x ∧ NodeOK G m e nb rk i x

/-- What a run of the parser does to the program: the instructions it finds are left as
they are, and those it adds form a fragment; a loop extends the fragment it is entered
with. -/
def FragSpec : NT → parser → parser → Nat → Nat → Prop
  | .concatLoop _ s0 e0, p, p2, s, e =>
      p.re.nbra ≤ p2.re.nbra ∧
      ∀ m, m ≤ p.re.inst.length → IsFrag p.re.inst p.re.nbra m s0 e0 →
        (∀ i, i < m → p2.re.inst[i]? = p.re.inst[i]?) ∧ IsFrag p2.re.inst p2.re.nbra m s e
  | .regexpLoop _ s0 e0, p, p2, s, e =>
      p.re.nbra ≤ p2.re.nbra ∧
      ∀ m, m ≤ p.re.inst.length → IsFrag p.re.inst p.re.nbra m s0 e0 →
        (∀ i, i < m → p2.re.inst[i]? = p.re.inst[i]?) ∧ IsFrag p2.re.inst p2.re.nbra m s e
  | _, p, p2, s, e =>
      p.re.nbra ≤ p2.re.nbra ∧
      (∀ i, i < p.re.inst.length → p2.re.inst[i]? = p.re.inst[i]?) ∧
      IsFrag p2.re.inst p2.re.nbra p.re.inst.length s e

/-! ## Well-formed programs -/

/-- The kind of the instruction at index j of G, if there is one. -/
def kindAt (G : List instr) (j : Nat) : Option Kind := (G[j]?).map (fun x => x.kind)

/-- The pointer j leads to an instruction of G that is not the iStart instruction. -/
def Target (G : List instr) (j : Nat) : Prop := ∃ k, kindAt G j = some k ∧ k ≠ .iStart

/-- What holds of the instruction x at index i of a whole program G: its links lead to
instructions of the program, a group marker has a number of a match vector of nb groups, and
rk decreases along every `next` link that does not leave an iAlt. -/
structure NodeG (G : List instr) (nb : Nat) (rk : Nat → Nat) (i : Nat) (x : instr) : Prop where
  start : x.kind = .iStart → i = 0
  next : x.kind ≠ .iEnd → ∃ j, x.next = some j ∧ Target G j
  left : x.kind = .iAlt → ∃ j, x.left = some j ∧ Target G j
  nop : x.kind = .iNop → ∀ j, x.next = some j → i < j
  bra : x.kind = .iBra → 2 ≤ x.braNum ∧ x.braNum ≤ 2 * nb + 1
  cls : x.kind = .iCharClass → x.cclass ≠ none
  rank : x.kind ≠ .iAlt → ∀ j, x.next = some j → rk j < rk i
  rankLt : rk i < G.length

/-- The program G starts with the iStart instruction and every instruction of it is as it
should be. -/
structure GraphOK (G : List instr) (nb : Nat) : Prop where
  start : kindAt G 0 = some .iStart
  nodes : ∃ rk : Nat → Nat, ∀ (i : Nat) (x : instr), G[i]? = some x → NodeG G nb rk i x

/-- No link of the instruction x of G leads to an iNop. -/
def NoNopLinks (G : List instr) (x : instr) : Prop :=
  (∀ j, x.next = some j → kindAt G j ≠ some .iNop) ∧
  (x.kind = .iAlt → ∀ j, x.left = some j → kindAt G j ≠ some .iNop)

/-- The program of re is well formed: what the matcher relies on. -/
structure WF (re : Regexp) : Prop where
  start : re.start = some 0
  graph : GraphOK re.inst re.nbra
  noNop : ∀ (i : Nat) (x : instr), re.inst[i]? = some x → x.kind ≠ .iEnd → NoNopLinks re.inst x

end GoRegexp

namespace GoRegexp

/-! ## What a program accepts -/

/-- The instruction x lets a thread pass over the rune c: the cases of the loop of doExecute
that call addState. -/
def instr.eats (x : instr) (c : Int) : Bool :=
  match x.kind with
  | .iChar => decide (c = x.char)
  | .iCharClass =>
    match x.cclass with
    | none => false
    | some cc => cc.matches c
  | .iAny => decide (c ≠ endOfFile)
  | .iNotNL => decide (c ≠ endOfFile ∧ c ≠ 10)
  | _ => false

/-- One move of the program G on the subject b, from the instruction i at offset pos with
match vector m: `^` is passed only at offset 0, `$` only at the end of b, a group marker
writes the offset into the vector, an iAlt goes either way, and an instruction that consumes
goes over the rune decoded at pos. -/
inductive Step (G : List instr) (b : List Nat) :
    Nat → Nat → List Int → Nat → Nat → List Int → Prop
  | bot {i pos j : Nat} {m : List Int} {x : instr} : G[i]? = some x → x.kind = .iBOT →
      pos = 0 → x.next = some j → Step G b i pos m j pos m
  | eot {i pos j : Nat} {m : List Int} {x : instr} : G[i]? = some x → x.kind = .iEOT →
      pos = b.length → x.next = some j → Step G b i pos m j pos m
  | bra {i pos j : Nat} {m : List Int} {x : instr} : G[i]? = some x → x.kind = .iBra →
      x.next = some j → Step G b i pos m j pos (m.set x.braNum (pos : Int))
  | altLeft {i pos j : Nat} {m : List Int} {x : instr} : G[i]? = some x → x.kind = .iAlt →
      x.left = some j → Step G b i pos m j pos m
  | altNext {i pos j : Nat} {m : List Int} {x : instr} : G[i]? = some x → x.kind = .iAlt →
      x.next = some j → Step G b i pos m j pos m
  | eat {i pos j : Nat} {m : List Int} {x : instr} : G[i]? = some x → pos < b.length →
      x.eats (DecodeRune (b.drop pos)).1 = true → x.next = some j →
      Step G b i pos m j (pos + (DecodeRune (b.drop pos)).2) m

/-- A run of the program G on the subject b: the moves from one configuration to another,
with the instructions it goes through. -/
inductive Run (G : List instr) (b : List Nat) :
    Nat → Nat → List Int → List Nat → Nat → Nat → List Int → Prop
  | nil {i pos : Nat} {m : List Int} : Run G b i pos m [] i pos m
  | cons {i pos j pos1 k pos2 : Nat} {m m1 m2 : List Int} {tr : List Nat} :
      Step G b i pos m j pos1 m1 → Run G b j pos1 m1 tr k pos2 m2 →
      Run G b i pos m (i :: tr) k pos2 m2

/-- The vector a thread that starts at offset p is seeded with. -/
def seedVec (re : Regexp) (p : Nat) : List Int :=
  (noMatch (2 * (re.nbra + 1))).set 0 (p : Int)

/-- The program of re accepts the span [p, q] of the subject b along the instructions tr,
and m is the match vector of that run: a run from the instruction after iStart at offset p
to iEnd at offset q. -/
def AcceptsVia (re : Regexp) (b : List Nat) (p q : Nat) (tr : List Nat) (m : List Int) : Prop :=
  ∃ s x s0 k m1, re.start = some s ∧ re.inst[s]? = some x ∧ x.next = some s0 ∧
    Run re.inst b s0 p (seedVec re p) tr k q m1 ∧ kindAt re.inst k = some .iEnd ∧
    m = m1.set 1 (q : Int)

/-- The program of re accepts the span [p, q] of the subject b. -/
def Accepts (re : Regexp) (b : List Nat) (p q : Nat) : Prop :=
  ∃ tr m, AcceptsVia re b p q tr m

/-- The offset p of the subject b is where a rune of b starts, or the end of b: the
offsets that decoding b rune after rune from offset p0 goes through. -/
inductive RuneStart (b : List Nat) (p0 : Nat) : Nat → Prop
  | first : RuneStart b p0 p0
  | next {p : Nat} : RuneStart b p0 p → p < b.length →
      RuneStart b p0 (p + (DecodeRune (b.drop p)).2)

/-- The bytes b are well-formed UTF-8 (on fuel n, the length of b is enough): every rune
decoded from them is the rune its bytes encode. -/
def validUTF8 : Nat → List Nat → Bool
  | 0, b => decide (b = [])
  | n + 1, b =>
    match b with
    | [] => true
    | _ :: _ =>
      decide (b.take (DecodeRune b).2 = EncodeRune (DecodeRune b).1) &&
        validUTF8 n (b.drop (DecodeRune b).2)

/-- The bytes b are well-formed UTF-8. -/
def ValidUTF8 (b : List Nat) : Prop := validUTF8 b.length b = true

/-- The instruction k of G is one that addState puts on the list of threads. -/
def Listed (G : List instr) (k : Nat) : Prop :=
  ∃ x, G[k]? = some x ∧ x.kind ≠ .iBOT ∧ x.kind ≠ .iEOT ∧ x.kind ≠ .iBra ∧
    x.kind ≠ .iStart ∧ x.kind ≠ .iNop

/-- The span y comes after the span x in a list of matches: x ends where y begins or
before, y is not an empty span at the end of x, and y is later than x in the order of
first the start and then the end. -/
def SpanNext (x y : List Int) : Prop :=
  ∃ a b a2 b2 : Int, x = [a, b] ∧ y = [a2, b2] ∧ a ≤ b ∧ b ≤ a2 ∧ a2 ≤ b2 ∧
    (a2 = b2 → b < a2) ∧ (a < a2 ∨ (a = a2 ∧ b < b2))

/-! ## Replacement -/

/-- The string src from offset `last` on, with each span of the list replaced by repl
applied to the text of the span, and the bytes outside the spans copied as they are. -/
def spliceSpans (src : List Nat) (repl : List Nat → List Nat) : Nat → List (List Int) → List Nat
  | last, [] => src.drop last
  | last, x :: rest =>
    (src.drop last).take ((x.getD 0 0).toNat - last) ++
      repl ((src.drop (x.getD 0 0).toNat).take ((x.getD 1 0).toNat - (x.getD 0 0).toNat)) ++
      spliceSpans src repl (x.getD 1 0).toNat rest

/-! ## Character classes -/

/-- What the parser does to the class of a fresh iCharClass instruction: a range is added,
or the flag `negate` is set. -/
inductive ClassOp
  | add (a b : Int)
  | neg (v : Bool)

/-- The class after the operation. -/
def ClassOp.apply (cc : charClass) : ClassOp → charClass
  | .add a b => cc.addRange a b
  | .neg v => { cc with negate := v }

/-- The operation adds a range that c lies in. -/
def ClassOp.covers (c : Int) : ClassOp → Bool
  | .add a b => decide (a ≤ c ∧ c ≤ b)
  | .neg _ => false

/-! ## Some compiled programs -/

/-- What Compile returns for the pattern `a(b)?c`. -/
def progOptGroup : Regexp :=
  { expr := [97, 40, 98, 41, 63, 99], prefixBytes := [], start := some 0,
    prefixStart := some 1, nbra := 1,
    inst := [
      { kind := .iStart, index := 0, next := some 1 },
      { kind := .iChar, index := 1, next := some 5, char := 97 },
      { kind := .iChar, index := 2, next := some 4, char := 98 },
      { kind := .iBra, index := 3, next := some 2, braNum := 2 },
      { kind := .iBra, index := 4, next := some 7, braNum := 3 },
      { kind := .iAlt, index := 5, next := some 7, left := some 3 },
      { kind := .iNop, index := 6, next := some 7 },
      { kind := .iChar, index := 7, next := some 8, char := 99 },
      { kind := .iEnd, index := 8, next := none }] }

/-- What Compile returns for the pattern `^abc`. -/
def progBotAbc : Regexp :=
  { expr := [94, 97, 98, 99], prefixBytes := [97, 98, 99], start := some 0,
    prefixStart := some 5, nbra := 0,
    inst := [
      { kind := .iStart, index := 0, next := some 1 },
      { kind := .iBOT, index := 1, next := some 2 },
      { kind := .iChar, index := 2, next := some 3, char := 97 },
      { kind := .iChar, index := 3, next := some 4, char := 98 },
      { kind := .iChar, index := 4, next := some 5, char := 99 },
      { kind := .iEnd, index := 5, next := none }] }

/-- What Compile returns for the pattern `abc$`. -/
def progAbcEot : Regexp :=
  { expr := [97, 98, 99, 36], prefixBytes := [97, 98], start := some 0,
    prefixStart := some 3, nbra := 0,
    inst := [
      { kind := .iStart, index := 0, next := some 1 },
      { kind := .iChar, index := 1, next := some 2, char := 97 },
      { kind := .iChar, index := 2, next := some 3, char := 98 },
      { kind := .iChar, index := 3, next := some 4, char := 99 },
      { kind := .iEOT, index := 4, next := some 5 },
      { kind := .iEnd, index := 5, next := none }] }

/-- What Compile returns for the pattern `o`. -/
def progO : Regexp :=
  { expr := [111], prefixBytes := [111], start := some 0,
    prefixStart := some 2, nbra := 0,
    inst := [
      { kind := .iStart, index := 0, next := some 1 },
      { kind := .iChar, index := 1, next := some 2, char := 111 },
      { kind := .iEnd, index := 2, next := none }] }

end GoRegexp

namespace GoRegexp

/-! ## Definitions used by the proofs about the parser -/

/-- The pointers a run of the parser takes and returns are those of instructions of the
program: the part of the structure of a run that rules out a nil dereference. -/
def Bounds : NT → parser → parser → Nat → Nat → Prop
  | .concatLoop _ s0 e0, p, p2, s, e =>
      p.re.inst.length ≤ p2.re.inst.length ∧
      (s0 < p.re.inst.length → e0 < p.re.inst.length →
        s < p2.re.inst.length ∧ e < p2.re.inst.length)
  | .regexpLoop _ s0 e0, p, p2, s, e =>
      p.re.inst.length ≤ p2.re.inst.length ∧
      (s0 < p.re.inst.length → e0 < p.re.inst.length →
        s < p2.re.inst.length ∧ e < p2.re.inst.length)
  | _, p, p2, s, e =>
      p.re.inst.length ≤ p2.re.inst.length ∧ s < p2.re.inst.length ∧ e < p2.re.inst.length

/-- What a run of the parser reads: a term and a closure read at least one rune. -/
def Shrinks : NT → parser → parser → Prop
  | .term, p, p2 => p2.rem < p.rem
  | .closure, p, p2 => p2.rem < p.rem
  | _, p, p2 => p2.rem ≤ p.rem

/-- What is shown of a call of one of the functions of the parser: a value it returns is
described by `ok`, it does not panic on a nil pointer, and it does not run out of fuel
when the fuel is at least `need`. -/
structure CallSpec {α : Type} (res : Except Abort α) (ok : α → Prop) (fuel need : Nat) : Prop where
  value : ∀ v, res = .ok v → ok v
  noCrash : res ≠ .error .crash
  noFuel : need ≤ fuel → res ≠ .error .fuel

/-- The value of a call of parser.term or parser.closure: nothing read and (nil, nil), or
a fragment and the run that built it. -/
def OkNil (nt : NT) (p : parser) (v : parser × Option Nat × Option Nat) : Prop :=
  (v = (p, none, none) ∧ TermNil p) ∨
  ∃ r s e, v.2 = (some s, some e) ∧ Parse nt p r v.1 s e

/-- The value of a call of parser.concatenation or parser.regexp: a fragment and the run
that built it. -/
def OkFrag (nt : NT) (p : parser) (v : parser × Option Nat × Option Nat) : Prop :=
  ∃ r s e, v.2 = (some s, some e) ∧ Parse nt p r v.1 s e

/-- The value of a call of one of the two loops, entered with the fragment (s0, e0): for
every tree the loop is entered with, a fragment and the run that built it. -/
def OkLoop (nt : Ast → Nat → Nat → NT) (s0 e0 : Nat) (p : parser)
    (v : parser × Option Nat × Option Nat) : Prop :=
  ∀ a, ∃ r s e, v.2 = (some s, some e) ∧ Parse (nt a s0 e0) p r v.1 s e

/-- An instruction that can be a fragment of its own. -/
def Leaf (x : instr) (nb : Nat) : Prop :=
  x.kind ≠ .iStart ∧ x.kind ≠ .iEnd ∧ x.kind ≠ .iAlt ∧ x.next = none ∧
  (x.kind = .iBra → 2 ≤ x.braNum ∧ x.braNum ≤ 2 * nb + 1) ∧
  (x.kind = .iCharClass → x.cclass ≠ none)

/-- Every instruction of G is as it should be in a whole program. -/
def Nodes (G : List instr) (nb : Nat) (rk : Nat → Nat) : Prop :=
  ∀ (i : Nat) (x : instr), G[i]? = some x → NodeG G nb rk i x

/-- The parser in the state in which doParse calls parser.regexp. -/
def startParser (str : List Nat) : parser :=
  { newParser { expr := str } with
    re := ((newParser { expr := str }).re.add { kind := .iStart }).1 }

/-- What doParse does once parser.regexp has returned the fragment (s, e) in state p. -/
def finishParse (start : Option Nat) (p : parser) (s e : Option Nat) : Except Abort Regexp :=
  match p.re.setNext start s with
  | .error e => .error e
  | .ok r =>
    let r := { r with start := start }
    let rend := r.add { kind := .iEnd }
    match rend.1.setNext e rend.2 with
    | .error e => .error e
    | .ok r =>
      match r.eliminateNops with
      | .error e => .error e
      | .ok r => r.setPrefix

/-- The Error a call of Compile returned, if it returned one. -/
def errorOf (r : Except Abort Regexp) : Option Error :=
  match r with
  | .error (.error e) => some e
  | _ => none

end GoRegexp

namespace GoRegexp

/-! ## Definitions used by the proofs about the matcher -/

/-- The start of the match that the vector m records. -/
def vstart (m : List Int) : Int := m.getD 0 0

/-- The pointer j leads to an instruction that a thread can be at: an instruction of G that
is neither iStart nor iNop. -/
def Good (G : List instr) (j : Nat) : Prop := Target G j ∧ kindAt G j ≠ some .iNop

/-- A program whose instructions are as they should be and none of whose links leads to
an iNop. -/
structure ProgOK (G : List instr) (nb : Nat) (rk : Nat → Nat) : Prop where
  nodes : ∀ (i : Nat) (x : instr), G[i]? = some x → NodeG G nb rk i x
  noNop : ∀ (i : Nat) (x : instr), G[i]? = some x → x.kind ≠ .iEnd → NoNopLinks G x

/-- A list of threads as addState keeps it: no instruction twice, every instruction one
that is listed, every vector of the length L of the arena, no thread prefixed. -/
structure ListOK (G : List instr) (L : Nat) (s : List state) : Prop where
  nodup : (s.map (fun th => th.inst)).Nodup
  listed : ∀ th ∈ s, Listed G th.inst
  len : ∀ th ∈ s, th.m.length = L
  plain : ∀ th ∈ s, th.prefixed = false

/-- The call of addState on the instruction k at offset pos has nothing left to do on the
list s: k is on the list with a start that is at most `bound`, or k is a `^` or `$` that does
not hold at pos, or what follows a `^`, a `$` or a group marker is handled. -/
inductive Handled (G : List instr) (pos end' : Nat) (s : List state) (bound : Int) : Nat → Prop
  | listed {k : Nat} : Listed G k → (∃ th ∈ s, th.inst = k ∧ vstart th.m ≤ bound) →
      Handled G pos end' s bound k
  | botSkip {k : Nat} {x : instr} : G[k]? = some x → x.kind = .iBOT → pos ≠ 0 →
      Handled G pos end' s bound k
  | bot {k j : Nat} {x : instr} : G[k]? = some x → x.kind = .iBOT → x.next = some j →
      Handled G pos end' s bound j → Handled G pos end' s bound k
  | eotSkip {k : Nat} {x : instr} : G[k]? = some x → x.kind = .iEOT → pos ≠ end' →
      Handled G pos end' s bound k
  | eot {k j : Nat} {x : instr} : G[k]? = some x → x.kind = .iEOT → x.next = some j →
      Handled G pos end' s bound j → Handled G pos end' s bound k
  | bra {k j : Nat} {x : instr} : G[k]? = some x → x.kind = .iBra → x.next = some j →
      Handled G pos end' s bound j → Handled G pos end' s bound k

/-- Both ways out of the iAlt of the thread th are handled on the list s. -/
def AltDone (G : List instr) (pos end' : Nat) (s : List state) (th : state) : Prop :=
  ∀ x, G[th.inst]? = some x → x.kind = .iAlt →
    (∀ j, x.left = some j → Handled G pos end' s (vstart th.m) j) ∧
    (∀ j, x.next = some j → Handled G pos end' s (vstart th.m) j)

/-- What a call of addState on the instruction i with the vector m adds to the list s: the
threads t, each at the end of a run from i that stays at pos. -/
structure AddPost (G : List instr) (b : List Nat) (pos : Nat) (s : List state) (i : Nat)
    (m : List Int) (t : List state) : Prop where
  run : ∀ th ∈ t, vstart th.m = vstart m ∧ ∃ tr, Run G b i pos m tr th.inst pos th.m
  ok : ListOK G m.length (s ++ t)
  handled : Handled G pos b.length (s ++ t) (vstart m) i
  closed : ∀ th ∈ t, AltDone G pos b.length (s ++ t) th

/-- The end of the match that the vector m records. -/
def vend (m : List Int) : Int := m.getD 1 0

/-- The match of the state f is at least as good as the span [p, q]: it starts before p, or
it starts at p and ends at q or later. -/
def Dominates (f : state) (p q : Int) : Prop :=
  vstart f.m < p ∨ (vstart f.m = p ∧ q ≤ vend f.m)

/-- The thread th, at offset pos, is at the end of a run of the program of re that began
after the instruction s0 at an offset p0 that the scan from sp goes through; its vector is
the vector of that run. -/
def ThreadRun (re : Regexp) (b : List Nat) (s0 sp pos : Nat) (th : state) : Prop :=
  ∃ p0 tr, RuneStart b sp p0 ∧ vstart th.m = (p0 : Int) ∧
    Run re.inst b s0 p0 (seedVec re p0) tr th.inst pos th.m

/-- The state f is the record of a match: the vector of a run from s0 to iEnd, with the
offset of the end written into it. -/
def FinalOK (re : Regexp) (b : List Nat) (s0 sp : Nat) (f : state) : Prop :=
  f.prefixed = false ∧
  ∃ p0 q tr m1 k, RuneStart b sp p0 ∧ q ≤ b.length ∧
    Run re.inst b s0 p0 (seedVec re p0) tr k q m1 ∧ kindAt re.inst k = some .iEnd ∧
    f.m = m1.set 1 (q : Int)

/-- The match of f is at least as good as the match of f0: it starts earlier, or it
starts at the same offset and is at least as long. -/
def NoWorse (f f0 : state) : Prop :=
  vstart f.m < vstart f0.m ∨ (vstart f.m = vstart f0.m ∧ vend f0.m ≤ vend f.m)

/-- What the step of the thread st over the rune c, from offset pos0 to offset pos, does to
the variables acc of the loop: t is what it adds to the list, and the best match is at least
as good as the match of st when st is at iEnd. -/
structure StepPost (G : List instr) (b : List Nat) (L pos0 pos : Nat) (c : Int)
    (acc : execState) (st : state) (acc2 : execState) (t : List state) : Prop where
  out : acc2.out = acc.out ++ t
  ok : ListOK G L acc2.out
  start : ∀ th ∈ t, vstart th.m = vstart st.m
  closed : ∀ th ∈ t, AltDone G pos b.length acc2.out th
  eats : ∀ x j, G[st.inst]? = some x → x.eats c = true → x.next = some j →
    Handled G pos b.length acc2.out (vstart st.m) j
  run : ∀ th ∈ t, ∃ x j tr, G[st.inst]? = some x ∧ x.eats c = true ∧ x.next = some j ∧
    Run G b j pos st.m tr th.inst pos th.m
  keep : ∀ x, G[st.inst]? = some x → x.kind ≠ .iEnd →
    acc2.final = acc.final ∧ acc2.found = acc.found
  fend : ∀ x, G[st.inst]? = some x → x.kind = .iEnd →
    acc2.found = true ∧ ∃ f, acc2.final = some f ∧ Dominates f (vstart st.m) (pos0 : Int) ∧
      (f = { st with m := st.m.set 1 (pos0 : Int) } ∨ (acc.found = true ∧ acc.final = some f)) ∧
      ∀ f0, acc.found = true → acc.final = some f0 → NoWorse f f0

/-- The thread st is at iEnd. -/
def AtEnd (G : List instr) (st : state) : Prop := kindAt G st.inst = some .iEnd

/-- What the steps of the threads sin over the rune c, from offset pos0 to offset pos, do to
the variables acc of the loop. -/
structure AllPost (G : List instr) (b : List Nat) (L pos0 pos : Nat) (c : Int)
    (acc : execState) (sin : List state) (acc2 : execState) (t : List state) : Prop where
  out : acc2.out = acc.out ++ t
  ok : ListOK G L acc2.out
  sorted : acc2.out.Pairwise (fun s1 s2 => vstart s1.m ≤ vstart s2.m)
  run : ∀ th ∈ t, ∃ st ∈ sin, vstart th.m = vstart st.m ∧
    ∃ x j tr, G[st.inst]? = some x ∧ x.eats c = true ∧ x.next = some j ∧
      Run G b j pos st.m tr th.inst pos th.m
  closed : ∀ th ∈ t, AltDone G pos b.length acc2.out th
  eats : ∀ st ∈ sin, ∀ x j, G[st.inst]? = some x → x.eats c = true → x.next = some j →
    Handled G pos b.length acc2.out (vstart st.m) j
  hasFinal : acc2.found = true → ∃ f, acc2.final = some f ∧ 2 ≤ f.m.length
  foundSrc : acc2.found = true → acc.found = true ∨ ∃ st ∈ sin, AtEnd G st
  src : ∀ f, acc2.final = some f → acc.final = some f ∨
    ∃ st ∈ sin, AtEnd G st ∧ f = { st with m := st.m.set 1 (pos0 : Int) }
  mono : ∀ f0, acc.found = true → acc.final = some f0 →
    ∃ f, acc2.found = true ∧ acc2.final = some f ∧ NoWorse f f0
  dom : ∀ st ∈ sin, AtEnd G st →
    ∃ f, acc2.found = true ∧ acc2.final = some f ∧ Dominates f (vstart st.m) (pos0 : Int)

/-- What holds of the variables of the loop of doExecute when the scan, begun at offset sp,
is at offset pos: the threads of the list are at the ends of runs, the best match is the
record of a match, every run that began before `lim` and is at pos is handled on the list or
is beaten by the best match, and every match that ends before pos is dominated by the best
match. -/
structure LoopInv (re : Regexp) (b : List Nat) (s0 sp pos lim : Nat) (out : List state)
    (final : Option state) (found : Bool) : Prop where
  ok : ListOK re.inst (2 * (re.nbra + 1)) out
  sorted : out.Pairwise (fun s1 s2 => vstart s1.m ≤ vstart s2.m)
  before : ∀ th ∈ out, vstart th.m ≤ (pos : Int)
  here : pos ≤ b.length → RuneStart b sp pos
  runs : pos ≤ b.length → ∀ th ∈ out, ThreadRun re b s0 sp pos th
  hasFinal : found = true → ∃ f, final = some f
  fin : ∀ f, final = some f → found = true ∧ FinalOK re b s0 sp f ∧ vend f.m < (pos : Int)
  closed : ∀ th ∈ out, AltDone re.inst pos b.length out th
  reach : ∀ p0 i tr m, RuneStart b sp p0 → p0 < lim →
    Run re.inst b s0 p0 (seedVec re p0) tr i pos m →
    Handled re.inst pos b.length out (p0 : Int) i ∨ ∃ f, final = some f ∧ vstart f.m < (p0 : Int)
  done : ∀ p0 q k tr m, RuneStart b sp p0 → q < pos →
    Run re.inst b s0 p0 (seedVec re p0) tr k q m → kindAt re.inst k = some .iEnd →
    ∃ f, final = some f ∧ Dominates f (p0 : Int) (q : Int)

/-- The rune the loop of doExecute reads at offset pos of b, and its width: endOfFile, of
width 1, at the end of b. -/
def cwAt (b : List Nat) (pos : Nat) : Int × Nat :=
  if pos < b.length then DecodeRune ((b.drop pos).take (b.length - pos)) else (endOfFile, 1)

/-- The program of re as the matcher finds it: well formed, with s0 the instruction after
iStart. -/
structure Ready (re : Regexp) (rk : Nat → Nat) (x0 : instr) (s0 : Nat) : Prop where
  prog : ProgOK re.inst re.nbra rk
  start : re.start = some 0
  first : re.inst[0]? = some x0
  next : x0.next = some s0
  good : Good re.inst s0

/-- How far doExecute moves the start of the scan of the string str from pos, by its check
of the prefix: -1 when the check says that there is no match. -/
def advanceOf (re : Regexp) (str : List Nat) (pos : Nat) (anchored : Bool) : Int :=
  if re.prefixBytes ≠ [] then
    if anchored then (if ¬ HasPrefix str re.prefixBytes then -1 else 0)
    else Index (str.drop pos) re.prefixBytes
  else 0

/-- The vector m is the vector of a match of re in str that starts at or after pos: the
vector of a run from s0 to iEnd, with the offset of the end written into it. -/
def MatchAt (re : Regexp) (str : List Nat) (s0 pos : Nat) (m : List Int) : Prop :=
  ∃ p q tr m1 k, pos ≤ p ∧ q ≤ str.length ∧
    Run re.inst str s0 p (seedVec re p) tr k q m1 ∧ kindAt re.inst k = some .iEnd ∧
    m = m1.set 1 (q : Int)

/-- The vectors of a list of matches, as allMatches delivers them: each holds a span that
begins at or after `lo`, the end of the span before it, and that is not an empty span at
`pe`, the end of the match before it. -/
def SpansFrom : Int → Int → List (List Int) → Prop
  | _, _, [] => True
  | lo, pe, a :: rest =>
    ∃ a0 a1 : Int, a[0]? = some a0 ∧ a[1]? = some a1 ∧ lo ≤ a0 ∧ a0 ≤ a1 ∧
      (a0 = a1 → pe < a0) ∧ SpansFrom a1 a1 rest

/-- The vectors of a list are vectors of matches of re in str, the first one of a match
that starts at or after pos and each other one of a match that starts after the offset
its predecessor was searched from. -/
def MatchesFrom (re : Regexp) (str : List Nat) (s0 : Nat) : Nat → List (List Int) → Prop
  | _, [] => True
  | pos, a :: rest =>
    MatchAt re str s0 pos a ∧ ∃ pos2, pos < pos2 ∧ MatchesFrom re str s0 pos2 rest

end GoRegexp

namespace GoRegexp

/-! ## Two runs of the parser on patterns that differ by a prefix and a suffix -/

/-- The instruction x with its group number moved up by d groups. -/
def shiftBra (d : Nat) (x : instr) : instr :=
  if x.kind = .iBra then { x with braNum := x.braNum + 2 * d } else x

/-- The rune the parser loads when it reaches the bytes suf: the first byte of suf, or the
end of the pattern when there are none. -/
def sufCh (suf : List Nat) : Int :=
  match suf with
  | [] => endOfFile
  | c :: _ => (c : Int)

/-- The bytes suf, if any, start with an ASCII byte that is neither a quantifier nor the
bar. -/
def SufOK (suf : List Nat) : Prop :=
  ∀ c t, suf = c :: t → c < 128 ∧ c ≠ 42 ∧ c ≠ 43 ∧ c ≠ 63 ∧ c ≠ 124

/-- The Regexp re2 is re with the pattern put between pre and suf, and with d more groups
opened before its own. -/
def RSim (pre suf : List Nat) (d : Nat) (re re2 : Regexp) : Prop :=
  re2.expr = pre ++ re.expr ++ suf ∧ re2.inst = re.inst.map (shiftBra d) ∧
  re2.nbra = re.nbra + d

/-- The position (pos2, ch2) in the longer pattern that goes with the position (pos, ch) in
the pattern of length len: the same rune, pre.length bytes further; at the end of the
pattern, the first rune of suf. -/
def PosSim (pre suf : List Nat) (len pos : Nat) (ch : Int) (pos2 : Nat) (ch2 : Int) : Prop :=
  pos ≤ len ∧
  (ch ≠ endOfFile → ch2 = ch ∧ pos2 = pre.length + pos) ∧
  (ch = endOfFile → pos = len ∧ ch2 = sufCh suf ∧ pos2 = pre.length + len + min 1 suf.length)

/-- The parser q2 is at the place of the longer pattern that goes with the place of q. -/
structure Sim (pre suf : List Nat) (d : Nat) (q q2 : parser) : Prop where
  re : RSim pre suf d q.re q2.re
  nlpar : q2.nlpar = q.nlpar + d
  pos : PosSim pre suf q.re.expr.length q.pos q.ch q2.pos q2.ch

/-- The parser q has not reached the bytes suf. -/
def Live (suf : List Nat) (q : parser) : Prop := suf = [] ∨ q.ch ≠ endOfFile

/-- The call of the function of the parser for the nonterminal nt, with fuel n. -/
def callNT : NT → Nat → parser → Except Abort (parser × Option Nat × Option Nat)
  | .term, n, p => parser.term n p
  | .closure, n, p => parser.closure n p
  | .concat, n, p => parser.concatenation n p
  | .concatLoop _ s e, n, p => parser.concatenationLoop n p (some s) (some e)
  | .regexp, n, p => parser.regexp n p
  | .regexpLoop _ s e, n, p => parser.regexpLoop n p (some s) (some e)

/-- The nonterminals whose function returns without looking at the rune after what it
read: term and closure. -/
def NT.inner : NT → Bool
  | .term => true
  | .closure => true
  | _ => false

/-- The nonterminals of the two loops. -/
def NT.isRegexpLoop : NT → Bool
  | .regexpLoop _ _ _ => true
  | _ => false

/-! ## Two programs that differ by the instruction for any rune but newline -/

/-- The instruction x, with iAny in the place of iNotNL. -/
def notNLAsAny (x : instr) : instr :=
  if x.kind = .iNotNL then { x with kind := .iAny } else x

/-- The Regexp re with iAny in the place of every iNotNL, and with the pattern e. -/
def Regexp.asAny (re : Regexp) (e : List Nat) : Regexp :=
  { re with expr := e, inst := re.inst.map notNLAsAny }

/-! ## Ranges in a class -/

/-- The rune x is a character (a Unicode scalar value) other than the three that have a
meaning of their own inside a class: the closing bracket, the hyphen and the backslash. -/
def classLiteral (x : Int) : Prop :=
  0 ≤ x ∧ x < 1114112 ∧ ¬ (55296 ≤ x ∧ x < 57344) ∧ x ≠ 93 ∧ x ≠ 45 ∧ x ≠ 92

/-- The pattern `[x-y]`. -/
def rangePattern (x y : Int) : List Nat :=
  bytesOf "[" ++ EncodeRune x ++ bytesOf "-" ++ EncodeRune y ++ bytesOf "]"

end GoRegexp

namespace GoRegexp

/-! ## The language of a syntax tree -/

/-- Whether the rune c belongs to the class with the negation flag neg and the ranges rs
(stored pairwise): c lies in one of the ranges, or in none of them when the class is
negated. -/
def classHas (neg : Bool) (rs : List Int) (c : Int) : Bool := xor neg (rangesMatch c rs)

/-- The language a syntax tree denotes under the grammar of the package comment, as spans of
the subject b: `Lang b r p q` says that the bytes of b from offset p to offset q belong to
the language of r. Juxtaposition is concatenation, the bar is alternation, the star is zero
or more, the plus one or more and the question mark zero or one repetition, the dot is any
rune, a class is its set of runes, `^` holds only at offset 0 and `$` only at the end of b,
and parentheses only group. -/
inductive Lang (b : List Nat) : Ast → Nat → Nat → Prop
  | bot : Lang b .bot 0 0
  | eot : Lang b .eot b.length b.length
  | any {p : Nat} : p < b.length → Lang b .any p (p + (DecodeRune (b.drop p)).2)
  | char {c : Int} {p : Nat} : p < b.length → (DecodeRune (b.drop p)).1 = c →
      Lang b (.char c) p (p + (DecodeRune (b.drop p)).2)
  | cls {neg : Bool} {rs : List Int} {p : Nat} : p < b.length →
      classHas neg rs (DecodeRune (b.drop p)).1 = true →
      Lang b (.cls neg rs) p (p + (DecodeRune (b.drop p)).2)
  | group {k : Nat} {r : Ast} {p q : Nat} : Lang b r p q → Lang b (.group k r) p q
  | starNil {r : Ast} {p : Nat} : Lang b (.star r) p p
  | starCons {r : Ast} {p q t : Nat} : Lang b r p q → Lang b (.star r) q t →
      Lang b (.star r) p t
  | plus {r : Ast} {p q t : Nat} : Lang b r p q → Lang b (.star r) q t → Lang b (.plus r) p t
  | optNil {r : Ast} {p : Nat} : Lang b (.opt r) p p
  | optSome {r : Ast} {p q : Nat} : Lang b r p q → Lang b (.opt r) p q
  | empty {p : Nat} : Lang b .empty p p
  | cat {r1 r2 : Ast} {p q t : Nat} : Lang b r1 p q → Lang b r2 q t → Lang b (.cat r1 r2) p t
  | altLeft {r1 r2 : Ast} {p q : Nat} : Lang b r1 p q → Lang b (.alt r1 r2) p q
  | altRight {r1 r2 : Ast} {p q : Nat} : Lang b r2 p q → Lang b (.alt r1 r2) p q

/-- The language of a syntax tree with the match vector: `LangV b r p m q m2` says that the
span from p to q of b belongs to the language of r, and that reading it turns the match
vector m into m2. The group with number k writes the offset where its span starts at
position 2k of the vector and the offset where it ends at position 2k+1; nothing else
writes. -/
inductive LangV (b : List Nat) : Ast → Nat → List Int → Nat → List Int → Prop
  | bot {m : List Int} : LangV b .bot 0 m 0 m
  | eot {m : List Int} : LangV b .eot b.length m b.length m
  | any {p : Nat} {m : List Int} : p < b.length →
      LangV b .any p m (p + (DecodeRune (b.drop p)).2) m
  | char {c : Int} {p : Nat} {m : List Int} : p < b.length → (DecodeRune (b.drop p)).1 = c →
      LangV b (.char c) p m (p + (DecodeRune (b.drop p)).2) m
  | cls {neg : Bool} {rs : List Int} {p : Nat} {m : List Int} : p < b.length →
      classHas neg rs (DecodeRune (b.drop p)).1 = true →
      LangV b (.cls neg rs) p m (p + (DecodeRune (b.drop p)).2) m
  | group {k : Nat} {r : Ast} {p q : Nat} {m m1 : List Int} :
      LangV b r p (m.set (2 * k) (p : Int)) q m1 →
      LangV b (.group k r) p m q (m1.set (2 * k + 1) (q : Int))
  | starNil {r : Ast} {p : Nat} {m : List Int} : LangV b (.star r) p m p m
  | starCons {r : Ast} {p q t : Nat} {m m1 m2 : List Int} : LangV b r p m q m1 →
      LangV b (.star r) q m1 t m2 → LangV b (.star r) p m t m2
  | plus {r : Ast} {p q t : Nat} {m m1 m2 : List Int} : LangV b r p m q m1 →
      LangV b (.star r) q m1 t m2 → LangV b (.plus r) p m t m2
  | optNil {r : Ast} {p : Nat} {m : List Int} : LangV b (.opt r) p m p m
  | optSome {r : Ast} {p q : Nat} {m m1 : List Int} : LangV b r p m q m1 →
      LangV b (.opt r) p m q m1
  | empty {p : Nat} {m : List Int} : LangV b .empty p m p m
  | cat {r1 r2 : Ast} {p q t : Nat} {m m1 m2 : List Int} : LangV b r1 p m q m1 →
      LangV b r2 q m1 t m2 → LangV b (.cat r1 r2) p m t m2
  | altLeft {r1 r2 : Ast} {p q : Nat} {m m1 : List Int} : LangV b r1 p m q m1 →
      LangV b (.alt r1 r2) p m q m1
  | altRight {r1 r2 : Ast} {p q : Nat} {m m1 : List Int} : LangV b r2 p m q m1 →
      LangV b (.alt r1 r2) p m q m1

/-- The numbers of the groups of a tree, in the order in which their opening parentheses
stand in the pattern: a group comes before the groups inside it, and what is on the left
before what is on the right. -/
def Ast.groups : Ast → List Nat
  | .group k r => k :: r.groups
  | .star r => r.groups
  | .plus r => r.groups
  | .opt r => r.groups
  | .cat r1 r2 => r1.groups ++ r2.groups
  | .alt r1 r2 => r1.groups ++ r2.groups
  | _ => []

/-- Every group of the tree has a lower number than any group nested in it. -/
def Ast.outerLower : Ast → Prop
  | .group k r => (∀ j, j ∈ r.groups → k < j) ∧ r.outerLower
  | .star r => r.outerLower
  | .plus r => r.outerLower
  | .opt r => r.outerLower
  | .cat r1 r2 => r1.outerLower ∧ r2.outerLower
  | .alt r1 r2 => r1.outerLower ∧ r2.outerLower
  | _ => True

/-! ## The program before the elimination of the iNop instructions -/

/-- One move of a program that still has its iNop instructions: a move of the matcher, or
the step over an iNop. -/
inductive StepN (G : List instr) (b : List Nat) :
    Nat → Nat → List Int → Nat → Nat → List Int → Prop
  | step {i pos j pos1 : Nat} {m m1 : List Int} : Step G b i pos m j pos1 m1 →
      StepN G b i pos m j pos1 m1
  | nop {i pos j : Nat} {m : List Int} {x : instr} : G[i]? = some x → x.kind = .iNop →
      x.next = some j → StepN G b i pos m j pos m

/-- A path of n moves of a program that still has its iNop instructions. -/
inductive PathN (G : List instr) (b : List Nat) :
    Nat → Nat → Nat → List Int → Nat → Nat → List Int → Prop
  | nil {i pos : Nat} {m : List Int} : PathN G b 0 i pos m i pos m
  | cons {n i pos j pos1 k pos2 : Nat} {m m1 m2 : List Int} :
      StepN G b i pos m j pos1 m1 → PathN G b n j pos1 m1 k pos2 m2 →
      PathN G b (n + 1) i pos m k pos2 m2

/-- The instruction y is the instruction x up to its links and its index. -/
def SameOp (x y : instr) : Prop :=
  y.kind = x.kind ∧ y.char = x.char ∧ y.cclass = x.cclass ∧ y.braNum = x.braNum

/-- The instruction x is the one the parser adds for the tree r, a tree without
subtrees. -/
def LeafFor (x : instr) : Ast → Prop
  | .bot => x.kind = .iBOT
  | .eot => x.kind = .iEOT
  | .any => x.kind = .iAny
  | .char c => x.kind = .iChar ∧ x.char = c
  | .cls neg rs => (x.kind = .iChar ∨ x.kind = .iCharClass ∨ x.kind = .iNotNL) ∧
      ∀ c, c ≠ endOfFile → (x.eats c = true ↔ classHas neg rs c = true)
  | .empty => x.kind = .iNop
  | _ => False

/-- The class cc is as charClass.addRange keeps it: the ranges come in pairs, and every rune
of a range lies between `cmin` and `cmax`. -/
def ClassOK (cc : charClass) : Prop :=
  (∃ n, cc.ranges.length = 2 * n) ∧
  ∀ c, rangesMatch c cc.ranges = true → cc.cmin ≤ c ∧ c ≤ cc.cmax

/-- The instruction at index i of G has the `next` link j. -/
def NextAt (G : List instr) (i j : Nat) : Prop := ∃ x, G[i]? = some x ∧ x.next = some j

/-- The instruction at index i of G is an iAlt with the `left` link j. -/
def AltAt (G : List instr) (i j : Nat) : Prop :=
  ∃ x, G[i]? = some x ∧ x.kind = .iAlt ∧ x.left = some j

/-- The instruction at index i of G is the group marker with number n. -/
def BraAt (G : List instr) (i n : Nat) : Prop :=
  ∃ x, G[i]? = some x ∧ x.kind = .iBra ∧ x.braNum = n

/-- The instruction at index i of G is an iNop. -/
def NopAt (G : List instr) (i : Nat) : Prop := ∃ x, G[i]? = some x ∧ x.kind = .iNop

/-- The instructions of G from index m up to index n are the fragment the parser builds for
the tree r, with start instruction s and end instruction e; the `next` link of e is left
open. -/
inductive Built (G : List instr) : Nat → Nat → Ast → Nat → Nat → Prop
  | leaf {m : Nat} {r : Ast} {x : instr} : G[m]? = some x → LeafFor x r →
      Built G m (m + 1) r m m
  | group {m n1 k s1 e1 : Nat} {r : Ast} : Built G m n1 r s1 e1 →
      BraAt G n1 (2 * k) → NextAt G n1 s1 → NextAt G e1 (n1 + 1) → BraAt G (n1 + 1) (2 * k + 1) →
      Built G m (n1 + 2) (.group k r) n1 (n1 + 1)
  | star {m n1 s1 e1 : Nat} {r : Ast} : Built G m n1 r s1 e1 →
      AltAt G n1 s1 → NextAt G e1 n1 → Built G m (n1 + 1) (.star r) n1 n1
  | plus {m n1 s1 e1 : Nat} {r : Ast} : Built G m n1 r s1 e1 →
      AltAt G n1 s1 → NextAt G e1 n1 → Built G m (n1 + 1) (.plus r) s1 n1
  | opt {m n1 s1 e1 : Nat} {r : Ast} : Built G m n1 r s1 e1 →
      AltAt G n1 s1 → NextAt G n1 (n1 + 1) → NopAt G (n1 + 1) → NextAt G e1 (n1 + 1) →
      Built G m (n1 + 2) (.opt r) n1 (n1 + 1)
  | cat {m n1 n s1 e1 s2 e2 : Nat} {r1 r2 : Ast} : Built G m n1 r1 s1 e1 →
      Built G n1 n r2 s2 e2 → NextAt G e1 s2 → Built G m n (.cat r1 r2) s1 e2
  | alt {m n1 n2 s1 e1 s2 e2 : Nat} {r1 r2 : Ast} : Built G m n1 r1 s1 e1 →
      Built G n1 n2 r2 s2 e2 → AltAt G n2 s1 → NextAt G n2 s2 → NopAt G (n2 + 1) →
      NextAt G e1 (n2 + 1) → NextAt G e2 (n2 + 1) →
      Built G m (n2 + 2) (.alt r1 r2) n2 (n2 + 1)

/-- What a run of the parser builds: the fragment of the tree it read, in the instructions
it added; a loop extends the fragment of the tree it is entered with. -/
def BuiltSpec : NT → parser → Ast → parser → Nat → Nat → Prop
  | .concatLoop a s0 e0, p, r, p2, s, e =>
      ∀ m, Built p.re.inst m p.re.inst.length a s0 e0 →
        Built p2.re.inst m p2.re.inst.length r s e
  | .regexpLoop a s0 e0, p, r, p2, s, e =>
      ∀ m, Built p.re.inst m p.re.inst.length a s0 e0 →
        Built p2.re.inst m p2.re.inst.length r s e
  | _, p, r, p2, s, e => Built p2.re.inst p.re.inst.length p2.re.inst.length r s e

/-- The instruction t is the first one that is not an iNop on the chain of `next` links
from the instruction j of G. -/
inductive Skip (G : List instr) : Nat → Nat → Prop
  | here {j : Nat} {x : instr} : G[j]? = some x → x.kind ≠ .iNop → Skip G j j
  | step {j j1 t : Nat} {x : instr} : G[j]? = some x → x.kind = .iNop → x.next = some j1 →
      Skip G j1 t → Skip G j t

/-- The program G2 is the program G after the elimination of the iNop instructions: every
instruction is the same up to its links, and a link leads to the first instruction that is
not an iNop on the chain from where it led. -/
structure Elim (G G2 : List instr) : Prop where
  length : G2.length = G.length
  node : ∀ (i : Nat) (x : instr), G[i]? = some x → ∃ y, G2[i]? = some y ∧ SameOp x y ∧
    (x.kind ≠ .iEnd → ∃ j t, x.next = some j ∧ y.next = some t ∧ Skip G j t) ∧
    (x.kind = .iAlt → ∃ j t, x.left = some j ∧ y.left = some t ∧ Skip G j t)

/-- The loop of eliminateNops has handled the instructions of G before index k, and G2 is
the program it has made of G so far. -/
structure ElimTo (G G2 : List instr) (k : Nat) : Prop where
  length : G2.length = G.length
  node : ∀ (i : Nat) (x : instr), G[i]? = some x → ∃ y, G2[i]? = some y ∧ SameOp x y ∧
    (k ≤ i → y = x) ∧
    (i < k → (x.kind ≠ .iEnd → ∃ j t, x.next = some j ∧ y.next = some t ∧ Skip G j t) ∧
      (x.kind = .iAlt → ∃ j t, x.left = some j ∧ y.left = some t ∧ Skip G j t))
  skip : ∀ j t, Skip G2 j t → Skip G j t

end GoRegexp

namespace GoRegexp

/-! ## More methods of Regexp -/

/-- String returns the source text used to compile the regular expression. -/
def Regexp.String (re : Regexp) : List Nat := re.expr

/-- Modelled from the spec: the conversion `string(c)` of a slice of runes, which belongs to
the language and not to the sources; every rune is encoded in UTF-8, a rune that is not a
Unicode scalar value as U+FFFD. -/
def stringOfRunes (c : List Int) : List Nat := c.flatMap EncodeRune

/-- The loop `for inst := re.inst[0].next; inst.kind != iEnd; inst = inst.next` of
LiteralPrefix: i is the pointer `inst`, c the runes `c[:i]` stored so far in an array of
length cap. The result is `none` when the loop panics or runs out of fuel. -/
def literalLoop (inst : List instr) (cap : Nat) : Nat → Option Nat → List Int →
    Option (List Int × Bool)
  | 0, _, _ => none
  | fuel + 1, i, c =>
    match i with
    | none => none
    | some k =>
      match inst[k]? with
      | none => none
      | some x =>
        if x.kind = .iEnd then some (c, true)
        else if x.kind ≠ .iChar then some (c, false)
        else if c.length < cap then literalLoop inst cap fuel x.next (c ++ [x.char])
        else none

/-- LiteralPrefix returns a literal string that must begin any match of the regular
expression re, and the boolean true if the literal string comprises the entire regular
expression; `none` stands for a panic. -/
def Regexp.LiteralPrefix (re : Regexp) : Option (List Nat × Bool) :=
  if re.inst.length < 2 then none
  else
    match re.inst[0]? with
    | none => none
    | some x0 =>
      (literalLoop re.inst (re.inst.length - 2) (re.inst.length + 1) x0.next []).map
        (fun r => (stringOfRunes r.1, r.2))

/-- The instructions of G from j on are iChar instructions for the runes cs, one after the
other; after them comes iEnd when `complete` is true, and an instruction that is neither
iEnd nor an iChar when it is false. -/
inductive CharChain (G : List instr) : Nat → List Int → Bool → Prop
  | done {j : Nat} {x : instr} : G[j]? = some x → x.kind = .iEnd → CharChain G j [] true
  | stop {j : Nat} {x : instr} : G[j]? = some x → x.kind ≠ .iEnd → x.kind ≠ .iChar →
      CharChain G j [] false
  | char {j j1 : Nat} {x : instr} {cs : List Int} {ok : Bool} : G[j]? = some x →
      x.kind = .iChar → x.next = some j1 → CharChain G j1 cs ok →
      CharChain G j (x.char :: cs) ok

/-- The runes decoded from the subject b from offset p on are the runes cs, and q is the
offset after them. -/
inductive Reads (b : List Nat) : Nat → List Int → Nat → Prop
  | nil {p : Nat} : Reads b p [] p
  | cons {p q : Nat} {c : Int} {cs : List Int} : p < b.length →
      (DecodeRune (b.drop p)).1 = c → Reads b (p + (DecodeRune (b.drop p)).2) cs q →
      Reads b p (c :: cs) q

end GoRegexp

namespace GoRegexp

/-! ## The grammar of the package comment, on the runes of the pattern -/

/-- The runes of the bytes b, decoded one after the other (n bytes of fuel). -/
def runesFrom : Nat → List Nat → List Int
  | 0, _ => []
  | n + 1, b =>
    match b with
    | [] => []
    | _ :: _ => (DecodeRune b).1 :: runesFrom n (b.drop (DecodeRune b).2)

/-- The runes of the pattern b, as the parser reads them. -/
def runes (b : List Nat) : List Int := runesFrom b.length b

/-- The runes the parser p has not gone past: the rune in `ch` and those after `pos`. -/
def parser.toks (p : parser) : List Int :=
  if p.ch = endOfFile then [] else p.ch :: runes (p.re.expr.drop p.pos)

/-- The position of the parser is as parser.nextc leaves it: at the end of the pattern
`pos` is the length of the pattern, and a rune in `ch` is not negative. -/
def PosOK (p : parser) : Prop :=
  (p.ch = endOfFile → p.re.expr.length ≤ p.pos) ∧ (p.ch ≠ endOfFile → 0 ≤ p.ch)

/-- Where a scan of the pattern from the left is: outside a class, inside a class, or after
a backslash in one of the two. -/
inductive ScanState
  | out
  | cls
  | escOut
  | escCls
  deriving DecidableEq, Repr

/-- One step of the scan that counts the parentheses that open a group: a parenthesis does
when it stands outside a class and is not escaped by a backslash. -/
def scanStep (a : Nat × ScanState) (c : Int) : Nat × ScanState :=
  match a.2 with
  | .escOut => (a.1, .out)
  | .escCls => (a.1, .cls)
  | .out =>
    if c = 92 then (a.1, .escOut)
    else if c = 91 then (a.1, .cls)
    else if c = 40 then (a.1 + 1, .out)
    else (a.1, .out)
  | .cls =>
    if c = 92 then (a.1, .escCls)
    else if c = 93 then (a.1, .out)
    else (a.1, .cls)

/-- The number of group-opening parentheses in the runes t, and where the scan ends. -/
def scan (t : List Int) : Nat × ScanState := t.foldl scanStep (0, .out)

/-- The number of group-opening parentheses in the runes t. -/
def openParens (t : List Int) : Nat := (scan t).1

/-- The runes t are a character that stands for the rune c: a rune with no meaning of its
own, or a backslash followed by a punctuation character or by one of the letters of the
escapes `\a \b \f \n \r \t \v`. -/
inductive CharText : List Int → Int → Prop
  | plain {c : Int} : 0 ≤ c → c ∉ specialRunes → CharText [c] c
  | punct {c : Int} : ispunct c = true → CharText [92, c] c
  | escape {c : Int} : 0 ≤ escape c → CharText [92, c] (escaped.getD (escape c).toNat 0)

/-- The runes t are a character of a class that stands for the rune c: a rune other than
the closing bracket, the hyphen and the backslash, or an escape. -/
inductive ClassChar : List Int → Int → Prop
  | plain {c : Int} : 0 ≤ c → c ≠ 93 → c ≠ 45 → c ≠ 92 → ClassChar [c] c
  | punct {c : Int} : ispunct c = true → ClassChar [92, c] c
  | escape {c : Int} : 0 ≤ escape c → ClassChar [92, c] (escaped.getD (escape c).toNat 0)

/-- The runes t are a sequence of character ranges, `character [ '-' character ]`, and rs
are their bounds, stored pairwise. -/
inductive RangesText : List Int → List Int → Prop
  | nil : RangesText [] []
  | single {t rest : List Int} {c : Int} {rs : List Int} : ClassChar t c →
      RangesText rest rs → RangesText (t ++ rest) (c :: c :: rs)
  | range {t1 t2 rest : List Int} {a b : Int} {rs : List Int} : ClassChar t1 a →
      ClassChar t2 b → a ≤ b → RangesText rest rs →
      RangesText (t1 ++ [45] ++ t2 ++ rest) (a :: b :: rs)

/-- The nonterminals of the grammar of the package comment; `seq` is a concatenation of one
closure or more. -/
inductive GNT
  | term
  | closure
  | seq
  | concat
  | regexp
  deriving DecidableEq, Repr

/-- The grammar of the package comment: `Gram nt pre t r` says that the runes t, which
follow the runes `pre` in the pattern, are derived from the nonterminal nt, and that r is
their syntax tree. A quantifier applies to the term right before it, juxtaposition and the
bar associate to the left, and the group whose opening parenthesis comes after k - 1
group-opening parentheses of the pattern has the number k. A `^` right after the opening
bracket of a class negates the class: the ranges of a class that is not negated do not
begin with it. -/
inductive Gram : GNT → List Int → List Int → Ast → Prop
  | bot {pre : List Int} : Gram .term pre [94] .bot
  | eot {pre : List Int} : Gram .term pre [36] .eot
  | any {pre : List Int} : Gram .term pre [46] .any
  | char {pre t : List Int} {c : Int} : CharText t c → Gram .term pre t (.char c)
  | cls {pre t : List Int} {rs : List Int} : RangesText t rs → t.head? ≠ some 94 →
      Gram .term pre ([91] ++ t ++ [93]) (.cls false rs)
  | clsNeg {pre t : List Int} {rs : List Int} : RangesText t rs →
      Gram .term pre ([91, 94] ++ t ++ [93]) (.cls true rs)
  | group {pre t : List Int} {r : Ast} : Gram .regexp (pre ++ [40]) t r →
      Gram .term pre ([40] ++ t ++ [41]) (.group (openParens pre + 1) r)
  | plain {pre t : List Int} {r : Ast} : Gram .term pre t r → Gram .closure pre t r
  | star {pre t : List Int} {r : Ast} : Gram .term pre t r →
      Gram .closure pre (t ++ [42]) (.star r)
  | plus {pre t : List Int} {r : Ast} : Gram .term pre t r →
      Gram .closure pre (t ++ [43]) (.plus r)
  | opt {pre t : List Int} {r : Ast} : Gram .term pre t r →
      Gram .closure pre (t ++ [63]) (.opt r)
  | one {pre t : List Int} {r : Ast} : Gram .closure pre t r → Gram .seq pre t r
  | more {pre t1 t2 : List Int} {r1 r2 : Ast} : Gram .seq pre t1 r1 →
      Gram .closure (pre ++ t1) t2 r2 → Gram .seq pre (t1 ++ t2) (.cat r1 r2)
  | empty {pre : List Int} : Gram .concat pre [] .empty
  | seq {pre t : List Int} {r : Ast} : Gram .seq pre t r → Gram .concat pre t r
  | single {pre t : List Int} {r : Ast} : Gram .concat pre t r → Gram .regexp pre t r
  | bar {pre t1 t2 : List Int} {r1 r2 : Ast} : Gram .regexp pre t1 r1 →
      Gram .concat (pre ++ t1 ++ [124]) t2 r2 →
      Gram .regexp pre (t1 ++ [124] ++ t2) (.alt r1 r2)

/-- The nonterminal of the grammar a function of the parser is for. -/
def NT.gram : NT → GNT
  | .term => .term
  | .closure => .closure
  | .concat => .concat
  | .concatLoop _ _ _ => .seq
  | .regexp => .regexp
  | .regexpLoop _ _ _ => .regexp

/-- The tree a loop of the parser is entered with, if the nonterminal is a loop. -/
def NT.acc : NT → Option Ast
  | .concatLoop a _ _ => some a
  | .regexpLoop a _ _ => some a
  | _ => none

/-- What a run of the parser reads: the runes between the two positions are derived from
the nonterminal, with the tree of the run; a loop goes on from what was read before it was
entered. -/
def GramSpec (nt : NT) (p : parser) (r : Ast) (p2 : parser) : Prop :=
  PosOK p → PosOK p2 ∧
  match nt.acc with
  | none => ∀ pre, scan pre = (p.re.nbra, .out) →
      ∃ t, p.toks = t ++ p2.toks ∧ Gram nt.gram pre t r ∧ scan (pre ++ t) = (p2.re.nbra, .out)
  | some a => ∀ pre t0, Gram nt.gram pre t0 a → scan (pre ++ t0) = (p.re.nbra, .out) →
      ∃ t, p.toks = t ++ p2.toks ∧ Gram nt.gram pre (t0 ++ t) r ∧
        scan (pre ++ t0 ++ t) = (p2.re.nbra, .out)

end GoRegexp

namespace GoRegexp

/-! ## The package strings: Count, Split and Join -/

/-- Modelled from the spec: utf8.RuneCountInString, which is not under src/; the number of
runes that decoding s rune after rune yields. -/
def RuneCountInString (s : List Nat) : Nat := (runes s).length

/-- The loop `for ; i+1 < n; i++` of explode: the slice a is filled with the re-encoded
runes of s; the result is the state (i, cur, a) the loop ends in, `none` for a panic. -/
def explodeLoop (s : List Nat) (n : Int) :
    Nat → Nat → Nat → List (List Nat) → Option (Nat × Nat × List (List Nat))
  | 0, _, _, _ => none
  | fuel + 1, i, cur, a =>
    if (i : Int) + 1 < n then
      if cur ≤ s.length then
        let rs := DecodeRuneInString (s.drop cur)
        if i < a.length then
          explodeLoop s n fuel (i + 1) (cur + rs.2) (a.set i (EncodeRune rs.1))
        else none
      else none
    else some (i, cur, a)

/-- The function explode splits s into an array of UTF-8 sequences, one per Unicode
character, up to a maximum of n (n < 0 means no limit); `none` stands for a panic. -/
def explode (s : List Nat) (n : Int) : Option (List (List Nat)) :=
  if n = 0 then some []
  else
    let l : Int := (RuneCountInString s : Int)
    let n : Int := if n ≤ 0 ∨ n > l then l else n
    if n < 0 then none
    else
      match explodeLoop s n (n.toNat + 1) 0 0 (List.replicate n.toNat []) with
      | none => none
      | some (i, cur, a) =>
        if cur < s.length then
          if i < a.length then some (a.set i (s.drop cur)) else none
        else some a

/-- The loop `for i := 0; i < len(s); i++ { if s[i] == c { n++ } }` of Count, on the bytes
not yet visited. -/
def countByteFrom (c : Nat) : List Nat → Nat → Nat
  | [], n => n
  | b :: t, n => countByteFrom c t (if b = c then n + 1 else n)

/-- The loop `for i := 0; i+l <= len(s); i++` of Count for a separator of two bytes or
more. -/
def countLoop (s sep : List Nat) (c : Nat) : Nat → Nat → Nat → Option Nat
  | 0, _, _ => none
  | fuel + 1, i, n =>
    if i + sep.length ≤ s.length then
      match s[i]? with
      | none => none
      | some si =>
        if si = c ∧ (s.drop i).take sep.length = sep then
          countLoop s sep c fuel (i + (sep.length - 1) + 1) (n + 1)
        else countLoop s sep c fuel (i + 1) n
    else some n

/-- Count counts the number of non-overlapping instances of sep in s (strings.Count). -/
def Count (s sep : List Nat) : Option Nat :=
  match sep with
  | [] => some (RuneCountInString s + 1)
  | c :: _ =>
    if sep.length = 1 then some (countByteFrom c s 0)
    else countLoop s sep c (s.length + 1) 0 0

/-- The loop `for i := 0; i+len(sep) <= len(s) && na+1 < n; i++` of genSplit; the result
is the state (start, na, a) the loop ends in, `none` for a panic. -/
def genSplitLoop (s sep : List Nat) (c : Nat) (sepSave : Nat) (n : Int) :
    Nat → Nat → Nat → Nat → List (List Nat) → Option (Nat × Nat × List (List Nat))
  | 0, _, _, _, _ => none
  | fuel + 1, i, start, na, a =>
    if i + sep.length ≤ s.length ∧ (na : Int) + 1 < n then
      match s[i]? with
      | none => none
      | some si =>
        if si = c ∧ (sep.length = 1 ∨ (s.drop i).take sep.length = sep) then
          if start ≤ i + sepSave ∧ i + sepSave ≤ s.length ∧ na < a.length then
            genSplitLoop s sep c sepSave n fuel (i + (sep.length - 1) + 1) (i + sep.length)
              (na + 1) (a.set na ((s.drop start).take (i + sepSave - start)))
          else none
        else genSplitLoop s sep c sepSave n fuel (i + 1) start na a
    else some (start, na, a)

/-- Generic split: splits after each instance of sep, including sepSave bytes of sep in the
subarrays (genSplit); `none` stands for a panic, the nil slice is the empty list. -/
def genSplit (s sep : List Nat) (sepSave : Nat) (n : Int) : Option (List (List Nat)) :=
  if n = 0 then some []
  else
    match sep with
    | [] => explode s n
    | c :: _ =>
      match (if n < 0 then (Count s sep).map (fun k => (k : Int) + 1) else some n) with
      | none => none
      | some n =>
        if n < 0 then none
        else
          match genSplitLoop s sep c sepSave n (s.length + 1) 0 0 0 (List.replicate n.toNat [])
            with
          | none => none
          | some (start, na, a) =>
            if na < a.length ∧ start ≤ s.length then
              if na + 1 ≤ (a.set na (s.drop start)).length then
                some ((a.set na (s.drop start)).take (na + 1))
              else none
            else none

/-- Split slices s into substrings separated by sep and returns a slice of the substrings
between those separators (strings.Split). -/
def Split (s sep : List Nat) (n : Int) : Option (List (List Nat)) := genSplit s sep 0 n

/-- The loop `for j := 0; j < len(s); j++ { b[bp] = s[j]; bp++ }` of Join, on the bytes of
s not yet copied; `none` stands for a panic. -/
def copyBytes : List Nat → List Nat → Nat → Option (List Nat × Nat)
  | [], b, bp => some (b, bp)
  | x :: t, b, bp => if bp < b.length then copyBytes t (b.set bp x) (bp + 1) else none

/-- The loop `for i := 0; i < len(a); i++` of Join, on the elements of a not yet copied. -/
def joinLoop (sep : List Nat) : List (List Nat) → List Nat → Nat → Option (List Nat × Nat)
  | [], b, bp => some (b, bp)
  | s :: rest, b, bp =>
    match copyBytes s b bp with
    | none => none
    | some (b, bp) =>
      if rest ≠ [] then
        match copyBytes sep b bp with
        | none => none
        | some (b, bp) => joinLoop sep rest b bp
      else joinLoop sep rest b bp

/-- Join concatenates the elements of a to create a single string; the separator string sep
is placed between elements in the resulting string (strings.Join). -/
def Join (a : List (List Nat)) (sep : List Nat) : Option (List Nat) :=
  match a with
  | [] => some []
  | [x] => some x
  | _ =>
    let n := a.foldl (fun n x => n + x.length) (sep.length * (a.length - 1))
    (joinLoop sep a (List.replicate n 0) 0).map (fun r => r.1)

/-- The elements of a with sep between them. -/
def joinText (sep : List Nat) : List (List Nat) → List Nat
  | [] => []
  | [x] => x
  | x :: rest => x ++ sep ++ joinText sep rest

end GoRegexp

namespace GoRegexp

/-! ## Two patterns that begin with the same bytes -/

/-- The parser p, reading the pattern e in the place of its own. -/
def parser.onExpr (p : parser) (e : List Nat) : parser :=
  { p with re := { p.re with expr := e } }

/-- The parser p has not gone past the byte at offset n - 1 of its pattern, which holds the
ASCII character d: the rune it has loaded ends before offset n, or it is d itself. -/
def Before (n : Nat) (d : Int) (p : parser) : Prop :=
  p.pos < n ∨ (p.pos = n ∧ p.ch = d)

/-- What holds of the parser p when the function for the nonterminal nt is called in a run
on the pattern e1: the runes not yet read are what is left of the pattern, and what was read
ends outside a class and not on a backslash, with as many group-opening parentheses as the
parser has counted; a loop has read the runes of the tree it is entered with. -/
def Entry (e1 : List Nat) (nt : NT) (p : parser) : Prop :=
  PosOK p ∧ p.re.expr = e1 ∧
  match nt.acc with
  | none => ∃ pr, runes e1 = pr ++ p.toks ∧ scan pr = (p.re.nbra, .out)
  | some a => ∃ pr t0, Gram nt.gram pr t0 a ∧ runes e1 = pr ++ t0 ++ p.toks ∧
      scan (pr ++ t0) = (p.re.nbra, .out)

/-- The parser q, in a run on the pattern e1, is before offset n, and what it has gone past
leaves the scan of the pattern in the state st. -/
def Inside (e1 : List Nat) (n : Nat) (st : ScanState) (q : parser) : Prop :=
  PosOK q ∧ q.re.expr = e1 ∧ q.pos < n ∧ ∃ pr, runes e1 = pr ++ q.toks ∧ (scan pr).2 = st

end GoRegexp

namespace GoRegexp

/-! ## The other entry points of the package -/

/-- MatchString returns whether the Regexp matches the string s (the method). -/
def Regexp.MatchString (re : Regexp) (s : List Nat) : Option Bool :=
  match re.doExecute s none 0 with
  | none => none
  | some none => some false
  | some (some a) => some (decide (a.length > 0))

/-- Match returns whether the Regexp matches the byte slice b (the method). -/
def Regexp.Match (re : Regexp) (b : List Nat) : Option Bool :=
  match re.doExecute [] (some b) 0 with
  | none => none
  | some none => some false
  | some (some a) => some (decide (a.length > 0))

/-- MatchString checks whether a textual regular expression matches a string (the
function of the package): the result is the pair (matched, error), `none` stands for a
panic. -/
def MatchString (pattern s : List Nat) : Option (Bool × Option Error) :=
  match Compile pattern with
  | .error (.error e) => some (false, some e)
  | .error _ => none
  | .ok re => (re.MatchString s).map (fun m => (m, none))

/-- Match checks whether a textual regular expression matches a byte slice (the function
of the package). -/
def Match (pattern b : List Nat) : Option (Bool × Option Error) :=
  match Compile pattern with
  | .error (.error e) => some (false, some e)
  | .error _ => none
  | .ok re => (re.Match b).map (fun m => (m, none))

/-- ReplaceAllString returns a copy of src in which all matches for the Regexp have been
replaced by repl. -/
def Regexp.ReplaceAllString (re : Regexp) (src repl : List Nat) : Option (List Nat) :=
  re.ReplaceAllStringFunc src (fun _ => repl)

/-- The loop `for searchPos <= len(src)` of ReplaceAllFunc, on the byte slice src. -/
def replaceBytesLoop (re : Regexp) (src : List Nat) (repl : List Nat → List Nat) :
    Nat → Int → Nat → List Nat → Option (List Nat)
  | 0, _, _, _ => none
  | fuel + 1, lastMatchEnd, searchPos, buf =>
    if ¬ searchPos ≤ src.length then
      (sliceOf src lastMatchEnd src.length).map (fun t => buf ++ t)
    else
      match re.doExecute [] (some src) searchPos with
      | none => none
      | some none => (sliceOf src lastMatchEnd src.length).map (fun t => buf ++ t)
      | some (some a) =>
        if a.length = 0 then (sliceOf src lastMatchEnd src.length).map (fun t => buf ++ t)
        else
          match a[0]?, a[1]? with
          | some a0, some a1 =>
            match sliceOf src lastMatchEnd a0 with
            | none => none
            | some before =>
              let buf := buf ++ before
              let written : Option (List Nat) :=
                if a1 > lastMatchEnd ∨ a0 = 0 then
                  (sliceOf src a0 a1).map (fun t => buf ++ repl t)
                else some buf
              match written with
              | none => none
              | some buf =>
                let width : Nat := (DecodeRune (src.drop searchPos)).2
                let searchPos : Nat :=
                  if (searchPos : Int) + width > a1 then searchPos + width
                  else if (searchPos : Int) + 1 > a1 then searchPos + 1
                  else a1.toNat
                replaceBytesLoop re src repl fuel a1 searchPos buf
          | _, _ => none

/-- ReplaceAllFunc returns a copy of src in which all matches for the Regexp have been
replaced by the return value of the function repl (whose argument is the matched bytes). -/
def Regexp.ReplaceAllFunc (re : Regexp) (src : List Nat) (repl : List Nat → List Nat) :
    Option (List Nat) :=
  replaceBytesLoop re src repl (src.length + 2) 0 0 []

/-- ReplaceAll returns a copy of src in which all matches for the Regexp have been replaced
by repl. -/
def Regexp.ReplaceAll (re : Regexp) (src repl : List Nat) : Option (List Nat) :=
  re.ReplaceAllFunc src (fun _ => repl)

/-- The slice `b[a[0]:a[1]]` of a match vector a. -/
def matchText (b : List Nat) (a : List Int) : Option (List Nat) :=
  match a[0]?, a[1]? with
  | some a0, some a1 => sliceOf b a0 a1
  | _, _ => none

/-- The slice `a[0:2]` of a match vector a. -/
def matchSpan (a : List Int) : Option (List Int) :=
  if 2 ≤ a.length then some (a.take 2) else none

/-- The loop `for i := range ret { if a[2*i] >= 0 { ret[i] = b[a[2*i]:a[2*i+1]] } }` of the
Submatch functions, on a slice `ret` of len(a)/2 elements; an element left nil is `none`. -/
def submatchTexts (b : List Nat) (a : List Int) : Option (List (Option (List Nat))) :=
  (List.range (a.length / 2)).mapM (fun i =>
    match a[2 * i]? with
    | none => none
    | some lo =>
      if lo ≥ 0 then
        match a[2 * i + 1]? with
        | none => none
        | some hi => (sliceOf b lo hi).map some
      else some none)

/-- Find returns a slice holding the text of the leftmost match in b of the regular
expression; nil (`some none`) indicates no match. -/
def Regexp.Find (re : Regexp) (b : List Nat) : Option (Option (List Nat)) :=
  match re.doExecute [] (some b) 0 with
  | none => none
  | some none => some none
  | some (some a) => (matchText b a).map some

/-- FindIndex returns a two-element slice of integers defining the location of the leftmost
match in b of the regular expression. -/
def Regexp.FindIndex (re : Regexp) (b : List Nat) : Option (Option (List Int)) :=
  match re.doExecute [] (some b) 0 with
  | none => none
  | some none => some none
  | some (some a) => (matchSpan a).map some

/-- FindString returns a string holding the text of the leftmost match in s of the regular
expression; if there is no match, the return value is an empty string. -/
def Regexp.FindString (re : Regexp) (s : List Nat) : Option (List Nat) :=
  match re.doExecute s none 0 with
  | none => none
  | some none => some []
  | some (some a) => matchText s a

/-- FindSubmatch returns a slice of slices holding the text of the leftmost match of the
regular expression in b and the matches, if any, of its subexpressions. -/
def Regexp.FindSubmatch (re : Regexp) (b : List Nat) :
    Option (Option (List (Option (List Nat)))) :=
  match re.doExecute [] (some b) 0 with
  | none => none
  | some none => some none
  | some (some a) => (submatchTexts b a).map some

/-- FindSubmatchIndex returns a slice holding the index pairs identifying the leftmost
match of the regular expression in b and the matches, if any, of its subexpressions. -/
def Regexp.FindSubmatchIndex (re : Regexp) (b : List Nat) : Option (Option (List Int)) :=
  re.doExecute [] (some b) 0

/-- FindStringSubmatch returns a slice of strings holding the text of the leftmost match of
the regular expression in s and the matches, if any, of its subexpressions. -/
def Regexp.FindStringSubmatch (re : Regexp) (s : List Nat) :
    Option (Option (List (Option (List Nat)))) :=
  match re.doExecute s none 0 with
  | none => none
  | some none => some none
  | some (some a) => (submatchTexts s a).map some

/-- The loop of Regexp.allMatches on the byte slice b (`b != nil`); the vectors handed to
`deliver` are collected in order. -/
def allMatchesBytesLoop (re : Regexp) (b : List Nat) (n : Int) (end' : Nat) :
    Nat → Nat → Int → Int → Option (List (List Int))
  | 0, _, _, _ => none
  | fuel + 1, pos, i, prevMatchEnd =>
    if ¬ (i < n ∧ pos ≤ end') then some []
    else
      match re.doExecute [] (some b) pos with
      | none => none
      | some none => some []
      | some (some a) =>
        if a.length = 0 then some []
        else
          match a[0]?, a[1]? with
          | some m0, some m1 =>
            let empty : Bool := decide (m1 = (pos : Int))
            let accept : Bool := !(empty && decide (m0 = prevMatchEnd))
            let width : Nat := (DecodeRune ((b.drop pos).take (end' - pos))).2
            let pos : Nat :=
              if empty then (if width > 0 then pos + width else end' + 1) else m1.toNat
            if accept then
              (allMatchesBytesLoop re b n end' fuel pos (i + 1) m1).map (fun r => a :: r)
            else allMatchesBytesLoop re b n end' fuel pos i m1
          | _, _ => none

/-- The matches of re in the byte slice b, at most n of them (Regexp.allMatches with
b != nil). -/
def Regexp.allMatchesBytes (re : Regexp) (b : List Nat) (n : Int) : Option (List (List Int)) :=
  allMatchesBytesLoop re b n b.length (b.length + 2) 0 0 (-1)

/-- FindAll is the All version of Find: the texts of the successive matches. -/
def Regexp.FindAll (re : Regexp) (b : List Nat) (n : Int) : Option (List (List Nat)) :=
  let n := if n < 0 then (b.length : Int) + 1 else n
  (re.allMatchesBytes b n).bind (fun r => r.mapM (matchText b))

/-- FindAllIndex is the All version of FindIndex. -/
def Regexp.FindAllIndex (re : Regexp) (b : List Nat) (n : Int) : Option (List (List Int)) :=
  let n := if n < 0 then (b.length : Int) + 1 else n
  (re.allMatchesBytes b n).bind (fun r => r.mapM matchSpan)

/-- FindAllString is the All version of FindString. -/
def Regexp.FindAllString (re : Regexp) (s : List Nat) (n : Int) : Option (List (List Nat)) :=
  let n := if n < 0 then (s.length : Int) + 1 else n
  (re.allMatches s n).bind (fun r => r.mapM (matchText s))

/-- FindAllSubmatch is the All version of FindSubmatch. -/
def Regexp.FindAllSubmatch (re : Regexp) (b : List Nat) (n : Int) :
    Option (List (List (Option (List Nat)))) :=
  let n := if n < 0 then (b.length : Int) + 1 else n
  (re.allMatchesBytes b n).bind (fun r => r.mapM (submatchTexts b))

/-- FindAllSubmatchIndex is the All version of FindSubmatchIndex. -/
def Regexp.FindAllSubmatchIndex (re : Regexp) (b : List Nat) (n : Int) :
    Option (List (List Int)) :=
  let n := if n < 0 then (b.length : Int) + 1 else n
  re.allMatchesBytes b n

/-- FindAllStringSubmatch is the All version of FindStringSubmatch. -/
def Regexp.FindAllStringSubmatch (re : Regexp) (s : List Nat) (n : Int) :
    Option (List (List (Option (List Nat)))) :=
  let n := if n < 0 then (s.length : Int) + 1 else n
  (re.allMatches s n).bind (fun r => r.mapM (submatchTexts s))

/-- FindAllStringSubmatchIndex is the All version of FindStringSubmatchIndex. -/
def Regexp.FindAllStringSubmatchIndex (re : Regexp) (s : List Nat) (n : Int) :
    Option (List (List Int)) :=
  let n := if n < 0 then (s.length : Int) + 1 else n
  re.allMatches s n

/-- The pairs of the match vector m are spans of the subject b, or unset: a pair whose
first entry is not negative holds two offsets of b in order. -/
def PairsOK (b : List Nat) (m : List Int) : Prop :=
  ∀ i lo, m[2 * i]? = some lo → 0 ≤ lo →
    ∃ hi, m[2 * i + 1]? = some hi ∧ lo ≤ hi ∧ hi ≤ (b.length : Int)

end GoRegexp

namespace GoRegexp

/-! ## QuoteMeta -/

/-- The loop `for i := 0; i < len(s); i++` of QuoteMeta, on the bytes of s not yet visited:
b is the buffer and j the index of the next byte to write; `none` stands for a panic (an
index out of the range of b). -/
def quoteLoop : List Nat → List Nat → Nat → Option (List Nat × Nat)
  | [], b, j => some (b, j)
  | x :: t, b, j =>
    if special (x : Int) then
      if j < b.length then
        let b := b.set j 92
        let j := j + 1
        if j < b.length then quoteLoop t (b.set j x) (j + 1) else none
      else none
    else if j < b.length then quoteLoop t (b.set j x) (j + 1) else none

/-- QuoteMeta returns a string that quotes all regular expression metacharacters inside the
argument text; the returned string is a regular expression matching the literal text. -/
def QuoteMeta (s : List Nat) : Option (List Nat) :=
  (quoteLoop s (List.replicate (2 * s.length) 0) 0).map (fun r => r.1.take r.2)

/-- The bytes s with a backslash before every byte that is a metacharacter. -/
def quoteBytes (s : List Nat) : List Nat :=
  s.flatMap (fun x => if special (x : Int) then [92, x] else [x])

/-- The runes cs with a backslash before every rune that is a metacharacter. -/
def quoteRunes (cs : List Int) : List Int :=
  cs.flatMap (fun c => if special c then [92, c] else [c])

/-- The tree the loop of parser.concatenation builds from the tree a and the characters cs. -/
def catAst (a : Ast) : List Int → Ast
  | [] => a
  | c :: cs => catAst (.cat a (.char c)) cs

/-- The tree of a pattern that is the sequence of the characters cs. -/
def litAst : List Int → Ast
  | [] => .empty
  | c :: cs => catAst (.char c) cs

end GoRegexp

namespace GoRegexp

/-! ## The program before the elimination of the iNop instructions -/

/-- What Regexp.doParse does once parser.regexp has returned the fragment (s, e) in state p,
up to its call of eliminateNops: `start.next = s`, and `e.next = end` for a new iEnd. -/
def linkEnds (start : Option Nat) (p : parser) (s e : Option Nat) : Except Abort Regexp :=
  match p.re.setNext start s with
  | .error e => .error e
  | .ok r =>
    let r := { r with start := start }
    let rend := r.add { kind := .iEnd }
    rend.1.setNext e rend.2

/-- The part of Regexp.doParse before its call of eliminateNops: the Regexp with the program
as the parser has built it, linked to iStart and iEnd. -/
def Regexp.parsed (re : Regexp) : Except Abort Regexp :=
  let p := newParser re
  let rs := p.re.add { kind := .iStart }
  let start := rs.2
  let p := { p with re := rs.1 }
  match parser.regexp (parseFuel re.expr.length) p with
  | .error e => .error e
  | .ok (p, s, e) => linkEnds start p s e

end GoRegexp

namespace GoRegexp

/-! ## Lists of threads -/

/-- The number of instructions of the program G that no thread of the list s is at. -/
def unlisted (G : List instr) (s : List state) : Nat :=
  (List.range G.length).countP (fun k => !(s.any (fun st => decide (st.inst = k))))

/-- The lists of threads that calls of addState build from the empty list. -/
inductive AddList (G : List instr) : List state → Prop
  | nil : AddList G []
  | add {s s2 : List state} (fuel : Nat) (i : Option Nat) (pf : Bool) (m : List Int)
      (pos end' : Nat) : AddList G s → addState G fuel s i pf m pos end' = some s2 →
      AddList G s2

end GoRegexp

namespace GoRegexp

/-! ## Match vectors within bounds -/

/-- The match vector m is within the bounds of the subject b: 0 <= m[0] <= m[1] <= len(b),
and for every group k >= 1 either m[2k] = m[2k+1] = -1 or
m[0] <= m[2k] <= m[2k+1] <= m[1]. -/
def VecInBounds (b : List Nat) (m : List Int) : Prop :=
  ∃ m0 m1 : Int, m[0]? = some m0 ∧ m[1]? = some m1 ∧ 0 ≤ m0 ∧ m0 ≤ m1 ∧
    m1 ≤ (b.length : Int) ∧
    ∀ k, 1 ≤ k → 2 * k + 1 < m.length →
      (m[2 * k]? = some (-1) ∧ m[2 * k + 1]? = some (-1)) ∨
      ∃ lo hi : Int, m[2 * k]? = some lo ∧ m[2 * k + 1]? = some hi ∧
        m0 ≤ lo ∧ lo ≤ hi ∧ hi ≤ m1

end GoRegexp

namespace GoRegexp

/-! ## hash/adler32 -/

/-- The constant `mod` of the package adler32. -/
def adler32.mod : Nat := 65521

/-- Add p to the running checksum a, b (adler32.update). The sums a and b are of type uint32,
so each addition is taken modulo 2^32; the elements of p are bytes. -/
def adler32.update (a b : Nat) : List Nat → Nat × Nat
  | [] => (a, b)
  | x :: p =>
    let a := (a + x) % 2 ^ 32
    let b := (b + a) % 2 ^ 32
    if b > (0xffffffff - 255) / 2 then adler32.update (a % adler32.mod) (b % adler32.mod) p
    else adler32.update a b p

/-- Return the 32-bit checksum corresponding to a, b (adler32.finish). -/
def adler32.finish (a b : Nat) : Nat :=
  let ab : Nat × Nat :=
    if b ≥ adler32.mod then (a % adler32.mod, b % adler32.mod) else (a, b)
  ((ab.2 <<< 16) % 2 ^ 32) ||| ab.1

/-- Checksum returns the Adler-32 checksum of data (adler32.Checksum). -/
def adler32.Checksum (data : List Nat) : Nat :=
  let r := adler32.update 1 0 data
  adler32.finish r.1 r.2

/-- The two sums of RFC 1950 over the unbounded integers, from the sums (s1, s2) so far: s1
is increased by each byte, and s2 by the value of s1 after each byte. -/
def adlerSumsFrom (s : Nat × Nat) (data : List Nat) : Nat × Nat :=
  data.foldl (fun s x => (s.1 + x, s.2 + (s.1 + x))) s

/-- The two sums of RFC 1950 over the unbounded integers: s1 is 1 plus the sum of all bytes,
and s2 is the sum of the successive values of s1 after each byte. -/
def adlerSums (data : List Nat) : Nat × Nat := adlerSumsFrom (1, 0) data

end GoRegexp

namespace GoRegexp

/-! ## The cycles of a program -/

/-- The kinds of the instructions that consume a rune of the input: iChar, iCharClass,
iAny and iNotNL. -/
def Kind.consumes : Kind → Bool
  | .iChar => true
  | .iCharClass => true
  | .iAny => true
  | .iNotNL => true
  | _ => false

/-- The instruction at index i of G consumes a rune of the input. -/
def ConsumesAt (G : List instr) (i : Nat) : Prop :=
  ∃ x, G[i]? = some x ∧ x.kind.consumes = true

/-- A link of the graph of the program G: the `next` link of an instruction, or the `left`
link of an iAlt, the only kind of instruction for which the field `left` is valid. -/
def Link (G : List instr) (i j : Nat) : Prop := NextAt G i j ∨ AltAt G i j

/-- A tree can be read without any input: `^`, `$` and the empty concatenation read
nothing, and so do a star and a question mark when they repeat zero times. -/
def Ast.nullable : Ast → Bool
  | .bot => true
  | .eot => true
  | .any => false
  | .char _ => false
  | .cls _ _ => false
  | .group _ r => r.nullable
  | .star _ => true
  | .plus r => r.nullable
  | .opt _ => true
  | .empty => true
  | .cat r1 r2 => r1.nullable && r2.nullable
  | .alt r1 r2 => r1.nullable || r2.nullable

/-- The number of instructions the parser adds for a tree: one for a leaf, two group
markers for a group, an iAlt for a star and for a plus, an iAlt and an iNop for a question
mark and for a bar. -/
def Ast.size : Ast → Nat
  | .group _ r => r.size + 2
  | .star r => r.size + 1
  | .plus r => r.size + 1
  | .opt r => r.size + 2
  | .cat r1 r2 => r1.size + r2.size
  | .alt r1 r2 => r1.size + r2.size + 2
  | _ => 1

/-- The closures of a tree whose instructions start at index m: for every star and every
plus of the tree, the index of the iAlt the parser adds for it, right after the instructions
of its operand, and its operand. -/
def Ast.closures (m : Nat) : Ast → List (Nat × Ast)
  | .group _ r => r.closures m
  | .star r => (m + r.size, r) :: r.closures m
  | .plus r => (m + r.size, r) :: r.closures m
  | .opt r => r.closures m
  | .cat r1 r2 => r1.closures m ++ r2.closures (m + r1.size)
  | .alt r1 r2 => r1.closures m ++ r2.closures (m + r1.size)
  | _ => []

/-- A path of n links of the relation R. -/
inductive PathR (R : Nat → Nat → Prop) : Nat → Nat → Nat → Prop
  | nil {i : Nat} : PathR R 0 i i
  | cons {n i j k : Nat} : R i j → PathR R n j k → PathR R (n + 1) i k

/-- Every path of R of at least B links from i goes through t within its first B links. -/
def ReachWithin (R : Nat → Nat → Prop) (i t B : Nat) : Prop :=
  ∀ L k, B ≤ L → PathR R L i k →
    ∃ L1 L2, L = L1 + L2 ∧ L1 ≤ B ∧ PathR R L1 i t ∧ PathR R L2 t k

/-- A link of G that is not the `left` link of one of the iAlt instructions of the list A. -/
def ForwardLink (G : List instr) (A : List Nat) (i j : Nat) : Prop :=
  Link G i j ∧ ¬ (i ∈ A ∧ AltAt G i j)

/-- A link of G that leaves an instruction a thread passes without consuming input: `^`,
`$`, a group marker, an iAlt or an iNop. -/
def SilentLink (G : List instr) (i j : Nat) : Prop :=
  Link G i j ∧ ∃ x, G[i]? = some x ∧
    (x.kind = .iBOT ∨ x.kind = .iEOT ∨ x.kind = .iBra ∨ x.kind = .iAlt ∨ x.kind = .iNop)

/-- What Compile returns for the pattern `()*`. -/
def progEmptyStar : Regexp :=
  { expr := [40, 41, 42], prefixBytes := [], start := some 0,
    prefixStart := some 4, nbra := 1,
    inst := [
      { kind := .iStart, index := 0, next := some 4 },
      { kind := .iNop, index := 1, next := some 3 },
      { kind := .iBra, index := 2, next := some 3, braNum := 2 },
      { kind := .iBra, index := 3, next := some 4, braNum := 3 },
      { kind := .iAlt, index := 4, next := some 5, left := some 2 },
      { kind := .iEnd, index := 5, next := none }] }

end GoRegexp

namespace GoRegexp

/-! ## The match arena -/

/-- A match vector of the arena (matchVec): the slice `m` (the nil slice is the empty list,
a slice made by matchArena.new has the length of the arena, which is not 0), the reference
count and the link of the free list. A `*matchVec` is the index of the vector in the heap
of the arena. -/
structure matchVec where
  m : List Int
  ref : Int
  next : Option Nat
  deriving DecidableEq, Repr

/-- The statements of the matcher that write into the entries of a match vector: the loop
of noMatch, the copy of matchArena.copy, `match.m[0] = pos` in doExecute, the assignment
`match.m[inst.braNum] = pos` in addState, `final.match.m[1] = pos - charwidth` in doExecute
and `final.match.m[0] -= len(re.prefix)` at its end. -/
inductive Site
  | fill
  | copy
  | seed
  | stamp
  | matchEnd
  | backUp
  deriving DecidableEq, Repr

/-- The record of one write into a match vector: the statement, the vector, and the
reference count of the vector when the statement runs. -/
structure Write where
  site : Site
  vec : Nat
  ref : Int
  deriving DecidableEq, Repr

/-- The match arena (matchArena): the head of the free list and the length of the match
vectors; `heap` holds the vectors allocated so far, and `writes` is the record, kept for
the proofs only, of the writes into the vectors. -/
structure matchArena where
  head : Option Nat
  len : Nat
  heap : List matchVec
  writes : List Write
  deriving DecidableEq, Repr

/-- The loop of matchArena.new that links the n vectors of a new block into the free
list: `b.next = a.head; a.head = b`. -/
def matchArena.grow : Nat → matchArena → matchArena
  | 0, a => a
  | n + 1, a =>
    matchArena.grow n { a with
      heap := a.heap ++ [{ m := [], ref := 0, next := a.head }],
      head := some a.heap.length }

/-- A vector from the free list, which gets a block of 10 vectors when it is empty; the
reference count of the vector is set to 0 (matchArena.new). -/
def matchArena.new (a : matchArena) : Option (matchArena × Nat) :=
  let a := if a.head = none then a.grow 10 else a
  match a.head with
  | none => none
  | some v =>
    match a.heap[v]? with
    | none => none
    | some x =>
      let x : matchVec := { x with ref := 0 }
      let x : matchVec := if x.m = [] then { x with m := List.replicate a.len 0 } else x
      some ({ a with head := x.next, heap := a.heap.set v x }, v)

/-- One reference to the vector v is dropped; the vector goes back to the free list when
its count reaches 0 (matchArena.free). -/
def matchArena.free (a : matchArena) (v : Nat) : Option matchArena :=
  match a.heap[v]? with
  | none => none
  | some x =>
    let x : matchVec := { x with ref := x.ref - 1 }
    if x.ref = 0 then
      some { a with heap := a.heap.set v { x with next := a.head }, head := some v }
    else some { a with heap := a.heap.set v x }

/-- The builtin `copy(dst, src)`: the elements of src, as many as dst has room for, replace
the first elements of dst. -/
def copySlice (dst src : List Int) : List Int := src.take dst.length ++ dst.drop src.length

/-- A new vector with the contents of the vector v (matchArena.copy). -/
def matchArena.copy (a : matchArena) (v : Nat) : Option (matchArena × Nat) :=
  match a.new with
  | none => none
  | some (a, v1) =>
    match a.heap[v1]?, a.heap[v]? with
    | some x1, some x =>
      some ({ a with
        heap := a.heap.set v1 { x1 with m := copySlice x1.m x.m },
        writes := a.writes ++ [{ site := .copy, vec := v1, ref := x1.ref }] }, v1)
    | _, _ => none

/-- A new vector with all entries -1 and reference count 1 (matchArena.noMatch). -/
def matchArena.noMatch (a : matchArena) : Option (matchArena × Nat) :=
  match a.new with
  | none => none
  | some (a, v) =>
    match a.heap[v]? with
    | none => none
    | some x =>
      some ({ a with
        heap := a.heap.set v { x with m := List.replicate x.m.length (-1), ref := 1 },
        writes := a.writes ++
          List.replicate x.m.length { site := .fill, vec := v, ref := x.ref } }, v)

/-- The assignment `v.m[i] = val`, which panics when i is out of range; the write is
recorded with the reference count v has. -/
def matchArena.writeAt (a : matchArena) (site : Site) (v i : Nat) (val : Int) :
    Option matchArena :=
  match a.heap[v]? with
  | none => none
  | some x =>
    match vecSet x.m i val with
    | none => none
    | some m =>
      some { a with
        heap := a.heap.set v { x with m := m },
        writes := a.writes ++ [{ site := site, vec := v, ref := x.ref }] }

/-- The statement `v.ref++`. -/
def matchArena.incRef (a : matchArena) (v : Nat) : Option matchArena :=
  match a.heap[v]? with
  | none => none
  | some x => some { a with heap := a.heap.set v { x with ref := x.ref + 1 } }

/-- A thread of the simulation as doExecute keeps it: the next instruction to execute,
whether the match began with a fixed prefix, and the pointer `match` to its vector. -/
structure stateA where
  inst : Nat
  prefixed : Bool
  vec : Nat
  deriving DecidableEq, Repr

/-- The slice `m` of the vector the pointer v leads to. -/
def contents (heap : List matchVec) (v : Nat) : List Int :=
  match heap[v]? with
  | none => []
  | some x => x.m

/-- A thread with the contents of its vector in the place of the pointer. -/
def stateA.view (heap : List matchVec) (st : stateA) : state :=
  { inst := st.inst, prefixed := st.prefixed, m := contents heap st.vec }

/-- Append new state to the to-do list, unless its instruction is already in it
(matchArena.addState), with the vectors in the arena: a group marker writes into the vector
`match`, a thread that is added takes a reference to it, and each branch of an iAlt gets a
copy. The result is `none` when the call panics or runs out of fuel. -/
def addStateA (inst : List instr) :
    Nat → matchArena → List stateA → Option Nat → Bool → Nat → Nat → Nat →
      Option (matchArena × List stateA)
  | 0, _, _, _, _, _, _, _ => none
  | fuel + 1, a, s, i, prefixed, mt, pos, end' =>
    match i with
    | none => none
    | some k =>
      match inst[k]? with
      | none => none
      | some x =>
        if x.kind = .iBOT then
          if pos = 0 then addStateA inst fuel a s x.next prefixed mt pos end' else some (a, s)
        else if x.kind = .iEOT then
          if pos = end' then addStateA inst fuel a s x.next prefixed mt pos end'
          else some (a, s)
        else if x.kind = .iBra then
          match a.writeAt .stamp mt x.braNum (pos : Int) with
          | none => none
          | some a => addStateA inst fuel a s x.next prefixed mt pos end'
        else if s.any (fun st => st.inst = k) then some (a, s)
        else
          let s := s ++ [{ inst := k, prefixed := prefixed, vec := mt }]
          match a.incRef mt with
          | none => none
          | some a =>
            if x.kind = .iAlt then
              match a.copy mt with
              | none => none
              | some (a, c1) =>
                match addStateA inst fuel a s x.left prefixed c1 pos end' with
                | none => none
                | some (a, s) =>
                  match a.copy mt with
                  | none => none
                  | some (a, c2) => addStateA inst fuel a s x.next prefixed c2 pos end'
            else some (a, s)

/-- The variables of the loop of doExecute that one step of a thread can change, with the
arena. -/
structure execStateA where
  arena : matchArena
  out : List stateA
  final : Option stateA
  found : Bool
  deriving DecidableEq, Repr

/-- The statement `if final.match != nil { arena.free(final.match) }`; `final` is `none`
when `final.match` is nil. -/
def freeFinal (a : matchArena) (final : Option stateA) : Option matchArena :=
  match final with
  | none => some a
  | some f => a.free f.vec

/-- The statements of the iEnd case of doExecute when the thread st is the best match so
far: `if final.match != nil { arena.free(final.match) }`, `final = st`,
`final.match.ref++` and `final.match.m[1] = pos - charwidth`, whose right side is val. -/
def execStateA.setFinal (acc : execStateA) (st : stateA) (val : Int) : Option execStateA :=
  match freeFinal acc.arena acc.final with
  | none => none
  | some a =>
    match a.incRef st.vec with
    | none => none
    | some a =>
      match a.writeAt .matchEnd st.vec 1 val with
      | none => none
      | some a => some { arena := a, out := acc.out, final := some st, found := true }

/-- The body of `for _, st := range s[in]` in doExecute, with the vectors in the arena. In
the iEnd case the vector of the best match so far is freed, `final = st` takes a reference
to the vector of st, and the end of the match is written into it. -/
def stepStateA (inst : List instr) (fuel : Nat) (c : Int) (pos charwidth end' : Nat)
    (acc : execStateA) (st : stateA) : Option execStateA :=
  match inst[st.inst]? with
  | none => none
  | some x =>
    match x.kind with
    | .iBOT => some acc
    | .iEOT => some acc
    | .iChar =>
      if c = x.char then
        (addStateA inst fuel acc.arena acc.out x.next st.prefixed st.vec pos end').map
          (fun r => { acc with arena := r.1, out := r.2 })
      else some acc
    | .iCharClass =>
      match x.cclass with
      | none => none
      | some cc =>
        if cc.matches c then
          (addStateA inst fuel acc.arena acc.out x.next st.prefixed st.vec pos end').map
            (fun r => { acc with arena := r.1, out := r.2 })
        else some acc
    | .iAny =>
      if c ≠ endOfFile then
        (addStateA inst fuel acc.arena acc.out x.next st.prefixed st.vec pos end').map
          (fun r => { acc with arena := r.1, out := r.2 })
      else some acc
    | .iNotNL =>
      if c ≠ endOfFile ∧ c ≠ 10 then
        (addStateA inst fuel acc.arena acc.out x.next st.prefixed st.vec pos end').map
          (fun r => { acc with arena := r.1, out := r.2 })
      else some acc
    | .iBra => some acc
    | .iAlt => some acc
    | .iEnd =>
      match better acc.found (acc.final.map (stateA.view acc.arena.heap))
          (st.view acc.arena.heap) pos charwidth with
      | none => none
      | some true => acc.setFinal st ((pos : Int) - charwidth)
      | some false => some { acc with found := true }
    | _ => none

/-- The loop `for _, st := range s[in]` of doExecute, with the vectors in the arena. -/
def stepAllA (inst : List instr) (fuel : Nat) (c : Int) (pos charwidth end' : Nat) :
    List stateA → execStateA → Option execStateA
  | [], acc => some acc
  | st :: t, acc =>
    match stepStateA inst fuel c pos charwidth end' acc st with
    | none => none
    | some acc => stepAllA inst fuel c pos charwidth end' t acc

/-- The loop `for _, state := range old` of doExecute, which frees the vectors of the
threads of the list before last. -/
def freeAll (a : matchArena) : List stateA → Option matchArena
  | [] => some a
  | st :: t =>
    match a.free st.vec with
    | none => none
    | some a => freeAll a t

/-- The statements of doExecute that prime the pump: `match := arena.noMatch()`,
`match.m[0] = pos`, the call of addState for the instruction after iStart, and
`arena.free(match)`. -/
def primeA (re : Regexp) (a : matchArena) (out : List stateA) (pos end' : Nat) :
    Option (matchArena × List stateA) :=
  match re.start with
  | none => none
  | some k =>
    match re.inst[k]? with
    | none => none
    | some x =>
      match a.noMatch with
      | none => none
      | some (a, mt) =>
        match a.writeAt .seed mt 0 (pos : Int) with
        | none => none
        | some a =>
          match addStateA re.inst (addFuel re) a out x.next false mt pos end' with
          | none => none
          | some (a, s) =>
            match a.free mt with
            | none => none
            | some a => some (a, s)

/-- The main loop of doExecute with the vectors in the arena; `old` is the list s[out] as
the exchange of `in` and `out` finds it, the list of the threads stepped in the turn
before. -/
def executeLoopA (re : Regexp) (b : List Nat) (end' startPos : Nat) (anchored : Bool) :
    Nat → matchArena → Nat → List stateA → List stateA → Option stateA → Bool →
      Option (matchArena × Option stateA)
  | 0, _, _, _, _, _, _ => none
  | fuel + 1, a, pos, out, old, final, found =>
    if ¬ pos ≤ end' then some (a, final)
    else
      let prime : Bool := !found && (decide (pos = startPos) || !anchored)
      if ¬ prime ∧ out.length = 0 then some (a, final)
      else
        let seeded : Option (matchArena × List stateA) :=
          if prime then primeA re a out pos end' else some (a, out)
        match seeded with
        | none => none
        | some (a, sin) =>
          match freeAll a old with
          | none => none
          | some a =>
            let cw : Int × Nat :=
              if pos < end' then DecodeRune ((b.drop pos).take (end' - pos))
              else (endOfFile, 1)
            let pos := pos + cw.2
            match stepAllA re.inst (addFuel re) cw.1 pos cw.2 end' sin
                { arena := a, out := [], final := final, found := found } with
            | none => none
            | some acc =>
              executeLoopA re b end' startPos anchored fuel acc.arena pos acc.out sin
                acc.final acc.found

/-- The fast check of doExecute for the initial plain substring: the value of `advance`, which
is -1 where doExecute returns nil. -/
def prefixAdvance (re : Regexp) (str : List Nat) (bytestr : Option (List Nat)) (pos : Nat)
    (anchored : Bool) : Int :=
  if re.prefixBytes ≠ [] then
    if anchored then
      match bytestr with
      | none => if ¬ HasPrefix str re.prefixBytes then -1 else 0
      | some b => if ¬ bytesHasPrefix b re.prefixBytes then -1 else 0
    else
      match bytestr with
      | none => Index (str.drop pos) re.prefixBytes
      | some b => bytesIndex (b.drop pos) re.prefixBytes
  else 0

/-- The matcher (Regexp.doExecute) with the vectors in the arena: the result is the arena
as the call leaves it, with the record of the writes, and what doExecute returns. -/
def Regexp.doExecuteA (re : Regexp) (str : List Nat) (bytestr : Option (List Nat)) (pos : Nat) :
    Option (matchArena × Option (List Int)) :=
  let end' : Nat := match bytestr with
    | none => str.length
    | some b => b.length
  let arena0 : matchArena := { head := none, len := 2 * (re.nbra + 1), heap := [], writes := [] }
  match re.inst[0]? with
  | none => none
  | some i0 =>
    match i0.next with
    | none => none
    | some n0 =>
      match re.inst[n0]? with
      | none => none
      | some i1 =>
        let anchored : Bool := decide (i1.kind = .iBOT)
        if anchored ∧ pos > 0 then some (arena0, none)
        else
          let advance : Int := prefixAdvance re str bytestr pos anchored
          if advance = -1 then some (arena0, none)
          else
            let pos := pos + advance.toNat
            let b := match bytestr with
              | none => str
              | some b => b
            match executeLoopA re b end' pos anchored (end' + 2) arena0 pos [] [] none false with
            | none => none
            | some (a, none) => some (a, none)
            | some (a, some final) =>
              if final.prefixed ∧ (contents a.heap final.vec).length > 0 then
                match (contents a.heap final.vec)[0]? with
                | none => none
                | some m0 =>
                  match a.writeAt .backUp final.vec 0 (m0 - re.prefixBytes.length) with
                  | none => none
                  | some a => some (a, some (contents a.heap final.vec))
              else some (a, some (contents a.heap final.vec))

end GoRegexp

namespace GoRegexp

/-! ## The invariant of the match arena -/

/-- The free list of the arena: the vectors reached from the pointer `head` by the links
`next`, in this order. -/
inductive FreeList (heap : List matchVec) : Option Nat → List Nat → Prop
  | nil : FreeList heap none []
  | cons {v : Nat} {x : matchVec} {l : List Nat} : heap[v]? = some x →
      FreeList heap x.next l → FreeList heap (some v) (v :: l)

/-- The invariant of the arena a, with the free list fl and the list R of the references
to vectors that the lists of threads, `final` and the local variables hold: the free list
has no vector twice, a vector has the nil slice or a slice of the length of the arena, and
a vector that is referenced is not in the free list, has a slice of the length of the
arena, and its reference count is the number of the references to it. -/
structure ArenaInv (a : matchArena) (fl : List Nat) (R : List Nat) : Prop where
  chain : FreeList a.heap a.head fl
  nodup : fl.Nodup
  pos : 0 < a.len
  sized : ∀ (v : Nat) (x : matchVec), a.heap[v]? = some x → x.m = [] ∨ x.m.length = a.len
  live : ∀ v ∈ R, v ∉ fl ∧
    ∃ x, a.heap[v]? = some x ∧ x.ref = (R.count v : Int) ∧ x.m.length = a.len

/-- The vector v is in the hands of the caller: it is not in the free list, its reference
count is r and its slice has the length of the arena. -/
def Held (a : matchArena) (fl : List Nat) (v : Nat) (r : Int) : Prop :=
  v ∉ fl ∧ ∃ x, a.heap[v]? = some x ∧ x.ref = r ∧ x.m.length = a.len

/-- The reference counts at which the statements of the matcher write into a vector: 0
for the loop of noMatch and for the copy, 1 for `match.m[0] = pos`, 0 or 1 for the group
markers, 2 for the end of the match; the statement `final.match.m[0] -= len(re.prefix)` is
not among them. -/
def Write.ok (w : Write) : Prop :=
  match w.site with
  | .fill => w.ref = 0
  | .copy => w.ref = 0
  | .seed => w.ref = 1
  | .stamp => w.ref = 0 ∨ w.ref = 1
  | .matchEnd => w.ref = 2
  | .backUp => False

/-- The writes of a call of addState whose vector `match` has the reference count r: into
`match` for the group markers, at the count r, and into the copies, at the count 0. -/
def Write.inAdd (r : Int) (w : Write) : Prop :=
  (w.site = .stamp ∧ (w.ref = r ∨ w.ref = 0)) ∨ (w.site = .copy ∧ w.ref = 0)

/-- The vectors of the threads of a list. -/
def vecs (s : List stateA) : List Nat := s.map (fun st => st.vec)

/-- The threads of a list with the contents of their vectors. -/
def views (heap : List matchVec) (s : List stateA) : List state :=
  s.map (stateA.view heap)

/-- What a call of addState that returns leaves: the list s with new threads t after it,
whose vectors are `match` or vectors that were not referenced, no vector twice; the
invariant of the arena with the references of the new threads; the contents of the vectors
that were referenced, `match` apart, as they were; and writes as in Write.inAdd. -/
structure AddPostA (a : matchArena) (R : List Nat) (s : List stateA) (mt : Nat) (r0 : Int)
    (a2 : matchArena) (s2 : List stateA) : Prop where
  ext : ∃ t fl2, s2 = s ++ t ∧ ArenaInv a2 fl2 (R ++ vecs t) ∧ (vecs t).Nodup ∧
    ∀ st ∈ t, st.vec = mt ∨ st.vec ∉ R
  len : a2.len = a.len
  frame : ∀ v ∈ R, v ≠ mt → contents a2.heap v = contents a.heap v
  writes : ∃ ws, a2.writes = a.writes ++ ws ∧ ∀ w ∈ ws, w.inAdd r0

end GoRegexp

namespace GoRegexp

/-! ## The invariants of the loops of doExecute -/

/-- The variables of the loop of doExecute with the contents of the vectors in the place of
the pointers. -/
def execStateA.view (acc : execStateA) : execState :=
  { out := views acc.arena.heap acc.out,
    final := acc.final.map (stateA.view acc.arena.heap),
    found := acc.found }

/-- The vector `final` refers to, when `final.match` is not nil. -/
def finalVec (final : Option stateA) : List Nat := vecs final.toList

/-- The invariant of the loop `for _, st := range s[in]`: `done` are the threads of s[in]
the loop has stepped and `rest` those it has not. The references are those of s[in], of
s[out] and of `final`; no two threads of s[in] and no two threads of s[out] have the same
vector, a thread that is not stepped yet shares its vector neither with a thread of s[out]
nor with `final`, and `final` does not share its vector with a thread of s[out]. The writes
so far are at the reference counts of Write.ok. -/
structure StepInv (a : matchArena) (done rest out : List stateA) (final : Option stateA) :
    Prop where
  inv : ∃ fl, ArenaInv a fl (vecs done ++ vecs rest ++ vecs out ++ finalVec final)
  nodupIn : (vecs done ++ vecs rest).Nodup
  nodupOut : (vecs out).Nodup
  restOut : ∀ v ∈ vecs rest, v ∉ vecs out
  restFinal : ∀ v ∈ vecs rest, v ∉ finalVec final
  finalOut : ∀ v ∈ finalVec final, v ∉ vecs out
  writes : ∀ w ∈ a.writes, w.ok

/-- The invariant of the main loop of doExecute, at the head of the loop: the references
are those of the list `old` of the threads stepped in the turn before, of s[out] and of
`final`; no two threads of s[out] have the same vector, and `final` does not share its
vector with a thread of s[out]. -/
structure LoopInvA (re : Regexp) (a : matchArena) (out old : List stateA)
    (final : Option stateA) : Prop where
  inv : ∃ fl, ArenaInv a fl (vecs old ++ vecs out ++ finalVec final)
  len : a.len = 2 * (re.nbra + 1)
  nodupOut : (vecs out).Nodup
  finalOut : ∀ v ∈ finalVec final, v ∉ vecs out
  writes : ∀ w ∈ a.writes, w.ok

end GoRegexp

namespace GoRegexp

/-! ## A concatenation and an alternation read from the left -/

/-- The closures that follow in a concatenation: `SeqTail pre a t r` says that the runes t,
which follow the runes `pre`, are closures one after the other, and that r is the tree of
the concatenation of the tree a of what stands before them with their trees, associated to
the left. -/
inductive SeqTail : List Int → Ast → List Int → Ast → Prop
  | nil {pre : List Int} {a : Ast} : SeqTail pre a [] a
  | cons {pre t rest : List Int} {a r2 r : Ast} : Gram .closure pre t r2 →
      SeqTail (pre ++ t) (.cat a r2) rest r → SeqTail pre a (t ++ rest) r

/-- The alternatives that follow in a regexp: `BarTail pre a t r` says that the runes t,
which follow the runes `pre`, are concatenations each after a bar, and that r is the tree of
the alternation of the tree a of what stands before them with their trees, associated to the
left. -/
inductive BarTail : List Int → Ast → List Int → Ast → Prop
  | nil {pre : List Int} {a : Ast} : BarTail pre a [] a
  | cons {pre t rest : List Int} {a r2 r : Ast} : Gram .concat (pre ++ [124]) t r2 →
      BarTail (pre ++ [124] ++ t) (.alt a r2) rest r → BarTail pre a ([124] ++ t ++ rest) r

/-- A rune with which a term can begin: not a quantifier, not the bar, not the closing
parenthesis. -/
def Starts (c : Int) : Prop := c ≠ 42 ∧ c ≠ 43 ∧ c ≠ 63 ∧ c ≠ 124 ∧ c ≠ 41

/-- What can follow the runes derived from a nonterminal in a pattern: anything after a
term, no quantifier after a closure, the bar, the closing parenthesis or the end after a
concatenation, the closing parenthesis or the end after a regexp. -/
def Follow : GNT → List Int → Prop
  | .term, _ => True
  | .closure, u => ∀ c, u.head? = some c → c ≠ 42 ∧ c ≠ 43 ∧ c ≠ 63
  | .seq, u => ∀ c, u.head? = some c → c = 124 ∨ c = 41
  | .concat, u => ∀ c, u.head? = some c → c = 124 ∨ c = 41
  | .regexp, u => ∀ c, u.head? = some c → c = 41

/-- In texts of at most n runes, the runes derived from the nonterminal nt at the start of
the text, and their tree, are determined by the text. -/
def DetUpTo (n : Nat) (nt : GNT) : Prop :=
  ∀ (pre t t2 u u2 : List Int) (r r2 : Ast), Gram nt pre t r → Gram nt pre t2 r2 →
    t ++ u = t2 ++ u2 → (t ++ u).length ≤ n → Follow nt u → Follow nt u2 → t = t2 ∧ r = r2

end GoRegexp

namespace GoRegexp

/-! ## Elementary facts on the operations of the parser -/

@[simp] theorem nextc_re (p : parser) : p.nextc.re = p.re := by
  unfold parser.nextc; split <;> rfl

@[simp] theorem nextc_nlpar (p : parser) : p.nextc.nlpar = p.nlpar := by
  unfold parser.nextc; split <;> rfl

@[simp] theorem lpar_inst (p : parser) : p.lpar.re.inst = p.re.inst := by
  simp [parser.lpar]

@[simp] theorem lpar_expr (p : parser) : p.lpar.re.expr = p.re.expr := by
  simp [parser.lpar]

@[simp] theorem lpar_nbra (p : parser) : p.lpar.re.nbra = p.re.nbra + 1 := by
  simp [parser.lpar]

@[simp] theorem lpar_nlpar (p : parser) : p.lpar.nlpar = p.nlpar + 1 := by
  simp [parser.lpar]

@[simp] theorem rpar_re (p : parser) : p.rpar.re = p.re := by
  simp [parser.rpar]

@[simp] theorem rpar_nlpar (p : parser) : p.rpar.nlpar = p.nlpar - 1 := by
  simp [parser.rpar]

@[simp] theorem addI_inst (p : parser) (i : instr) :
    (p.addI i).re.inst = p.re.inst ++ [{ i with index := p.re.inst.length }] := rfl

@[simp] theorem addI_nbra (p : parser) (i : instr) : (p.addI i).re.nbra = p.re.nbra := rfl

@[simp] theorem addI_expr (p : parser) (i : instr) : (p.addI i).re.expr = p.re.expr := rfl

@[simp] theorem addI_nlpar (p : parser) (i : instr) : (p.addI i).nlpar = p.nlpar := rfl

@[simp] theorem addI_pos (p : parser) (i : instr) : (p.addI i).pos = p.pos := rfl

@[simp] theorem addI_ch (p : parser) (i : instr) : (p.addI i).ch = p.ch := rfl

@[simp] theorem add_inst (re : Regexp) (i : instr) :
    (re.add i).1.inst = re.inst ++ [{ i with index := re.inst.length }] := rfl

@[simp] theorem add_snd (re : Regexp) (i : instr) : (re.add i).2 = some re.inst.length := rfl

@[simp] theorem add_nbra (re : Regexp) (i : instr) : (re.add i).1.nbra = re.nbra := rfl

@[simp] theorem add_expr (re : Regexp) (i : instr) : (re.add i).1.expr = re.expr := rfl

theorem setNext_ok {re re2 : Regexp} {i j : Option Nat} (h : re.setNext i j = .ok re2) :
    ∃ k x, i = some k ∧ re.inst[k]? = some x ∧
      re2 = { re with inst := re.inst.set k { x with next := j } } := by
  unfold Regexp.setNext at h
  split at h
  · cases h
  · split at h
    · cases h
    · rename_i k _ x hx
      injection h with h
      exact ⟨k, x, rfl, hx, h.symm⟩

theorem setLeft_ok {re re2 : Regexp} {i j : Option Nat} (h : re.setLeft i j = .ok re2) :
    ∃ k x, i = some k ∧ re.inst[k]? = some x ∧
      re2 = { re with inst := re.inst.set k { x with left := j } } := by
  unfold Regexp.setLeft at h
  split at h
  · cases h
  · split at h
    · cases h
    · rename_i k _ x hx
      injection h with h
      exact ⟨k, x, rfl, hx, h.symm⟩

theorem setNext_some (re : Regexp) (k : Nat) (j : Option Nat) (h : k < re.inst.length) :
    ∃ re2, re.setNext (some k) j = .ok re2 := by
  unfold Regexp.setNext
  simp only
  rw [List.getElem?_eq_getElem h]
  exact ⟨_, rfl⟩

theorem setLeft_some (re : Regexp) (k : Nat) (j : Option Nat) (h : k < re.inst.length) :
    ∃ re2, re.setLeft (some k) j = .ok re2 := by
  unfold Regexp.setLeft
  simp only
  rw [List.getElem?_eq_getElem h]
  exact ⟨_, rfl⟩

theorem setNext_length {re re2 : Regexp} {i j : Option Nat} (h : re.setNext i j = .ok re2) :
    re2.inst.length = re.inst.length := by
  obtain ⟨k, x, _, _, rfl⟩ := setNext_ok h
  simp

theorem setLeft_length {re re2 : Regexp} {i j : Option Nat} (h : re.setLeft i j = .ok re2) :
    re2.inst.length = re.inst.length := by
  obtain ⟨k, x, _, _, rfl⟩ := setLeft_ok h
  simp

theorem setNext_nbra {re re2 : Regexp} {i j : Option Nat} (h : re.setNext i j = .ok re2) :
    re2.nbra = re.nbra ∧ re2.expr = re.expr := by
  obtain ⟨k, x, _, _, rfl⟩ := setNext_ok h
  simp

theorem setLeft_nbra {re re2 : Regexp} {i j : Option Nat} (h : re.setLeft i j = .ok re2) :
    re2.nbra = re.nbra ∧ re2.expr = re.expr := by
  obtain ⟨k, x, _, _, rfl⟩ := setLeft_ok h
  simp

@[simp] theorem ite_nextc_re (b : Prop) [Decidable b] (p : parser) :
    (if b then p.nextc.nextc else p.nextc).re = p.re := by
  split <;> simp

@[simp] theorem ite_nextc_nlpar (b : Prop) [Decidable b] (p : parser) :
    (if b then p.nextc.nextc else p.nextc).nlpar = p.nlpar := by
  split <;> simp

theorem checkBackslash_ok {p p1 : parser} {c : Int} (h : p.checkBackslash = .ok (p1, c)) :
    (p.c ≠ 92 ∧ p1 = p ∧ c = p.c) ∨
    (p.c = 92 ∧ p1 = p.nextc ∧ p.nextc.ch ≠ endOfFile ∧
      ((ispunct p.nextc.ch = true ∧ c = p.nextc.ch) ∨
       (ispunct p.nextc.ch = false ∧ escape p.nextc.ch ≥ 0 ∧
          c = escaped.getD (escape p.nextc.ch).toNat 0))) := by
  unfold parser.checkBackslash at h
  simp only at h
  split at h
  · rename_i h92
    split at h
    · cases h
    · rename_i hne
      split at h
      · rename_i hp
        cases h
        exact Or.inr ⟨h92, rfl, hne, Or.inl ⟨hp, rfl⟩⟩
      · rename_i hp
        split at h
        · rename_i he
          cases h
          exact Or.inr ⟨h92, rfl, hne, Or.inr ⟨by simpa using hp, he, rfl⟩⟩
        · cases h
  · rename_i h92
    cases h
    exact Or.inl ⟨h92, rfl, rfl⟩

theorem checkBackslash_re {p p1 : parser} {c : Int} (h : p.checkBackslash = .ok (p1, c)) :
    p1.re = p.re ∧ p1.nlpar = p.nlpar := by
  rcases checkBackslash_ok h with ⟨_, rfl, _⟩ | ⟨_, rfl, _⟩ <;> simp

theorem ClassRun.re_eq {p p2 : parser} {cc cc2 : charClass} {left : Int}
    (h : ClassRun p cc left p2 cc2) : p2.re = p.re ∧ p2.nlpar = p.nlpar := by
  induction h with
  | done => exact ⟨rfl, rfl⟩
  | single _ _ hb _ _ _ ih => simpa [checkBackslash_re hb] using ih
  | lower _ _ hb _ _ _ ih => simpa [checkBackslash_re hb] using ih
  | upper _ _ hb _ _ _ ih => simpa [checkBackslash_re hb] using ih

theorem Parse.bounds {nt : NT} {p p2 : parser} {r : Ast} {s e : Nat}
    (h : Parse nt p r p2 s e) : Bounds nt p p2 s e := by
  induction h with
  | bot _ => simp [Bounds]
  | eot _ => simp [Bounds]
  | any _ => simp [Bounds]
  | char _ hb => simp [Bounds, checkBackslash_re hb]
  | cls _ hc _ =>
    have := hc.re_eq.1
    rw [ite_nextc_re] at this
    simp [Bounds, this]
  | group _ _ _ h1 h2 ih =>
    simp only [Bounds, lpar_inst] at ih ⊢
    have l1 := setNext_length h1
    have l2 := setNext_length h2
    simp at l1
    omega
  | plain _ _ _ _ ih => simpa [Bounds] using ih
  | star _ _ h1 h2 _ ih =>
    simp only [Bounds, nextc_re] at ih ⊢
    have l1 := setNext_length h1
    have l2 := setLeft_length h2
    simp at l1
    omega
  | plus _ _ h1 h2 _ ih =>
    simp only [Bounds, nextc_re] at ih ⊢
    have l1 := setNext_length h1
    have l2 := setLeft_length h2
    simp at l1
    omega
  | opt _ _ h1 h2 h3 _ ih =>
    simp only [Bounds, nextc_re] at ih ⊢
    have l1 := setLeft_length h1
    have l2 := setNext_length h2
    have l3 := setNext_length h3
    simp at l1
    omega
  | emptyConcat _ => simp [Bounds]
  | first _ _ ih1 ih2 =>
    simp only [Bounds] at ih1 ih2 ⊢
    have := ih2.2 ih1.2.1 ih1.2.2
    omega
  | last _ => simp only [Bounds]; exact ⟨le_refl _, fun a b => ⟨a, b⟩⟩
  | next _ h1 _ ih1 ih2 =>
    simp only [Bounds] at ih1 ih2 ⊢
    have l1 := setNext_length h1
    refine ⟨by omega, fun hs he => ih2.2 (by omega) (by omega)⟩
  | regexp _ _ ih1 ih2 =>
    simp only [Bounds] at ih1 ih2 ⊢
    have := ih2.2 ih1.2.1 ih1.2.2
    omega
  | done _ => simp only [Bounds]; exact ⟨le_refl _, fun a b => ⟨a, b⟩⟩
  | bar _ _ h1 h2 h3 h4 _ ih1 ih2 =>
    simp only [Bounds, nextc_re] at ih1 ih2 ⊢
    have l1 := setLeft_length h1
    have l2 := setNext_length h2
    have l3 := setNext_length h3
    have l4 := setNext_length h4
    simp at l1 l3
    refine ⟨by omega, fun hs he => ih2.2 (by omega) (by omega)⟩

/-! ## The input only shrinks -/

theorem DecodeRune_width_pos {b : List Nat} (h : b ≠ []) : 1 ≤ (DecodeRune b).2 := by
  unfold DecodeRune
  split
  · exact absurd rfl h
  · repeat' split
    all_goals first
      | (simp; done)
      | (dsimp only; split <;> simp)

theorem DecodeRune_width_le (b : List Nat) : (DecodeRune b).2 ≤ b.length := by
  unfold DecodeRune
  split
  · simp
  · repeat' split
    all_goals first
      | (simp; done)
      | (dsimp only; split <;> simp)

theorem nextc_rem_le (p : parser) : p.nextc.rem ≤ p.rem := by
  unfold parser.nextc parser.rem
  by_cases h : p.pos ≥ p.re.expr.length
  · simp only [h, if_true]
    have : p.re.expr.length - p.pos = 0 := by omega
    simp [this]
  · have hw := DecodeRune_width_pos (b := p.re.expr.drop p.pos) (by
      intro h0
      have := congrArg List.length h0
      simp at this; omega)
    simp only [h, if_false, DecodeRuneInString]
    (repeat' split) <;> omega

theorem nextc_rem_lt (p : parser) (hc : p.ch ≠ endOfFile) : p.nextc.rem < p.rem := by
  unfold parser.nextc parser.rem
  by_cases h : p.pos ≥ p.re.expr.length
  · simp [h, hc]
  · have hw := DecodeRune_width_pos (b := p.re.expr.drop p.pos) (by
      intro h0
      have := congrArg List.length h0
      simp at this; omega)
    simp only [h, if_false, DecodeRuneInString, hc]
    (repeat' split) <;> omega

@[simp] theorem addI_rem (p : parser) (i : instr) : (p.addI i).rem = p.rem := rfl

theorem rem_congr {p q : parser} (h1 : p.re.expr = q.re.expr) (h2 : p.pos = q.pos)
    (h3 : p.ch = q.ch) : p.rem = q.rem := by
  unfold parser.rem; rw [h1, h2, h3]

theorem checkBackslash_rem {p p1 : parser} {c : Int} (h : p.checkBackslash = .ok (p1, c))
    (hc : p.c ≠ endOfFile) : p1.rem ≤ p.rem ∧ p1.ch ≠ endOfFile := by
  rcases checkBackslash_ok h with ⟨_, rfl, _⟩ | ⟨_, rfl, h3, _⟩
  · exact ⟨le_refl _, hc⟩
  · exact ⟨nextc_rem_le _, h3⟩

theorem ClassRun.rem_le {p p2 : parser} {cc cc2 : charClass} {left : Int}
    (h : ClassRun p cc left p2 cc2) : p2.rem ≤ p.rem := by
  induction h with
  | done => exact le_refl _
  | @single p p1 cc left c p2 cc2 h1 _ hb _ _ _ ih =>
    have := checkBackslash_rem hb (fun h => h1 (Or.inr h))
    have := nextc_rem_le p1
    omega
  | @lower p p1 cc left c p2 cc2 h1 _ hb _ _ _ ih =>
    have := checkBackslash_rem hb (fun h => h1 (Or.inr h))
    have := nextc_rem_le p1
    have := nextc_rem_le p1.nextc
    omega
  | @upper p p1 cc left c p2 cc2 h1 _ hb _ _ _ ih =>
    have := checkBackslash_rem hb (fun h => h1 (Or.inr h))
    have := nextc_rem_le p1
    omega

theorem Shrinks.le {nt : NT} {p p2 : parser} (h : Shrinks nt p p2) : p2.rem ≤ p.rem := by
  cases nt <;> simp only [Shrinks] at h <;> omega

theorem withRe_rem (p : parser) (r : Regexp) (h : r.expr = p.re.expr) :
    ({ p with re := r } : parser).rem = p.rem := by
  unfold parser.rem; simp [h]

theorem ClassRun.expr_eq {p p2 : parser} {cc cc2 : charClass} {left : Int}
    (h : ClassRun p cc left p2 cc2) : p2.re.expr = p.re.expr := by
  rw [h.re_eq.1]

theorem Parse.shrinks {nt : NT} {p p2 : parser} {r : Ast} {s e : Nat}
    (h : Parse nt p r p2 s e) : p2.re.expr = p.re.expr ∧ Shrinks nt p p2 := by
  induction h with
  | @bot p h => exact ⟨by simp, by simpa [Shrinks] using nextc_rem_lt p (by simp [parser.c] at h; simp [h, endOfFile])⟩
  | @eot p h => exact ⟨by simp, by simpa [Shrinks] using nextc_rem_lt p (by simp [parser.c] at h; simp [h, endOfFile])⟩
  | @any p h => exact ⟨by simp, by simpa [Shrinks] using nextc_rem_lt p (by simp [parser.c] at h; simp [h, endOfFile])⟩
  | @char p p1 c h hb =>
    have hne : p.c ≠ endOfFile := by
      intro h0; apply h; rw [h0]; decide
    have h1 := checkBackslash_rem hb hne
    have h2 := nextc_rem_lt p1 h1.2
    refine ⟨by simp [checkBackslash_re hb], ?_⟩
    simp only [Shrinks, addI_rem]; omega
  | @cls p p1 cc h hc h3 =>
    have e1 : p1.re = p.re := by simpa using hc.re_eq.1
    have hne : p.ch ≠ endOfFile := by simp [parser.c] at h; simp [h, endOfFile]
    have h1 := nextc_rem_lt p hne
    have h2 := hc.rem_le
    have h4 : (if p.nextc.c = 94 then p.nextc.nextc else p.nextc).rem ≤ p.nextc.rem := by
      split
      · exact nextc_rem_le _
      · exact le_refl _
    have h5 := nextc_rem_le (p1.addI (classInstr cc))
    refine ⟨by simp [e1], ?_⟩
    simp only [Shrinks]; simp only [addI_rem] at h5; omega
  | @group p p2 r s e re1 re2 h hr hc h1 h2 ih =>
    have hne : p.ch ≠ endOfFile := by simp [parser.c] at h; simp [h, endOfFile]
    have e1 := (setNext_nbra h1).2
    have e2 := (setNext_nbra h2).2
    simp at e1
    have ex : re2.expr = p2.re.expr := by rw [e2, e1]
    have h3 := nextc_rem_lt p hne
    have h4 : p.lpar.rem = p.nextc.rem := by
      unfold parser.rem parser.lpar; simp
    have k1 : ({ p2.rpar with re := re2 } : parser).rem ≤ p2.rem :=
      (withRe_rem _ _ (by simp [ex])).le.trans (nextc_rem_le ({ p2 with nlpar := p2.nlpar - 1 } : parser))
    have k2 : p2.rem ≤ p.nextc.rem := ih.2.le.trans h4.le
    exact ⟨by simp [ex, ih.1], lt_of_le_of_lt (k1.trans k2) h3⟩
  | plain _ _ _ _ ih => exact ⟨ih.1, by simpa [Shrinks] using ih.2⟩
  | @star p r p1 s e re1 re2 _ _ h1 h2 _ ih =>
    have ex : re2.expr = p1.re.expr := by
      rw [(setLeft_nbra h2).2, (setNext_nbra h1).2]; simp
    have h3 := nextc_rem_le ({ p1 with re := re2 } : parser)
    have h4 := withRe_rem p1 re2 ex
    refine ⟨by simp [ex, ih.1], ?_⟩
    simp only [Shrinks] at ih ⊢; omega
  | @plus p r p1 s e re1 re2 _ _ h1 h2 _ ih =>
    have ex : re2.expr = p1.re.expr := by
      rw [(setLeft_nbra h2).2, (setNext_nbra h1).2]; simp
    have h3 := nextc_rem_le ({ p1 with re := re2 } : parser)
    have h4 := withRe_rem p1 re2 ex
    refine ⟨by simp [ex, ih.1], ?_⟩
    simp only [Shrinks] at ih ⊢; omega
  | @opt p r p1 s e re1 re2 re3 _ _ h1 h2 h3 _ ih =>
    have ex : re3.expr = p1.re.expr := by
      rw [(setNext_nbra h3).2, (setNext_nbra h2).2, (setLeft_nbra h1).2]; simp
    have h3 := nextc_rem_le ({ p1 with re := re3 } : parser)
    have h4 := withRe_rem p1 re3 ex
    refine ⟨by simp [ex, ih.1], ?_⟩
    simp only [Shrinks] at ih ⊢; omega
  | emptyConcat _ => exact ⟨by simp, by simp [Shrinks]⟩
  | first _ _ ih1 ih2 =>
    refine ⟨by rw [ih2.1, ih1.1], ?_⟩
    simp only [Shrinks] at ih1 ih2 ⊢; omega
  | last _ => exact ⟨rfl, by simp [Shrinks]⟩
  | @next p a s e c p1 s1 e1 re1 r p2 s2 e2 _ h1 _ ih1 ih2 =>
    have ex := (setNext_nbra h1).2
    have h4 := withRe_rem p1 re1 ex
    refine ⟨by rw [ih2.1]; simp [ex, ih1.1], ?_⟩
    simp only [Shrinks] at ih1 ih2 ⊢; omega
  | regexp _ _ ih1 ih2 =>
    refine ⟨by rw [ih2.1, ih1.1], ?_⟩
    simp only [Shrinks] at ih1 ih2 ⊢; omega
  | done _ => exact ⟨rfl, by simp [Shrinks]⟩
  | @bar p a s e c p1 s1 e1 re1 re2 re3 re4 r p2 s2 e2 _ _ h1 h2 h3 h4 _ ih1 ih2 =>
    have ex : re4.expr = p1.re.expr := by
      rw [(setNext_nbra h4).2, (setNext_nbra h3).2]
      simp [(setNext_nbra h2).2, (setLeft_nbra h1).2]
    have h5 := withRe_rem p1 re4 ex
    have h6 := nextc_rem_le p
    refine ⟨by rw [ih2.1]; simp [ex, ih1.1], ?_⟩
    simp only [Shrinks] at ih1 ih2 ⊢; omega

end GoRegexp

namespace GoRegexp

/-! ## The functions of the parser and their runs -/

theorem charClassLoop_spec (fuel : Nat) : ∀ (p : parser) (cc : charClass) (left : Int),
    CallSpec (parser.charClassLoop fuel p cc left)
      (fun v => ∃ p2 cc2, ClassRun p cc left p2 cc2 ∧ v = (p2.addI (classInstr cc2), some p2.re.inst.length))
      fuel (p.rem + 1) := by
  induction fuel with
  | zero =>
    intro p cc left
    refine ⟨?_, ?_, ?_⟩
    · intro v h; simp [parser.charClassLoop] at h
    · simp [parser.charClassLoop]
    · intro h; omega
  | succ fuel ih =>
    intro p cc left
    unfold parser.charClassLoop
    simp only
    by_cases h1 : p.c = 93 ∨ p.c = endOfFile
    · simp only [h1, if_true]
      by_cases h2 : left ≥ 0
      · simp only [h2, if_true]
        exact ⟨(by intro v h; cases h), (by simp), (by intro _; simp)⟩
      · simp only [h2, if_false]
        refine ⟨?_, ?_, ?_⟩
        · intro v h
          refine ⟨p, cc, ClassRun.done h1 (by omega), ?_⟩
          unfold classInstr parser.addI
          split at h
          · rename_i hA; cases h; rw [if_pos hA]; rfl
          · rename_i hA
            split at h
            · rename_i hB; cases h; rw [if_neg hA, if_pos hB]; rfl
            · rename_i hB; cases h; rw [if_neg hA, if_neg hB]; rfl
        · split
          · simp
          · split <;> simp
        · intro _
          split
          · simp
          · split <;> simp
    · simp only [h1, if_false]
      by_cases h2 : p.c = 45
      · simp only [h2, if_true]
        exact ⟨(by intro v h; cases h), (by simp), (by intro _; simp)⟩
      · simp only [h2, if_false]
        cases hb : p.checkBackslash with
        | error e =>
          simp only
          have hne : e ≠ .crash ∧ e ≠ .fuel := by
            unfold parser.checkBackslash at hb
            simp only at hb
            split at hb
            · split at hb
              · cases hb; simp
              · split at hb
                · cases hb
                · split at hb
                  · cases hb
                  · cases hb; simp
            · cases hb
          exact ⟨(by intro v h; cases h), (by simpa using hne.1), (by intro _; simpa using hne.2)⟩
        | ok v =>
          obtain ⟨p1, c⟩ := v
          simp only
          have hr := checkBackslash_rem hb (fun h => h1 (Or.inr h))
          have hlt := nextc_rem_lt p1 hr.2
          by_cases h3 : left < 0
          · simp only [h3, if_true]
            by_cases h4 : p1.nextc.c = 45
            · simp only [h4, if_true]
              have := ih p1.nextc.nextc cc c
              have hle := nextc_rem_le p1.nextc
              refine ⟨?_, this.noCrash, fun hf => this.noFuel (by omega)⟩
              intro v hv
              obtain ⟨p2, cc2, hrun, rfl⟩ := this.value v hv
              exact ⟨p2, cc2, ClassRun.lower h1 h2 hb h3 h4 hrun, rfl⟩
            · simp only [h4, if_false]
              have := ih p1.nextc (cc.addRange c c) left
              refine ⟨?_, this.noCrash, fun hf => this.noFuel (by omega)⟩
              intro v hv
              obtain ⟨p2, cc2, hrun, rfl⟩ := this.value v hv
              exact ⟨p2, cc2, ClassRun.single h1 h2 hb h3 h4 hrun, rfl⟩
          · simp only [h3, if_false]
            by_cases h4 : left ≤ c
            · simp only [h4, if_true]
              have := ih p1.nextc (cc.addRange left c) (-1)
              refine ⟨?_, this.noCrash, fun hf => this.noFuel (by omega)⟩
              intro v hv
              obtain ⟨p2, cc2, hrun, rfl⟩ := this.value v hv
              exact ⟨p2, cc2, ClassRun.upper h1 h2 hb h3 h4 hrun, rfl⟩
            · simp only [h4, if_false]
              exact ⟨(by intro v h; cases h), (by simp), (by intro _; simp)⟩

theorem checkBackslash_error {p : parser} {e : Abort} (hb : p.checkBackslash = .error e) :
    e ≠ .crash ∧ e ≠ .fuel := by
  unfold parser.checkBackslash at hb
  simp only at hb
  split at hb
  · split at hb
    · cases hb; simp
    · split at hb
      · cases hb
      · split at hb
        · cases hb
        · cases hb; simp
  · cases hb

theorem term_step (n : Nat)
    (hR : ∀ p, CallSpec (parser.regexp n p) (OkFrag .regexp p) n (5 * p.rem + 5)) :
    ∀ p, CallSpec (parser.term (n + 1) p) (OkNil .term p) (n + 1) (5 * p.rem + 1) := by
  intro p
  unfold parser.term
  simp only
  by_cases h1 : p.c = 124 ∨ p.c = endOfFile
  · simp only [h1, if_true]
    refine ⟨?_, (by simp), (by intro _; simp)⟩
    intro v hv
    cases hv
    exact Or.inl ⟨rfl, by unfold TermNil; tauto⟩
  simp only [h1, if_false]
  by_cases h2 : p.c = 42 ∨ p.c = 43 ∨ p.c = 63
  · simp only [h2, if_true]
    exact ⟨(by intro v h; cases h), (by simp), (by intro _; simp)⟩
  simp only [h2, if_false]
  by_cases h3 : p.c = 41
  · simp only [h3, if_true]
    by_cases h4 : p.nlpar = 0
    · simp only [h4, if_true]
      exact ⟨(by intro v h; cases h), (by simp), (by intro _; simp)⟩
    · simp only [h4, if_false]
      refine ⟨?_, (by simp), (by intro _; simp)⟩
      intro v hv
      cases hv
      exact Or.inl ⟨rfl, Or.inr (Or.inr ⟨h3, h4⟩)⟩
  simp only [h3, if_false]
  by_cases h5 : p.c = 93
  · simp only [h5, if_true]
    exact ⟨(by intro v h; cases h), (by simp), (by intro _; simp)⟩
  simp only [h5, if_false]
  by_cases h6 : p.c = 94
  · simp only [h6, if_true]
    refine ⟨?_, (by simp), (by intro _; simp)⟩
    intro v hv
    cases hv
    exact Or.inr ⟨.bot, p.re.inst.length, p.re.inst.length, by simp, Parse.bot h6⟩
  simp only [h6, if_false]
  by_cases h7 : p.c = 36
  · simp only [h7, if_true]
    refine ⟨?_, (by simp), (by intro _; simp)⟩
    intro v hv
    cases hv
    exact Or.inr ⟨.eot, p.re.inst.length, p.re.inst.length, by simp, Parse.eot h7⟩
  simp only [h7, if_false]
  by_cases h8 : p.c = 46
  · simp only [h8, if_true]
    refine ⟨?_, (by simp), (by intro _; simp)⟩
    intro v hv
    cases hv
    exact Or.inr ⟨.any, p.re.inst.length, p.re.inst.length, by simp, Parse.any h8⟩
  simp only [h8, if_false]
  have hne : p.ch ≠ endOfFile := fun h => h1 (Or.inr h)
  by_cases h9 : p.c = 91
  · simp only [h9, if_true]
    have hcl : CallSpec (parser.charClass n p.nextc)
        (fun v => ∃ p2 cc2, ClassRun (if p.nextc.c = 94 then p.nextc.nextc else p.nextc)
            { newCharClass with negate := decide (p.nextc.c = 94) } (-1) p2 cc2 ∧
          v = (p2.addI (classInstr cc2), some p2.re.inst.length)) n (p.nextc.rem + 1) := by
      unfold parser.charClass
      simp only
      by_cases h94 : p.nextc.c = 94
      · simp only [h94, if_true]
        have := charClassLoop_spec n p.nextc.nextc { newCharClass with negate := true } (-1)
        have hle := nextc_rem_le p.nextc
        refine ⟨?_, this.noCrash, fun hf => this.noFuel (by omega)⟩
        intro v hv
        obtain ⟨p2, cc2, hrun, rfl⟩ := this.value v hv
        exact ⟨p2, cc2, by simpa using hrun, rfl⟩
      · simp only [h94, if_false]
        have := charClassLoop_spec n p.nextc newCharClass (-1)
        refine ⟨?_, this.noCrash, fun hf => this.noFuel (by omega)⟩
        intro v hv
        obtain ⟨p2, cc2, hrun, rfl⟩ := this.value v hv
        refine ⟨p2, cc2, ?_, rfl⟩
        exact hrun
    have hlt := nextc_rem_lt p hne
    cases hres : parser.charClass n p.nextc with
    | error e =>
      simp only
      refine ⟨(by intro v h; cases h), ?_, ?_⟩
      · intro h; cases h; exact hcl.noCrash hres
      · intro hf h; cases h; exact hcl.noFuel (by omega) hres
    | ok v =>
      obtain ⟨p1, start⟩ := v
      simp only
      obtain ⟨p2, cc2, hrun, hv⟩ := hcl.value _ hres
      cases hv
      by_cases h93 : (p2.addI (classInstr cc2)).c = 93
      · simp only [h93, ne_eq, not_true_eq_false, if_false]
        refine ⟨?_, (by simp), (by intro _; simp)⟩
        intro v hv
        cases hv
        have e1 : p2.re = p.re := by simpa using hrun.re_eq.1
        exact Or.inr ⟨_, p.re.inst.length, p.re.inst.length, by simp [e1], Parse.cls h9 hrun h93⟩
      · simp only [h93, ne_eq, not_false_eq_true, if_true]
        exact ⟨(by intro v h; cases h), (by simp), (by intro _; simp)⟩
  simp only [h9, if_false]
  by_cases h10 : p.c = 40
  · simp only [h10, if_true]
    have hlt := nextc_rem_lt p hne
    have hrem : p.lpar.rem = p.nextc.rem := by unfold parser.rem parser.lpar; simp
    have hsp := hR p.lpar
    change CallSpec (match parser.regexp n p.lpar with
      | .error e => .error e
      | .ok (p2, start, end') => _) _ _ _
    cases hres : parser.regexp n p.lpar with
    | error e =>
      simp only
      refine ⟨(by intro v h; cases h), ?_, ?_⟩
      · intro h; cases h; exact hsp.noCrash hres
      · intro hf h; cases h; exact hsp.noFuel (by omega) hres
    | ok v =>
      obtain ⟨p2, start, end'⟩ := v
      obtain ⟨r, s, e, hse, hpar⟩ := hsp.value _ hres
      simp only at hse hpar
      cases hse
      simp only
      by_cases h41 : p2.c = 41
      · simp only [h41, ne_eq, not_true_eq_false, if_false]
        have hb := hpar.bounds
        simp only [Bounds, lpar_inst] at hb
        obtain ⟨re1, hre1⟩ := setNext_some (((p2.rpar.re.add { kind := .iBra, braNum := 2 * p.lpar.re.nbra }).1.add
          { kind := .iBra, braNum := 2 * p.lpar.re.nbra + 1 }).1) (e)
          (some (p2.rpar.re.add { kind := .iBra, braNum := 2 * p.lpar.re.nbra }).1.inst.length)
          (by simp; omega)
        obtain ⟨re2, hre2⟩ := setNext_some (re1) (p2.rpar.re.inst.length) (some s)
          (by rw [setNext_length hre1]; simp)
        have key := Parse.group h10 hpar h41 hre1 hre2
        simp only [reduceCtorEq, if_false]
        split
        · rename_i heq
          cases hre1.symm.trans heq
        · rename_i r1 heq
          cases hre1.symm.trans heq
          split
          · rename_i heq2
            cases hre2.symm.trans heq2
          · rename_i r2 heq2
            cases hre2.symm.trans heq2
            refine ⟨?_, (by simp), (by intro _; simp)⟩
            intro v hv
            cases hv
            exact Or.inr ⟨_, p2.re.inst.length, p2.re.inst.length + 1, by simp [parser.rpar], key⟩
      · simp only [h41, ne_eq, not_false_eq_true, if_true]
        exact ⟨(by intro v h; cases h), (by simp), (by intro _; simp)⟩
  simp only [h10, if_false]
  cases hb : p.checkBackslash with
  | error e =>
    simp only
    have := checkBackslash_error hb
    exact ⟨(by intro v h; cases h), (by simpa using this.1), (by intro _; simpa using this.2)⟩
  | ok v =>
    obtain ⟨p1, c⟩ := v
    simp only
    refine ⟨?_, (by simp), (by intro _; simp)⟩
    intro v hv
    cases hv
    refine Or.inr ⟨.char c, p.re.inst.length, p.re.inst.length, by simp [checkBackslash_re hb], Parse.char ?_ hb⟩
    intro hmem
    simp only [termSpecial, List.mem_cons, List.mem_singleton] at hmem
    simp only [endOfFile] at h1
    rcases hmem with h | h | h | h | h | h | h | h | h | h | h | h | h <;> simp_all

theorem closure_step (n : Nat)
    (hT : ∀ p, CallSpec (parser.term n p) (OkNil .term p) n (5 * p.rem + 1)) :
    ∀ p, CallSpec (parser.closure (n + 1) p) (OkNil .closure p) (n + 1) (5 * p.rem + 2) := by
  intro p
  unfold parser.closure
  have hsp := hT p
  cases hres : parser.term n p with
  | error e =>
    simp only
    refine ⟨(by intro v h; cases h), ?_, ?_⟩
    · intro h; cases h; exact hsp.noCrash hres
    · intro hf h; cases h; exact hsp.noFuel (by omega) hres
  | ok v =>
    obtain ⟨p1, start, end'⟩ := v
    simp only
    rcases hsp.value _ hres with ⟨hv, hnil⟩ | ⟨r, s, e, hse, hpar⟩
    · cases hv
      simp only [if_true]
      refine ⟨?_, (by simp), (by intro _; simp)⟩
      intro v hv
      cases hv
      exact Or.inl ⟨rfl, hnil⟩
    · simp only at hse hpar
      cases hse
      simp only [reduceCtorEq, if_false]
      have hb := hpar.bounds
      simp only [Bounds] at hb
      by_cases h42 : p1.c = 42
      · simp only [h42, if_true]
        obtain ⟨re1, hre1⟩ := setNext_some ((p1.re.add { kind := .iAlt }).1) (e)
          ((p1.re.add { kind := .iAlt }).2) (by simp; omega)
        obtain ⟨re2, hre2⟩ := setLeft_some (re1) (p1.re.inst.length) (some s)
          (by rw [setNext_length hre1]; simp)
        have hre2' : re1.setLeft ((p1.re.add { kind := .iAlt }).2) (some s) = .ok re2 := hre2
        simp only [hre1, hre2']
        by_cases hq : ({ p1 with re := re2 } : parser).nextc.ch = 42 ∨
            ({ p1 with re := re2 } : parser).nextc.ch = 43 ∨
            ({ p1 with re := re2 } : parser).nextc.ch = 63
        · simp only [hq, if_true]
          exact ⟨(by intro v h; cases h), (by simp), (by intro _; simp)⟩
        · simp only [hq, if_false]
          refine ⟨?_, (by simp), (by intro _; simp)⟩
          intro v hv
          cases hv
          exact Or.inr ⟨_, _, _, rfl, Parse.star hpar h42 hre1 hre2 hq⟩
      simp only [h42, if_false]
      by_cases h43 : p1.c = 43
      · simp only [h43, if_true]
        obtain ⟨re1, hre1⟩ := setNext_some ((p1.re.add { kind := .iAlt }).1) (e)
          ((p1.re.add { kind := .iAlt }).2) (by simp; omega)
        obtain ⟨re2, hre2⟩ := setLeft_some (re1) (p1.re.inst.length) (some s)
          (by rw [setNext_length hre1]; simp)
        have hre2' : re1.setLeft ((p1.re.add { kind := .iAlt }).2) (some s) = .ok re2 := hre2
        simp only [hre1, hre2']
        by_cases hq : ({ p1 with re := re2 } : parser).nextc.ch = 42 ∨
            ({ p1 with re := re2 } : parser).nextc.ch = 43 ∨
            ({ p1 with re := re2 } : parser).nextc.ch = 63
        · simp only [hq, if_true]
          exact ⟨(by intro v h; cases h), (by simp), (by intro _; simp)⟩
        · simp only [hq, if_false]
          refine ⟨?_, (by simp), (by intro _; simp)⟩
          intro v hv
          cases hv
          exact Or.inr ⟨_, _, _, rfl, Parse.plus hpar h43 hre1 hre2 hq⟩
      simp only [h43, if_false]
      by_cases h63 : p1.c = 63
      · simp only [h63, if_true]
        obtain ⟨re1, hre1⟩ := setLeft_some
          (((p1.re.add { kind := .iAlt }).1.add { kind := .iNop }).1)
          (p1.re.inst.length) (some s) (by simp)
        have hre1' : ((p1.re.add { kind := .iAlt }).1.add { kind := .iNop }).1.setLeft
            ((p1.re.add { kind := .iAlt }).2) (some s) = .ok re1 := hre1
        obtain ⟨re2, hre2⟩ := setNext_some (re1) (p1.re.inst.length)
          (some (p1.re.add { kind := .iAlt }).1.inst.length) (by rw [setLeft_length hre1]; simp)
        have hre2' : re1.setNext ((p1.re.add { kind := .iAlt }).2)
            (((p1.re.add { kind := .iAlt }).1.add { kind := .iNop }).2) = .ok re2 := hre2
        obtain ⟨re3, hre3⟩ := setNext_some (re2) (e)
          (some (p1.re.add { kind := .iAlt }).1.inst.length)
          (by rw [setNext_length hre2, setLeft_length hre1]; simp; omega)
        have hre3' : re2.setNext (some e)
            (((p1.re.add { kind := .iAlt }).1.add { kind := .iNop }).2) = .ok re3 := hre3
        simp only [hre1', hre2', hre3']
        by_cases hq : ({ p1 with re := re3 } : parser).nextc.ch = 42 ∨
            ({ p1 with re := re3 } : parser).nextc.ch = 43 ∨
            ({ p1 with re := re3 } : parser).nextc.ch = 63
        · simp only [hq, if_true]
          exact ⟨(by intro v h; cases h), (by simp), (by intro _; simp)⟩
        · simp only [hq, if_false]
          refine ⟨?_, (by simp), (by intro _; simp)⟩
          intro v hv
          cases hv
          exact Or.inr ⟨_, _, _, by simp, Parse.opt hpar h63 hre1 hre2 hre3 hq⟩
      simp only [h63, if_false]
      refine ⟨?_, (by simp), (by intro _; simp)⟩
      intro v hv
      cases hv
      exact Or.inr ⟨_, _, _, rfl, Parse.plain hpar h42 h43 h63⟩

theorem concatLoop_step (n : Nat)
    (hC : ∀ p, CallSpec (parser.closure n p) (OkNil .closure p) n (5 * p.rem + 2))
    (hL : ∀ p s0 e0, s0 < p.re.inst.length → e0 < p.re.inst.length →
      CallSpec (parser.concatenationLoop n p (some s0) (some e0))
        (OkLoop .concatLoop s0 e0 p) n (5 * p.rem + 3)) :
    (∀ p end', CallSpec (parser.concatenationLoop (n + 1) p none end')
        (OkFrag .concat p) (n + 1) (5 * p.rem + 3)) ∧
    (∀ p s0 e0, s0 < p.re.inst.length → e0 < p.re.inst.length →
      CallSpec (parser.concatenationLoop (n + 1) p (some s0) (some e0))
        (OkLoop .concatLoop s0 e0 p) (n + 1) (5 * p.rem + 3)) := by
  constructor
  · intro p end'
    unfold parser.concatenationLoop
    have hsp := hC p
    cases hres : parser.closure n p with
    | error e =>
      simp only
      refine ⟨(by intro v h; cases h), ?_, ?_⟩
      · intro h; cases h; exact hsp.noCrash hres
      · intro hf h; cases h; exact hsp.noFuel (by omega) hres
    | ok v =>
      obtain ⟨p1, nstart, nend⟩ := v
      simp only
      rcases hsp.value _ hres with ⟨hv, hnil⟩ | ⟨c, s1, e1, hse, hpar⟩
      · cases hv
        simp only [if_true]
        refine ⟨?_, (by simp), (by intro _; simp)⟩
        intro v hv
        cases hv
        exact ⟨_, _, _, by simp, Parse.emptyConcat hnil⟩
      · simp only at hse hpar
        cases hse
        simp only [reduceCtorEq, if_false, if_true]
        have hb := hpar.bounds
        simp only [Bounds] at hb
        have hs := hpar.shrinks.2
        simp only [Shrinks] at hs
        have := hL p1 s1 e1 hb.2.1 hb.2.2
        refine ⟨?_, this.noCrash, fun hf => this.noFuel (by omega)⟩
        intro v hv
        obtain ⟨r, s, e, hse, hrun⟩ := this.value v hv c
        exact ⟨r, s, e, hse, Parse.first hpar hrun⟩
  · intro p s0 e0 hs0 he0
    unfold parser.concatenationLoop
    have hsp := hC p
    cases hres : parser.closure n p with
    | error e =>
      simp only
      refine ⟨(by intro v h; cases h), ?_, ?_⟩
      · intro h; cases h; exact hsp.noCrash hres
      · intro hf h; cases h; exact hsp.noFuel (by omega) hres
    | ok v =>
      obtain ⟨p1, nstart, nend⟩ := v
      simp only
      rcases hsp.value _ hres with ⟨hv, hnil⟩ | ⟨c, s1, e1, hse, hpar⟩
      · cases hv
        simp only [reduceCtorEq, if_true, if_false]
        refine ⟨?_, (by simp), (by intro _; simp)⟩
        intro v hv
        cases hv
        intro a
        exact ⟨_, _, _, rfl, Parse.last hnil⟩
      · simp only at hse hpar
        cases hse
        simp only [reduceCtorEq, if_false]
        have hb := hpar.bounds
        simp only [Bounds] at hb
        have hs := hpar.shrinks.2
        simp only [Shrinks] at hs
        obtain ⟨re1, hre1⟩ := setNext_some (p1.re) (e0) (some s1) (by omega)
        simp only [hre1]
        have hlen := setNext_length hre1
        have hrem := withRe_rem p1 re1 (setNext_nbra hre1).2
        have := hL { p1 with re := re1 } s0 e1 (by simp [hlen]; omega) (by simp [hlen]; omega)
        refine ⟨?_, this.noCrash, fun hf => this.noFuel (by omega)⟩
        intro v hv a
        obtain ⟨r, s, e, hse, hrun⟩ := this.value v hv (.cat a c)
        exact ⟨r, s, e, hse, Parse.next hpar hre1 hrun⟩

theorem concatenation_step (n : Nat)
    (hL : ∀ p end', CallSpec (parser.concatenationLoop n p none end')
        (OkFrag .concat p) n (5 * p.rem + 3)) :
    ∀ p, CallSpec (parser.concatenation (n + 1) p) (OkFrag .concat p) (n + 1) (5 * p.rem + 4) := by
  intro p
  unfold parser.concatenation
  have := hL p none
  exact ⟨this.value, this.noCrash, fun hf => this.noFuel (by omega)⟩

theorem regexpLoop_step (n : Nat)
    (hK : ∀ p, CallSpec (parser.concatenation n p) (OkFrag .concat p) n (5 * p.rem + 4))
    (hL : ∀ p s0 e0, s0 < p.re.inst.length → e0 < p.re.inst.length →
      CallSpec (parser.regexpLoop n p (some s0) (some e0))
        (OkLoop .regexpLoop s0 e0 p) n (5 * p.rem + 1)) :
    ∀ p s0 e0, s0 < p.re.inst.length → e0 < p.re.inst.length →
      CallSpec (parser.regexpLoop (n + 1) p (some s0) (some e0))
        (OkLoop .regexpLoop s0 e0 p) (n + 1) (5 * p.rem + 1) := by
  intro p s0 e0 hs0 he0
  unfold parser.regexpLoop
  by_cases h124 : p.c = 124
  · simp only [h124, if_true]
    have hne : p.ch ≠ endOfFile := by simp [parser.c] at h124; simp [h124, endOfFile]
    have hlt := nextc_rem_lt p hne
    have hsp := hK p.nextc
    cases hres : parser.concatenation n p.nextc with
    | error e =>
      simp only
      refine ⟨(by intro v h; cases h), ?_, ?_⟩
      · intro h; cases h; exact hsp.noCrash hres
      · intro hf h; cases h; exact hsp.noFuel (by omega) hres
    | ok v =>
      obtain ⟨p1, nstart, nend⟩ := v
      obtain ⟨c, s1, e1, hse, hpar⟩ := hsp.value _ hres
      simp only at hse hpar
      cases hse
      simp only
      have hb := hpar.bounds
      simp only [Bounds, nextc_re] at hb
      have hs := hpar.shrinks.2
      simp only [Shrinks] at hs
      obtain ⟨re1, hre1⟩ := setLeft_some ((p1.re.add { kind := .iAlt }).1)
        (p1.re.inst.length) (some s0) (by simp)
      have hre1' : (p1.re.add { kind := .iAlt }).1.setLeft ((p1.re.add { kind := .iAlt }).2)
          (some s0) = .ok re1 := hre1
      have l1 := setLeft_length hre1
      obtain ⟨re2, hre2⟩ := setNext_some (re1) (p1.re.inst.length) (some s1)
        (by rw [l1]; simp)
      have hre2' : re1.setNext ((p1.re.add { kind := .iAlt }).2) (some s1) = .ok re2 := hre2
      have l2 := setNext_length hre2
      obtain ⟨re3, hre3⟩ := setNext_some ((re2.add { kind := .iNop }).1) (e0)
        (some re2.inst.length) (by simp [l2, l1]; omega)
      have hre3' : (re2.add { kind := .iNop }).1.setNext (some e0)
          ((re2.add { kind := .iNop }).2) = .ok re3 := hre3
      have l3 := setNext_length hre3
      obtain ⟨re4, hre4⟩ := setNext_some (re3) (e1) (some re2.inst.length)
        (by simp [l3, l2, l1]; omega)
      have hre4' : re3.setNext (some e1) ((re2.add { kind := .iNop }).2) = .ok re4 := hre4
      have l4 := setNext_length hre4
      simp only [hre1', hre2', hre3', hre4']
      simp only [add_inst, List.length_append, List.length_singleton] at l1 l3
      have hex : re4.expr = p1.re.expr := by
        rw [(setNext_nbra hre4).2, (setNext_nbra hre3).2]
        simp [(setNext_nbra hre2).2, (setLeft_nbra hre1).2]
      have hrem := withRe_rem p1 re4 hex
      have := hL { p1 with re := re4 } p1.re.inst.length re2.inst.length
        (by simp only [l4, l3, l2, l1]; omega) (by simp only [l4, l3, l2, l1]; omega)
      refine ⟨?_, this.noCrash, fun hf => this.noFuel (by omega)⟩
      intro v hv a
      obtain ⟨r, s, e, hse, hrun⟩ := this.value v hv (.alt a c)
      have e2 : re2.inst.length = p1.re.inst.length + 1 := by omega
      rw [e2] at hrun
      exact ⟨r, s, e, hse, Parse.bar h124 hpar hre1 hre2 hre3 hre4 hrun⟩
  · simp only [h124, if_false]
    refine ⟨?_, (by simp), (by intro _; simp)⟩
    intro v hv
    cases hv
    intro a
    exact ⟨_, _, _, rfl, Parse.done h124⟩

theorem regexp_step (n : Nat)
    (hK : ∀ p, CallSpec (parser.concatenation n p) (OkFrag .concat p) n (5 * p.rem + 4))
    (hL : ∀ p s0 e0, s0 < p.re.inst.length → e0 < p.re.inst.length →
      CallSpec (parser.regexpLoop n p (some s0) (some e0))
        (OkLoop .regexpLoop s0 e0 p) n (5 * p.rem + 1)) :
    ∀ p, CallSpec (parser.regexp (n + 1) p) (OkFrag .regexp p) (n + 1) (5 * p.rem + 5) := by
  intro p
  unfold parser.regexp
  have hsp := hK p
  cases hres : parser.concatenation n p with
  | error e =>
    simp only
    refine ⟨(by intro v h; cases h), ?_, ?_⟩
    · intro h; cases h; exact hsp.noCrash hres
    · intro hf h; cases h; exact hsp.noFuel (by omega) hres
  | ok v =>
    obtain ⟨p1, start, end'⟩ := v
    obtain ⟨c, s1, e1, hse, hpar⟩ := hsp.value _ hres
    simp only at hse hpar
    cases hse
    simp only
    have hb := hpar.bounds
    simp only [Bounds] at hb
    have hs := hpar.shrinks.2
    simp only [Shrinks] at hs
    have := hL p1 s1 e1 hb.2.1 hb.2.2
    refine ⟨?_, this.noCrash, fun hf => this.noFuel (by omega)⟩
    intro v hv
    obtain ⟨r, s, e, hse, hrun⟩ := this.value v hv c
    exact ⟨r, s, e, hse, Parse.regexp hpar hrun⟩

/-- Every call of a function of the parser: its value is a run, it does not dereference a
nil pointer, and it does not run out of fuel when given five units for each unit of input
left to read, plus five. -/
theorem parser_spec (n : Nat) :
    (∀ p, CallSpec (parser.term n p) (OkNil .term p) n (5 * p.rem + 1)) ∧
    (∀ p, CallSpec (parser.closure n p) (OkNil .closure p) n (5 * p.rem + 2)) ∧
    (∀ p end', CallSpec (parser.concatenationLoop n p none end')
        (OkFrag .concat p) n (5 * p.rem + 3)) ∧
    (∀ p s0 e0, s0 < p.re.inst.length → e0 < p.re.inst.length →
      CallSpec (parser.concatenationLoop n p (some s0) (some e0))
        (OkLoop .concatLoop s0 e0 p) n (5 * p.rem + 3)) ∧
    (∀ p, CallSpec (parser.concatenation n p) (OkFrag .concat p) n (5 * p.rem + 4)) ∧
    (∀ p s0 e0, s0 < p.re.inst.length → e0 < p.re.inst.length →
      CallSpec (parser.regexpLoop n p (some s0) (some e0))
        (OkLoop .regexpLoop s0 e0 p) n (5 * p.rem + 1)) ∧
    (∀ p, CallSpec (parser.regexp n p) (OkFrag .regexp p) n (5 * p.rem + 5)) := by
  induction n with
  | zero =>
    refine ⟨?_, ?_, ?_, ?_, ?_, ?_, ?_⟩
    · intro p
      exact ⟨(by intro v h; simp [parser.term] at h), (by simp [parser.term]), (by intro h; omega)⟩
    · intro p
      exact ⟨(by intro v h; simp [parser.closure] at h), (by simp [parser.closure]),
        (by intro h; omega)⟩
    · intro p e
      exact ⟨(by intro v h; simp [parser.concatenationLoop] at h),
        (by simp [parser.concatenationLoop]), (by intro h; omega)⟩
    · intro p s0 e0 _ _
      exact ⟨(by intro v h; simp [parser.concatenationLoop] at h),
        (by simp [parser.concatenationLoop]), (by intro h; omega)⟩
    · intro p
      exact ⟨(by intro v h; simp [parser.concatenation] at h), (by simp [parser.concatenation]),
        (by intro h; omega)⟩
    · intro p s0 e0 _ _
      exact ⟨(by intro v h; simp [parser.regexpLoop] at h), (by simp [parser.regexpLoop]),
        (by intro h; omega)⟩
    · intro p
      exact ⟨(by intro v h; simp [parser.regexp] at h), (by simp [parser.regexp]),
        (by intro h; omega)⟩
  | succ n ih =>
    obtain ⟨hT, hC, hL0, hL1, hK, hRL, hR⟩ := ih
    have hL := concatLoop_step n hC hL1
    exact ⟨term_step n hR, closure_step n hT, hL.1, hL.2, concatenation_step n hL0,
      regexpLoop_step n hK hRL, regexp_step n hK hRL⟩

end GoRegexp

namespace GoRegexp

/-! ## Links and fragments -/

theorem updNext_length (G : List instr) (k : Nat) (j : Option Nat) :
    (updNext G k j).length = G.length := by
  unfold updNext; split <;> simp

theorem updLeft_length (G : List instr) (k : Nat) (j : Option Nat) :
    (updLeft G k j).length = G.length := by
  unfold updLeft; split <;> simp

theorem updNext_get (G : List instr) (k : Nat) (j : Option Nat) (i : Nat) :
    (updNext G k j)[i]? = if i = k then (G[i]?).map (fun x => { x with next := j }) else G[i]? := by
  unfold updNext
  split
  · rename_i x hx
    rw [List.getElem?_set]
    by_cases h : i = k
    · subst h
      have := (List.getElem?_eq_some.mp hx).1
      simp [hx, this]
    · have : ¬ k = i := fun h' => h h'.symm
      simp [h, this]
  · rename_i hx
    by_cases h : i = k
    · subst h; simp [hx]
    · simp [h]

theorem updLeft_get (G : List instr) (k : Nat) (j : Option Nat) (i : Nat) :
    (updLeft G k j)[i]? = if i = k then (G[i]?).map (fun x => { x with left := j }) else G[i]? := by
  unfold updLeft
  split
  · rename_i x hx
    rw [List.getElem?_set]
    by_cases h : i = k
    · subst h
      have := (List.getElem?_eq_some.mp hx).1
      simp [hx, this]
    · have : ¬ k = i := fun h' => h h'.symm
      simp [h, this]
  · rename_i hx
    by_cases h : i = k
    · subst h; simp [hx]
    · simp [h]

theorem setNext_inst {re re2 : Regexp} {k : Nat} {j : Option Nat}
    (h : re.setNext (some k) j = .ok re2) :
    re2.inst = updNext re.inst k j ∧ re2.nbra = re.nbra := by
  obtain ⟨k', x, hk, hx, rfl⟩ := setNext_ok h
  cases hk
  simp [updNext, hx]

theorem setLeft_inst {re re2 : Regexp} {k : Nat} {j : Option Nat}
    (h : re.setLeft (some k) j = .ok re2) :
    re2.inst = updLeft re.inst k j ∧ re2.nbra = re.nbra := by
  obtain ⟨k', x, hk, hx, rfl⟩ := setLeft_ok h
  cases hk
  simp [updLeft, hx]

theorem IsFrag.mono {G : List instr} {nb nb2 m s e : Nat} (h : IsFrag G nb m s e)
    (hnb : nb ≤ nb2) : IsFrag G nb2 m s e := by
  obtain ⟨hs, he, rk, hn⟩ := h
  refine ⟨hs, he, rk, fun i hi1 hi2 => ?_⟩
  obtain ⟨x, hx, ok⟩ := hn i hi1 hi2
  exact ⟨x, hx, { ok with bra := fun hb => ⟨(ok.bra hb).1, (by have := (ok.bra hb).2; omega)⟩ }⟩

theorem IsFrag.single (G : List instr) (x : instr) (nb : Nat) (h : Leaf x nb) :
    IsFrag (G ++ [x]) nb G.length G.length G.length := by
  refine ⟨by simp, by simp, fun _ => 0, fun i hi1 hi2 => ?_⟩
  have hi : i = G.length := by simp at hi2; omega
  subst hi
  refine ⟨x, by simp, ?_⟩
  obtain ⟨h1, h2, h3, h4, h5, h6⟩ := h
  exact {
    notStart := h1, notEnd := h2, atEnd := fun _ => h4, next := fun h => absurd rfl h,
    left := fun h => absurd h h3, nop := fun _ j hj => (by rw [h4] at hj; cases hj),
    bra := h5, cls := h6, rank := fun _ j hj => (by rw [h4] at hj; cases hj),
    rankLt := (by simp) }

/-- An instruction of the fragment (m, e) of G, not its end, that is found unchanged in G2
is as it should be in the fragment (m2, e2) of G2, when G2 extends G and rk2 orders the
instructions of G as rk does. -/
theorem NodeOK.weaken {G G2 : List instr} {m m2 e e2 nb : Nat} {rk rk2 : Nat → Nat} {i : Nat}
    {x : instr} (h : NodeOK G m e nb rk i x) (hie : i ≠ e) (hie2 : i ≠ e2)
    (hlen : G.length ≤ G2.length) (hm : m2 ≤ m)
    (hrk : ∀ j, m ≤ j → j < G.length → rk j < rk i → rk2 j < rk2 i)
    (hlt : rk2 i < G2.length - m2) : NodeOK G2 m2 e2 nb rk2 i x := by
  obtain ⟨j, hj, hj1, hj2⟩ := h.next hie
  exact {
    notStart := h.notStart, notEnd := h.notEnd, atEnd := fun h' => absurd h' hie2,
    next := fun _ => ⟨j, hj, (by omega), (by omega)⟩,
    left := fun ha => (by
      obtain ⟨l, hl, hl1, hl2⟩ := h.left ha
      exact ⟨l, hl, by omega, by omega⟩),
    nop := h.nop, bra := h.bra, cls := h.cls,
    rank := fun ha j' hj' => (by
      rw [hj] at hj'; cases hj'
      exact hrk j hj1 hj2 (h.rank ha j hj)),
    rankLt := hlt }

/-- The end of the fragment (m, e) of G, found unchanged in G2, is as it should be as the
end of the fragment (m2, e) of G2. -/
theorem NodeOK.keepEnd {G G2 : List instr} {m m2 e nb : Nat} {rk rk2 : Nat → Nat}
    {x : instr} (h : NodeOK G m e nb rk e x)
    (hlen : G.length ≤ G2.length) (hm : m2 ≤ m)
    (hlt : rk2 e < G2.length - m2) : NodeOK G2 m2 e nb rk2 e x := by
  have hn := h.atEnd rfl
  exact {
    notStart := h.notStart, notEnd := h.notEnd, atEnd := fun _ => hn,
    next := fun h' => absurd rfl h',
    left := fun ha => (by
      obtain ⟨l, hl, hl1, hl2⟩ := h.left ha
      exact ⟨l, hl, by omega, by omega⟩),
    nop := h.nop, bra := h.bra, cls := h.cls,
    rank := fun _ j' hj' => (by rw [hn] at hj'; cases hj'),
    rankLt := hlt }

/-- The end of the fragment (m, e) of G, once its `next` link is set to t, is as it should
be inside the fragment (m2, e2) of G2. -/
theorem NodeOK.linkEnd {G G2 : List instr} {m m2 e e2 nb t : Nat} {rk rk2 : Nat → Nat}
    {x : instr} (h : NodeOK G m e nb rk e x) (he2 : e ≠ e2)
    (hlen : G.length ≤ G2.length) (hm : m2 ≤ m) (ht : m2 ≤ t ∧ t < G2.length) (het : e < t)
    (hrk : rk2 t < rk2 e)
    (hlt : rk2 e < G2.length - m2) : NodeOK G2 m2 e2 nb rk2 e { x with next := some t } := by
  exact {
    notStart := h.notStart, notEnd := h.notEnd, atEnd := fun h' => absurd h' he2,
    next := fun _ => ⟨t, rfl, ht.1, ht.2⟩,
    left := fun ha => (by
      obtain ⟨l, hl, hl1, hl2⟩ := h.left ha
      exact ⟨l, hl, by omega, by omega⟩),
    nop := fun _ j hj => (by cases hj; exact het), bra := h.bra, cls := h.cls,
    rank := fun _ j' hj' => (by cases hj'; exact hrk),
    rankLt := hlt }

/-- A fragment of G is extended to a fragment of G2: the instructions of G but the end e
are found in G2, the `next` link of e is set, and the instructions after those of G are
as they should be; the instructions of G are ranked c above where they were. -/
theorem IsFrag.extend {G G2 : List instr} {nb m s e s2 e2 : Nat}
    (h : IsFrag G nb m s e) (c : Nat) (rkN : Nat → Nat)
    (hs2 : m ≤ s2 ∧ s2 < G2.length) (he2 : G.length ≤ e2 ∧ e2 < G2.length)
    (hold : ∀ i, m ≤ i → i < G.length → i ≠ e → G2[i]? = G[i]?)
    (hc : c + G.length ≤ G2.length)
    (hend : ∀ x, G[e]? = some x → ∃ t, G2[e]? = some { x with next := some t } ∧
      G.length ≤ t ∧ t < G2.length ∧ rkN t < c)
    (hnew : ∀ rk2 : Nat → Nat, (∀ j, m ≤ j → j < G.length → rk2 j < G.length - m + c) →
      (∀ j, G.length ≤ j → rk2 j = rkN j) →
      ∀ i, G.length ≤ i → i < G2.length → ∃ x, G2[i]? = some x ∧ NodeOK G2 m e2 nb rk2 i x) :
    IsFrag G2 nb m s2 e2 := by
  obtain ⟨hs, he, rk, hn⟩ := h
  refine ⟨hs2, ⟨by omega, he2.2⟩, fun j => if j < G.length then rk j + c else rkN j, ?_⟩
  intro i hi1 hi2
  by_cases hlt : i < G.length
  · obtain ⟨x, hx, ok⟩ := hn i hi1 hlt
    by_cases hie : i = e
    · subst hie
      obtain ⟨t, ht, ht1, ht2, ht3⟩ := hend x hx
      refine ⟨_, ht, ok.linkEnd (by omega) (by omega) (le_refl _) ⟨by omega, ht2⟩ (by omega) ?_ ?_⟩
      · have := ok.rankLt
        simp only [hlt, if_true, show ¬ t < G.length from by omega, if_false]
        omega
      · have := ok.rankLt
        simp only [hlt, if_true]
        omega
    · refine ⟨x, (hold i hi1 hlt hie).trans hx, ok.weaken hie (by omega) (by omega) (le_refl _) ?_ ?_⟩
      · intro j hj1 hj2 hj3
        simp only [hj2, hlt, if_true]
        omega
      · have := ok.rankLt
        simp only [hlt, if_true]
        omega
  · refine hnew _ ?_ ?_ i (by omega) hi2
    · intro j hj1 hj2
      obtain ⟨x, hx, ok⟩ := hn j hj1 hj2
      have := ok.rankLt
      simp only [hj2, if_true]
      omega
    · intro j hj
      simp only [show ¬ j < G.length from by omega, if_false]

theorem get_two_snd (G : List instr) (a b : instr) :
    (G ++ [a] ++ [b])[G.length + 1]? = some b := by
  rw [List.getElem?_append_right (by simp)]
  simp

theorem get_two_fst (G : List instr) (a b : instr) :
    (G ++ [a] ++ [b])[G.length]? = some a := by
  rw [List.getElem?_append_left (by simp)]
  simp

theorem IsFrag.get_end {G : List instr} {nb m s e : Nat} (h : IsFrag G nb m s e) :
    ∃ x, G[e]? = some x := by
  exact ⟨_, List.getElem?_eq_getElem h.he.2⟩

/-- The fragments of `x*` and `x+`. -/
theorem frag_star {G : List instr} {nb m s e : Nat} (h : IsFrag G nb m s e) (alt : instr)
    (halt : alt.kind = .iAlt) (hn : alt.next = none) :
    IsFrag (updLeft (updNext (G ++ [alt]) e (some G.length)) G.length (some s)) nb m
      G.length G.length ∧
    IsFrag (updLeft (updNext (G ++ [alt]) e (some G.length)) G.length (some s)) nb m
      s G.length ∧
    (∀ i, i < G.length → i ≠ e →
      (updLeft (updNext (G ++ [alt]) e (some G.length)) G.length (some s))[i]? = G[i]?) := by
  have hs := h.hs
  have he := h.he
  have hlen : (updLeft (updNext (G ++ [alt]) e (some G.length)) G.length (some s)).length
      = G.length + 1 := by simp [updLeft_length, updNext_length]
  have hold : ∀ i, i < G.length → i ≠ e →
      (updLeft (updNext (G ++ [alt]) e (some G.length)) G.length (some s))[i]? = G[i]? := by
    intro i h1 h2
    rw [updLeft_get, if_neg (by omega), updNext_get, if_neg h2, List.getElem?_append_left h1]
  have key : ∀ s2, m ≤ s2 ∧ s2 < G.length + 1 →
      IsFrag (updLeft (updNext (G ++ [alt]) e (some G.length)) G.length (some s)) nb m
        s2 G.length := by
    intro s2 hs2
    refine h.extend (1) (fun _ => 0) (by omega) (by omega)
      (fun i _ h1 h2 => hold i h1 h2) (by omega) ?_ ?_
    · intro x hx
      refine ⟨G.length, ?_, le_refl _, by omega, by simp⟩
      rw [updLeft_get, if_neg (by omega), updNext_get, if_pos rfl,
        List.getElem?_append_left he.2, hx]
      rfl
    · intro rk2 _ hrk i hi1 hi2
      have hi : i = G.length := by omega
      subst hi
      refine ⟨{ alt with left := some s }, ?_, ?_⟩
      · rw [updLeft_get, if_pos rfl, updNext_get, if_neg (by omega)]
        simp
      · exact {
          notStart := (by simp [halt]), notEnd := (by simp [halt]),
          atEnd := fun _ => hn, next := fun h' => absurd rfl h',
          left := fun _ => ⟨s, rfl, hs.1, (by omega)⟩,
          nop := fun h' => (by simp [halt] at h'),
          bra := fun h' => (by simp [halt] at h'),
          cls := fun h' => (by simp [halt] at h'),
          rank := fun h' => absurd halt h',
          rankLt := (by rw [hrk _ (le_refl _)]; show 0 < _; omega) }
  exact ⟨key _ (by omega), key _ (by omega), hold⟩

/-- The fragment of `x?`. -/
theorem frag_opt {G : List instr} {nb m s e t : Nat} (h : IsFrag G nb m s e) (alt nop : instr)
    (halt : alt.kind = .iAlt) (hnop : nop.kind = .iNop) (hn : nop.next = none)
    (ht : t = G.length + 1) :
    IsFrag (updNext (updNext (updLeft (G ++ [alt] ++ [nop]) G.length (some s)) G.length
      (some t)) e (some t)) nb m G.length (G.length + 1) ∧
    (∀ i, i < G.length → i ≠ e →
      (updNext (updNext (updLeft (G ++ [alt] ++ [nop]) G.length (some s)) G.length
        (some t)) e (some t))[i]? = G[i]?) := by
  subst ht
  have hs := h.hs
  have he := h.he
  have hlen : (updNext (updNext (updLeft (G ++ [alt] ++ [nop]) G.length (some s)) G.length
      (some (G.length + 1))) e (some (G.length + 1))).length = G.length + 2 := by
    simp [updLeft_length, updNext_length]
  have hold : ∀ i, i < G.length → i ≠ e →
      (updNext (updNext (updLeft (G ++ [alt] ++ [nop]) G.length (some s)) G.length
        (some (G.length + 1))) e (some (G.length + 1)))[i]? = G[i]? := by
    intro i h1 h2
    rw [updNext_get, if_neg h2, updNext_get, if_neg (by omega), updLeft_get, if_neg (by omega),
      List.append_assoc, List.getElem?_append_left h1]
  refine ⟨?_, hold⟩
  refine h.extend (1) (fun _ => 0) (by omega) (by omega)
    (fun i _ h1 h2 => hold i h1 h2) (by omega) ?_ ?_
  · intro x hx
    refine ⟨G.length + 1, ?_, by omega, by omega, by simp⟩
    rw [updNext_get, if_pos rfl, updNext_get, if_neg (by omega), updLeft_get, if_neg (by omega),
      List.append_assoc, List.getElem?_append_left he.2, hx]
    rfl
  · intro rk2 _ hrk i hi1 hi2
    have hi : i = G.length ∨ i = G.length + 1 := by omega
    rcases hi with hi | hi
    · subst hi
      refine ⟨{ alt with left := some s, next := some (G.length + 1) }, ?_, ?_⟩
      · rw [updNext_get, if_neg (by omega), updNext_get, if_pos rfl, updLeft_get, if_pos rfl,
          List.getElem?_append_left (by simp)]
        simp
      · exact {
          notStart := (by simp [halt]), notEnd := (by simp [halt]),
          atEnd := fun h' => (by omega),
          next := fun _ => ⟨G.length + 1, rfl, (by omega), (by omega)⟩,
          left := fun _ => ⟨s, rfl, hs.1, (by omega)⟩,
          nop := fun h' => (by simp [halt] at h'),
          bra := fun h' => (by simp [halt] at h'),
          cls := fun h' => (by simp [halt] at h'),
          rank := fun h' => absurd halt h',
          rankLt := (by rw [hrk _ (le_refl _)]; show 0 < _; omega) }
    · subst hi
      refine ⟨nop, ?_, ?_⟩
      · rw [updNext_get, if_neg (by omega), updNext_get, if_neg (by omega), updLeft_get,
          if_neg (by omega), get_two_snd]
      · exact {
          notStart := (by simp [hnop]), notEnd := (by simp [hnop]),
          atEnd := fun _ => hn, next := fun h' => absurd rfl h',
          left := fun h' => (by simp [hnop] at h'),
          nop := fun _ j hj => (by rw [hn] at hj; cases hj),
          bra := fun h' => (by simp [hnop] at h'),
          cls := fun h' => (by simp [hnop] at h'),
          rank := fun _ j hj => (by rw [hn] at hj; cases hj),
          rankLt := (by rw [hrk _ (by omega)]; show 0 < _; omega) }

/-- The fragment of `(x)`. -/
theorem frag_group {G : List instr} {nb m s e t : Nat} (h : IsFrag G nb m s e)
    (bra ebra : instr)
    (hbra : bra.kind = .iBra) (hebra : ebra.kind = .iBra) (hn : ebra.next = none)
    (hb1 : 2 ≤ bra.braNum ∧ bra.braNum ≤ 2 * nb + 1)
    (hb2 : 2 ≤ ebra.braNum ∧ ebra.braNum ≤ 2 * nb + 1)
    (ht : t = G.length + 1) :
    IsFrag (updNext (updNext (G ++ [bra] ++ [ebra]) e (some t)) G.length (some s)) nb m
      G.length (G.length + 1) ∧
    (∀ i, i < G.length → i ≠ e →
      (updNext (updNext (G ++ [bra] ++ [ebra]) e (some t)) G.length (some s))[i]? = G[i]?) := by
  subst ht
  have hs := h.hs
  have he := h.he
  have hlen : (updNext (updNext (G ++ [bra] ++ [ebra]) e (some (G.length + 1))) G.length
      (some s)).length = G.length + 2 := by
    simp [updNext_length]
  have hold : ∀ i, i < G.length → i ≠ e →
      (updNext (updNext (G ++ [bra] ++ [ebra]) e (some (G.length + 1))) G.length
        (some s))[i]? = G[i]? := by
    intro i h1 h2
    rw [updNext_get, if_neg (by omega), updNext_get, if_neg h2,
      List.append_assoc, List.getElem?_append_left h1]
  refine ⟨?_, hold⟩
  refine h.extend (1)
    (fun j => if j = G.length then G.length - m + 1 else 0) (by omega) (by omega)
    (fun i _ h1 h2 => hold i h1 h2) (by omega) ?_ ?_
  · intro x hx
    refine ⟨G.length + 1, ?_, by omega, by omega, by simp⟩
    rw [updNext_get, if_neg (by omega), updNext_get, if_pos rfl,
      List.append_assoc, List.getElem?_append_left he.2, hx]
    rfl
  · intro rk2 hrk1 hrk i hi1 hi2
    have hi : i = G.length ∨ i = G.length + 1 := by omega
    rcases hi with hi | hi
    · subst hi
      refine ⟨{ bra with next := some s }, ?_, ?_⟩
      · rw [updNext_get, if_pos rfl, updNext_get, if_neg (by omega),
          List.getElem?_append_left (by simp)]
        simp
      · exact {
          notStart := (by simp [hbra]), notEnd := (by simp [hbra]),
          atEnd := fun h' => (by omega),
          next := fun _ => ⟨s, rfl, (by omega), (by omega)⟩,
          left := fun h' => (by simp [hbra] at h'),
          nop := fun h' => (by simp [hbra] at h'),
          bra := fun _ => hb1,
          cls := fun h' => (by simp [hbra] at h'),
          rank := fun _ j hj => (by
            cases hj
            have := hrk1 s hs.1 hs.2
            rw [hrk _ (le_refl _)]
            simp only [if_true]
            omega),
          rankLt := (by rw [hrk _ (le_refl _)]; simp only [if_true]; omega) }
    · subst hi
      refine ⟨ebra, ?_, ?_⟩
      · rw [updNext_get, if_neg (by omega), updNext_get, if_neg (by omega), get_two_snd]
      · exact {
          notStart := (by simp [hebra]), notEnd := (by simp [hebra]),
          atEnd := fun _ => hn, next := fun h' => absurd rfl h',
          left := fun h' => (by simp [hebra] at h'),
          nop := fun h' => (by simp [hebra] at h'),
          bra := fun _ => hb2,
          cls := fun h' => (by simp [hebra] at h'),
          rank := fun _ j hj => (by rw [hn] at hj; cases hj),
          rankLt := (by
            rw [hrk _ (by omega)]
            simp only [show ¬ (G.length + 1 = G.length) from by omega, if_false]
            omega) }

/-- The fragment of a concatenation: the end of the first fragment is linked to the start
of the second. -/
theorem frag_cat {G0 G1 : List instr} {nb m s e s1 e1 : Nat} (hA : IsFrag G0 nb m s e)
    (hframe : ∀ i, i < G0.length → G1[i]? = G0[i]?) (hC : IsFrag G1 nb G0.length s1 e1) :
    IsFrag (updNext G1 e (some s1)) nb m s e1 ∧
    (∀ i, i < m → (updNext G1 e (some s1))[i]? = G0[i]?) := by
  have hs := hA.hs
  have he := hA.he
  have hs1 := hC.hs
  have he1 := hC.he
  have hlen : (updNext G1 e (some s1)).length = G1.length := updNext_length _ _ _
  have hold : ∀ i, i < G0.length → i ≠ e → (updNext G1 e (some s1))[i]? = G0[i]? := by
    intro i h1 h2
    rw [updNext_get, if_neg h2, hframe i h1]
  refine ⟨?_, fun i hi => hold i (by omega) (by omega)⟩
  obtain ⟨rkC, hnC⟩ := hC.nodes
  refine hA.extend (G1.length - G0.length) (rkC) (by omega) (by omega)
    (fun i _ h1 h2 => hold i h1 h2) (by omega) ?_ ?_
  · intro x hx
    refine ⟨s1, ?_, hs1.1, by omega, ?_⟩
    · rw [updNext_get, if_pos rfl, hframe e he.2, hx]
      rfl
    · obtain ⟨y, _, ok⟩ := hnC s1 hs1.1 hs1.2
      exact ok.rankLt
  · intro rk2 _ hrk i hi1 hi2
    rw [hlen] at hi2
    obtain ⟨x, hx, ok⟩ := hnC i hi1 hi2
    refine ⟨x, by rw [updNext_get, if_neg (by omega), hx], ?_⟩
    have hlt : rk2 i < (updNext G1 e (some s1)).length - m := by
      have := ok.rankLt
      rw [hrk i hi1, hlen]
      omega
    by_cases hie : i = e1
    · subst hie
      exact ok.keepEnd (by omega) (by omega) hlt
    · refine ok.weaken hie hie (by omega) (by omega) ?_ hlt
      intro j hj1 hj2 hj3
      rw [hrk i hi1, hrk j hj1]
      exact hj3

/-- The fragment of an alternation: an iAlt leads to the starts of the two fragments, and
their ends are linked to an iNop. -/
theorem frag_bar {G0 G1 : List instr} {nb m s e s1 e1 t : Nat} (hA : IsFrag G0 nb m s e)
    (hframe : ∀ i, i < G0.length → G1[i]? = G0[i]?) (hC : IsFrag G1 nb G0.length s1 e1)
    (alt nop : instr) (halt : alt.kind = .iAlt) (hnop : nop.kind = .iNop) (hn : nop.next = none)
    (ht : t = G1.length + 1) :
    IsFrag (updNext (updNext (updNext (updLeft (G1 ++ [alt]) G1.length (some s)) G1.length
        (some s1) ++ [nop]) e (some t)) e1 (some t)) nb m G1.length (G1.length + 1) ∧
    (∀ i, i < m → (updNext (updNext (updNext (updLeft (G1 ++ [alt]) G1.length (some s)) G1.length
        (some s1) ++ [nop]) e (some t)) e1 (some t))[i]? = G0[i]?) := by
  subst ht
  have hs := hA.hs
  have he := hA.he
  have hs1 := hC.hs
  have he1 := hC.he
  have hlenx : (updNext (updLeft (G1 ++ [alt]) G1.length (some s)) G1.length (some s1)).length
      = G1.length + 1 := by simp [updNext_length, updLeft_length]
  have hlen : (updNext (updNext (updNext (updLeft (G1 ++ [alt]) G1.length (some s)) G1.length
        (some s1) ++ [nop]) e (some (G1.length + 1))) e1 (some (G1.length + 1))).length
      = G1.length + 2 := by simp [updNext_length, updLeft_length]
  have hget : ∀ i, i < G1.length → i ≠ e → i ≠ e1 →
      (updNext (updNext (updNext (updLeft (G1 ++ [alt]) G1.length (some s)) G1.length
        (some s1) ++ [nop]) e (some (G1.length + 1))) e1 (some (G1.length + 1)))[i]? = G1[i]? := by
    intro i h1 h2 h3
    rw [updNext_get, if_neg h3, updNext_get, if_neg h2,
      List.getElem?_append_left (by rw [hlenx]; omega), updNext_get, if_neg (by omega),
      updLeft_get, if_neg (by omega), List.getElem?_append_left h1]
  have hold : ∀ i, i < G0.length → i ≠ e →
      (updNext (updNext (updNext (updLeft (G1 ++ [alt]) G1.length (some s)) G1.length
        (some s1) ++ [nop]) e (some (G1.length + 1))) e1 (some (G1.length + 1)))[i]? = G0[i]? := by
    intro i h1 h2
    rw [hget i (by omega) h2 (by omega), hframe i h1]
  refine ⟨?_, fun i hi => hold i (by omega) (by omega)⟩
  obtain ⟨rkC, hnC⟩ := hC.nodes
  refine hA.extend (1) (fun j => if j < G1.length then rkC j + 1 else 0)
    (by omega) (by omega) (fun i _ h1 h2 => hold i h1 h2) (by omega) ?_ ?_
  · intro x hx
    refine ⟨G1.length + 1, ?_, by omega, by omega, by simp⟩
    rw [updNext_get, if_neg (by omega), updNext_get, if_pos rfl,
      List.getElem?_append_left (by rw [hlenx]; omega), updNext_get, if_neg (by omega),
      updLeft_get, if_neg (by omega), List.getElem?_append_left (by omega), hframe e he.2, hx]
    rfl
  · intro rk2 _ hrk i hi1 hi2
    rw [hlen] at hi2
    by_cases hiC : i < G1.length
    · obtain ⟨x, hx, ok⟩ := hnC i hi1 hiC
      have hlt : rk2 i < (updNext (updNext (updNext (updLeft (G1 ++ [alt]) G1.length (some s))
          G1.length (some s1) ++ [nop]) e (some (G1.length + 1))) e1
          (some (G1.length + 1))).length - m := by
        have := ok.rankLt
        rw [hrk i hi1, hlen]
        simp only [hiC, if_true]
        omega
      by_cases hie : i = e1
      · subst hie
        refine ⟨{ x with next := some (G1.length + 1) }, ?_, ?_⟩
        · rw [updNext_get, if_pos rfl, updNext_get, if_neg (by omega),
            List.getElem?_append_left (by rw [hlenx]; omega), updNext_get, if_neg (by omega),
            updLeft_get, if_neg (by omega), List.getElem?_append_left (by omega), hx]
          rfl
        · refine ok.linkEnd (by omega) (by omega) (by omega) ⟨by omega, by omega⟩ (by omega)
            ?_ hlt
          rw [hrk i hi1, hrk _ (by omega)]
          simp only [hiC, if_true, show ¬ (G1.length + 1 < G1.length) from by omega, if_false]
          omega
      · refine ⟨x, by rw [hget i hiC (by omega) hie, hx], ?_⟩
        refine ok.weaken hie (by omega) (by omega) (by omega) ?_ hlt
        intro j hj1 hj2 hj3
        rw [hrk i hi1, hrk j hj1]
        simp only [hiC, hj2, if_true]
        omega
    · have hi : i = G1.length ∨ i = G1.length + 1 := by omega
      rcases hi with hi | hi
      · subst hi
        refine ⟨{ alt with left := some s, next := some s1 }, ?_, ?_⟩
        · rw [updNext_get, if_neg (by omega), updNext_get, if_neg (by omega),
            List.getElem?_append_left (by rw [hlenx]; omega), updNext_get, if_pos rfl,
            updLeft_get, if_pos rfl]
          simp
        · exact {
            notStart := (by simp [halt]), notEnd := (by simp [halt]),
            atEnd := fun h' => (by omega),
            next := fun _ => ⟨s1, rfl, (by omega), (by omega)⟩,
            left := fun _ => ⟨s, rfl, hs.1, (by omega)⟩,
            nop := fun h' => (by simp [halt] at h'),
            bra := fun h' => (by simp [halt] at h'),
            cls := fun h' => (by simp [halt] at h'),
            rank := fun h' => absurd halt h',
            rankLt := (by
              rw [hrk _ (by omega)]
              simp only [show ¬ (G1.length < G1.length) from by omega, if_false]
              omega) }
      · subst hi
        refine ⟨nop, ?_, ?_⟩
        · rw [updNext_get, if_neg (by omega), updNext_get, if_neg (by omega),
            List.getElem?_append_right (by rw [hlenx]), hlenx]
          simp
        · exact {
            notStart := (by simp [hnop]), notEnd := (by simp [hnop]),
            atEnd := fun _ => hn, next := fun h' => absurd rfl h',
            left := fun h' => (by simp [hnop] at h'),
            nop := fun _ j hj => (by rw [hn] at hj; cases hj),
            bra := fun h' => (by simp [hnop] at h'),
            cls := fun h' => (by simp [hnop] at h'),
            rank := fun _ j hj => (by rw [hn] at hj; cases hj),
            rankLt := (by
              rw [hrk _ (by omega)]
              simp only [show ¬ (G1.length + 1 < G1.length) from by omega, if_false]
              omega) }

theorem classInstr_leaf (cc : charClass) (n nb : Nat) :
    Leaf { classInstr cc with index := n } nb := by
  unfold classInstr
  split
  · simp [Leaf]
  · split <;> simp [Leaf]

theorem frame_single (G : List instr) (x : instr) : ∀ i, i < G.length → (G ++ [x])[i]? = G[i]? :=
  fun _ hi => List.getElem?_append_left hi

/-- What every run of the parser does to the program. -/
theorem Parse.frag {nt : NT} {p p2 : parser} {r : Ast} {s e : Nat}
    (h : Parse nt p r p2 s e) : FragSpec nt p p2 s e := by
  induction h with
  | @bot p _ =>
    refine ⟨by simp, ?_, ?_⟩
    · simpa using frame_single _ _
    · simpa using IsFrag.single p.re.inst _ _ (by simp [Leaf])
  | @eot p _ =>
    refine ⟨by simp, ?_, ?_⟩
    · simpa using frame_single _ _
    · simpa using IsFrag.single p.re.inst _ _ (by simp [Leaf])
  | @any p _ =>
    refine ⟨by simp, ?_, ?_⟩
    · simpa using frame_single _ _
    · simpa using IsFrag.single p.re.inst _ _ (by simp [Leaf])
  | @char p p1 c _ hb =>
    have e1 := (checkBackslash_re hb).1
    refine ⟨by simp [e1], ?_, ?_⟩
    · simpa [e1] using frame_single _ _
    · simpa [e1] using IsFrag.single p.re.inst _ _ (by simp [Leaf])
  | @cls p p1 cc _ hc _ =>
    have e1 : p1.re = p.re := by simpa using hc.re_eq.1
    refine ⟨by simp [e1], ?_, ?_⟩
    · simpa [e1] using frame_single _ _
    · simpa [e1] using IsFrag.single p.re.inst _ _ (classInstr_leaf cc p.re.inst.length p.re.nbra)
  | @group p p2 r s e re1 re2 _ _ _ h1 h2 ih =>
    obtain ⟨hnb, hfr, hfrag⟩ := ih
    simp only [lpar_nbra, lpar_inst] at hnb hfr hfrag
    obtain ⟨i1, n1⟩ := setNext_inst h1
    obtain ⟨i2, n2⟩ := setNext_inst h2
    simp only [rpar_re, add_inst, add_nbra, List.length_append, List.length_singleton] at i1 n1 i2
    have key := frag_group hfrag
      ({ kind := .iBra, index := p2.re.inst.length, braNum := 2 * p.lpar.re.nbra } : instr)
      ({ kind := .iBra, index := p2.re.inst.length + 1,
         braNum := 2 * p.lpar.re.nbra + 1 } : instr) rfl rfl rfl
      (by simp; omega) (by simp; omega) (t := p2.re.inst.length + 1) rfl
    have hinst : re2.inst = _ := i2.trans (by rw [i1])
    refine ⟨by simp [n2, n1]; omega, ?_, ?_⟩
    · intro i hi
      have hb := hfrag.he
      simp only [hinst]
      rw [key.2 i (by have := hfrag.hs; omega) (by omega)]
      exact hfr i hi
    · simp only [hinst, n2, n1]
      exact key.1
  | plain _ _ _ _ ih => exact ih
  | @star p r p1 s e re1 re2 _ _ h1 h2 _ ih =>
    obtain ⟨hnb, hfr, hfrag⟩ := ih
    obtain ⟨i1, n1⟩ := setNext_inst h1
    obtain ⟨i2, n2⟩ := setLeft_inst h2
    simp only [add_inst, add_nbra] at i1 n1
    have key := frag_star hfrag { kind := .iAlt, index := p1.re.inst.length } rfl rfl
    have hinst : re2.inst = _ := i2.trans (by rw [i1])
    refine ⟨by simp [n2, n1]; omega, ?_, ?_⟩
    · intro i hi
      simp only [nextc_re, hinst]
      rw [key.2.2 i (by have := hfrag.hs; omega) (by have := hfrag.he; omega)]
      exact hfr i hi
    · simp only [nextc_re, hinst, n2, n1]
      exact key.1
  | @plus p r p1 s e re1 re2 _ _ h1 h2 _ ih =>
    obtain ⟨hnb, hfr, hfrag⟩ := ih
    obtain ⟨i1, n1⟩ := setNext_inst h1
    obtain ⟨i2, n2⟩ := setLeft_inst h2
    simp only [add_inst, add_nbra] at i1 n1
    have key := frag_star hfrag { kind := .iAlt, index := p1.re.inst.length } rfl rfl
    have hinst : re2.inst = _ := i2.trans (by rw [i1])
    refine ⟨by simp [n2, n1]; omega, ?_, ?_⟩
    · intro i hi
      simp only [nextc_re, hinst]
      rw [key.2.2 i (by have := hfrag.hs; omega) (by have := hfrag.he; omega)]
      exact hfr i hi
    · simp only [nextc_re, hinst, n2, n1]
      exact key.2.1
  | @opt p r p1 s e re1 re2 re3 _ _ h1 h2 h3 _ ih =>
    obtain ⟨hnb, hfr, hfrag⟩ := ih
    obtain ⟨i1, n1⟩ := setLeft_inst h1
    obtain ⟨i2, n2⟩ := setNext_inst h2
    obtain ⟨i3, n3⟩ := setNext_inst h3
    simp only [add_inst, add_nbra, List.length_append, List.length_singleton] at i1 n1 i2 i3
    have key := frag_opt hfrag ({ kind := .iAlt, index := p1.re.inst.length } : instr)
      ({ kind := .iNop, index := p1.re.inst.length + 1 } : instr) rfl rfl rfl
      (t := p1.re.inst.length + 1) rfl
    have hinst : re3.inst = _ := i3.trans (by rw [i2, i1])
    refine ⟨by simp [n3, n2, n1]; omega, ?_, ?_⟩
    · intro i hi
      simp only [nextc_re, hinst]
      rw [key.2 i (by have := hfrag.hs; omega) (by have := hfrag.he; omega)]
      exact hfr i hi
    · simp only [nextc_re, hinst, n3, n2, n1]
      exact key.1
  | @emptyConcat p _ =>
    refine ⟨by simp, ?_, ?_⟩
    · simpa using frame_single _ _
    · simpa using IsFrag.single p.re.inst _ _ (by simp [Leaf])
  | first _ _ ih1 ih2 =>
    obtain ⟨hnb, hfr, hfrag⟩ := ih1
    obtain ⟨hnb2, hl⟩ := ih2
    obtain ⟨hfr2, hfrag2⟩ := hl _ (by have := hfrag.hs; omega) hfrag
    exact ⟨by omega, fun i hi => (hfr2 i hi).trans (hfr i hi), hfrag2⟩
  | last _ => exact ⟨le_refl _, fun m _ hf => ⟨fun _ _ => rfl, hf⟩⟩
  | @next p a s e c p1 s1 e1 re1 r p2 s2 e2 _ h1 _ ih1 ih2 =>
    obtain ⟨hnb, hfr, hfrag⟩ := ih1
    obtain ⟨hnb2, hl⟩ := ih2
    obtain ⟨i1, n1⟩ := setNext_inst h1
    simp only at hnb2 hl
    refine ⟨by omega, fun m hm hA => ?_⟩
    have key := frag_cat (hA.mono hnb) hfr hfrag
    rw [← i1] at key
    have := hl m (by rw [i1, updNext_length]; have := hfrag.hs; omega) (by rw [n1]; exact key.1)
    exact ⟨fun i hi => (this.1 i hi).trans (key.2 i hi), this.2⟩
  | regexp _ _ ih1 ih2 =>
    obtain ⟨hnb, hfr, hfrag⟩ := ih1
    obtain ⟨hnb2, hl⟩ := ih2
    obtain ⟨hfr2, hfrag2⟩ := hl _ (by have := hfrag.hs; omega) hfrag
    exact ⟨by omega, fun i hi => (hfr2 i hi).trans (hfr i hi), hfrag2⟩
  | done _ => exact ⟨le_refl _, fun m _ hf => ⟨fun _ _ => rfl, hf⟩⟩
  | @bar p a s e c p1 s1 e1 re1 re2 re3 re4 r p2 s2 e2 _ _ h1 h2 h3 h4 _ ih1 ih2 =>
    obtain ⟨hnb, hfr, hfrag⟩ := ih1
    obtain ⟨hnb2, hl⟩ := ih2
    simp only [nextc_re] at hnb hfr hfrag
    obtain ⟨i1, n1⟩ := setLeft_inst h1
    obtain ⟨i2, n2⟩ := setNext_inst h2
    obtain ⟨i3, n3⟩ := setNext_inst h3
    obtain ⟨i4, n4⟩ := setNext_inst h4
    simp only [add_inst, add_nbra] at i1 n1 i3 n3
    simp only at hnb2 hl
    have l2 : re2.inst.length = p1.re.inst.length + 1 := by
      rw [i2, updNext_length, i1, updLeft_length]; simp
    generalize re2.inst.length = L at i3 i4 l2
    refine ⟨by omega, fun m hm hA => ?_⟩
    have key := frag_bar (hA.mono hnb) hfr hfrag
      ({ kind := .iAlt, index := p1.re.inst.length } : instr)
      ({ kind := .iNop, index := L } : instr) rfl rfl rfl (t := L) l2
    have hinst : re4.inst = _ := i4.trans (by rw [i3, i2, i1])
    rw [← hinst] at key
    have hnb4 : re4.nbra = p1.re.nbra := by rw [n4, n3, n2, n1]
    have := hl m (by
      rw [hinst]; simp only [updNext_length, updLeft_length, List.length_append,
        List.length_singleton]
      have := hfrag.hs; omega) (by rw [hnb4]; exact key.1)
    exact ⟨fun i hi => (this.1 i hi).trans (key.2 i hi), this.2⟩

end GoRegexp

namespace GoRegexp

/-! ## The program after linking, after eliminateNops and after setPrefix -/

theorem kindAt_updNext (G : List instr) (k : Nat) (j : Option Nat) (i : Nat) :
    kindAt (updNext G k j) i = kindAt G i := by
  unfold kindAt
  rw [updNext_get]
  split
  · cases G[i]? <;> rfl
  · rfl

theorem kindAt_updLeft (G : List instr) (k : Nat) (j : Option Nat) (i : Nat) :
    kindAt (updLeft G k j) i = kindAt G i := by
  unfold kindAt
  rw [updLeft_get]
  split
  · cases G[i]? <;> rfl
  · rfl

theorem NodeG.congr_node {G G2 : List instr} {nb : Nat} {rk : Nat → Nat} {i : Nat} {x : instr}
    (h : NodeG G nb rk i x) (hk : ∀ j, kindAt G2 j = kindAt G j) (hlen : G2.length = G.length) :
    NodeG G2 nb rk i x := by
  exact {
    start := h.start,
    next := fun hx => (by
      obtain ⟨j, hj, k, hk1, hk2⟩ := h.next hx
      exact ⟨j, hj, k, by rw [hk, hk1], hk2⟩),
    left := fun hx => (by
      obtain ⟨j, hj, k, hk1, hk2⟩ := h.left hx
      exact ⟨j, hj, k, by rw [hk, hk1], hk2⟩),
    nop := h.nop, bra := h.bra, cls := h.cls, rank := h.rank,
    rankLt := (by rw [hlen]; exact h.rankLt) }

/-- The program once the fragment of the whole pattern is linked to iStart and iEnd. -/
theorem linked_ok {G : List instr} {nb s e : Nat} (x0 : instr) (h0 : G[0]? = some x0)
    (hk0 : x0.kind = .iStart) (hf : IsFrag G nb 1 s e) (xe : instr) (hke : xe.kind = .iEnd)
    (hne : xe.next = none) :
    GraphOK (updNext (updNext G 0 (some s) ++ [xe]) e (some G.length)) nb := by
  have hs := hf.hs
  have he := hf.he
  obtain ⟨rk, hn⟩ := hf.nodes
  have hlen : (updNext (updNext G 0 (some s) ++ [xe]) e (some G.length)).length = G.length + 1 := by
    simp [updNext_length]
  have hkind : ∀ j, kindAt (updNext (updNext G 0 (some s) ++ [xe]) e (some G.length)) j =
      if j < G.length then kindAt G j else if j = G.length then some .iEnd else none := by
    intro j
    rw [kindAt_updNext]
    unfold kindAt
    by_cases hj : j < G.length
    · rw [List.getElem?_append_left (by rw [updNext_length]; exact hj), if_pos hj]
      exact kindAt_updNext G 0 (some s) j
    · rw [if_neg hj, List.getElem?_append_right (by rw [updNext_length]; omega), updNext_length]
      by_cases hj2 : j = G.length
      · subst hj2; simp [hke]
      · rw [if_neg hj2]
        have : j - G.length ≠ 0 := by omega
        cases hjj : j - G.length with
        | zero => omega
        | succ n => simp
  have htarget : ∀ j, 1 ≤ j → j < G.length →
      Target (updNext (updNext G 0 (some s) ++ [xe]) e (some G.length)) j := by
    intro j hj1 hj2
    obtain ⟨y, hy, ok⟩ := hn j hj1 hj2
    exact ⟨y.kind, by rw [hkind, if_pos hj2]; simp [kindAt, hy], ok.notStart⟩
  refine ⟨?_, fun j => if j = 0 then G.length else if j < G.length then rk j + 1 else 0, ?_⟩
  · rw [hkind, if_pos (by omega)]
    simp [kindAt, h0, hk0]
  · intro i x hx
    rw [updNext_get] at hx
    by_cases hie : i = e
    · subst hie
      rw [if_pos rfl, List.getElem?_append_left (by rw [updNext_length]; omega), updNext_get,
        if_neg (by omega)] at hx
      obtain ⟨y, hy, ok⟩ := hn i he.1 he.2
      rw [hy] at hx
      cases hx
      exact {
        start := fun h => absurd h ok.notStart,
        next := fun _ => ⟨G.length, rfl, .iEnd, (by rw [hkind]; simp), (by simp)⟩,
        left := fun ha => (by
          obtain ⟨l, hl, hl1, hl2⟩ := ok.left ha
          exact ⟨l, hl, htarget l hl1 hl2⟩),
        nop := fun _ j hj => (by cases hj; omega),
        bra := ok.bra, cls := ok.cls,
        rank := fun _ j hj => (by
          cases hj
          simp only [show ¬ (G.length = 0) from by omega, if_false, lt_irrefl,
            show ¬ (i = 0) from by omega, he.2, if_true]
          omega),
        rankLt := (by
          have := ok.rankLt
          rw [hlen]
          simp only [show ¬ (i = 0) from by omega, if_false, he.2, if_true]
          omega) }
    · rw [if_neg hie] at hx
      by_cases hi : i < G.length
      · rw [List.getElem?_append_left (by rw [updNext_length]; omega), updNext_get] at hx
        by_cases hi0 : i = 0
        · subst hi0
          rw [if_pos rfl, h0] at hx
          cases hx
          exact {
            start := fun _ => rfl,
            next := fun _ => ⟨s, rfl, htarget s hs.1 hs.2⟩,
            left := fun ha => (by simp [hk0] at ha),
            nop := fun ha => (by simp [hk0] at ha),
            bra := fun ha => (by simp [hk0] at ha),
            cls := fun ha => (by simp [hk0] at ha),
            rank := fun _ j hj => (by
              cases hj
              obtain ⟨y, hy, ok⟩ := hn s hs.1 hs.2
              have := ok.rankLt
              simp only [show ¬ (s = 0) from by omega, if_false, hs.2, if_true]
              omega),
            rankLt := (by rw [hlen]; simp) }
        · rw [if_neg hi0] at hx
          obtain ⟨y, hy, ok⟩ := hn i (by omega) hi
          rw [hy] at hx
          cases hx
          obtain ⟨j, hj, hj1, hj2⟩ := ok.next hie
          exact {
            start := fun h => absurd h ok.notStart,
            next := fun _ => ⟨j, hj, htarget j hj1 hj2⟩,
            left := fun ha => (by
              obtain ⟨l, hl, hl1, hl2⟩ := ok.left ha
              exact ⟨l, hl, htarget l hl1 hl2⟩),
            nop := ok.nop, bra := ok.bra, cls := ok.cls,
            rank := fun ha j2 hj2' => (by
              rw [hj] at hj2'; cases hj2'
              have := ok.rank ha j hj
              simp only [show ¬ (j = 0) from by omega, hi0, if_false, hj2, hi, if_true]
              omega),
            rankLt := (by
              have := ok.rankLt
              rw [hlen]
              simp only [hi0, if_false, hi, if_true]
              omega) }
      · have hx2 := hx
        rw [List.getElem?_append_right (by rw [updNext_length]; omega), updNext_length] at hx
        have hiL : i = G.length := by
          by_contra hne
          cases hjj : i - G.length with
          | zero => omega
          | succ n => rw [hjj] at hx; simp at hx
        subst hiL
        simp at hx
        subst hx
        exact {
          start := fun h => (by simp [hke] at h),
          next := fun h => absurd hke h,
          left := fun ha => (by simp [hke] at ha),
          nop := fun ha => (by simp [hke] at ha),
          bra := fun ha => (by simp [hke] at ha),
          cls := fun ha => (by simp [hke] at ha),
          rank := fun _ j hj => (by rw [hne] at hj; cases hj),
          rankLt := (by
            rw [hlen]
            simp only [show ¬ (G.length = 0) from by omega, if_false, lt_irrefl]
            omega) }

theorem Target.lt {G : List instr} {j : Nat} (h : Target G j) : j < G.length := by
  obtain ⟨k, hk, _⟩ := h
  unfold kindAt at hk
  cases hx : G[j]? with
  | none => rw [hx] at hk; cases hk
  | some x => exact (List.getElem?_eq_some.mp hx).1

theorem Target.get {G : List instr} {j : Nat} (h : Target G j) :
    ∃ x, G[j]? = some x ∧ x.kind ≠ .iStart := by
  obtain ⟨k, hk, hk2⟩ := h
  unfold kindAt at hk
  cases hx : G[j]? with
  | none => rw [hx] at hk; cases hk
  | some x =>
    rw [hx] at hk
    simp at hk
    exact ⟨x, rfl, by rw [hk]; exact hk2⟩

theorem Target.congr_target {G G2 : List instr} {j : Nat} (h : Target G j)
    (hk : ∀ j, kindAt G2 j = kindAt G j) : Target G2 j := by
  obtain ⟨k, hk1, hk2⟩ := h
  exact ⟨k, by rw [hk, hk1], hk2⟩

theorem unNop_spec {G : List instr} {nb : Nat} {rk : Nat → Nat} (hn : Nodes G nb rk) :
    ∀ fuel j, Target G j → G.length - j + 1 ≤ fuel →
      ∃ j2, unNop G fuel (some j) = .ok (some j2) ∧ j ≤ j2 ∧ Target G j2 ∧
        kindAt G j2 ≠ some .iNop ∧ rk j2 ≤ rk j := by
  intro fuel
  induction fuel with
  | zero => intro j _ h; omega
  | succ fuel ih =>
    intro j ht hf
    obtain ⟨x, hx, hxs⟩ := ht.get
    unfold unNop
    simp only [hx]
    by_cases hk : x.kind = .iNop
    · simp only [hk, if_true]
      have ok := hn j x hx
      obtain ⟨j1, hj1, ht1⟩ := ok.next (by rw [hk]; simp)
      have h1 := ok.nop hk j1 hj1
      have h2 := ok.rank (by rw [hk]; simp) j1 hj1
      have h3 := ht1.lt
      obtain ⟨j2, e1, e2, e3, e4, e5⟩ := ih j1 ht1 (by omega)
      rw [hj1]
      exact ⟨j2, e1, by omega, e3, e4, by omega⟩
    · simp only [hk, if_false]
      exact ⟨j, rfl, le_refl _, ht, by simp [kindAt, hx, hk], le_refl _⟩

theorem getElem?_set_map (G : List instr) (k i : Nat) (f : instr → instr) (x : instr)
    (hx : G[k]? = some x) :
    (G.set k (f x))[i]? = if i = k then some (f x) else G[i]? := by
  rw [List.getElem?_set]
  have := (List.getElem?_eq_some.mp hx).1
  by_cases h : i = k
  · subst h; simp [this]
  · have : ¬ k = i := fun h2 => h h2.symm
    simp [h, this]

theorem kindAt_set (G : List instr) (k : Nat) (x y : instr) (hx : G[k]? = some x)
    (hy : y.kind = x.kind) : ∀ j, kindAt (G.set k y) j = kindAt G j := by
  intro j
  unfold kindAt
  rw [getElem?_set_map G k j (fun _ => y) x hx]
  by_cases h : j = k
  · subst h; simp [hx, hy]
  · simp [h]

/-- One step of eliminateNops: the links of instruction k are redirected. -/
theorem elimAt_spec {G : List instr} {nb : Nat} {rk : Nat → Nat} {k : Nat}
    (hn : Nodes G nb rk) (hk : k < G.length) :
    ∃ G2, eliminateNopsAt G k = .ok G2 ∧ G2.length = G.length ∧
      (∀ j, kindAt G2 j = kindAt G j) ∧ (∀ i, i ≠ k → G2[i]? = G[i]?) ∧
      Nodes G2 nb rk ∧ (∀ x, G2[k]? = some x → x.kind ≠ .iEnd → NoNopLinks G2 x) := by
  obtain ⟨x, hx⟩ : ∃ x, G[k]? = some x := ⟨_, List.getElem?_eq_getElem hk⟩
  have ok := hn k x hx
  unfold eliminateNopsAt
  simp only [hx]
  by_cases hend : x.kind = .iEnd
  · simp only [hend, if_true]
    refine ⟨G, rfl, rfl, fun _ => rfl, fun _ _ => rfl, hn, ?_⟩
    intro y hy hne
    rw [hx] at hy; cases hy
    exact absurd hend hne
  · rw [if_neg hend]
    obtain ⟨j, hj, ht⟩ := ok.next hend
    obtain ⟨j2, e1, e2, e3, e4, e5⟩ := unNop_spec hn (G.length + 1) j ht (by omega)
    rw [← hj] at e1
    rw [e1]
    simp only
    have hkind1 := kindAt_set G k x { x with next := some j2 } hx rfl
    have hn1 : Nodes (G.set k { x with next := some j2 }) nb rk := by
      intro i y hy
      rw [getElem?_set_map G k i (fun x => { x with next := some j2 }) x hx] at hy
      by_cases hik : i = k
      · subst hik
        rw [if_pos rfl] at hy
        cases hy
        exact {
          start := ok.start,
          next := fun _ => ⟨j2, rfl, e3.congr_target hkind1⟩,
          left := fun ha => (by
            obtain ⟨l, hl, hl2⟩ := ok.left ha
            exact ⟨l, hl, hl2.congr_target hkind1⟩),
          nop := fun ha l hl => (by
            cases hl
            have := ok.nop ha j hj
            omega),
          bra := ok.bra, cls := ok.cls,
          rank := fun ha l hl => (by
            cases hl
            have := ok.rank ha j hj
            omega),
          rankLt := (by simp only [List.length_set]; exact ok.rankLt) }
      · rw [if_neg hik] at hy
        exact (hn i y hy).congr_node hkind1 (by simp)
    by_cases halt : x.kind = .iAlt
    · rw [if_pos halt]
      obtain ⟨l, hl, hlt⟩ := ok.left halt
      obtain ⟨l2, f1, f2, f3, f4, f5⟩ := unNop_spec hn1 ((G.set k { x with next := some j2 }).length + 1)
        l (hlt.congr_target hkind1) (by omega)
      rw [← hl] at f1
      rw [f1]
      simp only
      have hx1 : (G.set k { x with next := some j2 })[k]? = some { x with next := some j2 } := by
        rw [getElem?_set_map G k k (fun x => { x with next := some j2 }) x hx, if_pos rfl]
      have hkind2 := kindAt_set (G.set k { x with next := some j2 }) k { x with next := some j2 }
        { x with next := some j2, left := some l2 } hx1 rfl
      have hkind : ∀ j, kindAt ((G.set k { x with next := some j2 }).set k
          { x with next := some j2, left := some l2 }) j = kindAt G j :=
        fun j => (hkind2 j).trans (hkind1 j)
      have hget : ∀ i, ((G.set k { x with next := some j2 }).set k
          { x with next := some j2, left := some l2 })[i]? =
          if i = k then some { x with next := some j2, left := some l2 } else G[i]? := by
        intro i
        rw [getElem?_set_map _ k i (fun _ => { x with next := some j2, left := some l2 }) _ hx1]
        by_cases hik : i = k
        · simp [hik]
        · rw [if_neg hik, if_neg hik,
            getElem?_set_map G k i (fun x => { x with next := some j2 }) x hx, if_neg hik]
      refine ⟨_, rfl, by simp, hkind, fun i hi => by rw [hget, if_neg hi], ?_, ?_⟩
      · intro i y hy
        rw [hget] at hy
        by_cases hik : i = k
        · subst hik
          rw [if_pos rfl] at hy
          cases hy
          exact {
            start := ok.start,
            next := fun _ => ⟨j2, rfl, e3.congr_target hkind⟩,
            left := fun _ => ⟨l2, rfl, (f3.congr_target hkind2)⟩,
            nop := fun ha => (by simp [halt] at ha),
            bra := ok.bra, cls := ok.cls,
            rank := fun ha => absurd halt ha,
            rankLt := (by simp only [List.length_set]; exact ok.rankLt) }
        · rw [if_neg hik] at hy
          exact (hn i y hy).congr_node hkind (by simp)
      · intro y hy _
        rw [hget, if_pos rfl] at hy
        cases hy
        refine ⟨fun j' hj' => ?_, fun _ l' hl' => ?_⟩
        · cases hj'
          rw [hkind]; exact e4
        · cases hl'
          rw [hkind2]; exact f4
    · rw [if_neg halt]
      refine ⟨_, rfl, by simp, hkind1, fun i hi => ?_, hn1, ?_⟩
      · rw [getElem?_set_map G k i (fun x => { x with next := some j2 }) x hx, if_neg hi]
      · intro y hy _
        rw [getElem?_set_map G k k (fun x => { x with next := some j2 }) x hx, if_pos rfl] at hy
        cases hy
        refine ⟨fun j' hj' => ?_, fun ha => absurd ha halt⟩
        cases hj'
        rw [hkind1]; exact e4

theorem NoNopLinks.congr_links {G G2 : List instr} {x : instr} (h : NoNopLinks G x)
    (hk : ∀ j, kindAt G2 j = kindAt G j) : NoNopLinks G2 x :=
  ⟨fun j hj => by rw [hk]; exact h.1 j hj, fun ha j hj => by rw [hk]; exact h.2 ha j hj⟩

/-- The loop of eliminateNops from instruction k on. -/
theorem elimFrom_spec {nb : Nat} {rk : Nat → Nat} : ∀ (n k : Nat) (G : List instr),
    Nodes G nb rk → n + k = G.length →
    (∀ (i : Nat) (x : instr), i < k → G[i]? = some x → x.kind ≠ .iEnd → NoNopLinks G x) →
    ∃ G2, eliminateNopsFrom n k G = .ok G2 ∧ G2.length = G.length ∧
      (∀ j, kindAt G2 j = kindAt G j) ∧ Nodes G2 nb rk ∧
      (∀ (i : Nat) (x : instr), G2[i]? = some x → x.kind ≠ .iEnd → NoNopLinks G2 x) := by
  intro n
  induction n with
  | zero =>
    intro k G hn hk hdone
    refine ⟨G, rfl, rfl, fun _ => rfl, hn, fun i x hx hne => hdone i x ?_ hx hne⟩
    have := (List.getElem?_eq_some.mp hx).1
    omega
  | succ n ih =>
    intro k G hn hk hdone
    obtain ⟨G1, h1, h2, h3, h4, h5, h6⟩ := elimAt_spec hn (k := k) (by omega)
    unfold eliminateNopsFrom
    rw [h1]
    simp only
    obtain ⟨G2, g1, g2, g3, g4, g5⟩ := ih (k + 1) G1 h5 (by omega) (by
      intro i x hi hx hne
      by_cases hik : i = k
      · subst hik; exact h6 x hx hne
      · rw [h4 i hik] at hx
        exact (hdone i x (by omega) hx hne).congr_links h3)
    exact ⟨G2, g1, by omega, fun j => (g3 j).trans (h3 j), g4, g5⟩

theorem skipBOT_spec {G : List instr} {nb : Nat} {rk : Nat → Nat} (hn : Nodes G nb rk) :
    ∀ fuel j, Target G j → rk j + 1 ≤ fuel →
      ∃ j2, skipBOT G fuel (some j) = .ok (some j2) ∧ Target G j2 := by
  intro fuel
  induction fuel with
  | zero => intro j _ h; omega
  | succ fuel ih =>
    intro j ht hf
    obtain ⟨x, hx, hxs⟩ := ht.get
    unfold skipBOT
    simp only [hx]
    by_cases hk : x.kind = .iBOT
    · rw [if_pos hk]
      have ok := hn j x hx
      obtain ⟨j1, hj1, ht1⟩ := ok.next (by rw [hk]; simp)
      have h2 := ok.rank (by rw [hk]; simp) j1 hj1
      obtain ⟨j2, e1, e2⟩ := ih j1 ht1 (by omega)
      rw [hj1]
      exact ⟨j2, e1, e2⟩
    · rw [if_neg hk]
      exact ⟨j, rfl, ht⟩

theorem prefixLoop_spec {G : List instr} {nb : Nat} {rk : Nat → Nat} (hn : Nodes G nb rk) :
    ∀ fuel j b, Target G j → rk j + 1 ≤ fuel →
      ∃ j2 b2, prefixLoop G fuel (some j) b = .ok (some j2, b2) ∧ Target G j2 := by
  intro fuel
  induction fuel with
  | zero => intro j _ _ h; omega
  | succ fuel ih =>
    intro j b ht hf
    obtain ⟨x, hx, hxs⟩ := ht.get
    unfold prefixLoop
    simp only [hx]
    by_cases hk : x.kind = .iEnd
    · rw [if_pos hk]
      exact ⟨j, b, rfl, ht⟩
    · rw [if_neg hk]
      by_cases hc : x.kind = .iChar
      · rw [if_neg (by simpa using hc)]
        have ok := hn j x hx
        obtain ⟨j1, hj1, ht1⟩ := ok.next hk
        have h2 := ok.rank (by rw [hc]; simp) j1 hj1
        obtain ⟨y, hy, _⟩ := ht1.get
        simp only [hj1, hy]
        by_cases hy2 : y.kind = .iBOT ∨ y.kind = .iEOT ∨ y.kind = .iAlt
        · rw [if_pos hy2]
          exact ⟨j, b, rfl, ht⟩
        · rw [if_neg hy2]
          exact ih j1 _ ht1 (by omega)
      · rw [if_pos (by simpa using hc)]
        exact ⟨j, b, rfl, ht⟩

theorem startParser_rem (str : List Nat) : (startParser str).rem ≤ 2 * str.length + 1 := by
  have h1 : (startParser str).rem = (newParser { expr := str }).rem := withRe_rem _ _ (by simp)
  rw [h1]
  unfold newParser
  refine (nextc_rem_le _).trans ?_
  unfold parser.rem
  simp only [Nat.sub_zero]
  split <;> omega

theorem setNext_start {re re2 : Regexp} {i j : Option Nat} (h : re.setNext i j = .ok re2) :
    re2.start = re.start := by
  obtain ⟨k, x, _, _, rfl⟩ := setNext_ok h
  rfl

theorem setPrefix_inst {r re : Regexp} (h : r.setPrefix = .ok re) :
    re.inst = r.inst ∧ re.start = r.start ∧ re.nbra = r.nbra ∧ re.expr = r.expr ∧
    ∃ s i, r.inst[0]? = some s ∧ skipBOT r.inst (r.inst.length + 1) s.next = .ok i ∧
      prefixLoop r.inst (r.inst.length + 1) i [] = .ok (re.prefixStart, re.prefixBytes) := by
  unfold Regexp.setPrefix at h
  split at h
  · cases h
  · rename_i s hs
    split at h
    · cases h
    · rename_i i hi
      split at h
      · cases h
      · rename_i j b hj
        cases h
        exact ⟨rfl, rfl, rfl, rfl, s, i, hs, hi, hj⟩

theorem setPrefix_idem {r re : Regexp} (h : r.setPrefix = .ok re) : re.setPrefix = .ok re := by
  obtain ⟨h1, h2, h3, h4, s, i, hs, hi, hj⟩ := setPrefix_inst h
  unfold Regexp.setPrefix
  rw [h1, hs]
  simp only [hi, hj]
  cases re
  simp only at h1 h2 h3 h4 ⊢
  rw [h1]

theorem doParse_eq (str : List Nat) :
    Regexp.doParse { expr := str } =
      match parser.regexp (parseFuel str.length) (startParser str) with
      | .error e => .error e
      | .ok (p, s, e) =>
        finishParse ((newParser { expr := str }).re.add { kind := .iStart }).2 p s e := rfl

/-- The result of Regexp.doParse on a fresh Regexp, as Compile calls it: it is a Regexp whose
program is well formed, or one of the errors of the package; it is never a panic on a nil
pointer and never the end of the fuel. -/
theorem doParse_spec (str : List Nat) :
    (∃ re v, parser.regexp (parseFuel str.length) (startParser str) = .ok v ∧
      Regexp.doParse { expr := str } = .ok re ∧ WF re ∧ re.expr = str ∧
      re.setPrefix = .ok re) ∨
    (∃ e, parser.regexp (parseFuel str.length) (startParser str) = .error (.error e) ∧
      Regexp.doParse { expr := str } = .error (.error e)) := by
  rw [doParse_eq]
  have hsp := (parser_spec (parseFuel str.length)).2.2.2.2.2.2 (startParser str)
  have hrem := startParser_rem str
  cases hres : parser.regexp (parseFuel str.length) (startParser str) with
  | error a =>
    cases a with
    | error e => exact Or.inr ⟨e, rfl, rfl⟩
    | crash => exact absurd hres hsp.noCrash
    | fuel => exact absurd hres (hsp.noFuel (by unfold parseFuel; omega))
  | ok v =>
    obtain ⟨p, so, eo⟩ := v
    obtain ⟨r, s, e, hse, hpar⟩ := hsp.value _ hres
    simp only at hse hpar
    cases hse
    simp only
    left
    unfold finishParse
    have hinst0 : (newParser { expr := str }).re.inst = [] := by simp [newParser]
    have hnb0 : (newParser { expr := str }).re.nbra = 0 := by simp [newParser]
    obtain ⟨hnb, hfr, hfrag⟩ := hpar.frag
    simp only [startParser, add_inst, hinst0, List.nil_append, List.length_singleton,
      List.length_nil] at hfr hfrag
    have hexpr : p.re.expr = str := by
      rw [hpar.shrinks.1]; simp [startParser, newParser]
    have h0 : p.re.inst[0]? = some { kind := .iStart, index := 0 } := by
      rw [hfr 0 (by omega)]; rfl
    obtain ⟨r1, hr1⟩ := setNext_some (p.re) (0) (some s) (by have := hfrag.hs; omega)
    have hr1' : p.re.setNext ((newParser { expr := str }).re.add { kind := .iStart }).2 (some s)
        = .ok r1 := by
      rw [← hr1]; simp [hinst0]
    rw [hr1']
    simp only
    obtain ⟨i1, n1⟩ := setNext_inst hr1
    have l1 : r1.inst.length = p.re.inst.length := by rw [i1, updNext_length]
    obtain ⟨r2, hr2⟩ := setNext_some
      ((({ r1 with start := ((newParser { expr := str }).re.add { kind := .iStart }).2 } :
        Regexp).add { kind := .iEnd }).1) (e)
      ((({ r1 with start := ((newParser { expr := str }).re.add { kind := .iStart }).2 } :
        Regexp).add { kind := .iEnd }).2)
      (by simp [l1]; have := hfrag.he; omega)
    rw [hr2]
    simp only
    obtain ⟨i2, n2⟩ := setNext_inst hr2
    simp only [add_inst, add_nbra, add_snd] at i2 n2
    have hg := @linked_ok p.re.inst p.re.nbra s e _ h0 rfl hfrag
      ({ kind := .iEnd, index := p.re.inst.length } : instr) rfl rfl
    have hi2 : r2.inst = updNext (updNext p.re.inst 0 (some s) ++
        [({ kind := .iEnd, index := p.re.inst.length } : instr)]) e (some p.re.inst.length) := by
      rw [i2, i1, updNext_length]
    rw [← hi2] at hg
    obtain ⟨hst, rk, hnodes⟩ := hg
    obtain ⟨G2, g1, g2, g3, g4, g5⟩ := elimFrom_spec r2.inst.length 0 r2.inst hnodes (by omega)
      (by intro i x hi; omega)
    unfold Regexp.eliminateNops
    rw [g1]
    simp only
    unfold Regexp.setPrefix
    simp only
    have hst2 : kindAt G2 0 = some .iStart := by rw [g3]; exact hst
    obtain ⟨x0, hx0⟩ : ∃ x0, G2[0]? = some x0 := by
      unfold kindAt at hst2
      cases h : G2[0]? with
      | none => rw [h] at hst2; cases hst2
      | some x => exact ⟨x, rfl⟩
    have hx0k : x0.kind = .iStart := by
      unfold kindAt at hst2; rw [hx0] at hst2; simpa using hst2
    rw [hx0]
    simp only
    have ok0 := g4 0 x0 hx0
    obtain ⟨j0, hj0, ht0⟩ := ok0.next (by rw [hx0k]; simp)
    have hrk : ∀ j, Target G2 j → rk j + 1 ≤ G2.length + 1 := by
      intro j hj
      obtain ⟨y, hy, _⟩ := hj.get
      have := (g4 j y hy).rankLt
      omega
    obtain ⟨j1, hj1, ht1⟩ := skipBOT_spec g4 (G2.length + 1) j0 ht0 (hrk j0 ht0)
    rw [hj0, hj1]
    simp only
    obtain ⟨j2, b2, hj2, ht2⟩ := prefixLoop_spec g4 (G2.length + 1) j1 [] ht1 (hrk j1 ht1)
    rw [hj2]
    simp only
    have hfin : ({ r2 with inst := G2 } : Regexp).setPrefix =
        .ok { r2 with inst := G2, prefixStart := j2, prefixBytes := b2 } := by
      unfold Regexp.setPrefix
      simp only [hx0, hj0, hj1, hj2]
    refine ⟨_, _, rfl, rfl, ?_, ?_, ?_⟩
    · refine ⟨by simp [setNext_start hr2, Regexp.add, hinst0], ⟨hst2, rk, ?_⟩, g5⟩
      simp only [n2, n1]
      exact g4
    · simp only [(setNext_nbra hr2).2, add_expr, (setNext_nbra hr1).2, hexpr]
    · exact setPrefix_idem hfin

end GoRegexp

namespace GoRegexp

/-! ## More fuel does not change what the parser returns -/

theorem charClassLoop_mono (n : Nat) : ∀ (p : parser) (cc : charClass) (left : Int),
    parser.charClassLoop n p cc left ≠ .error .fuel →
    ∀ m, n ≤ m → parser.charClassLoop m p cc left = parser.charClassLoop n p cc left := by
  induction n with
  | zero => intro p cc left h; exact absurd rfl h
  | succ n ih =>
    intro p cc left h m hm
    cases m with
    | zero => omega
    | succ m =>
      have hm' : n ≤ m := by omega
      unfold parser.charClassLoop at h ⊢
      simp only at h ⊢
      split
      · rfl
      · rename_i h1
        rw [if_neg h1] at h
        split
        · rfl
        · rename_i h2
          rw [if_neg h2] at h
          cases hb : p.checkBackslash with
          | error e => rfl
          | ok v =>
            obtain ⟨p1, c⟩ := v
            simp only [hb] at h ⊢
            split
            · rename_i h3
              rw [if_pos h3] at h
              split
              · rename_i h4
                rw [if_pos h4] at h
                exact ih _ _ _ h m hm'
              · rename_i h4
                rw [if_neg h4] at h
                exact ih _ _ _ h m hm'
            · rename_i h3
              rw [if_neg h3] at h
              split
              · rename_i h4
                rw [if_pos h4] at h
                exact ih _ _ _ h m hm'
              · rfl

theorem charClass_mono (n : Nat) (p : parser) (h : parser.charClass n p ≠ .error .fuel)
    (m : Nat) (hm : n ≤ m) : parser.charClass m p = parser.charClass n p := by
  unfold parser.charClass at h ⊢
  simp only at h ⊢
  split
  · rename_i h1
    rw [if_pos h1] at h
    exact charClassLoop_mono n _ _ _ h m hm
  · rename_i h1
    rw [if_neg h1] at h
    exact charClassLoop_mono n _ _ _ h m hm

theorem term_eq_other (k : Nat) (p : parser) (h91 : p.c ≠ 91) (h40 : p.c ≠ 40) :
    parser.term (k + 1) p = parser.term 1 p := by
  unfold parser.term
  simp only [h91, h40, if_false]

theorem term_eq_cls (k : Nat) (p : parser) (h91 : p.c = 91) :
    parser.term (k + 1) p =
      match parser.charClass k p.nextc with
      | .error e => .error e
      | .ok (p, start) =>
        if p.c ≠ 93 then .error (.error .ErrUnmatchedLbkt)
        else .ok (p.nextc, start, start) := by
  have h1 : ¬ (p.c = 124 ∨ p.c = endOfFile) := by rw [h91]; decide
  have h2 : ¬ (p.c = 42 ∨ p.c = 43 ∨ p.c = 63) := by rw [h91]; decide
  have h3 : ¬ p.c = 41 := by rw [h91]; decide
  have h4 : ¬ p.c = 93 := by rw [h91]; decide
  have h5 : ¬ p.c = 94 := by rw [h91]; decide
  have h6 : ¬ p.c = 36 := by rw [h91]; decide
  have h7 : ¬ p.c = 46 := by rw [h91]; decide
  unfold parser.term
  simp only
  rw [if_neg h1, if_neg h2, if_neg h3, if_neg h4, if_neg h5, if_neg h6, if_neg h7, if_pos h91]
  first | done | rfl

theorem term_eq_group (k : Nat) (p : parser) (h40 : p.c = 40) :
    parser.term (k + 1) p =
      match parser.regexp k p.lpar with
      | .error e => .error e
      | .ok (p2, start, end') =>
        if p2.c ≠ 41 then .error (.error .ErrUnmatchedLpar)
        else
          let rb := p2.rpar.re.add { kind := .iBra, braNum := 2 * p.lpar.re.nbra }
          let re := rb.1.add { kind := .iBra, braNum := 2 * p.lpar.re.nbra + 1 }
          if start = none then
            if end' = none then .error (.error .ErrInternal)
            else
              match re.1.setNext rb.2 re.2 with
              | .error e => .error e
              | .ok r => .ok ({ p2.rpar with re := r }, rb.2, re.2)
          else
            match re.1.setNext end' re.2 with
            | .error e => .error e
            | .ok r =>
              match r.setNext rb.2 start with
              | .error e => .error e
              | .ok r => .ok ({ p2.rpar with re := r }, rb.2, re.2) := by
  have h1 : ¬ (p.c = 124 ∨ p.c = endOfFile) := by rw [h40]; decide
  have h2 : ¬ (p.c = 42 ∨ p.c = 43 ∨ p.c = 63) := by rw [h40]; decide
  have h3 : ¬ p.c = 41 := by rw [h40]; decide
  have h4 : ¬ p.c = 93 := by rw [h40]; decide
  have h5 : ¬ p.c = 94 := by rw [h40]; decide
  have h6 : ¬ p.c = 36 := by rw [h40]; decide
  have h7 : ¬ p.c = 46 := by rw [h40]; decide
  have h8 : ¬ p.c = 91 := by rw [h40]; decide
  unfold parser.term
  simp only
  rw [if_neg h1, if_neg h2, if_neg h3, if_neg h4, if_neg h5, if_neg h6, if_neg h7, if_neg h8,
    if_pos h40]
  first | done | rfl

theorem term_mono_step (n m : Nat) (hm : n ≤ m)
    (hR : ∀ p, parser.regexp n p ≠ .error .fuel → parser.regexp m p = parser.regexp n p)
    (p : parser) (h : parser.term (n + 1) p ≠ .error .fuel) :
    parser.term (m + 1) p = parser.term (n + 1) p := by
  by_cases h91 : p.c = 91
  · rw [term_eq_cls n p h91] at h
    rw [term_eq_cls m p h91, term_eq_cls n p h91]
    have key : parser.charClass m p.nextc = parser.charClass n p.nextc := by
      apply charClass_mono n _ _ m hm
      intro hf
      rw [hf] at h
      exact h rfl
    rw [key]
  · by_cases h40 : p.c = 40
    · rw [term_eq_group n p h40] at h
      rw [term_eq_group m p h40, term_eq_group n p h40]
      have key : parser.regexp m p.lpar = parser.regexp n p.lpar := by
        apply hR
        intro hf
        rw [hf] at h
        exact h rfl
      rw [key]
    · rw [term_eq_other m p h91 h40, term_eq_other n p h91 h40]

theorem closure_mono_step (n m : Nat)
    (hT : ∀ p, parser.term n p ≠ .error .fuel → parser.term m p = parser.term n p)
    (p : parser) (h : parser.closure (n + 1) p ≠ .error .fuel) :
    parser.closure (m + 1) p = parser.closure (n + 1) p := by
  have key : parser.term m p = parser.term n p := by
    apply hT
    intro hf
    apply h
    unfold parser.closure
    rw [hf]
  unfold parser.closure
  rw [key]

theorem concatLoop_mono_step (n m : Nat)
    (hC : ∀ p, parser.closure n p ≠ .error .fuel → parser.closure m p = parser.closure n p)
    (hL : ∀ p s e, parser.concatenationLoop n p s e ≠ .error .fuel →
      parser.concatenationLoop m p s e = parser.concatenationLoop n p s e)
    (p : parser) (s e : Option Nat) (h : parser.concatenationLoop (n + 1) p s e ≠ .error .fuel) :
    parser.concatenationLoop (m + 1) p s e = parser.concatenationLoop (n + 1) p s e := by
  have key : parser.closure m p = parser.closure n p := by
    apply hC
    intro hf
    apply h
    unfold parser.concatenationLoop
    rw [hf]
  unfold parser.concatenationLoop at h ⊢
  rw [key]
  cases hc : parser.closure n p with
  | error e => rfl
  | ok v =>
    obtain ⟨p1, ns, ne⟩ := v
    simp only [hc] at h ⊢
    split
    · rfl
    · rename_i h1
      rw [if_neg h1] at h
      split
      · rename_i h2
        rw [if_pos h2] at h
        exact hL _ _ _ h
      · rename_i h2
        rw [if_neg h2] at h
        cases hs : p1.re.setNext e ns with
        | error e => rfl
        | ok r =>
          simp only [hs] at h ⊢
          exact hL _ _ _ h

theorem concatenation_mono_step (n m : Nat)
    (hL : ∀ p s e, parser.concatenationLoop n p s e ≠ .error .fuel →
      parser.concatenationLoop m p s e = parser.concatenationLoop n p s e)
    (p : parser) (h : parser.concatenation (n + 1) p ≠ .error .fuel) :
    parser.concatenation (m + 1) p = parser.concatenation (n + 1) p := by
  unfold parser.concatenation at h ⊢
  exact hL _ _ _ h

theorem regexpLoop_mono_step (n m : Nat)
    (hK : ∀ p, parser.concatenation n p ≠ .error .fuel →
      parser.concatenation m p = parser.concatenation n p)
    (hL : ∀ p s e, parser.regexpLoop n p s e ≠ .error .fuel →
      parser.regexpLoop m p s e = parser.regexpLoop n p s e)
    (p : parser) (s e : Option Nat) (h : parser.regexpLoop (n + 1) p s e ≠ .error .fuel) :
    parser.regexpLoop (m + 1) p s e = parser.regexpLoop (n + 1) p s e := by
  unfold parser.regexpLoop at h ⊢
  simp only at h ⊢
  split
  · rename_i h1
    rw [if_pos h1] at h
    have key : parser.concatenation m p.nextc = parser.concatenation n p.nextc := by
      apply hK
      intro hf
      rw [hf] at h
      exact h rfl
    rw [key]
    cases hc : parser.concatenation n p.nextc with
    | error e => rfl
    | ok v =>
      obtain ⟨p1, ns, ne⟩ := v
      simp only [hc] at h ⊢
      cases h2 : (p1.re.add { kind := .iAlt }).1.setLeft (p1.re.add { kind := .iAlt }).2 s with
      | error e => rfl
      | ok r1 =>
        simp only [h2] at h ⊢
        cases h3 : r1.setNext (p1.re.add { kind := .iAlt }).2 ns with
        | error e => rfl
        | ok r2 =>
          simp only [h3] at h ⊢
          cases h4 : (r2.add { kind := .iNop }).1.setNext e (r2.add { kind := .iNop }).2 with
          | error e => rfl
          | ok r3 =>
            simp only [h4] at h ⊢
            cases h5 : r3.setNext ne (r2.add { kind := .iNop }).2 with
            | error e => rfl
            | ok r4 =>
              simp only [h5] at h ⊢
              exact hL _ _ _ h
  · rfl

theorem regexp_mono_step (n m : Nat)
    (hK : ∀ p, parser.concatenation n p ≠ .error .fuel →
      parser.concatenation m p = parser.concatenation n p)
    (hL : ∀ p s e, parser.regexpLoop n p s e ≠ .error .fuel →
      parser.regexpLoop m p s e = parser.regexpLoop n p s e)
    (p : parser) (h : parser.regexp (n + 1) p ≠ .error .fuel) :
    parser.regexp (m + 1) p = parser.regexp (n + 1) p := by
  have key : parser.concatenation m p = parser.concatenation n p := by
    apply hK
    intro hf
    apply h
    unfold parser.regexp
    rw [hf]
  unfold parser.regexp at h ⊢
  rw [key]
  cases hc : parser.concatenation n p with
  | error e => rfl
  | ok v =>
    obtain ⟨p1, ns, ne⟩ := v
    simp only [hc] at h ⊢
    exact hL _ _ _ h

/-- A call of a function of the parser that does not run out of fuel returns the same with
any larger fuel. -/
theorem parser_mono (n : Nat) : ∀ m, n ≤ m →
    (∀ p, parser.term n p ≠ .error .fuel → parser.term m p = parser.term n p) ∧
    (∀ p, parser.closure n p ≠ .error .fuel → parser.closure m p = parser.closure n p) ∧
    (∀ p s e, parser.concatenationLoop n p s e ≠ .error .fuel →
      parser.concatenationLoop m p s e = parser.concatenationLoop n p s e) ∧
    (∀ p, parser.concatenation n p ≠ .error .fuel →
      parser.concatenation m p = parser.concatenation n p) ∧
    (∀ p s e, parser.regexpLoop n p s e ≠ .error .fuel →
      parser.regexpLoop m p s e = parser.regexpLoop n p s e) ∧
    (∀ p, parser.regexp n p ≠ .error .fuel → parser.regexp m p = parser.regexp n p) := by
  induction n with
  | zero =>
    intro m _
    refine ⟨?_, ?_, ?_, ?_, ?_, ?_⟩
    · intro p h; exact absurd (by simp [parser.term]) h
    · intro p h; exact absurd (by simp [parser.closure]) h
    · intro p s e h; exact absurd (by simp [parser.concatenationLoop]) h
    · intro p h; exact absurd (by simp [parser.concatenation]) h
    · intro p s e h; exact absurd (by simp [parser.regexpLoop]) h
    · intro p h; exact absurd (by simp [parser.regexp]) h
  | succ n ih =>
    intro m hm
    cases m with
    | zero => omega
    | succ m =>
      obtain ⟨hT, hC, hL, hK, hRL, hR⟩ := ih m (by omega)
      exact ⟨term_mono_step n m (by omega) hR, closure_mono_step n m hT,
        concatLoop_mono_step n m hC hL, concatenation_mono_step n m hL,
        regexpLoop_mono_step n m hK hRL, regexp_mono_step n m hK hRL⟩

theorem regexp_mono {n m : Nat} {p : parser} {v : Except Abort (parser × Option Nat × Option Nat)}
    (h : parser.regexp n p = v) (hv : v ≠ .error .fuel) (hm : n ≤ m) : parser.regexp m p = v := by
  rw [← h]
  exact (parser_mono n m hm).2.2.2.2.2 p (by rw [h]; exact hv)

end GoRegexp

namespace GoRegexp

/-! ## The parser on a pattern and on the same pattern between a prefix and a suffix -/

theorem DecodeRune_nonneg (b : List Nat) : 0 ≤ (DecodeRune b).1 := by
  unfold DecodeRune RuneError
  (repeat' split) <;>
    first
    | exact Int.natCast_nonneg _
    | decide
    | (simp only []; split <;> first | exact Int.natCast_nonneg _ | decide)

theorem DecodeRune_ne_eof (b : List Nat) : (DecodeRune b).1 ≠ endOfFile := by
  have := DecodeRune_nonneg b
  unfold endOfFile
  omega

theorem DecodeRune_append_suf (l suf : List Nat) (hl : l ≠ [])
    (hs : ∀ c t, suf = c :: t → c < 128) : DecodeRune (l ++ suf) = DecodeRune l := by
  cases suf with
  | nil => simp
  | cons c t =>
    have hc := hs c t rfl
    rcases l with _ | ⟨b0, _ | ⟨b1, _ | ⟨b2, _ | ⟨b3, l⟩⟩⟩⟩
    · exact absurd rfl hl
    · simp only [DecodeRune, List.singleton_append]
      (repeat' split) <;> first | rfl | (exfalso; omega) | (simp_all; done) | (exfalso; simp_all; omega)
    · simp only [DecodeRune, List.cons_append, List.nil_append]
      (repeat' split) <;> first | rfl | (exfalso; omega) | (simp_all; done) | (exfalso; simp_all; omega)
    · simp only [DecodeRune, List.cons_append, List.nil_append]
      (repeat' split) <;> first | rfl | (exfalso; omega) | (simp_all; done) | (exfalso; simp_all; omega)
    · simp only [DecodeRune, List.cons_append]

theorem drop_mid (pre e suf : List Nat) (k : Nat) (hk : k ≤ e.length) :
    (pre ++ e ++ suf).drop (pre.length + k) = e.drop k ++ suf := by
  rw [List.append_assoc, List.drop_append, List.drop_append_of_le_length hk]

theorem shiftBra_kind (d : Nat) (x : instr) : (shiftBra d x).kind = x.kind := by
  unfold shiftBra; split <;> rfl

theorem shiftBra_next (d : Nat) (x : instr) (j : Option Nat) :
    shiftBra d { x with next := j } = { shiftBra d x with next := j } := by
  unfold shiftBra; split <;> rfl

theorem shiftBra_left (d : Nat) (x : instr) (j : Option Nat) :
    shiftBra d { x with left := j } = { shiftBra d x with left := j } := by
  unfold shiftBra; split <;> rfl

theorem shiftBra_index (d : Nat) (x : instr) (k : Nat) :
    shiftBra d { x with index := k } = { shiftBra d x with index := k } := by
  unfold shiftBra; split <;> rfl

theorem shiftBra_other (d : Nat) (x : instr) (h : x.kind ≠ .iBra) : shiftBra d x = x := by
  unfold shiftBra; rw [if_neg h]

theorem RSim.length {pre suf : List Nat} {d : Nat} {re re2 : Regexp} (h : RSim pre suf d re re2) :
    re2.inst.length = re.inst.length := by
  rw [h.2.1, List.length_map]

theorem RSim.add {pre suf : List Nat} {d : Nat} {re re2 : Regexp} (h : RSim pre suf d re re2)
    (i : instr) : RSim pre suf d (re.add i).1 (re2.add (shiftBra d i)).1 := by
  obtain ⟨h1, h2, h3⟩ := h
  refine ⟨h1, ?_, h3⟩
  simp only [Regexp.add, List.map_append, List.map_cons, List.map_nil, h2, List.length_map,
    shiftBra_index]

theorem RSim.add_other {pre suf : List Nat} {d : Nat} {re re2 : Regexp} (h : RSim pre suf d re re2)
    (i : instr) (hi : i.kind ≠ .iBra) : RSim pre suf d (re.add i).1 (re2.add i).1 := by
  have := h.add i
  rwa [shiftBra_other d i hi] at this

theorem RSim.setNext {pre suf : List Nat} {d : Nat} {re re2 r : Regexp} {i j : Option Nat}
    (h : RSim pre suf d re re2) (hr : re.setNext i j = .ok r) :
    ∃ r2, re2.setNext i j = .ok r2 ∧ RSim pre suf d r r2 := by
  obtain ⟨h1, h2, h3⟩ := h
  obtain ⟨k, x, rfl, hx, rfl⟩ := setNext_ok hr
  have hx2 : re2.inst[k]? = some (shiftBra d x) := by rw [h2, List.getElem?_map, hx]; rfl
  refine ⟨{ re2 with inst := re2.inst.set k { shiftBra d x with next := j } },
    by simp only [Regexp.setNext, hx2], h1, ?_, h3⟩
  simp only [h2, List.map_set, shiftBra_next]

theorem RSim.setLeft {pre suf : List Nat} {d : Nat} {re re2 r : Regexp} {i j : Option Nat}
    (h : RSim pre suf d re re2) (hr : re.setLeft i j = .ok r) :
    ∃ r2, re2.setLeft i j = .ok r2 ∧ RSim pre suf d r r2 := by
  obtain ⟨h1, h2, h3⟩ := h
  obtain ⟨k, x, rfl, hx, rfl⟩ := setLeft_ok hr
  have hx2 : re2.inst[k]? = some (shiftBra d x) := by rw [h2, List.getElem?_map, hx]; rfl
  refine ⟨{ re2 with inst := re2.inst.set k { shiftBra d x with left := j } },
    by simp only [Regexp.setLeft, hx2], h1, ?_, h3⟩
  simp only [h2, List.map_set, shiftBra_left]

theorem Sim.ch_eq {pre suf : List Nat} {d : Nat} {q q2 : parser} (h : Sim pre suf d q q2)
    (hc : q.ch ≠ endOfFile) : q2.ch = q.ch := (h.pos.2.1 hc).1

theorem Sim.c_eq {pre suf : List Nat} {d : Nat} {q q2 : parser} (h : Sim pre suf d q q2)
    {v : Int} (hv : q.c = v) (hne : v ≠ endOfFile) : q2.c = v := by
  unfold parser.c at hv ⊢
  rw [h.ch_eq (by rw [hv]; exact hne), hv]

theorem sufCh_ok {suf : List Nat} (hs : SufOK suf) :
    sufCh suf ≠ 42 ∧ sufCh suf ≠ 43 ∧ sufCh suf ≠ 63 ∧ sufCh suf ≠ 124 := by
  cases suf with
  | nil => simp [sufCh, endOfFile]
  | cons c t =>
    obtain ⟨_, h1, h2, h3, h4⟩ := hs c t rfl
    simp only [sufCh]
    refine ⟨?_, ?_, ?_, ?_⟩ <;> omega

theorem Sim.c_iff {pre suf : List Nat} {d : Nat} {q q2 : parser} (h : Sim pre suf d q q2)
    (hs : SufOK suf) (v : Int) (hv : v = 42 ∨ v = 43 ∨ v = 63 ∨ v = 124) :
    q2.c = v ↔ q.c = v := by
  unfold parser.c
  by_cases hc : q.ch = endOfFile
  · have h2 := (h.pos.2.2 hc).2.1
    have := sufCh_ok hs
    rw [h2, hc]
    unfold endOfFile
    constructor
    · intro h3; rcases hv with rfl | rfl | rfl | rfl <;> simp_all
    · intro h3; rcases hv with rfl | rfl | rfl | rfl <;> simp at h3
  · rw [h.ch_eq hc]

theorem Sim.nextc {pre suf : List Nat} {d : Nat} {q q2 : parser} (h : Sim pre suf d q q2)
    (hs : SufOK suf) (hc : q.ch ≠ endOfFile) : Sim pre suf d q.nextc q2.nextc := by
  obtain ⟨hre, hnl, hle, hsync, -⟩ := h
  obtain ⟨hch, hpos⟩ := hsync hc
  have hlen : q2.re.expr.length = pre.length + q.re.expr.length + suf.length := by
    rw [hre.1]; simp only [List.length_append]
  refine ⟨by simpa using hre, by simpa using hnl, ?_⟩
  simp only [nextc_re]
  by_cases hp : q.pos ≥ q.re.expr.length
  · have hq : q.nextc = { q with ch := endOfFile } := by
      unfold parser.nextc; rw [if_pos hp]
    rw [hq]
    cases suf with
    | nil =>
      have hq2 : q2.nextc = { q2 with ch := endOfFile } := by
        unfold parser.nextc; rw [if_pos (by simp at hlen; omega)]
      rw [hq2]
      refine ⟨hle, fun h => absurd rfl h, fun _ => ⟨le_antisymm hle hp, rfl, ?_⟩⟩
      simp; omega
    | cons c t =>
      have hc128 := (hs c t rfl).1
      have hd : q2.re.expr.drop q2.pos = c :: t := by
        rw [hre.1, hpos, drop_mid _ _ _ _ hle]
        rw [List.drop_of_length_le hp]; rfl
      have hq2 : q2.nextc = { q2 with ch := (c : Int), pos := q2.pos + 1 } := by
        unfold parser.nextc
        rw [if_neg (by simp at hlen; omega)]
        simp only [DecodeRuneInString, hd, DecodeRune, if_pos hc128]
      rw [hq2]
      refine ⟨hle, fun h => absurd rfl h, fun _ => ⟨le_antisymm hle hp, rfl, ?_⟩⟩
      simp; omega
  · have hp' : q.pos < q.re.expr.length := by omega
    have hne : q.re.expr.drop q.pos ≠ [] := by
      intro h0
      have := congrArg List.length h0
      simp at this; omega
    have hd : DecodeRune (q2.re.expr.drop q2.pos) = DecodeRune (q.re.expr.drop q.pos) := by
      rw [hre.1, hpos, drop_mid _ _ _ _ hle]
      exact DecodeRune_append_suf _ _ hne (fun c t h => (hs c t h).1)
    have hq : q.nextc = ⟨q.re, q.nlpar, q.pos + (DecodeRune (q.re.expr.drop q.pos)).2,
        (DecodeRune (q.re.expr.drop q.pos)).1⟩ := by
      unfold parser.nextc; rw [if_neg hp]; rfl
    have hq2 : q2.nextc = ⟨q2.re, q2.nlpar, q2.pos + (DecodeRune (q.re.expr.drop q.pos)).2,
        (DecodeRune (q.re.expr.drop q.pos)).1⟩ := by
      unfold parser.nextc; rw [if_neg (by omega)]
      simp only [DecodeRuneInString, hd]
    rw [hq, hq2]
    have hw := DecodeRune_width_le (q.re.expr.drop q.pos)
    simp only [List.length_drop] at hw
    refine ⟨by simp only; omega, fun _ => ⟨rfl, by simp only; omega⟩,
      fun h => absurd h (DecodeRune_ne_eof _)⟩

theorem Sim.withRe {pre suf : List Nat} {d : Nat} {q q2 : parser} (h : Sim pre suf d q q2)
    {r r2 : Regexp} (hr : RSim pre suf d r r2) (he : r.expr = q.re.expr) :
    Sim pre suf d { q with re := r } { q2 with re := r2 } := by
  refine ⟨hr, h.nlpar, ?_⟩
  simp only [he]
  exact h.pos

theorem Sim.addI {pre suf : List Nat} {d : Nat} {q q2 : parser} (h : Sim pre suf d q q2)
    (i : instr) (hi : i.kind ≠ .iBra) : Sim pre suf d (q.addI i) (q2.addI i) :=
  h.withRe (h.re.add_other i hi) rfl

theorem Sim.lpar {pre suf : List Nat} {d : Nat} {q q2 : parser} (h : Sim pre suf d q q2)
    (hs : SufOK suf) (hc : q.ch ≠ endOfFile) : Sim pre suf d q.lpar q2.lpar := by
  obtain ⟨⟨h1, h2, h3⟩, hnl, hpos⟩ := h.nextc hs hc
  refine ⟨⟨?_, ?_, ?_⟩, ?_, ?_⟩
  · simpa [parser.lpar] using h1
  · simpa [parser.lpar] using h2
  · simp only [parser.lpar, nextc_re] at h3 ⊢; omega
  · simp only [parser.lpar, nextc_nlpar] at hnl ⊢; omega
  · simpa [parser.lpar] using hpos

theorem Sim.rpar {pre suf : List Nat} {d : Nat} {q q2 : parser} (h : Sim pre suf d q q2)
    (hs : SufOK suf) (hc : q.ch ≠ endOfFile) (hn : q.nlpar ≠ 0) : Sim pre suf d q.rpar q2.rpar := by
  have h0 : Sim pre suf d { q with nlpar := q.nlpar - 1 } { q2 with nlpar := q2.nlpar - 1 } :=
    ⟨h.re, by have := h.nlpar; simp only; omega, h.pos⟩
  exact h0.nextc hs hc

theorem Sim.checkBackslash {pre suf : List Nat} {d : Nat} {q q2 : parser}
    (h : Sim pre suf d q q2) (hs : SufOK suf) (hc : q.ch ≠ endOfFile) {p1 : parser} {c : Int}
    (hb : q.checkBackslash = .ok (p1, c)) :
    ∃ p2, q2.checkBackslash = .ok (p2, c) ∧ Sim pre suf d p1 p2 ∧ p1.ch ≠ endOfFile := by
  have hch := h.ch_eq hc
  rcases checkBackslash_ok hb with ⟨h92, rfl, rfl⟩ | ⟨h92, rfl, hne, hcase⟩
  · refine ⟨q2, ?_, h, hc⟩
    unfold parser.checkBackslash
    simp only [parser.c, hch]
    rw [if_neg (by simpa [parser.c] using h92)]
  · have hn := h.nextc hs hc
    have hch2 := hn.ch_eq hne
    refine ⟨q2.nextc, ?_, hn, hne⟩
    unfold parser.checkBackslash
    simp only [parser.c, hch, hch2]
    rw [if_pos (by simpa [parser.c] using h92), if_neg hne]
    rcases hcase with ⟨hp, rfl⟩ | ⟨hp, he, rfl⟩
    · rw [if_pos hp]
    · rw [if_neg (by simp [hp]), if_pos he]

theorem Sim.termNil {pre suf : List Nat} {d : Nat} {q q2 : parser} (h : Sim pre suf d q q2)
    (hl : Live suf q) (ht : TermNil q) : TermNil q2 := by
  unfold TermNil parser.c at ht ⊢
  by_cases hc : q.ch = endOfFile
  · rcases hl with rfl | hl
    · right; left
      rw [(h.pos.2.2 hc).2.1]; rfl
    · exact absurd hc hl
  · rw [h.ch_eq hc, h.nlpar]
    rcases ht with h1 | h1 | ⟨h1, h2⟩
    · exact Or.inl h1
    · exact Or.inr (Or.inl h1)
    · exact Or.inr (Or.inr ⟨h1, by omega⟩)

end GoRegexp

namespace GoRegexp

/-! ## What a run of the parser leaves unchanged -/

theorem c_ne_eof {p : parser} {v : Int} (h : p.c = v) (hv : v ≠ endOfFile) :
    p.ch ≠ endOfFile := by
  unfold parser.c at h; rw [h]; exact hv

theorem Parse.nlpar_eq {nt : NT} {p p2 : parser} {r : Ast} {s e : Nat}
    (h : Parse nt p r p2 s e) : p2.nlpar = p.nlpar := by
  induction h with
  | bot _ => simp
  | eot _ => simp
  | any _ => simp
  | char _ hb => simp [(checkBackslash_re hb).2]
  | cls _ hc _ => simpa [parser.addI] using hc.re_eq.2
  | @group p p2 r s e re1 re2 h hr hc h1 h2 ih =>
    simp only [rpar_nlpar, ih, lpar_nlpar]; omega
  | plain _ _ _ _ ih => exact ih
  | star _ _ _ _ _ ih => simpa using ih
  | plus _ _ _ _ _ ih => simpa using ih
  | opt _ _ _ _ _ _ ih => simpa using ih
  | emptyConcat _ => simp
  | first _ _ ih1 ih2 => rw [ih2, ih1]
  | last _ => rfl
  | next _ _ _ ih1 ih2 => rw [ih2]; simpa using ih1
  | regexp _ _ ih1 ih2 => rw [ih2, ih1]
  | done _ => rfl
  | bar _ _ _ _ _ _ _ ih1 ih2 => rw [ih2]; simpa using ih1

theorem Parse.eof {nt : NT} {p p2 : parser} {r : Ast} {s e : Nat}
    (h : Parse nt p r p2 s e) (hc : p.ch = endOfFile) :
    p2.ch = endOfFile ∧ nt.inner = false := by
  induction h with
  | bot h => exact absurd hc (c_ne_eof h (by decide))
  | eot h => exact absurd hc (c_ne_eof h (by decide))
  | any h => exact absurd hc (c_ne_eof h (by decide))
  | @char p0 _ _ h _ =>
    exact absurd (show p0.c ∈ termSpecial by unfold parser.c; rw [hc]; decide) h
  | cls h _ _ => exact absurd hc (c_ne_eof h (by decide))
  | group h _ _ _ _ _ => exact absurd hc (c_ne_eof h (by decide))
  | plain _ _ _ _ ih => exact absurd (ih hc).2 (by simp [NT.inner])
  | star _ _ _ _ _ ih => exact absurd (ih hc).2 (by simp [NT.inner])
  | plus _ _ _ _ _ ih => exact absurd (ih hc).2 (by simp [NT.inner])
  | opt _ _ _ _ _ _ ih => exact absurd (ih hc).2 (by simp [NT.inner])
  | emptyConcat _ => exact ⟨by simpa using hc, rfl⟩
  | first _ _ ih1 _ => exact absurd (ih1 hc).2 (by simp [NT.inner])
  | last _ => exact ⟨hc, rfl⟩
  | next _ _ _ ih1 _ => exact absurd (ih1 hc).2 (by simp [NT.inner])
  | regexp _ _ ih1 ih2 => exact ⟨(ih2 (ih1 hc).1).1, rfl⟩
  | done _ => exact ⟨hc, rfl⟩
  | bar h _ _ _ _ _ _ _ _ => exact absurd hc (c_ne_eof h (by decide))

theorem Parse.live {nt : NT} {p p2 : parser} {r : Ast} {s e : Nat} {suf : List Nat}
    (h : Parse nt p r p2 s e) (hl : Live suf p2) : Live suf p := by
  rcases hl with h1 | h1
  · exact Or.inl h1
  · exact Or.inr (fun hc => h1 (h.eof hc).1)

theorem Parse.start_live {nt : NT} {p p2 : parser} {r : Ast} {s e : Nat}
    (h : Parse nt p r p2 s e) (hi : nt.inner = true) : p.ch ≠ endOfFile := by
  intro hc
  have := (h.eof hc).2
  rw [hi] at this
  cases this

/-- Where a run of parser.concatenation or parser.regexp stops: at a rune at which
parser.term returns (nil, nil), which for parser.regexp is not the bar. -/
theorem Parse.stop {nt : NT} {p p2 : parser} {r : Ast} {s e : Nat}
    (h : Parse nt p r p2 s e) :
    match nt with
    | .term => True
    | .closure => True
    | .concat => TermNil p2
    | .concatLoop _ _ _ => TermNil p2
    | .regexp => TermNil p2 ∧ p2.c ≠ 124
    | .regexpLoop _ _ _ => (TermNil p → TermNil p2) ∧ p2.c ≠ 124 := by
  induction h with
  | bot _ => trivial
  | eot _ => trivial
  | any _ => trivial
  | char _ _ => trivial
  | cls _ _ _ => trivial
  | group _ _ _ _ _ _ => trivial
  | plain _ _ _ _ _ => trivial
  | star _ _ _ _ _ _ => trivial
  | plus _ _ _ _ _ _ => trivial
  | opt _ _ _ _ _ _ _ => trivial
  | emptyConcat h => exact h
  | first _ _ _ ih2 => exact ih2
  | last h => exact h
  | next _ _ _ _ ih2 => exact ih2
  | regexp _ _ ih1 ih2 => exact ⟨ih2.1 ih1, ih2.2⟩
  | done h => exact ⟨id, h⟩
  | bar _ _ _ _ _ _ _ ih1 ih2 => exact ⟨fun _ => ih2.1 ih1, ih2.2⟩

/-- A run of parser.regexp that starts outside every parenthesis stops at the end of the
pattern. -/
theorem Parse.top_eof {p p2 : parser} {r : Ast} {s e : Nat}
    (h : Parse .regexp p r p2 s e) (hn : p.nlpar = 0) : p2.ch = endOfFile := by
  have h1 := h.stop
  have h2 := h.nlpar_eq
  simp only at h1
  obtain ⟨h3, h4⟩ := h1
  rcases h3 with h3 | h3 | ⟨_, h3⟩
  · exact absurd h3 h4
  · exact h3
  · rw [h2, hn] at h3; exact absurd rfl h3

end GoRegexp

namespace GoRegexp

/-! ## One call of each function of the parser, case by case -/

theorem term_nil (M : Nat) (p : parser) (h : TermNil p) :
    parser.term (M + 1) p = .ok (p, none, none) := by
  unfold parser.term
  simp only
  rcases h with h | h | ⟨h, hn⟩
  · rw [if_pos (Or.inl h)]
  · rw [if_pos (Or.inr h)]
  · have h1 : ¬ (p.c = 124 ∨ p.c = endOfFile) := by rw [h]; decide
    have h2 : ¬ (p.c = 42 ∨ p.c = 43 ∨ p.c = 63) := by rw [h]; decide
    rw [if_neg h1, if_neg h2, if_pos h, if_neg hn]

theorem term_bot (M : Nat) (p : parser) (h : p.c = 94) :
    parser.term (M + 1) p =
      .ok (p.nextc.addI { kind := .iBOT }, some p.re.inst.length, some p.re.inst.length) := by
  have h1 : ¬ (p.c = 124 ∨ p.c = endOfFile) := by rw [h]; decide
  have h2 : ¬ (p.c = 42 ∨ p.c = 43 ∨ p.c = 63) := by rw [h]; decide
  have h3 : ¬ p.c = 41 := by rw [h]; decide
  have h4 : ¬ p.c = 93 := by rw [h]; decide
  unfold parser.term
  simp only
  rw [if_neg h1, if_neg h2, if_neg h3, if_neg h4, if_pos h]
  simp [parser.addI]

theorem term_eot (M : Nat) (p : parser) (h : p.c = 36) :
    parser.term (M + 1) p =
      .ok (p.nextc.addI { kind := .iEOT }, some p.re.inst.length, some p.re.inst.length) := by
  have h1 : ¬ (p.c = 124 ∨ p.c = endOfFile) := by rw [h]; decide
  have h2 : ¬ (p.c = 42 ∨ p.c = 43 ∨ p.c = 63) := by rw [h]; decide
  have h3 : ¬ p.c = 41 := by rw [h]; decide
  have h4 : ¬ p.c = 93 := by rw [h]; decide
  have h5 : ¬ p.c = 94 := by rw [h]; decide
  unfold parser.term
  simp only
  rw [if_neg h1, if_neg h2, if_neg h3, if_neg h4, if_neg h5, if_pos h]
  simp [parser.addI]

theorem term_any (M : Nat) (p : parser) (h : p.c = 46) :
    parser.term (M + 1) p =
      .ok (p.nextc.addI { kind := .iAny }, some p.re.inst.length, some p.re.inst.length) := by
  have h1 : ¬ (p.c = 124 ∨ p.c = endOfFile) := by rw [h]; decide
  have h2 : ¬ (p.c = 42 ∨ p.c = 43 ∨ p.c = 63) := by rw [h]; decide
  have h3 : ¬ p.c = 41 := by rw [h]; decide
  have h4 : ¬ p.c = 93 := by rw [h]; decide
  have h5 : ¬ p.c = 94 := by rw [h]; decide
  have h6 : ¬ p.c = 36 := by rw [h]; decide
  unfold parser.term
  simp only
  rw [if_neg h1, if_neg h2, if_neg h3, if_neg h4, if_neg h5, if_neg h6, if_pos h]
  simp [parser.addI]

theorem term_default (M : Nat) (p : parser) (h : p.c ∉ termSpecial) :
    parser.term (M + 1) p =
      match p.checkBackslash with
      | .error e => .error e
      | .ok (p1, c) =>
        .ok (p1.nextc.addI { kind := .iChar, char := c }, some p1.re.inst.length,
          some p1.re.inst.length) := by
  have h1 : ¬ (p.c = 124 ∨ p.c = endOfFile) := by
    intro h0; apply h; rcases h0 with h0 | h0 <;> rw [h0] <;> decide
  have h2 : ¬ (p.c = 42 ∨ p.c = 43 ∨ p.c = 63) := by
    intro h0; apply h; rcases h0 with h0 | h0 | h0 <;> rw [h0] <;> decide
  have h3 : ¬ p.c = 41 := by intro h0; apply h; rw [h0]; decide
  have h4 : ¬ p.c = 93 := by intro h0; apply h; rw [h0]; decide
  have h5 : ¬ p.c = 94 := by intro h0; apply h; rw [h0]; decide
  have h6 : ¬ p.c = 36 := by intro h0; apply h; rw [h0]; decide
  have h7 : ¬ p.c = 46 := by intro h0; apply h; rw [h0]; decide
  have h8 : ¬ p.c = 91 := by intro h0; apply h; rw [h0]; decide
  have h9 : ¬ p.c = 40 := by intro h0; apply h; rw [h0]; decide
  unfold parser.term
  simp only
  rw [if_neg h1, if_neg h2, if_neg h3, if_neg h4, if_neg h5, if_neg h6, if_neg h7, if_neg h8,
    if_neg h9]
  cases hb : p.checkBackslash with
  | error e => rfl
  | ok v =>
    obtain ⟨p1, c⟩ := v
    simp [parser.addI]

theorem term_char (M : Nat) (p : parser) (h : p.c ∉ termSpecial) {p1 : parser} {c : Int}
    (hb : p.checkBackslash = .ok (p1, c)) :
    parser.term (M + 1) p =
      .ok (p1.nextc.addI { kind := .iChar, char := c }, some p.re.inst.length,
        some p.re.inst.length) := by
  rw [term_default M p h, hb]
  simp only [(checkBackslash_re hb).1]

theorem charClassLoop_done (M : Nat) (p : parser) (cc : charClass) (left : Int)
    (h : p.c = 93 ∨ p.c = endOfFile) (hl : left < 0) :
    parser.charClassLoop (M + 1) p cc left =
      .ok (p.addI (classInstr cc), some p.re.inst.length) := by
  unfold parser.charClassLoop
  simp only
  rw [if_pos h, if_neg (by omega)]
  unfold classInstr parser.addI
  split
  · rfl
  · split <;> rfl

theorem charClassLoop_more (M : Nat) (p : parser) (cc : charClass) (left : Int)
    (h1 : ¬ (p.c = 93 ∨ p.c = endOfFile)) (h2 : p.c ≠ 45) {p1 : parser} {c : Int}
    (hb : p.checkBackslash = .ok (p1, c)) :
    parser.charClassLoop (M + 1) p cc left =
      if left < 0 then
        if p1.nextc.c = 45 then parser.charClassLoop M p1.nextc.nextc cc c
        else parser.charClassLoop M p1.nextc (cc.addRange c c) left
      else if left ≤ c then parser.charClassLoop M p1.nextc (cc.addRange left c) (-1)
      else .error (.error .ErrBadRange) := by
  rw [parser.charClassLoop]
  simp only
  rw [if_neg h1, if_neg h2, hb]

theorem term_group (M : Nat) (p : parser) (h : p.c = 40) {p2 : parser} {s e : Nat}
    (re1 re2 : Regexp) (hr : parser.regexp M p.lpar = .ok (p2, some s, some e))
    (hc : p2.c = 41)
    (h1 : ((p2.rpar.re.add { kind := .iBra, braNum := 2 * p.lpar.re.nbra }).1.add
          { kind := .iBra, braNum := 2 * p.lpar.re.nbra + 1 }).1.setNext
        (some e) (some (p2.rpar.re.add { kind := .iBra, braNum := 2 * p.lpar.re.nbra }).1.inst.length)
          = .ok re1)
    (h2 : re1.setNext (some p2.rpar.re.inst.length) (some s) = .ok re2) :
    parser.term (M + 1) p =
      .ok ({ p2.rpar with re := re2 }, some p2.re.inst.length, some (p2.re.inst.length + 1)) := by
  rw [term_eq_group M p h, hr]
  simp only [hc, ne_eq, not_true_eq_false, if_false, add_snd, reduceCtorEq]
  simp only [add_inst, List.length_append, List.length_singleton, rpar_re] at h1 h2
  simp only [add_inst, List.length_append, List.length_singleton, h1, h2, rpar_re]

theorem closure_err (M : Nat) (p : parser) {x : Abort} (h : parser.term M p = .error x) :
    parser.closure (M + 1) p = .error x := by
  unfold parser.closure; rw [h]

theorem closure_nil (M : Nat) (p : parser) {p1 : parser} {e : Option Nat}
    (h : parser.term M p = .ok (p1, none, e)) :
    parser.closure (M + 1) p = .ok (p1, none, e) := by
  unfold parser.closure; rw [h]; rfl

theorem closure_plain (M : Nat) (p : parser) {p1 : parser} {s e : Nat}
    (h : parser.term M p = .ok (p1, some s, some e))
    (h1 : p1.c ≠ 42) (h2 : p1.c ≠ 43) (h3 : p1.c ≠ 63) :
    parser.closure (M + 1) p = .ok (p1, some s, some e) := by
  unfold parser.closure
  rw [h]
  simp only [reduceCtorEq, if_false, if_neg h1, if_neg h2, if_neg h3]

theorem closure_star (M : Nat) (p : parser) {p1 : parser} {s e : Nat} (re1 re2 : Regexp)
    (h : parser.term M p = .ok (p1, some s, some e)) (hc : p1.c = 42)
    (h1 : (p1.re.add { kind := .iAlt }).1.setNext (some e) (some p1.re.inst.length) = .ok re1)
    (h2 : re1.setLeft (some p1.re.inst.length) (some s) = .ok re2)
    (h3 : ¬ (({ p1 with re := re2 } : parser).nextc.ch = 42 ∨
         ({ p1 with re := re2 } : parser).nextc.ch = 43 ∨
         ({ p1 with re := re2 } : parser).nextc.ch = 63)) :
    parser.closure (M + 1) p =
      .ok (({ p1 with re := re2 } : parser).nextc, some p1.re.inst.length,
        some p1.re.inst.length) := by
  unfold parser.closure
  rw [h]
  simp only [reduceCtorEq, if_false, if_pos hc, add_snd, h1, h2, if_neg h3]

theorem closure_plus (M : Nat) (p : parser) {p1 : parser} {s e : Nat} (re1 re2 : Regexp)
    (h : parser.term M p = .ok (p1, some s, some e)) (hc : p1.c = 43)
    (h1 : (p1.re.add { kind := .iAlt }).1.setNext (some e) (some p1.re.inst.length) = .ok re1)
    (h2 : re1.setLeft (some p1.re.inst.length) (some s) = .ok re2)
    (h3 : ¬ (({ p1 with re := re2 } : parser).nextc.ch = 42 ∨
         ({ p1 with re := re2 } : parser).nextc.ch = 43 ∨
         ({ p1 with re := re2 } : parser).nextc.ch = 63)) :
    parser.closure (M + 1) p =
      .ok (({ p1 with re := re2 } : parser).nextc, some s, some p1.re.inst.length) := by
  have hc2 : ¬ p1.c = 42 := by rw [hc]; decide
  unfold parser.closure
  rw [h]
  simp only [reduceCtorEq, if_false, if_neg hc2, if_pos hc, add_snd, h1, h2, if_neg h3]

theorem closure_opt (M : Nat) (p : parser) {p1 : parser} {s e : Nat} (re1 re2 re3 : Regexp)
    (h : parser.term M p = .ok (p1, some s, some e)) (hc : p1.c = 63)
    (h1 : ((p1.re.add { kind := .iAlt }).1.add { kind := .iNop }).1.setLeft
        (some p1.re.inst.length) (some s) = .ok re1)
    (h2 : re1.setNext (some p1.re.inst.length)
        (some (p1.re.add { kind := .iAlt }).1.inst.length) = .ok re2)
    (h3 : re2.setNext (some e) (some (p1.re.add { kind := .iAlt }).1.inst.length) = .ok re3)
    (h4 : ¬ (({ p1 with re := re3 } : parser).nextc.ch = 42 ∨
         ({ p1 with re := re3 } : parser).nextc.ch = 43 ∨
         ({ p1 with re := re3 } : parser).nextc.ch = 63)) :
    parser.closure (M + 1) p =
      .ok (({ p1 with re := re3 } : parser).nextc, some p1.re.inst.length,
        some (p1.re.inst.length + 1)) := by
  have hc2 : ¬ p1.c = 42 := by rw [hc]; decide
  have hc3 : ¬ p1.c = 43 := by rw [hc]; decide
  unfold parser.closure
  rw [h]
  simp only [add_inst, List.length_append, List.length_singleton] at h2 h3
  simp only [reduceCtorEq, if_false, if_neg hc2, if_neg hc3, if_pos hc, add_snd, h1, h2, h3,
    if_neg h4, add_inst, List.length_append, List.length_singleton]

theorem concatLoop_err (M : Nat) (p : parser) (s e : Option Nat) {x : Abort}
    (h : parser.closure M p = .error x) :
    parser.concatenationLoop (M + 1) p s e = .error x := by
  unfold parser.concatenationLoop; rw [h]

theorem concatLoop_last (M : Nat) (p : parser) (s e : Nat) {x : Option Nat}
    (h : parser.closure M p = .ok (p, none, x)) :
    parser.concatenationLoop (M + 1) p (some s) (some e) = .ok (p, some s, some e) := by
  unfold parser.concatenationLoop; rw [h]
  simp

theorem concatLoop_empty (M : Nat) (p : parser) {x : Option Nat}
    (h : parser.closure M p = .ok (p, none, x)) :
    parser.concatenationLoop (M + 1) p none none =
      .ok (p.addI { kind := .iNop }, some p.re.inst.length, some p.re.inst.length) := by
  unfold parser.concatenationLoop; rw [h]
  simp [parser.addI]

theorem concatLoop_first (M : Nat) (p : parser) {p1 : parser} {s1 e1 : Nat}
    (h : parser.closure M p = .ok (p1, some s1, some e1)) :
    parser.concatenationLoop (M + 1) p none none =
      parser.concatenationLoop M p1 (some s1) (some e1) := by
  rw [parser.concatenationLoop, h]
  simp

theorem concatLoop_next (M : Nat) (p : parser) (s e : Nat) {p1 : parser} {s1 e1 : Nat}
    {re1 : Regexp} (h : parser.closure M p = .ok (p1, some s1, some e1))
    (h1 : p1.re.setNext (some e) (some s1) = .ok re1) :
    parser.concatenationLoop (M + 1) p (some s) (some e) =
      parser.concatenationLoop M { p1 with re := re1 } (some s) (some e1) := by
  rw [parser.concatenationLoop, h]
  simp [h1]

theorem concatenation_eq (M : Nat) (p : parser) :
    parser.concatenation (M + 1) p = parser.concatenationLoop M p none none := by
  rw [parser.concatenation]

theorem regexpLoop_done (M : Nat) (p : parser) (s e : Option Nat) (h : p.c ≠ 124) :
    parser.regexpLoop (M + 1) p s e = .ok (p, s, e) := by
  rw [parser.regexpLoop]
  simp only [if_neg h]

theorem regexpLoop_err (M : Nat) (p : parser) (s e : Option Nat) (h : p.c = 124) {x : Abort}
    (hc : parser.concatenation M p.nextc = .error x) :
    parser.regexpLoop (M + 1) p s e = .error x := by
  rw [parser.regexpLoop]
  simp only [if_pos h, hc]

theorem regexpLoop_bar (M : Nat) (p : parser) (s e : Nat) (h : p.c = 124) {p1 : parser}
    {s1 e1 : Nat} (re1 re2 re3 re4 : Regexp)
    (hc : parser.concatenation M p.nextc = .ok (p1, some s1, some e1))
    (h1 : (p1.re.add { kind := .iAlt }).1.setLeft (some p1.re.inst.length) (some s) = .ok re1)
    (h2 : re1.setNext (some p1.re.inst.length) (some s1) = .ok re2)
    (h3 : (re2.add { kind := .iNop }).1.setNext (some e) (some re2.inst.length) = .ok re3)
    (h4 : re3.setNext (some e1) (some re2.inst.length) = .ok re4) :
    parser.regexpLoop (M + 1) p (some s) (some e) =
      parser.regexpLoop M { p1 with re := re4 } (some p1.re.inst.length)
        (some re2.inst.length) := by
  rw [parser.regexpLoop]
  simp only [if_pos h, hc, add_snd, h1, h2, h3, h4]

theorem regexp_err (M : Nat) (p : parser) {x : Abort}
    (h : parser.concatenation M p = .error x) : parser.regexp (M + 1) p = .error x := by
  rw [parser.regexp, h]

theorem regexp_eq (M : Nat) (p : parser) {p1 : parser} {s1 e1 : Option Nat}
    (h : parser.concatenation M p = .ok (p1, s1, e1)) :
    parser.regexp (M + 1) p = parser.regexpLoop M p1 s1 e1 := by
  rw [parser.regexp, h]

end GoRegexp

namespace GoRegexp

/-! ## The run on the longer pattern follows the run on the pattern -/

theorem ClassRun.eof_stays {p p2 : parser} {cc cc2 : charClass} {left : Int}
    (h : ClassRun p cc left p2 cc2) (hc : p.ch = endOfFile) : p2.ch = endOfFile := by
  cases h with
  | done _ _ => exact hc
  | single h1 _ _ _ _ _ => exact absurd (Or.inr hc) h1
  | lower h1 _ _ _ _ _ => exact absurd (Or.inr hc) h1
  | upper h1 _ _ _ _ _ => exact absurd (Or.inr hc) h1

theorem classInstr_not_bra (cc : charClass) : (classInstr cc).kind ≠ .iBra := by
  unfold classInstr
  split
  · simp
  · split <;> simp

theorem shiftBra_bra (d b : Nat) :
    shiftBra d { kind := .iBra, braNum := b } = { kind := .iBra, braNum := b + 2 * d } := by
  simp [shiftBra]

theorem sim_classRun {pre suf : List Nat} {d : Nat} (hs : SufOK suf)
    {p p1 : parser} {cc cc1 : charClass} {left : Int} (h : ClassRun p cc left p1 cc1)
    (hend : p1.ch ≠ endOfFile) :
    ∀ p2, Sim pre suf d p p2 → ∃ q2, Sim pre suf d p1 q2 ∧
      ∃ N, ∀ M, N ≤ M → parser.charClassLoop M p2 cc left =
        .ok (q2.addI (classInstr cc1), some p1.re.inst.length) := by
  induction h with
  | @done p cc left h1 hl =>
    intro p2 hS
    have h93 : p.c = 93 := by
      rcases h1 with h1 | h1
      · exact h1
      · exact absurd h1 hend
    refine ⟨p2, hS, 1, fun M hM => ?_⟩
    obtain ⟨M, rfl⟩ : ∃ M', M = M' + 1 := ⟨M - 1, by omega⟩
    rw [charClassLoop_done M p2 cc left (Or.inl (hS.c_eq h93 (by decide))) hl, hS.re.length]
  | @single p p1 cc left c p3 cc3 h1 h2 hb hl h45 hrun ih =>
    intro p2 hS
    have hne : p.ch ≠ endOfFile := fun h => h1 (Or.inr h)
    obtain ⟨q1, hb2, hS1, hne1⟩ := hS.checkBackslash hs hne hb
    have hSn := hS1.nextc hs hne1
    have hnn : p1.nextc.ch ≠ endOfFile := fun h => hend (hrun.eof_stays h)
    obtain ⟨q3, hS3, N, hN⟩ := ih hend _ hSn
    refine ⟨q3, hS3, N + 1, fun M hM => ?_⟩
    obtain ⟨M, rfl⟩ : ∃ M', M = M' + 1 := ⟨M - 1, by omega⟩
    have hc2 : p2.c = p.c := by unfold parser.c; exact hS.ch_eq hne
    have hc3 : q1.nextc.c = p1.nextc.c := by unfold parser.c; exact hSn.ch_eq hnn
    rw [charClassLoop_more M p2 cc left (by rw [hc2]; exact h1) (by rw [hc2]; exact h2) hb2,
      if_pos hl, if_neg (by rw [hc3]; exact h45)]
    exact hN M (by omega)
  | @lower p p1 cc left c p3 cc3 h1 h2 hb hl h45 hrun ih =>
    intro p2 hS
    have hne : p.ch ≠ endOfFile := fun h => h1 (Or.inr h)
    obtain ⟨q1, hb2, hS1, hne1⟩ := hS.checkBackslash hs hne hb
    have hSn := hS1.nextc hs hne1
    have hnn : p1.nextc.ch ≠ endOfFile := c_ne_eof h45 (by decide)
    have hSnn := hSn.nextc hs hnn
    obtain ⟨q3, hS3, N, hN⟩ := ih hend _ hSnn
    refine ⟨q3, hS3, N + 1, fun M hM => ?_⟩
    obtain ⟨M, rfl⟩ : ∃ M', M = M' + 1 := ⟨M - 1, by omega⟩
    have hc2 : p2.c = p.c := by unfold parser.c; exact hS.ch_eq hne
    have hc3 : q1.nextc.c = p1.nextc.c := by unfold parser.c; exact hSn.ch_eq hnn
    rw [charClassLoop_more M p2 cc left (by rw [hc2]; exact h1) (by rw [hc2]; exact h2) hb2,
      if_pos hl, if_pos (by rw [hc3]; exact h45)]
    exact hN M (by omega)
  | @upper p p1 cc left c p3 cc3 h1 h2 hb hl hle hrun ih =>
    intro p2 hS
    have hne : p.ch ≠ endOfFile := fun h => h1 (Or.inr h)
    obtain ⟨q1, hb2, hS1, hne1⟩ := hS.checkBackslash hs hne hb
    have hSn := hS1.nextc hs hne1
    obtain ⟨q3, hS3, N, hN⟩ := ih hend _ hSn
    refine ⟨q3, hS3, N + 1, fun M hM => ?_⟩
    obtain ⟨M, rfl⟩ : ∃ M', M = M' + 1 := ⟨M - 1, by omega⟩
    have hc2 : p2.c = p.c := by unfold parser.c; exact hS.ch_eq hne
    rw [charClassLoop_more M p2 cc left (by rw [hc2]; exact h1) (by rw [hc2]; exact h2) hb2,
      if_neg hl, if_pos hle]
    exact hN M (by omega)

end GoRegexp

namespace GoRegexp

theorem live_of_ne {suf : List Nat} {q : parser} (h : q.ch ≠ endOfFile) : Live suf q := Or.inr h

theorem not_live {suf : List Nat} {q : parser} (h : ¬ Live suf q) :
    suf ≠ [] ∧ q.ch = endOfFile := by
  unfold Live at h
  constructor
  · intro h0; exact h (Or.inl h0)
  · by_contra h0; exact h (Or.inr h0)

/-- The run of the parser on the pattern put between pre and suf, from a place that goes
with the place a run on the pattern starts from: it goes through the same calls, and as long
as the run on the pattern has not reached the end it returns the same fragment at the
place that goes with it; where the run on the pattern stops at the end of the pattern,
outside every parenthesis, the run on the longer pattern calls parser.term at the first rune
of suf. -/
theorem sim_parse {pre suf : List Nat} {d : Nat} (E : Error) (K : Nat) (hs : SufOK suf)
    (hbad : ∀ q q2, Sim pre suf d q q2 → q.ch = endOfFile → q.nlpar = 0 → suf ≠ [] →
      ∀ M, K ≤ M → parser.term M q2 = .error (.error E))
    {nt : NT} {q : parser} {r : Ast} {q1 : parser} {s e : Nat} (h : Parse nt q r q1 s e) :
    ∀ q2, Sim pre suf d q q2 → (nt.isRegexpLoop = true → Live suf q) →
      ((nt.inner = true ∨ Live suf q1) → ∃ p2, Sim pre suf d q1 p2 ∧
          ∃ N, ∀ M, N ≤ M → callNT nt M q2 = .ok (p2, some s, some e)) ∧
      (nt.inner = false → ¬ Live suf q1 → q.nlpar = 0 →
          ∃ N, ∀ M, N ≤ M → callNT nt M q2 = .error (.error E)) := by
  induction h with
  | @bot p h =>
    intro q2 hS _
    refine ⟨fun _ => ?_, fun h0 => by simp [NT.inner] at h0⟩
    have hne := c_ne_eof h (by decide)
    refine ⟨_, (hS.nextc hs hne).addI _ (by decide), 1, fun M hM => ?_⟩
    obtain ⟨M, rfl⟩ : ∃ M', M = M' + 1 := ⟨M - 1, by omega⟩
    simp only [callNT]
    rw [term_bot M q2 (hS.c_eq h (by decide)), hS.re.length]
  | @eot p h =>
    intro q2 hS _
    refine ⟨fun _ => ?_, fun h0 => by simp [NT.inner] at h0⟩
    have hne := c_ne_eof h (by decide)
    refine ⟨_, (hS.nextc hs hne).addI _ (by decide), 1, fun M hM => ?_⟩
    obtain ⟨M, rfl⟩ : ∃ M', M = M' + 1 := ⟨M - 1, by omega⟩
    simp only [callNT]
    rw [term_eot M q2 (hS.c_eq h (by decide)), hS.re.length]
  | @any p h =>
    intro q2 hS _
    refine ⟨fun _ => ?_, fun h0 => by simp [NT.inner] at h0⟩
    have hne := c_ne_eof h (by decide)
    refine ⟨_, (hS.nextc hs hne).addI _ (by decide), 1, fun M hM => ?_⟩
    obtain ⟨M, rfl⟩ : ∃ M', M = M' + 1 := ⟨M - 1, by omega⟩
    simp only [callNT]
    rw [term_any M q2 (hS.c_eq h (by decide)), hS.re.length]
  | @char p p1 c h hb =>
    intro q2 hS _
    refine ⟨fun _ => ?_, fun h0 => by simp [NT.inner] at h0⟩
    have hne : p.ch ≠ endOfFile := by
      intro h0; apply h; unfold parser.c; rw [h0]; decide
    obtain ⟨q3, hb2, hS1, hne1⟩ := hS.checkBackslash hs hne hb
    have hc2 : q2.c = p.c := by unfold parser.c; exact hS.ch_eq hne
    refine ⟨_, (hS1.nextc hs hne1).addI _ (by simp), 1, fun M hM => ?_⟩
    obtain ⟨M, rfl⟩ : ∃ M', M = M' + 1 := ⟨M - 1, by omega⟩
    simp only [callNT]
    rw [term_char M q2 (by rw [hc2]; exact h) hb2, hS.re.length]
  | @cls p p1 cc h hrun h93 =>
    intro q2 hS _
    refine ⟨fun _ => ?_, fun h0 => by simp [NT.inner] at h0⟩
    have hne := c_ne_eof h (by decide)
    have hne1 : p1.ch ≠ endOfFile := c_ne_eof h93 (by decide)
    have hSn := hS.nextc hs hne
    have hst : (if p.nextc.c = 94 then p.nextc.nextc else p.nextc).ch ≠ endOfFile :=
      fun h0 => hne1 (hrun.eof_stays h0)
    have hnn : p.nextc.ch ≠ endOfFile := by
      intro h0
      apply hst
      have h94 : ¬ p.nextc.c = 94 := by unfold parser.c; rw [h0]; decide
      rw [if_neg h94]; exact h0
    have hc2 : q2.nextc.c = p.nextc.c := by unfold parser.c; exact hSn.ch_eq hnn
    have hS0 : Sim pre suf d (if p.nextc.c = 94 then p.nextc.nextc else p.nextc)
        (if q2.nextc.c = 94 then q2.nextc.nextc else q2.nextc) := by
      rw [hc2]
      split
      · exact hSn.nextc hs hnn
      · exact hSn
    obtain ⟨q3, hS3, N, hN⟩ := sim_classRun hs hrun hne1 _ hS0
    have hre : p1.re = p.re := by simpa using hrun.re_eq.1
    refine ⟨_, (hS3.addI _ (classInstr_not_bra cc)).nextc hs (by simpa using hne1), N + 1,
      fun M hM => ?_⟩
    obtain ⟨M, rfl⟩ : ∃ M', M = M' + 1 := ⟨M - 1, by omega⟩
    simp only [callNT]
    rw [term_eq_cls M q2 (hS.c_eq h (by decide))]
    have hcc : parser.charClass M q2.nextc =
        .ok (q3.addI (classInstr cc), some p1.re.inst.length) := by
      rw [← hN M (by omega)]
      unfold parser.charClass
      simp only [hc2]
      split
      · rename_i h94
        simp [h94]
      · rename_i h94
        simp [h94]
        rfl
    rw [hcc]
    have h93b : (q3.addI (classInstr cc)).c = 93 := by
      have := hS3.c_eq h93 (by decide)
      simpa [parser.c] using this
    simp only [h93b, ne_eq, not_true_eq_false, if_false, hre]
  | @group p p2 r s e re1 re2 h hr hc h1 h2 ih =>
    intro q2 hS _
    refine ⟨fun _ => ?_, fun h0 => by simp [NT.inner] at h0⟩
    have hne := c_ne_eof h (by decide)
    have hne2 := c_ne_eof hc (by decide)
    obtain ⟨q3, hS3, N, hN⟩ := (ih q2.lpar (hS.lpar hs hne) (by simp [NT.isRegexpLoop])).1
      (Or.inr (live_of_ne hne2))
    simp only [callNT] at hN
    have hnl : p2.nlpar ≠ 0 := by rw [hr.nlpar_eq]; simp
    have hSr := hS3.rpar hs hne2 hnl
    have hnb : q2.lpar.re.nbra = p.lpar.re.nbra + d := (hS.lpar hs hne).re.2.2
    have hR1 := (hSr.re.add { kind := .iBra, braNum := 2 * p.lpar.re.nbra }).add
      { kind := .iBra, braNum := 2 * p.lpar.re.nbra + 1 }
    have e1 : shiftBra d { kind := .iBra, braNum := 2 * p.lpar.re.nbra } =
        { kind := .iBra, braNum := 2 * q2.lpar.re.nbra } := by
      rw [shiftBra_bra, hnb]; congr 1; omega
    have e2 : shiftBra d { kind := .iBra, braNum := 2 * p.lpar.re.nbra + 1 } =
        { kind := .iBra, braNum := 2 * q2.lpar.re.nbra + 1 } := by
      rw [shiftBra_bra, hnb]; congr 1; omega
    rw [e1, e2] at hR1
    obtain ⟨r1, hr1, hR2⟩ := hR1.setNext h1
    obtain ⟨r2, hr2, hR3⟩ := hR2.setNext h2
    have hlen : q3.re.inst.length = p2.re.inst.length := hS3.re.length
    have hex : re2.expr = p2.rpar.re.expr := by
      rw [(setNext_nbra h2).2, (setNext_nbra h1).2]; simp
    refine ⟨_, hSr.withRe hR3 hex, N + 1, fun M hM => ?_⟩
    obtain ⟨M, rfl⟩ : ∃ M', M = M' + 1 := ⟨M - 1, by omega⟩
    simp only [callNT]
    rw [term_group M q2 (hS.c_eq h (by decide)) r1 r2 (hN M (by omega))
      (hS3.c_eq hc (by decide)) (by simpa [hlen] using hr1) (by simpa [hlen] using hr2), hlen]
  | @plain p r p1 s e ht h1 h2 h3 ih =>
    intro q2 hS _
    refine ⟨fun _ => ?_, fun h0 => by simp [NT.inner] at h0⟩
    obtain ⟨q3, hS3, N, hN⟩ := (ih q2 hS (by simp [NT.isRegexpLoop])).1 (Or.inl rfl)
    simp only [callNT] at hN
    refine ⟨q3, hS3, N + 1, fun M hM => ?_⟩
    obtain ⟨M, rfl⟩ : ∃ M', M = M' + 1 := ⟨M - 1, by omega⟩
    simp only [callNT]
    exact closure_plain M q2 (hN M (by omega))
      (fun h0 => h1 ((hS3.c_iff hs 42 (by simp)).1 h0))
      (fun h0 => h2 ((hS3.c_iff hs 43 (by simp)).1 h0))
      (fun h0 => h3 ((hS3.c_iff hs 63 (by simp)).1 h0))
  | @star p r p1 s e re1 re2 ht hc h1 h2 h3 ih =>
    intro q2 hS _
    refine ⟨fun _ => ?_, fun h0 => by simp [NT.inner] at h0⟩
    obtain ⟨q3, hS3, N, hN⟩ := (ih q2 hS (by simp [NT.isRegexpLoop])).1 (Or.inl rfl)
    simp only [callNT] at hN
    have hne := c_ne_eof hc (by decide)
    have hlen : q3.re.inst.length = p1.re.inst.length := hS3.re.length
    obtain ⟨r1, hr1, hR1⟩ := (hS3.re.add_other { kind := .iAlt } (by decide)).setNext h1
    obtain ⟨r2, hr2, hR2⟩ := hR1.setLeft h2
    have hex : re2.expr = p1.re.expr := by
      rw [(setLeft_nbra h2).2, (setNext_nbra h1).2]; simp
    have hSn := (hS3.withRe hR2 hex).nextc hs hne
    refine ⟨_, hSn, N + 1, fun M hM => ?_⟩
    obtain ⟨M, rfl⟩ : ∃ M', M = M' + 1 := ⟨M - 1, by omega⟩
    simp only [callNT]
    rw [closure_star M q2 r1 r2 (hN M (by omega)) (hS3.c_eq hc (by decide))
      (by simpa [hlen] using hr1) (by simpa [hlen] using hr2) ?_, hlen]
    intro h0
    apply h3
    rcases h0 with h0 | h0 | h0
    · exact Or.inl ((hSn.c_iff hs 42 (by simp)).1 h0)
    · exact Or.inr (Or.inl ((hSn.c_iff hs 43 (by simp)).1 h0))
    · exact Or.inr (Or.inr ((hSn.c_iff hs 63 (by simp)).1 h0))
  | @plus p r p1 s e re1 re2 ht hc h1 h2 h3 ih =>
    intro q2 hS _
    refine ⟨fun _ => ?_, fun h0 => by simp [NT.inner] at h0⟩
    obtain ⟨q3, hS3, N, hN⟩ := (ih q2 hS (by simp [NT.isRegexpLoop])).1 (Or.inl rfl)
    simp only [callNT] at hN
    have hne := c_ne_eof hc (by decide)
    have hlen : q3.re.inst.length = p1.re.inst.length := hS3.re.length
    obtain ⟨r1, hr1, hR1⟩ := (hS3.re.add_other { kind := .iAlt } (by decide)).setNext h1
    obtain ⟨r2, hr2, hR2⟩ := hR1.setLeft h2
    have hex : re2.expr = p1.re.expr := by
      rw [(setLeft_nbra h2).2, (setNext_nbra h1).2]; simp
    have hSn := (hS3.withRe hR2 hex).nextc hs hne
    refine ⟨_, hSn, N + 1, fun M hM => ?_⟩
    obtain ⟨M, rfl⟩ : ∃ M', M = M' + 1 := ⟨M - 1, by omega⟩
    simp only [callNT]
    rw [closure_plus M q2 r1 r2 (hN M (by omega)) (hS3.c_eq hc (by decide))
      (by simpa [hlen] using hr1) (by simpa [hlen] using hr2) ?_, hlen]
    intro h0
    apply h3
    rcases h0 with h0 | h0 | h0
    · exact Or.inl ((hSn.c_iff hs 42 (by simp)).1 h0)
    · exact Or.inr (Or.inl ((hSn.c_iff hs 43 (by simp)).1 h0))
    · exact Or.inr (Or.inr ((hSn.c_iff hs 63 (by simp)).1 h0))
  | @opt p r p1 s e re1 re2 re3 ht hc h1 h2 h3 h4 ih =>
    intro q2 hS _
    refine ⟨fun _ => ?_, fun h0 => by simp [NT.inner] at h0⟩
    obtain ⟨q3, hS3, N, hN⟩ := (ih q2 hS (by simp [NT.isRegexpLoop])).1 (Or.inl rfl)
    simp only [callNT] at hN
    have hne := c_ne_eof hc (by decide)
    have hlen : q3.re.inst.length = p1.re.inst.length := hS3.re.length
    obtain ⟨r1, hr1, hR1⟩ := ((hS3.re.add_other { kind := .iAlt } (by decide)).add_other
      { kind := .iNop } (by decide)).setLeft h1
    obtain ⟨r2, hr2, hR2⟩ := hR1.setNext h2
    obtain ⟨r3, hr3, hR3⟩ := hR2.setNext h3
    have hex : re3.expr = p1.re.expr := by
      rw [(setNext_nbra h3).2, (setNext_nbra h2).2, (setLeft_nbra h1).2]; simp
    have hSn := (hS3.withRe hR3 hex).nextc hs hne
    refine ⟨_, hSn, N + 1, fun M hM => ?_⟩
    obtain ⟨M, rfl⟩ : ∃ M', M = M' + 1 := ⟨M - 1, by omega⟩
    simp only [callNT]
    rw [closure_opt M q2 r1 r2 r3 (hN M (by omega)) (hS3.c_eq hc (by decide))
      (by simpa [hlen] using hr1) (by simpa [hlen] using hr2)
      (by simpa [hlen] using hr3) ?_, hlen]
    intro h0
    apply h4
    rcases h0 with h0 | h0 | h0
    · exact Or.inl ((hSn.c_iff hs 42 (by simp)).1 h0)
    · exact Or.inr (Or.inl ((hSn.c_iff hs 43 (by simp)).1 h0))
    · exact Or.inr (Or.inr ((hSn.c_iff hs 63 (by simp)).1 h0))
  | @emptyConcat p h =>
    intro q2 hS _
    constructor
    · intro hl
      have hl : Live suf p := by
        rcases hl with h0 | h0
        · simp [NT.inner] at h0
        · exact h0
      have ht := hS.termNil hl h
      refine ⟨_, hS.addI _ (by decide), 4, fun M hM => ?_⟩
      obtain ⟨M, rfl⟩ : ∃ M', M = M' + 4 := ⟨M - 4, by omega⟩
      simp only [callNT]
      rw [concatenation_eq, concatLoop_empty _ _ (closure_nil _ _ (term_nil M q2 ht)),
        hS.re.length]
    · intro _ hl hn
      obtain ⟨h1, h2⟩ := not_live hl
      refine ⟨K + 4, fun M hM => ?_⟩
      obtain ⟨M, rfl⟩ : ∃ M', M = M' + 4 := ⟨M - 4, by omega⟩
      simp only [callNT]
      rw [concatenation_eq, concatLoop_err _ _ _ _ (closure_err _ _
        (hbad p q2 hS h2 hn h1 (M + 1) (by omega)))]
  | @first p c p1 s1 e1 r p2 s e hc hl ih1 ih2 =>
    intro q2 hS _
    obtain ⟨q3, hS3, N1, hN1⟩ := (ih1 q2 hS (by simp [NT.isRegexpLoop])).1 (Or.inl rfl)
    simp only [callNT] at hN1
    have ih2 := ih2 q3 hS3 (by simp [NT.isRegexpLoop])
    simp only [callNT] at ih2
    constructor
    · intro hlive
      have hlive : Live suf p2 := by
        rcases hlive with h0 | h0
        · simp [NT.inner] at h0
        · exact h0
      obtain ⟨q4, hS4, N2, hN2⟩ := ih2.1 (Or.inr hlive)
      refine ⟨q4, hS4, N1 + N2 + 2, fun M hM => ?_⟩
      obtain ⟨M, rfl⟩ : ∃ M', M = M' + 2 := ⟨M - 2, by omega⟩
      simp only [callNT]
      rw [concatenation_eq, concatLoop_first _ _ (hN1 M (by omega))]
      exact hN2 M (by omega)
    · intro _ hlive hn
      obtain ⟨N2, hN2⟩ := ih2.2 rfl hlive (by rw [hc.nlpar_eq]; exact hn)
      refine ⟨N1 + N2 + 2, fun M hM => ?_⟩
      obtain ⟨M, rfl⟩ : ∃ M', M = M' + 2 := ⟨M - 2, by omega⟩
      simp only [callNT]
      rw [concatenation_eq, concatLoop_first _ _ (hN1 M (by omega))]
      exact hN2 M (by omega)
  | @last p a s e h =>
    intro q2 hS _
    constructor
    · intro hl
      have hl : Live suf p := by
        rcases hl with h0 | h0
        · simp [NT.inner] at h0
        · exact h0
      have ht := hS.termNil hl h
      refine ⟨q2, hS, 3, fun M hM => ?_⟩
      obtain ⟨M, rfl⟩ : ∃ M', M = M' + 3 := ⟨M - 3, by omega⟩
      simp only [callNT]
      rw [concatLoop_last _ _ _ _ (closure_nil _ _ (term_nil M q2 ht))]
    · intro _ hl hn
      obtain ⟨h1, h2⟩ := not_live hl
      refine ⟨K + 3, fun M hM => ?_⟩
      obtain ⟨M, rfl⟩ : ∃ M', M = M' + 3 := ⟨M - 3, by omega⟩
      simp only [callNT]
      rw [concatLoop_err _ _ _ _ (closure_err _ _ (hbad p q2 hS h2 hn h1 (M + 1) (by omega)))]
  | @next p a s e c p1 s1 e1 re1 r p2 s2 e2 hc h1 hl ih1 ih2 =>
    intro q2 hS _
    obtain ⟨q3, hS3, N1, hN1⟩ := (ih1 q2 hS (by simp [NT.isRegexpLoop])).1 (Or.inl rfl)
    simp only [callNT] at hN1
    obtain ⟨r1, hr1, hR1⟩ := hS3.re.setNext h1
    have hS3b := hS3.withRe hR1 (setNext_nbra h1).2
    have ih2 := ih2 _ hS3b (by simp [NT.isRegexpLoop])
    simp only [callNT] at ih2
    constructor
    · intro hlive
      have hlive : Live suf p2 := by
        rcases hlive with h0 | h0
        · simp [NT.inner] at h0
        · exact h0
      obtain ⟨q4, hS4, N2, hN2⟩ := ih2.1 (Or.inr hlive)
      refine ⟨q4, hS4, N1 + N2 + 1, fun M hM => ?_⟩
      obtain ⟨M, rfl⟩ : ∃ M', M = M' + 1 := ⟨M - 1, by omega⟩
      simp only [callNT]
      rw [concatLoop_next _ _ _ _ (hN1 M (by omega)) hr1]
      exact hN2 M (by omega)
    · intro _ hlive hn
      obtain ⟨N2, hN2⟩ := ih2.2 rfl hlive (by rw [← hn, ← hc.nlpar_eq])
      refine ⟨N1 + N2 + 1, fun M hM => ?_⟩
      obtain ⟨M, rfl⟩ : ∃ M', M = M' + 1 := ⟨M - 1, by omega⟩
      simp only [callNT]
      rw [concatLoop_next _ _ _ _ (hN1 M (by omega)) hr1]
      exact hN2 M (by omega)
  | @regexp p c p1 s1 e1 r p2 s e hc hl ih1 ih2 =>
    intro q2 hS _
    have ih1 := ih1 q2 hS (by simp [NT.isRegexpLoop])
    simp only [callNT] at ih1
    constructor
    · intro hlive
      have hlive : Live suf p2 := by
        rcases hlive with h0 | h0
        · simp [NT.inner] at h0
        · exact h0
      have hlive1 : Live suf p1 := hl.live hlive
      obtain ⟨q3, hS3, N1, hN1⟩ := ih1.1 (Or.inr hlive1)
      obtain ⟨q4, hS4, N2, hN2⟩ := (ih2 q3 hS3 (fun _ => hlive1)).1 (Or.inr hlive)
      simp only [callNT] at hN2
      refine ⟨q4, hS4, N1 + N2 + 1, fun M hM => ?_⟩
      obtain ⟨M, rfl⟩ : ∃ M', M = M' + 1 := ⟨M - 1, by omega⟩
      simp only [callNT]
      rw [regexp_eq _ _ (hN1 M (by omega))]
      exact hN2 M (by omega)
    · intro _ hlive hn
      by_cases hlive1 : Live suf p1
      · obtain ⟨q3, hS3, N1, hN1⟩ := ih1.1 (Or.inr hlive1)
        obtain ⟨N2, hN2⟩ := (ih2 q3 hS3 (fun _ => hlive1)).2 rfl hlive
          (by rw [hc.nlpar_eq]; exact hn)
        simp only [callNT] at hN2
        refine ⟨N1 + N2 + 1, fun M hM => ?_⟩
        obtain ⟨M, rfl⟩ : ∃ M', M = M' + 1 := ⟨M - 1, by omega⟩
        simp only [callNT]
        rw [regexp_eq _ _ (hN1 M (by omega))]
        exact hN2 M (by omega)
      · obtain ⟨N1, hN1⟩ := ih1.2 rfl hlive1 hn
        refine ⟨N1 + 1, fun M hM => ?_⟩
        obtain ⟨M, rfl⟩ : ∃ M', M = M' + 1 := ⟨M - 1, by omega⟩
        simp only [callNT]
        exact regexp_err _ _ (hN1 M (by omega))
  | @done p a s e h =>
    intro q2 hS hpre
    have hl : Live suf p := hpre rfl
    constructor
    · intro _
      refine ⟨q2, hS, 1, fun M hM => ?_⟩
      obtain ⟨M, rfl⟩ : ∃ M', M = M' + 1 := ⟨M - 1, by omega⟩
      simp only [callNT]
      exact regexpLoop_done _ _ _ _ (fun h0 => h ((hS.c_iff hs 124 (by simp)).1 h0))
    · intro _ hlive _
      exact absurd hl hlive
  | @bar p a s e c p1 s1 e1 re1 re2 re3 re4 r p2 s2 e2 h hc h1 h2 h3 h4 hl ih1 ih2 =>
    intro q2 hS _
    have hne := c_ne_eof h (by decide)
    have hSn := hS.nextc hs hne
    have ih1 := ih1 _ hSn (by simp [NT.isRegexpLoop])
    simp only [callNT] at ih1
    have key : ∀ q3, Sim pre suf d p1 q3 → ∃ r4 : Regexp, ∃ k : Nat,
        Sim pre suf d { p1 with re := re4 } { q3 with re := r4 } ∧
        ∀ M, parser.concatenation M q2.nextc = .ok (q3, some s1, some e1) →
          parser.regexpLoop (M + 1) q2 (some s) (some e) =
            parser.regexpLoop M { q3 with re := r4 } (some p1.re.inst.length)
              (some (p1.re.inst.length + 1)) := by
      intro q3 hS3
      obtain ⟨r1, hr1, hR1⟩ := (hS3.re.add_other { kind := .iAlt } (by decide)).setLeft h1
      obtain ⟨r2, hr2, hR2⟩ := hR1.setNext h2
      obtain ⟨r3, hr3, hR3⟩ := (hR2.add_other { kind := .iNop } (by decide)).setNext h3
      obtain ⟨r4, hr4, hR4⟩ := hR3.setNext h4
      have hlen : q3.re.inst.length = p1.re.inst.length := hS3.re.length
      have hlen2 : r2.inst.length = re2.inst.length := hR2.length
      have hlen3 : re2.inst.length = p1.re.inst.length + 1 := by
        rw [setNext_length h2, setLeft_length h1]; simp
      have hex : re4.expr = p1.re.expr := by
        rw [(setNext_nbra h4).2, (setNext_nbra h3).2]
        simp [(setNext_nbra h2).2, (setLeft_nbra h1).2]
      refine ⟨r4, 0, hS3.withRe hR4 hex, fun M hM => ?_⟩
      rw [regexpLoop_bar M q2 s e (hS.c_eq h (by decide)) r1 r2 r3 r4 hM (by simpa [hlen] using hr1) (by simpa [hlen] using hr2)
        (by simpa [hlen2] using hr3) (by simpa [hlen2] using hr4), hlen, hlen2, hlen3]
    constructor
    · intro hlive
      have hlive : Live suf p2 := by
        rcases hlive with h0 | h0
        · simp [NT.inner] at h0
        · exact h0
      have hlive1 : Live suf p1 := hl.live hlive
      obtain ⟨q3, hS3, N1, hN1⟩ := ih1.1 (Or.inr hlive1)
      obtain ⟨r4, _, hS4, hstep⟩ := key q3 hS3
      obtain ⟨q4, hS5, N2, hN2⟩ := (ih2 _ hS4 (fun _ => hlive1)).1 (Or.inr hlive)
      simp only [callNT] at hN2
      refine ⟨q4, hS5, N1 + N2 + 1, fun M hM => ?_⟩
      obtain ⟨M, rfl⟩ : ∃ M', M = M' + 1 := ⟨M - 1, by omega⟩
      simp only [callNT]
      rw [hstep M (hN1 M (by omega))]
      exact hN2 M (by omega)
    · intro _ hlive hn
      have hn1 : p1.nlpar = 0 := by rw [hc.nlpar_eq]; simpa using hn
      by_cases hlive1 : Live suf p1
      · obtain ⟨q3, hS3, N1, hN1⟩ := ih1.1 (Or.inr hlive1)
        obtain ⟨r4, _, hS4, hstep⟩ := key q3 hS3
        obtain ⟨N2, hN2⟩ := (ih2 _ hS4 (fun _ => hlive1)).2 rfl hlive hn1
        simp only [callNT] at hN2
        refine ⟨N1 + N2 + 1, fun M hM => ?_⟩
        obtain ⟨M, rfl⟩ : ∃ M', M = M' + 1 := ⟨M - 1, by omega⟩
        simp only [callNT]
        rw [hstep M (hN1 M (by omega))]
        exact hN2 M (by omega)
      · obtain ⟨N1, hN1⟩ := ih1.2 rfl hlive1 (by simpa using hn)
        refine ⟨N1 + 1, fun M hM => ?_⟩
        obtain ⟨M, rfl⟩ : ∃ M', M = M' + 1 := ⟨M - 1, by omega⟩
        simp only [callNT]
        exact regexpLoop_err _ _ _ _ (hS.c_eq h (by decide)) (hN1 M (by omega))

end GoRegexp

namespace GoRegexp

/-! ## Compile on a pattern with one more delimiter -/

theorem Compile_of_regexp_error {str : List Nat} {x : Abort}
    (h : parser.regexp (parseFuel str.length) (startParser str) = .error x) :
    Compile str = .error x := by
  unfold Compile
  rw [doParse_eq, h]

theorem regexp_at_parseFuel {str : List Nat} {v : Except Abort (parser × Option Nat × Option Nat)}
    (h : ∃ N, ∀ M, N ≤ M → parser.regexp M (startParser str) = v) (hv : v ≠ .error .fuel) :
    parser.regexp (parseFuel str.length) (startParser str) = v := by
  obtain ⟨N, hN⟩ := h
  have hsp := (parser_spec (parseFuel str.length)).2.2.2.2.2.2 (startParser str)
  have hrem := startParser_rem str
  have hnf := hsp.noFuel (by unfold parseFuel; omega)
  have h1 := regexp_mono rfl hnf (Nat.le_max_left (parseFuel str.length) N)
  rw [hN _ (Nat.le_max_right _ _)] at h1
  exact h1.symm

theorem Compile_ok_parse {str : List Nat} {re : Regexp} (h : Compile str = .ok re) :
    ∃ r q1 s e, Parse .regexp (startParser str) r q1 s e := by
  unfold Compile at h
  rcases doParse_spec str with ⟨re2, v, hv, -⟩ | ⟨e, -, he⟩
  · have hsp := (parser_spec (parseFuel str.length)).2.2.2.2.2.2 (startParser str)
    obtain ⟨r, s, e, -, hp⟩ := hsp.value v hv
    exact ⟨r, v.1, s, e, hp⟩
  · rw [he] at h; cases h

theorem startParser_nlpar (str : List Nat) : (startParser str).nlpar = 0 := by
  simp [startParser, newParser]

theorem sim_start (pre suf : List Nat) (d : Nat) (hs : SufOK suf) (str : List Nat) :
    Sim pre suf d (startParser str)
      ((parser.nextc ⟨{ expr := pre ++ str ++ suf, nbra := d }, d, pre.length, 0⟩).addI
        { kind := .iStart }) := by
  have h0 : Sim pre suf d ⟨{ expr := str }, 0, 0, 0⟩
      ⟨{ expr := pre ++ str ++ suf, nbra := d }, d, pre.length, 0⟩ := by
    refine ⟨⟨rfl, rfl, by simp⟩, by simp, ?_⟩
    refine ⟨by simp, fun _ => ⟨rfl, rfl⟩, fun h => ?_⟩
    simp [endOfFile] at h
  have h1 := (h0.nextc hs (by simp [endOfFile])).addI { kind := .iStart } (by decide)
  exact h1

/-- A suffix that parser.term rejects at the end of a pattern that compiles makes Compile
fail with the error of parser.term. -/
theorem Compile_suffix {str suf : List Nat} {re : Regexp} (E : Error) (K : Nat)
    (hs : SufOK suf)
    (hbad : ∀ q q2, Sim [] suf 0 q q2 → q.ch = endOfFile → q.nlpar = 0 → suf ≠ [] →
      ∀ M, K ≤ M → parser.term M q2 = .error (.error E))
    (hne : suf ≠ []) (h : Compile str = .ok re) :
    Compile (str ++ suf) = .error (.error E) := by
  obtain ⟨r, q1, s, e, hp⟩ := Compile_ok_parse h
  have hS := sim_start [] suf 0 hs str
  have h2 : (parser.nextc ⟨{ expr := [] ++ str ++ suf, nbra := 0 }, 0, ([] : List Nat).length, 0⟩).addI
      { kind := .iStart } = startParser (str ++ suf) := by
    simp [startParser, newParser, parser.addI]
  rw [h2] at hS
  have hend := hp.top_eof (startParser_nlpar str)
  have hnl : ¬ Live suf q1 := by
    intro h0
    rcases h0 with h0 | h0
    · exact hne h0
    · exact h0 hend
  have := (sim_parse E K hs hbad hp _ hS (by simp [NT.isRegexpLoop])).2 rfl hnl
    (startParser_nlpar str)
  simp only [callNT] at this
  exact Compile_of_regexp_error (regexp_at_parseFuel this (by simp))

theorem lpar_start (str : List Nat) :
    (startParser (40 :: str)).lpar =
      (parser.nextc ⟨{ expr := [40] ++ str ++ [], nbra := 1 }, 1, [40].length, 0⟩).addI
        { kind := .iStart } := by
  simp [startParser, newParser, parser.addI, parser.lpar, parser.nextc, DecodeRuneInString,
    DecodeRune, Regexp.add]
  split <;> simp

/-- An opening parenthesis put before a pattern that compiles is never closed. -/
theorem Compile_lpar {str : List Nat} {re : Regexp} (h : Compile str = .ok re) :
    Compile (40 :: str) = .error (.error .ErrUnmatchedLpar) := by
  obtain ⟨r, q1, s, e, hp⟩ := Compile_ok_parse h
  have hs : SufOK [] := by intro c t h0; cases h0
  have hS := sim_start [40] [] 1 hs str
  rw [← lpar_start] at hS
  have hend := hp.top_eof (startParser_nlpar str)
  obtain ⟨p2, hS2, N, hN⟩ := (@sim_parse [40] [] 1 .ErrInternal 0 hs
    (fun _ _ _ _ _ h0 => absurd rfl h0) _ _ _ _ _ _ hp _ hS (by simp [NT.isRegexpLoop])).1
    (Or.inr (Or.inl rfl))
  simp only [callNT] at hN
  have hc2 : p2.c ≠ 41 := by
    have := (hS2.pos.2.2 hend).2.1
    unfold parser.c
    rw [this]
    simp [sufCh, endOfFile]
  have h40 : (startParser (40 :: str)).c = 40 := by
    simp [startParser, newParser, parser.nextc, parser.c, DecodeRuneInString, DecodeRune]
  apply Compile_of_regexp_error
  apply regexp_at_parseFuel _ (by simp)
  refine ⟨N + 5, fun M hM => ?_⟩
  obtain ⟨M, rfl⟩ : ∃ M', M = M' + 5 := ⟨M - 5, by omega⟩
  apply regexp_err
  rw [concatenation_eq]
  apply concatLoop_err
  apply closure_err
  rw [term_eq_group _ _ h40, hN M (by omega)]
  simp only [hc2, ne_eq, not_false_eq_true, if_true]

end GoRegexp

namespace GoRegexp

/-! ## The pattern of one range -/

theorem DecodeRune_EncodeRune (x : Int) (h0 : 0 ≤ x) (h1 : x < 1114112)
    (h2 : ¬ (55296 ≤ x ∧ x < 57344)) (t : List Nat) :
    DecodeRune (EncodeRune x ++ t) = (x, (EncodeRune x).length) := by
  obtain ⟨n, rfl⟩ := Int.eq_ofNat_of_zero_le h0
  have h1' : n < 1114112 := by omega
  have h2' : ¬ (55296 ≤ n ∧ n < 57344) := by omega
  unfold EncodeRune
  simp only [Int.toNat_ofNat]
  rw [if_neg (by omega)]
  by_cases c1 : n < 128
  · rw [if_pos c1]
    simp [DecodeRune, c1]
  · rw [if_neg c1]
    by_cases c2 : n < 2048
    · rw [if_pos c2]
      simp only [DecodeRune, List.cons_append, List.nil_append]
      rw [if_neg (by omega), if_neg (by omega), if_pos (by omega), if_pos (by omega)]
      simp only [List.length_cons, List.length_nil, Prod.mk.injEq, and_true]
      congr 1
      omega
    · rw [if_neg c2, if_neg h2']
      by_cases c3 : n < 65536
      · rw [if_pos c3]
        simp only [DecodeRune, List.cons_append, List.nil_append]
        rw [if_neg (by omega), if_neg (by omega), if_neg (by omega), if_pos (by omega)]
        rw [if_pos (by omega)]
        simp only [List.length_cons, List.length_nil, Prod.mk.injEq, and_true]
        congr 1
        omega
      · rw [if_neg c3, if_pos h1']
        simp only [DecodeRune, List.cons_append, List.nil_append]
        rw [if_neg (by omega), if_neg (by omega), if_neg (by omega), if_neg (by omega),
          if_pos (by omega)]
        rw [if_pos (by omega)]
        simp only [List.length_cons, List.length_nil, Prod.mk.injEq, and_true]
        congr 1
        omega

theorem EncodeRune_ne_nil (x : Int) : EncodeRune x ≠ [] := by
  unfold EncodeRune
  simp only
  (repeat' split) <;> simp

theorem nextc_eq (q : parser) (a b : List Nat) (c : Int) (w : Nat) (he : q.re.expr = a ++ b)
    (hp : q.pos = a.length) (hb : b ≠ []) (hd : DecodeRune b = (c, w)) :
    q.nextc = ⟨q.re, q.nlpar, a.length + w, c⟩ := by
  have hlen : ¬ q.pos ≥ q.re.expr.length := by
    rw [he, hp, List.length_append]
    have : 0 < b.length := List.length_pos.mpr hb
    omega
  unfold parser.nextc
  rw [if_neg hlen]
  simp only [DecodeRuneInString, he, hp, List.drop_left, hd]

theorem nextc_eq_end (q : parser) (hp : q.re.expr.length ≤ q.pos) :
    q.nextc = ⟨q.re, q.nlpar, q.pos, endOfFile⟩ := by
  unfold parser.nextc
  rw [if_pos hp]

theorem checkBackslash_plain (p : parser) (h : p.c ≠ 92) : p.checkBackslash = .ok (p, p.c) := by
  unfold parser.checkBackslash
  simp only
  rw [if_neg h]

theorem rangePattern_eq (x y : Int) :
    rangePattern x y = [91] ++ (EncodeRune x ++ ([45] ++ (EncodeRune y ++ [93]))) := by
  have h1 : bytesOf "[" = [91] := by decide
  have h2 : bytesOf "-" = [45] := by decide
  have h3 : bytesOf "]" = [93] := by decide
  unfold rangePattern
  rw [h1, h2, h3]
  simp

/-- The call of parser.term at the start of the pattern `[x-y]`. -/
theorem term_range (x y : Int) (hx : classLiteral x) (hx2 : x ≠ 94) (hy : classLiteral y) :
    parser.term 4 (startParser (rangePattern x y)) =
      if x ≤ y then
        .ok (⟨(((⟨rangePattern x y, [], [], none, none, 0⟩ : Regexp).add { kind := .iStart }).1.add
            (classInstr (newCharClass.addRange x y))).1, 0, (rangePattern x y).length, endOfFile⟩,
          some 1, some 1)
      else .error (.error .ErrBadRange) := by
  obtain ⟨x0, x1, x2, x3, x4, x5⟩ := hx
  obtain ⟨y0, y1, y2, y3, y4, y5⟩ := hy
  have hpat := rangePattern_eq x y
  generalize hR0 : ((⟨rangePattern x y, [], [], none, none, 0⟩ : Regexp).add { kind := .iStart }).1 = R0
  have hR0e : R0.expr = rangePattern x y := by rw [← hR0]; rfl
  have hR0i : R0.inst.length = 1 := by rw [← hR0]; rfl
  have hsp : startParser (rangePattern x y) = ⟨R0, 0, 1, 91⟩ := by
    rw [← hR0]
    unfold startParser newParser
    rw [nextc_eq ⟨{ expr := rangePattern x y }, 0, 0, 0⟩ [] (rangePattern x y) 91 1 rfl rfl
      (by rw [hpat]; simp) (by rw [hpat]; simp [DecodeRune])]
    rfl
  have hq1 : (⟨R0, 0, 1, 91⟩ : parser).nextc = ⟨R0, 0, 1 + (EncodeRune x).length, x⟩ :=
    nextc_eq _ [91] _ x _ (by rw [hR0e, hpat]) rfl (by simp [EncodeRune_ne_nil])
      (DecodeRune_EncodeRune x x0 x1 x2 _)
  have hq2 : (⟨R0, 0, 1 + (EncodeRune x).length, x⟩ : parser).nextc =
      ⟨R0, 0, 1 + (EncodeRune x).length + 1, 45⟩ := by
    have := nextc_eq ⟨R0, 0, 1 + (EncodeRune x).length, x⟩ ([91] ++ EncodeRune x)
      ([45] ++ (EncodeRune y ++ [93])) 45 1 (by rw [hR0e, hpat]; simp)
      (by simp only [List.length_append, List.length_singleton]) (by simp)
      (by simp [DecodeRune])
    rw [this]
    simp only [List.length_append, List.length_singleton]
  have hq3 : (⟨R0, 0, 1 + (EncodeRune x).length + 1, 45⟩ : parser).nextc =
      ⟨R0, 0, 1 + (EncodeRune x).length + 1 + (EncodeRune y).length, y⟩ := by
    have := nextc_eq ⟨R0, 0, 1 + (EncodeRune x).length + 1, 45⟩ ([91] ++ EncodeRune x ++ [45])
      (EncodeRune y ++ [93]) y _ (by rw [hR0e, hpat]; simp)
      (by simp only [List.length_append, List.length_singleton]) (by simp [EncodeRune_ne_nil])
      (DecodeRune_EncodeRune y y0 y1 y2 _)
    rw [this]
    simp only [List.length_append, List.length_singleton]
  have hlen : (rangePattern x y).length =
      1 + (EncodeRune x).length + 1 + (EncodeRune y).length + 1 := by
    rw [hpat]
    simp only [List.length_append, List.length_singleton]
    omega
  have hq4 : (⟨R0, 0, 1 + (EncodeRune x).length + 1 + (EncodeRune y).length, y⟩ : parser).nextc =
      ⟨R0, 0, (rangePattern x y).length, 93⟩ := by
    have := nextc_eq ⟨R0, 0, 1 + (EncodeRune x).length + 1 + (EncodeRune y).length, y⟩
      ([91] ++ EncodeRune x ++ [45] ++ EncodeRune y) [93] 93 1 (by rw [hR0e, hpat]; simp)
      (by simp only [List.length_append, List.length_singleton]) (by simp) (by simp [DecodeRune])
    rw [this, hlen]
    simp only [List.length_append, List.length_singleton]
  rw [hsp, term_eq_cls 3 ⟨R0, 0, 1, 91⟩ rfl, hq1]
  unfold parser.charClass
  simp only [parser.c]
  rw [if_neg hx2]
  rw [charClassLoop_more 2 ⟨R0, 0, 1 + (EncodeRune x).length, x⟩ newCharClass (-1)
    (by simp [parser.c, x3, endOfFile]; omega) x4
    (checkBackslash_plain ⟨R0, 0, 1 + (EncodeRune x).length, x⟩ x5), if_pos (by decide), hq2]
  simp only [parser.c, if_true, hq3]
  rw [charClassLoop_more 1 ⟨R0, 0, 1 + (EncodeRune x).length + 1 + (EncodeRune y).length, y⟩
    newCharClass x (by simp [parser.c, y3, endOfFile]; omega) y4
    (checkBackslash_plain ⟨R0, 0, 1 + (EncodeRune x).length + 1 + (EncodeRune y).length, y⟩ y5),
    if_neg (by omega), hq4]
  simp only [parser.c]
  by_cases hxy : x ≤ y
  · rw [if_pos hxy, if_pos hxy, charClassLoop_done 0 ⟨R0, 0, (rangePattern x y).length, 93⟩ _ _
      (Or.inl rfl) (by decide)]
    simp only [parser.addI, parser.c, ne_eq, not_true_eq_false, if_false, hR0i]
    rw [nextc_eq_end _ (by simp [hR0e])]
  · rw [if_neg hxy, if_neg hxy]

theorem finish_range (pat : List Nat) (J : instr) (n : Nat)
    (hJ : J.kind = .iChar ∨ J.kind = .iCharClass) :
    ∃ re, finishParse (some 0)
        ⟨(((⟨pat, [], [], none, none, 0⟩ : Regexp).add { kind := .iStart }).1.add J).1, 0, n,
          endOfFile⟩ (some 1) (some 1) = .ok re ∧
      re.inst = [{ kind := .iStart, index := 0, next := some 1 },
        { J with index := 1, next := some 2 }, { kind := .iEnd, index := 2 }] := by
  rcases hJ with hJ | hJ
  · simp [finishParse, Regexp.add, Regexp.setNext, Regexp.eliminateNops, eliminateNopsFrom,
      eliminateNopsAt, unNop, hJ, Regexp.setPrefix, skipBOT, prefixLoop]
  · simp [finishParse, Regexp.add, Regexp.setNext, Regexp.eliminateNops, eliminateNopsFrom,
      eliminateNopsAt, unNop, hJ, Regexp.setPrefix, skipBOT, prefixLoop]

theorem regexp_range (x y : Int) (hx : classLiteral x) (hx2 : x ≠ 94) (hy : classLiteral y) :
    parser.regexp 8 (startParser (rangePattern x y)) =
      if x ≤ y then
        .ok (⟨(((⟨rangePattern x y, [], [], none, none, 0⟩ : Regexp).add { kind := .iStart }).1.add
            (classInstr (newCharClass.addRange x y))).1, 0, (rangePattern x y).length, endOfFile⟩,
          some 1, some 1)
      else .error (.error .ErrBadRange) := by
  have ht := term_range x y hx hx2 hy
  by_cases hxy : x ≤ y
  · rw [if_pos hxy] at ht ⊢
    have hclo := closure_plain 4 _ ht (by simp [parser.c, endOfFile]) (by simp [parser.c, endOfFile])
      (by simp [parser.c, endOfFile])
    have hnil := closure_nil 3 _ (term_nil 2 ⟨(((⟨rangePattern x y, [], [], none, none, 0⟩ :
      Regexp).add { kind := .iStart }).1.add (classInstr (newCharClass.addRange x y))).1, 0,
      (rangePattern x y).length, endOfFile⟩ (Or.inr (Or.inl rfl)))
    have hloop := concatLoop_last 4 _ 1 1 hnil
    have hcat := hloop
    rw [← concatLoop_first 5 _ hclo, ← concatenation_eq] at hcat
    rw [regexp_eq 7 _ hcat]
    exact regexpLoop_done 6 _ _ _ (by simp [parser.c, endOfFile])
  · rw [if_neg hxy] at ht ⊢
    apply regexp_err
    rw [concatenation_eq]
    exact concatLoop_err 5 _ _ _ (closure_err 4 _ ht)

theorem classInstr_range (x y : Int) (h0 : 0 ≤ x) (h1 : y < 1114112) (hxy : x ≤ y) :
    ((classInstr (newCharClass.addRange x y)).kind = .iChar ∨
      (classInstr (newCharClass.addRange x y)).kind = .iCharClass) ∧
    ∀ r, (classInstr (newCharClass.addRange x y)).eats r = true ↔ x ≤ r ∧ r ≤ y := by
  have e : newCharClass.addRange x y = ⟨false, [x, y], x, y⟩ := by
    unfold charClass.addRange newCharClass
    simp only [List.nil_append]
    rw [if_pos (by omega), if_pos (by omega)]
  rw [e]
  by_cases hq : x = y
  · subst hq
    have : classInstr ⟨false, [x, x], x, x⟩ = { kind := .iChar, char := x } := by
      simp [classInstr]
    rw [this]
    refine ⟨Or.inl rfl, fun r => ?_⟩
    simp only [instr.eats, decide_eq_true_eq]
    omega
  · have : classInstr ⟨false, [x, y], x, y⟩ =
        { kind := .iCharClass, cclass := some ⟨false, [x, y], x, y⟩ } := by
      simp [classInstr, hq]
    rw [this]
    refine ⟨Or.inr rfl, fun r => ?_⟩
    simp only [instr.eats, charClass.matches, rangesMatch]
    by_cases hr : x ≤ r ∧ r ≤ y
    · simp [hr]
    · simp [hr]

/-- What Compile returns for the pattern `[x-y]`. -/
theorem Compile_range (x y : Int) (hx : classLiteral x) (hx2 : x ≠ 94) (hy : classLiteral y) :
    (x ≤ y → ∃ re, Compile (rangePattern x y) = .ok re ∧
      re.inst = [{ kind := .iStart, index := 0, next := some 1 },
        { classInstr (newCharClass.addRange x y) with index := 1, next := some 2 },
        { kind := .iEnd, index := 2 }]) ∧
    (y < x → Compile (rangePattern x y) = .error (.error .ErrBadRange)) := by
  have h8 := regexp_range x y hx hx2 hy
  constructor
  · intro hxy
    rw [if_pos hxy] at h8
    have hF := regexp_at_parseFuel ⟨8, fun M hM => regexp_mono h8 (by simp) hM⟩ (by simp)
    obtain ⟨re, h1, h2⟩ := finish_range (rangePattern x y)
      (classInstr (newCharClass.addRange x y)) (rangePattern x y).length
      (classInstr_range x y hx.1 hy.2.1 hxy).1
    refine ⟨re, ?_, h2⟩
    unfold Compile
    rw [doParse_eq, hF]
    exact h1
  · intro hxy
    rw [if_neg (by omega)] at h8
    exact Compile_of_regexp_error
      (regexp_at_parseFuel ⟨8, fun M hM => regexp_mono h8 (by simp) hM⟩ (by simp))

end GoRegexp

namespace GoRegexp

/-! ## addState -/

theorem vstart_set {m : List Int} {n : Nat} (v : Int) (h : 2 ≤ n) :
    vstart (m.set n v) = vstart m := by
  unfold vstart
  cases m with
  | nil => rfl
  | cons a t =>
    cases n with
    | zero => omega
    | succ n => rfl

theorem Good_get {G : List instr} {j : Nat} (h : Good G j) :
    ∃ x, G[j]? = some x ∧ x.kind ≠ .iStart ∧ x.kind ≠ .iNop := by
  obtain ⟨⟨k, hk, hne⟩, hnop⟩ := h
  unfold kindAt at hk hnop
  cases hx : G[j]? with
  | none => rw [hx] at hk; cases hk
  | some x =>
    rw [hx] at hk hnop
    simp only [Option.map_some', Option.some.injEq] at hk hnop
    exact ⟨x, rfl, by rw [hk]; exact hne, fun h => hnop (by rw [h])⟩

theorem ProgOK_good_next {G : List instr} {nb : Nat} {rk : Nat → Nat} (h : ProgOK G nb rk)
    {i : Nat} {x : instr} (hx : G[i]? = some x) (hk : x.kind ≠ .iEnd) :
    ∃ j, x.next = some j ∧ Good G j ∧ (x.kind ≠ .iAlt → rk j < rk i) := by
  obtain ⟨j, hj, ht⟩ := (h.nodes i x hx).next hk
  exact ⟨j, hj, ⟨ht, (h.noNop i x hx hk).1 j hj⟩, fun ha => (h.nodes i x hx).rank ha j hj⟩

theorem ProgOK_good_left {G : List instr} {nb : Nat} {rk : Nat → Nat} (h : ProgOK G nb rk)
    {i : Nat} {x : instr} (hx : G[i]? = some x) (hk : x.kind = .iAlt) :
    ∃ j, x.left = some j ∧ Good G j := by
  obtain ⟨j, hj, ht⟩ := (h.nodes i x hx).left hk
  exact ⟨j, hj, ht, (h.noNop i x hx (by rw [hk]; simp)).2 hk j hj⟩

theorem Handled_mono {G : List instr} {pos end' : Nat} {s s2 : List state} {bd bd2 : Int}
    {k : Nat} (h : Handled G pos end' s bd k) (hs : ∀ th ∈ s, th ∈ s2) (hb : bd ≤ bd2) :
    Handled G pos end' s2 bd2 k := by
  induction h with
  | listed hl hth =>
    obtain ⟨th, h1, h2, h3⟩ := hth
    exact .listed hl ⟨th, hs th h1, h2, le_trans h3 hb⟩
  | botSkip hx hk hp => exact .botSkip hx hk hp
  | bot hx hk hn _ ih => exact .bot hx hk hn ih
  | eotSkip hx hk hp => exact .eotSkip hx hk hp
  | eot hx hk hn _ ih => exact .eot hx hk hn ih
  | bra hx hk hn _ ih => exact .bra hx hk hn ih

theorem AltDone_mono {G : List instr} {pos end' : Nat} {s s2 : List state} {th : state}
    (h : AltDone G pos end' s th) (hs : ∀ th ∈ s, th ∈ s2) : AltDone G pos end' s2 th := by
  intro x hx hk
  exact ⟨fun j hj => Handled_mono ((h x hx hk).1 j hj) hs le_rfl,
    fun j hj => Handled_mono ((h x hx hk).2 j hj) hs le_rfl⟩

/-- A list of threads that is as it should be is no longer than the program. -/
theorem ListOK_length_le {G : List instr} {L : Nat} {s : List state} (h : ListOK G L s) :
    s.length ≤ G.length := by
  have h1 : (s.map (fun th => th.inst)) ⊆ List.range G.length := by
    intro k hk
    obtain ⟨th, hth, rfl⟩ := List.mem_map.1 hk
    obtain ⟨x, hx, _⟩ := h.listed th hth
    have := (List.getElem?_eq_some_iff.1 hx).1
    exact List.mem_range.2 this
  have h2 := (List.subperm_of_subset h.nodup h1).length_le
  simpa using h2

theorem any_inst_false {s : List state} {k : Nat}
    (h : ¬ (s.any (fun st => decide (st.inst = k)) = true)) :
    k ∉ s.map (fun th => th.inst) := by
  intro hk
  obtain ⟨th, hth, he⟩ := List.mem_map.1 hk
  exact h (List.any_eq_true.2 ⟨th, hth, by simpa using he⟩)

theorem any_inst_true {s : List state} {k : Nat}
    (h : s.any (fun st => decide (st.inst = k)) = true) : ∃ th ∈ s, th.inst = k := by
  obtain ⟨th, hth, he⟩ := List.any_eq_true.1 h
  exact ⟨th, hth, by simpa using he⟩

theorem ListOK_snoc {G : List instr} {L : Nat} {s : List state} {k : Nat} {m : List Int}
    (h : ListOK G L s) (hk : Listed G k) (hm : m.length = L)
    (hnew : k ∉ s.map (fun th => th.inst)) :
    ListOK G L (s ++ [{ inst := k, prefixed := false, m := m }]) := by
  refine ⟨?_, ?_, ?_, ?_⟩
  · rw [List.map_append, List.nodup_append]
    refine ⟨h.nodup, by simp, ?_⟩
    intro a ha hb
    simp only [List.map_cons, List.map_nil, List.mem_singleton] at hb
    subst hb
    exact hnew ha
  · intro th hth
    rcases List.mem_append.1 hth with h1 | h1
    · exact h.listed th h1
    · simp only [List.mem_singleton] at h1; subst h1; exact hk
  · intro th hth
    rcases List.mem_append.1 hth with h1 | h1
    · exact h.len th h1
    · simp only [List.mem_singleton] at h1; subst h1; exact hm
  · intro th hth
    rcases List.mem_append.1 hth with h1 | h1
    · exact h.plain th h1
    · simp only [List.mem_singleton] at h1; subst h1; rfl

theorem fuel_step {N l r f a : Nat} (hl : l < N) (hr : r < N)
    (hf : a + 1 + (N - l) * N ≤ f + 1) : r + 1 + (N - (l + 1)) * N ≤ f := by
  have h1 : (N - l) * N = (N - (l + 1)) * N + N := by
    have : N - l = (N - (l + 1)) + 1 := by omega
    rw [this, Nat.add_mul, Nat.one_mul]
  rw [h1] at hf
  omega

theorem fuel_mono {N l l2 r f : Nat} (hl : l ≤ l2)
    (hf : r + 1 + (N - l) * N ≤ f) : r + 1 + (N - l2) * N ≤ f := by
  have : (N - l2) * N ≤ (N - l) * N := Nat.mul_le_mul_right _ (by omega)
  omega

/-- A call of addState on a well-formed program returns, given fuel for the rank of the
instruction and for the instructions not yet on the list, and what it adds is described
by AddPost. -/
theorem addState_spec {G : List instr} {nb : Nat} {rk : Nat → Nat} (hG : ProgOK G nb rk)
    (b : List Nat) (pos : Nat) :
    ∀ (fuel : Nat) (s : List state) (i : Nat) (m : List Int), Good G i →
      m.length = 2 * (nb + 1) → ListOK G (2 * (nb + 1)) s →
      (∀ th ∈ s, vstart th.m ≤ vstart m) →
      rk i + 1 + (G.length - s.length) * G.length ≤ fuel →
      ∃ t, addState G fuel s (some i) false m pos b.length = some (s ++ t) ∧
        AddPost G b pos s i m t := by
  intro fuel
  induction fuel with
  | zero => intro s i m _ _ _ _ hf; omega
  | succ fuel ih =>
    intro s i m hi hm hs hle hf
    obtain ⟨x, hx, hns, hnn⟩ := Good_get hi
    have hrk := (hG.nodes i x hx).rankLt
    unfold addState
    simp only [hx]
    by_cases hbot : x.kind = .iBOT
    · rw [if_pos hbot]
      obtain ⟨j, hj, hgj, hrj⟩ := ProgOK_good_next hG hx (by rw [hbot]; simp)
      have hrj := hrj (by rw [hbot]; simp)
      by_cases hp : pos = 0
      · rw [if_pos hp, hj]
        obtain ⟨t, ht, hpost⟩ := ih s j m hgj hm hs hle (by omega)
        refine ⟨t, ht, ?_, hpost.ok, .bot hx hbot hj hpost.handled, hpost.closed⟩
        intro th hth
        obtain ⟨h1, tr, h2⟩ := hpost.run th hth
        exact ⟨h1, _, .cons (.bot hx hbot hp hj) h2⟩
      · rw [if_neg hp]
        refine ⟨[], by simp, ?_, by simpa [hm] using hs, .botSkip hx hbot hp, ?_⟩
        · intro th hth; cases hth
        · intro th hth; cases hth
    · rw [if_neg hbot]
      by_cases heot : x.kind = .iEOT
      · rw [if_pos heot]
        obtain ⟨j, hj, hgj, hrj⟩ := ProgOK_good_next hG hx (by rw [heot]; simp)
        have hrj := hrj (by rw [heot]; simp)
        by_cases hp : pos = b.length
        · rw [if_pos hp, hj]
          obtain ⟨t, ht, hpost⟩ := ih s j m hgj hm hs hle (by omega)
          refine ⟨t, ht, ?_, hpost.ok, .eot hx heot hj hpost.handled, hpost.closed⟩
          intro th hth
          obtain ⟨h1, tr, h2⟩ := hpost.run th hth
          exact ⟨h1, _, .cons (.eot hx heot hp hj) h2⟩
        · rw [if_neg hp]
          refine ⟨[], by simp, ?_, by simpa [hm] using hs, .eotSkip hx heot hp, ?_⟩
          · intro th hth; cases hth
          · intro th hth; cases hth
      · rw [if_neg heot]
        by_cases hbra : x.kind = .iBra
        · rw [if_pos hbra]
          obtain ⟨j, hj, hgj, hrj⟩ := ProgOK_good_next hG hx (by rw [hbra]; simp)
          have hrj := hrj (by rw [hbra]; simp)
          obtain ⟨hb2, hbn⟩ := (hG.nodes i x hx).bra hbra
          have hv : vecSet m x.braNum (pos : Int) = some (m.set x.braNum (pos : Int)) := by
            unfold vecSet
            rw [if_pos (by omega)]
          rw [hv, hj]
          simp only
          have hvs := vstart_set (m := m) (pos : Int) hb2
          obtain ⟨t, ht, hpost⟩ := ih s j (m.set x.braNum (pos : Int)) hgj
            (by rw [List.length_set]; exact hm) hs (by rw [hvs]; exact hle) (by omega)
          refine ⟨t, ht, ?_, ?_, ?_, hpost.closed⟩
          · intro th hth
            obtain ⟨h1, tr, h2⟩ := hpost.run th hth
            exact ⟨h1.trans hvs, _, .cons (.bra hx hbra hj) h2⟩
          · have := hpost.ok
            rwa [List.length_set] at this
          · have := hpost.handled
            rw [hvs] at this
            exact .bra hx hbra hj this
        · rw [if_neg hbra]
          have hlist : Listed G i := ⟨x, hx, hbot, heot, hbra, hns, hnn⟩
          by_cases hany : s.any (fun st => decide (st.inst = i)) = true
          · rw [if_pos hany]
            obtain ⟨th, hth, he⟩ := any_inst_true hany
            refine ⟨[], by simp, ?_, by simpa [hm] using hs, ?_, ?_⟩
            · intro th hth; cases hth
            · exact .listed hlist ⟨th, by simpa using hth, he, hle th hth⟩
            · intro th hth; cases hth
          · rw [if_neg hany]
            have hnew := any_inst_false hany
            have hs1 := ListOK_snoc hs hlist hm hnew
            have hlen1 := ListOK_length_le hs1
            simp only [List.length_append, List.length_singleton] at hlen1
            have hle1 : ∀ th ∈ s ++ [({ inst := i, prefixed := false, m := m } : state)],
                vstart th.m ≤ vstart m := by
              intro th hth
              rcases List.mem_append.1 hth with h1 | h1
              · exact hle th h1
              · simp only [List.mem_singleton] at h1; subst h1; exact le_rfl
            by_cases halt : x.kind = .iAlt
            · rw [if_pos halt]
              obtain ⟨l, hl, hgl⟩ := ProgOK_good_left hG hx halt
              obtain ⟨n, hn, hgn, -⟩ := ProgOK_good_next hG hx (by rw [halt]; simp)
              obtain ⟨xl, hxl, -, -⟩ := Good_get hgl
              obtain ⟨xn, hxn, -, -⟩ := Good_get hgn
              have hrl := (hG.nodes l xl hxl).rankLt
              have hrn := (hG.nodes n xn hxn).rankLt
              have hf1 : rk l + 1 + (G.length -
                  (s ++ [({ inst := i, prefixed := false, m := m } : state)]).length) *
                  G.length ≤ fuel := by
                simp only [List.length_append, List.length_singleton]
                exact fuel_step (by omega) hrl hf
              rw [hl]
              obtain ⟨t1, ht1, hp1⟩ := ih _ l m hgl hm hs1 hle1 hf1
              rw [ht1]
              simp only
              have hle2 : ∀ th ∈ (s ++ [({ inst := i, prefixed := false, m := m } : state)])
                  ++ t1, vstart th.m ≤ vstart m := by
                intro th hth
                rcases List.mem_append.1 hth with h1 | h1
                · exact hle1 th h1
                · exact le_of_eq (hp1.run th h1).1
              have hf2 : rk n + 1 + (G.length -
                  ((s ++ [({ inst := i, prefixed := false, m := m } : state)]) ++ t1).length) *
                  G.length ≤ fuel := by
                refine fuel_mono ?_ (fuel_step (l := s.length) (by omega) hrn hf)
                simp only [List.length_append, List.length_singleton]
                omega
              rw [hn]
              have hok1 := hp1.ok
              rw [hm] at hok1
              obtain ⟨t2, ht2, hp2⟩ := ih _ n m hgn hm hok1 hle2 hf2
              rw [ht2]
              refine ⟨[({ inst := i, prefixed := false, m := m } : state)] ++ t1 ++ t2,
                by simp only [List.append_assoc], ?_, ?_, ?_, ?_⟩
              · intro th hth
                rcases List.mem_append.1 hth with h1 | h1
                · rcases List.mem_append.1 h1 with h0 | h0
                  · simp only [List.mem_singleton] at h0; subst h0
                    exact ⟨rfl, [], .nil⟩
                  · obtain ⟨e1, tr, e2⟩ := hp1.run th h0
                    exact ⟨e1, _, .cons (.altLeft hx halt hl) e2⟩
                · obtain ⟨e1, tr, e2⟩ := hp2.run th h1
                  exact ⟨e1, _, .cons (.altNext hx halt hn) e2⟩
              · have := hp2.ok
                simpa only [List.append_assoc] using this
              · refine .listed hlist ⟨({ inst := i, prefixed := false, m := m } : state), ?_, rfl, le_rfl⟩
                simp
              · intro th hth
                have e2 : s ++ ([({ inst := i, prefixed := false, m := m } : state)] ++ t1 ++ t2)
                    = (s ++ [({ inst := i, prefixed := false, m := m } : state)]) ++ t1 ++ t2 := by
                  simp only [List.append_assoc]
                rw [e2]
                rcases List.mem_append.1 hth with h1 | h1
                · rcases List.mem_append.1 h1 with h0 | h0
                  · simp only [List.mem_singleton] at h0; subst h0
                    intro y hy _
                    simp only at hy
                    rw [hx] at hy
                    cases hy
                    refine ⟨?_, ?_⟩
                    · intro j hj
                      rw [hl] at hj; cases hj
                      exact Handled_mono hp1.handled (fun th h => List.mem_append_left _ h) le_rfl
                    · intro j hj
                      rw [hn] at hj; cases hj
                      exact hp2.handled
                  · exact AltDone_mono (hp1.closed th h0) (fun th h => List.mem_append_left _ h)
                · exact hp2.closed th h1
            · rw [if_neg halt]
              refine ⟨[({ inst := i, prefixed := false, m := m } : state)], rfl, ?_, ?_, ?_, ?_⟩
              · intro th hth
                simp only [List.mem_singleton] at hth; subst hth
                exact ⟨rfl, [], .nil⟩
              · rw [hm]; exact hs1
              · refine .listed hlist ⟨({ inst := i, prefixed := false, m := m } : state), ?_, rfl, le_rfl⟩
                simp
              · intro th hth
                simp only [List.mem_singleton] at hth; subst hth
                intro y hy hk
                simp only at hy
                rw [hx] at hy
                cases hy
                exact absurd hk halt

end GoRegexp

namespace GoRegexp

/-! ## Runs -/

theorem Run_append {G : List instr} {b : List Nat} {i pos j pos1 k pos2 : Nat}
    {m m1 m2 : List Int} {tr tr2 : List Nat}
    (h1 : Run G b i pos m tr j pos1 m1) (h2 : Run G b j pos1 m1 tr2 k pos2 m2) :
    Run G b i pos m (tr ++ tr2) k pos2 m2 := by
  induction h1 with
  | nil => exact h2
  | cons hs _ ih => exact .cons hs (ih h2)

theorem Step_pos_le {G : List instr} {b : List Nat} {i pos j pos1 : Nat} {m m1 : List Int}
    (h : Step G b i pos m j pos1 m1) : pos ≤ pos1 := by
  cases h <;> omega

theorem Run_pos_le {G : List instr} {b : List Nat} {i pos j pos1 : Nat} {m m1 : List Int}
    {tr : List Nat} (h : Run G b i pos m tr j pos1 m1) : pos ≤ pos1 := by
  induction h with
  | nil => exact le_rfl
  | cons hs _ ih => exact le_trans (Step_pos_le hs) ih

theorem Step_length {G : List instr} {b : List Nat} {i pos j pos1 : Nat} {m m1 : List Int}
    (h : Step G b i pos m j pos1 m1) : m1.length = m.length := by
  cases h <;> simp

theorem Run_length {G : List instr} {b : List Nat} {i pos j pos1 : Nat} {m m1 : List Int}
    {tr : List Nat} (h : Run G b i pos m tr j pos1 m1) : m1.length = m.length := by
  induction h with
  | nil => rfl
  | cons hs _ ih => exact ih.trans (Step_length hs)

/-- A move changes the entry n of the vector only when it leaves the group marker with
the number n. -/
theorem Step_entry {G : List instr} {b : List Nat} {i pos j pos1 : Nat} {m m1 : List Int}
    (h : Step G b i pos m j pos1 m1) (n : Nat)
    (hn : ∀ x, G[i]? = some x → x.kind = .iBra → x.braNum ≠ n) : m1[n]? = m[n]? := by
  cases h with
  | bra hx hk hj =>
    have := hn _ hx hk
    rw [List.getElem?_set_ne this]
  | _ => rfl

/-- A run changes the entry n of the vector only when it goes through a group marker with
the number n. -/
theorem Run_entry {G : List instr} {b : List Nat} {i pos j pos1 : Nat} {m m1 : List Int}
    {tr : List Nat} (h : Run G b i pos m tr j pos1 m1) (n : Nat)
    (hn : ∀ k ∈ tr, ∀ x, G[k]? = some x → x.kind = .iBra → x.braNum ≠ n) :
    m1[n]? = m[n]? := by
  induction h with
  | nil => rfl
  | cons hs _ ih =>
    rw [ih (fun k hk => hn k (List.mem_cons_of_mem _ hk))]
    exact Step_entry hs n (hn _ (List.mem_cons_self _ _))

theorem Run_vstart {G : List instr} {nb : Nat} {rk : Nat → Nat} (hG : ProgOK G nb rk)
    {b : List Nat} {i pos j pos1 : Nat} {m m1 : List Int}
    {tr : List Nat} (h : Run G b i pos m tr j pos1 m1) : vstart m1 = vstart m := by
  have h0 := Run_entry h 0 (by
    intro k _ x hx hk
    have := ((hG.nodes k x hx).bra hk).1
    omega)
  unfold vstart
  rw [List.getD_eq_getElem?_getD, List.getD_eq_getElem?_getD, h0]

theorem seedVec_length (re : Regexp) (p : Nat) : (seedVec re p).length = 2 * (re.nbra + 1) := by
  simp [seedVec, noMatch]

theorem vstart_seedVec (re : Regexp) (p : Nat) : vstart (seedVec re p) = (p : Int) := by
  unfold vstart seedVec noMatch
  rw [show 2 * (re.nbra + 1) = (2 * re.nbra + 1) + 1 by omega, List.replicate_succ]
  rfl

theorem RuneStart_le {b : List Nat} {p0 p : Nat} (h : RuneStart b p0 p) : p0 ≤ p := by
  induction h with
  | first => exact le_rfl
  | next _ _ ih => omega

theorem RuneStart_trans {b : List Nat} {p0 p q : Nat} (h1 : RuneStart b p0 p)
    (h2 : RuneStart b p q) : RuneStart b p0 q := by
  induction h2 with
  | first => exact h1
  | next _ hl ih => exact .next ih hl

/-- The offsets a run goes through are offsets where runes start. -/
theorem Run_runeStart {G : List instr} {b : List Nat} {i pos j pos1 : Nat} {m m1 : List Int}
    {tr : List Nat} (h : Run G b i pos m tr j pos1 m1) : RuneStart b pos pos1 := by
  induction h with
  | nil => exact .first
  | cons hs _ ih =>
    refine RuneStart_trans ?_ ih
    cases hs with
    | eat hx hl he hj => exact .next .first hl
    | _ => exact .first

theorem RuneStart_le_length {b : List Nat} {p0 p : Nat} (h : RuneStart b p0 p)
    (h0 : p0 ≤ b.length) : p ≤ b.length := by
  induction h with
  | first => exact h0
  | @next q _ hl ih =>
    have := DecodeRune_width_le (b.drop q)
    simp only [List.length_drop] at this
    omega

end GoRegexp

namespace GoRegexp

/-! ## One step of the simulation -/

theorem addFuel_ge (re : Regexp) (r l : Nat) (hr : r < re.inst.length) :
    r + 1 + (re.inst.length - l) * re.inst.length ≤ addFuel re := by
  unfold addFuel
  have h1 : (re.inst.length - l) * re.inst.length ≤ re.inst.length * re.inst.length :=
    Nat.mul_le_mul_right _ (by omega)
  generalize re.inst.length = N at *
  nlinarith

theorem get0_vstart {m : List Int} (h : 0 < m.length) : m[0]? = some (vstart m) := by
  cases m with
  | nil => simp at h
  | cons a t => simp [vstart]

theorem get1_vend {m : List Int} (h : 1 < m.length) : m[1]? = some (vend m) := by
  cases m with
  | nil => simp at h
  | cons a t =>
    cases t with
    | nil => simp at h
    | cons a2 t2 => simp [vend]

theorem vstart_set1 (m : List Int) (v : Int) : vstart (m.set 1 v) = vstart m := by
  cases m with
  | nil => rfl
  | cons a t => rfl

theorem vend_set1 {m : List Int} (v : Int) (h : 1 < m.length) : vend (m.set 1 v) = v := by
  cases m with
  | nil => simp at h
  | cons a t =>
    cases t with
    | nil => simp at h
    | cons a2 t2 => rfl

/-- The four instructions that consume a rune step alike: the thread goes on when the
instruction takes the rune. -/
theorem stepState_consume {G : List instr} {fuel : Nat} {c : Int} {pos w e : Nat}
    {acc : execState} {st : state} {x : instr} (hx : G[st.inst]? = some x)
    (hk : x.kind = .iChar ∨ x.kind = .iCharClass ∨ x.kind = .iAny ∨ x.kind = .iNotNL)
    (hc : x.kind = .iCharClass → x.cclass ≠ none) :
    stepState G fuel c pos w e acc st =
      if x.eats c = true then
        (addState G fuel acc.out x.next st.prefixed st.m pos e).map
          (fun o => { acc with out := o })
      else some acc := by
  unfold stepState instr.eats
  rw [hx]
  rcases hk with h | h | h | h
  · simp only [h, decide_eq_true_eq]
  · cases hcc : x.cclass with
    | none => exact absurd hcc (hc h)
    | some cc => simp only [h, hcc]
  · simp only [h, decide_eq_true_eq]
  · simp only [h, decide_eq_true_eq]

theorem eats_kind {x : instr} {c : Int} (h : x.eats c = true) :
    x.kind = .iChar ∨ x.kind = .iCharClass ∨ x.kind = .iAny ∨ x.kind = .iNotNL := by
  unfold instr.eats at h
  cases hk : x.kind <;> simp [hk] at h ⊢

theorem Listed_kind {G : List instr} {k : Nat} {x : instr} (h : Listed G k)
    (hx : G[k]? = some x) :
    (x.kind = .iChar ∨ x.kind = .iCharClass ∨ x.kind = .iAny ∨ x.kind = .iNotNL) ∨
      x.kind = .iAlt ∨ x.kind = .iEnd := by
  obtain ⟨y, hy, h1, h2, h3, h4, h5⟩ := h
  rw [hx] at hy
  cases hy
  cases hk : x.kind <;> simp [hk] at h1 h2 h3 h4 h5 ⊢

theorem Dominates_of_noWorse {f0 f : state} {p q : Int} (h : NoWorse f f0)
    (hd : Dominates f0 p q) : Dominates f p q := by
  unfold Dominates NoWorse at *
  omega

theorem NoWorse_refl (f : state) : NoWorse f f := by
  unfold NoWorse
  omega

theorem NoWorse_trans {f g h : state} (h1 : NoWorse f g) (h2 : NoWorse g h) : NoWorse f h := by
  unfold NoWorse at *
  omega

/-- One step of a thread of a well-formed program returns, and StepPost describes it. -/
theorem stepState_spec {re : Regexp} {rk : Nat → Nat} (hG : ProgOK re.inst re.nbra rk)
    (b : List Nat) (c : Int) (pos0 w : Nat) (acc : execState) (st : state)
    (hout : ListOK re.inst (2 * (re.nbra + 1)) acc.out)
    (hst : Listed re.inst st.inst) (hlen : st.m.length = 2 * (re.nbra + 1))
    (hpl : st.prefixed = false)
    (hsort : ∀ th ∈ acc.out, vstart th.m ≤ vstart st.m)
    (hfin : acc.found = true → ∃ f, acc.final = some f ∧ 2 ≤ f.m.length) :
    ∃ acc2 t, stepState re.inst (addFuel re) c (pos0 + w) w b.length acc st = some acc2 ∧
      StepPost re.inst b (2 * (re.nbra + 1)) pos0 (pos0 + w) c acc st acc2 t := by
  obtain ⟨x, hx, hk1, hk2, hk3, hk4, hk5⟩ := id hst
  rcases Listed_kind hst hx with hk | hk | hk
  · -- an instruction that consumes
    rw [stepState_consume hx hk (hG.nodes _ x hx).cls]
    have hne : x.kind ≠ .iEnd := by rcases hk with h | h | h | h <;> rw [h] <;> simp
    have hna : x.kind ≠ .iAlt := by rcases hk with h | h | h | h <;> rw [h] <;> simp
    obtain ⟨j, hj, hgj, -⟩ := ProgOK_good_next hG hx hne
    by_cases he : x.eats c = true
    · rw [if_pos he, hj, hpl]
      obtain ⟨xj, hxj, -, -⟩ := Good_get hgj
      obtain ⟨t, ht, hp⟩ := addState_spec hG b (pos0 + w) (addFuel re) acc.out j st.m hgj hlen
        hout hsort (addFuel_ge re _ _ (hG.nodes j xj hxj).rankLt)
      rw [ht]
      refine ⟨_, t, rfl, rfl, ?_, fun th hth => (hp.run th hth).1, hp.closed, ?_, ?_, ?_, ?_⟩
      · have := hp.ok
        rwa [hlen] at this
      · intro y j2 hy _ hj2
        rw [hx] at hy; cases hy
        rw [hj] at hj2; cases hj2
        exact hp.handled
      · intro th hth
        obtain ⟨-, tr, htr⟩ := hp.run th hth
        exact ⟨x, j, tr, hx, he, hj, htr⟩
      · intro _ _ _
        exact ⟨rfl, rfl⟩
      · intro y hy hye
        rw [hx] at hy; cases hy
        exact absurd hye hne
    · rw [if_neg he]
      refine ⟨acc, [], rfl, by simp, hout, ?_, ?_, ?_, ?_, ?_, ?_⟩
      · intro th hth; cases hth
      · intro th hth; cases hth
      · intro y j2 hy hye _
        rw [hx] at hy; cases hy
        exact absurd hye he
      · intro th hth; cases hth
      · intro _ _ _
        exact ⟨rfl, rfl⟩
      · intro y hy hye
        rw [hx] at hy; cases hy
        exact absurd hye hne
  · -- iAlt
    have hs : stepState re.inst (addFuel re) c (pos0 + w) w b.length acc st = some acc := by
      unfold stepState
      rw [hx]
      simp only [hk]
    have hne : ∀ c, x.eats c = false := by
      intro c
      unfold instr.eats
      simp only [hk]
    refine ⟨acc, [], hs, by simp, hout, ?_, ?_, ?_, ?_, ?_, ?_⟩
    · intro th hth; cases hth
    · intro th hth; cases hth
    · intro y j2 hy hye _
      rw [hx] at hy; cases hy
      rw [hne] at hye; cases hye
    · intro th hth; cases hth
    · intro _ _ _
      exact ⟨rfl, rfl⟩
    · intro y hy hye
      rw [hx] at hy; cases hy
      rw [hk] at hye; cases hye
  · -- iEnd
    have hne : ∀ c, x.eats c = false := by
      intro c
      unfold instr.eats
      simp only [hk]
    have h0 := get0_vstart (m := st.m) (by omega)
    have hv : vecSet st.m 1 (((pos0 + w : Nat) : Int) - (w : Int)) =
        some (st.m.set 1 (pos0 : Int)) := by
      unfold vecSet
      rw [if_pos (by omega)]
      congr 2
      push_cast
      omega
    have hnew : Dominates ({ st with m := st.m.set 1 (pos0 : Int) } : state) (vstart st.m)
        (pos0 : Int) := by
      right
      simp only
      rw [vstart_set1, vend_set1 _ (by omega)]
      exact ⟨rfl, le_rfl⟩
    unfold stepState
    rw [hx]
    simp only [hk]
    by_cases hf : acc.found = true
    · obtain ⟨f0, hf0, hl0⟩ := hfin hf
      have g0 := get0_vstart (m := f0.m) (by omega)
      have g1 := get1_vend (m := f0.m) (by omega)
      have hb : better acc.found acc.final st (pos0 + w) w =
          some (decide (vstart st.m < vstart f0.m) ||
            (decide (vstart st.m = vstart f0.m) && decide ((pos0 : Int) > vend f0.m))) := by
        unfold better
        rw [hf, hf0, h0]
        simp only [Bool.not_true, Bool.false_eq_true, if_false, g0, g1]
        congr 4
        push_cast
        simp
      rw [hb]
      by_cases hbt : (decide (vstart st.m < vstart f0.m) ||
            (decide (vstart st.m = vstart f0.m) && decide ((pos0 : Int) > vend f0.m))) = true
      · rw [hbt]
        simp only
        rw [hv]
        simp only
        refine ⟨_, [], rfl, by simp, hout, ?_, ?_, ?_, ?_, ?_, ?_⟩
        · intro th hth; cases hth
        · intro th hth; cases hth
        · intro y j2 hy hye _
          rw [hx] at hy; cases hy
          rw [hne] at hye; cases hye
        · intro th hth; cases hth
        · intro y hy hye
          rw [hx] at hy; cases hy
          exact absurd hk hye
        · intro y hy _
          refine ⟨rfl, _, rfl, hnew, Or.inl rfl, ?_⟩
          intro f1 _ hf1
          rw [hf0] at hf1; cases hf1
          unfold NoWorse
          simp only
          rw [vstart_set1, vend_set1 _ (by omega)]
          simp only [Bool.or_eq_true, Bool.and_eq_true, decide_eq_true_eq] at hbt
          omega
      · have hbf : (decide (vstart st.m < vstart f0.m) ||
            (decide (vstart st.m = vstart f0.m) && decide ((pos0 : Int) > vend f0.m))) = false := by
          simpa using hbt
        rw [hbf]
        simp only
        refine ⟨_, [], rfl, by simp, hout, ?_, ?_, ?_, ?_, ?_, ?_⟩
        · intro th hth; cases hth
        · intro th hth; cases hth
        · intro y j2 hy hye _
          rw [hx] at hy; cases hy
          rw [hne] at hye; cases hye
        · intro th hth; cases hth
        · intro y hy hye
          rw [hx] at hy; cases hy
          exact absurd hk hye
        · intro y hy _
          refine ⟨rfl, f0, hf0, ?_, Or.inr ⟨hf, hf0⟩, ?_⟩
          · simp only [Bool.or_eq_true, Bool.and_eq_true, decide_eq_true_eq] at hbt
            unfold Dominates
            omega
          · intro f1 _ hf1
            rw [hf0] at hf1; cases hf1
            exact NoWorse_refl _
    · have hb : better acc.found acc.final st (pos0 + w) w = some true := by
        unfold better
        simp only [Bool.not_eq_true] at hf
        rw [hf]
        rfl
      rw [hb]
      simp only
      rw [hv]
      simp only
      refine ⟨_, [], rfl, by simp, hout, ?_, ?_, ?_, ?_, ?_, ?_⟩
      · intro th hth; cases hth
      · intro th hth; cases hth
      · intro y j2 hy hye _
        rw [hx] at hy; cases hy
        rw [hne] at hye; cases hye
      · intro th hth; cases hth
      · intro y hy hye
        rw [hx] at hy; cases hy
        exact absurd hk hye
      · intro y hy _
        refine ⟨rfl, _, rfl, hnew, Or.inl rfl, ?_⟩
        intro f1 hf1 _
        exact absurd hf1 hf

theorem AtEnd_iff {G : List instr} {st : state} {x : instr} (hx : G[st.inst]? = some x) :
    AtEnd G st ↔ x.kind = .iEnd := by
  unfold AtEnd kindAt
  rw [hx]
  simp

/-- The steps of the threads of a list return, and AllPost describes them. -/
theorem stepAll_spec {re : Regexp} {rk : Nat → Nat} (hG : ProgOK re.inst re.nbra rk)
    (b : List Nat) (c : Int) (pos0 w : Nat) :
    ∀ (sin : List state) (acc : execState),
      ListOK re.inst (2 * (re.nbra + 1)) acc.out →
      acc.out.Pairwise (fun s1 s2 => vstart s1.m ≤ vstart s2.m) →
      (∀ st ∈ sin, Listed re.inst st.inst ∧ st.m.length = 2 * (re.nbra + 1) ∧
        st.prefixed = false) →
      sin.Pairwise (fun s1 s2 => vstart s1.m ≤ vstart s2.m) →
      (∀ th ∈ acc.out, ∀ st ∈ sin, vstart th.m ≤ vstart st.m) →
      (acc.found = true → ∃ f, acc.final = some f ∧ 2 ≤ f.m.length) →
      ∃ acc2 t, stepAll re.inst (addFuel re) c (pos0 + w) w b.length sin acc = some acc2 ∧
        AllPost re.inst b (2 * (re.nbra + 1)) pos0 (pos0 + w) c acc sin acc2 t := by
  intro sin
  induction sin with
  | nil =>
    intro acc hout hso _ _ _ hfin
    refine ⟨acc, [], rfl, by simp, hout, hso, ?_, ?_, ?_, hfin, fun h => Or.inl h,
      fun f h => Or.inl h, ?_, ?_⟩
    · intro th hth; cases hth
    · intro th hth; cases hth
    · intro st hst; cases hst
    · intro f0 h1 h2
      exact ⟨f0, h1, h2, NoWorse_refl _⟩
    · intro st hst; cases hst
  | cons st rest ih =>
    intro acc hout hso hsin hpw hsort hfin
    obtain ⟨hst1, hst2, hst3⟩ := hsin st (List.mem_cons_self _ _)
    obtain ⟨x, hx, -⟩ := id hst1
    obtain ⟨acc1, t1, h1, p1⟩ := stepState_spec hG b c pos0 w acc st hout hst1 hst2 hst3
      (fun th hth => hsort th hth st (List.mem_cons_self _ _)) hfin
    have hpw2 := List.pairwise_cons.1 hpw
    have hfin1 : acc1.found = true → ∃ f, acc1.final = some f ∧ 2 ≤ f.m.length := by
      intro hf
      by_cases hk : x.kind = .iEnd
      · obtain ⟨-, f, hf1, -, hsrc, -⟩ := p1.fend x hx hk
        refine ⟨f, hf1, ?_⟩
        rcases hsrc with rfl | ⟨ha, hb⟩
        · simp only [List.length_set]; omega
        · obtain ⟨f2, hf2, hl2⟩ := hfin ha
          rw [hb] at hf2; cases hf2
          exact hl2
      · obtain ⟨e1, e2⟩ := p1.keep x hx hk
        rw [e1]
        exact hfin (by rw [← e2]; exact hf)
    have hso1 : acc1.out.Pairwise (fun s1 s2 => vstart s1.m ≤ vstart s2.m) := by
      rw [p1.out, List.pairwise_append]
      refine ⟨hso, ?_, ?_⟩
      · rw [List.pairwise_iff_forall_sublist]
        intro a c hac
        have ha := hac.subset (List.mem_cons_self _ _)
        have hc := hac.subset (List.mem_cons_of_mem _ (List.mem_singleton_self _))
        rw [p1.start a ha, p1.start c hc]
      · intro a ha c hc
        rw [p1.start c hc]
        exact hsort a ha st (List.mem_cons_self _ _)
    obtain ⟨acc2, t2, h2, p2⟩ := ih acc1 p1.ok hso1
      (fun s hs => hsin s (List.mem_cons_of_mem _ hs)) hpw2.2
      (by
        intro th hth s hs
        rw [p1.out] at hth
        rcases List.mem_append.1 hth with h | h
        · exact hsort th h s (List.mem_cons_of_mem _ hs)
        · rw [p1.start th h]; exact hpw2.1 s hs)
      hfin1
    have hsub : ∀ th ∈ acc1.out, th ∈ acc2.out := by
      intro th hth
      rw [p2.out]
      exact List.mem_append_left _ hth
    refine ⟨acc2, t1 ++ t2, ?_, ?_, p2.ok, p2.sorted, ?_, ?_, ?_, p2.hasFinal, ?_, ?_, ?_, ?_⟩
    · unfold stepAll
      rw [h1]
      exact h2
    · rw [p2.out, p1.out, List.append_assoc]
    · intro th hth
      rcases List.mem_append.1 hth with h | h
      · obtain ⟨y, j, tr, e1, e2, e3, e4⟩ := p1.run th h
        exact ⟨st, List.mem_cons_self _ _, p1.start th h, y, j, tr, e1, e2, e3, e4⟩
      · obtain ⟨s, hs, e⟩ := p2.run th h
        exact ⟨s, List.mem_cons_of_mem _ hs, e⟩
    · intro th hth
      rcases List.mem_append.1 hth with h | h
      · exact AltDone_mono (p1.closed th h) hsub
      · exact p2.closed th h
    · intro s hs y j hy he hj
      rcases List.mem_cons.1 hs with h | h
      · subst h
        exact Handled_mono (p1.eats y j hy he hj) hsub le_rfl
      · exact p2.eats s h y j hy he hj
    · intro hf
      rcases p2.foundSrc hf with h | ⟨s, hs, he⟩
      · by_cases hk : x.kind = .iEnd
        · exact Or.inr ⟨st, List.mem_cons_self _ _, (AtEnd_iff hx).2 hk⟩
        · left
          rw [← (p1.keep x hx hk).2]; exact h
      · exact Or.inr ⟨s, List.mem_cons_of_mem _ hs, he⟩
    · intro f hf
      rcases p2.src f hf with h | ⟨s, hs, he⟩
      · by_cases hk : x.kind = .iEnd
        · obtain ⟨-, f1, hf1, -, hsrc, -⟩ := p1.fend x hx hk
          rw [hf1] at h; cases h
          rcases hsrc with h3 | ⟨-, h3⟩
          · exact Or.inr ⟨st, List.mem_cons_self _ _, (AtEnd_iff hx).2 hk, h3⟩
          · exact Or.inl h3
        · left
          rw [← (p1.keep x hx hk).1]; exact h
      · exact Or.inr ⟨s, List.mem_cons_of_mem _ hs, he⟩
    · intro f0 hf0 hfe
      by_cases hk : x.kind = .iEnd
      · obtain ⟨hfd, f1, hf1, -, -, hm⟩ := p1.fend x hx hk
        obtain ⟨f, e1, e2, e3⟩ := p2.mono f1 hfd hf1
        exact ⟨f, e1, e2, NoWorse_trans e3 (hm f0 hf0 hfe)⟩
      · obtain ⟨e1, e2⟩ := p1.keep x hx hk
        exact p2.mono f0 (by rw [e2]; exact hf0) (by rw [e1]; exact hfe)
    · intro s hs he
      rcases List.mem_cons.1 hs with h | h
      · subst h
        obtain ⟨hfd, f1, hf1, hd, -, -⟩ := p1.fend x hx ((AtEnd_iff hx).1 he)
        obtain ⟨f, e1, e2, e3⟩ := p2.mono f1 hfd hf1
        exact ⟨f, e1, e2, Dominates_of_noWorse e3 hd⟩
      · exact p2.dom s h he

end GoRegexp

namespace GoRegexp

/-! ## The offsets of the scan -/

theorem width_pos_at {b : List Nat} {p : Nat} (h : p < b.length) :
    1 ≤ (DecodeRune (b.drop p)).2 := by
  apply DecodeRune_width_pos
  intro he
  have := congrArg List.length he
  simp only [List.length_drop, List.length_nil] at this
  omega

/-- Of two offsets of the scan, the rune at the smaller one ends at or before the
larger one. -/
theorem RuneStart_succ_le {b : List Nat} {p0 : Nat} :
    ∀ (n p q : Nat), p + q < n → RuneStart b p0 p → RuneStart b p0 q → q < p →
      q < b.length ∧ q + (DecodeRune (b.drop q)).2 ≤ p := by
  intro n
  induction n with
  | zero => intro p q h; omega
  | succ n ih =>
    intro p q hn hp hq hlt
    cases hp with
    | first =>
      have := RuneStart_le hq
      omega
    | @next r hr hl =>
      have hw := width_pos_at hl
      rcases Nat.lt_trichotomy q r with h | h | h
      · have := ih r q (by omega) hr hq h
        omega
      · subst h
        exact ⟨hl, le_rfl⟩
      · have := ih q r (by omega) hq hr h
        omega

theorem RuneStart_from {b : List Nat} {p0 p q : Nat} (hp : RuneStart b p0 p)
    (hq : RuneStart b p0 q) (hle : p ≤ q) : RuneStart b p q := by
  induction hq with
  | first =>
    have := RuneStart_le hp
    have : p = p0 := by omega
    subst this
    exact .first
  | @next r hr hl ih =>
    by_cases h : p ≤ r
    · exact .next (ih h) hl
    · have := (RuneStart_succ_le (p + r + 1) p r (by omega) hp hr (by omega)).2
      have : p = r + (DecodeRune (b.drop r)).2 := by omega
      rw [← this]
      exact .first

/-! ## Runs, taken apart -/

theorem Step_pos {G : List instr} {b : List Nat} {i pos j pos1 : Nat} {m m1 : List Int}
    (h : Step G b i pos m j pos1 m1) :
    pos1 = pos ∨ (pos < b.length ∧ pos1 = pos + (DecodeRune (b.drop pos)).2) := by
  cases h with
  | eat hx hl he hj => exact Or.inr ⟨hl, rfl⟩
  | _ => exact Or.inl rfl

/-- A run that ends at a later offset than it begins has a last instruction that
consumes. -/
theorem Run_split_last {G : List instr} {b : List Nat} {i p k q : Nat} {m m2 : List Int}
    {tr : List Nat} (h : Run G b i p m tr k q m2) (hlt : p < q) :
    ∃ k1 p1 m1 j tr1 tr2 x, Run G b i p m tr1 k1 p1 m1 ∧ G[k1]? = some x ∧ p1 < b.length ∧
      x.eats (DecodeRune (b.drop p1)).1 = true ∧ x.next = some j ∧
      q = p1 + (DecodeRune (b.drop p1)).2 ∧ Run G b j q m1 tr2 k q m2 := by
  induction h with
  | nil => omega
  | @cons i p j p1 k q m m1 m2 tr hs hr ih =>
    have hle := Run_pos_le hr
    by_cases h1 : p1 < q
    · obtain ⟨k1, p2, m3, j2, tr1, tr2, x, e1, e2, e3, e4, e5, e6, e7⟩ := ih h1
      exact ⟨k1, p2, m3, j2, _, tr2, x, .cons hs e1, e2, e3, e4, e5, e6, e7⟩
    · have hq : p1 = q := by omega
      subst hq
      cases hs with
      | eat hx hl he hj => exact ⟨i, p, m, j, [], tr, _, .nil, hx, hl, he, hj, rfl, hr⟩
      | _ => omega

/-- A run goes through every offset of the scan between its two ends. -/
theorem Run_through {G : List instr} {b : List Nat} {i p k q : Nat} {m m2 : List Int}
    {tr : List Nat} (h : Run G b i p m tr k q m2) (pos : Nat) (hp : RuneStart b p pos)
    (hle : pos ≤ q) :
    ∃ i1 m1 tr1 tr2, Run G b i p m tr1 i1 pos m1 ∧ Run G b i1 pos m1 tr2 k q m2 := by
  induction h with
  | @nil i p m =>
    have := RuneStart_le hp
    have : pos = p := by omega
    subst this
    exact ⟨i, m, [], [], .nil, .nil⟩
  | @cons i p j p1 k q m m1 m2 tr hs hr ih =>
    by_cases h0 : pos = p
    · subst h0
      exact ⟨i, m, [], _, .nil, .cons hs hr⟩
    · have hlt : p < pos := by have := RuneStart_le hp; omega
      have hp1 : RuneStart b p1 pos := by
        rcases Step_pos hs with e | ⟨hl, e⟩
        · rw [e]; exact hp
        · have h1 : RuneStart b p p1 := by rw [e]; exact .next .first hl
          have h2 := (RuneStart_succ_le (pos + p + 1) pos p (by omega) hp .first hlt).2
          exact RuneStart_from h1 hp (by omega)
      obtain ⟨i1, m3, tr1, tr2, e1, e2⟩ := ih hp1 hle
      exact ⟨i1, m3, _, tr2, .cons hs e1, e2⟩

end GoRegexp

namespace GoRegexp

/-! ## The list of threads is closed under the moves that do not consume -/

theorem Handled_listed_inv {G : List instr} {pos e : Nat} {s : List state} {bd : Int}
    {k : Nat} {x : instr} (h : Handled G pos e s bd k) (hx : G[k]? = some x)
    (h1 : x.kind ≠ .iBOT) (h2 : x.kind ≠ .iEOT) (h3 : x.kind ≠ .iBra) :
    ∃ th ∈ s, th.inst = k ∧ vstart th.m ≤ bd := by
  cases h with
  | listed _ hth => exact hth
  | botSkip hy hk _ => rw [hx] at hy; cases hy; exact absurd hk h1
  | bot hy hk _ _ => rw [hx] at hy; cases hy; exact absurd hk h1
  | eotSkip hy hk _ => rw [hx] at hy; cases hy; exact absurd hk h2
  | eot hy hk _ _ => rw [hx] at hy; cases hy; exact absurd hk h2
  | bra hy hk _ _ => rw [hx] at hy; cases hy; exact absurd hk h3

theorem Listed_not {G : List instr} {k : Nat} {x : instr} (h : Listed G k)
    (hx : G[k]? = some x) : x.kind ≠ .iBOT ∧ x.kind ≠ .iEOT ∧ x.kind ≠ .iBra := by
  obtain ⟨y, hy, h1, h2, h3, -⟩ := h
  rw [hx] at hy
  cases hy
  exact ⟨h1, h2, h3⟩

/-- What is handled at an instruction is handled at the instruction a move that does not
consume leads to. -/
theorem Handled_step {G : List instr} {b : List Nat} {pos : Nat} {s : List state} {bd : Int}
    (hc : ∀ th ∈ s, AltDone G pos b.length s th)
    {i j pos1 : Nat} {m m1 : List Int} (hs : Step G b i pos m j pos1 m1)
    (hpp : pos1 = pos)
    (h : Handled G pos b.length s bd i) : Handled G pos b.length s bd j := by
  cases hs with
  | bot hx hk hp hj =>
    cases h with
    | listed hl _ => exact absurd hk (Listed_not hl hx).1
    | botSkip hy _ hp2 => exact absurd hp hp2
    | bot hy _ hj2 hh => rw [hx] at hy; cases hy; rw [hj] at hj2; cases hj2; exact hh
    | eotSkip hy hk2 _ => rw [hx] at hy; cases hy; rw [hk] at hk2; cases hk2
    | eot hy hk2 _ _ => rw [hx] at hy; cases hy; rw [hk] at hk2; cases hk2
    | bra hy hk2 _ _ => rw [hx] at hy; cases hy; rw [hk] at hk2; cases hk2
  | eot hx hk hp hj =>
    cases h with
    | listed hl _ => exact absurd hk (Listed_not hl hx).2.1
    | botSkip hy hk2 _ => rw [hx] at hy; cases hy; rw [hk] at hk2; cases hk2
    | bot hy hk2 _ _ => rw [hx] at hy; cases hy; rw [hk] at hk2; cases hk2
    | eotSkip hy _ hp2 => exact absurd hp hp2
    | eot hy _ hj2 hh => rw [hx] at hy; cases hy; rw [hj] at hj2; cases hj2; exact hh
    | bra hy hk2 _ _ => rw [hx] at hy; cases hy; rw [hk] at hk2; cases hk2
  | bra hx hk hj =>
    cases h with
    | listed hl _ => exact absurd hk (Listed_not hl hx).2.2
    | botSkip hy hk2 _ => rw [hx] at hy; cases hy; rw [hk] at hk2; cases hk2
    | bot hy hk2 _ _ => rw [hx] at hy; cases hy; rw [hk] at hk2; cases hk2
    | eotSkip hy hk2 _ => rw [hx] at hy; cases hy; rw [hk] at hk2; cases hk2
    | eot hy hk2 _ _ => rw [hx] at hy; cases hy; rw [hk] at hk2; cases hk2
    | bra hy _ hj2 hh => rw [hx] at hy; cases hy; rw [hj] at hj2; cases hj2; exact hh
  | altLeft hx hk hj =>
    obtain ⟨th, hth, e1, e2⟩ := Handled_listed_inv h hx (by rw [hk]; simp) (by rw [hk]; simp)
      (by rw [hk]; simp)
    subst e1
    exact Handled_mono ((hc th hth _ hx hk).1 j hj) (fun _ h => h) e2
  | altNext hx hk hj =>
    obtain ⟨th, hth, e1, e2⟩ := Handled_listed_inv h hx (by rw [hk]; simp) (by rw [hk]; simp)
      (by rw [hk]; simp)
    subst e1
    exact Handled_mono ((hc th hth _ hx hk).2 j hj) (fun _ h => h) e2
  | eat hx hl he hj =>
    have := width_pos_at hl
    omega

/-- What is handled at an instruction is handled at the end of a run from it that stays at
the same offset. -/
theorem Handled_run {G : List instr} {b : List Nat} {pos : Nat} {s : List state} {bd : Int}
    (hc : ∀ th ∈ s, AltDone G pos b.length s th)
    {i p k q : Nat} {m m2 : List Int} {tr : List Nat} (hr : Run G b i p m tr k q m2)
    (hp : p = pos) (hq : q = pos) (h : Handled G pos b.length s bd i) :
    Handled G pos b.length s bd k := by
  induction hr with
  | nil => exact h
  | @cons i p j p1 k q m m1 m2 tr hs hr ih =>
    have h1 := Step_pos_le hs
    have h2 := Run_pos_le hr
    have hp1 : p1 = pos := by omega
    subst hp
    subst hp1
    exact ih rfl hq (Handled_step hc hs rfl h)

end GoRegexp

namespace GoRegexp

/-! ## The loop of doExecute -/

theorem Handled_nil_stuck {G : List instr} {b : List Nat} {pos : Nat} {bd : Int} {i : Nat}
    (h : Handled G pos b.length [] bd i) :
    ∀ {m m2 : List Int} {tr : List Nat} {k q : Nat}, Run G b i pos m tr k q m2 →
      Listed G k → False := by
  induction h with
  | listed _ hth =>
    obtain ⟨th, h1, _⟩ := hth
    cases h1
  | botSkip hx hk hp =>
    intro m m2 tr k q hr hl
    cases hr with
    | nil => exact (Listed_not hl hx).1 hk
    | cons hs _ =>
      cases hs with
      | bot _ _ hp2 _ => exact hp hp2
      | eot hy hk2 _ _ => rw [hx] at hy; cases hy; rw [hk] at hk2; cases hk2
      | bra hy hk2 _ => rw [hx] at hy; cases hy; rw [hk] at hk2; cases hk2
      | altLeft hy hk2 _ => rw [hx] at hy; cases hy; rw [hk] at hk2; cases hk2
      | altNext hy hk2 _ => rw [hx] at hy; cases hy; rw [hk] at hk2; cases hk2
      | eat hy _ he _ => rw [hx] at hy; cases hy; unfold instr.eats at he; simp [hk] at he
  | bot hx hk hj _ ih =>
    intro m m2 tr k q hr hl
    cases hr with
    | nil => exact (Listed_not hl hx).1 hk
    | cons hs hr2 =>
      cases hs with
      | bot hy _ _ hj2 => rw [hx] at hy; cases hy; rw [hj] at hj2; cases hj2; exact ih hr2 hl
      | eot hy hk2 _ _ => rw [hx] at hy; cases hy; rw [hk] at hk2; cases hk2
      | bra hy hk2 _ => rw [hx] at hy; cases hy; rw [hk] at hk2; cases hk2
      | altLeft hy hk2 _ => rw [hx] at hy; cases hy; rw [hk] at hk2; cases hk2
      | altNext hy hk2 _ => rw [hx] at hy; cases hy; rw [hk] at hk2; cases hk2
      | eat hy _ he _ => rw [hx] at hy; cases hy; unfold instr.eats at he; simp [hk] at he
  | eotSkip hx hk hp =>
    intro m m2 tr k q hr hl
    cases hr with
    | nil => exact (Listed_not hl hx).2.1 hk
    | cons hs _ =>
      cases hs with
      | bot hy hk2 _ _ => rw [hx] at hy; cases hy; rw [hk] at hk2; cases hk2
      | eot _ _ hp2 _ => exact hp hp2
      | bra hy hk2 _ => rw [hx] at hy; cases hy; rw [hk] at hk2; cases hk2
      | altLeft hy hk2 _ => rw [hx] at hy; cases hy; rw [hk] at hk2; cases hk2
      | altNext hy hk2 _ => rw [hx] at hy; cases hy; rw [hk] at hk2; cases hk2
      | eat hy _ he _ => rw [hx] at hy; cases hy; unfold instr.eats at he; simp [hk] at he
  | eot hx hk hj _ ih =>
    intro m m2 tr k q hr hl
    cases hr with
    | nil => exact (Listed_not hl hx).2.1 hk
    | cons hs hr2 =>
      cases hs with
      | bot hy hk2 _ _ => rw [hx] at hy; cases hy; rw [hk] at hk2; cases hk2
      | eot hy _ _ hj2 => rw [hx] at hy; cases hy; rw [hj] at hj2; cases hj2; exact ih hr2 hl
      | bra hy hk2 _ => rw [hx] at hy; cases hy; rw [hk] at hk2; cases hk2
      | altLeft hy hk2 _ => rw [hx] at hy; cases hy; rw [hk] at hk2; cases hk2
      | altNext hy hk2 _ => rw [hx] at hy; cases hy; rw [hk] at hk2; cases hk2
      | eat hy _ he _ => rw [hx] at hy; cases hy; unfold instr.eats at he; simp [hk] at he
  | bra hx hk hj _ ih =>
    intro m m2 tr k q hr hl
    cases hr with
    | nil => exact (Listed_not hl hx).2.2 hk
    | cons hs hr2 =>
      cases hs with
      | bot hy hk2 _ _ => rw [hx] at hy; cases hy; rw [hk] at hk2; cases hk2
      | eot hy hk2 _ _ => rw [hx] at hy; cases hy; rw [hk] at hk2; cases hk2
      | bra hy _ hj2 => rw [hx] at hy; cases hy; rw [hj] at hj2; cases hj2; exact ih hr2 hl
      | altLeft hy hk2 _ => rw [hx] at hy; cases hy; rw [hk] at hk2; cases hk2
      | altNext hy hk2 _ => rw [hx] at hy; cases hy; rw [hk] at hk2; cases hk2
      | eat hy _ he _ => rw [hx] at hy; cases hy; unfold instr.eats at he; simp [hk] at he

/-- No run leaves a `^` at an offset other than 0. -/
theorem Run_from_bot {G : List instr} {b : List Nat} {i p k q : Nat} {m m2 : List Int}
    {tr : List Nat} {x : instr} (hx : G[i]? = some x) (hk : x.kind = .iBOT) (hp : p ≠ 0)
    (hr : Run G b i p m tr k q m2) : k = i ∧ q = p := by
  cases hr with
  | nil => exact ⟨rfl, rfl⟩
  | cons hs _ =>
    cases hs with
    | bot _ _ hp2 _ => exact absurd hp2 hp
    | eot hy hk2 _ _ => rw [hx] at hy; cases hy; rw [hk] at hk2; cases hk2
    | bra hy hk2 _ => rw [hx] at hy; cases hy; rw [hk] at hk2; cases hk2
    | altLeft hy hk2 _ => rw [hx] at hy; cases hy; rw [hk] at hk2; cases hk2
    | altNext hy hk2 _ => rw [hx] at hy; cases hy; rw [hk] at hk2; cases hk2
    | eat hy _ he _ => rw [hx] at hy; cases hy; unfold instr.eats at he; simp [hk] at he

theorem Dominates_le {f : state} {s p q : Int} (h : Dominates f s q) (hs : s ≤ p) :
    Dominates f p q := by
  unfold Dominates at *
  omega

theorem End_listed {G : List instr} {k : Nat} (h : kindAt G k = some .iEnd) : Listed G k := by
  unfold kindAt at h
  cases hx : G[k]? with
  | none => rw [hx] at h; cases h
  | some x =>
    rw [hx] at h
    simp only [Option.map_some', Option.some.injEq] at h
    exact ⟨x, hx, by rw [h]; simp, by rw [h]; simp, by rw [h]; simp, by rw [h]; simp,
      by rw [h]; simp⟩

/-- The record of a match has the length of the arena and holds the two ends of the span
of the match. -/
theorem FinalOK_span {re : Regexp} {rk : Nat → Nat} (hG : ProgOK re.inst re.nbra rk)
    {b : List Nat} {s0 sp : Nat} {f : state} (h : FinalOK re b s0 sp f) :
    f.m.length = 2 * (re.nbra + 1) ∧ ∃ p0 q : Nat, vstart f.m = (p0 : Int) ∧
      vend f.m = (q : Int) ∧ sp ≤ p0 ∧ p0 ≤ q ∧ q ≤ b.length := by
  obtain ⟨-, p0, q, tr, m1, k, h1, h2, h3, h4, h5⟩ := h
  have hl := Run_length h3
  rw [seedVec_length] at hl
  have hv := Run_vstart hG h3
  rw [vstart_seedVec] at hv
  refine ⟨by rw [h5, List.length_set, hl], p0, q, ?_, ?_, RuneStart_le h1, Run_pos_le h3, h2⟩
  · rw [h5, vstart_set1, hv]
  · rw [h5, vend_set1 _ (by omega)]

theorem cwAt_lt {b : List Nat} {pos : Nat} (h : pos < b.length) :
    cwAt b pos = DecodeRune (b.drop pos) := by
  unfold cwAt
  rw [if_pos h, List.take_of_length_le (by simp)]

theorem cwAt_width (b : List Nat) (pos : Nat) : 1 ≤ (cwAt b pos).2 := by
  by_cases h : pos < b.length
  · rw [cwAt_lt h]; exact width_pos_at h
  · unfold cwAt; rw [if_neg h]

theorem cwAt_le {b : List Nat} {pos : Nat} (h : pos < b.length) :
    pos + (cwAt b pos).2 ≤ b.length := by
  rw [cwAt_lt h]
  have := DecodeRune_width_le (b.drop pos)
  simp only [List.length_drop] at this
  omega

/-- Priming the list at offset pos, or leaving it as it is, handles every run that is at
pos, those that begin at pos included. -/
theorem seed_inv {re : Regexp} {rk : Nat → Nat} {x0 : instr} {s0 : Nat}
    (hR : Ready re rk x0 s0) (b : List Nat) (sp pos : Nat) (out : List state)
    (final : Option state) (found anchored : Bool)
    (hanch : anchored = true → ∃ x, re.inst[s0]? = some x ∧ x.kind = .iBOT)
    (hpos : pos ≤ b.length) (hsp : sp ≤ pos)
    (h : LoopInv re b s0 sp pos pos out final found) :
    ∃ sin, (if (!found && (decide (pos = sp) || !anchored)) = true then
          match re.start with
          | none => none
          | some k =>
            match re.inst[k]?, vecSet (noMatch (2 * (re.nbra + 1))) 0 (pos : Int) with
            | some x, some m => addState re.inst (addFuel re) out x.next false m pos b.length
            | _, _ => none
        else some out) = some sin ∧
      LoopInv re b s0 sp pos (pos + 1) sin final found ∧
      ((!found && (decide (pos = sp) || !anchored)) = false → sin = out) := by
  by_cases hprime : (!found && (decide (pos = sp) || !anchored)) = true
  · rw [if_pos hprime, hR.start]
    simp only [hR.first, hR.next]
    have hv : vecSet (noMatch (2 * (re.nbra + 1))) 0 (pos : Int) = some (seedVec re pos) := by
      unfold vecSet seedVec
      rw [if_pos (by simp [noMatch])]
    rw [hv]
    simp only
    obtain ⟨xs, hxs, -, -⟩ := Good_get hR.good
    obtain ⟨t, ht, hp⟩ := addState_spec hR.prog b pos (addFuel re) out s0 (seedVec re pos)
      hR.good (seedVec_length re pos) h.ok
      (by intro th hth; rw [vstart_seedVec]; exact h.before th hth)
      (addFuel_ge re _ _ (hR.prog.nodes s0 xs hxs).rankLt)
    rw [hR.next, ht]
    have hsub : ∀ th ∈ out, th ∈ out ++ t := fun th hth => List.mem_append_left _ hth
    have hclosed : ∀ th ∈ out ++ t, AltDone re.inst pos b.length (out ++ t) th := by
      intro th hth
      rcases List.mem_append.1 hth with h1 | h1
      · exact AltDone_mono (h.closed th h1) hsub
      · exact hp.closed th h1
    refine ⟨_, rfl, ⟨?_, ?_, ?_, h.here, ?_, h.hasFinal, h.fin, hclosed, ?_, h.done⟩, ?_⟩
    · have := hp.ok
      rwa [seedVec_length] at this
    · rw [List.pairwise_append]
      refine ⟨h.sorted, ?_, ?_⟩
      · rw [List.pairwise_iff_forall_sublist]
        intro a c hac
        have ha := hac.subset (List.mem_cons_self _ _)
        have hc := hac.subset (List.mem_cons_of_mem _ (List.mem_singleton_self _))
        rw [(hp.run a ha).1, (hp.run c hc).1]
      · intro a ha c hc
        rw [(hp.run c hc).1, vstart_seedVec]
        exact h.before a ha
    · intro th hth
      rcases List.mem_append.1 hth with h1 | h1
      · exact h.before th h1
      · rw [(hp.run th h1).1, vstart_seedVec]
    · intro hle th hth
      rcases List.mem_append.1 hth with h1 | h1
      · exact h.runs hle th h1
      · obtain ⟨e1, tr, e2⟩ := hp.run th h1
        exact ⟨pos, tr, h.here hle, by rw [e1, vstart_seedVec], e2⟩
    · intro p0 i tr m hp0 hlt hr
      by_cases hlt2 : p0 < pos
      · rcases h.reach p0 i tr m hp0 hlt2 hr with h1 | h1
        · exact Or.inl (Handled_mono h1 hsub le_rfl)
        · exact Or.inr h1
      · have he : p0 = pos := by omega
        subst he
        left
        have := hp.handled
        rw [vstart_seedVec] at this
        exact Handled_run hclosed hr rfl rfl this
    · intro hf
      rw [hf] at hprime
      cases hprime
  · have hpf : (!found && (decide (pos = sp) || !anchored)) = false := by simpa using hprime
    rw [if_neg hprime]
    refine ⟨out, rfl, ⟨h.ok, h.sorted, h.before, h.here, h.runs, h.hasFinal, h.fin, h.closed, ?_,
      h.done⟩, fun _ => rfl⟩
    intro p0 i tr m hp0 hlt hr
    by_cases hlt2 : p0 < pos
    · exact h.reach p0 i tr m hp0 hlt2 hr
    · have he : p0 = pos := by omega
      subst he
      by_cases hf : found = true
      · right
        obtain ⟨f, hf1⟩ := h.hasFinal hf
        obtain ⟨-, hfo, hve⟩ := h.fin f hf1
        obtain ⟨-, a, c, e1, e2, -, e3, -⟩ := FinalOK_span hR.prog hfo
        refine ⟨f, hf1, ?_⟩
        rw [e2] at hve
        rw [e1]
        omega
      · left
        have hfalse : found = false := by simpa using hf
        rw [hfalse] at hpf
        simp only [Bool.not_false, Bool.true_and, Bool.or_eq_false_iff, decide_eq_false_iff_not,
          Bool.not_eq_false'] at hpf
        obtain ⟨x, hx, hk⟩ := hanch hpf.2
        have hne : p0 ≠ 0 := by omega
        obtain ⟨e1, -⟩ := Run_from_bot hx hk hne hr
        subst e1
        exact .botSkip hx hk hne

/-- Two offsets of the scan whose runes end at the same offset are the same. -/
theorem RuneStart_succ_inj {b : List Nat} {sp p q : Nat} (hp : RuneStart b sp p)
    (hq : RuneStart b sp q) (hpl : p < b.length) (hql : q < b.length)
    (h : p + (DecodeRune (b.drop p)).2 = q + (DecodeRune (b.drop q)).2) : p = q := by
  have w1 := width_pos_at hpl
  have w2 := width_pos_at hql
  rcases Nat.lt_trichotomy p q with h1 | h1 | h1
  · have := (RuneStart_succ_le (p + q + 1) q p (by omega) hq hp h1).2
    omega
  · exact h1
  · have := (RuneStart_succ_le (p + q + 1) p q (by omega) hp hq h1).2
    omega

/-- The steps of the threads of the list at offset pos carry the invariant of the loop to
the next offset. -/
theorem step_inv {re : Regexp} {rk : Nat → Nat} {x0 : instr} {s0 : Nat}
    (hR : Ready re rk x0 s0) (b : List Nat) (sp pos : Nat) (sin : List state)
    (final : Option state) (found : Bool) (hpos : pos ≤ b.length)
    (h : LoopInv re b s0 sp pos (pos + 1) sin final found) (acc2 : execState) (t : List state)
    (hp : AllPost re.inst b (2 * (re.nbra + 1)) pos (pos + (cwAt b pos).2) (cwAt b pos).1
      { out := [], final := final, found := found } sin acc2 t) :
    LoopInv re b s0 sp (pos + (cwAt b pos).2) (pos + (cwAt b pos).2) acc2.out acc2.final
      acc2.found := by
  have hw := cwAt_width b pos
  have hout : acc2.out = t := by rw [hp.out]; rfl
  have hlt_of : pos + (cwAt b pos).2 ≤ b.length → pos < b.length := fun hle => by omega
  have hclosed : ∀ th ∈ acc2.out, AltDone re.inst (pos + (cwAt b pos).2) b.length acc2.out th := by
    intro th hth
    rw [hout] at hth
    exact hp.closed th hth
  have hmono : ∀ f0, final = some f0 → ∃ f, acc2.found = true ∧ acc2.final = some f ∧
      NoWorse f f0 := fun f0 hf0 => hp.mono f0 (h.fin f0 hf0).1 hf0
  -- a run that is at pos is handled on the list sin or is beaten
  have hreach := h.reach
  refine ⟨hp.ok, hp.sorted, ?_, ?_, ?_, ?_, ?_, hclosed, ?_, ?_⟩
  · intro th hth
    rw [hout] at hth
    obtain ⟨st, hst, e, -⟩ := hp.run th hth
    have := h.before st hst
    rw [e]
    push_cast
    omega
  · intro hle
    have hlt := hlt_of hle
    rw [cwAt_lt hlt]
    exact .next (h.here hpos) hlt
  · intro hle th hth
    have hlt := hlt_of hle
    rw [hout] at hth
    obtain ⟨st, hst, e, x, j, tr, hx, he, hj, hr⟩ := hp.run th hth
    obtain ⟨p0, tr0, a1, a2, a3⟩ := h.runs hpos st hst
    rw [cwAt_lt hlt] at he hr ⊢
    exact ⟨p0, _, a1, by rw [e, a2], Run_append a3 (.cons (.eat hx hlt he hj) hr)⟩
  · intro hf
    obtain ⟨f, hf1, -⟩ := hp.hasFinal hf
    exact ⟨f, hf1⟩
  · intro f hf
    rcases hp.src f hf with h1 | ⟨st, hst, hend, rfl⟩
    · obtain ⟨a1, a2, a3⟩ := h.fin f h1
      obtain ⟨f2, b1, -, -⟩ := hmono f h1
      exact ⟨b1, a2, by omega⟩
    · obtain ⟨f2, b1, -, -⟩ := hp.dom st hst hend
      obtain ⟨p0, tr0, a1, a2, a3⟩ := h.runs hpos st hst
      refine ⟨b1, ⟨h.ok.plain st hst, p0, pos, tr0, st.m, st.inst, a1, hpos, a3, hend, rfl⟩, ?_⟩
      simp only
      rw [vend_set1 _ (by have := h.ok.len st hst; omega)]
      push_cast
      omega
  · -- reach
    intro p0 i tr m hp0 hlt hr
    obtain ⟨k1, p1, m1, j, tr1, tr2, x, e1, e2, e3, e4, e5, e6, e7⟩ := Run_split_last hr hlt
    have hp1 : RuneStart b sp p1 := RuneStart_trans hp0 (Run_runeStart e1)
    have hpl : pos < b.length := by
      by_contra hc
      have := DecodeRune_width_le (b.drop p1)
      simp only [List.length_drop] at this
      omega
    have hpe : p1 = pos := by
      refine RuneStart_succ_inj hp1 (h.here hpos) e3 hpl ?_
      rw [← e6, cwAt_lt hpl]
    subst hpe
    rcases hreach p0 k1 tr1 m1 hp0 (by have := Run_pos_le e1; omega) e1 with h1 | ⟨f, hf, hv⟩
    · left
      have hk := eats_kind e4
      obtain ⟨th, hth, a1, a2⟩ := Handled_listed_inv h1 e2
        (by rcases hk with h | h | h | h <;> rw [h] <;> simp)
        (by rcases hk with h | h | h | h <;> rw [h] <;> simp)
        (by rcases hk with h | h | h | h <;> rw [h] <;> simp)
      subst a1
      have he := hp.eats th hth x j e2 (by rw [cwAt_lt hpl]; exact e4) e5
      exact Handled_run hclosed e7 rfl rfl (Handled_mono he (fun _ h => h) a2)
    · right
      obtain ⟨f2, -, b2, b3⟩ := hmono f hf
      refine ⟨f2, b2, ?_⟩
      unfold NoWorse at b3
      omega
  · -- done
    intro p0 q k tr m hp0 hq hr hend
    have hdone : ∀ f0, final = some f0 → Dominates f0 (p0 : Int) (q : Int) →
        ∃ f, acc2.final = some f ∧ Dominates f (p0 : Int) (q : Int) := by
      intro f0 hf0 hd
      obtain ⟨f2, -, b2, b3⟩ := hmono f0 hf0
      exact ⟨f2, b2, Dominates_of_noWorse b3 hd⟩
    by_cases hq2 : q < pos
    · obtain ⟨f, hf, hd⟩ := h.done p0 q k tr m hp0 hq2 hr hend
      exact hdone f hf hd
    · have hqs : RuneStart b sp q := RuneStart_trans hp0 (Run_runeStart hr)
      have hqe : q = pos := by
        by_contra hne
        have hlt : pos < q := by omega
        obtain ⟨a1, a2⟩ := RuneStart_succ_le (pos + q + 1) q pos (by omega) hqs (h.here hpos) hlt
        rw [cwAt_lt a1] at hq
        omega
      subst hqe
      rcases hreach p0 k tr m hp0 (by have := Run_pos_le hr; omega) hr with h1 | ⟨f, hf, hv⟩
      · obtain ⟨x, hx, c1, c2, c3, -⟩ := End_listed hend
        obtain ⟨th, hth, a1, a2⟩ := Handled_listed_inv h1 hx c1 c2 c3
        have hat : AtEnd re.inst th := by unfold AtEnd; rw [a1]; exact hend
        obtain ⟨f2, -, b2, b3⟩ := hp.dom th hth hat
        exact ⟨f2, b2, Dominates_le b3 a2⟩
      · exact hdone f hf (Or.inl hv)

theorem cwAt_def (b : List Nat) (pos : Nat) :
    (if pos < b.length then DecodeRune ((b.drop pos).take (b.length - pos))
      else (endOfFile, 1)) = cwAt b pos := rfl

/-- The loop of doExecute on a well-formed program ends, given fuel for the offsets left;
its result is the record of a match, and it dominates every match that begins at an
offset of the scan. -/
theorem executeLoop_spec {re : Regexp} {rk : Nat → Nat} {x0 : instr} {s0 : Nat}
    (hR : Ready re rk x0 s0) (b : List Nat) (sp : Nat) (anchored : Bool)
    (hanch : anchored = true → ∃ x, re.inst[s0]? = some x ∧ x.kind = .iBOT) :
    ∀ (fuel pos : Nat) (out : List state) (final : Option state) (found : Bool),
      b.length + 2 ≤ fuel + pos → pos ≤ b.length + 1 → sp ≤ pos →
      LoopInv re b s0 sp pos pos out final found →
      ∃ r, executeLoop re b b.length sp anchored fuel pos out final found = some r ∧
        (∀ f, r = some f → FinalOK re b s0 sp f) ∧
        (∀ p0 q k tr m, RuneStart b sp p0 → q ≤ b.length →
          Run re.inst b s0 p0 (seedVec re p0) tr k q m → kindAt re.inst k = some .iEnd →
          ∃ f, r = some f ∧ Dominates f (p0 : Int) (q : Int)) := by
  intro fuel
  induction fuel with
  | zero => intro pos out final found h1 h2; omega
  | succ fuel ih =>
    intro pos out final found hfuel hle1 hsp h
    unfold executeLoop
    by_cases hpos : pos ≤ b.length
    · rw [if_neg (not_not.2 hpos)]
      simp only []
      by_cases hbrk : ¬ (!found && (decide (pos = sp) || !anchored)) = true ∧ out.length = 0
      · rw [if_pos hbrk]
        refine ⟨final, rfl, fun f hf => (h.fin f hf).2.1, ?_⟩
        intro p0 q k tr m hp0 hq hr hend
        by_cases hq2 : q < pos
        · exact h.done p0 q k tr m hp0 hq2 hr hend
        · have hnil : out = [] := List.length_eq_zero.1 hbrk.2
          by_cases hp2 : p0 < pos
          · obtain ⟨i1, m1, tr1, tr2, e1, e2⟩ := Run_through hr pos
              (RuneStart_from hp0 (h.here hpos) (by omega)) (by omega)
            rcases h.reach p0 i1 tr1 m1 hp0 hp2 e1 with h1 | ⟨f, hf, hv⟩
            · rw [hnil] at h1
              exact absurd (Handled_nil_stuck h1 e2 (End_listed hend)) id
            · exact ⟨f, hf, Or.inl hv⟩
          · by_cases hf : found = true
            · obtain ⟨f, hf1⟩ := h.hasFinal hf
              obtain ⟨-, hfo, hve⟩ := h.fin f hf1
              obtain ⟨-, a, c, e1, e2, -, e3, -⟩ := FinalOK_span hR.prog hfo
              refine ⟨f, hf1, Or.inl ?_⟩
              rw [e2] at hve
              rw [e1]
              omega
            · have hfalse : found = false := by simpa using hf
              have hpf := hbrk.1
              rw [hfalse] at hpf
              simp only [Bool.not_false, Bool.true_and, Bool.or_eq_true, decide_eq_true_eq,
                Bool.not_eq_true', not_or, Bool.not_eq_false] at hpf
              obtain ⟨x, hx, hk⟩ := hanch hpf.2
              have hne : p0 ≠ 0 := by omega
              obtain ⟨e1, -⟩ := Run_from_bot hx hk hne hr
              subst e1
              unfold kindAt at hend
              rw [hx] at hend
              simp only [Option.map_some', Option.some.injEq] at hend
              rw [hk] at hend
              cases hend
      · rw [if_neg hbrk]
        obtain ⟨sin, hs1, hs2, -⟩ := seed_inv hR b sp pos out final found anchored hanch hpos hsp h
        erw [hs1]
        simp only [cwAt_def]
        obtain ⟨acc2, t, ha1, ha2⟩ := stepAll_spec hR.prog b (cwAt b pos).1 pos (cwAt b pos).2 sin
          { out := [], final := final, found := found } ⟨by simp, by simp, by simp, by simp⟩
          List.Pairwise.nil
          (fun st hst => ⟨hs2.ok.listed st hst, hs2.ok.len st hst, hs2.ok.plain st hst⟩)
          hs2.sorted (by intro th hth; cases hth)
          (by
            intro hf
            obtain ⟨f, hf1⟩ := hs2.hasFinal hf
            exact ⟨f, hf1, by have := (FinalOK_span hR.prog (hs2.fin f hf1).2.1).1; omega⟩)
        rw [ha1]
        simp only
        have hw := cwAt_width b pos
        have hnext : pos + (cwAt b pos).2 ≤ b.length + 1 := by
          by_cases hlt : pos < b.length
          · have := cwAt_le hlt; omega
          · have : (cwAt b pos).2 = 1 := by unfold cwAt; rw [if_neg hlt]
            omega
        exact ih _ acc2.out acc2.final acc2.found (by omega) hnext (by omega)
          (step_inv hR b sp pos sin final found hpos hs2 acc2 t ha2)
    · rw [if_pos hpos]
      refine ⟨final, rfl, fun f hf => (h.fin f hf).2.1, ?_⟩
      intro p0 q k tr m hp0 hq hr hend
      exact h.done p0 q k tr m hp0 (by omega) hr hend

/-- The variables of the loop of doExecute as it is entered. -/
theorem LoopInv_init (re : Regexp) (b : List Nat) (s0 sp : Nat) :
    LoopInv re b s0 sp sp sp [] none false := by
  refine ⟨⟨by simp, by simp, by simp, by simp⟩, List.Pairwise.nil, by simp, fun _ => .first,
    by simp, by simp, by simp, by simp, ?_, ?_⟩
  · intro p0 i tr m hp0 hlt
    have := RuneStart_le hp0
    omega
  · intro p0 q k tr m hp0 hq hr
    have := RuneStart_le hp0
    have := Run_pos_le hr
    omega

end GoRegexp

namespace GoRegexp

/-! ## strings.Index and strings.HasPrefix -/

/-- The bytes sep stand in s at offset k. -/
theorem occurs_cons {sep : List Nat} {a : Nat} {l : List Nat} (k : Nat) :
    ((a :: l).drop (k + 1)).take sep.length = (l.drop k).take sep.length := rfl

theorem indexByteFrom_spec (c : Nat) : ∀ (l : List Nat) (i : Nat),
    (indexByteFrom c l i = -1 ∧ ∀ k, k + 1 ≤ l.length → (l.drop k).take 1 ≠ [c]) ∨
    ∃ r : Nat, indexByteFrom c l i = ((i + r : Nat) : Int) ∧ r + 1 ≤ l.length ∧
      (l.drop r).take 1 = [c] ∧ ∀ k < r, (l.drop k).take 1 ≠ [c] := by
  intro l
  induction l with
  | nil =>
    intro i
    left
    refine ⟨rfl, ?_⟩
    intro k hk
    simp at hk
  | cons a t ih =>
    intro i
    unfold indexByteFrom
    by_cases h : a = c
    · rw [if_pos h]
      right
      refine ⟨0, by simp, by simp, by simp [h], ?_⟩
      intro k hk
      omega
    · rw [if_neg h]
      rcases ih (i + 1) with ⟨h1, h2⟩ | ⟨r, h1, h2, h3, h4⟩
      · left
        refine ⟨h1, ?_⟩
        intro k hk
        cases k with
        | zero => simp [h]
        | succ k => exact h2 k (by simp at hk; omega)
      · right
        refine ⟨r + 1, by rw [h1]; congr 1; omega, by simp; omega, h3, ?_⟩
        intro k hk
        cases k with
        | zero => simp [h]
        | succ k => exact h4 k (by omega)

theorem indexFrom_spec (sep : List Nat) (c : Nat) (hsep : sep.head? = some c) :
    ∀ (l : List Nat) (i : Nat),
    (indexFrom sep c l i = -1 ∧ ∀ k, k + sep.length ≤ l.length →
      (l.drop k).take sep.length ≠ sep) ∨
    ∃ r : Nat, indexFrom sep c l i = ((i + r : Nat) : Int) ∧ r + sep.length ≤ l.length ∧
      (l.drop r).take sep.length = sep ∧ ∀ k < r, (l.drop k).take sep.length ≠ sep := by
  have hpos : 1 ≤ sep.length := by
    cases sep with
    | nil => cases hsep
    | cons _ _ => simp
  intro l
  induction l with
  | nil =>
    intro i
    left
    refine ⟨rfl, ?_⟩
    intro k hk
    simp only [List.length_nil] at hk
    omega
  | cons a t ih =>
    intro i
    unfold indexFrom
    by_cases hlen : sep.length ≤ (a :: t).length
    · rw [if_pos hlen]
      by_cases h : a = c ∧ (a :: t).take sep.length = sep
      · rw [if_pos h]
        right
        refine ⟨0, by simp, by simpa using hlen, by simpa using h.2, ?_⟩
        intro k hk
        omega
      · rw [if_neg h]
        have h0 : ((a :: t).drop 0).take sep.length ≠ sep := by
          intro he
          apply h
          refine ⟨?_, by simpa using he⟩
          simp only [List.drop_zero] at he
          rw [← he] at hsep
          cases hs : sep.length with
          | zero => omega
          | succ n =>
            rw [hs] at hsep
            simpa using hsep
        rcases ih (i + 1) with ⟨h1, h2⟩ | ⟨r, h1, h2, h3, h4⟩
        · left
          refine ⟨h1, ?_⟩
          intro k hk
          cases k with
          | zero => exact h0
          | succ k => exact h2 k (by simp at hk; omega)
        · right
          refine ⟨r + 1, by rw [h1]; congr 1; omega, by simp; omega, h3, ?_⟩
          intro k hk
          cases k with
          | zero => exact h0
          | succ k => exact h4 k (by omega)
    · rw [if_neg hlen]
      left
      refine ⟨rfl, ?_⟩
      intro k hk
      omega

/-- Index returns the offset of the first place where sep stands in s, and -1 when there is
none. -/
theorem Index_spec (s sep : List Nat) :
    (Index s sep = -1 ∧ ∀ k, k + sep.length ≤ s.length → (s.drop k).take sep.length ≠ sep) ∨
    ∃ r : Nat, Index s sep = (r : Int) ∧ r + sep.length ≤ s.length ∧
      (s.drop r).take sep.length = sep ∧ ∀ k < r, (s.drop k).take sep.length ≠ sep := by
  unfold Index
  split
  · right
    exact ⟨0, rfl, by simp, by simp, fun k hk => by omega⟩
  · rename_i c
    rcases indexByteFrom_spec c s 0 with ⟨h1, h2⟩ | ⟨r, h1, h2, h3, h4⟩
    · exact Or.inl ⟨h1, h2⟩
    · exact Or.inr ⟨r, by rw [h1]; simp, h2, h3, h4⟩
  · rename_i c t hne
    rcases indexFrom_spec (c :: t) c rfl s 0 with ⟨h1, h2⟩ | ⟨r, h1, h2, h3, h4⟩
    · exact Or.inl ⟨h1, h2⟩
    · exact Or.inr ⟨r, by rw [h1]; simp, h2, h3, h4⟩

theorem HasPrefix_iff (s pre : List Nat) :
    HasPrefix s pre = true ↔ s.take pre.length = pre := by
  unfold HasPrefix
  simp only [ge_iff_le, Bool.and_eq_true, decide_eq_true_eq]
  constructor
  · exact fun h => h.2
  · intro h
    refine ⟨?_, h⟩
    have := congrArg List.length h
    simp only [List.length_take] at this
    omega

end GoRegexp

namespace GoRegexp

/-! ## doExecute -/

theorem doExecute_unfold {re : Regexp} {rk : Nat → Nat} {x0 : instr} {s0 : Nat}
    (hR : Ready re rk x0 s0) {xs : instr} (hxs : re.inst[s0]? = some xs)
    (str : List Nat) (pos : Nat) :
    re.doExecute str none pos =
      if decide (xs.kind = .iBOT) = true ∧ pos > 0 then some none
      else if advanceOf re str pos (decide (xs.kind = .iBOT)) = -1 then some none
      else
        match executeLoop re str str.length
            (pos + (advanceOf re str pos (decide (xs.kind = .iBOT))).toNat)
            (decide (xs.kind = .iBOT)) (str.length + 2)
            (pos + (advanceOf re str pos (decide (xs.kind = .iBOT))).toNat) [] none false with
        | none => none
        | some none => some none
        | some (some final) =>
          if final.prefixed ∧ final.m.length > 0 then
            match final.m[0]? with
            | none => none
            | some m0 => some (some (final.m.set 0 (m0 - re.prefixBytes.length)))
          else some (some final.m) := by
  unfold Regexp.doExecute advanceOf
  simp only [hR.first, hR.next, hxs]
  first
    | done
    | rfl

/-- The check of the prefix moves the start of the scan forward, and not past the end of
the string. -/
theorem advanceOf_range (re : Regexp) (str : List Nat) (pos : Nat) (anchored : Bool)
    (hpos : pos ≤ str.length) :
    advanceOf re str pos anchored = -1 ∨
      (0 ≤ advanceOf re str pos anchored ∧
        pos + (advanceOf re str pos anchored).toNat ≤ str.length) := by
  unfold advanceOf
  split
  · split
    · split
      · exact Or.inl rfl
      · right; simp; exact hpos
    · rcases Index_spec (str.drop pos) re.prefixBytes with ⟨h1, -⟩ | ⟨r, h1, h2, -⟩
      · exact Or.inl h1
      · right
        rw [h1]
        simp only [List.length_drop] at h2
        simp only [Int.toNat_ofNat, Int.natCast_nonneg, true_and]
        omega
  · right; simp; exact hpos

/-- doExecute on a well-formed program returns, and a vector it returns is the vector of a
match that starts at or after pos. -/
theorem doExecute_sound {re : Regexp} {rk : Nat → Nat} {x0 : instr} {s0 : Nat}
    (hR : Ready re rk x0 s0) (str : List Nat) (pos : Nat) (hpos : pos ≤ str.length) :
    ∃ r, re.doExecute str none pos = some r ∧ ∀ m, r = some m → MatchAt re str s0 pos m := by
  obtain ⟨xs, hxs, -, -⟩ := Good_get hR.good
  rw [doExecute_unfold hR hxs]
  by_cases ha : decide (xs.kind = .iBOT) = true ∧ pos > 0
  · rw [if_pos ha]
    exact ⟨none, rfl, fun m hm => by cases hm⟩
  · rw [if_neg ha]
    rcases advanceOf_range re str pos (decide (xs.kind = .iBOT)) hpos with hadv | ⟨hadv, hle⟩
    · rw [if_pos hadv]
      exact ⟨none, rfl, fun m hm => by cases hm⟩
    · rw [if_neg (by omega)]
      obtain ⟨r, hr, hfin, -⟩ := executeLoop_spec hR str
        (pos + (advanceOf re str pos (decide (xs.kind = .iBOT))).toNat)
        (decide (xs.kind = .iBOT))
        (fun h => ⟨xs, hxs, by simpa using h⟩) (str.length + 2) _ [] none false
        (by omega) (by omega) le_rfl (LoopInv_init re str s0 _)
      rw [hr]
      cases r with
      | none => exact ⟨none, rfl, fun m hm => by cases hm⟩
      | some f =>
        obtain ⟨hpl, p0, q, tr, m1, k, h1, h2, h3, h4, h5⟩ := hfin f rfl
        simp only [hpl, Bool.false_eq_true, false_and, if_false]
        refine ⟨some f.m, rfl, ?_⟩
        intro m hm
        cases hm
        have := RuneStart_le h1
        exact ⟨p0, q, tr, m1, k, by omega, h2, h3, h4, h5⟩

theorem WF_ready {re : Regexp} (h : WF re) : ∃ rk x0 s0, Ready re rk x0 s0 := by
  obtain ⟨rk, hn⟩ := h.graph.nodes
  have hst := h.graph.start
  unfold kindAt at hst
  cases hx : re.inst[0]? with
  | none => rw [hx] at hst; cases hst
  | some x0 =>
    rw [hx] at hst
    simp only [Option.map_some', Option.some.injEq] at hst
    have hG : ProgOK re.inst re.nbra rk := ⟨hn, h.noNop⟩
    obtain ⟨s0, hs0, hg, -⟩ := ProgOK_good_next hG hx (by rw [hst]; simp)
    exact ⟨rk, x0, s0, hG, h.start, hx, hs0, hg⟩

/-- A pattern that compiles gives a program the matcher is ready for. -/
theorem Compile_ready {pat : List Nat} {re : Regexp} (h : Compile pat = .ok re) :
    ∃ rk x0 s0, Ready re rk x0 s0 := by
  unfold Compile at h
  rcases doParse_spec pat with ⟨re2, v, -, h2, hwf, -, -⟩ | ⟨e, -, h2⟩
  · rw [h2] at h
    cases h
    exact WF_ready hwf
  · rw [h2] at h
    cases h

/-- The vector of a match has the length of the arena and holds the span of the match,
which lies between pos and the end of the string. -/
theorem MatchAt_span {re : Regexp} {rk : Nat → Nat} (hG : ProgOK re.inst re.nbra rk)
    {str : List Nat} {s0 pos : Nat} {m : List Int} (h : MatchAt re str s0 pos m) :
    m.length = 2 * (re.nbra + 1) ∧ ∃ p q : Nat, m[0]? = some (p : Int) ∧
      m[1]? = some (q : Int) ∧ pos ≤ p ∧ p ≤ q ∧ q ≤ str.length := by
  obtain ⟨p, q, tr, m1, k, h1, h2, h3, h4, h5⟩ := h
  have hl := Run_length h3
  rw [seedVec_length] at hl
  have hv := Run_vstart hG h3
  rw [vstart_seedVec] at hv
  have hlm : m.length = 2 * (re.nbra + 1) := by rw [h5, List.length_set, hl]
  refine ⟨hlm, p, q, ?_, ?_, h1, Run_pos_le h3, h2⟩
  · rw [get0_vstart (by omega), h5, vstart_set1, hv]
  · rw [get1_vend (by omega), h5, vend_set1 _ (by omega)]

end GoRegexp

namespace GoRegexp

/-! ## allMatches -/

/-- The loop of allMatches depends on the limit n and the count i through n - i only. -/
theorem allMatchesLoop_shift (re : Regexp) (s : List Nat) (e : Nat) :
    ∀ (fuel : Nat) (n : Int) (pos : Nat) (i prev : Int),
      allMatchesLoop re s n e fuel pos i prev = allMatchesLoop re s (n - i) e fuel pos 0 prev := by
  intro fuel
  induction fuel with
  | zero => intro n pos i prev; rfl
  | succ fuel ih =>
    intro n pos i prev
    unfold allMatchesLoop
    have hc : (i < n ∧ pos ≤ e) ↔ ((0 : Int) < n - i ∧ pos ≤ e) := by
      constructor <;> intro h <;> exact ⟨by omega, h.2⟩
    by_cases h : i < n ∧ pos ≤ e
    · rw [if_neg (not_not.2 h), if_neg (not_not.2 (hc.1 h))]
      cases hd : re.doExecute s none pos with
      | none => rfl
      | some r =>
        cases r with
        | none => rfl
        | some a =>
          simp only
          by_cases hl : a.length = 0
          · rw [if_pos hl, if_pos hl]
          · rw [if_neg hl, if_neg hl]
            cases h0 : a[0]? with
            | none => rfl
            | some m0 =>
              cases h1 : a[1]? with
              | none => rfl
              | some m1 =>
                simp only
                rw [ih n _ (i + 1) m1, ih (n - i) _ (0 + 1) m1, ih n _ i m1]
                have : n - (i + 1) = n - i - (0 + 1) := by omega
                rw [this]
    · rw [if_pos h, if_pos (fun h2 => h (hc.2 h2))]

theorem SpansFrom_mono {lo lo2 pe : Int} {R : List (List Int)} (h : SpansFrom lo pe R)
    (hle : lo2 ≤ lo) : SpansFrom lo2 pe R := by
  cases R with
  | nil => trivial
  | cons a rest =>
    obtain ⟨a0, a1, h0, h1, h2, h3, h4, h5⟩ := h
    exact ⟨a0, a1, h0, h1, by omega, h3, h4, h5⟩

theorem SpansFrom_take {lo pe : Int} {R : List (List Int)} (h : SpansFrom lo pe R) (k : Nat) :
    SpansFrom lo pe (R.take k) := by
  induction R generalizing lo pe k with
  | nil => simpa using h
  | cons a rest ih =>
    cases k with
    | zero => trivial
    | succ k =>
      obtain ⟨a0, a1, h0, h1, h2, h3, h4, h5⟩ := h
      exact ⟨a0, a1, h0, h1, h2, h3, h4, ih h5 k⟩

theorem MatchAt_mono {re : Regexp} {str : List Nat} {s0 pos pos2 : Nat} {a : List Int}
    (h : MatchAt re str s0 pos a) (hle : pos2 ≤ pos) : MatchAt re str s0 pos2 a := by
  obtain ⟨p3, q3, tr, m1, k, e1, e2, e3, e4, e5⟩ := h
  exact ⟨p3, q3, tr, m1, k, by omega, e2, e3, e4, e5⟩

theorem MatchesFrom_mono {re : Regexp} {str : List Nat} {s0 pos pos2 : Nat}
    {R : List (List Int)} (h : MatchesFrom re str s0 pos R) (hle : pos2 ≤ pos) :
    MatchesFrom re str s0 pos2 R := by
  cases R with
  | nil => trivial
  | cons a rest =>
    obtain ⟨h1, p3, h2, h3⟩ := h
    exact ⟨MatchAt_mono h1 hle, p3, by omega, h3⟩

theorem MatchesFrom_take {re : Regexp} {str : List Nat} {s0 : Nat} :
    ∀ (R : List (List Int)) (pos k : Nat), MatchesFrom re str s0 pos R →
      MatchesFrom re str s0 pos (R.take k) := by
  intro R
  induction R with
  | nil => intro pos k h; simpa using h
  | cons a rest ih =>
    intro pos k h
    cases k with
    | zero => trivial
    | succ k =>
      obtain ⟨h1, p3, h2, h3⟩ := h
      exact ⟨h1, p3, h2, ih p3 k h3⟩

theorem MatchesFrom_mem {re : Regexp} {str : List Nat} {s0 : Nat} :
    ∀ (R : List (List Int)) (pos : Nat), MatchesFrom re str s0 pos R →
      ∀ a ∈ R, MatchAt re str s0 pos a := by
  intro R
  induction R with
  | nil => intro pos _ a ha; cases ha
  | cons x rest ih =>
    intro pos h a ha
    obtain ⟨h1, p3, h2, h3⟩ := h
    rcases List.mem_cons.1 ha with e | e
    · rw [e]; exact h1
    · exact MatchAt_mono (ih p3 h3 a e) (by omega)

theorem take_succ_toNat {α : Type} (a : α) (R : List α) {d : Int} (hd : 0 < d) :
    a :: R.take (d - (0 + 1)).toNat = (a :: R).take d.toNat := by
  have : d.toNat = (d - (0 + 1)).toNat + 1 := by omega
  rw [this]
  rfl

/-- The loop of allMatches on a well-formed program ends, given fuel for the offsets left.
There is a list R of matches, no longer than the number of offsets left, of which the loop
delivers the first d when its limit leaves room for d more. -/
theorem allMatchesLoop_spec {re : Regexp} {rk : Nat → Nat} {x0 : instr} {s0 : Nat}
    (hR : Ready re rk x0 s0) (s : List Nat) :
    ∀ (fuel pos : Nat) (prev : Int), s.length + 2 ≤ fuel + pos → pos ≤ s.length + 1 →
      prev ≤ (pos : Int) →
      ∃ R : List (List Int), (∀ d : Int,
          allMatchesLoop re s d s.length fuel pos 0 prev = some (R.take d.toNat)) ∧
        R.length + pos ≤ s.length + 1 ∧ SpansFrom (pos : Int) prev R ∧
        MatchesFrom re s s0 pos R := by
  intro fuel
  induction fuel with
  | zero => intro pos prev h1 h2; omega
  | succ fuel ih =>
    intro pos prev hfuel hle hprev
    by_cases hpos : pos ≤ s.length
    · obtain ⟨r, hr, hm⟩ := doExecute_sound hR s pos hpos
      cases r with
      | none =>
        refine ⟨[], ?_, by simp; omega, trivial, trivial⟩
        intro d
        unfold allMatchesLoop
        by_cases hd : (0 : Int) < d ∧ pos ≤ s.length
        · rw [if_neg (not_not.2 hd), hr]
          simp
        · rw [if_pos hd]
          simp
      | some a =>
        have hma := hm a rfl
        obtain ⟨hlen, p, q, h0, h1, hp, hpq, hq⟩ := MatchAt_span hR.prog hma
        have hl0 : ¬ a.length = 0 := by omega
        -- the next offset
        have hwle := DecodeRune_width_le ((s.drop pos).take (s.length - pos))
        simp only [List.length_take, List.length_drop] at hwle
        obtain ⟨pos2, hpos2, hgt, hle2, hprev2⟩ : ∃ pos2 : Nat,
            pos2 = (if decide ((q : Int) = (pos : Int)) = true then
              (if (DecodeRuneInString ((s.drop pos).take (s.length - pos))).2 > 0 then
                pos + (DecodeRuneInString ((s.drop pos).take (s.length - pos))).2
              else s.length + 1) else (q : Int).toNat) ∧
            pos < pos2 ∧ pos2 ≤ s.length + 1 ∧ (q : Int) ≤ (pos2 : Int) := by
          refine ⟨_, rfl, ?_⟩
          unfold DecodeRuneInString
          by_cases hqp : (q : Int) = (pos : Int)
          · rw [if_pos (by simpa using hqp)]
            by_cases hw : (DecodeRune ((s.drop pos).take (s.length - pos))).2 > 0
            · rw [if_pos hw]
              refine ⟨by omega, by omega, by omega⟩
            · rw [if_neg hw]
              refine ⟨by omega, by omega, by omega⟩
          · rw [if_neg (by simpa using hqp)]
            simp only [Int.toNat_ofNat]
            refine ⟨by omega, by omega, le_rfl⟩
        obtain ⟨R2, hR2, hcnt, hsp, hall⟩ := ih pos2 (q : Int) (by omega) hle2 hprev2
        have hall2 : MatchesFrom re s s0 pos R2 := MatchesFrom_mono hall (by omega)
        by_cases hacc : (!(decide ((q : Int) = (pos : Int)) && decide ((p : Int) = prev))) = true
        · refine ⟨a :: R2, ?_, by simp; omega, ?_, ?_⟩
          · intro d
            unfold allMatchesLoop
            by_cases hd : (0 : Int) < d ∧ pos ≤ s.length
            · rw [if_neg (not_not.2 hd), hr]
              simp only
              rw [if_neg hl0, h0, h1]
              simp only
              rw [if_pos hacc, ← hpos2, allMatchesLoop_shift, hR2]
              simp only [Option.map_some', Option.some.injEq]
              exact take_succ_toNat a R2 hd.1
            · rw [if_pos hd]
              have : d.toNat = 0 := by omega
              rw [this]
              rfl
          · refine ⟨p, q, h0, h1, by omega, by omega, ?_, SpansFrom_mono hsp (by omega)⟩
            intro hpq2
            simp only [Bool.not_eq_true', Bool.and_eq_false_imp, decide_eq_true_eq,
              decide_eq_false_iff_not] at hacc
            by_cases hqp : (q : Int) = (pos : Int)
            · have := hacc hqp
              omega
            · omega
          · exact ⟨hma, pos2, hgt, hall⟩
        · have hrej : decide ((q : Int) = (pos : Int)) = true ∧ decide ((p : Int) = prev) = true := by
            simpa using hacc
          simp only [decide_eq_true_eq] at hrej
          refine ⟨R2, ?_, by omega, ?_, hall2⟩
          · intro d
            unfold allMatchesLoop
            by_cases hd : (0 : Int) < d ∧ pos ≤ s.length
            · rw [if_neg (not_not.2 hd), hr]
              simp only
              rw [if_neg hl0, h0, h1]
              simp only
              rw [if_neg hacc, ← hpos2, hR2]
            · rw [if_pos hd]
              have : d.toNat = 0 := by omega
              rw [this]
              rfl
          · have : prev = (q : Int) := by omega
            rw [this]
            exact SpansFrom_mono hsp (by omega)
    · refine ⟨[], ?_, by simp; omega, trivial, trivial⟩
      intro d
      unfold allMatchesLoop
      rw [if_pos (fun h => hpos h.2)]
      simp

/-- The results of FindAllStringIndex on a well-formed program, for every limit n: the
first n (all, when n is negative) of the spans of one list of matches, which is no longer
than the string plus one. -/
theorem FindAll_spec {re : Regexp} {rk : Nat → Nat} {x0 : instr} {s0 : Nat}
    (hR : Ready re rk x0 s0) (s : List Nat) :
    ∃ R : List (List Int), R.length ≤ s.length + 1 ∧ SpansFrom 0 (-1) R ∧
      MatchesFrom re s s0 0 R ∧
      (∀ n : Int, 0 ≤ n → re.FindAllStringIndex s n =
        some ((R.map (fun a => a.take 2)).take n.toNat)) ∧
      (∀ n : Int, n < 0 → re.FindAllStringIndex s n = some (R.map (fun a => a.take 2))) := by
  obtain ⟨R, h1, h2, h3, h4⟩ := allMatchesLoop_spec hR s (s.length + 2) 0 (-1) (by omega)
    (by omega) (by omega)
  refine ⟨R, by omega, h3, h4, ?_, ?_⟩
  · intro n hn
    unfold Regexp.FindAllStringIndex Regexp.allMatches
    simp only [if_neg (not_lt.2 hn)]
    rw [h1 n]
    simp only [Option.map_some', List.map_take]
  · intro n hn
    unfold Regexp.FindAllStringIndex Regexp.allMatches
    simp only [if_pos hn]
    rw [h1]
    simp only [Option.map_some', Option.some.injEq]
    rw [List.take_of_length_le]
    omega

theorem take_two {a : List Int} {a0 a1 : Int} (h0 : a[0]? = some a0) (h1 : a[1]? = some a1) :
    a.take 2 = [a0, a1] := by
  cases a with
  | nil => cases h0
  | cons x t =>
    cases t with
    | nil => cases h1
    | cons y t2 =>
      simp only [List.getElem?_cons_zero, Option.some.injEq] at h0
      simp only [List.getElem?_cons_succ, List.getElem?_cons_zero, Option.some.injEq] at h1
      simp [h0, h1]

end GoRegexp

namespace GoRegexp

/-! ## Runs, step by step -/

theorem DecodeRune_ascii {l : List Nat} {c : Int} (h : (DecodeRune l).1 = c) (h0 : 0 ≤ c)
    (h1 : c < 128) : ∃ t, l = c.toNat :: t ∧ (DecodeRune l).2 = 1 := by
  cases l with
  | nil => simp [DecodeRune, RuneError] at h; omega
  | cons b0 t =>
    by_cases hb : b0 < 128
    · have e : DecodeRune (b0 :: t) = ((b0 : Int), 1) := by
        unfold DecodeRune
        simp only [hb, if_true]
      rw [e] at h ⊢
      simp only at h
      refine ⟨t, ?_, rfl⟩
      subst h
      simp
    · exfalso
      unfold DecodeRune at h
      simp only [hb, if_false] at h
      repeat' split at h
      all_goals (simp only [RuneError] at h; omega)

theorem Run_start_inv {G : List instr} {b : List Nat} {i pos k q : Nat} {m m2 : List Int}
    {tr : List Nat} (h : Run G b i pos m tr k q m2) :
    (k = i ∧ q = pos ∧ m2 = m ∧ tr = []) ∨
    ∃ j pos1 m1 tr2, Step G b i pos m j pos1 m1 ∧ Run G b j pos1 m1 tr2 k q m2 ∧
      tr = i :: tr2 := by
  cases h with
  | nil => exact Or.inl ⟨rfl, rfl, rfl, rfl⟩
  | cons hs hr => exact Or.inr ⟨_, _, _, _, hs, hr, rfl⟩

/-- The move out of an instruction that consumes. -/
theorem Step_eats_inv {G : List instr} {b : List Nat} {i pos j pos1 : Nat} {m m1 : List Int}
    {x : instr} (hx : G[i]? = some x)
    (hk : x.kind = .iChar ∨ x.kind = .iCharClass ∨ x.kind = .iAny ∨ x.kind = .iNotNL)
    (h : Step G b i pos m j pos1 m1) :
    x.next = some j ∧ pos < b.length ∧ x.eats (DecodeRune (b.drop pos)).1 = true ∧
      pos1 = pos + (DecodeRune (b.drop pos)).2 ∧ m1 = m := by
  cases h with
  | eat hy hl he hj => rw [hx] at hy; cases hy; exact ⟨hj, hl, he, rfl, rfl⟩
  | bot hy hk2 _ _ => rw [hx] at hy; cases hy; rw [hk2] at hk; simp at hk
  | eot hy hk2 _ _ => rw [hx] at hy; cases hy; rw [hk2] at hk; simp at hk
  | bra hy hk2 _ => rw [hx] at hy; cases hy; rw [hk2] at hk; simp at hk
  | altLeft hy hk2 _ => rw [hx] at hy; cases hy; rw [hk2] at hk; simp at hk
  | altNext hy hk2 _ => rw [hx] at hy; cases hy; rw [hk2] at hk; simp at hk

theorem Step_eot_inv {G : List instr} {b : List Nat} {i pos j pos1 : Nat} {m m1 : List Int}
    {x : instr} (hx : G[i]? = some x) (hk : x.kind = .iEOT)
    (h : Step G b i pos m j pos1 m1) :
    x.next = some j ∧ pos = b.length ∧ pos1 = pos ∧ m1 = m := by
  cases h with
  | eot hy _ hp hj => rw [hx] at hy; cases hy; exact ⟨hj, hp, rfl, rfl⟩
  | bot hy hk2 _ _ => rw [hx] at hy; cases hy; rw [hk2] at hk; cases hk
  | eat hy _ he _ => rw [hx] at hy; cases hy; unfold instr.eats at he; simp [hk] at he
  | bra hy hk2 _ => rw [hx] at hy; cases hy; rw [hk2] at hk; cases hk
  | altLeft hy hk2 _ => rw [hx] at hy; cases hy; rw [hk2] at hk; cases hk
  | altNext hy hk2 _ => rw [hx] at hy; cases hy; rw [hk2] at hk; cases hk

theorem Step_bot_inv {G : List instr} {b : List Nat} {i pos j pos1 : Nat} {m m1 : List Int}
    {x : instr} (hx : G[i]? = some x) (hk : x.kind = .iBOT)
    (h : Step G b i pos m j pos1 m1) :
    x.next = some j ∧ pos = 0 ∧ pos1 = pos ∧ m1 = m := by
  cases h with
  | bot hy _ hp hj => rw [hx] at hy; cases hy; exact ⟨hj, hp, rfl, rfl⟩
  | eot hy hk2 _ _ => rw [hx] at hy; cases hy; rw [hk2] at hk; cases hk
  | eat hy _ he _ => rw [hx] at hy; cases hy; unfold instr.eats at he; simp [hk] at he
  | bra hy hk2 _ => rw [hx] at hy; cases hy; rw [hk2] at hk; cases hk
  | altLeft hy hk2 _ => rw [hx] at hy; cases hy; rw [hk2] at hk; cases hk
  | altNext hy hk2 _ => rw [hx] at hy; cases hy; rw [hk2] at hk; cases hk

/-- No move leaves iEnd. -/
theorem Step_end_inv {G : List instr} {b : List Nat} {i pos j pos1 : Nat} {m m1 : List Int}
    {x : instr} (hx : G[i]? = some x) (hk : x.kind = .iEnd)
    (h : Step G b i pos m j pos1 m1) : False := by
  cases h with
  | bot hy hk2 _ _ => rw [hx] at hy; cases hy; rw [hk2] at hk; cases hk
  | eot hy hk2 _ _ => rw [hx] at hy; cases hy; rw [hk2] at hk; cases hk
  | eat hy _ he _ => rw [hx] at hy; cases hy; unfold instr.eats at he; simp [hk] at he
  | bra hy hk2 _ => rw [hx] at hy; cases hy; rw [hk2] at hk; cases hk
  | altLeft hy hk2 _ => rw [hx] at hy; cases hy; rw [hk2] at hk; cases hk
  | altNext hy hk2 _ => rw [hx] at hy; cases hy; rw [hk2] at hk; cases hk

/-- A run from an iChar instruction to iEnd goes over the byte of its ASCII character. -/
theorem Run_char_ascii {G : List instr} {b : List Nat} {i pos k q : Nat} {m m2 : List Int}
    {tr : List Nat} {x : instr} (hx : G[i]? = some x) (hk : x.kind = .iChar)
    (h0 : 0 ≤ x.char) (h1 : x.char < 128) (h : Run G b i pos m tr k q m2)
    (hend : kindAt G k = some .iEnd) :
    ∃ j tr2, x.next = some j ∧ pos < b.length ∧ b[pos]? = some x.char.toNat ∧
      Run G b j (pos + 1) m tr2 k q m2 ∧ tr = i :: tr2 := by
  rcases Run_start_inv h with ⟨e1, -⟩ | ⟨j, pos1, m1, tr2, hs, hr, htr⟩
  · subst e1
    unfold kindAt at hend
    rw [hx] at hend
    simp only [Option.map_some', Option.some.injEq] at hend
    rw [hk] at hend
    cases hend
  · obtain ⟨a1, a2, a3, a4, a5⟩ := Step_eats_inv hx (Or.inl hk) hs
    unfold instr.eats at a3
    simp only [hk, decide_eq_true_eq] at a3
    obtain ⟨t, e1, e2⟩ := DecodeRune_ascii a3 h0 h1
    subst a5
    rw [e2] at a4
    subst a4
    refine ⟨j, tr2, a1, a2, ?_, hr, htr⟩
    have := congrArg (fun l => l[0]?) e1
    simp only [List.getElem?_drop, Nat.add_zero, List.getElem?_cons_zero] at this
    exact this

end GoRegexp

namespace GoRegexp

/-! ## The bytes of the prefix -/

theorem EncodeRune_head (r : Int) : ∃ h t, EncodeRune r = h :: t ∧ (h < 128 ∨ 192 ≤ h) := by
  unfold EncodeRune
  simp only
  split
  · exact ⟨_, _, rfl, by omega⟩
  · split
    · exact ⟨_, _, rfl, by omega⟩
    · split
      · exact ⟨_, _, rfl, by omega⟩
      · split
        · exact ⟨_, _, rfl, by omega⟩
        · split
          · exact ⟨_, _, rfl, by omega⟩
          · split
            · exact ⟨_, _, rfl, by omega⟩
            · exact ⟨_, _, rfl, by omega⟩

/-- The bytes of a rune of more than one byte, after the first, are continuation bytes. -/
theorem DecodeRune_cont {l : List Nat} (k : Nat) (h1 : 1 ≤ k) (h2 : k < (DecodeRune l).2) :
    ∃ x, l[k]? = some x ∧ 128 ≤ x ∧ x < 192 := by
  unfold DecodeRune at h2
  repeat' split at h2
  all_goals (try simp only at h2)
  all_goals (try omega)
  all_goals (try split at h2)
  all_goals (try simp only at h2)
  all_goals (try omega)
  all_goals (rcases k with _ | _ | _ | _ | k)
  all_goals (try omega)
  all_goals (simp only [List.getElem?_cons_succ, List.getElem?_cons_zero, Option.some.injEq,
    exists_eq_left'])
  all_goals omega

/-- The first byte that prefixLoop collects is the first byte of the encoding of a rune. -/
theorem prefixLoop_head (inst : List instr) : ∀ (fuel : Nat) (i : Option Nat) (b : List Nat)
    (j : Option Nat) (b2 : List Nat), prefixLoop inst fuel i b = .ok (j, b2) →
    (∀ h, b.head? = some h → b2.head? = some h) ∧
    (b = [] → ∀ h, b2.head? = some h → h < 128 ∨ 192 ≤ h) := by
  intro fuel
  induction fuel with
  | zero => intro i b j b2 h; cases h
  | succ fuel ih =>
    intro i b j b2 h
    unfold prefixLoop at h
    split at h
    · cases h
    · split at h
      · cases h
      · split at h
        · cases h
          exact ⟨fun _ h => h, fun hb h hh => by rw [hb] at hh; cases hh⟩
        · split at h
          · cases h
            exact ⟨fun _ h => h, fun hb h hh => by rw [hb] at hh; cases hh⟩
          · split at h
            · cases h
            · split at h
              · cases h
              · split at h
                · cases h
                  exact ⟨fun _ h => h, fun hb h hh => by rw [hb] at hh; cases hh⟩
                · rename_i x _ _ _ _ _ _ _ _ _ _
                  obtain ⟨g1, g2⟩ := ih _ _ _ _ h
                  obtain ⟨h0, t0, e0, hh0⟩ := EncodeRune_head x.char
                  constructor
                  · intro hd hb
                    apply g1
                    cases b with
                    | nil => cases hb
                    | cons a t => simpa using hb
                  · intro hb hd hh
                    subst hb
                    have := g1 h0 (by rw [e0]; rfl)
                    rw [this] at hh
                    cases hh
                    exact hh0

/-- The first byte of the prefix of a compiled program is not a continuation byte. -/
theorem prefix_head {re : Regexp} (h : re.setPrefix = .ok re) :
    ∀ x, re.prefixBytes.head? = some x → x < 128 ∨ 192 ≤ x := by
  obtain ⟨-, -, -, -, s, i, -, -, hj⟩ := setPrefix_inst h
  exact (prefixLoop_head _ _ _ _ _ _ hj).2 rfl

theorem Compile_prefixed {pat : List Nat} {re : Regexp} (h : Compile pat = .ok re) :
    re.setPrefix = .ok re := by
  unfold Compile at h
  rcases doParse_spec pat with ⟨re2, v, -, h2, -, -, h3⟩ | ⟨e, -, h2⟩
  · rw [h2] at h
    cases h
    exact h3
  · rw [h2] at h
    cases h

/-- Where the scan of doExecute starts after the check of the prefix: at pos, or after the
rune at pos. -/
theorem advance_aligned {re : Regexp}
    (hpre : ∀ x, re.prefixBytes.head? = some x → x < 128 ∨ 192 ≤ x)
    (str : List Nat) (pos : Nat) (anchored : Bool) :
    (advanceOf re str pos anchored).toNat = 0 ∨
      pos + (DecodeRune (str.drop pos)).2 ≤ pos + (advanceOf re str pos anchored).toNat := by
  unfold advanceOf
  split
  · rename_i hne
    split
    · split
      · left; rfl
      · left; rfl
    · rcases Index_spec (str.drop pos) re.prefixBytes with ⟨h1, -⟩ | ⟨r, h1, h2, h3, -⟩
      · rw [h1]; left; rfl
      · rw [h1]
        simp only [Int.toNat_ofNat]
        by_cases hr : r = 0
        · left; exact hr
        · right
          by_contra hlt
          obtain ⟨x, hx, hx1, hx2⟩ := DecodeRune_cont (l := str.drop pos) r (by omega) (by omega)
          have hh : re.prefixBytes.head? = some x := by
            cases hp : re.prefixBytes with
            | nil => exact absurd hp hne
            | cons a t =>
              rw [hp] at h3
              have := congrArg (fun l => l[0]?) h3
              simp only [List.length_cons, List.getElem?_take, List.getElem?_drop,
                Nat.add_zero, List.getElem?_cons_zero] at this
              simp only [List.getElem?_drop] at hx
              rw [if_pos (by omega)] at this
              rw [hx] at this
              simp only [List.head?_cons]
              exact this.symm
          have := hpre x hh
          omega
  · left; rfl

/-- doExecute on a compiled program returns; a vector it returns is the vector of a match
that starts at or after pos, and the match ends at pos or not before the end of the rune
at pos. -/
theorem doExecute_aligned {re : Regexp} {rk : Nat → Nat} {x0 : instr} {s0 : Nat}
    (hR : Ready re rk x0 s0)
    (hpre : ∀ x, re.prefixBytes.head? = some x → x < 128 ∨ 192 ≤ x)
    (str : List Nat) (pos : Nat) (hpos : pos ≤ str.length) :
    ∃ r, re.doExecute str none pos = some r ∧ ∀ m, r = some m →
      MatchAt re str s0 pos m ∧ ∃ q : Nat, m[1]? = some (q : Int) ∧
        (q = pos ∨ pos + (DecodeRune (str.drop pos)).2 ≤ q) := by
  obtain ⟨xs, hxs, -, -⟩ := Good_get hR.good
  rw [doExecute_unfold hR hxs]
  by_cases ha : decide (xs.kind = .iBOT) = true ∧ pos > 0
  · rw [if_pos ha]
    exact ⟨none, rfl, fun m hm => by cases hm⟩
  · rw [if_neg ha]
    rcases advanceOf_range re str pos (decide (xs.kind = .iBOT)) hpos with hadv | ⟨hadv, hle⟩
    · rw [if_pos hadv]
      exact ⟨none, rfl, fun m hm => by cases hm⟩
    · rw [if_neg (by omega)]
      obtain ⟨r, hr, hfin, -⟩ := executeLoop_spec hR str
        (pos + (advanceOf re str pos (decide (xs.kind = .iBOT))).toNat)
        (decide (xs.kind = .iBOT))
        (fun h => ⟨xs, hxs, by simpa using h⟩) (str.length + 2) _ [] none false
        (by omega) (by omega) le_rfl (LoopInv_init re str s0 _)
      rw [hr]
      cases r with
      | none => exact ⟨none, rfl, fun m hm => by cases hm⟩
      | some f =>
        obtain ⟨hpl, p0, q, tr, m1, k, h1, h2, h3, h4, h5⟩ := hfin f rfl
        simp only [hpl, Bool.false_eq_true, false_and, if_false]
        refine ⟨some f.m, rfl, ?_⟩
        intro m hm
        cases hm
        have hsp := RuneStart_le h1
        have hma : MatchAt re str s0 pos f.m := ⟨p0, q, tr, m1, k, by omega, h2, h3, h4, h5⟩
        obtain ⟨-, p, q2, c0, c1, c2, c3, c4⟩ := MatchAt_span hR.prog hma
        have hl := Run_length h3
        rw [seedVec_length] at hl
        have c1b : f.m[1]? = some (q : Int) := by
          rw [get1_vend (by rw [h5, List.length_set, hl]; omega), h5, vend_set1 _ (by omega)]
        refine ⟨hma, q, c1b, ?_⟩
        have hq := RuneStart_trans h1 (Run_runeStart h3)
        rcases advance_aligned hpre str pos (decide (xs.kind = .iBOT)) with h0 | h0
        · rw [h0, Nat.add_zero] at hq
          by_cases hqp : q = pos
          · exact Or.inl hqp
          · right
            have := RuneStart_le hq
            exact (RuneStart_succ_le (q + pos + 1) q pos (by omega) hq .first (by omega)).2
        · right
          have := RuneStart_le hq
          omega

end GoRegexp

namespace GoRegexp

/-! ## ReplaceAllStringFunc -/

theorem sliceOf_to_end (src : List Nat) (last : Int) (h0 : 0 ≤ last)
    (h1 : last ≤ (src.length : Int)) :
    sliceOf src last (src.length : Int) = some (src.drop last.toNat) := by
  unfold sliceOf
  rw [if_pos ⟨h0, h1, le_rfl⟩, List.take_of_length_le]
  simp only [List.length_drop, Int.toNat_ofNat]
  omega

theorem sliceOf_ok (src : List Nat) (i j : Int) (h0 : 0 ≤ i) (h1 : i ≤ j)
    (h2 : j ≤ (src.length : Int)) :
    sliceOf src i j = some ((src.drop i.toNat).take (j.toNat - i.toNat)) := by
  unfold sliceOf
  rw [if_pos ⟨h0, h1, h2⟩]

/-- The two loops move to the same offset after a match that ends at q. -/
theorem nextPos_eq (pos q w len : Nat) (hq : pos ≤ q) (hal : q = pos ∨ pos + w ≤ q)
    (hw : w = 0 → pos = len) :
    (if decide ((q : Int) = (pos : Int)) = true then (if w > 0 then pos + w else len + 1)
      else (q : Int).toNat) =
    (if (pos : Int) + (w : Int) > (q : Int) then pos + w
      else if (pos : Int) + 1 > (q : Int) then pos + 1 else (q : Int).toNat) := by
  by_cases h : q = pos
  · subst h
    simp only [decide_True, if_true]
    by_cases hw0 : w > 0
    · rw [if_pos hw0, if_pos (by omega)]
    · rw [if_neg hw0, if_neg (by omega), if_pos (by omega)]
      have := hw (by omega)
      omega
  · rw [if_neg (by simp; omega), if_neg (by omega), if_neg (by omega)]

theorem map_cons_eq_some {α : Type} {o : Option (List α)} {a : α} {R : List α}
    (h : o.map (fun r => a :: r) = some R) : ∃ R2, o = some R2 ∧ R = a :: R2 := by
  cases o with
  | none => cases h
  | some r =>
    simp only [Option.map_some', Option.some.injEq] at h
    exact ⟨r, rfl, h.symm⟩

theorem width_zero_end {src : List Nat} {pos : Nat} (hpos : pos ≤ src.length)
    (hw : (DecodeRune (src.drop pos)).2 = 0) : pos = src.length := by
  by_contra hne
  have := width_pos_at (b := src) (p := pos) (by omega)
  omega

/-- The loop of ReplaceAllStringFunc and the loop of allMatches go through the same
matches: when the loop of allMatches, not stopped by its limit, delivers R, the loop of
ReplaceAllStringFunc writes the text between and after the spans of R and the
replacements of their texts. -/
theorem replaceLoop_spec {re : Regexp} {rk : Nat → Nat} {x0 : instr} {s0 : Nat}
    (hR : Ready re rk x0 s0)
    (hpre : ∀ x, re.prefixBytes.head? = some x → x < 128 ∨ 192 ≤ x)
    (src : List Nat) (repl : List Nat → List Nat) :
    ∀ (fuel pos : Nat) (prev last : Int) (buf : List Nat) (d : Int) (R : List (List Int)),
      src.length + 2 ≤ fuel + pos → pos ≤ src.length + 1 →
      ((prev = -1 ∧ last = 0 ∧ pos = 0) ∨
        (prev = last ∧ 0 ≤ last ∧ last ≤ (pos : Int) ∧ 0 < pos)) →
      last ≤ (src.length : Int) →
      allMatchesLoop re src d src.length fuel pos 0 prev = some R → (R.length : Int) < d →
      replaceLoop re src repl fuel last pos buf =
        some (buf ++ spliceSpans src repl last.toNat (R.map (fun a => a.take 2))) := by
  intro fuel
  induction fuel with
  | zero => intro pos prev last buf d R h1 h2; omega
  | succ fuel ih =>
    intro pos prev last buf d R hfuel hle hinv hlast hloop hd
    have hl0 : 0 ≤ last := by rcases hinv with ⟨-, h, -⟩ | ⟨-, h, -⟩ <;> omega
    unfold replaceLoop
    unfold allMatchesLoop at hloop
    by_cases hpos : pos ≤ src.length
    · rw [if_neg (not_not.2 hpos)]
      rw [if_neg (not_not.2 ⟨by omega, hpos⟩)] at hloop
      obtain ⟨r, hr, hm⟩ := doExecute_aligned hR hpre src pos hpos
      rw [hr] at hloop ⊢
      cases r with
      | none =>
        simp only [Option.some.injEq] at hloop
        subst hloop
        simp only [sliceOf_to_end src last hl0 hlast, Option.map_some', List.map_nil, spliceSpans]
      | some a =>
        obtain ⟨hma, q, c1, hal⟩ := hm a rfl
        obtain ⟨hlen, p, q2, c0, c1b, hp, hpq, hq⟩ := MatchAt_span hR.prog hma
        have hqq : q2 = q := by
          rw [c1] at c1b
          simp only [Option.some.injEq, Nat.cast_inj] at c1b
          exact c1b.symm
        subst hqq
        have hl0a : ¬ a.length = 0 := by omega
        simp only [if_neg hl0a, c0, c1] at hloop ⊢
        have hlp : last ≤ (p : Int) := by
          rcases hinv with ⟨-, h, -⟩ | ⟨-, -, h, -⟩ <;> omega
        rw [sliceOf_ok src last p hl0 hlp (by omega)]
        simp only
        have htk : (src.drop pos).take (src.length - pos) = src.drop pos :=
          List.take_of_length_le (by simp)
        rw [htk] at hloop
        unfold DecodeRuneInString at hloop ⊢
        have hnp := nextPos_eq pos q2 (DecodeRune (src.drop pos)).2 src.length (by omega) hal
          (width_zero_end hpos)
        rw [hnp] at hloop
        have hx2 : a.take 2 = [(p : Int), (q2 : Int)] := take_two c0 c1
        have hpos2 : pos < (if (pos : Int) + ((DecodeRune (src.drop pos)).2 : Int) > (q2 : Int)
            then pos + (DecodeRune (src.drop pos)).2
            else if (pos : Int) + 1 > (q2 : Int) then pos + 1 else (q2 : Int).toNat) ∧
            (if (pos : Int) + ((DecodeRune (src.drop pos)).2 : Int) > (q2 : Int)
            then pos + (DecodeRune (src.drop pos)).2
            else if (pos : Int) + 1 > (q2 : Int) then pos + 1 else (q2 : Int).toNat)
              ≤ src.length + 1 ∧
            q2 ≤ (if (pos : Int) + ((DecodeRune (src.drop pos)).2 : Int) > (q2 : Int)
            then pos + (DecodeRune (src.drop pos)).2
            else if (pos : Int) + 1 > (q2 : Int) then pos + 1 else (q2 : Int).toNat) := by
          have hwle := DecodeRune_width_le (src.drop pos)
          simp only [List.length_drop] at hwle
          split
          · omega
          · split
            · omega
            · simp only [Int.toNat_ofNat]
              omega
        generalize (if (pos : Int) + ((DecodeRune (src.drop pos)).2 : Int) > (q2 : Int)
            then pos + (DecodeRune (src.drop pos)).2
            else if (pos : Int) + 1 > (q2 : Int) then pos + 1 else (q2 : Int).toNat) = pos2
            at hloop hpos2 ⊢
        have hinv2 : ((q2 : Int) = -1 ∧ (q2 : Int) = 0 ∧ pos2 = 0) ∨
            ((q2 : Int) = (q2 : Int) ∧ 0 ≤ (q2 : Int) ∧ (q2 : Int) ≤ (pos2 : Int) ∧ 0 < pos2) :=
          Or.inr ⟨rfl, by omega, by omega, by omega⟩
        by_cases hacc : (!(decide ((q2 : Int) = (pos : Int)) && decide ((p : Int) = prev))) = true
        · rw [if_pos hacc, allMatchesLoop_shift] at hloop
          obtain ⟨R2, hR2, hRR⟩ := map_cons_eq_some hloop
          subst hRR
          have hw : (q2 : Int) > last ∨ (p : Int) = 0 := by
            simp only [Bool.not_eq_true', Bool.and_eq_false_imp, decide_eq_true_eq,
              decide_eq_false_iff_not] at hacc
            rcases hinv with ⟨h1, h2, h3⟩ | ⟨h1, h2, h3, h4⟩
            · by_cases hp0 : p = 0
              · right; omega
              · left; omega
            · left
              by_contra hc
              have hqe : (q2 : Int) = (pos : Int) := by omega
              have := hacc hqe
              omega
          rw [if_pos hw, sliceOf_ok src p q2 (by omega) (by omega) (by omega)]
          simp only [Option.map_some']
          rw [ih pos2 (q2 : Int) (q2 : Int) _ (d - (0 + 1)) R2 (by omega) hpos2.2.1 hinv2
            (by omega) hR2 (by simp only [List.length_cons] at hd; push_cast at hd; omega)]
          simp only [List.map_cons, hx2, spliceSpans, List.getD_cons_zero, List.getD_cons_succ,
            Int.toNat_ofNat, List.append_assoc]
        · have hrej : (q2 : Int) = (pos : Int) ∧ (p : Int) = prev := by
            simpa using hacc
          rw [if_neg hacc] at hloop
          have hw : ¬ ((q2 : Int) > last ∨ (p : Int) = 0) := by
            rcases hinv with ⟨h1, h2, h3⟩ | ⟨h1, h2, h3, h4⟩
            · omega
            · omega
          rw [if_neg hw]
          simp only
          rw [ih pos2 (q2 : Int) (q2 : Int) _ d R (by omega) hpos2.2.1 hinv2 (by omega) hloop hd]
          have hlq : last = (q2 : Int) := by
            rcases hinv with ⟨h1, h2, h3⟩ | ⟨h1, h2, h3, h4⟩ <;> omega
          have hpl : (p : Int).toNat - last.toNat = 0 := by omega
          rw [hpl, hlq]
          simp only [List.take_zero, List.append_nil]
    · rw [if_pos hpos]
      rw [if_pos (fun h => hpos h.2)] at hloop
      simp only [Option.some.injEq] at hloop
      subst hloop
      simp only [sliceOf_to_end src last hl0 hlast, Option.map_some', List.map_nil, spliceSpans]

end GoRegexp

namespace GoRegexp

/-! ## The matcher on two programs that differ by iNotNL and iAny -/

theorem notNLAsAny_next (x : instr) : (notNLAsAny x).next = x.next := by
  unfold notNLAsAny; split <;> rfl

theorem notNLAsAny_left (x : instr) : (notNLAsAny x).left = x.left := by
  unfold notNLAsAny; split <;> rfl

theorem notNLAsAny_braNum (x : instr) : (notNLAsAny x).braNum = x.braNum := by
  unfold notNLAsAny; split <;> rfl

theorem notNLAsAny_char (x : instr) : (notNLAsAny x).char = x.char := by
  unfold notNLAsAny; split <;> rfl

theorem notNLAsAny_cclass (x : instr) : (notNLAsAny x).cclass = x.cclass := by
  unfold notNLAsAny; split <;> rfl

theorem notNLAsAny_kind (x : instr) :
    (notNLAsAny x).kind = if x.kind = .iNotNL then .iAny else x.kind := by
  unfold notNLAsAny; split <;> rfl

theorem notNLAsAny_kind_eq (x : instr) (k : Kind) (hk : k ≠ .iNotNL) (hk2 : k ≠ .iAny) :
    (notNLAsAny x).kind = k ↔ x.kind = k := by
  rw [notNLAsAny_kind]
  split
  · rename_i h
    rw [h]
    constructor
    · intro h0; exact absurd h0.symm hk2
    · intro h0; exact absurd h0.symm hk
  · rfl

theorem addState_asAny (G : List instr) (fuel : Nat) :
    ∀ (s : List state) (i : Option Nat) (pf : Bool) (m : List Int) (pos e : Nat),
      addState (G.map notNLAsAny) fuel s i pf m pos e = addState G fuel s i pf m pos e := by
  induction fuel with
  | zero => intro s i pf m pos e; rfl
  | succ fuel ih =>
    intro s i pf m pos e
    cases i with
    | none => rfl
    | some k =>
      unfold addState
      simp only [List.getElem?_map]
      cases hx : G[k]? with
      | none => rfl
      | some x =>
        simp only [Option.map_some', notNLAsAny_next, notNLAsAny_left, notNLAsAny_braNum,
          notNLAsAny_kind_eq x .iBOT (by decide) (by decide),
          notNLAsAny_kind_eq x .iEOT (by decide) (by decide),
          notNLAsAny_kind_eq x .iBra (by decide) (by decide),
          notNLAsAny_kind_eq x .iAlt (by decide) (by decide), ih]

theorem stepState_asAny (G : List instr) (fuel : Nat) (c : Int) (hc : c ≠ 10)
    (pos cw e : Nat) (acc : execState) (st : state) :
    stepState (G.map notNLAsAny) fuel c pos cw e acc st = stepState G fuel c pos cw e acc st := by
  unfold stepState
  simp only [List.getElem?_map]
  cases hx : G[st.inst]? with
  | none => rfl
  | some x =>
    simp only [Option.map_some', notNLAsAny_next, notNLAsAny_char, notNLAsAny_cclass,
      addState_asAny]
    rw [notNLAsAny_kind]
    cases hk : x.kind <;> simp [hc]

theorem stepAll_asAny (G : List instr) (fuel : Nat) (c : Int) (hc : c ≠ 10)
    (pos cw e : Nat) : ∀ (l : List state) (acc : execState),
    stepAll (G.map notNLAsAny) fuel c pos cw e l acc = stepAll G fuel c pos cw e l acc := by
  intro l
  induction l with
  | nil => intro acc; rfl
  | cons st t ih =>
    intro acc
    unfold stepAll
    rw [stepState_asAny G fuel c hc]
    cases stepState G fuel c pos cw e acc st with
    | none => rfl
    | some a => exact ih a

theorem DecodeRune_newline {l : List Nat} (h : (DecodeRune l).1 = 10) : 10 ∈ l := by
  obtain ⟨t, ht, -⟩ := DecodeRune_ascii h (by decide) (by decide)
  rw [ht]
  simp

theorem executeLoop_asAny (re : Regexp) (x : List Nat) (b : List Nat) (hb : 10 ∉ b)
    (e sp : Nat) (anch : Bool) (fuel : Nat) :
    ∀ (pos : Nat) (out : List state) (final : Option state) (found : Bool),
      executeLoop (re.asAny x) b e sp anch fuel pos out final found =
        executeLoop re b e sp anch fuel pos out final found := by
  induction fuel with
  | zero => intro pos out final found; rfl
  | succ fuel ih =>
    intro pos out final found
    have hcw : (if pos < e then DecodeRune ((b.drop pos).take (e - pos))
        else (endOfFile, 1)).1 ≠ 10 := by
      split
      · intro h
        exact hb (List.mem_of_mem_drop (List.mem_of_mem_take (DecodeRune_newline h)))
      · decide
    have hf : addFuel (re.asAny x) = addFuel re := by
      simp [addFuel, Regexp.asAny]
    unfold executeLoop
    simp only [hf, ih]
    simp only [Regexp.asAny, List.getElem?_map, addState_asAny, stepAll_asAny _ _ _ hcw]
    cases hs : re.start with
    | none => rfl
    | some k =>
      simp only
      cases hx : re.inst[k]? with
      | none => rfl
      | some y =>
        simp only [Option.map_some']
        cases hv : vecSet (noMatch (2 * (re.nbra + 1))) 0 (pos : Int) with
        | none => rfl
        | some m => simp only [notNLAsAny_next]

/-- The matcher returns the same on a program and on the program with iAny in the place of
iNotNL, whatever the pattern text kept in the Regexp, on a subject without a newline. -/
theorem doExecute_asAny (re : Regexp) (x : List Nat) (str : List Nat) (bs : Option (List Nat))
    (pos : Nat) (hb : 10 ∉ (match bs with | none => str | some b => b)) :
    (re.asAny x).doExecute str bs pos = re.doExecute str bs pos := by
  have key : ∀ (b : List Nat), 10 ∉ b → ∀ (e sp : Nat) (anch : Bool) (fuel pos : Nat)
      (out : List state) (final : Option state) (found : Bool),
      executeLoop ⟨x, re.prefixBytes, re.inst.map notNLAsAny, re.start, re.prefixStart, re.nbra⟩
        b e sp anch fuel pos out final found =
        executeLoop re b e sp anch fuel pos out final found :=
    fun b hb e sp anch fuel => executeLoop_asAny re x b hb e sp anch fuel
  unfold Regexp.doExecute
  simp only [Regexp.asAny, List.getElem?_map]
  cases h0 : re.inst[0]? with
  | none => rfl
  | some i0 =>
    simp only [Option.map_some', notNLAsAny_next]
    cases hn : i0.next with
    | none => rfl
    | some n0 =>
      simp only
      cases h1 : re.inst[n0]? with
      | none => rfl
      | some i1 =>
        simp only [Option.map_some', notNLAsAny_kind_eq i1 .iBOT (by decide) (by decide)]
        cases bs with
        | none => simp only [key str hb]
        | some b => simp only [key b hb]

theorem executeLoop_expr (re : Regexp) (x : List Nat) (b : List Nat)
    (e sp : Nat) (anch : Bool) (fuel : Nat) :
    ∀ (pos : Nat) (out : List state) (final : Option state) (found : Bool),
      executeLoop { re with expr := x } b e sp anch fuel pos out final found =
        executeLoop re b e sp anch fuel pos out final found := by
  induction fuel with
  | zero => intro pos out final found; rfl
  | succ fuel ih =>
    intro pos out final found
    unfold executeLoop
    simp only [ih]
    rfl

/-- The matcher does not look at the pattern text kept in the Regexp. -/
theorem doExecute_expr (re : Regexp) (x : List Nat) (str : List Nat) (bs : Option (List Nat))
    (pos : Nat) : ({ re with expr := x } : Regexp).doExecute str bs pos = re.doExecute str bs pos := by
  unfold Regexp.doExecute
  simp only [executeLoop_expr re x]

end GoRegexp

namespace GoRegexp

/-! ## The check of the prefix loses no match -/

/-- In well-formed UTF-8, what is left at an offset of the scan is well-formed UTF-8. -/
theorem valid_suffix {b : List Nat} (hv : ValidUTF8 b) {r : Nat} (h : RuneStart b 0 r) :
    ∃ n, (b.drop r).length ≤ n ∧ validUTF8 n (b.drop r) = true := by
  induction h with
  | first => exact ⟨b.length, by simp, by simpa using hv⟩
  | @next p hp hl ih =>
    obtain ⟨n, hn, hval⟩ := ih
    have hne : b.drop p ≠ [] := by
      intro h0
      have := congrArg List.length h0
      simp only [List.length_drop, List.length_nil] at this
      omega
    have hw := DecodeRune_width_pos hne
    cases n with
    | zero =>
      simp only [List.length_drop] at hn
      omega
    | succ n =>
      refine ⟨n, ?_, ?_⟩
      · simp only [List.length_drop] at hn ⊢
        omega
      · unfold validUTF8 at hval
        split at hval
        · rename_i h0; exact absurd h0 hne
        · simp only [Bool.and_eq_true, decide_eq_true_eq] at hval
          rw [← List.drop_drop]
          exact hval.2

/-- In well-formed UTF-8, the bytes of the rune decoded at an offset of the scan are the
encoding of that rune. -/
theorem valid_at {b : List Nat} (hv : ValidUTF8 b) {r : Nat} (h : RuneStart b 0 r)
    (hl : r < b.length) :
    (b.drop r).take (DecodeRune (b.drop r)).2 = EncodeRune (DecodeRune (b.drop r)).1 := by
  obtain ⟨n, hn, hval⟩ := valid_suffix hv h
  have hne : b.drop r ≠ [] := by
    intro h0
    have := congrArg List.length h0
    simp only [List.length_drop, List.length_nil] at this
    omega
  cases n with
  | zero =>
    simp only [List.length_drop] at hn
    omega
  | succ n =>
    unfold validUTF8 at hval
    split at hval
    · rename_i h0; exact absurd h0 hne
    · simp only [Bool.and_eq_true, decide_eq_true_eq] at hval
      exact hval.1

/-- An offset that holds a byte that is not a continuation byte is an offset of the scan. -/
theorem noncont_boundary {b : List Nat} {pos r : Nat} {x : Nat} (hx : b[r]? = some x)
    (hnc : x < 128 ∨ 192 ≤ x) :
    ∀ (n cur : Nat), RuneStart b pos cur → cur ≤ r → r - cur ≤ n → RuneStart b pos r := by
  intro n
  induction n with
  | zero =>
    intro cur hc hle hn
    have : cur = r := by omega
    rw [← this]; exact hc
  | succ n ih =>
    intro cur hc hle hn
    by_cases heq : cur = r
    · rw [← heq]; exact hc
    · have hr : r < b.length := by
        by_contra h0
        rw [List.getElem?_eq_none (by omega)] at hx
        cases hx
      have hcl : cur < b.length := by omega
      have hw := width_pos_at hcl
      by_cases hin : cur + (DecodeRune (b.drop cur)).2 ≤ r
      · exact ih _ (.next hc hcl) hin (by omega)
      · exfalso
        obtain ⟨y, hy, h1, h2⟩ := DecodeRune_cont (l := b.drop cur) (r - cur) (by omega) (by omega)
        rw [List.getElem?_drop] at hy
        have : cur + (r - cur) = r := by omega
        rw [this, hx] at hy
        cases hy
        omega

theorem skipBOT_run {G : List instr} {b : List Nat} : ∀ (fuel : Nat) (i : Nat) (j : Option Nat)
    (p k q : Nat) (m m2 : List Int) (tr : List Nat),
    skipBOT G fuel (some i) = .ok j → Run G b i p m tr k q m2 → kindAt G k = some .iEnd →
    ∃ i2 tr2, j = some i2 ∧ Run G b i2 p m tr2 k q m2 := by
  intro fuel
  induction fuel with
  | zero => intro i j p k q m m2 tr h; cases h
  | succ fuel ih =>
    intro i j p k q m m2 tr h hrun hend
    unfold skipBOT at h
    simp only at h
    cases hx : G[i]? with
    | none => rw [hx] at h; cases h
    | some x =>
      rw [hx] at h
      simp only at h
      by_cases hk : x.kind = .iBOT
      · rw [if_pos hk] at h
        rcases Run_start_inv hrun with ⟨e1, -⟩ | ⟨j1, pos1, m1, tr2, hs, hr, -⟩
        · subst e1
          unfold kindAt at hend
          rw [hx] at hend
          simp only [Option.map_some', Option.some.injEq] at hend
          rw [hk] at hend; cases hend
        · obtain ⟨hn, -, hp1, hm1⟩ := Step_bot_inv hx hk hs
          rw [hp1, hm1] at hr
          rw [hn] at h
          exact ih j1 j p k q m m2 tr2 h hr hend
      · rw [if_neg hk] at h
        cases h
        exact ⟨i, tr, rfl, hrun⟩

theorem take_append_of_eq {l a r : List Nat} (n : Nat) (h1 : l.take n = a) (_hn : a.length = n)
    (h2 : (l.drop n).take r.length = r) : l.take (a ++ r).length = a ++ r := by
  have hl : l = l.take n ++ l.drop n := (List.take_append_drop n l).symm
  rw [hl, h1]
  rw [List.length_append, List.take_append_eq_append_take]
  simp only [List.take_of_length_le (Nat.le_add_right a.length r.length),
    Nat.add_sub_cancel_left, h2]

/-- The bytes that setPrefix collects are the bytes that every match begins with, in
well-formed UTF-8. -/
theorem prefixLoop_run {G : List instr} {b : List Nat} : ∀ (fuel : Nat) (i : Nat)
    (acc : List Nat) (j : Option Nat) (out : List Nat) (p k q : Nat) (m m2 : List Int)
    (tr : List Nat),
    prefixLoop G fuel (some i) acc = .ok (j, out) →
    Run G b i p m tr k q m2 → kindAt G k = some .iEnd →
    (∀ r, RuneStart b p r → r < b.length →
      (b.drop r).take (DecodeRune (b.drop r)).2 = EncodeRune (DecodeRune (b.drop r)).1) →
    ∃ rest, out = acc ++ rest ∧ (b.drop p).take rest.length = rest := by
  intro fuel
  induction fuel with
  | zero => intro i acc j out p k q m m2 tr h; cases h
  | succ fuel ih =>
    intro i acc j out p k q m m2 tr h hrun hend hv
    unfold prefixLoop at h
    simp only at h
    cases hx : G[i]? with
    | none => rw [hx] at h; cases h
    | some x =>
      rw [hx] at h
      simp only at h
      by_cases hk : x.kind = .iEnd
      · rw [if_pos hk] at h
        cases h
        exact ⟨[], by simp, by simp⟩
      · rw [if_neg hk] at h
        by_cases hc : x.kind = .iChar
        · rw [if_neg (not_not.2 hc)] at h
          cases hn : x.next with
          | none => rw [hn] at h; cases h
          | some n =>
            rw [hn] at h
            simp only at h
            cases hy : G[n]? with
            | none => rw [hy] at h; cases h
            | some y =>
              rw [hy] at h
              simp only at h
              by_cases hyk : y.kind = .iBOT ∨ y.kind = .iEOT ∨ y.kind = .iAlt
              · rw [if_pos hyk] at h
                cases h
                exact ⟨[], by simp, by simp⟩
              · rw [if_neg hyk] at h
                rcases Run_start_inv hrun with ⟨e1, -⟩ | ⟨j1, pos1, m1, tr2, hs, hr, -⟩
                · subst e1
                  unfold kindAt at hend
                  rw [hx] at hend
                  simp only [Option.map_some', Option.some.injEq] at hend
                  exact absurd hend hk
                · obtain ⟨hn2, hlt, heat, hp1, hm1⟩ := Step_eats_inv hx (Or.inl hc) hs
                  rw [hn] at hn2
                  cases hn2
                  rw [hp1, hm1] at hr
                  have hch : (DecodeRune (b.drop p)).1 = x.char := by
                    unfold instr.eats at heat
                    simpa [hc] using heat
                  have henc := hv p .first hlt
                  rw [hch] at henc
                  obtain ⟨rest, ho, hr2⟩ := ih n (acc ++ EncodeRune x.char) j out _ k q m m2 tr2 h
                    hr hend (fun r hr0 hl => hv r (RuneStart_trans (.next .first hlt) hr0) hl)
                  refine ⟨EncodeRune x.char ++ rest, by rw [ho, List.append_assoc], ?_⟩
                  have hlen : (EncodeRune x.char).length = (DecodeRune (b.drop p)).2 := by
                    have := congrArg List.length henc
                    rw [List.length_take] at this
                    have hw := DecodeRune_width_le (b.drop p)
                    omega
                  apply take_append_of_eq (DecodeRune (b.drop p)).2 henc hlen
                  rw [List.drop_drop]
                  exact hr2
        · rw [if_pos hc] at h
          cases h
          exact ⟨[], by simp, by simp⟩

/-- Every match of a compiled program in well-formed UTF-8 begins with the prefix of the
program. -/
theorem prefix_occurs {re : Regexp} {rk : Nat → Nat} {x0 : instr} {s0 : Nat}
    (hR : Ready re rk x0 s0) (hp : re.setPrefix = .ok re) {b : List Nat} {p0 k q : Nat}
    {m : List Int} {tr : List Nat} (hrun : Run re.inst b s0 p0 (seedVec re p0) tr k q m)
    (hend : kindAt re.inst k = some .iEnd)
    (hv : ∀ r, RuneStart b p0 r → r < b.length →
      (b.drop r).take (DecodeRune (b.drop r)).2 = EncodeRune (DecodeRune (b.drop r)).1) :
    (b.drop p0).take re.prefixBytes.length = re.prefixBytes := by
  obtain ⟨-, -, -, -, s, i, hs, hi, hj⟩ := setPrefix_inst hp
  rw [hR.first] at hs
  cases hs
  rw [hR.next] at hi
  obtain ⟨i2, tr2, rfl, hrun2⟩ := skipBOT_run _ _ _ _ _ _ _ _ _ hi hrun hend
  obtain ⟨rest, ho, hr⟩ := prefixLoop_run _ _ _ _ _ _ _ _ _ _ _ hj hrun2 hend hv
  simp only [List.nil_append] at ho
  rw [ho]
  exact hr

theorem head_of_take {l sep : List Nat} {h : Nat} (hs : sep.head? = some h)
    (ht : l.take sep.length = sep) : l[0]? = some h := by
  cases sep with
  | nil => cases hs
  | cons a t =>
    simp only [List.head?_cons, Option.some.injEq] at hs
    subst hs
    cases l with
    | nil => simp at ht
    | cons c u =>
      simp only [List.length_cons, List.take_succ_cons, List.cons.injEq] at ht
      simp [ht.1]

/-- Where the scan starts after the check of the prefix is an offset where a rune starts. -/
theorem advance_start {re : Regexp} (hp : re.setPrefix = .ok re) (b : List Nat) (pos : Nat)
    (anch : Bool) (hne : advanceOf re b pos anch ≠ -1) :
    RuneStart b pos (pos + (advanceOf re b pos anch).toNat) := by
  unfold advanceOf at hne ⊢
  split at hne
  · rename_i hpre
    rw [if_pos hpre]
    split at hne
    · rename_i ha
      rw [if_pos ha]
      split at hne
      · exact absurd rfl hne
      · rename_i hh
        rw [if_neg hh]
        exact .first
    · rename_i ha
      rw [if_neg ha]
      rcases Index_spec (b.drop pos) re.prefixBytes with ⟨h1, -⟩ | ⟨r, h1, h2, h3, -⟩
      · exact absurd h1 hne
      · rw [h1]
        simp only [Int.toNat_ofNat]
        obtain ⟨h, hh⟩ : ∃ h, re.prefixBytes.head? = some h := by
          cases hb : re.prefixBytes with
          | nil => exact absurd hb hpre
          | cons a t => exact ⟨a, rfl⟩
        have hx := head_of_take hh h3
        rw [List.getElem?_drop, List.getElem?_drop] at hx
        exact noncont_boundary (x := h) (by simpa using hx) (prefix_head hp h hh) r pos .first
          (by omega) (by omega)
  · rename_i hpre
    rw [if_neg hpre]
    exact .first

/-- The check of the prefix does not move the start of the scan past the start of a match
in well-formed UTF-8. -/
theorem advance_found {re : Regexp} {rk : Nat → Nat} {x0 xs : instr} {s0 : Nat}
    (hR : Ready re rk x0 s0) (hp : re.setPrefix = .ok re) (hxs : re.inst[s0]? = some xs)
    {b : List Nat} {pos p0 k q : Nat} {m : List Int} {tr : List Nat} (hle : pos ≤ p0)
    (hrun : Run re.inst b s0 p0 (seedVec re p0) tr k q m)
    (hend : kindAt re.inst k = some .iEnd)
    (hv : ∀ r, RuneStart b p0 r → r < b.length →
      (b.drop r).take (DecodeRune (b.drop r)).2 = EncodeRune (DecodeRune (b.drop r)).1) :
    advanceOf re b pos (decide (xs.kind = .iBOT)) ≠ -1 ∧
      pos + (advanceOf re b pos (decide (xs.kind = .iBOT))).toNat ≤ p0 := by
  have hocc := prefix_occurs hR hp hrun hend hv
  unfold advanceOf
  by_cases hpre : re.prefixBytes ≠ []
  · rw [if_pos hpre]
    by_cases ha : decide (xs.kind = .iBOT) = true
    · rw [if_pos ha]
      have hk : xs.kind = .iBOT := by simpa using ha
      have hp0 : p0 = 0 := by
        by_contra h0
        obtain ⟨e1, -⟩ := Run_from_bot hxs hk h0 hrun
        subst e1
        unfold kindAt at hend
        rw [hxs] at hend
        simp only [Option.map_some', Option.some.injEq] at hend
        rw [hk] at hend
        cases hend
      subst hp0
      have hh : HasPrefix b re.prefixBytes = true := by
        rw [HasPrefix_iff]
        simpa using hocc
      rw [if_neg (by simp [hh])]
      constructor
      · decide
      · omega
    · rw [if_neg ha]
      have hlen : p0 + re.prefixBytes.length ≤ b.length := by
        have := congrArg List.length hocc
        rw [List.length_take, List.length_drop] at this
        have : 0 < re.prefixBytes.length := List.length_pos.mpr hpre
        omega
      have hocc2 : ((b.drop pos).drop (p0 - pos)).take re.prefixBytes.length =
          re.prefixBytes := by
        rw [List.drop_drop]
        have : pos + (p0 - pos) = p0 := by omega
        rw [this]
        exact hocc
      rcases Index_spec (b.drop pos) re.prefixBytes with ⟨-, h2⟩ | ⟨r, h1, -, -, h4⟩
      · exact absurd hocc2 (h2 (p0 - pos) (by rw [List.length_drop]; omega))
      · rw [h1]
        constructor
        · omega
        · simp only [Int.toNat_ofNat]
          by_contra hgt
          exact h4 (p0 - pos) (by omega) hocc2
  · rw [if_neg hpre]
    constructor
    · decide
    · simp; exact hle

/-- The matcher on a compiled program and a well-formed UTF-8 string, from an offset where
a rune starts: it returns; a vector it returns is the vector of a match that starts at an
offset where a rune starts, at or after pos; and for every match that starts at such an
offset it returns a vector, of a match that starts earlier, or at the same offset and ends
at the same offset or later. -/
theorem doExecute_complete {re : Regexp} {rk : Nat → Nat} {x0 : instr} {s0 : Nat}
    (hR : Ready re rk x0 s0) (hp : re.setPrefix = .ok re) (b : List Nat) (hv : ValidUTF8 b)
    (pos : Nat) (hb : RuneStart b 0 pos) (hpos : pos ≤ b.length) :
    ∃ r, re.doExecute b none pos = some r ∧
      (∀ m, r = some m → ∃ p0 q tr m1 k, RuneStart b pos p0 ∧ q ≤ b.length ∧
        Run re.inst b s0 p0 (seedVec re p0) tr k q m1 ∧ kindAt re.inst k = some .iEnd ∧
        m = m1.set 1 (q : Int)) ∧
      (∀ p0 q k tr m, RuneStart b pos p0 → Run re.inst b s0 p0 (seedVec re p0) tr k q m →
        kindAt re.inst k = some .iEnd →
        ∃ f, r = some f ∧ (vstart f < (p0 : Int) ∨ (vstart f = (p0 : Int) ∧ (q : Int) ≤ vend f))) := by
  obtain ⟨xs, hxs, -, -⟩ := Good_get hR.good
  have hvalid : ∀ p0, RuneStart b pos p0 → ∀ r, RuneStart b p0 r → r < b.length →
      (b.drop r).take (DecodeRune (b.drop r)).2 = EncodeRune (DecodeRune (b.drop r)).1 :=
    fun p0 h0 r hr hl => valid_at hv (RuneStart_trans (RuneStart_trans hb h0) hr) hl
  rw [doExecute_unfold hR hxs]
  by_cases ha : decide (xs.kind = .iBOT) = true ∧ pos > 0
  · rw [if_pos ha]
    refine ⟨none, rfl, fun m hm => (by cases hm), ?_⟩
    intro p0 q k tr m h0 hrun hend
    exfalso
    have hk : xs.kind = .iBOT := by simpa using ha.1
    have hle := RuneStart_le h0
    obtain ⟨e1, -⟩ := Run_from_bot hxs hk (by omega) hrun
    subst e1
    unfold kindAt at hend
    rw [hxs] at hend
    simp only [Option.map_some', Option.some.injEq] at hend
    rw [hk] at hend
    cases hend
  · rw [if_neg ha]
    rcases advanceOf_range re b pos (decide (xs.kind = .iBOT)) hpos with hadv | ⟨hadv, hle⟩
    · rw [if_pos hadv]
      refine ⟨none, rfl, fun m hm => (by cases hm), ?_⟩
      intro p0 q k tr m h0 hrun hend
      exact absurd hadv (advance_found hR hp hxs (RuneStart_le h0) hrun hend (hvalid p0 h0)).1
    · have hne : advanceOf re b pos (decide (xs.kind = .iBOT)) ≠ -1 := by omega
      rw [if_neg hne]
      have hsp := advance_start hp b pos (decide (xs.kind = .iBOT)) hne
      obtain ⟨r, hr, hfin, hcomp⟩ := executeLoop_spec hR b
        (pos + (advanceOf re b pos (decide (xs.kind = .iBOT))).toNat)
        (decide (xs.kind = .iBOT))
        (fun h => ⟨xs, hxs, by simpa using h⟩) (b.length + 2) _ [] none false
        (by omega) (by omega) le_rfl (LoopInv_init re b s0 _)
      rw [hr]
      have hcomp2 : ∀ p0 q k tr m, RuneStart b pos p0 →
          Run re.inst b s0 p0 (seedVec re p0) tr k q m → kindAt re.inst k = some .iEnd →
          ∃ f, r = some f ∧ Dominates f (p0 : Int) (q : Int) := by
        intro p0 q k tr m h0 hrun hend
        have hf := advance_found hR hp hxs (RuneStart_le h0) hrun hend (hvalid p0 h0)
        have hq : q ≤ b.length :=
          RuneStart_le_length (Run_runeStart hrun) (RuneStart_le_length h0 hpos)
        exact hcomp p0 q k tr m (RuneStart_from hsp h0 hf.2) hq hrun hend
      cases r with
      | none =>
        refine ⟨none, rfl, fun m hm => (by cases hm), ?_⟩
        intro p0 q k tr m h0 hrun hend
        obtain ⟨f, hf, -⟩ := hcomp2 p0 q k tr m h0 hrun hend
        cases hf
      | some f =>
        obtain ⟨hpl, p0, q, tr, m1, k, h1, h2, h3, h4, h5⟩ := hfin f rfl
        simp only [hpl, Bool.false_eq_true, false_and, if_false]
        refine ⟨some f.m, rfl, ?_, ?_⟩
        · intro m hm
          cases hm
          exact ⟨p0, q, tr, m1, k, RuneStart_trans hsp h1, h2, h3, h4, h5⟩
        · intro p1 q1 k1 tr1 m2 h0 hrun hend
          obtain ⟨f2, hf2, hd⟩ := hcomp2 p1 q1 k1 tr1 m2 h0 hrun hend
          cases hf2
          exact ⟨f.m, rfl, hd⟩

end GoRegexp

namespace GoRegexp

/-! ## Compile -/

/-- C7: Compile is total and all-or-nothing. For every pattern it returns either a Regexp
(and then the parser met no error) or one of the named Error values of the package (and
then no Regexp), that error being the one at which the parser, reading the pattern from left
to right, stopped; it returns nothing else: no panic, and the parser never wants more fuel
than it is given. -/
theorem Compile_all_or_nothing (str : List Nat) :
    ((∃ re, Compile str = .ok re) ∨ (∃ e : Error, Compile str = .error (.error e))) ∧
    (∀ e : Error, Compile str = .error (.error e) ↔
      parser.regexp (parseFuel str.length) (startParser str) = .error (.error e)) ∧
    Compile str ≠ .error .crash ∧ Compile str ≠ .error .fuel := by
  unfold Compile
  rcases doParse_spec str with ⟨re, v, hv, hre, -⟩ | ⟨e, he, hre⟩
  · refine ⟨Or.inl ⟨re, hre⟩, ?_, ?_, ?_⟩
    · intro e
      rw [hre, hv]
      constructor <;> intro h <;> cases h
    · rw [hre]; intro h; cases h
    · rw [hre]; intro h; cases h
  · refine ⟨Or.inr ⟨e, hre⟩, ?_, ?_, ?_⟩
    · intro e2
      rw [hre, he]
      constructor <;> intro h <;> cases h <;> rfl
    · rw [hre]; intro h; cases h
    · rw [hre]; intro h; cases h

/-! ## The empty pattern -/

/-- C9, as stated, fails: FindAllStringIndex of the empty pattern on "abc" with n = -1 is
not the three zero-width matches at 0, 1 and 2. -/
theorem FindAll_empty_abc_not_three :
    (Compile (bytesOf "")).toOption.bind
        (fun re => re.FindAllStringIndex (bytesOf "abc") (-1)) ≠
      some [[0, 0], [1, 1], [2, 2]] := by
  decide!

/-- C9, amended: FindAllStringIndex of the empty pattern on "abc" with n = -1 returns
exactly four zero-width matches, at the offsets 0, 1, 2 and 3 (the end of the text). -/
theorem FindAll_empty_abc_four :
    (Compile (bytesOf "")).toOption.bind
        (fun re => re.FindAllStringIndex (bytesOf "abc") (-1)) =
      some [[0, 0], [1, 1], [2, 2], [3, 3]] := by
  decide!

/-! ## The literal prefix -/

/-- C4 at the pattern U+FFFD and the subject consisting of the byte 0xFF: doExecute returns
nil, and the same program with its prefix emptied returns the match [0, 1]. -/
theorem doExecute_prefix_not_neutral :
    (Compile [239, 191, 189]).toOption.map
        (fun re => (re.doExecute [255] none 0,
          ({ re with prefixBytes := [] } : Regexp).doExecute [255] none 0)) =
      some (some none, some (some [0, 1])) := by
  decide!

end GoRegexp

namespace GoRegexp

/-! ## The match vector and the list of all matches -/

theorem Compile_of_toOption {pat : List Nat} {re : Regexp}
    (h : (Compile pat).toOption = some re) : Compile pat = .ok re := by
  cases hc : Compile pat with
  | error e => rw [hc] at h; cases h
  | ok r =>
    rw [hc] at h
    simp only [Except.toOption, Option.some.injEq] at h
    rw [h]

theorem seedVec_entry (re : Regexp) (p n : Nat) (h1 : 1 ≤ n) (h2 : n < 2 * (re.nbra + 1)) :
    (seedVec re p)[n]? = some (-1) := by
  unfold seedVec noMatch
  rw [List.getElem?_set_ne (by omega), List.getElem?_replicate]
  simp [h2]

theorem MatchAt_accepts {re : Regexp} {rk : Nat → Nat} {x0 : instr} {s0 : Nat}
    (hR : Ready re rk x0 s0) {str : List Nat} {pos : Nat} {m : List Int}
    (h : MatchAt re str s0 pos m) :
    ∃ p q tr, AcceptsVia re str p q tr m ∧
      ∀ n, 2 ≤ n → n < 2 * (re.nbra + 1) →
        (∀ i ∈ tr, ∀ x, re.inst[i]? = some x → x.kind = .iBra → x.braNum ≠ n) →
        m[n]? = some (-1) := by
  obtain ⟨p, q, tr, m1, k, h1, h2, h3, h4, h5⟩ := h
  refine ⟨p, q, tr, ⟨0, x0, s0, k, m1, hR.start, hR.first, hR.next, h3, h4, h5⟩, ?_⟩
  intro n hn1 hn2 hbra
  rw [h5, List.getElem?_set_ne (by omega), Run_entry h3 n hbra]
  exact seedVec_entry re p n (by omega) hn2

/-- The spans of a list of matches come one after the other. -/
theorem SpansFrom_chain : ∀ (R : List (List Int)) (lo pe : Int), SpansFrom lo pe R →
    List.Chain' SpanNext (R.map (fun a => a.take 2)) ∧
    ∀ x ∈ R.map (fun a => a.take 2), ∃ a b : Int, x = [a, b] ∧ lo ≤ a ∧ a ≤ b := by
  intro R
  induction R with
  | nil => intro lo pe _; exact ⟨List.chain'_nil, by simp⟩
  | cons x rest ih =>
    intro lo pe h
    obtain ⟨a0, a1, h0, h1, h2, h3, h4, h5⟩ := h
    obtain ⟨i1, i2⟩ := ih a1 a1 h5
    have hx := take_two h0 h1
    constructor
    · cases rest with
      | nil => simp
      | cons y rest2 =>
        simp only [List.map_cons] at i1 ⊢
        refine List.Chain'.cons ?_ i1
        obtain ⟨b0, b1, g0, g1, g2, g3, g4, -⟩ := h5
        have hy := take_two g0 g1
        refine ⟨a0, a1, b0, b1, hx, hy, h3, g2, g3, g4, ?_⟩
        by_cases he : a0 = b0
        · right
          refine ⟨he, ?_⟩
          by_contra hc
          have : b0 = b1 := by omega
          have := g4 this
          omega
        · left; omega
    · intro z hz
      simp only [List.map_cons, List.mem_cons] at hz
      rcases hz with e | e
      · exact ⟨a0, a1, by rw [e, hx], h2, h3⟩
      · obtain ⟨a, b, e1, e2, e3⟩ := i2 z e
        exact ⟨a, b, e1, by omega, e3⟩

theorem Chain_take {α : Type} {r : α → α → Prop} {l : List α} (h : List.Chain' r l)
    (k : Nat) : List.Chain' r (l.take k) :=
  h.prefix (List.take_prefix k l)

/-- C6: for a pattern that compiles, FindStringSubmatchIndex returns on every subject; a
vector it returns has 2 * (NumSubexp + 1) entries and is the vector of an accepting run of
the program, and a group k none of whose two markers (numbers 2k and 2k+1) lies on that
run has the pair (-1, -1) at the entries 2k and 2k+1. The pattern `a(b)?c` gives
[0, 2, -1, -1] on the subject "ac". -/
theorem FindStringSubmatchIndex_vector (pat s : List Nat) (re : Regexp)
    (h : Compile pat = .ok re) :
    (∃ r, re.FindStringSubmatchIndex s = some r ∧ ∀ m, r = some m →
      m.length = 2 * (re.NumSubexp + 1) ∧
      ∃ p q tr, AcceptsVia re s p q tr m ∧
        ∀ k, 1 ≤ k → k ≤ re.NumSubexp →
          (∀ i ∈ tr, ∀ x, re.inst[i]? = some x → x.kind = .iBra →
            x.braNum ≠ 2 * k ∧ x.braNum ≠ 2 * k + 1) →
          m[2 * k]? = some (-1) ∧ m[2 * k + 1]? = some (-1)) ∧
    (Compile (bytesOf "a(b)?c")).toOption.bind
        (fun re => re.FindStringSubmatchIndex (bytesOf "ac")) = some (some [0, 2, -1, -1]) := by
  refine ⟨?_, by decide!⟩
  obtain ⟨rk, x0, s0, hR⟩ := Compile_ready h
  obtain ⟨r, hr, hm⟩ := doExecute_sound hR s 0 (Nat.zero_le _)
  refine ⟨r, hr, ?_⟩
  intro m hrm
  have hma := hm m hrm
  obtain ⟨hlen, -⟩ := MatchAt_span hR.prog hma
  obtain ⟨p, q, tr, hacc, hent⟩ := MatchAt_accepts hR hma
  refine ⟨hlen, p, q, tr, hacc, ?_⟩
  intro k hk1 hk2 hno
  unfold Regexp.NumSubexp at hk2
  exact ⟨hent (2 * k) (by omega) (by omega) (fun i hi x hx hb => (hno i hi x hx hb).1),
    hent (2 * k + 1) (by omega) (by omega) (fun i hi x hx hb => (hno i hi x hx hb).2)⟩

theorem FindStringSubmatchIndex_vector_witness :
    Compile [97, 40, 98, 41, 63, 99] = .ok progOptGroup ∧
    ((∃ r, progOptGroup.FindStringSubmatchIndex [97, 99] = some r ∧ ∀ m, r = some m →
      m.length = 2 * (progOptGroup.NumSubexp + 1) ∧
      ∃ p q tr, AcceptsVia progOptGroup [97, 99] p q tr m ∧
        ∀ k, 1 ≤ k → k ≤ progOptGroup.NumSubexp →
          (∀ i ∈ tr, ∀ x, progOptGroup.inst[i]? = some x → x.kind = .iBra →
            x.braNum ≠ 2 * k ∧ x.braNum ≠ 2 * k + 1) →
          m[2 * k]? = some (-1) ∧ m[2 * k + 1]? = some (-1)) ∧
    (Compile (bytesOf "a(b)?c")).toOption.bind
        (fun re => re.FindStringSubmatchIndex (bytesOf "ac")) = some (some [0, 2, -1, -1])) :=
  ⟨Compile_of_toOption (by decide!),
    FindStringSubmatchIndex_vector [97, 40, 98, 41, 63, 99] [97, 99] progOptGroup
      (Compile_of_toOption (by decide!))⟩

/-- C8: for a pattern that compiles, FindAllStringIndex returns on every subject s and
count n; each span [a, b] it returns has 0 ≤ a ≤ b ≤ len(s), and of two spans [a, b],
[a2, b2] that follow each other in the result, b ≤ a2 (no overlap), the second is later
than the first (a < a2, or a = a2 and b < b2), and if the second is empty then b < a2. -/
theorem FindAllStringIndex_ordered (pat s : List Nat) (n : Int) (re : Regexp)
    (h : Compile pat = .ok re) :
    ∃ R, re.FindAllStringIndex s n = some R ∧ List.Chain' SpanNext R ∧
      ∀ x ∈ R, ∃ a b : Int, x = [a, b] ∧ 0 ≤ a ∧ a ≤ b ∧ b ≤ (s.length : Int) := by
  obtain ⟨rk, x0, s0, hR⟩ := Compile_ready h
  obtain ⟨R, h1, h2, h3, h4, h5⟩ := FindAll_spec hR s
  obtain ⟨c1, c2⟩ := SpansFrom_chain R 0 (-1) h2
  have hb : ∀ x ∈ R.map (fun a => a.take 2), ∃ a b : Int, x = [a, b] ∧ 0 ≤ a ∧ a ≤ b ∧
      b ≤ (s.length : Int) := by
    intro x hx
    obtain ⟨a, ha, rfl⟩ := List.mem_map.1 hx
    obtain ⟨-, p, q, e0, e1, e2, e3, e4⟩ := MatchAt_span hR.prog (MatchesFrom_mem R 0 h3 a ha)
    exact ⟨p, q, take_two e0 e1, by omega, by omega, by omega⟩
  by_cases hn : 0 ≤ n
  · exact ⟨_, h4 n hn, Chain_take c1 _, fun x hx => hb x (List.mem_of_mem_take hx)⟩
  · exact ⟨_, h5 n (by omega), c1, hb⟩

theorem FindAllStringIndex_ordered_witness :
    Compile [97, 40, 98, 41, 63, 99] = .ok progOptGroup ∧
    ∃ R, progOptGroup.FindAllStringIndex [97, 99, 97, 98, 99] (-1) = some R ∧
      List.Chain' SpanNext R ∧
      ∀ x ∈ R, ∃ a b : Int, x = [a, b] ∧ 0 ≤ a ∧ a ≤ b ∧
        b ≤ (([97, 99, 97, 98, 99] : List Nat).length : Int) :=
  ⟨Compile_of_toOption (by decide!),
    FindAllStringIndex_ordered [97, 40, 98, 41, 63, 99] [97, 99, 97, 98, 99] (-1) progOptGroup
      (Compile_of_toOption (by decide!))⟩

/-- C10: for a pattern that compiles and a subject s, FindAllStringIndex(s, -1) returns a
list `all`; for n ≥ 0 the result of FindAllStringIndex(s, n) is the first n elements of
`all` (all of them when there are fewer), so it has min(n, total) elements; for n < 0 it is
`all`, and so it is for every limit m ≥ len(s) + 1. -/
theorem FindAllStringIndex_limit (pat s : List Nat) (re : Regexp) (h : Compile pat = .ok re) :
    ∃ all, re.FindAllStringIndex s (-1) = some all ∧
      (∀ n : Int, 0 ≤ n → re.FindAllStringIndex s n = some (all.take n.toNat) ∧
        (all.take n.toNat).length = min n.toNat all.length ∧
        ((all.take n.toNat).length : Int) ≤ n) ∧
      (∀ n : Int, n < 0 → re.FindAllStringIndex s n = some all) ∧
      (∀ m : Int, (s.length : Int) + 1 ≤ m → re.FindAllStringIndex s m = some all) := by
  obtain ⟨rk, x0, s0, hR⟩ := Compile_ready h
  obtain ⟨R, h1, h2, h3, h4, h5⟩ := FindAll_spec hR s
  refine ⟨_, h5 (-1) (by omega), ?_, h5, ?_⟩
  · intro n hn
    refine ⟨h4 n hn, List.length_take _ _, ?_⟩
    rw [List.length_take]
    omega
  · intro m hm
    rw [h4 m (by omega), List.take_of_length_le]
    rw [List.length_map]
    omega

theorem FindAllStringIndex_limit_witness :
    Compile [97, 40, 98, 41, 63, 99] = .ok progOptGroup ∧
    ∃ all, progOptGroup.FindAllStringIndex [97, 99, 97, 98, 99] (-1) = some all ∧
      (∀ n : Int, 0 ≤ n →
        progOptGroup.FindAllStringIndex [97, 99, 97, 98, 99] n = some (all.take n.toNat) ∧
        (all.take n.toNat).length = min n.toNat all.length ∧
        ((all.take n.toNat).length : Int) ≤ n) ∧
      (∀ n : Int, n < 0 → progOptGroup.FindAllStringIndex [97, 99, 97, 98, 99] n = some all) ∧
      (∀ m : Int, (([97, 99, 97, 98, 99] : List Nat).length : Int) + 1 ≤ m →
        progOptGroup.FindAllStringIndex [97, 99, 97, 98, 99] m = some all) :=
  ⟨Compile_of_toOption (by decide!),
    FindAllStringIndex_limit [97, 40, 98, 41, 63, 99] [97, 99, 97, 98, 99] progOptGroup
      (Compile_of_toOption (by decide!))⟩

/-! ## Anchored patterns -/

theorem anchored_no_match {re : Regexp} {rk : Nat → Nat} {x0 x1 : instr} {s0 : Nat}
    (hR : Ready re rk x0 s0) (h1 : re.inst[s0]? = some x1) (hk : x1.kind = .iBOT)
    {str : List Nat} {pos : Nat} {m : List Int} (hpos : 0 < pos) :
    ¬ MatchAt re str s0 pos m := by
  intro h
  obtain ⟨p, q, tr, m1, k, e1, e2, e3, e4, e5⟩ := h
  obtain ⟨a1, -⟩ := Run_from_bot h1 hk (by omega) e3
  subst a1
  unfold kindAt at e4
  rw [h1] at e4
  simp only [Option.map_some', Option.some.injEq] at e4
  rw [hk] at e4
  cases e4

/-- C12: let the pattern compile to a program whose instruction after iStart is iBOT
(`^`). Then doExecute reports no match (nil) on every subject, string or byte slice, from
every offset greater than 0; and FindAllStringIndex returns at most one span on every
subject and for every count, and that span starts at 0. -/
theorem anchored_matches_at_zero (pat : List Nat) (re : Regexp) (x0 x1 : instr) (s0 : Nat)
    (h : Compile pat = .ok re) (h0 : re.inst[0]? = some x0) (hn : x0.next = some s0)
    (h1 : re.inst[s0]? = some x1) (hk : x1.kind = .iBOT) :
    (∀ (str : List Nat) (bytestr : Option (List Nat)) (pos : Nat), 0 < pos →
      re.doExecute str bytestr pos = some none) ∧
    ∀ (s : List Nat) (n : Int), ∃ R, re.FindAllStringIndex s n = some R ∧ R.length ≤ 1 ∧
      ∀ x ∈ R, ∃ b : Int, x = [0, b] := by
  constructor
  · intro str bytestr pos hpos
    unfold Regexp.doExecute
    simp only [h0, hn, h1, hk, decide_True, true_and, gt_iff_lt, hpos, if_true]
  · intro s n
    obtain ⟨rk, y0, t0, hR⟩ := Compile_ready h
    have e0 : y0 = x0 := by
      have := hR.first
      rw [h0] at this
      cases this
      rfl
    subst e0
    have e1 : t0 = s0 := by
      have := hR.next
      rw [hn] at this
      cases this
      rfl
    subst e1
    obtain ⟨R, g1, g2, g3, g4, g5⟩ := FindAll_spec hR s
    have hR1 : R.length ≤ 1 ∧ ∀ x ∈ R.map (fun a => a.take 2), ∃ b : Int, x = [0, b] := by
      cases R with
      | nil => simp
      | cons a rest =>
        obtain ⟨ha, pos2, hp2, hrest⟩ := g3
        cases rest with
        | cons a2 rest2 => exact absurd hrest.1 (anchored_no_match hR h1 hk hp2)
        | nil =>
          refine ⟨by simp, ?_⟩
          intro x hx
          simp only [List.map_cons, List.map_nil, List.mem_singleton] at hx
          obtain ⟨-, p, q, c0, c1, c2, c3, c4⟩ := MatchAt_span hR.prog ha
          have hp0 : p = 0 := by
            by_contra hne
            obtain ⟨p3, q3, tr, m1, k, e1, e2, e3, e4, e5⟩ := ha
            have hv := Run_vstart hR.prog e3
            rw [vstart_seedVec] at hv
            have hl := Run_length e3
            rw [seedVec_length] at hl
            have c0b : a[0]? = some (p3 : Int) := by
              rw [get0_vstart (by rw [e5, List.length_set, hl]; omega), e5, vstart_set1, hv]
            rw [c0] at c0b
            have hpp : p3 = p := by
              simp only [Option.some.injEq, Nat.cast_inj] at c0b
              exact c0b.symm
            subst hpp
            obtain ⟨a1, -⟩ := Run_from_bot h1 hk hne e3
            subst a1
            unfold kindAt at e4
            rw [h1] at e4
            simp only [Option.map_some', Option.some.injEq] at e4
            rw [hk] at e4
            cases e4
          subst hp0
          exact ⟨q, by rw [hx, take_two c0 c1]; rfl⟩
    by_cases hn0 : 0 ≤ n
    · refine ⟨_, g4 n hn0, ?_, fun x hx => hR1.2 x (List.mem_of_mem_take hx)⟩
      rw [List.length_take, List.length_map]
      omega
    · refine ⟨_, g5 n (by omega), ?_, hR1.2⟩
      rw [List.length_map]
      exact hR1.1

theorem anchored_matches_at_zero_witness :
    Compile [94, 97, 98, 99] = .ok progBotAbc ∧
    ((∀ (str : List Nat) (bytestr : Option (List Nat)) (pos : Nat), 0 < pos →
      progBotAbc.doExecute str bytestr pos = some none) ∧
    ∀ (s : List Nat) (n : Int), ∃ R, progBotAbc.FindAllStringIndex s n = some R ∧
      R.length ≤ 1 ∧ ∀ x ∈ R, ∃ b : Int, x = [0, b]) :=
  ⟨Compile_of_toOption (by decide!),
    anchored_matches_at_zero [94, 97, 98, 99] progBotAbc
      { kind := .iStart, index := 0, next := some 1 }
      { kind := .iBOT, index := 1, next := some 2 } 1
      (Compile_of_toOption (by decide!)) rfl rfl rfl rfl⟩

end GoRegexp

namespace GoRegexp

/-! ## Character classes -/

theorem rangesMatch_append (c a b : Int) : ∀ (n : Nat) (l : List Int), l.length = 2 * n →
    rangesMatch c (l ++ [a, b]) = (rangesMatch c l || decide (a ≤ c ∧ c ≤ b)) := by
  intro n
  induction n with
  | zero =>
    intro l hl
    have : l = [] := List.length_eq_zero.1 (by omega)
    subst this
    by_cases h : a ≤ c ∧ c ≤ b
    · simp [h, rangesMatch]
    · simp [h, rangesMatch]
  | succ n ih =>
    intro l hl
    cases l with
    | nil => simp at hl
    | cons x t =>
      cases t with
      | nil => simp only [List.length_cons, List.length_nil] at hl; omega
      | cons y t2 =>
        have hl2 : t2.length = 2 * n := by
          simp only [List.length_cons] at hl
          omega
        simp only [List.cons_append]
        unfold rangesMatch
        by_cases h : x ≤ c ∧ c ≤ y
        · simp [h]
        · simp only [h, if_false]
          exact ih t2 hl2

/-- What the operations make of the fresh class: the ranges come in pairs, `cmin` is at
most the start and `cmax` at least the end of every range added, and the loop over the
ranges finds c exactly when an added range covers it. -/
theorem classOps_inv (c : Int) : ∀ (ops : List ClassOp) (cc : charClass) (n : Nat),
    cc.ranges.length = 2 * n →
    (rangesMatch c cc.ranges = true → cc.cmin ≤ c ∧ c ≤ cc.cmax) →
    ∃ n2, (ops.foldl ClassOp.apply cc).ranges.length = 2 * n2 ∧
      (rangesMatch c (ops.foldl ClassOp.apply cc).ranges =
        (rangesMatch c cc.ranges || ops.any (ClassOp.covers c))) ∧
      (rangesMatch c (ops.foldl ClassOp.apply cc).ranges = true →
        (ops.foldl ClassOp.apply cc).cmin ≤ c ∧ c ≤ (ops.foldl ClassOp.apply cc).cmax) := by
  intro ops
  induction ops with
  | nil =>
    intro cc n hn hb
    exact ⟨n, hn, by simp, hb⟩
  | cons op rest ih =>
    intro cc n hn hb
    cases op with
    | add a b =>
      have hr : rangesMatch c (cc.addRange a b).ranges =
          (rangesMatch c cc.ranges || decide (a ≤ c ∧ c ≤ b)) :=
        rangesMatch_append c a b n cc.ranges hn
      obtain ⟨n2, h1, h2, h3⟩ := ih (cc.addRange a b) (n + 1)
        (by simp [charClass.addRange, hn]; omega)
        (by
          rw [hr]
          intro hm
          simp only [Bool.or_eq_true, decide_eq_true_eq] at hm
          simp only [charClass.addRange]
          rcases hm with hm | hm
          · have := hb hm
            constructor
            · split <;> omega
            · split <;> omega
          · constructor
            · split <;> omega
            · split <;> omega)
      refine ⟨n2, h1, ?_, h3⟩
      simp only [List.foldl_cons, ClassOp.apply] at h2 ⊢
      rw [h2, hr]
      simp [ClassOp.covers, Bool.or_assoc]
    | neg v =>
      obtain ⟨n2, h1, h2, h3⟩ := ih { cc with negate := v } n hn hb
      refine ⟨n2, h1, ?_, h3⟩
      simp only [List.foldl_cons, ClassOp.apply] at h2 ⊢
      rw [h2]
      simp [ClassOp.covers]

/-- C14: a class made from the fresh class of newCharClass by any sequence of addRange calls
and settings of the flag `negate` accepts c exactly when `negate` differs from "c lies in
one of the ranges added": the test against cmin and cmax never changes the answer. -/
theorem charClass_matches_spec (ops : List ClassOp) (c : Int) :
    (ops.foldl ClassOp.apply newCharClass).matches c =
      xor (ops.foldl ClassOp.apply newCharClass).negate (ops.any (ClassOp.covers c)) := by
  obtain ⟨n2, h1, h2, h3⟩ := classOps_inv c ops newCharClass 0 rfl
    (by intro h; simp [newCharClass, rangesMatch] at h)
  have h0 : rangesMatch c newCharClass.ranges = false := by simp [newCharClass, rangesMatch]
  rw [h0, Bool.false_or] at h2
  unfold charClass.matches
  by_cases hm : ops.any (ClassOp.covers c) = true
  · rw [hm] at h2
    have hb := h3 h2
    rw [if_neg (by omega), h2, hm]
    simp
  · have hf : ops.any (ClassOp.covers c) = false := by simpa using hm
    rw [hf] at h2
    rw [h2, hf]
    simp

end GoRegexp

namespace GoRegexp

/-! ## The pattern `abc$` -/

theorem list_of_three {s : List Nat} {p : Nat} {a b c : Nat} (h0 : s[p]? = some a)
    (h1 : s[p + 1]? = some b) (h2 : s[p + 1 + 1]? = some c) (hl : p + 1 + 1 + 1 = s.length) :
    s = s.take p ++ [a, b, c] := by
  have hd : s.drop p = [a, b, c] := by
    apply List.ext_getElem?
    intro n
    rw [List.getElem?_drop]
    rcases n with _ | _ | _ | n
    · simpa using h0
    · simpa using h1
    · simpa [Nat.add_assoc] using h2
    · simp only [List.getElem?_cons_succ, List.getElem?_nil]
      apply List.getElem?_eq_none
      omega
  conv_lhs => rw [← List.take_append_drop p s]
  rw [hd]

/-- C13: the pattern `abc$` compiles, and on every subject s FindStringIndex returns; a
match it returns is a span [i, len(s)] and s ends with "abc", which stands at i; when s
does not end with "abc" it returns no match. -/
theorem abc_eot_matches_at_end (s : List Nat) :
    Compile (bytesOf "abc$") = .ok progAbcEot ∧
    ∃ r, progAbcEot.FindStringIndex s = some r ∧
      (∀ m, r = some m → ∃ i : Nat, m = [(i : Int), (s.length : Int)] ∧
        s = s.take i ++ [97, 98, 99]) ∧
      ((¬ ∃ t, s = t ++ [97, 98, 99]) → r = none) := by
  have hc : Compile (bytesOf "abc$") = .ok progAbcEot := Compile_of_toOption (by decide!)
  refine ⟨hc, ?_⟩
  obtain ⟨rk, x0, s0, hR⟩ := Compile_ready hc
  have e0 : x0 = { kind := .iStart, index := 0, next := some 1 } := by
    have := hR.first
    have h2 : progAbcEot.inst[0]? = some { kind := .iStart, index := 0, next := some 1 } := rfl
    rw [h2] at this
    cases this
    rfl
  have e1 : s0 = 1 := by
    have := hR.next
    rw [e0] at this
    cases this
    rfl
  subst e1
  obtain ⟨r, hr, hm⟩ := doExecute_sound hR s 0 (Nat.zero_le _)
  have key : ∀ m, r = some m → ∃ i : Nat, m.take 2 = [(i : Int), (s.length : Int)] ∧
      2 ≤ m.length ∧ s = s.take i ++ [97, 98, 99] := by
    intro m hrm
    have hma := hm m hrm
    obtain ⟨hlen, p, q, c0, c1, c2, c3, c4⟩ := MatchAt_span hR.prog hma
    obtain ⟨p3, q3, tr, m1, k, a1, a2, a3, a4, a5⟩ := hma
    have hv := Run_vstart hR.prog a3
    rw [vstart_seedVec] at hv
    have hl := Run_length a3
    rw [seedVec_length] at hl
    have c0b : m[0]? = some (p3 : Int) := by
      rw [get0_vstart (by omega), a5, vstart_set1, hv]
    have c1b : m[1]? = some (q3 : Int) := by
      rw [get1_vend (by omega), a5, vend_set1 _ (by omega)]
    obtain ⟨j1, t1, n1, l1, b1, r1, -⟩ := Run_char_ascii
      (x := { kind := .iChar, index := 1, next := some 2, char := 97 }) rfl rfl (by decide)
      (by decide) a3 a4
    cases n1
    obtain ⟨j2, t2, n2, l2, b2, r2, -⟩ := Run_char_ascii
      (x := { kind := .iChar, index := 2, next := some 3, char := 98 }) rfl rfl (by decide)
      (by decide) r1 a4
    cases n2
    obtain ⟨j3, t3, n3, l3, b3, r3, -⟩ := Run_char_ascii
      (x := { kind := .iChar, index := 3, next := some 4, char := 99 }) rfl rfl (by decide)
      (by decide) r2 a4
    cases n3
    have hx4 : progAbcEot.inst[4]? = some { kind := .iEOT, index := 4, next := some 5 } := rfl
    have hx5 : progAbcEot.inst[5]? = some { kind := .iEnd, index := 5, next := none } := rfl
    rcases Run_start_inv r3 with ⟨g1, -⟩ | ⟨j, pos1, m4, tr4, hs, hr4, -⟩
    · subst g1
      cases a4
    · obtain ⟨d1, d2, d3, d4⟩ := Step_eot_inv hx4 rfl hs
      cases d1
      subst d3
      rcases Run_start_inv hr4 with ⟨-, g2, -⟩ | ⟨j, pos1, m5, tr5, hs5, -, -⟩
      · refine ⟨p3, ?_, by omega, list_of_three b1 b2 b3 d2⟩
        rw [take_two c0b c1b, g2, d2]
      · exact absurd (Step_end_inv hx5 rfl hs5) id
  unfold Regexp.FindStringIndex
  rw [hr]
  cases r with
  | none =>
    exact ⟨none, rfl, fun m hm => (by cases hm), fun _ => rfl⟩
  | some m =>
    obtain ⟨i, k1, k2, k3⟩ := key m rfl
    simp only [if_pos k2]
    refine ⟨some (m.take 2), rfl, ?_, ?_⟩
    · intro m2 hm2
      cases hm2
      exact ⟨i, k1, k3⟩
    · intro hno
      exact absurd ⟨_, k3⟩ hno

end GoRegexp

namespace GoRegexp

/-! ## Replacement -/

/-- C11: for a pattern that compiles, a subject src and a function repl, the result of
ReplaceAllStringFunc is src with each span of FindAllStringIndex(src, -1) replaced by repl
applied to the text of the span, the bytes outside the spans being copied as they are and
in order. The pattern `o`, the subject "foo bar" and the constant replacement "0" give
"f00 bar". -/
theorem ReplaceAllStringFunc_splices (pat src : List Nat) (repl : List Nat → List Nat)
    (re : Regexp) (h : Compile pat = .ok re) :
    (∃ spans, re.FindAllStringIndex src (-1) = some spans ∧
      re.ReplaceAllStringFunc src repl = some (spliceSpans src repl 0 spans)) ∧
    (Compile (bytesOf "o")).toOption.bind
        (fun re => re.ReplaceAllStringFunc (bytesOf "foo bar") (fun _ => bytesOf "0")) =
      some (bytesOf "f00 bar") := by
  refine ⟨?_, by decide!⟩
  obtain ⟨rk, x0, s0, hR⟩ := Compile_ready h
  have hpre := prefix_head (Compile_prefixed h)
  obtain ⟨R, h1, h2, -, -⟩ := allMatchesLoop_spec hR src (src.length + 2) 0 (-1) (by omega)
    (by omega) (by omega)
  have hfull : ∀ k : Nat, src.length + 1 ≤ k → R.take k = R := fun k hk =>
    List.take_of_length_le (by omega)
  refine ⟨R.map (fun a => a.take 2), ?_, ?_⟩
  · unfold Regexp.FindAllStringIndex Regexp.allMatches
    simp only [show ((-1 : Int) < 0) from by omega, if_true]
    rw [h1, hfull _ (by omega)]
    rfl
  · unfold Regexp.ReplaceAllStringFunc
    have hl := h1 ((src.length : Int) + 2)
    rw [hfull _ (by omega)] at hl
    have := replaceLoop_spec hR hpre src repl (src.length + 2) 0 (-1) 0 []
      ((src.length : Int) + 2) R (by omega) (by omega) (Or.inl ⟨rfl, rfl, rfl⟩) (by omega) hl
      (by omega)
    simpa using this

theorem ReplaceAllStringFunc_splices_witness :
    Compile [111] = .ok progO ∧
    ((∃ spans, progO.FindAllStringIndex [102, 111, 111] (-1) = some spans ∧
      progO.ReplaceAllStringFunc [102, 111, 111] (fun _ => [48]) =
        some (spliceSpans [102, 111, 111] (fun _ => [48]) 0 spans)) ∧
    (Compile (bytesOf "o")).toOption.bind
        (fun re => re.ReplaceAllStringFunc (bytesOf "foo bar") (fun _ => bytesOf "0")) =
      some (bytesOf "f00 bar")) :=
  ⟨Compile_of_toOption (by decide!),
    ReplaceAllStringFunc_splices [111] [102, 111, 111] (fun _ => [48]) progO
      (Compile_of_toOption (by decide!))⟩

end GoRegexp

namespace GoRegexp

/-! ## Brackets and hyphens in a class -/

theorem errorOf_eq {r : Except Abort Regexp} {e : Error} (h : errorOf r = some e) :
    r = .error (.error e) := by
  unfold errorOf at h
  split at h
  · cases h; rfl
  · cases h

/-- C16, as stated, fails: the pattern `[]a]` does not compile; the bracket written first
closes the class, and Compile stops at the second bracket with ErrUnmatchedRbkt. -/
theorem bracket_first_closes_class :
    Compile (bytesOf "[]a]") = .error (.error .ErrUnmatchedRbkt) :=
  errorOf_eq (by decide!)

/-- C16, amended: inside a character class a bracket written as the very first character
closes the class at once (the class is empty), and a hyphen met where a member is expected
is rejected, as is a hyphen that is the last character of the class: `[]a]` fails with
ErrUnmatchedRbkt, `[-a]` and `[a-]` fail with ErrBadRange. To be members of the class they
are written after a backslash: `[\]a]`, `[\-a]` and `[a\-]` compile, and their classes
accept the bracket respectively the hyphen. -/
theorem class_bracket_hyphen_escaped :
    (∀ (fuel : Nat) (p : parser), p.c = 93 →
      parser.charClass (fuel + 1) p = .ok (p.addI (classInstr newCharClass), some p.re.inst.length) ∧
      classInstr newCharClass = { kind := .iCharClass, cclass := some newCharClass } ∧
      ∀ c, (classInstr newCharClass).eats c = false) ∧
    (∀ (fuel : Nat) (p : parser) (cc : charClass) (left : Int), p.c = 45 →
      parser.charClassLoop (fuel + 1) p cc left = .error (.error .ErrBadRange)) ∧
    (∀ (fuel : Nat) (p : parser) (cc : charClass) (left : Int), p.c = 93 → 0 ≤ left →
      parser.charClassLoop (fuel + 1) p cc left = .error (.error .ErrBadRange)) ∧
    Compile (bytesOf "[]a]") = .error (.error .ErrUnmatchedRbkt) ∧
    Compile (bytesOf "[-a]") = .error (.error .ErrBadRange) ∧
    Compile (bytesOf "[a-]") = .error (.error .ErrBadRange) ∧
    (∃ re x, Compile (bytesOf "[\\]a]") = .ok re ∧ re.inst[1]? = some x ∧
      x.kind = .iCharClass ∧ x.eats 93 = true ∧ x.eats 97 = true) ∧
    (∃ re x, Compile (bytesOf "[\\-a]") = .ok re ∧ re.inst[1]? = some x ∧
      x.kind = .iCharClass ∧ x.eats 45 = true ∧ x.eats 97 = true) ∧
    (∃ re x, Compile (bytesOf "[a\\-]") = .ok re ∧ re.inst[1]? = some x ∧
      x.kind = .iCharClass ∧ x.eats 45 = true ∧ x.eats 97 = true) := by
  refine ⟨?_, ?_, ?_, errorOf_eq (by decide!), errorOf_eq (by decide!), errorOf_eq (by decide!),
    ?_, ?_, ?_⟩
  · intro fuel p hp
    refine ⟨?_, by decide, ?_⟩
    · have h94 : ¬ p.c = 94 := by rw [hp]; decide
      unfold parser.charClass
      simp only [h94, if_false]
      unfold parser.charClassLoop
      simp only [hp, true_or, if_true]
      rfl
    · intro c
      simp [classInstr, newCharClass, instr.eats, charClass.matches]
      omega
  · intro fuel p cc left hp
    unfold parser.charClassLoop
    have h1 : ¬ (p.c = 93 ∨ p.c = endOfFile) := by rw [hp]; decide
    rw [if_neg h1, if_pos hp]
  · intro fuel p cc left hp hl
    unfold parser.charClassLoop
    simp only [hp, true_or, if_true, ge_iff_le, hl]
  · have h : (Compile (bytesOf "[\\]a]")).toOption.map (fun re => re.inst[1]?) =
        some (some { kind := .iCharClass, index := 1, next := some 2, cclass := some ⟨false, [93, 93, 97, 97], 93, 97⟩ }) := by
      decide!
    cases hc : Compile (bytesOf "[\\]a]") with
    | error e => rw [hc] at h; cases h
    | ok re =>
      rw [hc] at h
      simp only [Except.toOption, Option.map_some', Option.some.injEq] at h
      exact ⟨re, _, rfl, h, rfl, by decide, by decide⟩
  · have h : (Compile (bytesOf "[\\-a]")).toOption.map (fun re => re.inst[1]?) =
        some (some { kind := .iCharClass, index := 1, next := some 2, cclass := some ⟨false, [45, 45, 97, 97], 45, 97⟩ }) := by
      decide!
    cases hc : Compile (bytesOf "[\\-a]") with
    | error e => rw [hc] at h; cases h
    | ok re =>
      rw [hc] at h
      simp only [Except.toOption, Option.map_some', Option.some.injEq] at h
      exact ⟨re, _, rfl, h, rfl, by decide, by decide⟩
  · have h : (Compile (bytesOf "[a\\-]")).toOption.map (fun re => re.inst[1]?) =
        some (some { kind := .iCharClass, index := 1, next := some 2, cclass := some ⟨false, [97, 97, 45, 45], 45, 97⟩ }) := by
      decide!
    cases hc : Compile (bytesOf "[a\\-]") with
    | error e => rw [hc] at h; cases h
    | ok re =>
      rw [hc] at h
      simp only [Except.toOption, Option.map_some', Option.some.injEq] at h
      exact ⟨re, _, rfl, h, rfl, by decide, by decide⟩

end GoRegexp

namespace GoRegexp

/-! ## Unmatched delimiters -/

theorem term_rpar (M : Nat) (p : parser) (h : p.c = 41) (hn : p.nlpar = 0) :
    parser.term (M + 1) p = .error (.error .ErrUnmatchedRpar) := by
  have h1 : ¬ (p.c = 124 ∨ p.c = endOfFile) := by rw [h]; decide
  have h2 : ¬ (p.c = 42 ∨ p.c = 43 ∨ p.c = 63) := by rw [h]; decide
  unfold parser.term
  simp only
  rw [if_neg h1, if_neg h2, if_pos h, if_pos hn]

theorem term_rbkt (M : Nat) (p : parser) (h : p.c = 93) :
    parser.term (M + 1) p = .error (.error .ErrUnmatchedRbkt) := by
  have h1 : ¬ (p.c = 124 ∨ p.c = endOfFile) := by rw [h]; decide
  have h2 : ¬ (p.c = 42 ∨ p.c = 43 ∨ p.c = 63) := by rw [h]; decide
  have h3 : ¬ p.c = 41 := by rw [h]; decide
  unfold parser.term
  simp only
  rw [if_neg h1, if_neg h2, if_neg h3, if_pos h]

theorem sufOK_cons (c : Nat) (t : List Nat) (h1 : c < 128) (h2 : c ≠ 42) (h3 : c ≠ 43)
    (h4 : c ≠ 63) (h5 : c ≠ 124) : SufOK (c :: t) := by
  intro c2 t2 h
  cases h
  exact ⟨h1, h2, h3, h4, h5⟩

theorem sim_at_end {suf : List Nat} {q q2 : parser} (h : Sim [] suf 0 q q2)
    (hc : q.ch = endOfFile) :
    q2.ch = sufCh suf ∧ q2.nlpar = q.nlpar ∧
      q2.re.expr = q.re.expr ++ suf ∧ q2.pos = q.re.expr.length + min 1 suf.length := by
  obtain ⟨h1, h2, h3⟩ := h.pos.2.2 hc
  refine ⟨h2, by simpa using h.nlpar, by simpa using h.re.1, by simpa using h3⟩

/-- C19: for every pattern p that compiles (the empty pattern included), Compile of the
pattern "(" followed by p fails with ErrUnmatchedLpar. -/
theorem Compile_unmatched_lpar (p : List Nat) (re : Regexp) (h : Compile p = .ok re) :
    Compile (bytesOf "(" ++ p) = .error (.error .ErrUnmatchedLpar) :=
  Compile_lpar h

theorem Compile_unmatched_lpar_witness :
    Compile [97, 40, 98, 41, 63, 99] = .ok progOptGroup ∧
    Compile (bytesOf "(" ++ [97, 40, 98, 41, 63, 99]) = .error (.error .ErrUnmatchedLpar) :=
  ⟨Compile_of_toOption (by decide!),
    Compile_unmatched_lpar [97, 40, 98, 41, 63, 99] progOptGroup
      (Compile_of_toOption (by decide!))⟩

/-- C20: for every pattern p that compiles (the empty pattern included), Compile of p
followed by ")" fails with ErrUnmatchedRpar, and Compile of p followed by "]" fails with
ErrUnmatchedRbkt. -/
theorem Compile_unmatched_closing (p : List Nat) (re : Regexp) (h : Compile p = .ok re) :
    Compile (p ++ bytesOf ")") = .error (.error .ErrUnmatchedRpar) ∧
    Compile (p ++ bytesOf "]") = .error (.error .ErrUnmatchedRbkt) := by
  constructor
  · refine Compile_suffix .ErrUnmatchedRpar 1 (sufOK_cons 41 [] (by decide) (by decide)
      (by decide) (by decide) (by decide)) ?_ (by decide) h
    intro q q2 hS hc hn _ M hM
    obtain ⟨M, rfl⟩ : ∃ M', M = M' + 1 := ⟨M - 1, by omega⟩
    obtain ⟨h1, h2, -, -⟩ := sim_at_end hS hc
    exact term_rpar M q2 h1 (by rw [h2, hn])
  · refine Compile_suffix .ErrUnmatchedRbkt 1 (sufOK_cons 93 [] (by decide) (by decide)
      (by decide) (by decide) (by decide)) ?_ (by decide) h
    intro q q2 hS hc hn _ M hM
    obtain ⟨M, rfl⟩ : ∃ M', M = M' + 1 := ⟨M - 1, by omega⟩
    obtain ⟨h1, -, -, -⟩ := sim_at_end hS hc
    exact term_rbkt M q2 h1

theorem Compile_unmatched_closing_witness :
    Compile [97, 40, 98, 41, 63, 99] = .ok progOptGroup ∧
    Compile ([97, 40, 98, 41, 63, 99] ++ bytesOf ")") = .error (.error .ErrUnmatchedRpar) ∧
    Compile ([97, 40, 98, 41, 63, 99] ++ bytesOf "]") = .error (.error .ErrUnmatchedRbkt) :=
  ⟨Compile_of_toOption (by decide!),
    Compile_unmatched_closing [97, 40, 98, 41, 63, 99] progOptGroup
      (Compile_of_toOption (by decide!))⟩

end GoRegexp

namespace GoRegexp

/-! ## Backslash escapes -/

theorem nextc_at {q : parser} {a b : List Nat} (he : q.re.expr = a ++ b) (hp : q.pos = a.length)
    (hb : b ≠ []) : q.nextc.ch = (DecodeRune b).1 := by
  have hlen : ¬ q.pos ≥ q.re.expr.length := by
    rw [he, hp, List.length_append]
    have : 0 < b.length := List.length_pos.mpr hb
    omega
  unfold parser.nextc
  rw [if_neg hlen]
  simp only [DecodeRuneInString, he, hp, List.drop_left]

theorem nextc_at_pos {q : parser} {a b : List Nat} (he : q.re.expr = a ++ b)
    (hp : q.pos = a.length) (hb : b ≠ []) :
    q.nextc.pos = a.length + (DecodeRune b).2 ∧ q.nextc.re = q.re := by
  have hlen : ¬ q.pos ≥ q.re.expr.length := by
    rw [he, hp, List.length_append]
    have : 0 < b.length := List.length_pos.mpr hb
    omega
  unfold parser.nextc
  rw [if_neg hlen]
  simp only [DecodeRuneInString, he, hp, List.drop_left, and_self]

theorem nextc_at_end {q : parser} (hp : q.re.expr.length ≤ q.pos) : q.nextc.ch = endOfFile := by
  unfold parser.nextc
  rw [if_pos hp]

theorem escape_neg {x : Int} (h : x ∉ escapes) : ¬ escape x ≥ 0 := by
  unfold escape
  have : escapes.indexOf? x = none := by
    simp only [escapes, List.mem_cons, List.mem_singleton, not_or, List.not_mem_nil,
      or_false] at h
    obtain ⟨h1, h2, h3, h4, h5, h6, h7⟩ := h
    simp [escapes, List.indexOf?, List.findIdx?_cons, Ne.symm h1, Ne.symm h2,
      Ne.symm h3, Ne.symm h4, Ne.symm h5, Ne.symm h6, Ne.symm h7]
  rw [this]
  decide

theorem checkBackslash_punct (p : parser) (h : p.c = 92) (hx : ispunct p.nextc.ch = true) :
    p.checkBackslash = .ok (p.nextc, p.nextc.ch) := by
  have hne : p.nextc.ch ≠ endOfFile := by
    intro h0; rw [h0] at hx; revert hx; decide
  unfold parser.checkBackslash
  simp only
  rw [if_pos h, if_neg hne, if_pos hx]

theorem checkBackslash_escape (p : parser) (h : p.c = 92) (x y : Int)
    (hxy : (x, y) ∈ escapes.zip escaped) (hx : p.nextc.ch = x) :
    p.checkBackslash = .ok (p.nextc, y) := by
  unfold parser.checkBackslash
  simp only
  rw [if_pos h, hx]
  simp only [escapes, escaped, List.zip_cons_cons, List.zip_nil_right, List.mem_cons,
    Prod.mk.injEq, List.mem_singleton, List.not_mem_nil, or_false] at hxy
  rcases hxy with ⟨rfl, rfl⟩ | ⟨rfl, rfl⟩ | ⟨rfl, rfl⟩ | ⟨rfl, rfl⟩ | ⟨rfl, rfl⟩ | ⟨rfl, rfl⟩ |
    ⟨rfl, rfl⟩ <;> rfl

theorem checkBackslash_bad (p : parser) (h : p.c = 92) (hne : p.nextc.ch ≠ endOfFile)
    (hx : ispunct p.nextc.ch = false) (he : p.nextc.ch ∉ escapes) :
    p.checkBackslash = .error (.error .ErrBadBackslash) := by
  unfold parser.checkBackslash
  simp only
  rw [if_pos h, if_neg hne, if_neg (by simp [hx]), if_neg (escape_neg he)]

theorem checkBackslash_last (p : parser) (h : p.c = 92) (hx : p.nextc.ch = endOfFile) :
    p.checkBackslash = .error (.error .ErrExtraneousBackslash) := by
  unfold parser.checkBackslash
  simp only
  rw [if_pos h, if_pos hx]

theorem term_backslash (M : Nat) (p : parser) (h : p.c = 92) :
    parser.term (M + 1) p =
      match p.checkBackslash with
      | .error e => .error e
      | .ok (p1, c) =>
        .ok (p1.nextc.addI { kind := .iChar, char := c }, some p1.re.inst.length,
          some p1.re.inst.length) :=
  term_default M p (by rw [h]; decide)

theorem class_backslash_err (M : Nat) (p : parser) (cc : charClass) (left : Int) (h : p.c = 92)
    {x : Abort} (hb : p.checkBackslash = .error x) :
    parser.charClassLoop (M + 1) p cc left = .error x := by
  have h1 : ¬ (p.c = 93 ∨ p.c = endOfFile) := by rw [h]; decide
  have h2 : ¬ p.c = 45 := by rw [h]; decide
  rw [parser.charClassLoop]
  simp only
  rw [if_neg h1, if_neg h2, hb]

theorem term_class_backslash_err (M : Nat) (p : parser) (h : p.c = 91) (h2 : p.nextc.c = 92)
    {x : Abort} (hb : p.nextc.checkBackslash = .error x) :
    parser.term (M + 2) p = .error x := by
  have h94 : ¬ p.nextc.c = 94 := by rw [h2]; decide
  rw [term_eq_cls _ _ h]
  unfold parser.charClass
  simp only
  rw [if_neg h94, class_backslash_err M _ _ _ h2 hb]

/-- The parser, called at the first rune of a suffix that starts with a backslash and goes
on with the bytes t, after a pattern it has read to the end. -/
theorem suffix_backslash {suf t : List Nat} {q q2 : parser} (a : List Nat)
    (hsuf : suf = a ++ 92 :: t) (ha : a.length ≤ 1)
    (hS : Sim [] suf 0 q q2) (hc : q.ch = endOfFile) :
    ∀ p2 : parser, p2.re = q2.re → p2.pos = q.re.expr.length + a.length + 1 → p2.c = 92 →
      (t = [] → p2.checkBackslash = .error (.error .ErrExtraneousBackslash)) ∧
      (t ≠ [] → ispunct (DecodeRune t).1 = false → (DecodeRune t).1 ∉ escapes →
        p2.checkBackslash = .error (.error .ErrBadBackslash)) := by
  intro p2 hre hpos h92
  obtain ⟨-, -, h3, -⟩ := sim_at_end hS hc
  have he : p2.re.expr = (q.re.expr ++ a ++ [92]) ++ t := by
    rw [hre, h3, hsuf]; simp
  have hp : p2.pos = (q.re.expr ++ a ++ [92]).length := by
    rw [hpos]; simp only [List.length_append, List.length_singleton]
  constructor
  · intro ht
    apply checkBackslash_last p2 h92
    apply nextc_at_end
    rw [he, hp, ht]; simp
  · intro ht hx hesc
    have hch := nextc_at he hp ht
    apply checkBackslash_bad p2 h92
    · rw [hch]; exact DecodeRune_ne_eof t
    · rw [hch]; exact hx
    · rw [hch]; exact hesc

theorem sim_end_state {suf : List Nat} {q q2 : parser} (hS : Sim [] suf 0 q q2)
    (hc : q.ch = endOfFile) (c : Nat) (t : List Nat) (hsuf : suf = c :: t) :
    q2.c = (c : Int) ∧ q2.pos = q.re.expr.length + 1 ∧ q2.re.expr = q.re.expr ++ c :: t := by
  obtain ⟨h1, -, h3, h4⟩ := sim_at_end hS hc
  subst hsuf
  refine ⟨h1, by simpa using h4, h3⟩

/-- C18: in a pattern, a backslash followed by an ASCII punctuation character stands for
that character, and a backslash followed by one of a, b, f, n, r, t, v stands for the
control character 7, 8, 12, 10, 13, 9, 11; this is what parser.checkBackslash returns at
every backslash, and parser.term (outside a class) makes an iChar instruction of the rune
it returns, as does a class of that one rune. A backslash followed by any other character
makes Compile fail with ErrBadBackslash, and a backslash that is the last character of the
pattern makes Compile fail with ErrExtraneousBackslash: so it is after every pattern p that
compiles, outside a class and in a class opened after p. -/
theorem backslash_escapes (p : List Nat) (re : Regexp) (h : Compile p = .ok re) :
    (∀ q : parser, q.c = 92 → ispunct q.nextc.ch = true →
      q.checkBackslash = .ok (q.nextc, q.nextc.ch)) ∧
    escapes.zip escaped =
      [(97, 7), (98, 8), (102, 12), (110, 10), (114, 13), (116, 9), (118, 11)] ∧
    (∀ (q : parser) (x y : Int), q.c = 92 → (x, y) ∈ escapes.zip escaped → q.nextc.ch = x →
      q.checkBackslash = .ok (q.nextc, y)) ∧
    (∀ q : parser, q.c = 92 → q.nextc.ch ≠ endOfFile → ispunct q.nextc.ch = false →
      q.nextc.ch ∉ escapes → q.checkBackslash = .error (.error .ErrBadBackslash)) ∧
    (∀ q : parser, q.c = 92 → q.nextc.ch = endOfFile →
      q.checkBackslash = .error (.error .ErrExtraneousBackslash)) ∧
    (∀ (M : Nat) (q : parser), q.c = 92 →
      parser.term (M + 1) q =
        match q.checkBackslash with
        | .error e => .error e
        | .ok (p1, c) =>
          .ok (p1.nextc.addI { kind := .iChar, char := c }, some p1.re.inst.length,
            some p1.re.inst.length)) ∧
    (∀ c ∈ punctRunes,
      (Compile [92, c.toNat]).toOption.map (fun r => r.inst) =
        some [{ kind := .iStart, index := 0, next := some 1 },
          { kind := .iChar, index := 1, next := some 2, char := c }, { kind := .iEnd, index := 2 }] ∧
      (Compile [91, 92, c.toNat, 93]).toOption.map (fun r => r.inst) =
        some [{ kind := .iStart, index := 0, next := some 1 },
          { kind := .iChar, index := 1, next := some 2, char := c }, { kind := .iEnd, index := 2 }]) ∧
    (∀ xy ∈ escapes.zip escaped,
      (Compile [92, xy.1.toNat]).toOption.map (fun r => r.inst) =
        some [{ kind := .iStart, index := 0, next := some 1 },
          { kind := .iChar, index := 1, next := some 2, char := xy.2 }, { kind := .iEnd, index := 2 }] ∧
      (Compile [91, 92, xy.1.toNat, 93]).toOption.map (fun r => r.inst) =
        some [{ kind := .iStart, index := 0, next := some 1 },
          { kind := .iChar, index := 1, next := some 2, char := xy.2 }, { kind := .iEnd, index := 2 }]) ∧
    (∀ t : List Nat, t ≠ [] → ispunct (DecodeRune t).1 = false → (DecodeRune t).1 ∉ escapes →
      Compile (p ++ 92 :: t) = .error (.error .ErrBadBackslash) ∧
      Compile (p ++ 91 :: 92 :: t) = .error (.error .ErrBadBackslash)) ∧
    Compile (p ++ [92]) = .error (.error .ErrExtraneousBackslash) ∧
    Compile (p ++ [91, 92]) = .error (.error .ErrExtraneousBackslash) := by
  have out : ∀ (t : List Nat) (E : Error),
      (∀ (q q2 : parser), Sim [] (92 :: t) 0 q q2 → q.ch = endOfFile →
        q2.checkBackslash = .error (.error E)) →
      Compile (p ++ 92 :: t) = .error (.error E) := by
    intro t E hE
    refine Compile_suffix E 1 (sufOK_cons 92 t (by decide) (by decide) (by decide) (by decide)
      (by decide)) ?_ (by simp) h
    intro q q2 hS hc _ _ M hM
    obtain ⟨M, rfl⟩ : ∃ M', M = M' + 1 := ⟨M - 1, by omega⟩
    obtain ⟨h1, -, -⟩ := sim_end_state hS hc 92 t rfl
    rw [term_backslash M q2 h1, hE q q2 hS hc]
  have cls : ∀ (t : List Nat) (E : Error),
      (∀ (q q2 : parser), Sim [] (91 :: 92 :: t) 0 q q2 → q.ch = endOfFile →
        q2.nextc.c = 92 ∧ q2.nextc.checkBackslash = .error (.error E)) →
      Compile (p ++ 91 :: 92 :: t) = .error (.error E) := by
    intro t E hE
    refine Compile_suffix E 2 (sufOK_cons 91 (92 :: t) (by decide) (by decide) (by decide)
      (by decide) (by decide)) ?_ (by simp) h
    intro q q2 hS hc _ _ M hM
    obtain ⟨M, rfl⟩ : ∃ M', M = M' + 2 := ⟨M - 2, by omega⟩
    obtain ⟨h1, -, -⟩ := sim_end_state hS hc 91 (92 :: t) rfl
    obtain ⟨h2, h3⟩ := hE q q2 hS hc
    exact term_class_backslash_err M q2 h1 h2 h3
  have inCls : ∀ (t : List Nat) (q q2 : parser), Sim [] (91 :: 92 :: t) 0 q q2 →
      q.ch = endOfFile → q2.nextc.c = 92 ∧ q2.nextc.re = q2.re ∧
        q2.nextc.pos = q.re.expr.length + 1 + 1 := by
    intro t q q2 hS hc
    obtain ⟨-, h2, h3⟩ := sim_end_state hS hc 91 (92 :: t) rfl
    have he : q2.re.expr = (q.re.expr ++ [91]) ++ 92 :: t := by rw [h3]; simp
    have hp : q2.pos = (q.re.expr ++ [91]).length := by rw [h2]; simp
    have h4 := nextc_at he hp (by simp)
    have h5 := nextc_at_pos he hp (by simp)
    refine ⟨?_, h5.2, ?_⟩
    · unfold parser.c; rw [h4]; simp [DecodeRune]
    · rw [h5.1]; simp [DecodeRune]
  refine ⟨checkBackslash_punct, by decide, fun q x y hq hxy hx => checkBackslash_escape q hq x y hxy hx,
    checkBackslash_bad, checkBackslash_last, term_backslash, by decide!, by decide!, ?_, ?_, ?_⟩
  · intro t ht hx hesc
    constructor
    · apply out
      intro q q2 hS hc
      obtain ⟨h1, h2, -⟩ := sim_end_state hS hc 92 t rfl
      exact (suffix_backslash (t := t) [] rfl (by simp) hS hc q2 rfl (by simpa using h2) h1).2
        ht hx hesc
    · apply cls
      intro q q2 hS hc
      obtain ⟨h1, h2, h3⟩ := inCls t q q2 hS hc
      exact ⟨h1, (suffix_backslash (t := t) [91] rfl (by simp) hS hc q2.nextc h2
        (by simpa using h3) h1).2 ht hx hesc⟩
  · apply out
    intro q q2 hS hc
    obtain ⟨h1, h2, -⟩ := sim_end_state hS hc 92 [] rfl
    exact (suffix_backslash (t := []) [] rfl (by simp) hS hc q2 rfl (by simpa using h2) h1).1 rfl
  · apply cls
    intro q q2 hS hc
    obtain ⟨h1, h2, h3⟩ := inCls [] q q2 hS hc
    exact ⟨h1, (suffix_backslash (t := []) [91] rfl (by simp) hS hc q2.nextc h2
      (by simpa using h3) h1).1 rfl⟩

theorem backslash_escapes_witness :
    Compile [97, 40, 98, 41, 63, 99] = .ok progOptGroup ∧
    ((∀ q : parser, q.c = 92 → ispunct q.nextc.ch = true →
      q.checkBackslash = .ok (q.nextc, q.nextc.ch)) ∧
    escapes.zip escaped =
      [(97, 7), (98, 8), (102, 12), (110, 10), (114, 13), (116, 9), (118, 11)] ∧
    (∀ (q : parser) (x y : Int), q.c = 92 → (x, y) ∈ escapes.zip escaped → q.nextc.ch = x →
      q.checkBackslash = .ok (q.nextc, y)) ∧
    (∀ q : parser, q.c = 92 → q.nextc.ch ≠ endOfFile → ispunct q.nextc.ch = false →
      q.nextc.ch ∉ escapes → q.checkBackslash = .error (.error .ErrBadBackslash)) ∧
    (∀ q : parser, q.c = 92 → q.nextc.ch = endOfFile →
      q.checkBackslash = .error (.error .ErrExtraneousBackslash)) ∧
    (∀ (M : Nat) (q : parser), q.c = 92 →
      parser.term (M + 1) q =
        match q.checkBackslash with
        | .error e => .error e
        | .ok (p1, c) =>
          .ok (p1.nextc.addI { kind := .iChar, char := c }, some p1.re.inst.length,
            some p1.re.inst.length)) ∧
    (∀ c ∈ punctRunes,
      (Compile [92, c.toNat]).toOption.map (fun r => r.inst) =
        some [{ kind := .iStart, index := 0, next := some 1 },
          { kind := .iChar, index := 1, next := some 2, char := c }, { kind := .iEnd, index := 2 }] ∧
      (Compile [91, 92, c.toNat, 93]).toOption.map (fun r => r.inst) =
        some [{ kind := .iStart, index := 0, next := some 1 },
          { kind := .iChar, index := 1, next := some 2, char := c }, { kind := .iEnd, index := 2 }]) ∧
    (∀ xy ∈ escapes.zip escaped,
      (Compile [92, xy.1.toNat]).toOption.map (fun r => r.inst) =
        some [{ kind := .iStart, index := 0, next := some 1 },
          { kind := .iChar, index := 1, next := some 2, char := xy.2 }, { kind := .iEnd, index := 2 }] ∧
      (Compile [91, 92, xy.1.toNat, 93]).toOption.map (fun r => r.inst) =
        some [{ kind := .iStart, index := 0, next := some 1 },
          { kind := .iChar, index := 1, next := some 2, char := xy.2 }, { kind := .iEnd, index := 2 }]) ∧
    (∀ t : List Nat, t ≠ [] → ispunct (DecodeRune t).1 = false → (DecodeRune t).1 ∉ escapes →
      Compile ([97, 40, 98, 41, 63, 99] ++ 92 :: t) = .error (.error .ErrBadBackslash) ∧
      Compile ([97, 40, 98, 41, 63, 99] ++ 91 :: 92 :: t) = .error (.error .ErrBadBackslash)) ∧
    Compile ([97, 40, 98, 41, 63, 99] ++ [92]) = .error (.error .ErrExtraneousBackslash) ∧
    Compile ([97, 40, 98, 41, 63, 99] ++ [91, 92]) = .error (.error .ErrExtraneousBackslash)) :=
  ⟨Compile_of_toOption (by decide!),
    backslash_escapes [97, 40, 98, 41, 63, 99] progOptGroup (Compile_of_toOption (by decide!))⟩

end GoRegexp

namespace GoRegexp

/-! ## Classes that collapse to one instruction -/

/-- C15: the patterns `[a]` and `a` compile, and the matcher returns the same on the two
programs for every subject (string or bytes) and every start offset; the class of all runes
but newline, written with the escape or with the newline itself, and the pattern `.`
compile, and the matcher returns the same on their programs for every subject that contains
no newline and every start offset. The matcher does return on these programs: a vector or
nil. -/
theorem class_collapse_same_vectors :
    ∃ r1 r2 r3 r4 r5 : Regexp,
      Compile (bytesOf "[a]") = .ok r1 ∧ Compile (bytesOf "a") = .ok r2 ∧
      Compile (bytesOf "[^\\n]") = .ok r3 ∧ Compile (bytesOf "[^\n]") = .ok r4 ∧
      Compile (bytesOf ".") = .ok r5 ∧
      (∀ (s : List Nat) (bs : Option (List Nat)) (pos : Nat),
        r1.doExecute s bs pos = r2.doExecute s bs pos) ∧
      (∀ (s : List Nat) (pos : Nat), 10 ∉ s →
        r3.doExecute s none pos = r5.doExecute s none pos ∧
        r4.doExecute s none pos = r5.doExecute s none pos) ∧
      (∀ (s b : List Nat) (pos : Nat), 10 ∉ b →
        r3.doExecute s (some b) pos = r5.doExecute s (some b) pos ∧
        r4.doExecute s (some b) pos = r5.doExecute s (some b) pos) ∧
      (∀ (s : List Nat) (pos : Nat), pos ≤ s.length →
        (∃ v, r2.doExecute s none pos = some v) ∧ (∃ v, r5.doExecute s none pos = some v)) := by
  have h2 : Compile (bytesOf "a") = .ok
      ⟨[97], [97], [{ kind := .iStart, index := 0, next := some 1 },
        { kind := .iChar, index := 1, next := some 2, char := 97 },
        { kind := .iEnd, index := 2 }], some 0, some 2, 0⟩ :=
    Compile_of_toOption (by decide!)
  have h1 : Compile (bytesOf "[a]") = .ok
      ⟨[91, 97, 93], [97], [{ kind := .iStart, index := 0, next := some 1 },
        { kind := .iChar, index := 1, next := some 2, char := 97 },
        { kind := .iEnd, index := 2 }], some 0, some 2, 0⟩ :=
    Compile_of_toOption (by decide!)
  have h3 : Compile (bytesOf "[^\\n]") = .ok
      ⟨[91, 94, 92, 110, 93], [], [{ kind := .iStart, index := 0, next := some 1 },
        { kind := .iNotNL, index := 1, next := some 2 },
        { kind := .iEnd, index := 2 }], some 0, some 1, 0⟩ :=
    Compile_of_toOption (by decide!)
  have h4 : Compile (bytesOf "[^\n]") = .ok
      ⟨[91, 94, 10, 93], [], [{ kind := .iStart, index := 0, next := some 1 },
        { kind := .iNotNL, index := 1, next := some 2 },
        { kind := .iEnd, index := 2 }], some 0, some 1, 0⟩ :=
    Compile_of_toOption (by decide!)
  have h5 : Compile (bytesOf ".") = .ok
      (Regexp.asAny ⟨[91, 94, 92, 110, 93], [], [{ kind := .iStart, index := 0, next := some 1 },
        { kind := .iNotNL, index := 1, next := some 2 },
        { kind := .iEnd, index := 2 }], some 0, some 1, 0⟩ [46]) :=
    Compile_of_toOption (by decide!)
  have h54 : Regexp.asAny ⟨[91, 94, 92, 110, 93], [], [{ kind := .iStart, index := 0, next := some 1 },
        { kind := .iNotNL, index := 1, next := some 2 },
        { kind := .iEnd, index := 2 }], some 0, some 1, 0⟩ [46] =
      Regexp.asAny ⟨[91, 94, 10, 93], [], [{ kind := .iStart, index := 0, next := some 1 },
        { kind := .iNotNL, index := 1, next := some 2 },
        { kind := .iEnd, index := 2 }], some 0, some 1, 0⟩ [46] := by
    decide
  refine ⟨_, _, _, _, _, h1, h2, h3, h4, h5, ?_, ?_, ?_, ?_⟩
  · intro s bs pos
    exact doExecute_expr ⟨[97], [97], [{ kind := .iStart, index := 0, next := some 1 },
        { kind := .iChar, index := 1, next := some 2, char := 97 },
        { kind := .iEnd, index := 2 }], some 0, some 2, 0⟩ [91, 97, 93] s bs pos
  · intro s pos hs
    refine ⟨(doExecute_asAny _ [46] s none pos hs).symm, ?_⟩
    rw [h54]
    exact (doExecute_asAny _ [46] s none pos hs).symm
  · intro s b pos hs
    refine ⟨(doExecute_asAny _ [46] s (some b) pos hs).symm, ?_⟩
    rw [h54]
    exact (doExecute_asAny _ [46] s (some b) pos hs).symm
  · intro s pos hpos
    obtain ⟨rk2, x2, s2, hR2⟩ := Compile_ready h2
    obtain ⟨rk5, x5, s5, hR5⟩ := Compile_ready h5
    obtain ⟨v2, hv2, -⟩ := doExecute_sound hR2 s pos hpos
    obtain ⟨v5, hv5, -⟩ := doExecute_sound hR5 s pos hpos
    exact ⟨⟨v2, hv2⟩, ⟨v5, hv5⟩⟩

end GoRegexp

namespace GoRegexp

/-! ## Ranges -/

/-- C17: for all characters x and y that stand for themselves in a class (Unicode scalar
values other than the closing bracket, the hyphen and the backslash; x, which comes first in
the class, is not the caret either, since a caret there negates the class): if x ≤ y, the
pattern `[x-y]` compiles to a program of one instruction between iStart and iEnd, and that
instruction accepts exactly the runes r with x ≤ r ≤ y; if x > y, Compile fails with
ErrBadRange. -/
theorem class_range (x y : Int) (hx : classLiteral x) (hx2 : x ≠ 94) (hy : classLiteral y) :
    (x ≤ y → ∃ re i, Compile (rangePattern x y) = .ok re ∧
      re.inst = [{ kind := .iStart, index := 0, next := some 1 }, i,
        { kind := .iEnd, index := 2 }] ∧
      i.next = some 2 ∧ (i.kind = .iChar ∨ i.kind = .iCharClass) ∧
      ∀ r, i.eats r = true ↔ x ≤ r ∧ r ≤ y) ∧
    (y < x → Compile (rangePattern x y) = .error (.error .ErrBadRange)) := by
  obtain ⟨h1, h2⟩ := Compile_range x y hx hx2 hy
  refine ⟨fun hxy => ?_, h2⟩
  obtain ⟨re, hre, hi⟩ := h1 hxy
  obtain ⟨hk, he⟩ := classInstr_range x y hx.1 hy.2.1 hxy
  exact ⟨re, _, hre, hi, rfl, hk, he⟩

theorem class_range_witness :
    (classLiteral 97 ∧ (97 : Int) ≠ 94 ∧ classLiteral 122 ∧
      ((97 : Int) ≤ 122 → ∃ re i, Compile (rangePattern 97 122) = .ok re ∧
        re.inst = [{ kind := .iStart, index := 0, next := some 1 }, i,
          { kind := .iEnd, index := 2 }] ∧
        i.next = some 2 ∧ (i.kind = .iChar ∨ i.kind = .iCharClass) ∧
        ∀ r, i.eats r = true ↔ 97 ≤ r ∧ r ≤ 122) ∧
      ((122 : Int) < 97 → Compile (rangePattern 97 122) = .error (.error .ErrBadRange))) ∧
    rangePattern 122 97 = bytesOf "[z-a]" ∧ (97 : Int) < 122 ∧
    Compile (rangePattern 122 97) = .error (.error .ErrBadRange) :=
  ⟨⟨by unfold classLiteral; decide, by decide, by unfold classLiteral; decide,
    class_range 97 122 (by unfold classLiteral; decide) (by decide)
      (by unfold classLiteral; decide)⟩,
    by decide, by decide,
    (class_range 122 97 (by unfold classLiteral; decide) (by decide)
      (by unfold classLiteral; decide)).2 (by decide)⟩

end GoRegexp

namespace GoRegexp

/-! ## Leftmost, longest -/

theorem run_vector {re : Regexp} {rk : Nat → Nat} (hG : ProgOK re.inst re.nbra rk)
    {b : List Nat} {s0 p k q : Nat} {m1 : List Int} {tr : List Nat}
    (h : Run re.inst b s0 p (seedVec re p) tr k q m1) :
    (m1.set 1 (q : Int)).length = 2 * (re.nbra + 1) ∧
    vstart (m1.set 1 (q : Int)) = (p : Int) ∧ vend (m1.set 1 (q : Int)) = (q : Int) := by
  have hl := Run_length h
  rw [seedVec_length] at hl
  have hv := Run_vstart hG h
  rw [vstart_seedVec] at hv
  exact ⟨by rw [List.length_set, hl], by rw [vstart_set1, hv], vend_set1 _ (by omega)⟩

theorem accepts_run {re : Regexp} {rk : Nat → Nat} {x0 : instr} {s0 : Nat}
    (hR : Ready re rk x0 s0) {b : List Nat} {p q : Nat} (h : Accepts re b p q) :
    ∃ tr k m1, Run re.inst b s0 p (seedVec re p) tr k q m1 ∧ kindAt re.inst k = some .iEnd := by
  obtain ⟨tr, m, s, x, s1, k, m1, h1, h2, h3, h4, h5, -⟩ := h
  rw [hR.start] at h1
  cases h1
  rw [hR.first] at h2
  cases h2
  rw [hR.next] at h3
  cases h3
  exact ⟨tr, k, m1, h4, h5⟩

/-- C2: for every pattern that compiles, every well-formed UTF-8 subject s and every start
offset pos at which a rune of s starts (or the end of s), doExecute(s, pos) returns; it
returns nil exactly when the program accepts no span of s that starts at or after pos (at an
offset where a rune starts); and a vector m it returns holds in m[0], m[1] a span that starts
at such an offset and that the program accepts, m being the vector of the accepting run. -/
theorem doExecute_nil_iff_no_match (pat : List Nat) (re : Regexp) (h : Compile pat = .ok re)
    (s : List Nat) (hv : ValidUTF8 s) (pos : Nat) (hb : RuneStart s 0 pos) :
    ∃ r, re.doExecute s none pos = some r ∧
      (r = none ↔ ¬ ∃ p q, RuneStart s pos p ∧ Accepts re s p q) ∧
      (∀ m, r = some m → ∃ (p q : Nat) (tr : List Nat), m[0]? = some (p : Int) ∧ m[1]? = some (q : Int) ∧
        RuneStart s pos p ∧ AcceptsVia re s p q tr m) := by
  obtain ⟨rk, x0, s0, hR⟩ := Compile_ready h
  have hpos : pos ≤ s.length := RuneStart_le_length hb (Nat.zero_le _)
  obtain ⟨r, hr, hsound, hcomp⟩ := doExecute_complete hR (Compile_prefixed h) s hv pos hb hpos
  have hs2 : ∀ m, r = some m → ∃ (p q : Nat) (tr : List Nat), m[0]? = some (p : Int) ∧ m[1]? = some (q : Int) ∧
      RuneStart s pos p ∧ AcceptsVia re s p q tr m := by
    intro m hm
    obtain ⟨p0, q, tr, m1, k, h1, h2, h3, h4, h5⟩ := hsound m hm
    obtain ⟨hl, hv0, hv1⟩ := run_vector hR.prog h3
    rw [← h5] at hl hv0 hv1
    refine ⟨p0, q, tr, ?_, ?_, h1, 0, x0, s0, k, m1, hR.start, hR.first, hR.next, h3, h4, h5⟩
    · rw [get0_vstart (by omega), hv0]
    · rw [get1_vend (by omega), hv1]
  refine ⟨r, hr, ?_, hs2⟩
  constructor
  · intro hn hex
    obtain ⟨p, q, hp, hacc⟩ := hex
    obtain ⟨tr, k, m1, hrun, hend⟩ := accepts_run hR hacc
    obtain ⟨f, hf, -⟩ := hcomp p q k tr m1 hp hrun hend
    rw [hn] at hf
    cases hf
  · intro hno
    cases r with
    | none => rfl
    | some m =>
      exfalso
      obtain ⟨p, q, tr, -, -, hp, hacc⟩ := hs2 m rfl
      exact hno ⟨p, q, hp, tr, m, hacc⟩

theorem doExecute_nil_iff_no_match_witness :
    Compile [97, 40, 98, 41, 63, 99] = .ok progOptGroup ∧ ValidUTF8 [120, 97, 99] ∧
    RuneStart [120, 97, 99] 0 0 ∧
    ∃ r, progOptGroup.doExecute [120, 97, 99] none 0 = some r ∧
      (r = none ↔ ¬ ∃ p q, RuneStart [120, 97, 99] 0 p ∧ Accepts progOptGroup [120, 97, 99] p q) ∧
      (∀ m, r = some m → ∃ (p q : Nat) (tr : List Nat), m[0]? = some (p : Int) ∧ m[1]? = some (q : Int) ∧
        RuneStart [120, 97, 99] 0 p ∧ AcceptsVia progOptGroup [120, 97, 99] p q tr m) :=
  ⟨Compile_of_toOption (by decide!), by unfold ValidUTF8; decide, .first,
    doExecute_nil_iff_no_match [97, 40, 98, 41, 63, 99] progOptGroup
      (Compile_of_toOption (by decide!)) [120, 97, 99] (by unfold ValidUTF8; decide) 0 .first⟩

/-- C1: for every pattern that compiles and every well-formed UTF-8 subject s,
FindStringIndex(s) returns; if it returns [i, j], then no span of s that the program accepts
(a span that starts where a rune starts) starts before i, and no accepted span that starts
at i ends after j. On the subject "ab123cd" the pattern `[0-9]+` gives [2, 5]. -/
theorem FindStringIndex_leftmost_longest (pat : List Nat) (re : Regexp)
    (h : Compile pat = .ok re) (s : List Nat) (hv : ValidUTF8 s) :
    (∃ r, re.FindStringIndex s = some r ∧
      ∀ i j : Int, r = some [i, j] →
        ∀ p q, RuneStart s 0 p → Accepts re s p q →
          i ≤ (p : Int) ∧ ((p : Int) = i → (q : Int) ≤ j)) ∧
    (Compile (bytesOf "[0-9]+")).toOption.bind
        (fun re => re.FindStringIndex (bytesOf "ab123cd")) = some (some [2, 5]) := by
  refine ⟨?_, by decide!⟩
  obtain ⟨rk, x0, s0, hR⟩ := Compile_ready h
  obtain ⟨r, hr, hsound, hcomp⟩ := doExecute_complete hR (Compile_prefixed h) s hv 0 .first
    (Nat.zero_le _)
  unfold Regexp.FindStringIndex
  rw [hr]
  cases r with
  | none => exact ⟨none, rfl, fun i j hij => by cases hij⟩
  | some a =>
    obtain ⟨p0, q0, tr0, m1, k0, h1, h2, h3, h4, h5⟩ := hsound a rfl
    obtain ⟨hl, hv0, hv1⟩ := run_vector hR.prog h3
    rw [← h5] at hl hv0 hv1
    simp only
    rw [if_pos (by omega)]
    refine ⟨_, rfl, ?_⟩
    intro i j hij p q hp hacc
    simp only [Option.some.injEq] at hij
    have e0 : (a.take 2)[0]? = some i := by rw [hij]; rfl
    have e1 : (a.take 2)[1]? = some j := by rw [hij]; rfl
    rw [List.getElem?_take_of_lt (by omega), get0_vstart (by omega)] at e0
    rw [List.getElem?_take_of_lt (by omega), get1_vend (by omega)] at e1
    simp only [Option.some.injEq] at e0 e1
    obtain ⟨tr, k, m2, hrun, hend⟩ := accepts_run hR hacc
    obtain ⟨f, hf, hd⟩ := hcomp p q k tr m2 hp hrun hend
    cases hf
    rw [e0, e1] at hd
    rcases hd with hd | ⟨hd1, hd2⟩
    · exact ⟨by omega, fun h0 => by omega⟩
    · exact ⟨by omega, fun _ => hd2⟩

theorem FindStringIndex_leftmost_longest_witness :
    Compile [97, 40, 98, 41, 63, 99] = .ok progOptGroup ∧ ValidUTF8 [97, 99, 97, 98, 99] ∧
    ((∃ r, progOptGroup.FindStringIndex [97, 99, 97, 98, 99] = some r ∧
      ∀ i j : Int, r = some [i, j] →
        ∀ p q, RuneStart [97, 99, 97, 98, 99] 0 p → Accepts progOptGroup [97, 99, 97, 98, 99] p q →
          i ≤ (p : Int) ∧ ((p : Int) = i → (q : Int) ≤ j)) ∧
    (Compile (bytesOf "[0-9]+")).toOption.bind
        (fun re => re.FindStringIndex (bytesOf "ab123cd")) = some (some [2, 5])) :=
  ⟨Compile_of_toOption (by decide!), by unfold ValidUTF8; decide,
    FindStringIndex_leftmost_longest [97, 40, 98, 41, 63, 99] progOptGroup
      (Compile_of_toOption (by decide!)) [97, 99, 97, 98, 99] (by unfold ValidUTF8; decide)⟩

end GoRegexp

namespace GoRegexp

/-! ## The fragment of a tree -/

theorem built_range {G : List instr} {m n s e : Nat} {r : Ast} (h : Built G m n r s e) :
    m ≤ s ∧ s < n ∧ m ≤ e ∧ e < n ∧ n ≤ G.length := by
  induction h with
  | leaf hx _ =>
    have := (List.getElem?_eq_some.mp hx).1
    omega
  | group _ _ _ _ hb ih =>
    obtain ⟨x, hx, _⟩ := hb
    have := (List.getElem?_eq_some.mp hx).1
    omega
  | star _ ha _ ih =>
    obtain ⟨x, hx, _⟩ := ha
    have := (List.getElem?_eq_some.mp hx).1
    omega
  | plus _ ha _ ih =>
    obtain ⟨x, hx, _⟩ := ha
    have := (List.getElem?_eq_some.mp hx).1
    omega
  | opt _ _ _ hn _ ih =>
    obtain ⟨x, hx, _⟩ := hn
    have := (List.getElem?_eq_some.mp hx).1
    omega
  | cat _ _ _ ih1 ih2 => omega
  | alt _ _ _ _ hn _ _ ih1 ih2 =>
    obtain ⟨x, hx, _⟩ := hn
    have := (List.getElem?_eq_some.mp hx).1
    omega

theorem sameOp_eats {x y : instr} (h : SameOp x y) (c : Int) : y.eats c = x.eats c := by
  obtain ⟨h1, h2, h3, _⟩ := h
  unfold instr.eats
  rw [h1, h2, h3]

theorem leafFor_sameOp {x y : instr} {r : Ast} (h : SameOp x y) (hl : LeafFor x r) :
    LeafFor y r := by
  have he := sameOp_eats h
  obtain ⟨h1, h2, h3, _⟩ := h
  cases r <;> simp only [LeafFor] at hl ⊢
  · rw [h1]; exact hl
  · rw [h1]; exact hl
  · rw [h1]; exact hl
  · rw [h1, h2]; exact hl
  · rw [h1]; exact ⟨hl.1, fun c hc => by rw [he]; exact hl.2 c hc⟩
  · rw [h1]; exact hl

/-- A fragment is left as it is by a change of the program that keeps its instructions up
to the index and to the `next` link of its end. -/
theorem built_frame {G G2 : List instr} {m n s e : Nat} {r : Ast} (h : Built G m n r s e)
    (hA : ∀ i x, m ≤ i → i < n → G[i]? = some x →
      ∃ y, G2[i]? = some y ∧ SameOp x y ∧ y.left = x.left ∧ (i ≠ e → y.next = x.next)) :
    Built G2 m n r s e := by
  induction h with
  | @leaf m r x hx hl =>
    obtain ⟨y, hy, hs, -, -⟩ := hA m x (le_refl _) (by omega) hx
    exact Built.leaf hy (leafFor_sameOp hs hl)
  | @group m n1 k s1 e1 r hB hb1 hn1 hn2 hb2 ih =>
    have hr := built_range hB
    refine Built.group (ih fun i x h1 h2 hx => ?_) ?_ ?_ ?_ ?_
    · obtain ⟨y, hy, hs, hl, hn⟩ := hA i x h1 (by omega) hx
      exact ⟨y, hy, hs, hl, fun _ => hn (by omega)⟩
    · obtain ⟨x, hx, hk, hb⟩ := hb1
      obtain ⟨y, hy, hs, -, -⟩ := hA n1 x (by omega) (by omega) hx
      exact ⟨y, hy, by rw [hs.1, hk], by rw [hs.2.2.2, hb]⟩
    · obtain ⟨x, hx, hj⟩ := hn1
      obtain ⟨y, hy, -, -, hn⟩ := hA n1 x (by omega) (by omega) hx
      exact ⟨y, hy, by rw [hn (by omega), hj]⟩
    · obtain ⟨x, hx, hj⟩ := hn2
      obtain ⟨y, hy, -, -, hn⟩ := hA e1 x (by omega) (by omega) hx
      exact ⟨y, hy, by rw [hn (by omega), hj]⟩
    · obtain ⟨x, hx, hk, hb⟩ := hb2
      obtain ⟨y, hy, hs, -, -⟩ := hA (n1 + 1) x (by omega) (by omega) hx
      exact ⟨y, hy, by rw [hs.1, hk], by rw [hs.2.2.2, hb]⟩
  | @star m n1 s1 e1 r hB ha hn ih =>
    have hr := built_range hB
    refine Built.star (ih fun i x h1 h2 hx => ?_) ?_ ?_
    · obtain ⟨y, hy, hs, hl, hn⟩ := hA i x h1 (by omega) hx
      exact ⟨y, hy, hs, hl, fun _ => hn (by omega)⟩
    · obtain ⟨x, hx, hk, hb⟩ := ha
      obtain ⟨y, hy, hs, hl, -⟩ := hA n1 x (by omega) (by omega) hx
      exact ⟨y, hy, by rw [hs.1, hk], by rw [hl, hb]⟩
    · obtain ⟨x, hx, hj⟩ := hn
      obtain ⟨y, hy, -, -, hn⟩ := hA e1 x (by omega) (by omega) hx
      exact ⟨y, hy, by rw [hn (by omega), hj]⟩
  | @plus m n1 s1 e1 r hB ha hn ih =>
    have hr := built_range hB
    refine Built.plus (ih fun i x h1 h2 hx => ?_) ?_ ?_
    · obtain ⟨y, hy, hs, hl, hn⟩ := hA i x h1 (by omega) hx
      exact ⟨y, hy, hs, hl, fun _ => hn (by omega)⟩
    · obtain ⟨x, hx, hk, hb⟩ := ha
      obtain ⟨y, hy, hs, hl, -⟩ := hA n1 x (by omega) (by omega) hx
      exact ⟨y, hy, by rw [hs.1, hk], by rw [hl, hb]⟩
    · obtain ⟨x, hx, hj⟩ := hn
      obtain ⟨y, hy, -, -, hn⟩ := hA e1 x (by omega) (by omega) hx
      exact ⟨y, hy, by rw [hn (by omega), hj]⟩
  | @opt m n1 s1 e1 r hB ha hn1 hp hn2 ih =>
    have hr := built_range hB
    refine Built.opt (ih fun i x h1 h2 hx => ?_) ?_ ?_ ?_ ?_
    · obtain ⟨y, hy, hs, hl, hn⟩ := hA i x h1 (by omega) hx
      exact ⟨y, hy, hs, hl, fun _ => hn (by omega)⟩
    · obtain ⟨x, hx, hk, hb⟩ := ha
      obtain ⟨y, hy, hs, hl, -⟩ := hA n1 x (by omega) (by omega) hx
      exact ⟨y, hy, by rw [hs.1, hk], by rw [hl, hb]⟩
    · obtain ⟨x, hx, hj⟩ := hn1
      obtain ⟨y, hy, -, -, hn⟩ := hA n1 x (by omega) (by omega) hx
      exact ⟨y, hy, by rw [hn (by omega), hj]⟩
    · obtain ⟨x, hx, hk⟩ := hp
      obtain ⟨y, hy, hs, -, -⟩ := hA (n1 + 1) x (by omega) (by omega) hx
      exact ⟨y, hy, by rw [hs.1, hk]⟩
    · obtain ⟨x, hx, hj⟩ := hn2
      obtain ⟨y, hy, -, -, hn⟩ := hA e1 x (by omega) (by omega) hx
      exact ⟨y, hy, by rw [hn (by omega), hj]⟩
  | @cat m n1 n s1 e1 s2 e2 r1 r2 hB1 hB2 hn ih1 ih2 =>
    have hr1 := built_range hB1
    have hr2 := built_range hB2
    refine Built.cat (ih1 fun i x h1 h2 hx => ?_) (ih2 fun i x h1 h2 hx => ?_) ?_
    · obtain ⟨y, hy, hs, hl, hn⟩ := hA i x h1 (by omega) hx
      exact ⟨y, hy, hs, hl, fun _ => hn (by omega)⟩
    · exact hA i x (by omega) h2 hx
    · obtain ⟨x, hx, hj⟩ := hn
      obtain ⟨y, hy, -, -, hn⟩ := hA e1 x (by omega) (by omega) hx
      exact ⟨y, hy, by rw [hn (by omega), hj]⟩
  | @alt m n1 n2 s1 e1 s2 e2 r1 r2 hB1 hB2 ha hn1 hp hn2 hn3 ih1 ih2 =>
    have hr1 := built_range hB1
    have hr2 := built_range hB2
    refine Built.alt (ih1 fun i x h1 h2 hx => ?_) (ih2 fun i x h1 h2 hx => ?_) ?_ ?_ ?_ ?_ ?_
    · obtain ⟨y, hy, hs, hl, hn⟩ := hA i x h1 (by omega) hx
      exact ⟨y, hy, hs, hl, fun _ => hn (by omega)⟩
    · obtain ⟨y, hy, hs, hl, hn⟩ := hA i x (by omega) (by omega) hx
      exact ⟨y, hy, hs, hl, fun _ => hn (by omega)⟩
    · obtain ⟨x, hx, hk, hb⟩ := ha
      obtain ⟨y, hy, hs, hl, -⟩ := hA n2 x (by omega) (by omega) hx
      exact ⟨y, hy, by rw [hs.1, hk], by rw [hl, hb]⟩
    · obtain ⟨x, hx, hj⟩ := hn1
      obtain ⟨y, hy, -, -, hn⟩ := hA n2 x (by omega) (by omega) hx
      exact ⟨y, hy, by rw [hn (by omega), hj]⟩
    · obtain ⟨x, hx, hk⟩ := hp
      obtain ⟨y, hy, hs, -, -⟩ := hA (n2 + 1) x (by omega) (by omega) hx
      exact ⟨y, hy, by rw [hs.1, hk]⟩
    · obtain ⟨x, hx, hj⟩ := hn2
      obtain ⟨y, hy, -, -, hn⟩ := hA e1 x (by omega) (by omega) hx
      exact ⟨y, hy, by rw [hn (by omega), hj]⟩
    · obtain ⟨x, hx, hj⟩ := hn3
      obtain ⟨y, hy, -, -, hn⟩ := hA e2 x (by omega) (by omega) hx
      exact ⟨y, hy, by rw [hn (by omega), hj]⟩

theorem sameOp_refl (x : instr) : SameOp x x := ⟨rfl, rfl, rfl, rfl⟩

/-- A fragment is left as it is by a change of the program outside it. -/
theorem built_congr {G G2 : List instr} {m n s e : Nat} {r : Ast} (h : Built G m n r s e)
    (hA : ∀ i, m ≤ i → i < n → G2[i]? = G[i]?) : Built G2 m n r s e :=
  built_frame h fun i x h1 h2 hx =>
    ⟨x, by rw [hA i h1 h2, hx], sameOp_refl x, rfl, fun _ => rfl⟩

/-- A fragment is left as it is by the assignment of the `next` link of its end. -/
theorem built_link {G G2 : List instr} {m n s e : Nat} {r : Ast} (h : Built G m n r s e)
    (j : Option Nat) (hA : ∀ i, m ≤ i → i < n → i ≠ e → G2[i]? = G[i]?)
    (hE : G2[e]? = (G[e]?).map (fun x => { x with next := j })) : Built G2 m n r s e :=
  built_frame h fun i x h1 h2 hx => by
    by_cases hi : i = e
    · subst hi
      exact ⟨{ x with next := j }, by rw [hE, hx]; rfl, ⟨rfl, rfl, rfl, rfl⟩, rfl,
        fun h => absurd rfl h⟩
    · exact ⟨x, by rw [hA i h1 h2 hi, hx], sameOp_refl x, rfl, fun _ => rfl⟩

end GoRegexp

namespace GoRegexp

/-! ## The fragments the parser builds -/

theorem built_leaf (G : List instr) (x : instr) (r : Ast) (hl : LeafFor x r) (G2 : List instr)
    (hG : G2 = G ++ [x]) : Built G2 G.length G2.length r G.length G.length := by
  subst hG
  have h := Built.leaf (G := G ++ [x]) (m := G.length) (r := r) (x := x) (by simp) hl
  simpa using h

/-- The fragments of `x*` and of `x+`. -/
theorem built_star {G : List instr} {m s e : Nat} {r : Ast} (h : Built G m G.length r s e)
    (alt : instr) (halt : alt.kind = .iAlt) (G2 : List instr)
    (hG : G2 = updLeft (updNext (G ++ [alt]) e (some G.length)) G.length (some s)) :
    Built G2 m G2.length (.star r) G.length G.length ∧
    Built G2 m G2.length (.plus r) s G.length := by
  have hr := built_range h
  have hlen : G2.length = G.length + 1 := by
    rw [hG]; simp [updLeft_length, updNext_length]
  have hold : ∀ i, i < G.length → i ≠ e → G2[i]? = G[i]? := by
    intro i h1 h2
    rw [hG, updLeft_get, if_neg (by omega), updNext_get, if_neg h2,
      List.getElem?_append_left h1]
  have hE : G2[e]? = (G[e]?).map (fun x => { x with next := some G.length }) := by
    rw [hG, updLeft_get, if_neg (by omega), updNext_get, if_pos rfl,
      List.getElem?_append_left (by omega)]
  have hB := built_link h _ (fun i _ h1 h2 => hold i h1 h2) hE
  have hA : AltAt G2 G.length s := by
    refine ⟨{ alt with left := some s }, ?_, halt, rfl⟩
    rw [hG, updLeft_get, if_pos rfl, updNext_get, if_neg (by omega)]
    simp
  have hN : NextAt G2 e G.length := by
    obtain ⟨x, hx⟩ : ∃ x, G[e]? = some x := ⟨_, List.getElem?_eq_getElem (by omega)⟩
    exact ⟨_, by rw [hE, hx]; rfl, rfl⟩
  rw [hlen]
  exact ⟨Built.star hB hA hN, Built.plus hB hA hN⟩

/-- The fragment of `x?`. -/
theorem built_opt {G : List instr} {m s e : Nat} {r : Ast} (h : Built G m G.length r s e)
    (alt nop : instr) (halt : alt.kind = .iAlt) (hnop : nop.kind = .iNop) (G2 : List instr)
    (hG : G2 = updNext (updNext (updLeft (G ++ [alt] ++ [nop]) G.length (some s)) G.length
      (some (G.length + 1))) e (some (G.length + 1))) :
    Built G2 m G2.length (.opt r) G.length (G.length + 1) := by
  have hr := built_range h
  have hlen : G2.length = G.length + 2 := by
    rw [hG]; simp [updLeft_length, updNext_length]
  have hold : ∀ i, i < G.length → i ≠ e → G2[i]? = G[i]? := by
    intro i h1 h2
    rw [hG, updNext_get, if_neg h2, updNext_get, if_neg (by omega), updLeft_get,
      if_neg (by omega), List.getElem?_append_left (by simp; omega),
      List.getElem?_append_left h1]
  have hE : G2[e]? = (G[e]?).map (fun x => { x with next := some (G.length + 1) }) := by
    rw [hG, updNext_get, if_pos rfl, updNext_get, if_neg (by omega), updLeft_get,
      if_neg (by omega), List.getElem?_append_left (by simp; omega),
      List.getElem?_append_left (by omega)]
  have hB := built_link h _ (fun i _ h1 h2 => hold i h1 h2) hE
  have hAlt : G2[G.length]? = some { alt with left := some s, next := some (G.length + 1) } := by
    rw [hG, updNext_get, if_neg (by omega), updNext_get, if_pos rfl, updLeft_get, if_pos rfl,
      List.getElem?_append_left (by simp)]
    simp
  have hNop : G2[G.length + 1]? = some nop := by
    rw [hG, updNext_get, if_neg (by omega), updNext_get, if_neg (by omega), updLeft_get,
      if_neg (by omega), get_two_snd]
  have hN : NextAt G2 e (G.length + 1) := by
    obtain ⟨x, hx⟩ : ∃ x, G[e]? = some x := ⟨_, List.getElem?_eq_getElem (by omega)⟩
    exact ⟨_, by rw [hE, hx]; rfl, rfl⟩
  rw [hlen]
  exact Built.opt hB ⟨_, hAlt, halt, rfl⟩ ⟨_, hAlt, rfl⟩ ⟨_, hNop, hnop⟩ hN

/-- The fragment of `(x)`. -/
theorem built_group {G : List instr} {m s e : Nat} {r : Ast} (h : Built G m G.length r s e)
    (bra ebra : instr) (k : Nat) (hbra : bra.kind = .iBra) (hebra : ebra.kind = .iBra)
    (hb1 : bra.braNum = 2 * k) (hb2 : ebra.braNum = 2 * k + 1) (G2 : List instr)
    (hG : G2 = updNext (updNext (G ++ [bra] ++ [ebra]) e (some (G.length + 1))) G.length
      (some s)) :
    Built G2 m G2.length (.group k r) G.length (G.length + 1) := by
  have hr := built_range h
  have hlen : G2.length = G.length + 2 := by
    rw [hG]; simp [updNext_length]
  have hold : ∀ i, i < G.length → i ≠ e → G2[i]? = G[i]? := by
    intro i h1 h2
    rw [hG, updNext_get, if_neg (by omega), updNext_get, if_neg h2,
      List.getElem?_append_left (by simp; omega), List.getElem?_append_left h1]
  have hE : G2[e]? = (G[e]?).map (fun x => { x with next := some (G.length + 1) }) := by
    rw [hG, updNext_get, if_neg (by omega), updNext_get, if_pos rfl,
      List.getElem?_append_left (by simp; omega), List.getElem?_append_left (by omega)]
  have hB := built_link h _ (fun i _ h1 h2 => hold i h1 h2) hE
  have hBra : G2[G.length]? = some { bra with next := some s } := by
    rw [hG, updNext_get, if_pos rfl, updNext_get, if_neg (by omega),
      List.getElem?_append_left (by simp)]
    simp
  have hEbra : G2[G.length + 1]? = some ebra := by
    rw [hG, updNext_get, if_neg (by omega), updNext_get, if_neg (by omega), get_two_snd]
  have hN : NextAt G2 e (G.length + 1) := by
    obtain ⟨x, hx⟩ : ∃ x, G[e]? = some x := ⟨_, List.getElem?_eq_getElem (by omega)⟩
    exact ⟨_, by rw [hE, hx]; rfl, rfl⟩
  rw [hlen]
  exact Built.group hB ⟨_, hBra, hbra, hb1⟩ ⟨_, hBra, rfl⟩ hN ⟨_, hEbra, hebra, hb2⟩

/-- The fragment of a concatenation. -/
theorem built_cat {G1 : List instr} {m n1 s e s1 e1 : Nat} {a c : Ast}
    (hA : Built G1 m n1 a s e) (hC : Built G1 n1 G1.length c s1 e1) (G2 : List instr)
    (hG : G2 = updNext G1 e (some s1)) : Built G2 m G2.length (.cat a c) s e1 := by
  have hr1 := built_range hA
  have hr2 := built_range hC
  have hlen : G2.length = G1.length := by rw [hG, updNext_length]
  have hold : ∀ i, i ≠ e → G2[i]? = G1[i]? := by
    intro i h2
    rw [hG, updNext_get, if_neg h2]
  have hE : G2[e]? = (G1[e]?).map (fun x => { x with next := some s1 }) := by
    rw [hG, updNext_get, if_pos rfl]
  have hB1 := built_link hA _ (fun i _ _ h2 => hold i h2) hE
  have hB2 := built_congr hC (fun i h1 _ => hold i (by omega))
  have hN : NextAt G2 e s1 := by
    obtain ⟨x, hx⟩ : ∃ x, G1[e]? = some x := ⟨_, List.getElem?_eq_getElem (by omega)⟩
    exact ⟨_, by rw [hE, hx]; rfl, rfl⟩
  rw [hlen]
  exact Built.cat hB1 hB2 hN

/-- The fragment of an alternation. -/
theorem built_bar {G1 : List instr} {m n1 s e s1 e1 : Nat} {a c : Ast}
    (hA : Built G1 m n1 a s e) (hC : Built G1 n1 G1.length c s1 e1)
    (alt nop : instr) (halt : alt.kind = .iAlt) (hnop : nop.kind = .iNop) (G2 : List instr)
    (hG : G2 = updNext (updNext (updNext (updLeft (G1 ++ [alt]) G1.length (some s)) G1.length
        (some s1) ++ [nop]) e (some (G1.length + 1))) e1 (some (G1.length + 1))) :
    Built G2 m G2.length (.alt a c) G1.length (G1.length + 1) := by
  have hr1 := built_range hA
  have hr2 := built_range hC
  have hlenx : (updNext (updLeft (G1 ++ [alt]) G1.length (some s)) G1.length (some s1)).length
      = G1.length + 1 := by simp [updNext_length, updLeft_length]
  have hlen : G2.length = G1.length + 2 := by
    rw [hG]; simp [updLeft_length, updNext_length]
  have hold : ∀ i, i < G1.length → i ≠ e → i ≠ e1 → G2[i]? = G1[i]? := by
    intro i h1 h2 h3
    rw [hG, updNext_get, if_neg h3, updNext_get, if_neg h2,
      List.getElem?_append_left (by rw [hlenx]; omega), updNext_get, if_neg (by omega),
      updLeft_get, if_neg (by omega), List.getElem?_append_left h1]
  have hE : G2[e]? = (G1[e]?).map (fun x => { x with next := some (G1.length + 1) }) := by
    rw [hG, updNext_get, if_neg (by omega), updNext_get, if_pos rfl,
      List.getElem?_append_left (by rw [hlenx]; omega), updNext_get, if_neg (by omega),
      updLeft_get, if_neg (by omega), List.getElem?_append_left (by omega)]
  have hE1 : G2[e1]? = (G1[e1]?).map (fun x => { x with next := some (G1.length + 1) }) := by
    rw [hG, updNext_get, if_pos rfl, updNext_get, if_neg (by omega),
      List.getElem?_append_left (by rw [hlenx]; omega), updNext_get, if_neg (by omega),
      updLeft_get, if_neg (by omega), List.getElem?_append_left (by omega)]
  have hB1 := built_link hA _ (fun i _ h1 h2 => hold i (by omega) h2 (by omega)) hE
  have hB2 := built_link hC _ (fun i h1 h2 h3 => hold i h2 (by omega) h3) hE1
  have hAlt : G2[G1.length]? = some { alt with left := some s, next := some s1 } := by
    rw [hG, updNext_get, if_neg (by omega), updNext_get, if_neg (by omega),
      List.getElem?_append_left (by rw [hlenx]; omega), updNext_get, if_pos rfl,
      updLeft_get, if_pos rfl]
    simp
  have hNop : G2[G1.length + 1]? = some nop := by
    rw [hG, updNext_get, if_neg (by omega), updNext_get, if_neg (by omega),
      List.getElem?_append_right (by rw [hlenx]), hlenx]
    simp
  have hN : NextAt G2 e (G1.length + 1) := by
    obtain ⟨x, hx⟩ : ∃ x, G1[e]? = some x := ⟨_, List.getElem?_eq_getElem (by omega)⟩
    exact ⟨_, by rw [hE, hx]; rfl, rfl⟩
  have hN1 : NextAt G2 e1 (G1.length + 1) := by
    obtain ⟨x, hx⟩ : ∃ x, G1[e1]? = some x := ⟨_, List.getElem?_eq_getElem (by omega)⟩
    exact ⟨_, by rw [hE1, hx]; rfl, rfl⟩
  rw [hlen]
  exact Built.alt hB1 hB2 ⟨_, hAlt, halt, rfl⟩ ⟨_, hAlt, rfl⟩ ⟨_, hNop, hnop⟩ hN hN1

end GoRegexp

namespace GoRegexp

/-! ## The instruction of a class -/

theorem classOK_new (v : Bool) : ClassOK { newCharClass with negate := v } :=
  ⟨⟨0, rfl⟩, fun c h => by simp [newCharClass, rangesMatch] at h⟩

theorem classOK_addRange {cc : charClass} (h : ClassOK cc) (a b : Int) :
    ClassOK (cc.addRange a b) := by
  obtain ⟨⟨n, hn⟩, hb⟩ := h
  refine ⟨⟨n + 1, by simp [charClass.addRange, hn]; omega⟩, fun c hc => ?_⟩
  simp only [charClass.addRange] at hc ⊢
  rw [rangesMatch_append c a b n _ hn] at hc
  by_cases h1 : rangesMatch c cc.ranges = true
  · have := hb c h1
    constructor
    · split <;> omega
    · split <;> omega
  · simp only [h1, Bool.false_or, decide_eq_true_eq] at hc
    constructor
    · split <;> omega
    · split <;> omega

theorem classRun_ok {p p2 : parser} {cc cc2 : charClass} {left : Int}
    (h : ClassRun p cc left p2 cc2) : ClassOK cc → ClassOK cc2 := by
  induction h with
  | done _ _ => exact id
  | single _ _ _ _ _ _ ih => exact fun h => ih (classOK_addRange h _ _)
  | lower _ _ _ _ _ _ ih => exact ih
  | upper _ _ _ _ _ _ ih => exact fun h => ih (classOK_addRange h _ _)

theorem rangesMatch_two (c a b : Int) : rangesMatch c [a, b] = decide (a ≤ c ∧ c ≤ b) := by
  unfold rangesMatch
  by_cases h : a ≤ c ∧ c ≤ b
  · simp [h]
  · simp [h, rangesMatch]

theorem list_two {l : List Int} (h : l.length = 2) : ∃ a b, l = [a, b] := by
  match l, h with
  | [a, b], _ => exact ⟨a, b, rfl⟩

/-- The instruction of a class lets pass the runes of the class. -/
theorem classInstr_eats {cc : charClass} (h : ClassOK cc) (c : Int) (hc : c ≠ endOfFile) :
    (classInstr cc).eats c = true ↔ classHas cc.negate cc.ranges c = true := by
  obtain ⟨neg, rs, cmin, cmax⟩ := cc
  unfold classInstr classHas
  simp only
  split
  · rename_i h1
    obtain ⟨hn, hl, h0, h1⟩ := h1
    obtain ⟨a, b, rfl⟩ := list_two hl
    simp only [List.getD_cons_zero, List.getD_cons_succ] at h0 h1
    subst h0 h1
    rw [rangesMatch_two, hn]
    simp only [instr.eats, decide_eq_true_eq, Bool.true_xor, Bool.not_eq_true',
      decide_eq_false_iff_not]
    constructor
    · intro hh; omega
    · intro hh; exact ⟨hc, by omega⟩
  · split
    · rename_i h1
      obtain ⟨hn, hl, h0⟩ := h1
      obtain ⟨a, b, rfl⟩ := list_two hl
      simp only [List.getD_cons_zero, List.getD_cons_succ] at h0
      subst h0
      have hn2 : neg = false := by simpa using hn
      rw [rangesMatch_two, hn2]
      simp only [instr.eats, decide_eq_true_eq, Bool.false_xor, List.getD_cons_zero]
      constructor
      · intro hh; omega
      · intro hh; omega
    · simp only [instr.eats, charClass.matches]
      by_cases hm : rangesMatch c rs = true
      · have := h.2 c hm
        simp only at this
        rw [if_neg (by omega), if_pos hm, hm]
        cases neg <;> simp
      · have hm2 : rangesMatch c rs = false := by simpa using hm
        rw [hm2]
        simp only [Bool.false_eq_true, if_false, ite_self, Bool.xor_false]

theorem classInstr_kind (cc : charClass) :
    (classInstr cc).kind = .iChar ∨ (classInstr cc).kind = .iCharClass ∨
      (classInstr cc).kind = .iNotNL := by
  unfold classInstr
  split
  · exact Or.inr (Or.inr rfl)
  · split
    · exact Or.inl rfl
    · exact Or.inr (Or.inl rfl)

theorem classInstr_leafFor {cc : charClass} (h : ClassOK cc) (n : Nat) :
    LeafFor { classInstr cc with index := n } (.cls cc.negate cc.ranges) := by
  refine ⟨classInstr_kind cc, fun c hc => ?_⟩
  rw [← classInstr_eats h c hc]
  rfl

/-! ## The fragment of the tree the parser reads -/

/-- Every run of the parser builds the fragment of the tree it reads. -/
theorem parse_built {nt : NT} {p p2 : parser} {r : Ast} {s e : Nat}
    (h : Parse nt p r p2 s e) : BuiltSpec nt p r p2 s e := by
  induction h with
  | @bot p _ =>
    exact built_leaf p.re.inst { kind := .iBOT, index := p.re.inst.length } .bot
      (by simp [LeafFor]) (p.nextc.addI { kind := .iBOT }).re.inst (by simp)
  | @eot p _ =>
    exact built_leaf p.re.inst { kind := .iEOT, index := p.re.inst.length } .eot
      (by simp [LeafFor]) (p.nextc.addI { kind := .iEOT }).re.inst (by simp)
  | @any p _ =>
    exact built_leaf p.re.inst { kind := .iAny, index := p.re.inst.length } .any
      (by simp [LeafFor]) (p.nextc.addI { kind := .iAny }).re.inst (by simp)
  | @char p p1 c _ hb =>
    have e1 := (checkBackslash_re hb).1
    have := built_leaf p.re.inst { kind := .iChar, index := p.re.inst.length, char := c }
      (.char c) (by simp [LeafFor]) (p1.nextc.addI { kind := .iChar, char := c }).re.inst
      (by simp [e1])
    exact this
  | @cls p p1 cc _ hc _ =>
    have e1 : p1.re = p.re := by simpa using hc.re_eq.1
    have hok := classRun_ok hc (classOK_new _)
    have := built_leaf p.re.inst { classInstr cc with index := p.re.inst.length }
      (.cls cc.negate cc.ranges) (classInstr_leafFor hok _)
      (p1.addI (classInstr cc)).nextc.re.inst (by simp [e1])
    exact this
  | @group p p2 r s e re1 re2 _ hpar _ h1 h2 ih =>
    simp only [BuiltSpec, lpar_inst] at ih ⊢
    obtain ⟨i1, n1⟩ := setNext_inst h1
    obtain ⟨i2, n2⟩ := setNext_inst h2
    simp only [rpar_re, add_inst, add_nbra, List.length_append, List.length_singleton] at i1 n1 i2
    have hinst : re2.inst = _ := i2.trans (by rw [i1])
    exact built_group ih
      ({ kind := .iBra, index := p2.re.inst.length, braNum := 2 * p.lpar.re.nbra } : instr)
      ({ kind := .iBra, index := p2.re.inst.length + 1,
         braNum := 2 * p.lpar.re.nbra + 1 } : instr) p.lpar.re.nbra rfl rfl rfl rfl _ hinst
  | plain _ _ _ _ ih => exact ih
  | @star p r p1 s e re1 re2 _ _ h1 h2 _ ih =>
    simp only [BuiltSpec, nextc_re] at ih ⊢
    obtain ⟨i1, n1⟩ := setNext_inst h1
    obtain ⟨i2, n2⟩ := setLeft_inst h2
    simp only [add_inst, add_nbra] at i1 n1
    have hinst : re2.inst = _ := i2.trans (by rw [i1])
    exact (built_star ih { kind := .iAlt, index := p1.re.inst.length } rfl _ hinst).1
  | @plus p r p1 s e re1 re2 _ _ h1 h2 _ ih =>
    simp only [BuiltSpec, nextc_re] at ih ⊢
    obtain ⟨i1, n1⟩ := setNext_inst h1
    obtain ⟨i2, n2⟩ := setLeft_inst h2
    simp only [add_inst, add_nbra] at i1 n1
    have hinst : re2.inst = _ := i2.trans (by rw [i1])
    exact (built_star ih { kind := .iAlt, index := p1.re.inst.length } rfl _ hinst).2
  | @opt p r p1 s e re1 re2 re3 _ _ h1 h2 h3 _ ih =>
    simp only [BuiltSpec, nextc_re] at ih ⊢
    obtain ⟨i1, n1⟩ := setLeft_inst h1
    obtain ⟨i2, n2⟩ := setNext_inst h2
    obtain ⟨i3, n3⟩ := setNext_inst h3
    simp only [add_inst, add_nbra, List.length_append, List.length_singleton] at i1 n1 i2 i3
    have hinst : re3.inst = _ := i3.trans (by rw [i2, i1])
    exact built_opt ih ({ kind := .iAlt, index := p1.re.inst.length } : instr)
      ({ kind := .iNop, index := p1.re.inst.length + 1 } : instr) rfl rfl _ hinst
  | @emptyConcat p _ =>
    exact built_leaf p.re.inst { kind := .iNop, index := p.re.inst.length } .empty
      (by simp [LeafFor]) (p.addI { kind := .iNop }).re.inst (by simp)
  | first _ _ ih1 ih2 => exact ih2 _ ih1
  | last _ => exact fun m h => h
  | @next p a s e c p1 s1 e1 re1 r p2 s2 e2 hc h1 _ ih1 ih2 =>
    obtain ⟨hnb, hfr, hfrag⟩ := hc.frag
    obtain ⟨i1, n1⟩ := setNext_inst h1
    intro m hA
    have hr := built_range hA
    have hA1 : Built p1.re.inst m p.re.inst.length a s e :=
      built_congr hA (fun i _ h2 => hfr i h2)
    exact ih2 m (built_cat hA1 ih1 _ i1)
  | regexp _ _ ih1 ih2 => exact ih2 _ ih1
  | done _ => exact fun m h => h
  | @bar p a s e c p1 s1 e1 re1 re2 re3 re4 r p2 s2 e2 _ hc h1 h2 h3 h4 _ ih1 ih2 =>
    obtain ⟨hnb, hfr, hfrag⟩ := hc.frag
    simp only [BuiltSpec, nextc_re] at ih1 hfr
    obtain ⟨i1, n1⟩ := setLeft_inst h1
    obtain ⟨i2, n2⟩ := setNext_inst h2
    obtain ⟨i3, n3⟩ := setNext_inst h3
    obtain ⟨i4, n4⟩ := setNext_inst h4
    simp only [add_inst, add_nbra] at i1 n1 i3 n3
    have l2 : re2.inst.length = p1.re.inst.length + 1 := by
      rw [i2, updNext_length, i1, updLeft_length]; simp
    rw [l2] at i3 i4
    intro m hA
    have hr := built_range hA
    have hA1 : Built p1.re.inst m p.re.inst.length a s e :=
      built_congr hA (fun i _ h2 => hfr i h2)
    have hinst : re4.inst = _ := i4.trans (by rw [i3, i2, i1])
    exact ih2 m (built_bar hA1 ih1 ({ kind := .iAlt, index := p1.re.inst.length } : instr)
      ({ kind := .iNop, index := p1.re.inst.length + 1 } : instr) rfl rfl _ hinst)

end GoRegexp

namespace GoRegexp

/-! ## The elimination of the iNop instructions -/

theorem skip_end {G : List instr} {j t : Nat} (h : Skip G j t) :
    ∃ x, G[t]? = some x ∧ x.kind ≠ .iNop := by
  induction h with
  | here hx hk => exact ⟨_, hx, hk⟩
  | step _ _ _ _ ih => exact ih

theorem skip_of_good {G : List instr} {j t : Nat} {x : instr} (hx : G[j]? = some x)
    (hk : x.kind ≠ .iNop) (h : Skip G j t) : t = j := by
  cases h with
  | here _ _ => rfl
  | step hx2 hk2 _ _ =>
    rw [hx] at hx2; cases hx2
    exact absurd hk2 hk

theorem skip_unique {G : List instr} {j t t2 : Nat} (h : Skip G j t) (h2 : Skip G j t2) :
    t = t2 := by
  induction h with
  | here hx hk => exact (skip_of_good hx hk h2).symm
  | step hx hk hn _ ih =>
    cases h2 with
    | here hx2 hk2 =>
      rw [hx] at hx2; cases hx2
      exact absurd hk hk2
    | step hx2 _ hn2 h3 =>
      rw [hx] at hx2; cases hx2
      rw [hn] at hn2; cases hn2
      exact ih h3

theorem unNop_skip {G : List instr} : ∀ (fuel : Nat) (i n : Option Nat),
    unNop G fuel i = .ok n → ∃ j t, i = some j ∧ n = some t ∧ Skip G j t := by
  intro fuel
  induction fuel with
  | zero => intro i n h; simp [unNop] at h
  | succ fuel ih =>
    intro i n h
    unfold unNop at h
    cases i with
    | none => simp at h
    | some k =>
      simp only at h
      cases hx : G[k]? with
      | none => rw [hx] at h; simp at h
      | some x =>
        rw [hx] at h
        simp only at h
        by_cases hk : x.kind = .iNop
        · rw [if_pos hk] at h
          obtain ⟨j, t, hj, hn, hs⟩ := ih _ _ h
          exact ⟨k, t, rfl, hn, Skip.step hx hk hj hs⟩
        · rw [if_neg hk] at h
          cases h
          exact ⟨k, k, rfl, rfl, Skip.here hx hk⟩

/-- The chains of `next` links over iNop instructions lead to the same instructions after
the assignment of a link of instruction k, when the new `next` link of an iNop is the end of
the chain from its old one. -/
theorem skip_set {G : List instr} {k : Nat} {x y : instr} (hx : G[k]? = some x)
    (hk : y.kind = x.kind)
    (hn : x.kind = .iNop → ∃ j t, x.next = some j ∧ y.next = some t ∧ Skip G j t) :
    ∀ a t, Skip (G.set k y) a t → Skip G a t := by
  intro a t h
  induction h with
  | @here a z hz hzk =>
    rw [getElem?_set_map G k a (fun _ => y) x hx] at hz
    by_cases hak : a = k
    · subst hak
      rw [if_pos rfl] at hz; cases hz
      exact Skip.here hx (by rw [← hk]; exact hzk)
    · rw [if_neg hak] at hz
      exact Skip.here hz hzk
  | @step a a1 t z hz hzk hzn _ ih =>
    rw [getElem?_set_map G k a (fun _ => y) x hx] at hz
    by_cases hak : a = k
    · subst hak
      rw [if_pos rfl] at hz; cases hz
      obtain ⟨j, t2, hj, ht2, hs⟩ := hn (by rw [← hk]; exact hzk)
      rw [hzn] at ht2; cases ht2
      obtain ⟨w, hw, hwk⟩ := skip_end hs
      have := skip_of_good hw hwk ih
      subst this
      exact Skip.step hx (by rw [← hk]; exact hzk) hj hs
    · rw [if_neg hak] at hz
      exact Skip.step hz hzk hzn ih

/-- One step of eliminateNops: the links of instruction k lead to the ends of the chains
from where they led. -/
theorem elimAt_links {G G2 : List instr} {k : Nat} {x : instr}
    (h : eliminateNopsAt G k = .ok G2) (hx : G[k]? = some x) :
    G2.length = G.length ∧ (∀ i, i ≠ k → G2[i]? = G[i]?) ∧
    (∃ y, G2[k]? = some y ∧ SameOp x y ∧
      (x.kind ≠ .iEnd → ∃ j t, x.next = some j ∧ y.next = some t ∧ Skip G j t) ∧
      (x.kind = .iAlt → ∃ j t, x.left = some j ∧ y.left = some t ∧ Skip G j t)) ∧
    (∀ a t, Skip G2 a t → Skip G a t) := by
  unfold eliminateNopsAt at h
  simp only [hx] at h
  by_cases hend : x.kind = .iEnd
  · rw [if_pos hend] at h
    cases h
    refine ⟨rfl, fun _ _ => rfl, ⟨x, hx, sameOp_refl x, fun hne => absurd hend hne,
      fun ha => ?_⟩, fun _ _ hs => hs⟩
    rw [hend] at ha; cases ha
  · rw [if_neg hend] at h
    cases hu : unNop G (G.length + 1) x.next with
    | error e => rw [hu] at h; simp at h
    | ok n =>
      rw [hu] at h
      simp only at h
      obtain ⟨j, t, hj, hn, hs⟩ := unNop_skip _ _ _ hu
      subst hn
      have hsk1 := skip_set (y := { x with next := some t }) hx rfl
        (fun _ => ⟨j, t, hj, rfl, hs⟩)
      have hx1 : (G.set k { x with next := some t })[k]? = some { x with next := some t } := by
        rw [getElem?_set_map G k k (fun x => { x with next := some t }) x hx, if_pos rfl]
      by_cases halt : x.kind = .iAlt
      · rw [if_pos halt] at h
        cases hu2 : unNop (G.set k { x with next := some t })
            ((G.set k { x with next := some t }).length + 1) x.left with
        | error e => rw [hu2] at h; simp at h
        | ok l =>
          rw [hu2] at h
          simp only [Except.ok.injEq] at h
          obtain ⟨jl, tl, hjl, hl, hsl⟩ := unNop_skip _ _ _ hu2
          subst hl
          have hsk2 := skip_set (y := { x with next := some t, left := some tl }) hx1 rfl
            (fun hk => by simp [halt] at hk)
          have hget : ∀ i, G2[i]? =
              if i = k then some { x with next := some t, left := some tl } else G[i]? := by
            intro i
            rw [← h, getElem?_set_map _ k i
              (fun _ => { x with next := some t, left := some tl }) _ hx1]
            by_cases hik : i = k
            · simp [hik]
            · rw [if_neg hik, if_neg hik,
                getElem?_set_map G k i (fun x => { x with next := some t }) x hx, if_neg hik]
          refine ⟨by rw [← h]; simp, fun i hi => by rw [hget, if_neg hi],
            ⟨{ x with next := some t, left := some tl }, by rw [hget, if_pos rfl],
              ⟨rfl, rfl, rfl, rfl⟩,
              fun _ => ⟨j, t, hj, rfl, hs⟩, fun _ => ⟨jl, tl, hjl, rfl, hsk1 _ _ hsl⟩⟩, ?_⟩
          intro a t2 hs2
          rw [← h] at hs2
          exact hsk1 _ _ (hsk2 _ _ hs2)
      · rw [if_neg halt] at h
        simp only [Except.ok.injEq] at h
        have hget : ∀ i, G2[i]? = if i = k then some { x with next := some t } else G[i]? := by
          intro i
          rw [← h, getElem?_set_map G k i (fun x => { x with next := some t }) x hx]
        refine ⟨by rw [← h]; simp, fun i hi => by rw [hget, if_neg hi],
          ⟨{ x with next := some t }, by rw [hget, if_pos rfl], ⟨rfl, rfl, rfl, rfl⟩,
            fun _ => ⟨j, t, hj, rfl, hs⟩, fun ha => absurd ha halt⟩, ?_⟩
        intro a t2 hs2
        rw [← h] at hs2
        exact hsk1 _ _ hs2

theorem sameOp_trans {x y z : instr} (h1 : SameOp x y) (h2 : SameOp y z) : SameOp x z :=
  ⟨h2.1.trans h1.1, h2.2.1.trans h1.2.1, h2.2.2.1.trans h1.2.2.1, h2.2.2.2.trans h1.2.2.2⟩

/-- The loop of eliminateNops from instruction k on. -/
theorem elimFrom_links {G0 : List instr} : ∀ (n k : Nat) (G G2 : List instr),
    eliminateNopsFrom n k G = .ok G2 → n + k = G.length → ElimTo G0 G k →
    ElimTo G0 G2 G.length := by
  intro n
  induction n with
  | zero =>
    intro k G G2 h hk hE
    simp only [eliminateNopsFrom, Except.ok.injEq] at h
    subst h
    have : k = G.length := by omega
    subst this
    exact hE
  | succ n ih =>
    intro k G G2 h hk hE
    unfold eliminateNopsFrom at h
    cases h1 : eliminateNopsAt G k with
    | error e => rw [h1] at h; simp at h
    | ok G1 =>
      rw [h1] at h
      simp only at h
      obtain ⟨x, hx⟩ : ∃ x, G[k]? = some x := ⟨_, List.getElem?_eq_getElem (by omega)⟩
      obtain ⟨hlen, hold, ⟨y, hy, hso, hnx, hlf⟩, hsk⟩ := elimAt_links h1 hx
      have hE1 : ElimTo G0 G1 (k + 1) := by
        refine ⟨hlen.trans hE.length, fun i x0 hx0 => ?_, fun j t hs => hE.skip j t (hsk j t hs)⟩
        obtain ⟨z, hz, hsz, hge, hlt⟩ := hE.node i x0 hx0
        by_cases hik : i = k
        · subst hik
          have hzx : z = x0 := hge (le_refl _)
          rw [hzx, hx] at hz
          cases hz
          refine ⟨y, hy, hso, fun h' => by omega, fun _ => ⟨fun hne => ?_, fun ha => ?_⟩⟩
          · obtain ⟨j, t, a1, a2, a3⟩ := hnx hne
            exact ⟨j, t, a1, a2, hE.skip j t a3⟩
          · obtain ⟨j, t, a1, a2, a3⟩ := hlf ha
            exact ⟨j, t, a1, a2, hE.skip j t a3⟩
        · refine ⟨z, by rw [hold i hik, hz], hsz, fun h' => hge (by omega),
            fun h' => hlt (by omega)⟩
      have := ih (k + 1) G1 G2 h (by omega) hE1
      rw [hlen] at this
      exact this

theorem elimTo_start (G : List instr) : ElimTo G G 0 :=
  ⟨rfl, fun i x hx => ⟨x, hx, sameOp_refl x, fun _ => rfl, fun h => by omega⟩,
    fun _ _ h => h⟩

/-- What eliminateNops makes of a program. -/
theorem eliminateNops_elim {G G2 : List instr}
    (h : eliminateNopsFrom G.length 0 G = .ok G2) : Elim G G2 := by
  have hE : ElimTo G G2 G.length :=
    elimFrom_links G.length 0 G G2 h (by omega) (elimTo_start G)
  refine ⟨hE.length, fun i x hx => ?_⟩
  obtain ⟨y, hy, hs, -, hlt⟩ := hE.node i x hx
  have := (List.getElem?_eq_some.mp hx).1
  exact ⟨y, hy, hs, (hlt this).1, (hlt this).2⟩

end GoRegexp

namespace GoRegexp

/-! ## Paths through a fragment -/

theorem pathN_append {G : List instr} {b : List Nat} {n i p j q : Nat} {m m1 : List Int}
    (h : PathN G b n i p m j q m1) :
    ∀ {n2 k t : Nat} {m2 : List Int}, PathN G b n2 j q m1 k t m2 →
      PathN G b (n + n2) i p m k t m2 := by
  induction h with
  | nil => intro n2 k t m2 h2; simpa using h2
  | @cons n0 _ _ _ _ _ _ _ _ _ hs _ ih =>
    intro n2 k t m2 h2
    have := PathN.cons hs (ih h2)
    rwa [show n0 + 1 + n2 = n0 + n2 + 1 by omega]

theorem pathN_one {G : List instr} {b : List Nat} {i p j q : Nat} {m m1 : List Int}
    (h : StepN G b i p m j q m1) : PathN G b 1 i p m j q m1 :=
  PathN.cons h PathN.nil

theorem pathN_uncons {G : List instr} {b : List Nat} {n i p k q : Nat} {m m2 : List Int}
    (h : PathN G b n i p m k q m2) (hne : i ≠ k) :
    ∃ n1 j p1 m1, n = n1 + 1 ∧ StepN G b i p m j p1 m1 ∧ PathN G b n1 j p1 m1 k q m2 := by
  cases h with
  | nil => exact absurd rfl hne
  | cons hs hp => exact ⟨_, _, _, _, rfl, hs, hp⟩

theorem stepN_alt {G : List instr} {b : List Nat} {i p j q : Nat} {m m1 : List Int} {x : instr}
    (h : StepN G b i p m j q m1) (hx : G[i]? = some x) (hk : x.kind = .iAlt) :
    (x.left = some j ∨ x.next = some j) ∧ q = p ∧ m1 = m := by
  cases h with
  | step hs =>
    cases hs with
    | bot h1 h2 _ _ => rw [hx] at h1; cases h1; rw [hk] at h2; cases h2
    | eot h1 h2 _ _ => rw [hx] at h1; cases h1; rw [hk] at h2; cases h2
    | bra h1 h2 _ => rw [hx] at h1; cases h1; rw [hk] at h2; cases h2
    | altLeft h1 _ h3 => rw [hx] at h1; cases h1; exact ⟨Or.inl h3, rfl, rfl⟩
    | altNext h1 _ h3 => rw [hx] at h1; cases h1; exact ⟨Or.inr h3, rfl, rfl⟩
    | eat h1 _ h3 _ =>
      rw [hx] at h1; cases h1
      have := eats_kind h3
      rw [hk] at this; simp at this
  | nop h1 h2 _ => rw [hx] at h1; cases h1; rw [hk] at h2; cases h2

theorem stepN_bra {G : List instr} {b : List Nat} {i p j q : Nat} {m m1 : List Int} {x : instr}
    (h : StepN G b i p m j q m1) (hx : G[i]? = some x) (hk : x.kind = .iBra) :
    x.next = some j ∧ q = p ∧ m1 = m.set x.braNum (p : Int) := by
  cases h with
  | step hs =>
    cases hs with
    | bot h1 h2 _ _ => rw [hx] at h1; cases h1; rw [hk] at h2; cases h2
    | eot h1 h2 _ _ => rw [hx] at h1; cases h1; rw [hk] at h2; cases h2
    | bra h1 _ h3 => rw [hx] at h1; cases h1; exact ⟨h3, rfl, rfl⟩
    | altLeft h1 h2 _ => rw [hx] at h1; cases h1; rw [hk] at h2; cases h2
    | altNext h1 h2 _ => rw [hx] at h1; cases h1; rw [hk] at h2; cases h2
    | eat h1 _ h3 _ =>
      rw [hx] at h1; cases h1
      have := eats_kind h3
      rw [hk] at this; simp at this
  | nop h1 h2 _ => rw [hx] at h1; cases h1; rw [hk] at h2; cases h2

theorem stepN_nop {G : List instr} {b : List Nat} {i p j q : Nat} {m m1 : List Int} {x : instr}
    (h : StepN G b i p m j q m1) (hx : G[i]? = some x) (hk : x.kind = .iNop) :
    x.next = some j ∧ q = p ∧ m1 = m := by
  cases h with
  | step hs =>
    cases hs with
    | bot h1 h2 _ _ => rw [hx] at h1; cases h1; rw [hk] at h2; cases h2
    | eot h1 h2 _ _ => rw [hx] at h1; cases h1; rw [hk] at h2; cases h2
    | bra h1 h2 _ => rw [hx] at h1; cases h1; rw [hk] at h2; cases h2
    | altLeft h1 h2 _ => rw [hx] at h1; cases h1; rw [hk] at h2; cases h2
    | altNext h1 h2 _ => rw [hx] at h1; cases h1; rw [hk] at h2; cases h2
    | eat h1 _ h3 _ =>
      rw [hx] at h1; cases h1
      have := eats_kind h3
      rw [hk] at this; simp at this
  | nop h1 _ h3 => rw [hx] at h1; cases h1; exact ⟨h3, rfl, rfl⟩

theorem stepN_bot {G : List instr} {b : List Nat} {i p j q : Nat} {m m1 : List Int} {x : instr}
    (h : StepN G b i p m j q m1) (hx : G[i]? = some x) (hk : x.kind = .iBOT) :
    x.next = some j ∧ p = 0 ∧ q = p ∧ m1 = m := by
  cases h with
  | step hs =>
    cases hs with
    | bot h1 _ h3 h4 => rw [hx] at h1; cases h1; exact ⟨h4, h3, rfl, rfl⟩
    | eot h1 h2 _ _ => rw [hx] at h1; cases h1; rw [hk] at h2; cases h2
    | bra h1 h2 _ => rw [hx] at h1; cases h1; rw [hk] at h2; cases h2
    | altLeft h1 h2 _ => rw [hx] at h1; cases h1; rw [hk] at h2; cases h2
    | altNext h1 h2 _ => rw [hx] at h1; cases h1; rw [hk] at h2; cases h2
    | eat h1 _ h3 _ =>
      rw [hx] at h1; cases h1
      have := eats_kind h3
      rw [hk] at this; simp at this
  | nop h1 h2 _ => rw [hx] at h1; cases h1; rw [hk] at h2; cases h2

theorem stepN_eot {G : List instr} {b : List Nat} {i p j q : Nat} {m m1 : List Int} {x : instr}
    (h : StepN G b i p m j q m1) (hx : G[i]? = some x) (hk : x.kind = .iEOT) :
    x.next = some j ∧ p = b.length ∧ q = p ∧ m1 = m := by
  cases h with
  | step hs =>
    cases hs with
    | bot h1 h2 _ _ => rw [hx] at h1; cases h1; rw [hk] at h2; cases h2
    | eot h1 _ h3 h4 => rw [hx] at h1; cases h1; exact ⟨h4, h3, rfl, rfl⟩
    | bra h1 h2 _ => rw [hx] at h1; cases h1; rw [hk] at h2; cases h2
    | altLeft h1 h2 _ => rw [hx] at h1; cases h1; rw [hk] at h2; cases h2
    | altNext h1 h2 _ => rw [hx] at h1; cases h1; rw [hk] at h2; cases h2
    | eat h1 _ h3 _ =>
      rw [hx] at h1; cases h1
      have := eats_kind h3
      rw [hk] at this; simp at this
  | nop h1 h2 _ => rw [hx] at h1; cases h1; rw [hk] at h2; cases h2

theorem stepN_eat {G : List instr} {b : List Nat} {i p j q : Nat} {m m1 : List Int} {x : instr}
    (h : StepN G b i p m j q m1) (hx : G[i]? = some x)
    (hk : x.kind = .iChar ∨ x.kind = .iCharClass ∨ x.kind = .iAny ∨ x.kind = .iNotNL) :
    x.next = some j ∧ p < b.length ∧ x.eats (DecodeRune (b.drop p)).1 = true ∧
      q = p + (DecodeRune (b.drop p)).2 ∧ m1 = m := by
  cases h with
  | step hs =>
    cases hs with
    | bot h1 h2 _ _ => rw [hx] at h1; cases h1; rw [h2] at hk; simp at hk
    | eot h1 h2 _ _ => rw [hx] at h1; cases h1; rw [h2] at hk; simp at hk
    | bra h1 h2 _ => rw [hx] at h1; cases h1; rw [h2] at hk; simp at hk
    | altLeft h1 h2 _ => rw [hx] at h1; cases h1; rw [h2] at hk; simp at hk
    | altNext h1 h2 _ => rw [hx] at h1; cases h1; rw [h2] at hk; simp at hk
    | eat h1 h2 h3 h4 => rw [hx] at h1; cases h1; exact ⟨h4, h2, h3, rfl, rfl⟩
  | nop h1 h2 _ => rw [hx] at h1; cases h1; rw [h2] at hk; simp at hk

theorem stepN_end {G : List instr} {b : List Nat} {i p j q : Nat} {m m1 : List Int} {x : instr}
    (h : StepN G b i p m j q m1) (hx : G[i]? = some x) (hk : x.kind = .iEnd) : False := by
  cases h with
  | step hs =>
    cases hs with
    | bot h1 h2 _ _ => rw [hx] at h1; cases h1; rw [hk] at h2; cases h2
    | eot h1 h2 _ _ => rw [hx] at h1; cases h1; rw [hk] at h2; cases h2
    | bra h1 h2 _ => rw [hx] at h1; cases h1; rw [hk] at h2; cases h2
    | altLeft h1 h2 _ => rw [hx] at h1; cases h1; rw [hk] at h2; cases h2
    | altNext h1 h2 _ => rw [hx] at h1; cases h1; rw [hk] at h2; cases h2
    | eat h1 _ h3 _ =>
      rw [hx] at h1; cases h1
      have := eats_kind h3
      rw [hk] at this; simp at this
  | nop h1 h2 _ => rw [hx] at h1; cases h1; rw [hk] at h2; cases h2

/-! ### From the language to the paths -/

/-- The path over a leaf. -/
theorem leaf_path {G : List instr} {b : List Nat} {m t : Nat} {r : Ast} {x : instr}
    (hx : G[m]? = some x) (hl : LeafFor x r) (hn : x.next = some t)
    {p q : Nat} {v v1 : List Int} (h : LangV b r p v q v1) :
    PathN G b 1 m p v t q v1 := by
  cases h with
  | bot => exact pathN_one (.step (.bot hx hl rfl hn))
  | eot => exact pathN_one (.step (.eot hx hl rfl hn))
  | any hp =>
    refine pathN_one (.step (.eat hx hp ?_ hn))
    simp only [LeafFor] at hl
    simp [instr.eats, hl, DecodeRune_ne_eof]
  | char hp hc =>
    refine pathN_one (.step (.eat hx hp ?_ hn))
    simp only [LeafFor] at hl
    simp [instr.eats, hl.1, hl.2, hc]
  | cls hp hc =>
    refine pathN_one (.step (.eat hx hp ?_ hn))
    exact (hl.2 _ (DecodeRune_ne_eof _)).2 hc
  | empty => exact pathN_one (.nop hx hl hn)
  | group _ => exact absurd hl (by simp [LeafFor])
  | starNil => exact absurd hl (by simp [LeafFor])
  | starCons _ _ => exact absurd hl (by simp [LeafFor])
  | plus _ _ => exact absurd hl (by simp [LeafFor])
  | optNil => exact absurd hl (by simp [LeafFor])
  | optSome _ => exact absurd hl (by simp [LeafFor])
  | cat _ _ => exact absurd hl (by simp [LeafFor])
  | altLeft _ => exact absurd hl (by simp [LeafFor])
  | altRight _ => exact absurd hl (by simp [LeafFor])

/-- The paths around the loop of a star. -/
theorem star_path {G : List instr} {b : List Nat} {a s1 t : Nat} {r : Ast} {xa : instr}
    (hxa : G[a]? = some xa) (hka : xa.kind = .iAlt) (hl : xa.left = some s1)
    (hn : xa.next = some t)
    (ih : ∀ (p : Nat) (v : List Int) (q : Nat) (v1 : List Int), LangV b r p v q v1 →
      ∃ L, PathN G b L s1 p v a q v1)
    {R : Ast} {p q : Nat} {v v1 : List Int} (h : LangV b R p v q v1) (hR : R = .star r) :
    ∃ L, PathN G b L a p v t q v1 := by
  induction h with
  | starNil => exact ⟨1, pathN_one (.step (.altNext hxa hka hn))⟩
  | starCons h1 _ _ ih2 =>
    cases hR
    obtain ⟨L1, hp1⟩ := ih _ _ _ _ h1
    obtain ⟨L2, hp2⟩ := ih2 rfl
    exact ⟨_, pathN_append (PathN.cons (.step (.altLeft hxa hka hl)) hp1) hp2⟩
  | _ => cases hR

/-- Every span of the language of a tree is read along a path through its fragment, from
the start of the fragment to where its end leads. -/
theorem built_path {G : List instr} {b : List Nat} {m n s e : Nat} {r : Ast}
    (h : Built G m n r s e) : ∀ t, NextAt G e t →
      ∀ (p : Nat) (v : List Int) (q : Nat) (v1 : List Int), LangV b r p v q v1 →
        ∃ L, PathN G b L s p v t q v1 := by
  induction h with
  | @leaf m r x hx hl =>
    intro t ⟨x2, hx2, hn⟩ p v q v1 hL
    rw [hx] at hx2; cases hx2
    exact ⟨1, leaf_path hx hl hn hL⟩
  | @group m n1 k s1 e1 r hB hb1 hn1 hn2 hb2 ih =>
    intro t ⟨x2, hx2, hn⟩ p v q v1 hL
    cases hL with
    | @group _ _ _ _ _ w1 h1 =>
      obtain ⟨xb, hxb, hkb, hnb⟩ := hb1
      obtain ⟨xb2, hxb2, hsb⟩ := hn1
      rw [hxb] at hxb2; cases hxb2
      obtain ⟨xe, hxe, hke, hne⟩ := hb2
      rw [hxe] at hx2; cases hx2
      obtain ⟨L, hp⟩ := ih _ hn2 _ _ _ _ h1
      have s1 : StepN G b n1 p v s1 p (v.set (2 * k) (p : Int)) := by
        have := @Step.bra G b n1 p s1 v xb hxb hkb hsb
        rw [hnb] at this
        exact .step this
      have s2 : StepN G b (n1 + 1) q w1 t q (w1.set (2 * k + 1) (q : Int)) := by
        have := @Step.bra G b (n1 + 1) q t w1 x2 hxe hke hn
        rw [hne] at this
        exact .step this
      exact ⟨_, pathN_append (PathN.cons s1 hp) (pathN_one s2)⟩
  | @star m n1 s1 e1 r hB ha hn ih =>
    intro t ⟨x2, hx2, hn2⟩ p v q v1 hL
    obtain ⟨xa, hxa, hka, hla⟩ := ha
    rw [hxa] at hx2; cases hx2
    exact star_path hxa hka hla hn2 (ih _ hn) hL rfl
  | @plus m n1 s1 e1 r hB ha hn ih =>
    intro t ⟨x2, hx2, hn2⟩ p v q v1 hL
    obtain ⟨xa, hxa, hka, hla⟩ := ha
    rw [hxa] at hx2; cases hx2
    cases hL with
    | plus h1 h2 =>
      obtain ⟨L1, hp1⟩ := ih _ hn _ _ _ _ h1
      obtain ⟨L2, hp2⟩ := star_path hxa hka hla hn2 (ih _ hn) h2 rfl
      exact ⟨_, pathN_append hp1 hp2⟩
  | @opt m n1 s1 e1 r hB ha hn1 hp hn2 ih =>
    intro t ⟨x2, hx2, hnt⟩ p v q v1 hL
    obtain ⟨xa, hxa, hka, hla⟩ := ha
    obtain ⟨xa2, hxa2, hna⟩ := hn1
    rw [hxa] at hxa2; cases hxa2
    obtain ⟨xn, hxn, hkn⟩ := hp
    rw [hxn] at hx2; cases hx2
    cases hL with
    | optNil =>
      exact ⟨_, PathN.cons (.step (.altNext hxa hka hna)) (pathN_one (.nop hxn hkn hnt))⟩
    | optSome h1 =>
      obtain ⟨L1, hp1⟩ := ih _ hn2 _ _ _ _ h1
      exact ⟨_, pathN_append (PathN.cons (.step (.altLeft hxa hka hla)) hp1)
        (pathN_one (.nop hxn hkn hnt))⟩
  | @cat m n1 n s1 e1 s2 e2 r1 r2 hB1 hB2 hn ih1 ih2 =>
    intro t hnt p v q v1 hL
    cases hL with
    | cat h1 h2 =>
      obtain ⟨L1, hp1⟩ := ih1 _ hn _ _ _ _ h1
      obtain ⟨L2, hp2⟩ := ih2 _ hnt _ _ _ _ h2
      exact ⟨_, pathN_append hp1 hp2⟩
  | @alt m n1 n2 s1 e1 s2 e2 r1 r2 hB1 hB2 ha hn1 hp hn2 hn3 ih1 ih2 =>
    intro t ⟨x2, hx2, hnt⟩ p v q v1 hL
    obtain ⟨xa, hxa, hka, hla⟩ := ha
    obtain ⟨xa2, hxa2, hna⟩ := hn1
    rw [hxa] at hxa2; cases hxa2
    obtain ⟨xn, hxn, hkn⟩ := hp
    rw [hxn] at hx2; cases hx2
    cases hL with
    | altLeft h1 =>
      obtain ⟨L1, hp1⟩ := ih1 _ hn2 _ _ _ _ h1
      exact ⟨_, pathN_append (PathN.cons (.step (.altLeft hxa hka hla)) hp1)
        (pathN_one (.nop hxn hkn hnt))⟩
    | altRight h1 =>
      obtain ⟨L1, hp1⟩ := ih2 _ hn3 _ _ _ _ h1
      exact ⟨_, pathN_append (PathN.cons (.step (.altNext hxa hka hna)) hp1)
        (pathN_one (.nop hxn hkn hnt))⟩

end GoRegexp

namespace GoRegexp

/-! ### From the paths to the language -/

/-- The move over a leaf. -/
theorem leaf_split {G : List instr} {b : List Nat} {m t : Nat} {r : Ast} {x : instr}
    (hx : G[m]? = some x) (hl : LeafFor x r) (hn : x.next = some t)
    {p j q : Nat} {v v1 : List Int} (h : StepN G b m p v j q v1) :
    j = t ∧ LangV b r p v q v1 := by
  cases r with
  | bot =>
    obtain ⟨h1, h2, h3, h4⟩ := stepN_bot h hx hl
    rw [hn] at h1; cases h1
    subst h3 h4 h2
    exact ⟨rfl, .bot⟩
  | eot =>
    obtain ⟨h1, h2, h3, h4⟩ := stepN_eot h hx hl
    rw [hn] at h1; cases h1
    subst h3 h4 h2
    exact ⟨rfl, .eot⟩
  | any =>
    obtain ⟨h1, h2, h3, h4, h5⟩ := stepN_eat h hx (Or.inr (Or.inr (Or.inl hl)))
    rw [hn] at h1; cases h1
    subst h4 h5
    exact ⟨rfl, .any h2⟩
  | char c =>
    obtain ⟨h1, h2, h3, h4, h5⟩ := stepN_eat h hx (Or.inl hl.1)
    rw [hn] at h1; cases h1
    subst h4 h5
    refine ⟨rfl, .char h2 ?_⟩
    simp only [instr.eats, hl.1, decide_eq_true_eq] at h3
    rw [h3, hl.2]
  | cls neg rs =>
    obtain ⟨h1, h2, h3, h4, h5⟩ := stepN_eat h hx (by
      rcases hl.1 with h' | h' | h'
      · exact Or.inl h'
      · exact Or.inr (Or.inl h')
      · exact Or.inr (Or.inr (Or.inr h')))
    rw [hn] at h1; cases h1
    subst h4 h5
    exact ⟨rfl, .cls h2 ((hl.2 _ (DecodeRune_ne_eof _)).1 h3)⟩
  | empty =>
    obtain ⟨h1, h2, h3⟩ := stepN_nop h hx hl
    rw [hn] at h1; cases h1
    subst h2 h3
    exact ⟨rfl, .empty⟩
  | group _ _ => exact absurd hl (by simp [LeafFor])
  | star _ => exact absurd hl (by simp [LeafFor])
  | plus _ => exact absurd hl (by simp [LeafFor])
  | opt _ => exact absurd hl (by simp [LeafFor])
  | cat _ _ => exact absurd hl (by simp [LeafFor])
  | alt _ _ => exact absurd hl (by simp [LeafFor])

/-- The paths that leave the loop of a star. -/
theorem loop_split {G : List instr} {b : List Nat} {a s1 t : Nat} {r : Ast} {xa : instr}
    (hxa : G[a]? = some xa) (hka : xa.kind = .iAlt) (hl : xa.left = some s1)
    (hn : xa.next = some t) (k qk : Nat) (vk : List Int) (hne : a ≠ k)
    (ih : ∀ (L p : Nat) (v : List Int), PathN G b L s1 p v k qk vk →
      ∃ q v1 L1, LangV b r p v q v1 ∧ L1 ≤ L ∧ PathN G b L1 a q v1 k qk vk) :
    ∀ (L p : Nat) (v : List Int), PathN G b L a p v k qk vk →
      ∃ q v1 L1, LangV b (.star r) p v q v1 ∧ L1 < L ∧ PathN G b L1 t q v1 k qk vk := by
  intro L
  induction L using Nat.strong_induction_on with
  | _ L sih =>
    intro p v hp
    obtain ⟨L0, j, p1, v0, hL, hs, hp0⟩ := pathN_uncons hp hne
    obtain ⟨hj, h2, h3⟩ := stepN_alt hs hxa hka
    subst h2 h3
    rcases hj with hj | hj
    · rw [hl] at hj; cases hj
      obtain ⟨q1, v1, L1, hr, hle, hp1⟩ := ih _ _ _ hp0
      obtain ⟨q2, v2, L2, hr2, hlt, hp2⟩ := sih L1 (by omega) _ _ hp1
      exact ⟨q2, v2, L2, .starCons hr hr2, by omega, hp2⟩
    · rw [hn] at hj; cases hj
      exact ⟨_, _, L0, .starNil, by omega, hp0⟩

/-- Every path that leaves the fragment of a tree from its start goes through where the end
of the fragment leads, and reads a span of the language of the tree up to there. -/
theorem built_split {G : List instr} {b : List Nat} {m n s e : Nat} {r : Ast}
    (h : Built G m n r s e) : ∀ t, NextAt G e t →
      ∀ (k qk : Nat) (vk : List Int), ¬ (m ≤ k ∧ k < n) →
      ∀ (L p : Nat) (v : List Int), PathN G b L s p v k qk vk →
        ∃ q v1 L1, LangV b r p v q v1 ∧ L1 ≤ L ∧ PathN G b L1 t q v1 k qk vk := by
  induction h with
  | @leaf m r x hx hl =>
    intro t ⟨x2, hx2, hn⟩ k qk vk hk L p v hp
    rw [hx] at hx2; cases hx2
    obtain ⟨L0, j, p1, v0, hL, hs, hp0⟩ := pathN_uncons hp (by omega)
    obtain ⟨hj, hlang⟩ := leaf_split hx hl hn hs
    subst hj
    exact ⟨_, _, L0, hlang, by omega, hp0⟩
  | @group m n1 g s1 e1 r hB hb1 hn1 hn2 hb2 ih =>
    intro t ⟨x2, hx2, hn⟩ k qk vk hk L p v hp
    have hr := built_range hB
    obtain ⟨xb, hxb, hkb, hnb⟩ := hb1
    obtain ⟨xb2, hxb2, hsb⟩ := hn1
    rw [hxb] at hxb2; cases hxb2
    obtain ⟨xe, hxe, hke, hne⟩ := hb2
    rw [hxe] at hx2; cases hx2
    obtain ⟨L0, j, p1, v0, hL, hs, hp0⟩ := pathN_uncons hp (by omega)
    obtain ⟨hj, h2, h3⟩ := stepN_bra hs hxb hkb
    rw [hsb] at hj; cases hj
    subst h2 h3
    obtain ⟨q1, v1, L1, hlang, hle, hp1⟩ := ih _ hn2 k qk vk (by omega) _ _ _ hp0
    obtain ⟨L2, j2, p2, v2, hL2, hs2, hp2⟩ := pathN_uncons hp1 (by omega)
    obtain ⟨hj2, h4, h5⟩ := stepN_bra hs2 hxe hke
    rw [hn] at hj2; cases hj2
    subst h4 h5
    rw [hnb] at hlang
    rw [hne] at hp2
    exact ⟨_, _, L2, .group hlang, by omega, hp2⟩
  | @star m n1 s1 e1 r hB ha hn ih =>
    intro t ⟨x2, hx2, hn2⟩ k qk vk hk L p v hp
    have hr := built_range hB
    obtain ⟨xa, hxa, hka, hla⟩ := ha
    rw [hxa] at hx2; cases hx2
    obtain ⟨q, v1, L1, h1, h2, h3⟩ := loop_split hxa hka hla hn2 k qk vk (by omega)
      (ih _ hn k qk vk (by omega)) _ _ _ hp
    exact ⟨q, v1, L1, h1, by omega, h3⟩
  | @plus m n1 s1 e1 r hB ha hn ih =>
    intro t ⟨x2, hx2, hn2⟩ k qk vk hk L p v hp
    have hr := built_range hB
    obtain ⟨xa, hxa, hka, hla⟩ := ha
    rw [hxa] at hx2; cases hx2
    obtain ⟨q0, v0, L0, h0, hle, hp0⟩ := ih _ hn k qk vk (by omega) _ _ _ hp
    obtain ⟨q, v1, L1, h1, h2, h3⟩ := loop_split hxa hka hla hn2 k qk vk (by omega)
      (ih _ hn k qk vk (by omega)) _ _ _ hp0
    exact ⟨q, v1, L1, .plus h0 h1, by omega, h3⟩
  | @opt m n1 s1 e1 r hB ha hn1 hp hn2 ih =>
    intro t ⟨x2, hx2, hnt⟩ k qk vk hk L p v hpath
    have hr := built_range hB
    obtain ⟨xa, hxa, hka, hla⟩ := ha
    obtain ⟨xa2, hxa2, hna⟩ := hn1
    rw [hxa] at hxa2; cases hxa2
    obtain ⟨xn, hxn, hkn⟩ := hp
    rw [hxn] at hx2; cases hx2
    obtain ⟨L0, j, p1, v0, hL, hs, hp0⟩ := pathN_uncons hpath (by omega)
    obtain ⟨hj, h2, h3⟩ := stepN_alt hs hxa hka
    subst h2 h3
    rcases hj with hj | hj
    · rw [hla] at hj; cases hj
      obtain ⟨q1, v1, L1, hlang, hle, hp1⟩ := ih _ hn2 k qk vk (by omega) _ _ _ hp0
      obtain ⟨L2, j2, p2, v2, hL2, hs2, hp2⟩ := pathN_uncons hp1 (by omega)
      obtain ⟨hj2, h4, h5⟩ := stepN_nop hs2 hxn hkn
      rw [hnt] at hj2; cases hj2
      subst h4 h5
      exact ⟨_, _, L2, .optSome hlang, by omega, hp2⟩
    · rw [hna] at hj; cases hj
      obtain ⟨L2, j2, p2, v2, hL2, hs2, hp2⟩ := pathN_uncons hp0 (by omega)
      obtain ⟨hj2, h4, h5⟩ := stepN_nop hs2 hxn hkn
      rw [hnt] at hj2; cases hj2
      subst h4 h5
      exact ⟨_, _, L2, .optNil, by omega, hp2⟩
  | @cat m n1 n s1 e1 s2 e2 r1 r2 hB1 hB2 hn ih1 ih2 =>
    intro t hnt k qk vk hk L p v hp
    have hr1 := built_range hB1
    have hr2 := built_range hB2
    obtain ⟨q1, v1, L1, hl1, hle1, hp1⟩ := ih1 _ hn k qk vk (by omega) _ _ _ hp
    obtain ⟨q2, v2, L2, hl2, hle2, hp2⟩ := ih2 _ hnt k qk vk (by omega) _ _ _ hp1
    exact ⟨q2, v2, L2, .cat hl1 hl2, by omega, hp2⟩
  | @alt m n1 n2 s1 e1 s2 e2 r1 r2 hB1 hB2 ha hn1 hp hn2 hn3 ih1 ih2 =>
    intro t ⟨x2, hx2, hnt⟩ k qk vk hk L p v hpath
    have hr1 := built_range hB1
    have hr2 := built_range hB2
    obtain ⟨xa, hxa, hka, hla⟩ := ha
    obtain ⟨xa2, hxa2, hna⟩ := hn1
    rw [hxa] at hxa2; cases hxa2
    obtain ⟨xn, hxn, hkn⟩ := hp
    rw [hxn] at hx2; cases hx2
    obtain ⟨L0, j, p1, v0, hL, hs, hp0⟩ := pathN_uncons hpath (by omega)
    obtain ⟨hj, h2, h3⟩ := stepN_alt hs hxa hka
    subst h2 h3
    rcases hj with hj | hj
    · rw [hla] at hj; cases hj
      obtain ⟨q1, v1, L1, hlang, hle, hp1⟩ := ih1 _ hn2 k qk vk (by omega) _ _ _ hp0
      obtain ⟨L2, j2, p2, v2, hL2, hs2, hp2⟩ := pathN_uncons hp1 (by omega)
      obtain ⟨hj2, h4, h5⟩ := stepN_nop hs2 hxn hkn
      rw [hnt] at hj2; cases hj2
      subst h4 h5
      exact ⟨_, _, L2, .altLeft hlang, by omega, hp2⟩
    · rw [hna] at hj; cases hj
      obtain ⟨q1, v1, L1, hlang, hle, hp1⟩ := ih2 _ hn3 k qk vk (by omega) _ _ _ hp0
      obtain ⟨L2, j2, p2, v2, hL2, hs2, hp2⟩ := pathN_uncons hp1 (by omega)
      obtain ⟨hj2, h4, h5⟩ := stepN_nop hs2 hxn hkn
      rw [hnt] at hj2; cases hj2
      subst h4 h5
      exact ⟨_, _, L2, .altRight hlang, by omega, hp2⟩

end GoRegexp

namespace GoRegexp

/-! ## The parser follows the runs -/

theorem classRun_complete {p p1 : parser} {cc cc1 : charClass} {left : Int}
    (h : ClassRun p cc left p1 cc1) :
    ∃ N, ∀ M, N ≤ M → parser.charClassLoop M p cc left =
      .ok (p1.addI (classInstr cc1), some p1.re.inst.length) := by
  induction h with
  | @done p cc left h1 hl =>
    refine ⟨1, fun M hM => ?_⟩
    obtain ⟨M, rfl⟩ : ∃ M', M = M' + 1 := ⟨M - 1, by omega⟩
    rw [charClassLoop_done M p cc left h1 hl]
  | @single p p1 cc left c p3 cc3 h1 h2 hb hl h45 hrun ih =>
    obtain ⟨N, hN⟩ := ih
    refine ⟨N + 1, fun M hM => ?_⟩
    obtain ⟨M, rfl⟩ : ∃ M', M = M' + 1 := ⟨M - 1, by omega⟩
    rw [charClassLoop_more M p cc left h1 h2 hb, if_pos hl, if_neg h45]
    exact hN M (by omega)
  | @lower p p1 cc left c p3 cc3 h1 h2 hb hl h45 hrun ih =>
    obtain ⟨N, hN⟩ := ih
    refine ⟨N + 1, fun M hM => ?_⟩
    obtain ⟨M, rfl⟩ : ∃ M', M = M' + 1 := ⟨M - 1, by omega⟩
    rw [charClassLoop_more M p cc left h1 h2 hb, if_pos hl, if_pos h45]
    exact hN M (by omega)
  | @upper p p1 cc left c p3 cc3 h1 h2 hb hl hle hrun ih =>
    obtain ⟨N, hN⟩ := ih
    refine ⟨N + 1, fun M hM => ?_⟩
    obtain ⟨M, rfl⟩ : ∃ M', M = M' + 1 := ⟨M - 1, by omega⟩
    rw [charClassLoop_more M p cc left h1 h2 hb, if_neg hl, if_pos hle]
    exact hN M (by omega)

/-- The function of the parser for a nonterminal returns what a run for it says, on every
fuel that is large enough. -/
theorem parse_complete {nt : NT} {p p2 : parser} {r : Ast} {s e : Nat}
    (h : Parse nt p r p2 s e) :
    ∃ N, ∀ M, N ≤ M → callNT nt M p = .ok (p2, some s, some e) := by
  induction h with
  | @bot p h =>
    refine ⟨1, fun M hM => ?_⟩
    obtain ⟨M, rfl⟩ : ∃ M', M = M' + 1 := ⟨M - 1, by omega⟩
    exact term_bot M p h
  | @eot p h =>
    refine ⟨1, fun M hM => ?_⟩
    obtain ⟨M, rfl⟩ : ∃ M', M = M' + 1 := ⟨M - 1, by omega⟩
    exact term_eot M p h
  | @any p h =>
    refine ⟨1, fun M hM => ?_⟩
    obtain ⟨M, rfl⟩ : ∃ M', M = M' + 1 := ⟨M - 1, by omega⟩
    exact term_any M p h
  | @char p p1 c h hb =>
    refine ⟨1, fun M hM => ?_⟩
    obtain ⟨M, rfl⟩ : ∃ M', M = M' + 1 := ⟨M - 1, by omega⟩
    exact term_char M p h hb
  | @cls p p1 cc h hrun h93 =>
    obtain ⟨N, hN⟩ := classRun_complete hrun
    have hre : p1.re = p.re := by simpa using hrun.re_eq.1
    refine ⟨N + 1, fun M hM => ?_⟩
    obtain ⟨M, rfl⟩ : ∃ M', M = M' + 1 := ⟨M - 1, by omega⟩
    simp only [callNT]
    rw [term_eq_cls M p h]
    have hcc : parser.charClass M p.nextc =
        .ok (p1.addI (classInstr cc), some p1.re.inst.length) := by
      rw [← hN M (by omega)]
      unfold parser.charClass
      split
      · rename_i h94
        simp [h94]
      · rename_i h94
        simp [h94]
        rfl
    rw [hcc]
    have h93b : (p1.addI (classInstr cc)).c = 93 := by simpa [parser.c] using h93
    simp only [h93b, ne_eq, not_true_eq_false, if_false, hre]
  | @group p p2 r s e re1 re2 h hr hc h1 h2 ih =>
    obtain ⟨N, hN⟩ := ih
    simp only [callNT] at hN
    refine ⟨N + 1, fun M hM => ?_⟩
    obtain ⟨M, rfl⟩ : ∃ M', M = M' + 1 := ⟨M - 1, by omega⟩
    exact term_group M p h re1 re2 (hN M (by omega)) hc h1 h2
  | @plain p r p1 s e ht h1 h2 h3 ih =>
    obtain ⟨N, hN⟩ := ih
    simp only [callNT] at hN
    refine ⟨N + 1, fun M hM => ?_⟩
    obtain ⟨M, rfl⟩ : ∃ M', M = M' + 1 := ⟨M - 1, by omega⟩
    exact closure_plain M p (hN M (by omega)) h1 h2 h3
  | @star p r p1 s e re1 re2 ht hc h1 h2 h3 ih =>
    obtain ⟨N, hN⟩ := ih
    simp only [callNT] at hN
    refine ⟨N + 1, fun M hM => ?_⟩
    obtain ⟨M, rfl⟩ : ∃ M', M = M' + 1 := ⟨M - 1, by omega⟩
    exact closure_star M p re1 re2 (hN M (by omega)) hc h1 h2 h3
  | @plus p r p1 s e re1 re2 ht hc h1 h2 h3 ih =>
    obtain ⟨N, hN⟩ := ih
    simp only [callNT] at hN
    refine ⟨N + 1, fun M hM => ?_⟩
    obtain ⟨M, rfl⟩ : ∃ M', M = M' + 1 := ⟨M - 1, by omega⟩
    exact closure_plus M p re1 re2 (hN M (by omega)) hc h1 h2 h3
  | @opt p r p1 s e re1 re2 re3 ht hc h1 h2 h3 h4 ih =>
    obtain ⟨N, hN⟩ := ih
    simp only [callNT] at hN
    refine ⟨N + 1, fun M hM => ?_⟩
    obtain ⟨M, rfl⟩ : ∃ M', M = M' + 1 := ⟨M - 1, by omega⟩
    exact closure_opt M p re1 re2 re3 (hN M (by omega)) hc h1 h2 h3 h4
  | @emptyConcat p h =>
    refine ⟨4, fun M hM => ?_⟩
    obtain ⟨M, rfl⟩ : ∃ M', M = M' + 4 := ⟨M - 4, by omega⟩
    simp only [callNT]
    rw [concatenation_eq, concatLoop_empty (M + 2) p (closure_nil (M + 1) p (term_nil M p h))]
  | @first p c p1 s1 e1 r p2 s e hc hl ih1 ih2 =>
    obtain ⟨N1, hN1⟩ := ih1
    obtain ⟨N2, hN2⟩ := ih2
    simp only [callNT] at hN1 hN2
    refine ⟨N1 + N2 + 2, fun M hM => ?_⟩
    obtain ⟨M, rfl⟩ : ∃ M', M = M' + 2 := ⟨M - 2, by omega⟩
    simp only [callNT]
    rw [concatenation_eq, concatLoop_first M p (hN1 M (by omega))]
    exact hN2 M (by omega)
  | @last p a s e h =>
    refine ⟨3, fun M hM => ?_⟩
    obtain ⟨M, rfl⟩ : ∃ M', M = M' + 3 := ⟨M - 3, by omega⟩
    simp only [callNT]
    exact concatLoop_last (M + 2) p s e (closure_nil (M + 1) p (term_nil M p h))
  | @next p a s e c p1 s1 e1 re1 r p2 s2 e2 hc h1 hl ih1 ih2 =>
    obtain ⟨N1, hN1⟩ := ih1
    obtain ⟨N2, hN2⟩ := ih2
    simp only [callNT] at hN1 hN2
    refine ⟨N1 + N2 + 1, fun M hM => ?_⟩
    obtain ⟨M, rfl⟩ : ∃ M', M = M' + 1 := ⟨M - 1, by omega⟩
    simp only [callNT]
    rw [concatLoop_next M p s e (hN1 M (by omega)) h1]
    exact hN2 M (by omega)
  | @regexp p c p1 s1 e1 r p2 s e hc hl ih1 ih2 =>
    obtain ⟨N1, hN1⟩ := ih1
    obtain ⟨N2, hN2⟩ := ih2
    simp only [callNT] at hN1 hN2
    refine ⟨N1 + N2 + 1, fun M hM => ?_⟩
    obtain ⟨M, rfl⟩ : ∃ M', M = M' + 1 := ⟨M - 1, by omega⟩
    simp only [callNT]
    rw [regexp_eq M p (hN1 M (by omega))]
    exact hN2 M (by omega)
  | @done p a s e h =>
    refine ⟨1, fun M hM => ?_⟩
    obtain ⟨M, rfl⟩ : ∃ M', M = M' + 1 := ⟨M - 1, by omega⟩
    exact regexpLoop_done M p (some s) (some e) h
  | @bar p a s e c p1 s1 e1 re1 re2 re3 re4 r p2 s2 e2 h hc h1 h2 h3 h4 hl ih1 ih2 =>
    obtain ⟨N1, hN1⟩ := ih1
    obtain ⟨N2, hN2⟩ := ih2
    simp only [callNT] at hN1 hN2
    have l2 : re2.inst.length = p1.re.inst.length + 1 := by
      rw [(setNext_inst h2).1, updNext_length, (setLeft_inst h1).1, updLeft_length]; simp
    refine ⟨N1 + N2 + 1, fun M hM => ?_⟩
    obtain ⟨M, rfl⟩ : ∃ M', M = M' + 1 := ⟨M - 1, by omega⟩
    simp only [callNT]
    rw [regexpLoop_bar M p s e h re1 re2 re3 re4 (hN1 M (by omega)) h1 h2 h3 h4, l2]
    exact hN2 M (by omega)

/-- What Compile does after the run of the parser on the pattern. -/
theorem Compile_parse {pat : List Nat} {r : Ast} {q1 : parser} {s e : Nat}
    (hp : Parse .regexp (startParser pat) r q1 s e) :
    Compile pat = finishParse (some 0) q1 (some s) (some e) := by
  have h1 := regexp_at_parseFuel (parse_complete hp) (by simp)
  unfold Compile
  rw [doParse_eq, h1]
  simp only [add_snd]
  have : (newParser { expr := pat }).re.inst = [] := by simp [newParser]
  rw [this]
  rfl

end GoRegexp

namespace GoRegexp

/-! ## The language of the compiled program -/

theorem leafFor_kind {x : instr} {r : Ast} (h : LeafFor x r) :
    x.kind ≠ .iEnd ∧ x.kind ≠ .iStart := by
  cases r <;> simp only [LeafFor] at h
  · rw [h]; simp
  · rw [h]; simp
  · rw [h]; simp
  · rw [h.1]; simp
  · rcases h.1 with h1 | h1 | h1 <;> rw [h1] <;> simp
  · rw [h]; simp

theorem built_kinds {G : List instr} {m n s e : Nat} {r : Ast} (h : Built G m n r s e) :
    ∀ i, m ≤ i → i < n → ∃ x, G[i]? = some x ∧ x.kind ≠ .iEnd ∧ x.kind ≠ .iStart := by
  induction h with
  | @leaf m r x hx hl =>
    intro i h1 h2
    have : i = m := by omega
    subst this
    exact ⟨x, hx, leafFor_kind hl⟩
  | @group m n1 k s1 e1 r hB hb1 hn1 hn2 hb2 ih =>
    intro i h1 h2
    by_cases hi : i < n1
    · exact ih i h1 hi
    · by_cases hi2 : i = n1
      · subst hi2
        obtain ⟨x, hx, hk, _⟩ := hb1
        exact ⟨x, hx, by rw [hk]; simp, by rw [hk]; simp⟩
      · have : i = n1 + 1 := by omega
        subst this
        obtain ⟨x, hx, hk, _⟩ := hb2
        exact ⟨x, hx, by rw [hk]; simp, by rw [hk]; simp⟩
  | @star m n1 s1 e1 r hB ha hn ih =>
    intro i h1 h2
    by_cases hi : i < n1
    · exact ih i h1 hi
    · have : i = n1 := by omega
      subst this
      obtain ⟨x, hx, hk, _⟩ := ha
      exact ⟨x, hx, by rw [hk]; simp, by rw [hk]; simp⟩
  | @plus m n1 s1 e1 r hB ha hn ih =>
    intro i h1 h2
    by_cases hi : i < n1
    · exact ih i h1 hi
    · have : i = n1 := by omega
      subst this
      obtain ⟨x, hx, hk, _⟩ := ha
      exact ⟨x, hx, by rw [hk]; simp, by rw [hk]; simp⟩
  | @opt m n1 s1 e1 r hB ha hn1 hp hn2 ih =>
    intro i h1 h2
    by_cases hi : i < n1
    · exact ih i h1 hi
    · by_cases hi2 : i = n1
      · subst hi2
        obtain ⟨x, hx, hk, _⟩ := ha
        exact ⟨x, hx, by rw [hk]; simp, by rw [hk]; simp⟩
      · have : i = n1 + 1 := by omega
        subst this
        obtain ⟨x, hx, hk⟩ := hp
        exact ⟨x, hx, by rw [hk]; simp, by rw [hk]; simp⟩
  | @cat m n1 n s1 e1 s2 e2 r1 r2 hB1 hB2 hn ih1 ih2 =>
    intro i h1 h2
    by_cases hi : i < n1
    · exact ih1 i h1 hi
    · exact ih2 i (by omega) h2
  | @alt m n1 n2 s1 e1 s2 e2 r1 r2 hB1 hB2 ha hn1 hp hn2 hn3 ih1 ih2 =>
    intro i h1 h2
    by_cases hi : i < n1
    · exact ih1 i h1 hi
    · by_cases hi1 : i < n2
      · exact ih2 i (by omega) hi1
      · by_cases hi2 : i = n2
        · subst hi2
          obtain ⟨x, hx, hk, _⟩ := ha
          exact ⟨x, hx, by rw [hk]; simp, by rw [hk]; simp⟩
        · have : i = n2 + 1 := by omega
          subst this
          obtain ⟨x, hx, hk⟩ := hp
          exact ⟨x, hx, by rw [hk]; simp, by rw [hk]; simp⟩

theorem skip_path {G : List instr} (b : List Nat) {j t : Nat} (h : Skip G j t) :
    ∀ (p : Nat) (v : List Int), ∃ L, PathN G b L j p v t p v := by
  induction h with
  | here _ _ => exact fun p v => ⟨0, .nil⟩
  | step hx hk hn _ ih =>
    intro p v
    obtain ⟨L, hL⟩ := ih p v
    exact ⟨L + 1, .cons (.nop hx hk hn) hL⟩

/-- A move of the program with its iNop instructions is a move of the program without. -/
theorem elim_step {G G2 : List instr} {b : List Nat} (hE : Elim G G2) {i p j q : Nat}
    {v v1 : List Int} (h : Step G b i p v j q v1) :
    (∃ x, G[i]? = some x ∧ x.kind ≠ .iNop) ∧ ∃ t, Skip G j t ∧ Step G2 b i p v t q v1 := by
  cases h with
  | bot hx hk hp hn =>
    obtain ⟨y, hy, hs, hnx, -⟩ := hE.node i _ hx
    obtain ⟨j2, t, a1, a2, a3⟩ := hnx (by rw [hk]; simp)
    rw [hn] at a1; cases a1
    exact ⟨⟨_, hx, by rw [hk]; simp⟩, t, a3, .bot hy (by rw [hs.1, hk]) hp a2⟩
  | eot hx hk hp hn =>
    obtain ⟨y, hy, hs, hnx, -⟩ := hE.node i _ hx
    obtain ⟨j2, t, a1, a2, a3⟩ := hnx (by rw [hk]; simp)
    rw [hn] at a1; cases a1
    exact ⟨⟨_, hx, by rw [hk]; simp⟩, t, a3, .eot hy (by rw [hs.1, hk]) hp a2⟩
  | bra hx hk hn =>
    obtain ⟨y, hy, hs, hnx, -⟩ := hE.node i _ hx
    obtain ⟨j2, t, a1, a2, a3⟩ := hnx (by rw [hk]; simp)
    rw [hn] at a1; cases a1
    have := @Step.bra G2 b i p t v y hy (by rw [hs.1, hk]) a2
    rw [hs.2.2.2] at this
    exact ⟨⟨_, hx, by rw [hk]; simp⟩, t, a3, this⟩
  | altLeft hx hk hn =>
    obtain ⟨y, hy, hs, -, hlf⟩ := hE.node i _ hx
    obtain ⟨j2, t, a1, a2, a3⟩ := hlf hk
    rw [hn] at a1; cases a1
    exact ⟨⟨_, hx, by rw [hk]; simp⟩, t, a3, .altLeft hy (by rw [hs.1, hk]) a2⟩
  | altNext hx hk hn =>
    obtain ⟨y, hy, hs, hnx, -⟩ := hE.node i _ hx
    obtain ⟨j2, t, a1, a2, a3⟩ := hnx (by rw [hk]; simp)
    rw [hn] at a1; cases a1
    exact ⟨⟨_, hx, by rw [hk]; simp⟩, t, a3, .altNext hy (by rw [hs.1, hk]) a2⟩
  | eat hx hp he hn =>
    obtain ⟨y, hy, hs, hnx, -⟩ := hE.node i _ hx
    have hk := eats_kind he
    obtain ⟨j2, t, a1, a2, a3⟩ := hnx (by rcases hk with h | h | h | h <;> rw [h] <;> simp)
    rw [hn] at a1; cases a1
    exact ⟨⟨_, hx, by rcases hk with h | h | h | h <;> rw [h] <;> simp⟩, t, a3,
      .eat hy hp (by rw [sameOp_eats hs]; exact he) a2⟩

/-- A move of the program without its iNop instructions is a move of the program with them,
followed by the steps over the iNop instructions. -/
theorem elim_step_back {G G2 : List instr} {b : List Nat} (hE : Elim G G2) {i p t q : Nat}
    {v v1 : List Int} (h : Step G2 b i p v t q v1) :
    ∃ j, Skip G j t ∧ Step G b i p v j q v1 := by
  have key : ∀ y, G2[i]? = some y → ∃ x, G[i]? = some x ∧ SameOp x y ∧
      (x.kind ≠ .iEnd → ∃ j t, x.next = some j ∧ y.next = some t ∧ Skip G j t) ∧
      (x.kind = .iAlt → ∃ j t, x.left = some j ∧ y.left = some t ∧ Skip G j t) := by
    intro y hy
    have hi : i < G.length := by
      rw [← hE.length]; exact (List.getElem?_eq_some.mp hy).1
    obtain ⟨y2, hy2, h2⟩ := hE.node i _ (List.getElem?_eq_getElem hi)
    rw [hy] at hy2; cases hy2
    exact ⟨_, List.getElem?_eq_getElem hi, h2⟩
  cases h with
  | bot hy hk hp hn =>
    obtain ⟨x, hx, hs, hnx, -⟩ := key _ hy
    have hkx : x.kind = .iBOT := by rw [← hs.1, hk]
    obtain ⟨j, t2, a1, a2, a3⟩ := hnx (by rw [hkx]; simp)
    rw [hn] at a2; cases a2
    exact ⟨j, a3, .bot hx hkx hp a1⟩
  | eot hy hk hp hn =>
    obtain ⟨x, hx, hs, hnx, -⟩ := key _ hy
    have hkx : x.kind = .iEOT := by rw [← hs.1, hk]
    obtain ⟨j, t2, a1, a2, a3⟩ := hnx (by rw [hkx]; simp)
    rw [hn] at a2; cases a2
    exact ⟨j, a3, .eot hx hkx hp a1⟩
  | bra hy hk hn =>
    obtain ⟨x, hx, hs, hnx, -⟩ := key _ hy
    have hkx : x.kind = .iBra := by rw [← hs.1, hk]
    obtain ⟨j, t2, a1, a2, a3⟩ := hnx (by rw [hkx]; simp)
    rw [hn] at a2; cases a2
    have := @Step.bra G b i p j v x hx hkx a1
    rw [← hs.2.2.2] at this
    exact ⟨j, a3, this⟩
  | altLeft hy hk hn =>
    obtain ⟨x, hx, hs, -, hlf⟩ := key _ hy
    have hkx : x.kind = .iAlt := by rw [← hs.1, hk]
    obtain ⟨j, t2, a1, a2, a3⟩ := hlf hkx
    rw [hn] at a2; cases a2
    exact ⟨j, a3, .altLeft hx hkx a1⟩
  | altNext hy hk hn =>
    obtain ⟨x, hx, hs, hnx, -⟩ := key _ hy
    have hkx : x.kind = .iAlt := by rw [← hs.1, hk]
    obtain ⟨j, t2, a1, a2, a3⟩ := hnx (by rw [hkx]; simp)
    rw [hn] at a2; cases a2
    exact ⟨j, a3, .altNext hx hkx a1⟩
  | eat hy hp he hn =>
    obtain ⟨x, hx, hs, hnx, -⟩ := key _ hy
    have hex : x.eats (DecodeRune (b.drop p)).1 = true := by rw [← sameOp_eats hs]; exact he
    have hk := eats_kind hex
    obtain ⟨j, t2, a1, a2, a3⟩ := hnx (by rcases hk with h | h | h | h <;> rw [h] <;> simp)
    rw [hn] at a2; cases a2
    exact ⟨j, a3, .eat hx hp hex a1⟩

/-- A path of the program with its iNop instructions is a run of the program without. -/
theorem elim_run {G G2 : List instr} {b : List Nat} (hE : Elim G G2) {L i p k q : Nat}
    {v v1 : List Int} (h : PathN G b L i p v k q v1)
    (hk : ∃ x, G[k]? = some x ∧ x.kind ≠ .iNop) :
    ∀ i2, Skip G i i2 → ∃ tr, Run G2 b i2 p v tr k q v1 := by
  induction h with
  | nil =>
    intro i2 hs
    obtain ⟨x, hx, hxk⟩ := hk
    have := skip_of_good hx hxk hs
    subst this
    exact ⟨[], .nil⟩
  | cons hst _ ih =>
    intro i2 hs
    cases hst with
    | step h1 =>
      obtain ⟨⟨x, hx, hxk⟩, t, hsk, hst2⟩ := elim_step hE h1
      have := skip_of_good hx hxk hs
      subst this
      obtain ⟨tr, hr⟩ := ih hk t hsk
      exact ⟨_, .cons hst2 hr⟩
    | nop hx hxk hn =>
      cases hs with
      | here hx2 hk2 =>
        rw [hx] at hx2; cases hx2
        exact absurd hxk hk2
      | step hx2 _ hn2 h3 =>
        rw [hx] at hx2; cases hx2
        rw [hn] at hn2; cases hn2
        exact ih hk i2 h3

/-- A run of the program without its iNop instructions is a path of the program with
them. -/
theorem elim_path {G G2 : List instr} {b : List Nat} (hE : Elim G G2) {i p k q : Nat}
    {v v1 : List Int} {tr : List Nat} (h : Run G2 b i p v tr k q v1) :
    ∃ L, PathN G b L i p v k q v1 := by
  induction h with
  | nil => exact ⟨0, .nil⟩
  | cons hst _ ih =>
    obtain ⟨j, hsk, hst2⟩ := elim_step_back hE hst
    obtain ⟨L1, h1⟩ := skip_path b hsk _ _
    obtain ⟨L2, h2⟩ := ih
    exact ⟨_, .cons (.step hst2) (pathN_append h1 h2)⟩

/-- What doParse makes of the program the parser returns. -/
theorem finish_elim {q1 : parser} {s e : Nat} {re : Regexp}
    (h : finishParse (some 0) q1 (some s) (some e) = .ok re) :
    Elim (updNext (updNext q1.re.inst 0 (some s) ++
        [({ kind := .iEnd, index := q1.re.inst.length } : instr)]) e (some q1.re.inst.length))
      re.inst ∧ re.nbra = q1.re.nbra ∧ re.start = some 0 := by
  unfold finishParse at h
  cases h1 : q1.re.setNext (some 0) (some s) with
  | error x => rw [h1] at h; simp at h
  | ok r1 =>
    rw [h1] at h
    simp only at h
    obtain ⟨i1, n1⟩ := setNext_inst h1
    have l1 : r1.inst.length = q1.re.inst.length := by rw [i1, updNext_length]
    cases h2 : (({ r1 with start := some 0 } : Regexp).add { kind := .iEnd }).1.setNext (some e)
        (({ r1 with start := some 0 } : Regexp).add { kind := .iEnd }).2 with
    | error x => rw [h2] at h; simp at h
    | ok r2 =>
      rw [h2] at h
      simp only at h
      obtain ⟨i2, n2⟩ := setNext_inst h2
      simp only [add_inst, add_nbra, add_snd] at i2 n2
      cases h3 : r2.eliminateNops with
      | error x => rw [h3] at h; simp at h
      | ok r3 =>
        rw [h3] at h
        simp only at h
        obtain ⟨j1, j2, j3, -, -⟩ := setPrefix_inst h
        unfold Regexp.eliminateNops at h3
        cases h4 : eliminateNopsFrom r2.inst.length 0 r2.inst with
        | error x => rw [h4] at h3; simp at h3
        | ok G2 =>
          rw [h4] at h3
          simp only [Except.ok.injEq] at h3
          subst h3
          simp only at j1 j2 j3
          have hE := eliminateNops_elim h4
          rw [i2, l1, i1] at hE
          refine ⟨by rw [j1]; exact hE, by rw [j3, n2, n1], ?_⟩
          rw [j2, setNext_start h2]
          rfl

/-- The program Compile returns for a pattern accepts the spans of the language of the tree
the parser reads, and its match vectors are those of the language: a run of the program from
the instruction after iStart to iEnd reads a span of the language, with the same vector,
and every span of the language is read by such a run. -/
theorem Compile_semantics {pat : List Nat} {re : Regexp} {r : Ast} {q1 : parser} {s e : Nat}
    (h : Compile pat = .ok re) (hp : Parse .regexp (startParser pat) r q1 s e)
    (b : List Nat) (p q : Nat) (m : List Int) :
    (∃ tr, AcceptsVia re b p q tr m) ↔
      ∃ m1, LangV b r p (seedVec re p) q m1 ∧ m = m1.set 1 (q : Int) := by
  rw [Compile_parse hp] at h
  obtain ⟨hE, hnb, hst⟩ := finish_elim h
  have hB0 := parse_built hp
  simp only [BuiltSpec] at hB0
  have hlen0 : (startParser pat).re.inst.length = 1 := by simp [startParser, newParser]
  rw [hlen0] at hB0
  have hr := built_range hB0
  obtain ⟨-, hfr, -⟩ := hp.frag
  rw [hlen0] at hfr
  have h0 : q1.re.inst[0]? = some { kind := .iStart, index := 0 } := by
    rw [hfr 0 (by omega)]; simp [startParser, newParser]
  generalize hG : updNext (updNext q1.re.inst 0 (some s) ++
    [({ kind := .iEnd, index := q1.re.inst.length } : instr)]) e (some q1.re.inst.length) = G
    at hE
  have hold : ∀ i, 1 ≤ i → i < q1.re.inst.length → i ≠ e → G[i]? = q1.re.inst[i]? := by
    intro i h1 h2 h3
    rw [← hG, updNext_get, if_neg h3,
      List.getElem?_append_left (by rw [updNext_length]; exact h2), updNext_get,
      if_neg (by omega)]
  have hEnd : G[e]? = (q1.re.inst[e]?).map (fun x => { x with next := some q1.re.inst.length }) := by
    rw [← hG, updNext_get, if_pos rfl,
      List.getElem?_append_left (by rw [updNext_length]; omega), updNext_get,
      if_neg (by omega)]
  have hB : Built G 1 q1.re.inst.length r s e := built_link hB0 _ hold hEnd
  have hNe : NextAt G e q1.re.inst.length := by
    obtain ⟨x, hx⟩ : ∃ x, q1.re.inst[e]? = some x := ⟨_, List.getElem?_eq_getElem (by omega)⟩
    exact ⟨_, by rw [hEnd, hx]; rfl, rfl⟩
  have hG0 : G[0]? = some { kind := .iStart, index := 0, next := some s } := by
    rw [← hG, updNext_get, if_neg (by omega),
      List.getElem?_append_left (by rw [updNext_length]; omega), updNext_get, if_pos rfl, h0]
    rfl
  have hGe : G[q1.re.inst.length]? = some { kind := .iEnd, index := q1.re.inst.length } := by
    rw [← hG, updNext_get, if_neg (by omega),
      List.getElem?_append_right (by rw [updNext_length]), updNext_length]
    simp
  obtain ⟨y0, hy0, hs0, hn0, -⟩ := hE.node 0 _ hG0
  obtain ⟨j0, t0, a1, a2, a3⟩ := hn0 (by simp)
  simp only [Option.some.injEq] at a1
  subst a1
  obtain ⟨ye, hye, hse, -, -⟩ := hE.node _ _ hGe
  have hkE : kindAt re.inst q1.re.inst.length = some .iEnd := by
    unfold kindAt; rw [hye]; simp [hse.1]
  constructor
  · rintro ⟨tr, s', x, s0, k, m1, e1, e2, e3, hrun, hk, hm⟩
    rw [hst] at e1; cases e1
    rw [hy0] at e2; cases e2
    rw [a2] at e3; cases e3
    obtain ⟨L1, hp1⟩ := skip_path b a3 p (seedVec re p)
    obtain ⟨L2, hp2⟩ := elim_path hE hrun
    have hpath := pathN_append hp1 hp2
    have hkG : ¬ (1 ≤ k ∧ k < q1.re.inst.length) := by
      rintro ⟨k1, k2⟩
      obtain ⟨x, hx, hxk, -⟩ := built_kinds hB k k1 k2
      obtain ⟨y, hy, hsy, -, -⟩ := hE.node k x hx
      unfold kindAt at hk
      rw [hy] at hk
      simp only [Option.map_some', Option.some.injEq] at hk
      rw [hsy.1] at hk
      exact hxk hk
    obtain ⟨q2, v1, L3, hlang, -, hp3⟩ := built_split hB _ hNe k q m1 hkG _ _ _ hpath
    cases hp3 with
    | nil => exact ⟨_, hlang, hm⟩
    | cons hs1 _ => exact absurd (stepN_end hs1 hGe rfl) id
  · rintro ⟨m1, hlang, hm⟩
    obtain ⟨L, hpath⟩ := built_path (b := b) hB _ hNe _ _ _ _ hlang
    obtain ⟨tr, hrun⟩ := elim_run hE hpath ⟨_, hGe, by simp⟩ _ a3
    exact ⟨tr, 0, y0, t0, _, m1, hst, hy0, a2, hrun, hkE, hm⟩

end GoRegexp

namespace GoRegexp

/-! ## The runes the parser reads -/

theorem runesFrom_fuel : ∀ (n m : Nat) (b : List Nat), b.length ≤ n → b.length ≤ m →
    runesFrom n b = runesFrom m b := by
  intro n
  induction n with
  | zero =>
    intro m b h1 _
    have : b = [] := List.length_eq_zero.1 (by omega)
    subst this
    cases m <;> rfl
  | succ n ih =>
    intro m b h1 h2
    cases b with
    | nil => cases m <;> rfl
    | cons x t =>
      cases m with
      | zero => simp at h2
      | succ m =>
        simp only [runesFrom]
        have hw := DecodeRune_width_pos (b := x :: t) (by simp)
        rw [ih m _ (by simp only [List.length_drop, List.length_cons] at h1 ⊢; omega)
          (by simp only [List.length_drop, List.length_cons] at h2 ⊢; omega)]

theorem runes_nil : runes [] = [] := rfl

theorem runes_cons {b : List Nat} (h : b ≠ []) :
    runes b = (DecodeRune b).1 :: runes (b.drop (DecodeRune b).2) := by
  cases b with
  | nil => exact absurd rfl h
  | cons x t =>
    unfold runes
    simp only [List.length_cons, runesFrom]
    have hw := DecodeRune_width_pos (b := x :: t) (by simp)
    rw [runesFrom_fuel t.length ((x :: t).drop (DecodeRune (x :: t)).2).length _
      (by simp only [List.length_drop, List.length_cons]; omega) (le_refl _)]

theorem posOK_nextc (p : parser) : PosOK p.nextc := by
  unfold parser.nextc PosOK
  split
  · rename_i h
    exact ⟨fun _ => h, fun h2 => absurd rfl h2⟩
  · rename_i h
    simp only
    exact ⟨fun h2 => absurd h2 (DecodeRune_ne_eof _), fun _ => DecodeRune_nonneg _⟩

theorem toks_eof {p : parser} (h : p.ch = endOfFile) : p.toks = [] := by
  unfold parser.toks; rw [if_pos h]

theorem toks_nextc {p : parser} (hne : p.ch ≠ endOfFile) :
    p.toks = p.ch :: p.nextc.toks := by
  unfold parser.toks
  rw [if_neg hne]
  congr 1
  unfold parser.nextc
  split
  · rename_i h
    simp only [if_true]
    rw [List.drop_of_length_le h]
    first | done | rfl
  · rename_i h
    simp only [DecodeRuneInString]
    rw [if_neg (DecodeRune_ne_eof _), runes_cons (by
      intro h0
      have := congrArg List.length h0
      simp only [List.length_drop, List.length_nil] at this
      omega), List.drop_drop]
    first
      | done
      | (congr 2; omega)
      | (congr 2)

theorem toks_c {p : parser} {v : Int} (h : p.c = v) (hv : v ≠ endOfFile) :
    p.toks = v :: p.nextc.toks := by
  have := toks_nextc (c_ne_eof h hv)
  unfold parser.c at h
  rw [h] at this
  exact this

@[simp] theorem addI_toks (p : parser) (i : instr) : (p.addI i).toks = p.toks := rfl

theorem posOK_addI {p : parser} (h : PosOK p) (i : instr) : PosOK (p.addI i) := h

theorem toks_congr {p q : parser} (h1 : p.re.expr = q.re.expr) (h2 : p.pos = q.pos)
    (h3 : p.ch = q.ch) : p.toks = q.toks := by
  unfold parser.toks; rw [h1, h2, h3]

theorem posOK_congr {p q : parser} (h1 : p.re.expr = q.re.expr) (h2 : p.pos = q.pos)
    (h3 : p.ch = q.ch) (h : PosOK p) : PosOK q := by
  unfold PosOK at h ⊢; rw [← h1, ← h2, ← h3]; exact h

/-! ## The scan for the group-opening parentheses -/

theorem scan_append (a b : List Int) : scan (a ++ b) = b.foldl scanStep (scan a) := by
  unfold scan; rw [List.foldl_append]

theorem scan_snoc (a : List Int) (c : Int) : scan (a ++ [c]) = scanStep (scan a) c := by
  rw [scan_append]; rfl

theorem scan_plain {a : List Int} {n : Nat} (h : scan a = (n, .out)) {c : Int}
    (h1 : c ≠ 92) (h2 : c ≠ 91) (h3 : c ≠ 40) : scan (a ++ [c]) = (n, .out) := by
  rw [scan_snoc, h]
  simp [scanStep, h1, h2, h3]

theorem scan_lpar {a : List Int} {n : Nat} (h : scan a = (n, .out)) :
    scan (a ++ [40]) = (n + 1, .out) := by
  rw [scan_snoc, h]
  simp [scanStep]

theorem scan_esc {a : List Int} {n : Nat} (h : scan a = (n, .out)) (c : Int) :
    scan (a ++ [92, c]) = (n, .out) := by
  rw [scan_append, h]
  simp [scanStep]

theorem scan_charText {a t : List Int} {n : Nat} {c : Int} (h : scan a = (n, .out))
    (hc : CharText t c) : scan (a ++ t) = (n, .out) := by
  cases hc with
  | plain _ hs =>
    refine scan_plain h ?_ ?_ ?_ <;> intro h0 <;> apply hs <;> rw [h0] <;> decide
  | punct _ => exact scan_esc h _
  | escape _ => exact scan_esc h _

theorem scan_classChar {a t : List Int} {n : Nat} {c : Int} (h : scan a = (n, .cls))
    (hc : ClassChar t c) : scan (a ++ t) = (n, .cls) := by
  cases hc with
  | plain _ h1 _ h3 =>
    rw [scan_snoc, h]
    simp [scanStep, h1, h3]
  | punct _ =>
    rw [scan_append, h]
    simp [scanStep]
  | escape _ =>
    rw [scan_append, h]
    simp [scanStep]

theorem scan_ranges {t : List Int} {rs : List Int} (hr : RangesText t rs) :
    ∀ {a : List Int} {n : Nat}, scan a = (n, .cls) → scan (a ++ t) = (n, .cls) := by
  induction hr with
  | nil => intro a n h; simpa using h
  | single hc _ ih =>
    intro a n h
    rw [← List.append_assoc]
    exact ih (scan_classChar h hc)
  | @range t1 t2 rest _ _ _ hc1 hc2 _ _ ih =>
    intro a n h
    have h1 := scan_classChar h hc1
    have h2 : scan (a ++ t1 ++ [45]) = (n, .cls) := by
      rw [scan_snoc, h1]; simp [scanStep]
    have h3 := scan_classChar h2 hc2
    have := ih h3
    simpa [List.append_assoc] using this

theorem scan_class {a t : List Int} {n : Nat} {rs : List Int} (h : scan a = (n, .out))
    (hr : RangesText t rs) (neg : Bool) :
    scan (a ++ ((if neg then [91, 94] else [91]) ++ t ++ [93])) = (n, .out) := by
  have h1 : scan (a ++ (if neg then [91, 94] else [91])) = (n, .cls) := by
    cases neg
    · simp only [Bool.false_eq_true, if_false]
      rw [scan_snoc, h]; simp [scanStep]
    · simp only [if_true]
      rw [scan_append, h]; simp [scanStep]
  have h2 := scan_ranges hr h1
  have h3 : scan (a ++ (if neg then [91, 94] else [91]) ++ t ++ [93]) = (n, .out) := by
    rw [scan_snoc, h2]; simp [scanStep]
  simpa [List.append_assoc] using h3

end GoRegexp

namespace GoRegexp

/-! ## The runs of the parser follow the grammar -/

theorem nextc_congr {p q : parser} (h1 : p.re.expr = q.re.expr) (h2 : p.pos = q.pos) :
    p.nextc.re.expr = q.nextc.re.expr ∧ p.nextc.pos = q.nextc.pos ∧ p.nextc.ch = q.nextc.ch := by
  unfold parser.nextc
  rw [h1, h2]
  split <;> simp [h1]

theorem nextc_toks_congr {p q : parser} (h1 : p.re.expr = q.re.expr) (h2 : p.pos = q.pos) :
    p.nextc.toks = q.nextc.toks := by
  obtain ⟨a, b, c⟩ := nextc_congr h1 h2
  exact toks_congr a b c

theorem rpar_congr (p : parser) :
    p.rpar.re.expr = p.nextc.re.expr ∧ p.rpar.pos = p.nextc.pos ∧ p.rpar.ch = p.nextc.ch :=
  nextc_congr (p := ({ p with nlpar := p.nlpar - 1 } : parser)) (q := p) rfl rfl

theorem escaped_nonneg (n : Nat) : 0 ≤ escaped.getD n 0 := by
  unfold escaped
  rcases n with _ | _ | _ | _ | _ | _ | _ | n <;> simp

theorem not_special {c : Int} (h : c ∉ termSpecial) (h92 : c ≠ 92) : c ∉ specialRunes := by
  intro h0
  apply h
  simp only [specialRunes, List.mem_cons, List.mem_singleton, List.not_mem_nil, or_false] at h0
  simp only [termSpecial, List.mem_cons, List.mem_singleton, List.not_mem_nil, or_false]
  omega

/-- The runes parser.checkBackslash and the call of nextc after it go over. -/
theorem checkBackslash_text {p p1 : parser} {c : Int} (hne : p.ch ≠ endOfFile) (hok : PosOK p)
    (h : p.checkBackslash = .ok (p1, c)) :
    ∃ t, p.toks = t ++ p1.nextc.toks ∧ (p.c ∉ termSpecial → CharText t c) ∧
      (p.c ≠ 93 → p.c ≠ 45 → ClassChar t c) ∧ 0 ≤ c := by
  have h0 := hok.2 hne
  rcases checkBackslash_ok h with ⟨h92, hp1, hc⟩ | ⟨h92, hp1, hn, hc⟩
  · rw [hp1, hc]
    exact ⟨[p.ch], toks_nextc hne, fun hs => .plain h0 (not_special hs h92),
      fun h1 h2 => .plain h0 h1 h2 h92, h0⟩
  · rw [hp1]
    have h1 := (posOK_nextc p).2 hn
    have ht : p.toks = [92, p.nextc.ch] ++ p.nextc.nextc.toks := by
      rw [toks_c h92 (by decide), toks_nextc hn]; rfl
    rcases hc with ⟨hp, rfl⟩ | ⟨_, he, rfl⟩
    · exact ⟨_, ht, fun _ => .punct hp, fun _ _ => .punct hp, h1⟩
    · exact ⟨_, ht, fun _ => .escape he, fun _ _ => .escape he, escaped_nonneg _⟩

/-- The runes the loop of parser.charClass goes over are character ranges, and the ranges
it adds to the class are their bounds. -/
theorem classRun_text {p p2 : parser} {cc cc2 : charClass} {left : Int}
    (h : ClassRun p cc left p2 cc2) : PosOK p →
    PosOK p2 ∧ cc2.negate = cc.negate ∧
    (left < 0 → ∃ t rs, p.toks = t ++ p2.toks ∧ RangesText t rs ∧
      cc2.ranges = cc.ranges ++ rs) ∧
    (0 ≤ left → ∃ tc c t rs, ClassChar tc c ∧ left ≤ c ∧ p.toks = tc ++ t ++ p2.toks ∧
      RangesText t rs ∧ cc2.ranges = cc.ranges ++ left :: c :: rs) := by
  induction h with
  | @done p cc left _ hl =>
    intro hok
    exact ⟨hok, rfl, fun _ => ⟨[], [], rfl, .nil, by simp⟩, fun h0 => by omega⟩
  | @single p p1 cc left c p3 cc3 h1 h2 hb hl h45 hrun ih =>
    intro hok
    have hne : p.ch ≠ endOfFile := fun h => h1 (Or.inr h)
    obtain ⟨tc, ht, -, hcc, hc0⟩ := checkBackslash_text hne hok hb
    obtain ⟨hok3, hneg, ih1, -⟩ := ih (posOK_nextc _)
    refine ⟨hok3, hneg, fun _ => ?_, fun h0 => by omega⟩
    obtain ⟨t, rs, e1, e2, e3⟩ := ih1 hl
    refine ⟨tc ++ t, c :: c :: rs, by rw [ht, e1, List.append_assoc],
      .single (hcc (fun h => h1 (Or.inl h)) h2) e2, ?_⟩
    rw [e3]; simp [charClass.addRange]
  | @lower p p1 cc left c p3 cc3 h1 h2 hb hl h45 hrun ih =>
    intro hok
    have hne : p.ch ≠ endOfFile := fun h => h1 (Or.inr h)
    obtain ⟨tc, ht, -, hcc, hc0⟩ := checkBackslash_text hne hok hb
    obtain ⟨hok3, hneg, -, ih2⟩ := ih (posOK_nextc _)
    refine ⟨hok3, hneg, fun _ => ?_, fun h0 => by omega⟩
    obtain ⟨tc2, c2, t, rs, e0, ele, e1, e2, e3⟩ := ih2 hc0
    refine ⟨tc ++ [45] ++ tc2 ++ t, c :: c2 :: rs, ?_,
      .range (hcc (fun h => h1 (Or.inl h)) h2) e0 ele e2, e3⟩
    rw [ht, toks_c h45 (by decide), e1]
    simp
  | @upper p p1 cc left c p3 cc3 h1 h2 hb hl hle hrun ih =>
    intro hok
    have hne : p.ch ≠ endOfFile := fun h => h1 (Or.inr h)
    obtain ⟨tc, ht, -, hcc, hc0⟩ := checkBackslash_text hne hok hb
    obtain ⟨hok3, hneg, ih1, -⟩ := ih (posOK_nextc _)
    refine ⟨hok3, hneg, fun h0 => absurd h0 hl, fun _ => ?_⟩
    obtain ⟨t, rs, e1, e2, e3⟩ := ih1 (by omega)
    refine ⟨tc, c, t, rs, hcc (fun h => h1 (Or.inl h)) h2, hle,
      by rw [ht, e1, List.append_assoc], e2, ?_⟩
    rw [e3]; simp [charClass.addRange]

theorem posOK_withRe {p : parser} (h : PosOK p) (r : Regexp) (he : r.expr = p.re.expr) :
    PosOK ({ p with re := r } : parser) := by
  unfold PosOK at h ⊢
  simp only [he]
  exact h

/-- Every run of the parser reads runes derived from its nonterminal, and the number of the
parentheses opened so far is the number of group-opening parentheses it has gone past. -/
theorem parse_gram {nt : NT} {p p2 : parser} {r : Ast} {s e : Nat}
    (h : Parse nt p r p2 s e) : GramSpec nt p r p2 := by
  induction h with
  | @bot p h =>
    intro hok
    refine ⟨posOK_addI (posOK_nextc p) _, fun pre hs => ⟨[94], ?_, .bot, ?_⟩⟩
    · rw [toks_c h (by decide)]; rfl
    · simpa using scan_plain hs (c := 94) (by decide) (by decide) (by decide)
  | @eot p h =>
    intro hok
    refine ⟨posOK_addI (posOK_nextc p) _, fun pre hs => ⟨[36], ?_, .eot, ?_⟩⟩
    · rw [toks_c h (by decide)]; rfl
    · simpa using scan_plain hs (c := 36) (by decide) (by decide) (by decide)
  | @any p h =>
    intro hok
    refine ⟨posOK_addI (posOK_nextc p) _, fun pre hs => ⟨[46], ?_, .any, ?_⟩⟩
    · rw [toks_c h (by decide)]; rfl
    · simpa using scan_plain hs (c := 46) (by decide) (by decide) (by decide)
  | @char p p1 c h hb =>
    intro hok
    have hne : p.ch ≠ endOfFile := by
      intro h0; apply h; unfold parser.c; rw [h0]; decide
    obtain ⟨t, ht, hct, -, -⟩ := checkBackslash_text hne hok hb
    refine ⟨posOK_addI (posOK_nextc p1) _, fun pre hs => ⟨t, ?_, .char (hct h), ?_⟩⟩
    · rw [ht]; rfl
    · have := scan_charText hs (hct h)
      simpa [(checkBackslash_re hb).1] using this
  | @cls p p1 cc h hrun h93 =>
    intro hok
    have hre : p1.re = p.re := by simpa using hrun.re_eq.1
    have hst : PosOK (if p.nextc.c = 94 then p.nextc.nextc else p.nextc) := by
      split <;> exact posOK_nextc _
    obtain ⟨hok1, hneg, ht, -⟩ := classRun_text hrun hst
    obtain ⟨t, rs, e1, e2, e3⟩ := ht (by decide)
    simp only [newCharClass, List.nil_append] at e3 hneg
    have hfin : (p1.addI (classInstr cc)).nextc.toks = p1.nextc.toks :=
      nextc_toks_congr rfl rfl
    have hokf : PosOK (p1.addI (classInstr cc)).nextc := posOK_nextc _
    refine ⟨hokf, fun pre hs => ?_⟩
    rw [e3, hneg]
    by_cases h94 : p.nextc.c = 94
    · rw [if_pos h94] at e1
      refine ⟨[91, 94] ++ t ++ [93], ?_, ?_, ?_⟩
      · rw [hfin, toks_c h (by decide), toks_c h94 (by decide), e1, toks_c h93 (by decide)]
        simp
      · simpa [h94] using @Gram.clsNeg pre t rs e2
      · have := scan_class hs e2 true
        simpa [hre] using this
    · rw [if_neg h94] at e1
      refine ⟨[91] ++ t ++ [93], ?_, ?_, ?_⟩
      · rw [hfin, toks_c h (by decide), e1, toks_c h93 (by decide)]
        simp
      · have hhd : t.head? ≠ some 94 := by
          intro hh
          cases t with
          | nil => cases hh
          | cons a t2 =>
            simp only [List.head?_cons, Option.some.injEq] at hh
            subst hh
            have hne : p.nextc.ch ≠ endOfFile := by
              intro h0
              unfold parser.toks at e1
              rw [if_pos h0] at e1
              cases e1
            unfold parser.toks at e1
            rw [if_neg hne] at e1
            simp only [List.cons_append, List.cons.injEq] at e1
            exact h94 e1.1
        simpa [h94] using @Gram.cls pre t rs e2 hhd
      · have := scan_class hs e2 false
        simpa [hre] using this
  | @group p p2 r s e re1 re2 h hr hc h1 h2 ih =>
    intro hok
    have hlp : PosOK p.lpar := posOK_congr (p := p.nextc) (by simp)
      (by simp [parser.lpar]) (by simp [parser.lpar]) (posOK_nextc p)
    obtain ⟨hok2, ih2⟩ := ih hlp
    simp only [NT.acc, NT.gram, lpar_nbra] at ih2
    have hex : re2.expr = p2.re.expr := by
      rw [(setNext_nbra h2).2, (setNext_nbra h1).2]; simp
    have hnb : re2.nbra = p2.re.nbra := by
      rw [(setNext_nbra h2).1, (setNext_nbra h1).1]; simp
    have hfin : ({ p2.rpar with re := re2 } : parser).toks = p2.nextc.toks :=
      toks_congr (by simp [hex]) (rpar_congr p2).2.1 (rpar_congr p2).2.2
    have hokf : PosOK ({ p2.rpar with re := re2 } : parser) :=
      posOK_congr (p := p2.nextc) (by simp [hex]) (rpar_congr p2).2.1.symm
        (rpar_congr p2).2.2.symm (posOK_nextc p2)
    refine ⟨hokf, fun pre hs => ?_⟩
    obtain ⟨t, e1, e2, e3⟩ := ih2 (pre ++ [40]) (scan_lpar hs)
    have hlt : p.lpar.toks = p.nextc.toks :=
      toks_congr (by simp) (by simp [parser.lpar]) (by simp [parser.lpar])
    have hn : openParens pre + 1 = p.re.nbra + 1 := by
      unfold openParens; rw [hs]
    refine ⟨[40] ++ t ++ [41], ?_, ?_, ?_⟩
    · rw [hfin, toks_c h (by decide), ← hlt, e1, toks_c hc (by decide)]
      simp
    · have := Gram.group e2
      rw [hn] at this
      simpa using this
    · have := scan_plain e3 (c := 41) (by decide) (by decide) (by decide)
      simpa [hnb, List.append_assoc] using this
  | @plain p r p1 s e ht h1 h2 h3 ih =>
    intro hok
    obtain ⟨hok1, ih1⟩ := ih hok
    simp only [NT.acc, NT.gram] at ih1 ⊢
    refine ⟨hok1, fun pre hs => ?_⟩
    obtain ⟨t, e1, e2, e3⟩ := ih1 pre hs
    exact ⟨t, e1, .plain e2, e3⟩
  | @star p r p1 s e re1 re2 ht hc h1 h2 h3 ih =>
    intro hok
    obtain ⟨hok1, ih1⟩ := ih hok
    simp only [NT.acc, NT.gram] at ih1 ⊢
    have hex : re2.expr = p1.re.expr := by
      rw [(setLeft_nbra h2).2, (setNext_nbra h1).2]; simp
    have hnb : re2.nbra = p1.re.nbra := by
      rw [(setLeft_nbra h2).1, (setNext_nbra h1).1]; simp
    have hfin : ({ p1 with re := re2 } : parser).nextc.toks = p1.nextc.toks :=
      nextc_toks_congr (by simp [hex]) rfl
    refine ⟨posOK_nextc _, fun pre hs => ?_⟩
    obtain ⟨t, e1, e2, e3⟩ := ih1 pre hs
    refine ⟨t ++ [42], ?_, .star e2, ?_⟩
    · rw [hfin, e1, toks_c hc (by decide)]; simp
    · have := scan_plain e3 (c := 42) (by decide) (by decide) (by decide)
      simpa [hnb, List.append_assoc] using this
  | @plus p r p1 s e re1 re2 ht hc h1 h2 h3 ih =>
    intro hok
    obtain ⟨hok1, ih1⟩ := ih hok
    simp only [NT.acc, NT.gram] at ih1 ⊢
    have hex : re2.expr = p1.re.expr := by
      rw [(setLeft_nbra h2).2, (setNext_nbra h1).2]; simp
    have hnb : re2.nbra = p1.re.nbra := by
      rw [(setLeft_nbra h2).1, (setNext_nbra h1).1]; simp
    have hfin : ({ p1 with re := re2 } : parser).nextc.toks = p1.nextc.toks :=
      nextc_toks_congr (by simp [hex]) rfl
    refine ⟨posOK_nextc _, fun pre hs => ?_⟩
    obtain ⟨t, e1, e2, e3⟩ := ih1 pre hs
    refine ⟨t ++ [43], ?_, .plus e2, ?_⟩
    · rw [hfin, e1, toks_c hc (by decide)]; simp
    · have := scan_plain e3 (c := 43) (by decide) (by decide) (by decide)
      simpa [hnb, List.append_assoc] using this
  | @opt p r p1 s e re1 re2 re3 ht hc h1 h2 h3 h4 ih =>
    intro hok
    obtain ⟨hok1, ih1⟩ := ih hok
    simp only [NT.acc, NT.gram] at ih1 ⊢
    have hex : re3.expr = p1.re.expr := by
      rw [(setNext_nbra h3).2, (setNext_nbra h2).2, (setLeft_nbra h1).2]; simp
    have hnb : re3.nbra = p1.re.nbra := by
      rw [(setNext_nbra h3).1, (setNext_nbra h2).1, (setLeft_nbra h1).1]; simp
    have hfin : ({ p1 with re := re3 } : parser).nextc.toks = p1.nextc.toks :=
      nextc_toks_congr (by simp [hex]) rfl
    refine ⟨posOK_nextc _, fun pre hs => ?_⟩
    obtain ⟨t, e1, e2, e3⟩ := ih1 pre hs
    refine ⟨t ++ [63], ?_, .opt e2, ?_⟩
    · rw [hfin, e1, toks_c hc (by decide)]; simp
    · have := scan_plain e3 (c := 63) (by decide) (by decide) (by decide)
      simpa [hnb, List.append_assoc] using this
  | @emptyConcat p h =>
    intro hok
    exact ⟨posOK_addI hok _, fun pre hs => ⟨[], rfl, .empty, by simpa using hs⟩⟩
  | @first p c p1 s1 e1 r p2 s e hc hl ih1 ih2 =>
    intro hok
    obtain ⟨hok1, ih1⟩ := ih1 hok
    obtain ⟨hok2, ih2⟩ := ih2 hok1
    simp only [NT.acc, NT.gram] at ih1 ih2 ⊢
    refine ⟨hok2, fun pre hs => ?_⟩
    obtain ⟨t1, a1, a2, a3⟩ := ih1 pre hs
    obtain ⟨t2, b1, b2, b3⟩ := ih2 pre t1 (.one a2) a3
    exact ⟨t1 ++ t2, by rw [a1, b1, List.append_assoc], .seq b2,
      by rw [← List.append_assoc]; exact b3⟩
  | @last p a s e h =>
    intro hok
    simp only [NT.acc, NT.gram]
    exact ⟨hok, fun pre t0 hg hs => ⟨[], rfl, by simpa using hg, by simpa using hs⟩⟩
  | @next p a s e c p1 s1 e1 re1 r p2 s2 e2 hc h1 hl ih1 ih2 =>
    intro hok
    obtain ⟨hok1, ih1⟩ := ih1 hok
    have hex := (setNext_nbra h1).2
    have hnb := (setNext_nbra h1).1
    obtain ⟨hok2, ih2⟩ := ih2 (posOK_withRe hok1 re1 hex)
    simp only [NT.acc, NT.gram] at ih1 ih2 ⊢
    refine ⟨hok2, fun pre t0 hg hs => ?_⟩
    obtain ⟨t1, a1, a2, a3⟩ := ih1 (pre ++ t0) hs
    have ht : ({ p1 with re := re1 } : parser).toks = p1.toks := toks_congr hex rfl rfl
    obtain ⟨t2, b1, b2, b3⟩ := ih2 pre (t0 ++ t1) (.more hg a2)
      (by rw [hnb, ← List.append_assoc]; exact a3)
    exact ⟨t1 ++ t2, by rw [a1, ← ht, b1, List.append_assoc],
      by rw [← List.append_assoc]; exact b2,
      by rw [← List.append_assoc]; rw [← List.append_assoc] at b3; exact b3⟩
  | @regexp p c p1 s1 e1 r p2 s e hc hl ih1 ih2 =>
    intro hok
    obtain ⟨hok1, ih1⟩ := ih1 hok
    obtain ⟨hok2, ih2⟩ := ih2 hok1
    simp only [NT.acc, NT.gram] at ih1 ih2 ⊢
    refine ⟨hok2, fun pre hs => ?_⟩
    obtain ⟨t1, a1, a2, a3⟩ := ih1 pre hs
    obtain ⟨t2, b1, b2, b3⟩ := ih2 pre t1 (.single a2) a3
    exact ⟨t1 ++ t2, by rw [a1, b1, List.append_assoc], b2,
      by rw [← List.append_assoc]; exact b3⟩
  | @done p a s e h =>
    intro hok
    simp only [NT.acc, NT.gram]
    exact ⟨hok, fun pre t0 hg hs => ⟨[], rfl, by simpa using hg, by simpa using hs⟩⟩
  | @bar p a s e c p1 s1 e1 re1 re2 re3 re4 r p2 s2 e2 h hc h1 h2 h3 h4 hl ih1 ih2 =>
    intro hok
    obtain ⟨hok1, ih1⟩ := ih1 (posOK_nextc p)
    have hex : re4.expr = p1.re.expr := by
      rw [(setNext_nbra h4).2, (setNext_nbra h3).2]
      simp only [add_expr]
      rw [(setNext_nbra h2).2, (setLeft_nbra h1).2]; simp
    have hnb : re4.nbra = p1.re.nbra := by
      rw [(setNext_nbra h4).1, (setNext_nbra h3).1]
      simp only [add_nbra]
      rw [(setNext_nbra h2).1, (setLeft_nbra h1).1]; simp
    obtain ⟨hok2, ih2⟩ := ih2 (posOK_withRe hok1 re4 hex)
    simp only [NT.acc, NT.gram, nextc_re] at ih1 ih2 ⊢
    refine ⟨hok2, fun pre t0 hg hs => ?_⟩
    have hs1 := scan_plain hs (c := 124) (by decide) (by decide) (by decide)
    obtain ⟨t1, a1, a2, a3⟩ := ih1 (pre ++ t0 ++ [124]) hs1
    have ht : ({ p1 with re := re4 } : parser).toks = p1.toks := toks_congr hex rfl rfl
    obtain ⟨t2, b1, b2, b3⟩ := ih2 pre (t0 ++ [124] ++ t1) (.bar hg a2)
      (by rw [hnb]; simpa [List.append_assoc] using a3)
    refine ⟨[124] ++ t1 ++ t2, ?_, ?_, ?_⟩
    · rw [toks_c h (by decide), a1, ← ht, b1]; simp
    · simpa [List.append_assoc] using b2
    · simpa [List.append_assoc] using b3

end GoRegexp

namespace GoRegexp

/-! ## The numbers of the groups of a derivation -/

theorem scan_eq {a : List Int} (h : (scan a).2 = .out) : scan a = (openParens a, .out) :=
  Prod.ext rfl h

theorem gram_leaf {pre t : List Int} {r : Ast} (hs : scan (pre ++ t) = (openParens pre, .out))
    (hg : r.groups = []) (ho : r.outerLower) :
    (scan (pre ++ t)).2 = .out ∧ openParens pre ≤ openParens (pre ++ t) ∧
    r.groups = List.range' (openParens pre + 1) (openParens (pre ++ t) - openParens pre) ∧
    r.outerLower := by
  have e : openParens (pre ++ t) = openParens pre := by
    unfold openParens; rw [hs]; rfl
  rw [e]
  simp [hs, hg, ho]

theorem range_split (a b c : Nat) (h1 : a ≤ b) (h2 : b ≤ c) :
    List.range' (a + 1) (b - a) ++ List.range' (b + 1) (c - b) = List.range' (a + 1) (c - a) := by
  have := List.range'_append_1 (a + 1) (b - a) (c - b)
  rw [show a + 1 + (b - a) = b + 1 by omega, show c - b + (b - a) = c - a by omega] at this
  exact this

/-- In a derivation of the grammar the groups are numbered from left to right in the order
of their opening parentheses, and a group has a lower number than the groups in it. -/
theorem gram_groups {nt : GNT} {pre t : List Int} {r : Ast} (h : Gram nt pre t r) :
    (scan pre).2 = .out →
    (scan (pre ++ t)).2 = .out ∧ openParens pre ≤ openParens (pre ++ t) ∧
    r.groups = List.range' (openParens pre + 1) (openParens (pre ++ t) - openParens pre) ∧
    r.outerLower := by
  induction h with
  | @bot pre =>
    intro h0
    exact gram_leaf (scan_plain (scan_eq h0) (c := 94) (by decide) (by decide) (by decide))
      rfl trivial
  | @eot pre =>
    intro h0
    exact gram_leaf (scan_plain (scan_eq h0) (c := 36) (by decide) (by decide) (by decide))
      rfl trivial
  | @any pre =>
    intro h0
    exact gram_leaf (scan_plain (scan_eq h0) (c := 46) (by decide) (by decide) (by decide))
      rfl trivial
  | @char pre t c hc =>
    intro h0
    exact gram_leaf (scan_charText (scan_eq h0) hc) rfl trivial
  | @cls pre t rs hr =>
    intro h0
    have := scan_class (scan_eq h0) hr false
    simp only [Bool.false_eq_true, if_false] at this
    exact gram_leaf this rfl trivial
  | @clsNeg pre t rs hr =>
    intro h0
    have := scan_class (scan_eq h0) hr true
    simp only [if_true] at this
    exact gram_leaf this rfl trivial
  | @group pre t r _ ih =>
    intro h0
    have h1 := scan_lpar (scan_eq h0)
    obtain ⟨i1, i2, i3, i4⟩ := ih (by rw [h1])
    have h2 := scan_plain (scan_eq i1) (c := 41) (by decide) (by decide) (by decide)
    have e1 : openParens (pre ++ [40]) = openParens pre + 1 := by
      unfold openParens; rw [h1]; rfl
    have e2 : pre ++ ([40] ++ t ++ [41]) = pre ++ [40] ++ t ++ [41] := by simp
    have e3 : openParens (pre ++ [40] ++ t ++ [41]) = openParens (pre ++ [40] ++ t) := by
      unfold openParens; rw [h2]; rfl
    rw [e1] at i2 i3
    rw [e2]
    refine ⟨by rw [h2], by rw [e3]; omega, ?_, ?_, i4⟩
    · rw [e3]
      simp only [Ast.groups, i3]
      rw [show openParens (pre ++ [40] ++ t) - openParens pre =
        (openParens (pre ++ [40] ++ t) - (openParens pre + 1)) + 1 by omega, List.range'_succ]
    · intro j hj
      rw [i3, List.mem_range'_1] at hj
      omega
  | @plain pre t r _ ih => exact ih
  | @star pre t r _ ih =>
    intro h0
    obtain ⟨i1, i2, i3, i4⟩ := ih h0
    have h2 := scan_plain (scan_eq i1) (c := 42) (by decide) (by decide) (by decide)
    have e3 : openParens (pre ++ (t ++ [42])) = openParens (pre ++ t) := by
      unfold openParens; rw [← List.append_assoc, h2]; rfl
    rw [e3]
    exact ⟨by rw [← List.append_assoc, h2], i2, i3, i4⟩
  | @plus pre t r _ ih =>
    intro h0
    obtain ⟨i1, i2, i3, i4⟩ := ih h0
    have h2 := scan_plain (scan_eq i1) (c := 43) (by decide) (by decide) (by decide)
    have e3 : openParens (pre ++ (t ++ [43])) = openParens (pre ++ t) := by
      unfold openParens; rw [← List.append_assoc, h2]; rfl
    rw [e3]
    exact ⟨by rw [← List.append_assoc, h2], i2, i3, i4⟩
  | @opt pre t r _ ih =>
    intro h0
    obtain ⟨i1, i2, i3, i4⟩ := ih h0
    have h2 := scan_plain (scan_eq i1) (c := 63) (by decide) (by decide) (by decide)
    have e3 : openParens (pre ++ (t ++ [63])) = openParens (pre ++ t) := by
      unfold openParens; rw [← List.append_assoc, h2]; rfl
    rw [e3]
    exact ⟨by rw [← List.append_assoc, h2], i2, i3, i4⟩
  | @one pre t r _ ih => exact ih
  | @more pre t1 t2 r1 r2 _ _ ih1 ih2 =>
    intro h0
    obtain ⟨i1, i2, i3, i4⟩ := ih1 h0
    obtain ⟨j1, j2, j3, j4⟩ := ih2 i1
    rw [← List.append_assoc]
    refine ⟨j1, by omega, ?_, i4, j4⟩
    simp only [Ast.groups, i3, j3]
    exact range_split _ _ _ i2 j2
  | @empty pre =>
    intro h0
    exact gram_leaf (by simpa using scan_eq h0) rfl trivial
  | @seq pre t r _ ih => exact ih
  | @single pre t r _ ih => exact ih
  | @bar pre t1 t2 r1 r2 _ _ ih1 ih2 =>
    intro h0
    obtain ⟨i1, i2, i3, i4⟩ := ih1 h0
    have h2 := scan_plain (scan_eq i1) (c := 124) (by decide) (by decide) (by decide)
    have e1 : openParens (pre ++ t1 ++ [124]) = openParens (pre ++ t1) := by
      unfold openParens; rw [h2]; rfl
    obtain ⟨j1, j2, j3, j4⟩ := ih2 (by rw [h2])
    rw [e1] at j2 j3
    have e2 : pre ++ (t1 ++ [124] ++ t2) = pre ++ t1 ++ [124] ++ t2 := by simp
    rw [e2]
    refine ⟨j1, by omega, ?_, i4, j4⟩
    simp only [Ast.groups, i3, j3]
    exact range_split _ _ _ i2 j2

/-! ## The pattern of a compiled program -/

theorem startParser_toks (pat : List Nat) : (startParser pat).toks = runes pat := by
  have h1 : (startParser pat).toks =
      (parser.nextc ⟨{ expr := pat }, 0, 0, 0⟩).toks :=
    toks_congr rfl rfl rfl
  have h2 := toks_nextc (p := ⟨{ expr := pat }, 0, 0, 0⟩) (by simp [endOfFile])
  have h3 : (⟨{ expr := pat }, 0, 0, 0⟩ : parser).toks = 0 :: runes pat := by
    simp [parser.toks, endOfFile]
  rw [h3] at h2
  rw [h1]
  exact (List.cons.inj h2).2.symm

theorem startParser_posOK (pat : List Nat) : PosOK (startParser pat) :=
  posOK_congr (p := parser.nextc ⟨{ expr := pat }, 0, 0, 0⟩) rfl rfl rfl (posOK_nextc _)

/-- A pattern that compiles is derived from the grammar, with the tree the parser reads, and
the number of its group-opening parentheses is the number of groups of the program. -/
theorem Compile_gram {pat : List Nat} {re : Regexp} (h : Compile pat = .ok re) :
    ∃ r q1 s e, Parse .regexp (startParser pat) r q1 s e ∧ Gram .regexp [] (runes pat) r ∧
      openParens (runes pat) = re.nbra := by
  obtain ⟨r, q1, s, e, hp⟩ := Compile_ok_parse h
  refine ⟨r, q1, s, e, hp, ?_⟩
  obtain ⟨-, hg⟩ := parse_gram hp (startParser_posOK pat)
  simp only [NT.acc, NT.gram] at hg
  obtain ⟨t, e1, e2, e3⟩ := hg [] (by simp [scan, startParser, newParser])
  have hend := hp.top_eof (startParser_nlpar pat)
  rw [startParser_toks, toks_eof hend, List.append_nil] at e1
  rw [Compile_parse hp] at h
  obtain ⟨-, hnb, -⟩ := finish_elim h
  rw [e1]
  refine ⟨e2, ?_⟩
  unfold openParens
  simp only [List.nil_append] at e3
  rw [e3, hnb]

/-! ## The language without the match vector -/

theorem lang_of_langV {b : List Nat} {r : Ast} {p q : Nat} {m m1 : List Int}
    (h : LangV b r p m q m1) : Lang b r p q := by
  induction h with
  | bot => exact .bot
  | eot => exact .eot
  | any h1 => exact .any h1
  | char h1 h2 => exact .char h1 h2
  | cls h1 h2 => exact .cls h1 h2
  | group _ ih => exact .group ih
  | starNil => exact .starNil
  | starCons _ _ ih1 ih2 => exact .starCons ih1 ih2
  | plus _ _ ih1 ih2 => exact .plus ih1 ih2
  | optNil => exact .optNil
  | optSome _ ih => exact .optSome ih
  | empty => exact .empty
  | cat _ _ ih1 ih2 => exact .cat ih1 ih2
  | altLeft _ ih => exact .altLeft ih
  | altRight _ ih => exact .altRight ih

theorem langV_of_lang {b : List Nat} {r : Ast} {p q : Nat} (h : Lang b r p q) :
    ∀ m, ∃ m1, LangV b r p m q m1 := by
  induction h with
  | bot => exact fun m => ⟨m, .bot⟩
  | eot => exact fun m => ⟨m, .eot⟩
  | any h1 => exact fun m => ⟨m, .any h1⟩
  | char h1 h2 => exact fun m => ⟨m, .char h1 h2⟩
  | cls h1 h2 => exact fun m => ⟨m, .cls h1 h2⟩
  | group _ ih =>
    intro m
    obtain ⟨m1, h1⟩ := ih _
    exact ⟨_, .group h1⟩
  | starNil => exact fun m => ⟨m, .starNil⟩
  | starCons _ _ ih1 ih2 =>
    intro m
    obtain ⟨m1, h1⟩ := ih1 m
    obtain ⟨m2, h2⟩ := ih2 m1
    exact ⟨m2, .starCons h1 h2⟩
  | plus _ _ ih1 ih2 =>
    intro m
    obtain ⟨m1, h1⟩ := ih1 m
    obtain ⟨m2, h2⟩ := ih2 m1
    exact ⟨m2, .plus h1 h2⟩
  | optNil => exact fun m => ⟨m, .optNil⟩
  | optSome _ ih =>
    intro m
    obtain ⟨m1, h1⟩ := ih m
    exact ⟨m1, .optSome h1⟩
  | empty => exact fun m => ⟨m, .empty⟩
  | cat _ _ ih1 ih2 =>
    intro m
    obtain ⟨m1, h1⟩ := ih1 m
    obtain ⟨m2, h2⟩ := ih2 m1
    exact ⟨m2, .cat h1 h2⟩
  | altLeft _ ih =>
    intro m
    obtain ⟨m1, h1⟩ := ih m
    exact ⟨m1, .altLeft h1⟩
  | altRight _ ih =>
    intro m
    obtain ⟨m1, h1⟩ := ih m
    exact ⟨m1, .altRight h1⟩

/-- The spans the program of a pattern accepts are those of the language of the tree the
parser reads. -/
theorem Compile_accepts {pat : List Nat} {re : Regexp} {r : Ast} {q1 : parser} {s e : Nat}
    (h : Compile pat = .ok re) (hp : Parse .regexp (startParser pat) r q1 s e)
    (b : List Nat) (p q : Nat) : Accepts re b p q ↔ Lang b r p q := by
  constructor
  · rintro ⟨tr, m, hv⟩
    obtain ⟨m1, h1, -⟩ := (Compile_semantics h hp b p q m).1 ⟨tr, hv⟩
    exact lang_of_langV h1
  · intro hl
    obtain ⟨m1, h1⟩ := langV_of_lang hl (seedVec re p)
    obtain ⟨tr, hv⟩ := (Compile_semantics h hp b p q _).2 ⟨m1, h1, rfl⟩
    exact ⟨tr, _, hv⟩

end GoRegexp

namespace GoRegexp

/-! ## The grammar is unambiguous -/

theorem punct_not_escape : ∀ c ∈ punctRunes, escape c < 0 := by decide

theorem ispunct_escape {c : Int} (h : ispunct c = true) (h2 : 0 ≤ escape c) : False := by
  unfold ispunct at h
  have := punct_not_escape c (by simpa using h)
  omega

theorem starts_of_plain {c : Int} (h : c ∉ specialRunes) : Starts c := by
  unfold specialRunes at h
  simp only [List.mem_cons, List.mem_singleton, List.not_mem_nil, or_false, not_or] at h
  unfold Starts
  omega

theorem charText_head {t : List Int} {c : Int} (h : CharText t c) :
    ∃ d rest, t = d :: rest ∧ Starts d ∧ d ≠ 94 ∧ d ≠ 36 ∧ d ≠ 46 ∧ d ≠ 91 ∧ d ≠ 40 := by
  cases h with
  | plain h0 hs =>
    refine ⟨_, _, rfl, starts_of_plain hs, ?_⟩
    unfold specialRunes at hs
    simp only [List.mem_cons, List.mem_singleton, List.not_mem_nil, or_false, not_or] at hs
    omega
  | punct _ => exact ⟨92, _, rfl, by unfold Starts; decide, by decide⟩
  | escape _ => exact ⟨92, _, rfl, by unfold Starts; decide, by decide⟩

/-- The runes of a character at the start of a text, and the rune it stands for, are
determined by the text. -/
theorem charText_det {t t2 u u2 : List Int} {c c2 : Int} (h1 : CharText t c)
    (h2 : CharText t2 c2) (e : t ++ u = t2 ++ u2) : t = t2 ∧ c = c2 := by
  cases h1 with
  | plain h0 hs =>
    cases h2 with
    | plain _ _ =>
      simp only [List.singleton_append, List.cons.injEq] at e
      rw [e.1]
      exact ⟨rfl, rfl⟩
    | punct _ =>
      simp only [List.singleton_append, List.cons_append, List.cons.injEq] at e
      rw [e.1] at hs
      exact absurd (by decide) hs
    | escape _ =>
      simp only [List.singleton_append, List.cons_append, List.cons.injEq] at e
      rw [e.1] at hs
      exact absurd (by decide) hs
  | punct hp =>
    cases h2 with
    | plain _ hs =>
      simp only [List.singleton_append, List.cons_append, List.cons.injEq] at e
      rw [← e.1] at hs
      exact absurd (by decide) hs
    | punct _ =>
      simp only [List.cons_append, List.cons.injEq, true_and] at e
      rw [e.1]
      exact ⟨rfl, rfl⟩
    | escape he =>
      simp only [List.cons_append, List.cons.injEq, true_and] at e
      rw [e.1] at hp
      exact (ispunct_escape hp he).elim
  | escape he =>
    cases h2 with
    | plain _ hs =>
      simp only [List.singleton_append, List.cons_append, List.cons.injEq] at e
      rw [← e.1] at hs
      exact absurd (by decide) hs
    | punct hp =>
      simp only [List.cons_append, List.cons.injEq, true_and] at e
      rw [← e.1] at hp
      exact (ispunct_escape hp he).elim
    | escape _ =>
      simp only [List.cons_append, List.cons.injEq, true_and] at e
      rw [e.1]
      exact ⟨rfl, rfl⟩

theorem classChar_head {t : List Int} {c : Int} (h : ClassChar t c) :
    ∃ d rest, t = d :: rest ∧ d ≠ 93 ∧ d ≠ 45 := by
  cases h with
  | plain h0 h1 h2 h3 => exact ⟨_, _, rfl, h1, h2⟩
  | punct _ => exact ⟨92, _, rfl, by decide, by decide⟩
  | escape _ => exact ⟨92, _, rfl, by decide, by decide⟩

/-- The runes of a character of a class at the start of a text, and the rune it stands for,
are determined by the text. -/
theorem classChar_det {t t2 u u2 : List Int} {c c2 : Int} (h1 : ClassChar t c)
    (h2 : ClassChar t2 c2) (e : t ++ u = t2 ++ u2) : t = t2 ∧ c = c2 := by
  cases h1 with
  | plain h0 ha hb hc =>
    cases h2 with
    | plain _ _ _ _ =>
      simp only [List.singleton_append, List.cons.injEq] at e
      rw [e.1]
      exact ⟨rfl, rfl⟩
    | punct _ =>
      simp only [List.singleton_append, List.cons_append, List.cons.injEq] at e
      exact absurd e.1 hc
    | escape _ =>
      simp only [List.singleton_append, List.cons_append, List.cons.injEq] at e
      exact absurd e.1 hc
  | punct hp =>
    cases h2 with
    | plain _ _ _ hc =>
      simp only [List.singleton_append, List.cons_append, List.cons.injEq] at e
      exact absurd e.1.symm hc
    | punct _ =>
      simp only [List.cons_append, List.cons.injEq, true_and] at e
      rw [e.1]
      exact ⟨rfl, rfl⟩
    | escape he =>
      simp only [List.cons_append, List.cons.injEq, true_and] at e
      rw [e.1] at hp
      exact (ispunct_escape hp he).elim
  | escape he =>
    cases h2 with
    | plain _ _ _ hc =>
      simp only [List.singleton_append, List.cons_append, List.cons.injEq] at e
      exact absurd e.1.symm hc
    | punct hp =>
      simp only [List.cons_append, List.cons.injEq, true_and] at e
      rw [← e.1] at hp
      exact (ispunct_escape hp he).elim
    | escape _ =>
      simp only [List.cons_append, List.cons.injEq, true_and] at e
      rw [e.1]
      exact ⟨rfl, rfl⟩

theorem rangesText_head {t rs : List Int} (h : RangesText t rs) :
    t = [] ∨ ∃ d rest, t = d :: rest ∧ d ≠ 93 ∧ d ≠ 45 := by
  cases h with
  | nil => exact Or.inl rfl
  | single hc _ =>
    obtain ⟨d, rest, e, h1, h2⟩ := classChar_head hc
    exact Or.inr ⟨d, _, by rw [e]; rfl, h1, h2⟩
  | range hc _ _ _ =>
    obtain ⟨d, rest, e, h1, h2⟩ := classChar_head hc
    exact Or.inr ⟨d, _, by rw [e]; rfl, h1, h2⟩

/-- The head of the runes that follow the ranges of a class, when the closing bracket or a
hyphen stands there. -/
theorem rangesText_stop {t rs : List Int} (h : RangesText t rs) {c : Int} {u v : List Int}
    (e : t ++ u = c :: v) (hc : c = 93 ∨ c = 45) : t = [] := by
  rcases rangesText_head h with h0 | ⟨d, rest, e1, h1, h2⟩
  · exact h0
  · rw [e1] at e
    simp only [List.cons_append, List.cons.injEq] at e
    rcases hc with hc | hc
    · exact absurd (e.1.trans hc) h1
    · exact absurd (e.1.trans hc) h2

theorem rangesText_nil {t rs : List Int} (h : RangesText t rs) (e : t = []) : rs = [] := by
  cases h with
  | nil => rfl
  | single hc _ =>
    obtain ⟨d, rest, e1, -, -⟩ := classChar_head hc
    rw [e1] at e
    cases e
  | range hc _ _ _ =>
    obtain ⟨d, rest, e1, -, -⟩ := classChar_head hc
    rw [e1] at e
    cases e

/-- The ranges of a class, up to the closing bracket, are determined by the text. -/
theorem rangesText_det {t rs : List Int} (h1 : RangesText t rs) :
    ∀ {t2 rs2 u u2 : List Int}, RangesText t2 rs2 → t ++ 93 :: u = t2 ++ 93 :: u2 →
      t = t2 ∧ rs = rs2 := by
  induction h1 with
  | nil =>
    intro t2 rs2 u u2 h2 e
    have h0 := rangesText_stop h2 e.symm (Or.inl rfl)
    exact ⟨h0.symm, (rangesText_nil h2 h0).symm⟩
  | @single t rest c rs hc hr ih =>
    intro t2 rs2 u u2 h2 e
    cases h2 with
    | nil =>
      obtain ⟨d, rest2, e1, h93, -⟩ := classChar_head hc
      rw [e1] at e
      simp only [List.cons_append, List.nil_append, List.cons.injEq] at e
      exact absurd e.1 h93
    | @single t3 rest3 c3 rs3 hc3 hr3 =>
      rw [List.append_assoc, List.append_assoc] at e
      obtain ⟨e1, e2⟩ := classChar_det hc hc3 e
      subst e1
      subst e2
      obtain ⟨e3, e4⟩ := ih hr3 (List.append_cancel_left e)
      rw [e3, e4]
      exact ⟨rfl, rfl⟩
    | @range t3 t4 rest3 a3 b3 rs3 hc3 hc4 hle hr3 =>
      simp only [List.append_assoc] at e
      obtain ⟨e1, e2⟩ := classChar_det hc hc3 e
      subst e1
      have e5 := List.append_cancel_left e
      have h0 := rangesText_stop hr e5 (Or.inr rfl)
      subst h0
      simp at e5
  | @range t1 t2 rest a b rs hc1 hc2 hle hr ih =>
    intro t5 rs5 u u2 h2 e
    cases h2 with
    | nil =>
      obtain ⟨d, rest2, e1, h93, -⟩ := classChar_head hc1
      rw [e1] at e
      simp only [List.cons_append, List.nil_append, List.cons.injEq, List.append_assoc] at e
      exact absurd e.1 h93
    | @single t3 rest3 c3 rs3 hc3 hr3 =>
      simp only [List.append_assoc] at e
      obtain ⟨e1, e2⟩ := classChar_det hc1 hc3 e
      subst e1
      have e5 := List.append_cancel_left e
      have h0 := rangesText_stop hr3 e5.symm (Or.inr rfl)
      subst h0
      simp at e5
    | @range t3 t4 rest3 a3 b3 rs3 hc3 hc4 hle3 hr3 =>
      simp only [List.append_assoc] at e
      obtain ⟨e1, e2⟩ := classChar_det hc1 hc3 e
      subst e1
      subst e2
      have e5 := List.append_cancel_left e
      simp only [List.singleton_append, List.cons.injEq, true_and] at e5
      obtain ⟨e6, e7⟩ := classChar_det hc2 hc4 e5
      subst e6
      subst e7
      obtain ⟨e3, e4⟩ := ih hr3 (List.append_cancel_left e5)
      rw [e3, e4]
      exact ⟨rfl, rfl⟩

/-! ### The first rune of a term -/

theorem gram_head {nt : GNT} {pre t : List Int} {r : Ast} (h : Gram nt pre t r) :
    (nt = .term ∨ nt = .closure ∨ nt = .seq) → ∃ c rest, t = c :: rest ∧ Starts c := by
  induction h with
  | bot => intro _; exact ⟨94, [], rfl, by unfold Starts; decide⟩
  | eot => intro _; exact ⟨36, [], rfl, by unfold Starts; decide⟩
  | any => intro _; exact ⟨46, [], rfl, by unfold Starts; decide⟩
  | char hc =>
    intro _
    obtain ⟨d, rest, e, hs, -⟩ := charText_head hc
    exact ⟨d, rest, e, hs⟩
  | cls _ _ => intro _; exact ⟨91, _, rfl, by unfold Starts; decide⟩
  | clsNeg _ => intro _; exact ⟨91, _, rfl, by unfold Starts; decide⟩
  | group _ _ => intro _; exact ⟨40, _, rfl, by unfold Starts; decide⟩
  | plain _ ih => intro _; exact ih (Or.inl rfl)
  | star _ ih =>
    intro _
    obtain ⟨c, rest, e, hs⟩ := ih (Or.inl rfl)
    exact ⟨c, rest ++ [42], by rw [e]; rfl, hs⟩
  | plus _ ih =>
    intro _
    obtain ⟨c, rest, e, hs⟩ := ih (Or.inl rfl)
    exact ⟨c, rest ++ [43], by rw [e]; rfl, hs⟩
  | opt _ ih =>
    intro _
    obtain ⟨c, rest, e, hs⟩ := ih (Or.inl rfl)
    exact ⟨c, rest ++ [63], by rw [e]; rfl, hs⟩
  | one _ ih => intro _; exact ih (Or.inr (Or.inl rfl))
  | @more pre t1 t2 r1 r2 _ _ ih1 _ =>
    intro _
    obtain ⟨c, rest, e, hs⟩ := ih1 (Or.inr (Or.inr rfl))
    exact ⟨c, rest ++ t2, by rw [e]; rfl, hs⟩
  | empty => intro h; rcases h with h | h | h <;> cases h
  | seq _ _ => intro h; rcases h with h | h | h <;> cases h
  | single _ _ => intro h; rcases h with h | h | h <;> cases h
  | bar _ _ _ _ => intro h; rcases h with h | h | h <;> cases h

/-- A text that begins with a term does not begin with the bar or a closing parenthesis. -/
theorem starts_stop {c : Int} {rest u : List Int} (hs : Starts c)
    (hu : ∀ d, (c :: rest ++ u).head? = some d → d = 124 ∨ d = 41) : False := by
  have := hu c rfl
  unfold Starts at hs
  omega

/-! ### Concatenations and alternations from the left -/

theorem seqTail_snoc {pre t : List Int} {a r : Ast} (h : SeqTail pre a t r) :
    ∀ {t2 : List Int} {r2 : Ast}, Gram .closure (pre ++ t) t2 r2 →
      SeqTail pre a (t ++ t2) (.cat r r2) := by
  induction h with
  | @nil pre a =>
    intro t2 r2 hc
    rw [List.append_nil] at hc
    have := SeqTail.cons (a := a) hc SeqTail.nil
    rw [List.append_nil] at this
    exact this
  | cons hc ht ih =>
    intro t3 r3 hc3
    rw [← List.append_assoc] at hc3
    have := SeqTail.cons hc (ih hc3)
    rw [← List.append_assoc] at this
    exact this

/-- A concatenation of one closure or more is its first closure and the closures that
follow. -/
theorem seq_split {nt : GNT} {pre t : List Int} {r : Ast} (h : Gram nt pre t r) :
    nt = .seq → ∃ t1 r1 rest, Gram .closure pre t1 r1 ∧ SeqTail (pre ++ t1) r1 rest r ∧
      t = t1 ++ rest := by
  induction h with
  | one hc _ => intro _; exact ⟨_, _, [], hc, .nil, (List.append_nil _).symm⟩
  | @more pre t1 t2 r1 r2 hs hc ih1 _ =>
    intro _
    obtain ⟨c1, rc1, rest, g1, g2, g3⟩ := ih1 rfl
    subst g3
    rw [← List.append_assoc] at hc
    exact ⟨c1, rc1, rest ++ t2, g1, seqTail_snoc g2 hc, List.append_assoc _ _ _⟩
  | _ => intro h; cases h

theorem barTail_snoc {pre t : List Int} {a r : Ast} (h : BarTail pre a t r) :
    ∀ {t2 : List Int} {r2 : Ast}, Gram .concat (pre ++ t ++ [124]) t2 r2 →
      BarTail pre a (t ++ [124] ++ t2) (.alt r r2) := by
  induction h with
  | @nil pre a =>
    intro t2 r2 hc
    rw [List.append_nil] at hc
    have := BarTail.cons (a := a) hc BarTail.nil
    rw [List.append_nil] at this
    exact this
  | cons hc ht ih =>
    intro t3 r3 hc3
    simp only [← List.append_assoc] at hc3
    have := BarTail.cons hc (ih hc3)
    simp only [← List.append_assoc] at this ⊢
    exact this

/-- A regexp is its first concatenation and the alternatives that follow. -/
theorem bar_split {nt : GNT} {pre t : List Int} {r : Ast} (h : Gram nt pre t r) :
    nt = .regexp → ∃ t1 r1 rest, Gram .concat pre t1 r1 ∧ BarTail (pre ++ t1) r1 rest r ∧
      t = t1 ++ rest := by
  induction h with
  | single hc _ => intro _; exact ⟨_, _, [], hc, .nil, (List.append_nil _).symm⟩
  | @bar pre t1 t2 r1 r2 hs hc ih1 _ =>
    intro _
    obtain ⟨c1, rc1, rest, g1, g2, g3⟩ := ih1 rfl
    subst g3
    simp only [← List.append_assoc] at hc
    exact ⟨c1, rc1, rest ++ [124] ++ t2, g1, barTail_snoc g2 hc, by
      simp only [List.append_assoc]⟩
  | _ => intro h; cases h

/-! ### The runes derived from a nonterminal are determined by the text -/

theorem char_stop {t u v : List Int} {c d : Int} (h : CharText t c) (e : t ++ u = d :: v)
    (hd : d = 94 ∨ d = 36 ∨ d = 46 ∨ d = 91 ∨ d = 40) : False := by
  obtain ⟨x, rest, e1, -, h1, h2, h3, h4, h5⟩ := charText_head h
  rw [e1] at e
  simp only [List.cons_append, List.cons.injEq] at e
  omega

theorem det_term (n : Nat) (ih : ∀ m, m < n → DetUpTo m .regexp) : DetUpTo n .term := by
  intro pre t t2 u u2 r r2 h1 h2 e hl _ _
  cases h1 with
  | bot =>
    cases h2 with
    | bot => exact ⟨rfl, rfl⟩
    | char hc => exact (char_stop hc e.symm (by simp)).elim
    | _ => simp at e
  | eot =>
    cases h2 with
    | eot => exact ⟨rfl, rfl⟩
    | char hc => exact (char_stop hc e.symm (by simp)).elim
    | _ => simp at e
  | any =>
    cases h2 with
    | any => exact ⟨rfl, rfl⟩
    | char hc => exact (char_stop hc e.symm (by simp)).elim
    | _ => simp at e
  | char hc =>
    cases h2 with
    | char hc2 =>
      obtain ⟨e1, e2⟩ := charText_det hc hc2 e
      subst e1
      subst e2
      exact ⟨rfl, rfl⟩
    | _ => exact (char_stop hc e (by simp)).elim
  | @cls _ t rs hr hh =>
    cases h2 with
    | cls hr2 _ =>
      simp only [List.append_assoc, List.singleton_append, List.cons_append, List.cons.injEq,
        true_and] at e
      obtain ⟨e1, e2⟩ := rangesText_det hr hr2 e
      subst e1
      subst e2
      exact ⟨rfl, rfl⟩
    | clsNeg hr2 =>
      simp only [List.append_assoc, List.singleton_append, List.cons_append, List.nil_append,
        List.cons.injEq, true_and] at e
      exfalso
      cases t with
      | nil => simp at e
      | cons a tl =>
        simp only [List.cons_append, List.cons.injEq] at e
        apply hh
        rw [e.1]
        rfl
    | char hc => exact (char_stop hc e.symm (by simp)).elim
    | _ => simp at e
  | @clsNeg _ t rs hr =>
    cases h2 with
    | @cls _ t3 rs3 hr2 hh =>
      simp only [List.append_assoc, List.singleton_append, List.cons_append, List.nil_append,
        List.cons.injEq, true_and] at e
      exfalso
      cases t3 with
      | nil => simp at e
      | cons a tl =>
        simp only [List.cons_append, List.cons.injEq] at e
        apply hh
        rw [← e.1]
        rfl
    | clsNeg hr2 =>
      simp only [List.append_assoc, List.singleton_append, List.cons_append, List.nil_append,
        List.cons.injEq, true_and] at e
      obtain ⟨e1, e2⟩ := rangesText_det hr hr2 e
      subst e1
      subst e2
      exact ⟨rfl, rfl⟩
    | char hc => exact (char_stop hc e.symm (by simp)).elim
    | _ => simp at e
  | @group _ ti ri hg =>
    cases h2 with
    | @group _ ti2 ri2 hg2 =>
      simp only [List.append_assoc, List.singleton_append, List.cons_append, List.cons.injEq,
        true_and] at e
      have hlen : (ti ++ 41 :: u).length < n := by
        simp only [List.length_append, List.length_cons, List.length_nil] at hl ⊢
        omega
      obtain ⟨e1, e2⟩ := ih _ hlen (pre ++ [40]) ti ti2 (41 :: u) (41 :: u2) ri ri2 hg hg2 e
        (le_refl _) (fun c hc => (Option.some.inj hc).symm)
        (fun c hc => (Option.some.inj hc).symm)
      subst e1
      subst e2
      exact ⟨rfl, rfl⟩
    | char hc => exact (char_stop hc e.symm (by simp)).elim
    | _ => simp at e

/-- A closure is a term and the quantifier after it, if there is one. -/
theorem closure_split {pre t : List Int} {r : Ast} (h : Gram .closure pre t r) :
    ∃ t0 r0 q, Gram .term pre t0 r0 ∧ t = t0 ++ q ∧
      ((q = [] ∧ r = r0) ∨ (q = [42] ∧ r = .star r0) ∨ (q = [43] ∧ r = .plus r0) ∨
        (q = [63] ∧ r = .opt r0)) := by
  cases h with
  | plain h => exact ⟨_, _, [], h, (List.append_nil _).symm, Or.inl ⟨rfl, rfl⟩⟩
  | star h => exact ⟨_, _, [42], h, rfl, Or.inr (Or.inl ⟨rfl, rfl⟩)⟩
  | plus h => exact ⟨_, _, [43], h, rfl, Or.inr (Or.inr (Or.inl ⟨rfl, rfl⟩))⟩
  | opt h => exact ⟨_, _, [63], h, rfl, Or.inr (Or.inr (Or.inr ⟨rfl, rfl⟩))⟩

theorem det_closure (n : Nat) (ih : DetUpTo n .term) : DetUpTo n .closure := by
  intro pre t t2 u u2 r r2 h1 h2 e hl hu hu2
  obtain ⟨t0, r0, q, g1, g2, g3⟩ := closure_split h1
  obtain ⟨t3, r3, q3, k1, k2, k3⟩ := closure_split h2
  subst g2
  subst k2
  rw [List.append_assoc, List.append_assoc] at e
  obtain ⟨e1, e2⟩ := ih pre t0 t3 (q ++ u) (q3 ++ u2) r0 r3 g1 k1 e
    (by rw [← List.append_assoc]; exact hl) trivial trivial
  subst e1
  subst e2
  have e3 := List.append_cancel_left e
  rcases g3 with ⟨rfl, rfl⟩ | ⟨rfl, rfl⟩ | ⟨rfl, rfl⟩ | ⟨rfl, rfl⟩ <;>
  rcases k3 with ⟨rfl, rfl⟩ | ⟨rfl, rfl⟩ | ⟨rfl, rfl⟩ | ⟨rfl, rfl⟩ <;>
  first
    | exact ⟨rfl, rfl⟩
    | (exfalso
       simp only [List.nil_append, List.singleton_append] at e3
       subst e3
       have := hu _ rfl
       simp at this)
    | (exfalso
       simp only [List.nil_append, List.singleton_append] at e3
       subst e3
       have := hu2 _ rfl
       simp at this)
    | (exfalso
       simp at e3)

theorem follow_seqTail {pre rest : List Int} {a r : Ast} (h : SeqTail pre a rest r)
    {u : List Int} (hu : Follow .seq u) : Follow .closure (rest ++ u) := by
  intro c hc
  cases h with
  | nil =>
    rcases hu c hc with rfl | rfl <;> decide
  | cons hg _ =>
    obtain ⟨d, tl, e, hs⟩ := gram_head hg (Or.inr (Or.inl rfl))
    rw [e] at hc
    simp only [List.cons_append, List.head?_cons, Option.some.injEq] at hc
    subst hc
    unfold Starts at hs
    exact ⟨hs.1, hs.2.1, hs.2.2.1⟩

theorem seqTail_det {n : Nat} (ih : DetUpTo n .closure) {pre t : List Int} {a r : Ast}
    (h1 : SeqTail pre a t r) :
    ∀ {t2 u u2 : List Int} {r2 : Ast}, SeqTail pre a t2 r2 → t ++ u = t2 ++ u2 →
      (t ++ u).length ≤ n → Follow .seq u → Follow .seq u2 → t = t2 ∧ r = r2 := by
  induction h1 with
  | nil =>
    intro t2 u u2 r2 h2 e hl hu hu2
    cases h2 with
    | nil => exact ⟨rfl, rfl⟩
    | cons hc ht =>
      exfalso
      obtain ⟨d, tl, e1, hs⟩ := gram_head hc (Or.inr (Or.inl rfl))
      rw [e1] at e
      simp only [List.nil_append, List.cons_append] at e
      rw [e] at hu
      exact @starts_stop _ [] _ hs (fun x hx => hu x hx)
  | @cons pre t rest a rc r hc ht ihT =>
    intro t2 u u2 r2 h2 e hl hu hu2
    cases h2 with
    | nil =>
      exfalso
      obtain ⟨d, tl, e1, hs⟩ := gram_head hc (Or.inr (Or.inl rfl))
      rw [e1] at e
      simp only [List.nil_append, List.cons_append] at e
      rw [← e] at hu2
      exact @starts_stop _ [] _ hs (fun x hx => hu2 x hx)
    | @cons _ t3 rest3 _ rc3 _ hc3 ht3 =>
      rw [List.append_assoc, List.append_assoc] at e
      obtain ⟨e1, e2⟩ := ih pre t t3 (rest ++ u) (rest3 ++ u2) rc rc3 hc hc3 e
        (by rw [← List.append_assoc]; exact hl) (follow_seqTail ht hu) (follow_seqTail ht3 hu2)
      subst e1
      subst e2
      have e3 := List.append_cancel_left e
      have hl2 : (rest ++ u).length ≤ n := by
        simp only [List.length_append] at hl ⊢
        omega
      obtain ⟨e4, e5⟩ := ihT ht3 e3 hl2 hu hu2
      subst e4
      subst e5
      exact ⟨rfl, rfl⟩

theorem det_seq (n : Nat) (ih : DetUpTo n .closure) : DetUpTo n .seq := by
  intro pre t t2 u u2 r r2 h1 h2 e hl hu hu2
  obtain ⟨c1, r1, rest, g1, g2, g3⟩ := seq_split h1 rfl
  obtain ⟨c3, r3, rest3, k1, k2, k3⟩ := seq_split h2 rfl
  subst g3
  subst k3
  rw [List.append_assoc, List.append_assoc] at e
  obtain ⟨e1, e2⟩ := ih pre c1 c3 (rest ++ u) (rest3 ++ u2) r1 r3 g1 k1 e
    (by rw [← List.append_assoc]; exact hl) (follow_seqTail g2 hu) (follow_seqTail k2 hu2)
  subst e1
  subst e2
  have e3 := List.append_cancel_left e
  have hl2 : (rest ++ u).length ≤ n := by
    simp only [List.length_append] at hl ⊢
    omega
  obtain ⟨e4, e5⟩ := seqTail_det ih g2 k2 e3 hl2 hu hu2
  subst e4
  subst e5
  exact ⟨rfl, rfl⟩

theorem det_concat (n : Nat) (ih : DetUpTo n .seq) : DetUpTo n .concat := by
  intro pre t t2 u u2 r r2 h1 h2 e hl hu hu2
  cases h1 with
  | empty =>
    cases h2 with
    | empty => exact ⟨rfl, rfl⟩
    | seq hs =>
      exfalso
      obtain ⟨d, tl, e1, hd⟩ := gram_head hs (Or.inr (Or.inr rfl))
      rw [e1] at e
      simp only [List.nil_append, List.cons_append] at e
      rw [e] at hu
      exact @starts_stop _ [] _ hd (fun x hx => hu x hx)
  | seq hs =>
    cases h2 with
    | empty =>
      exfalso
      obtain ⟨d, tl, e1, hd⟩ := gram_head hs (Or.inr (Or.inr rfl))
      rw [e1] at e
      simp only [List.nil_append, List.cons_append] at e
      rw [← e] at hu2
      exact @starts_stop _ [] _ hd (fun x hx => hu2 x hx)
    | seq hs2 => exact ih pre t t2 u u2 r r2 hs hs2 e hl hu hu2

theorem follow_barTail {pre rest : List Int} {a r : Ast} (h : BarTail pre a rest r)
    {u : List Int} (hu : Follow .regexp u) : Follow .concat (rest ++ u) := by
  intro c hc
  cases h with
  | nil => exact Or.inr (hu c hc)
  | cons _ _ =>
    simp only [List.append_assoc, List.singleton_append, List.cons_append, List.head?_cons,
      Option.some.injEq] at hc
    exact Or.inl hc.symm

theorem barTail_det {n : Nat} (ih : DetUpTo n .concat) {pre t : List Int} {a r : Ast}
    (h1 : BarTail pre a t r) :
    ∀ {t2 u u2 : List Int} {r2 : Ast}, BarTail pre a t2 r2 → t ++ u = t2 ++ u2 →
      (t ++ u).length ≤ n → Follow .regexp u → Follow .regexp u2 → t = t2 ∧ r = r2 := by
  induction h1 with
  | nil =>
    intro t2 u u2 r2 h2 e hl hu hu2
    cases h2 with
    | nil => exact ⟨rfl, rfl⟩
    | cons hc ht =>
      exfalso
      simp only [List.nil_append, List.append_assoc, List.singleton_append, List.cons_append] at e
      rw [e] at hu
      have := hu 124 rfl
      omega
  | @cons pre t rest a rc r hc ht ihT =>
    intro t2 u u2 r2 h2 e hl hu hu2
    cases h2 with
    | nil =>
      exfalso
      simp only [List.nil_append, List.append_assoc, List.singleton_append, List.cons_append] at e
      rw [← e] at hu2
      have := hu2 124 rfl
      omega
    | @cons _ t3 rest3 _ rc3 _ hc3 ht3 =>
      simp only [List.append_assoc, List.singleton_append, List.cons_append, List.cons.injEq,
        true_and] at e
      have hl1 : (t ++ (rest ++ u)).length ≤ n := by
        simp only [List.length_append, List.length_cons, List.length_nil] at hl ⊢
        omega
      obtain ⟨e1, e2⟩ := ih (pre ++ [124]) t t3 (rest ++ u) (rest3 ++ u2) rc rc3 hc hc3 e
        hl1 (follow_barTail ht hu) (follow_barTail ht3 hu2)
      subst e1
      subst e2
      have e3 : rest ++ u = rest3 ++ u2 := List.append_cancel_left e
      have hl2 : (rest ++ u).length ≤ n := by
        simp only [List.length_append] at hl1 ⊢
        omega
      obtain ⟨e4, e5⟩ := ihT ht3 e3 hl2 hu hu2
      subst e4
      subst e5
      exact ⟨rfl, rfl⟩

theorem det_regexp (n : Nat) (ih : DetUpTo n .concat) : DetUpTo n .regexp := by
  intro pre t t2 u u2 r r2 h1 h2 e hl hu hu2
  obtain ⟨c1, r1, rest, g1, g2, g3⟩ := bar_split h1 rfl
  obtain ⟨c3, r3, rest3, k1, k2, k3⟩ := bar_split h2 rfl
  subst g3
  subst k3
  rw [List.append_assoc, List.append_assoc] at e
  obtain ⟨e1, e2⟩ := ih pre c1 c3 (rest ++ u) (rest3 ++ u2) r1 r3 g1 k1 e
    (by rw [← List.append_assoc]; exact hl) (follow_barTail g2 hu) (follow_barTail k2 hu2)
  subst e1
  subst e2
  have e3 := List.append_cancel_left e
  have hl2 : (rest ++ u).length ≤ n := by
    simp only [List.length_append] at hl ⊢
    omega
  obtain ⟨e4, e5⟩ := barTail_det ih g2 k2 e3 hl2 hu hu2
  subst e4
  subst e5
  exact ⟨rfl, rfl⟩

theorem det_all (n : Nat) : DetUpTo n .regexp := by
  induction n using Nat.strong_induction_on with
  | _ n ih =>
    exact det_regexp n (det_concat n (det_seq n (det_closure n (det_term n ih))))

/-- The grammar is unambiguous: the runes of a pattern have at most one syntax tree. -/
theorem gram_unique {pre t : List Int} {r r2 : Ast} (h1 : Gram .regexp pre t r)
    (h2 : Gram .regexp pre t r2) : r = r2 :=
  (det_all (t ++ []).length pre t t [] [] r r2 h1 h2 rfl (le_refl _)
    (fun c hc => by cases hc) (fun c hc => by cases hc)).2

/-- The tree of the pattern `[^a]`: the negated class of the range from `a` to `a`. -/
theorem gram_negated_class :
    Gram .regexp [] [91, 94, 97, 93] (.cls true [97, 97]) :=
  .single (.seq (.one (.plain (@Gram.clsNeg [] [97] [97, 97]
    (@RangesText.single [97] [] 97 [] (.plain (by decide) (by decide) (by decide) (by decide))
      .nil)))))

end GoRegexp

namespace GoRegexp

/-! ## LiteralPrefix -/

/-- The loop of LiteralPrefix returns, and what it returns are the runes of the iChar
instructions at the start of the program. -/
theorem literalLoop_spec {G : List instr} {nb : Nat} {rk : Nat → Nat} (hn : Nodes G nb rk)
    (cap : Nat) : ∀ fuel j c, Target G j → rk j + 1 ≤ fuel → c.length + rk j ≤ cap →
      ∃ cs ok, literalLoop G cap fuel (some j) c = some (c ++ cs, ok) ∧ CharChain G j cs ok := by
  intro fuel
  induction fuel with
  | zero => intro j _ _ h; omega
  | succ fuel ih =>
    intro j c ht hf hcap
    obtain ⟨x, hx, hxs⟩ := ht.get
    unfold literalLoop
    simp only [hx]
    by_cases hk : x.kind = .iEnd
    · rw [if_pos hk]
      exact ⟨[], true, by simp, .done hx hk⟩
    · rw [if_neg hk]
      by_cases hc : x.kind = .iChar
      · rw [if_neg (by simpa using hc)]
        have ok := hn j x hx
        obtain ⟨j1, hj1, ht1⟩ := ok.next hk
        have h2 := ok.rank (by rw [hc]; simp) j1 hj1
        rw [if_pos (by omega), hj1]
        obtain ⟨cs, b, e1, e2⟩ := ih j1 (c ++ [x.char]) ht1 (by omega)
          (by simp only [List.length_append, List.length_singleton]; omega)
        exact ⟨x.char :: cs, b, by rw [e1]; simp, .char hx hc hj1 e2⟩
      · rw [if_pos (by simpa using hc)]
        exact ⟨[], false, by simp, .stop hx hk hc⟩

theorem Compile_wf {pat : List Nat} {re : Regexp} (h : Compile pat = .ok re) : WF re := by
  unfold Compile at h
  rcases doParse_spec pat with ⟨re2, v, -, h2, hwf, -, -⟩ | ⟨e, -, h2⟩
  · rw [h2] at h
    cases h
    exact hwf
  · rw [h2] at h
    cases h

/-- The program of a pattern that compiles is ready for the matcher, and its first
instruction is iStart. -/
theorem Compile_ready_start {pat : List Nat} {re : Regexp} (h : Compile pat = .ok re) :
    ∃ rk x0 s0, Ready re rk x0 s0 ∧ x0.kind = .iStart := by
  have hw := Compile_wf h
  obtain ⟨rk, hn⟩ := hw.graph.nodes
  have hst := hw.graph.start
  unfold kindAt at hst
  cases hx : re.inst[0]? with
  | none => rw [hx] at hst; cases hst
  | some x0 =>
    rw [hx] at hst
    simp only [Option.map_some', Option.some.injEq] at hst
    have hG : ProgOK re.inst re.nbra rk := ⟨hn, hw.noNop⟩
    obtain ⟨s0, hs0, hg, -⟩ := ProgOK_good_next hG hx (by rw [hst]; simp)
    exact ⟨rk, x0, s0, ⟨hG, hw.start, hx, hs0, hg⟩, hst⟩

/-- LiteralPrefix returns on the program of a pattern that compiles. -/
theorem LiteralPrefix_spec {re : Regexp} {rk : Nat → Nat} {x0 : instr} {s0 : Nat}
    (hR : Ready re rk x0 s0) (hk0 : x0.kind = .iStart) :
    ∃ cs ok, re.LiteralPrefix = some (stringOfRunes cs, ok) ∧ CharChain re.inst s0 cs ok := by
  have hn : Nodes re.inst re.nbra rk := hR.prog.nodes
  have ok0 := hn 0 x0 hR.first
  have hlt0 := ok0.rankLt
  have hr := ok0.rank (by rw [hk0]; simp) s0 hR.next
  obtain ⟨cs, ok, e1, e2⟩ := literalLoop_spec hn (re.inst.length - 2) (re.inst.length + 1) s0 []
    hR.good.1 (by omega) (by simp only [List.length_nil]; omega)
  refine ⟨cs, ok, ?_, e2⟩
  unfold Regexp.LiteralPrefix
  rw [if_neg (by omega), hR.first]
  simp only [hR.next, e1, List.nil_append, Option.map_some']

theorem chain_get {G : List instr} {j : Nat} {cs : List Int} {ok : Bool}
    (h : CharChain G j cs ok) : ∃ x, G[j]? = some x := by
  cases h with
  | done hx _ => exact ⟨_, hx⟩
  | stop hx _ _ => exact ⟨_, hx⟩
  | char hx _ _ _ => exact ⟨_, hx⟩

/-- A chain that starts at an instruction that is neither iEnd nor an iChar is empty. -/
theorem chain_stop {G : List instr} {j : Nat} {cs : List Int} {ok : Bool} {x : instr}
    (h : CharChain G j cs ok) (hx : G[j]? = some x) (h1 : x.kind ≠ .iEnd)
    (h2 : x.kind ≠ .iChar) : cs = [] ∧ ok = false := by
  cases h with
  | done hy hk => rw [hx] at hy; cases hy; exact absurd hk h1
  | stop _ _ _ => exact ⟨rfl, rfl⟩
  | char hy hk _ _ => rw [hx] at hy; cases hy; exact absurd hk h2

/-- A run to iEnd from the start of a chain of iChar instructions reads the runes of the
chain first, and nothing else when iEnd comes after the chain. -/
theorem chain_run {G : List instr} {b : List Nat} {j : Nat} {cs : List Int} {ok : Bool}
    (hc : CharChain G j cs ok) : ∀ {p : Nat} {v : List Int} {tr : List Nat} {k q : Nat}
      {v1 : List Int}, Run G b j p v tr k q v1 → kindAt G k = some .iEnd →
      ∃ q1, Reads b p cs q1 ∧ q1 ≤ q ∧ (ok = true → q1 = q) := by
  induction hc with
  | @done j x hx hk =>
    intro p v tr k q v1 hr _
    rcases Run_start_inv hr with ⟨-, e2, -, -⟩ | ⟨j2, pos1, m1, tr2, hs, -, -⟩
    · exact ⟨p, .nil, by omega, fun _ => e2.symm⟩
    · exact (Step_end_inv hx hk hs).elim
  | @stop j x hx _ _ =>
    intro p v tr k q v1 hr _
    exact ⟨p, .nil, Run_pos_le hr, fun h => by cases h⟩
  | @char j j1 x cs ok hx hk hj _ ih =>
    intro p v tr k q v1 hr hend
    rcases Run_start_inv hr with ⟨e1, -⟩ | ⟨j2, pos1, m1, tr2, hs, hr2, -⟩
    · subst e1
      unfold kindAt at hend
      rw [hx] at hend
      simp only [Option.map_some', Option.some.injEq] at hend
      rw [hk] at hend
      cases hend
    · obtain ⟨a1, a2, a3, a4, a5⟩ := Step_eats_inv hx (Or.inl hk) hs
      rw [hj] at a1
      cases a1
      subst a4
      unfold instr.eats at a3
      simp only [hk, decide_eq_true_eq] at a3
      obtain ⟨q1, h1, h2, h3⟩ := ih hr2 hend
      exact ⟨q1, .cons a2 a3 h1, h2, h3⟩

theorem stringOfRunes_cons (c : Int) (cs : List Int) :
    stringOfRunes (c :: cs) = EncodeRune c ++ stringOfRunes cs := by
  simp [stringOfRunes, List.flatMap_cons]

theorem stringOfRunes_append (cs ds : List Int) :
    stringOfRunes (cs ++ ds) = stringOfRunes cs ++ stringOfRunes ds := by
  simp [stringOfRunes, List.flatMap_append]

theorem reads_le {b : List Nat} {p q : Nat} {cs : List Int} (h : Reads b p cs q) : p ≤ q := by
  induction h with
  | nil => exact le_rfl
  | cons _ _ _ ih => omega

/-- In well-formed UTF-8, the bytes of the runes that are read from an offset where a rune
starts are the encodings of these runes. -/
theorem reads_text {b : List Nat} (hv : ValidUTF8 b) {p q : Nat} {cs : List Int}
    (h : Reads b p cs q) (hs : RuneStart b 0 p) :
    (b.drop p).take (q - p) = stringOfRunes cs := by
  induction h with
  | nil => simp [stringOfRunes]
  | @cons p q c cs hl hc hr ih =>
    have hle := reads_le hr
    have h1 := valid_at hv hs hl
    rw [hc] at h1
    have h2 := ih (.next hs hl)
    rw [show q - p = (DecodeRune (b.drop p)).2 + (q - (p + (DecodeRune (b.drop p)).2)) by omega,
      List.take_add, h1, List.drop_drop, stringOfRunes_cons]
    rw [h2]

/-- The text of a span of a well-formed UTF-8 subject that the program accepts from the
start of a chain of iChar instructions begins with the runes of the chain. -/
theorem chain_text {G : List instr} {b : List Nat} (hv : ValidUTF8 b) {j : Nat}
    {cs : List Int} {ok : Bool} (hc : CharChain G j cs ok) {p : Nat} {v : List Int}
    {tr : List Nat} {k q : Nat} {v1 : List Int} (hr : Run G b j p v tr k q v1)
    (hend : kindAt G k = some .iEnd) (hs : RuneStart b 0 p) :
    ∃ rest, (b.drop p).take (q - p) = stringOfRunes cs ++ rest ∧ (ok = true → rest = []) := by
  obtain ⟨q1, h1, h2, h3⟩ := chain_run hc hr hend
  have hle := reads_le h1
  have ht := reads_text hv h1 hs
  refine ⟨((b.drop p).drop (q1 - p)).take (q - q1), ?_, ?_⟩
  · rw [show q - p = (q1 - p) + (q - q1) by omega, List.take_add, ht]
  · intro h
    rw [h3 h]
    simp

/-- The loop of setPrefix on a chain of iChar instructions collects the bytes of its runes,
or of all its runes but the last when the instruction after the chain is iBOT, iEOT or
iAlt. -/
theorem prefixLoop_chain {G : List instr} {j : Nat} {cs : List Int} {ok : Bool}
    (hc : CharChain G j cs ok) : ∀ (fuel : Nat) (b : List Nat) (r : Option Nat × List Nat),
      prefixLoop G fuel (some j) b = .ok r →
      (r.2 = b ++ stringOfRunes cs ∨
        (ok = false ∧ ∃ cs0 c, cs = cs0 ++ [c] ∧ r.2 = b ++ stringOfRunes cs0)) ∧
      (ok = true → r.2 = b ++ stringOfRunes cs) := by
  induction hc with
  | @done j x hx hk =>
    intro fuel b r h
    cases fuel with
    | zero => cases h
    | succ fuel =>
      unfold prefixLoop at h
      simp only [hx, hk, if_true] at h
      cases h
      simp [stringOfRunes]
  | @stop j x hx hk1 hk2 =>
    intro fuel b r h
    cases fuel with
    | zero => cases h
    | succ fuel =>
      unfold prefixLoop at h
      simp only [hx] at h
      rw [if_neg hk1, if_pos hk2] at h
      cases h
      simp [stringOfRunes]
  | @char j j1 x cs ok hx hk hj hc1 ih =>
    intro fuel b r h
    cases fuel with
    | zero => cases h
    | succ fuel =>
      obtain ⟨y, hy⟩ := chain_get hc1
      unfold prefixLoop at h
      simp only [hx, hj, hy] at h
      rw [if_neg (by rw [hk]; simp), if_neg (by simp [hk])] at h
      by_cases hs : y.kind = .iBOT ∨ y.kind = .iEOT ∨ y.kind = .iAlt
      · rw [if_pos hs] at h
        cases h
        obtain ⟨e1, e2⟩ := chain_stop hc1 hy (by rcases hs with h | h | h <;> rw [h] <;> simp)
          (by rcases hs with h | h | h <;> rw [h] <;> simp)
        subst e1 e2
        exact ⟨Or.inr ⟨rfl, [], x.char, rfl, by simp [stringOfRunes]⟩, fun h => by cases h⟩
      · rw [if_neg hs] at h
        obtain ⟨h1, h2⟩ := ih fuel _ r h
        refine ⟨?_, fun hok => by rw [h2 hok, stringOfRunes_cons, List.append_assoc]⟩
        rcases h1 with h1 | ⟨h1, cs0, c, e1, e2⟩
        · exact Or.inl (by rw [h1, stringOfRunes_cons, List.append_assoc])
        · exact Or.inr ⟨h1, x.char :: cs0, c, by rw [e1]; rfl,
            by rw [e2, stringOfRunes_cons, List.append_assoc]⟩

/-- The prefix that setPrefix stores, on a program that does not begin with iBOT. -/
theorem setPrefix_chain {re : Regexp} {x0 x1 : instr} {s0 : Nat} {cs : List Int} {ok : Bool}
    (hp : re.setPrefix = .ok re) (h0 : re.inst[0]? = some x0) (hn : x0.next = some s0)
    (h1 : re.inst[s0]? = some x1) (hk : x1.kind ≠ .iBOT) (hc : CharChain re.inst s0 cs ok) :
    (re.prefixBytes = stringOfRunes cs ∨
      (ok = false ∧ ∃ cs0 c, cs = cs0 ++ [c] ∧ re.prefixBytes = stringOfRunes cs0)) ∧
    (ok = true → re.prefixBytes = stringOfRunes cs) := by
  unfold Regexp.setPrefix at hp
  rw [h0] at hp
  simp only [hn] at hp
  rw [show re.inst.length + 1 = re.inst.length.succ from rfl] at hp
  unfold skipBOT at hp
  simp only [h1, if_neg hk] at hp
  cases hl : prefixLoop re.inst re.inst.length.succ (some s0) [] with
  | error e => rw [hl] at hp; cases hp
  | ok r =>
    rw [hl] at hp
    obtain ⟨i, bs⟩ := r
    simp only [Except.ok.injEq] at hp
    have hb : re.prefixBytes = bs := by rw [← hp]
    have := prefixLoop_chain hc _ [] _ hl
    simpa [hb] using this

end GoRegexp

namespace GoRegexp

/-! ## Quantifiers out of place -/

theorem term_bare (M : Nat) (p : parser) (h : p.c = 42 ∨ p.c = 43 ∨ p.c = 63) :
    parser.term (M + 1) p = .error (.error .ErrBareClosure) := by
  have h1 : ¬ (p.c = 124 ∨ p.c = endOfFile) := by
    rcases h with h | h | h <;> rw [h] <;> decide
  unfold parser.term
  simp only
  rw [if_neg h1, if_pos h]

theorem concatenation_bare (M : Nat) (p : parser) (h : p.c = 42 ∨ p.c = 43 ∨ p.c = 63) :
    parser.concatenation (M + 4) p = .error (.error .ErrBareClosure) := by
  rw [concatenation_eq (M + 3) p]
  exact concatLoop_err (M + 2) p none none (closure_err (M + 1) p (term_bare M p h))

theorem regexp_bare (M : Nat) (p : parser) (h : p.c = 42 ∨ p.c = 43 ∨ p.c = 63) :
    parser.regexp (M + 5) p = .error (.error .ErrBareClosure) :=
  regexp_err (M + 4) p (concatenation_bare M p h)

/-- The parser at the start of a pattern whose first rune is c. -/
theorem startParser_eq (str : List Nat) (c : Int) (w : Nat) (hne : str ≠ [])
    (hd : DecodeRune str = (c, w)) :
    startParser str = ⟨(({ expr := str } : Regexp).add { kind := .iStart }).1, 0, w, c⟩ := by
  unfold startParser newParser
  rw [nextc_eq ⟨{ expr := str }, 0, 0, 0⟩ [] str c w rfl rfl hne hd]
  simp

/-- The error of parser.regexp at the start of the pattern is the error of Compile. -/
theorem Compile_of_regexp_fails {str : List Nat} {E : Error} (N : Nat)
    (h : ∀ M, parser.regexp (M + N) (startParser str) = .error (.error E)) :
    Compile str = .error (.error E) := by
  refine Compile_of_regexp_error (regexp_at_parseFuel ⟨N, fun M hM => ?_⟩ (by simp))
  have := h (M - N)
  rwa [show M - N + N = M by omega] at this

theorem Compile_bare (q : Nat) (r : List Nat) (hq : q = 42 ∨ q = 43 ∨ q = 63) :
    Compile (q :: r) = .error (.error .ErrBareClosure) := by
  have hd : DecodeRune (q :: r) = ((q : Int), 1) := by
    rcases hq with h | h | h <;> subst h <;> simp [DecodeRune]
  refine Compile_of_regexp_fails 5 fun M => ?_
  rw [startParser_eq (q :: r) (q : Int) 1 (by simp) hd]
  refine regexp_bare M _ ?_
  simp only [parser.c]
  omega

/-- A quantifier that follows a quantified term is rejected by parser.closure. -/
theorem closure_stacked (M : Nat) (p : parser) {p1 : parser} {s e : Nat}
    (h : parser.term M p = .ok (p1, some s, some e))
    (he : e < p1.re.inst.length)
    (hc : p1.c = 42 ∨ p1.c = 43 ∨ p1.c = 63)
    (hn : ∀ re2 : Regexp, re2.expr = p1.re.expr →
      (({ p1 with re := re2 } : parser).nextc.ch = 42 ∨
        ({ p1 with re := re2 } : parser).nextc.ch = 43 ∨
        ({ p1 with re := re2 } : parser).nextc.ch = 63)) :
    parser.closure (M + 1) p = .error (.error .ErrBadClosure) := by
  unfold parser.closure
  rw [h]
  simp only [reduceCtorEq, if_false, add_snd]
  by_cases h42 : p1.c = 42
  · obtain ⟨re1, h1⟩ := setNext_some (p1.re.add { kind := .iAlt }).1 e (some p1.re.inst.length)
      (by simp; omega)
    obtain ⟨re2, h2⟩ := setLeft_some re1 p1.re.inst.length (some s)
      (by rw [setNext_length h1]; simp)
    have hx := hn re2 (by rw [(setLeft_nbra h2).2, (setNext_nbra h1).2]; rfl)
    simp only [if_pos h42, h1, h2, if_pos hx]
  · by_cases h43 : p1.c = 43
    · obtain ⟨re1, h1⟩ := setNext_some (p1.re.add { kind := .iAlt }).1 e
        (some p1.re.inst.length) (by simp; omega)
      obtain ⟨re2, h2⟩ := setLeft_some re1 p1.re.inst.length (some s)
        (by rw [setNext_length h1]; simp)
      have hx := hn re2 (by rw [(setLeft_nbra h2).2, (setNext_nbra h1).2]; rfl)
      simp only [if_neg h42, if_pos h43, h1, h2, if_pos hx]
    · have h63 : p1.c = 63 := by
        rcases hc with h | h | h
        · exact absurd h h42
        · exact absurd h h43
        · exact h
      obtain ⟨re1, h1⟩ := setLeft_some ((p1.re.add { kind := .iAlt }).1.add { kind := .iNop }).1
        p1.re.inst.length (some s) (by simp)
      obtain ⟨re2, h2⟩ := setNext_some re1 p1.re.inst.length
        (some (p1.re.add { kind := .iAlt }).1.inst.length) (by rw [setLeft_length h1]; simp)
      obtain ⟨re3, h3⟩ := setNext_some re2 e (some (p1.re.add { kind := .iAlt }).1.inst.length)
        (by rw [setNext_length h2, setLeft_length h1]; simp; omega)
      have hx := hn re3 (by
        rw [(setNext_nbra h3).2, (setNext_nbra h2).2, (setLeft_nbra h1).2]; rfl)
      simp only [add_inst, List.length_append, List.length_singleton] at h2 h3
      simp only [if_neg h42, if_neg h43, if_pos h63, h1, h2, h3, if_pos hx, add_inst,
        List.length_append, List.length_singleton]

theorem not_special_term {c : Int} (h0 : 0 ≤ c) (hc : special c = false) :
    c ∉ termSpecial ∧ c ≠ 92 := by
  unfold special specialRunes at hc
  simp only [decide_eq_false_iff_not, List.mem_cons, List.mem_singleton, not_or,
    List.not_mem_nil, or_false] at hc
  unfold termSpecial
  simp only [List.mem_cons, List.mem_singleton, not_or, List.not_mem_nil, or_false]
  omega

/-- Compile on a pattern that starts with a literal character and two quantifiers. -/
theorem Compile_stacked (c : Int) (q1 q2 : Nat) (r : List Nat) (h0 : 0 ≤ c)
    (h1 : c < 1114112) (h2 : ¬ (55296 ≤ c ∧ c < 57344)) (hc : special c = false)
    (hq1 : q1 = 42 ∨ q1 = 43 ∨ q1 = 63) (hq2 : q2 = 42 ∨ q2 = 43 ∨ q2 = 63) :
    Compile (EncodeRune c ++ q1 :: q2 :: r) = .error (.error .ErrBadClosure) := by
  obtain ⟨hts, h92⟩ := not_special_term h0 hc
  have hd1 : DecodeRune (q1 :: q2 :: r) = ((q1 : Int), 1) := by
    rcases hq1 with h | h | h <;> subst h <;> simp [DecodeRune]
  have hd2 : DecodeRune (q2 :: r) = ((q2 : Int), 1) := by
    rcases hq2 with h | h | h <;> subst h <;> simp [DecodeRune]
  refine Compile_of_regexp_fails 5 fun M => ?_
  rw [startParser_eq _ c _ (by simp [EncodeRune_ne_nil]) (DecodeRune_EncodeRune c h0 h1 h2 _)]
  generalize hR0 : (({ expr := EncodeRune c ++ q1 :: q2 :: r } : Regexp).add
    { kind := .iStart }).1 = R0
  have hR0e : R0.expr = EncodeRune c ++ q1 :: q2 :: r := by rw [← hR0]; rfl
  have hR0i : R0.inst.length = 1 := by rw [← hR0]; rfl
  have hn1 : (⟨R0, 0, (EncodeRune c).length, c⟩ : parser).nextc =
      ⟨R0, 0, (EncodeRune c).length + 1, (q1 : Int)⟩ :=
    nextc_eq _ (EncodeRune c) (q1 :: q2 :: r) _ 1 hR0e rfl (by simp) hd1
  have ht := term_char M ⟨R0, 0, (EncodeRune c).length, c⟩ hts
    (checkBackslash_plain _ h92)
  rw [hn1] at ht
  refine regexp_err _ _ ?_
  rw [concatenation_eq]
  refine concatLoop_err _ _ _ _ ?_
  refine closure_stacked _ _ ht (by simp [parser.addI, hR0i])
    (by simp only [parser.addI, parser.c]; omega) ?_
  intro re2 he
  have hn2 := nextc_eq (⟨re2, 0, (EncodeRune c).length + 1, (q1 : Int)⟩ : parser)
    (EncodeRune c ++ [q1]) (q2 :: r) _ 1 (by rw [he]; simp [parser.addI, hR0e])
    (by simp) (by simp) hd2
  simp only [parser.addI]
  rw [hn2]
  simp only
  omega

end GoRegexp

namespace GoRegexp

/-! ## Join -/

theorem set_at_length (pre : List Nat) (j x : Nat) (junk : List Nat) :
    (pre ++ j :: junk).set pre.length x = pre ++ x :: junk := by
  induction pre with
  | nil => rfl
  | cons a t ih => simp [ih]

theorem copyBytes_spec : ∀ (s pre junk : List Nat), s.length ≤ junk.length →
    copyBytes s (pre ++ junk) pre.length =
      some (pre ++ s ++ junk.drop s.length, pre.length + s.length) := by
  intro s
  induction s with
  | nil => intro pre junk _; simp [copyBytes]
  | cons x t ih =>
    intro pre junk h
    cases junk with
    | nil => simp at h
    | cons j junk =>
      simp only [List.length_cons] at h
      unfold copyBytes
      rw [if_pos (by simp), set_at_length]
      have := ih (pre ++ [x]) junk (by omega)
      simp only [List.length_append, List.length_singleton, List.append_assoc,
        List.singleton_append] at this
      rw [this]
      simp only [List.length_cons, List.drop_succ_cons, List.cons_append, List.append_assoc,
        Option.some.injEq, Prod.mk.injEq, true_and]
      omega

theorem joinText_cons2 (sep x y : List Nat) (r : List (List Nat)) :
    joinText sep (x :: y :: r) = x ++ sep ++ joinText sep (y :: r) := rfl

theorem joinLoop_spec (sep : List Nat) : ∀ (a : List (List Nat)) (pre junk : List Nat),
    (joinText sep a).length ≤ junk.length →
    joinLoop sep a (pre ++ junk) pre.length =
      some (pre ++ joinText sep a ++ junk.drop (joinText sep a).length,
        pre.length + (joinText sep a).length) := by
  intro a
  induction a with
  | nil => intro pre junk _; simp [joinLoop, joinText]
  | cons s rest ih =>
    intro pre junk h
    cases rest with
    | nil =>
      simp only [joinText] at h ⊢
      unfold joinLoop
      rw [copyBytes_spec s pre junk h]
      simp [joinLoop]
    | cons y r =>
      rw [joinText_cons2] at h ⊢
      simp only [List.length_append] at h
      unfold joinLoop
      rw [copyBytes_spec s pre junk (by omega)]
      simp only [ne_eq, reduceCtorEq, not_false_eq_true, if_true]
      have h1 := copyBytes_spec sep (pre ++ s) (junk.drop s.length)
        (by simp only [List.length_drop]; omega)
      simp only [List.length_append] at h1
      rw [h1]
      simp only
      have h2 := ih (pre ++ s ++ sep) ((junk.drop s.length).drop sep.length)
        (by simp only [List.length_drop]; omega)
      simp only [List.length_append] at h2
      rw [h2]
      simp only [List.drop_drop, List.append_assoc, List.length_append, Option.some.injEq,
        Prod.mk.injEq]
      constructor
      · rw [Nat.add_assoc]
      · omega

theorem foldl_length (a : List (List Nat)) (n : Nat) :
    a.foldl (fun n x => n + x.length) n = n + (a.map List.length).sum := by
  induction a generalizing n with
  | nil => simp
  | cons x t ih => simp [ih]; omega

theorem joinText_length (sep : List Nat) (a : List (List Nat)) :
    (joinText sep a).length = sep.length * (a.length - 1) + (a.map List.length).sum := by
  induction a with
  | nil => simp [joinText]
  | cons x t ih =>
    cases t with
    | nil => simp [joinText]
    | cons y r =>
      rw [joinText_cons2]
      simp only [List.length_append, ih, List.length_cons, List.map_cons, List.sum_cons,
        Nat.add_sub_cancel]
      have : sep.length * (r.length + 1) = sep.length * r.length + sep.length := by ring
      omega

/-- Join returns the elements of a with sep between them. -/
theorem Join_eq (a : List (List Nat)) (sep : List Nat) : Join a sep = some (joinText sep a) := by
  cases a with
  | nil => rfl
  | cons x t =>
    cases t with
    | nil => rfl
    | cons y r =>
      unfold Join
      simp only
      rw [foldl_length, ← joinText_length]
      have := joinLoop_spec sep (x :: y :: r) [] (List.replicate (joinText sep (x :: y :: r)).length 0)
        (by simp)
      simp only [List.nil_append, List.length_nil, Nat.zero_add] at this
      rw [this]
      simp

theorem joinText_snoc (sep : List Nat) (P : List (List Nat)) (x : List Nat) :
    joinText sep (P ++ [x]) = (P.map (fun y => y ++ sep)).flatten ++ x := by
  induction P with
  | nil => simp [joinText]
  | cons y t ih =>
    cases t with
    | nil => simp [joinText]
    | cons z r =>
      rw [List.cons_append, List.cons_append, joinText_cons2, ← List.cons_append, ih]
      simp

theorem joinText_nil_sep (a : List (List Nat)) : joinText [] a = a.flatten := by
  induction a with
  | nil => rfl
  | cons x t ih =>
    cases t with
    | nil => simp [joinText]
    | cons y r => rw [joinText_cons2, ih]; simp

/-! ## Count -/

theorem countLoop_total (s sep : List Nat) (c : Nat) (hs : 1 ≤ sep.length) :
    ∀ (fuel i n : Nat), s.length + 1 ≤ fuel + i → i ≤ s.length →
      ∃ k, countLoop s sep c fuel i n = some k := by
  intro fuel
  induction fuel with
  | zero =>
    intro i n h h2
    exfalso
    omega
  | succ fuel ih =>
    intro i n h h2
    unfold countLoop
    by_cases hg : i + sep.length ≤ s.length
    · rw [if_pos hg]
      have hi : i < s.length := by omega
      rw [List.getElem?_eq_getElem hi]
      simp only
      split
      · exact ih _ _ (by omega) (by omega)
      · exact ih _ _ (by omega) (by omega)
    · rw [if_neg hg]
      exact ⟨n, rfl⟩

theorem Count_total (s sep : List Nat) : ∃ k, Count s sep = some k := by
  unfold Count
  cases sep with
  | nil => exact ⟨_, rfl⟩
  | cons c t =>
    simp only
    split
    · exact ⟨_, rfl⟩
    · exact countLoop_total s (c :: t) c (by simp) _ _ _ (by omega) (by omega)

/-! ## Split -/

theorem set_at_length_gen {α : Type} (pre : List α) (j x : α) (junk : List α) :
    (pre ++ j :: junk).set pre.length x = pre ++ x :: junk := by
  induction pre with
  | nil => rfl
  | cons a t ih => simp [ih]

theorem take_take_drop (s : List Nat) (a b : Nat) (h : a ≤ b) :
    s.take a ++ (s.drop a).take (b - a) = s.take b := by
  have := List.take_add s a (b - a)
  rw [show a + (b - a) = b by omega] at this
  exact this.symm

theorem take_one_drop {s : List Nat} {i x : Nat} (h : s[i]? = some x) :
    (s.drop i).take 1 = [x] := by
  have h2 : (s.drop i)[0]? = some x := by rw [List.getElem?_drop]; simpa using h
  cases hd : s.drop i with
  | nil => rw [hd] at h2; cases h2
  | cons y t =>
    rw [hd] at h2
    simp only [List.getElem?_cons_zero, Option.some.injEq] at h2
    simp [h2]

/-- The loop of genSplit: the pieces it has stored, each followed by the separator, make
up the string up to `start`. -/
theorem genSplitLoop_spec (s sep : List Nat) (c : Nat) (t : List Nat) (hsep : sep = c :: t)
    (n : Int) (N : Nat) (hN : n = (N : Int)) :
    ∀ (fuel i start na : Nat) (P : List (List Nat)), s.length + 1 ≤ fuel + i → i ≤ s.length →
      start ≤ i → P.length = na → na < N →
      (P.map (fun y => y ++ sep)).flatten = s.take start →
      ∃ start2 na2 P2, genSplitLoop s sep c 0 n fuel i start na (P ++ List.replicate (N - na) [])
          = some (start2, na2, P2 ++ List.replicate (N - na2) []) ∧
        P2.length = na2 ∧ na2 < N ∧ start2 ≤ s.length ∧
        (P2.map (fun y => y ++ sep)).flatten = s.take start2 := by
  have hlen : 1 ≤ sep.length := by rw [hsep]; simp
  intro fuel
  induction fuel with
  | zero =>
    intro i start na P h1 h2
    exfalso
    omega
  | succ fuel ih =>
    intro i start na P h1 h2 h3 h4 h5 h6
    unfold genSplitLoop
    by_cases hg : i + sep.length ≤ s.length ∧ (na : Int) + 1 < n
    · rw [if_pos hg]
      have hi : i < s.length := by omega
      rw [List.getElem?_eq_getElem hi]
      simp only
      by_cases hf : s[i] = c ∧ (sep.length = 1 ∨ (s.drop i).take sep.length = sep)
      · rw [if_pos hf]
        have hb : start ≤ i + 0 ∧ i + 0 ≤ s.length ∧ na < (P ++ List.replicate (N - na) []).length := by
          simp only [List.length_append, List.length_replicate]
          omega
        rw [if_pos hb]
        have hrep : List.replicate (N - na) ([] : List Nat) = [] :: List.replicate (N - (na + 1)) [] := by
          rw [show N - na = (N - (na + 1)) + 1 by omega, List.replicate_succ]
        have hset : (P ++ List.replicate (N - na) []).set na ((s.drop start).take (i + 0 - start)) =
            (P ++ [(s.drop start).take (i - start)]) ++ List.replicate (N - (na + 1)) [] := by
          rw [hrep, ← h4, set_at_length_gen]
          simp
        rw [hset]
        have hmatch : (s.drop i).take sep.length = sep := by
          rcases hf.2 with h | h
          · have e1 : t = [] := by
              rw [hsep] at h
              simpa using h
            rw [hsep, e1]
            have := take_one_drop (List.getElem?_eq_getElem hi)
            rw [hf.1] at this
            simpa using this
          · exact h
        have hflat : ((P ++ [(s.drop start).take (i - start)]).map (fun y => y ++ sep)).flatten =
            s.take (i + sep.length) := by
          rw [List.map_append, List.flatten_append, h6]
          simp only [List.map_cons, List.map_nil, List.flatten_cons, List.flatten_nil,
            List.append_nil]
          rw [← List.append_assoc, take_take_drop s start i h3]
          nth_rewrite 1 [← hmatch]
          have := take_take_drop s i (i + sep.length) (by omega)
          rwa [show i + sep.length - i = sep.length by omega] at this
        have := ih (i + (sep.length - 1) + 1) (i + sep.length) (na + 1)
          (P ++ [(s.drop start).take (i - start)]) (by omega) (by omega) (by omega)
          (by simp [h4]) (by omega) hflat
        exact this
      · rw [if_neg hf]
        exact ih (i + 1) start na P (by omega) (by omega) (by omega) h4 h5 h6
    · rw [if_neg hg]
      exact ⟨start, na, P, rfl, h4, h5, by omega, h6⟩

/-- Join undoes genSplit with a separator that is not empty. -/
theorem genSplit_join (s : List Nat) (c : Nat) (t : List Nat) (n : Int) (hn : n ≠ 0) :
    ∃ a, genSplit s (c :: t) 0 n = some a ∧ joinText (c :: t) a = s := by
  unfold genSplit
  rw [if_neg hn]
  simp only
  obtain ⟨k, hk⟩ := Count_total s (c :: t)
  have hn2 : ∃ N : Nat, 0 < N ∧
      (if n < 0 then (Count s (c :: t)).map (fun k => (k : Int) + 1) else some n) = some (N : Int) := by
    by_cases h0 : n < 0
    · rw [if_pos h0, hk]
      exact ⟨k + 1, by omega, by simp⟩
    · rw [if_neg h0]
      exact ⟨n.toNat, by omega, by congr 1; omega⟩
  obtain ⟨N, hN0, hN⟩ := hn2
  rw [hN]
  simp only
  rw [if_neg (by omega)]
  obtain ⟨start, na, P, h1, h2, h3, h4, h5⟩ := genSplitLoop_spec s (c :: t) c t rfl (N : Int) N rfl
    (s.length + 1) 0 0 0 [] (by omega) (by omega) (by omega) rfl hN0 (by simp)
  simp only [Int.toNat_ofNat, List.nil_append, Nat.sub_zero] at h1 ⊢
  rw [h1]
  simp only
  have hrep : List.replicate (N - na) ([] : List Nat) = [] :: List.replicate (N - (na + 1)) [] := by
    rw [show N - na = (N - (na + 1)) + 1 by omega, List.replicate_succ]
  have hset : (P ++ List.replicate (N - na) []).set na (s.drop start) =
      (P ++ [s.drop start]) ++ List.replicate (N - (na + 1)) [] := by
    rw [hrep, ← h2, set_at_length_gen]
    simp
  rw [if_pos (by simp only [List.length_append, List.length_replicate]; omega), hset,
    if_pos (by simp only [List.length_append, List.length_replicate, List.length_singleton]; omega)]
  refine ⟨_, rfl, ?_⟩
  rw [List.take_left' (by simp [h2])]
  rw [joinText_snoc, h5, List.take_append_drop]

/-! ## The empty separator -/

theorem runes_eq_nil {b : List Nat} (h : runes b = []) : b = [] := by
  cases b with
  | nil => rfl
  | cons x t =>
    rw [runes_cons (by simp)] at h
    cases h

/-- The loop of explode on well-formed UTF-8: the strings it has stored make up the string
up to `cur`, and it ends at the last element of the slice, before the end of the string. -/
theorem explodeLoop_spec (s : List Nat) (hv : ValidUTF8 s) (n : Int) (N : Nat)
    (hN : n = (N : Int)) (hl : N ≤ RuneCountInString s) :
    ∀ (fuel i cur : Nat) (P : List (List Nat)), N + 1 ≤ fuel + i → i + 1 ≤ N → P.length = i →
      RuneStart s 0 cur → cur ≤ s.length →
      (runes (s.drop cur)).length + i = RuneCountInString s → P.flatten = s.take cur →
      ∃ cur2 P2, explodeLoop s n fuel i cur (P ++ List.replicate (N - i) []) =
          some (N - 1, cur2, P2 ++ [[]]) ∧
        P2.length = N - 1 ∧ cur2 < s.length ∧ P2.flatten = s.take cur2 := by
  intro fuel
  induction fuel with
  | zero =>
    intro i cur P h1 h2
    exfalso
    omega
  | succ fuel ih =>
    intro i cur P h1 h2 h3 h4 h5 h6 h7
    have hne : s.drop cur ≠ [] := by
      intro h0
      rw [h0, runes_nil] at h6
      simp only [List.length_nil] at h6
      omega
    have hlt : cur < s.length := by
      by_contra hc
      exact hne (List.drop_eq_nil_of_le (by omega))
    unfold explodeLoop
    by_cases hg : (i : Int) + 1 < n
    · rw [if_pos hg, if_pos h5]
      simp only [DecodeRuneInString]
      rw [if_pos (by simp only [List.length_append, List.length_replicate]; omega)]
      have hrep : List.replicate (N - i) ([] : List Nat) = [] :: List.replicate (N - (i + 1)) [] := by
        rw [show N - i = (N - (i + 1)) + 1 by omega, List.replicate_succ]
      have hset : (P ++ List.replicate (N - i) []).set i (EncodeRune (DecodeRune (s.drop cur)).1) =
          (P ++ [EncodeRune (DecodeRune (s.drop cur)).1]) ++ List.replicate (N - (i + 1)) [] := by
        rw [hrep, ← h3, set_at_length_gen]
        simp
      rw [hset]
      have hw := DecodeRune_width_le (s.drop cur)
      simp only [List.length_drop] at hw
      have hr := runes_cons hne
      rw [List.drop_drop] at hr
      rw [hr] at h6
      simp only [List.length_cons] at h6
      refine ih (i + 1) (cur + (DecodeRune (s.drop cur)).2)
        (P ++ [EncodeRune (DecodeRune (s.drop cur)).1]) (by omega) (by omega) (by simp [h3])
        (.next h4 hlt) (by omega) ?_ ?_
      · omega
      · rw [List.flatten_append, h7]
        simp only [List.flatten_cons, List.flatten_nil, List.append_nil]
        rw [← valid_at hv h4 hlt]
        have := take_take_drop s cur (cur + (DecodeRune (s.drop cur)).2) (by omega)
        rwa [show cur + (DecodeRune (s.drop cur)).2 - cur = (DecodeRune (s.drop cur)).2 by omega]
          at this
    · rw [if_neg hg]
      have hi : i = N - 1 := by omega
      refine ⟨cur, P, ?_, by omega, hlt, h7⟩
      rw [show N - i = 1 by omega, hi]
      rfl

/-- Join undoes explode on well-formed UTF-8. -/
theorem explode_join (s : List Nat) (hv : ValidUTF8 s) (n : Int) (hn : n ≠ 0) :
    ∃ a, explode s n = some a ∧ joinText [] a = s := by
  unfold explode
  rw [if_neg hn]
  simp only
  obtain ⟨N, hN, hl, h0⟩ : ∃ N : Nat,
      (if n ≤ 0 ∨ n > (RuneCountInString s : Int) then (RuneCountInString s : Int) else n)
        = (N : Int) ∧ N ≤ RuneCountInString s ∧ (N = 0 → RuneCountInString s = 0) := by
    by_cases hc : n ≤ 0 ∨ n > (RuneCountInString s : Int)
    · rw [if_pos hc]
      exact ⟨_, rfl, le_refl _, fun h => h⟩
    · rw [if_neg hc]
      exact ⟨n.toNat, by omega, by omega, fun h => by omega⟩
  rw [hN]
  rw [if_neg (by omega)]
  simp only [Int.toNat_ofNat]
  by_cases hz : N = 0
  · have hs : s = [] := runes_eq_nil (List.length_eq_zero.1 (h0 hz))
    subst hz hs
    refine ⟨[], ?_, rfl⟩
    simp [explodeLoop]
  · obtain ⟨cur, P, h1, h2, h3, h4⟩ := explodeLoop_spec s hv (N : Int) N rfl hl (N + 1) 0 0 []
      (by omega) (by omega) rfl .first (by omega) (by simp [RuneCountInString]) (by simp)
    simp only [List.nil_append, Nat.sub_zero] at h1
    rw [h1]
    simp only
    rw [if_pos h3, if_pos (by simp only [List.length_append, List.length_singleton]; omega)]
    refine ⟨_, rfl, ?_⟩
    rw [← h2, set_at_length_gen, joinText_snoc]
    simp only [List.append_nil, List.map_id']
    rw [h4, List.take_append_drop]

/-- Join undoes Split. -/
theorem Split_join (s sep : List Nat) (n : Int) (hn : n ≠ 0) (hv : sep = [] → ValidUTF8 s) :
    ∃ a, Split s sep n = some a ∧ Join a sep = some s := by
  cases sep with
  | nil =>
    obtain ⟨a, h1, h2⟩ := explode_join s (hv rfl) n hn
    refine ⟨a, ?_, by rw [Join_eq, h2]⟩
    unfold Split genSplit
    rw [if_neg hn]
    exact h1
  | cons c t =>
    obtain ⟨a, h1, h2⟩ := genSplit_join s c t n hn
    exact ⟨a, h1, by rw [Join_eq, h2]⟩

end GoRegexp

namespace GoRegexp

/-! ## The parser on two patterns that begin with the same bytes -/

theorem decode_ascii (d : Nat) (hd : d < 128) (t : List Nat) :
    DecodeRune (d :: t) = ((d : Int), 1) := by
  simp [DecodeRune, hd]

/-- An ASCII byte after the bytes `mid` is not part of the rune decoded from them. -/
theorem decode_mid (d : Nat) (hd : d < 128) (mid t : List Nat) (hm : mid ≠ []) :
    DecodeRune (mid ++ d :: t) = DecodeRune mid := by
  obtain ⟨b0, m, rfl⟩ := List.exists_cons_of_ne_nil hm
  have hnd : ¬ 128 ≤ d := by omega
  by_cases h1 : b0 < 128
  · simp [DecodeRune, h1]
  by_cases h2 : b0 < 192
  · simp [DecodeRune, h1, h2]
  by_cases h3 : b0 < 224
  · rcases m with _ | ⟨b1, m⟩
    · simp [DecodeRune, h1, h2, h3, hnd]
    · simp [DecodeRune, h1, h2, h3]
  by_cases h4 : b0 < 240
  · rcases m with _ | ⟨b1, _ | ⟨b2, m⟩⟩
    · rcases t with _ | ⟨t0, t⟩ <;> simp [DecodeRune, h1, h2, h3, h4, hnd]
    · simp [DecodeRune, h1, h2, h3, h4, hnd]
    · simp [DecodeRune, h1, h2, h3, h4]
  by_cases h5 : b0 < 248
  · rcases m with _ | ⟨b1, _ | ⟨b2, _ | ⟨b3, m⟩⟩⟩
    · rcases t with _ | ⟨t0, _ | ⟨t1, t⟩⟩ <;> simp [DecodeRune, h1, h2, h3, h4, h5, hnd]
    · rcases t with _ | ⟨t0, t⟩ <;> simp [DecodeRune, h1, h2, h3, h4, h5, hnd]
    · simp [DecodeRune, h1, h2, h3, h4, h5, hnd]
    · simp [DecodeRune, h1, h2, h3, h4, h5]
  · simp [DecodeRune, h1, h2, h3, h4, h5]

/-- The runes of a pattern with an ASCII byte in it are the runes before the byte, the byte,
and the runes after it. -/
theorem runes_fork (d : Nat) (hd : d < 128) (t : List Nat) : ∀ (n : Nat) (mid : List Nat),
    mid.length ≤ n → runes (mid ++ d :: t) = runes mid ++ (d : Int) :: runes t := by
  have h0 : runes (d :: t) = (d : Int) :: runes t := by
    rw [runes_cons (by simp), decode_ascii d hd t]
    rfl
  intro n
  induction n with
  | zero =>
    intro mid h
    have : mid = [] := List.length_eq_zero.1 (by omega)
    subst this
    simpa [runes_nil] using h0
  | succ n ih =>
    intro mid h
    by_cases hm : mid = []
    · subst hm
      simpa [runes_nil] using h0
    · rw [runes_cons (by simp), decode_mid d hd mid t hm, runes_cons hm]
      have hw := DecodeRune_width_le mid
      have hw1 := DecodeRune_width_pos hm
      rw [List.drop_append_of_le_length hw, ih _ (by simp only [List.length_drop]; omega)]
      rfl

theorem drop_fork (pre : List Nat) (d : Nat) (t : List Nat) (k : Nat) (h : k ≤ pre.length) :
    (pre ++ d :: t).drop k = pre.drop k ++ d :: t :=
  List.drop_append_of_le_length h

/-- One call of nextc before the byte d at offset pre.length: the two parsers load the same
rune, which ends before d or is d. -/
theorem nextc_fork {pre t1 : List Nat} {d : Nat} (hd : d < 128) (t2 : List Nat) {p : parser}
    (he : p.re.expr = pre ++ d :: t1) (hp : p.pos < pre.length + 1) :
    (p.onExpr (pre ++ d :: t2)).nextc = p.nextc.onExpr (pre ++ d :: t2) ∧
      Before (pre.length + 1) (d : Int) p.nextc ∧ p.nextc.ch ≠ endOfFile := by
  have hle : p.pos ≤ pre.length := by omega
  have hdec : DecodeRune ((pre ++ d :: t2).drop p.pos) = DecodeRune ((pre ++ d :: t1).drop p.pos) ∧
      (p.pos + (DecodeRune ((pre ++ d :: t1).drop p.pos)).2 < pre.length + 1 ∨
        (p.pos + (DecodeRune ((pre ++ d :: t1).drop p.pos)).2 = pre.length + 1 ∧
          (DecodeRune ((pre ++ d :: t1).drop p.pos)).1 = (d : Int))) := by
    rw [drop_fork pre d t1 _ hle, drop_fork pre d t2 _ hle]
    by_cases hm : pre.drop p.pos = []
    · rw [hm]
      simp only [List.nil_append, decode_ascii d hd, true_and]
      have := congrArg List.length hm
      simp only [List.length_drop, List.length_nil] at this
      right
      exact ⟨by omega, trivial⟩
    · rw [decode_mid d hd _ t1 hm, decode_mid d hd _ t2 hm]
      have := DecodeRune_width_le (pre.drop p.pos)
      simp only [List.length_drop] at this
      exact ⟨rfl, Or.inl (by omega)⟩
  have hl1 : ¬ p.pos ≥ (pre ++ d :: t1).length := by
    simp only [List.length_append, List.length_cons]; omega
  have hl2 : ¬ p.pos ≥ (pre ++ d :: t2).length := by
    simp only [List.length_append, List.length_cons]; omega
  refine ⟨?_, ?_, ?_⟩
  · unfold parser.nextc parser.onExpr
    simp only [he]
    rw [if_neg hl1, if_neg hl2]
    simp only [DecodeRuneInString, hdec.1]
  · unfold parser.nextc Before
    rw [he, if_neg hl1]
    simp only [DecodeRuneInString]
    exact hdec.2
  · unfold parser.nextc
    rw [he, if_neg hl1]
    exact DecodeRune_ne_eof _

theorem toks_boundary {pre t1 : List Nat} {d : Nat} {p : parser}
    (he : p.re.expr = pre ++ d :: t1) (hp : p.pos = pre.length + 1) (hc : p.ch = (d : Int)) :
    p.toks = (d : Int) :: runes t1 := by
  unfold parser.toks
  rw [if_neg (by rw [hc]; unfold endOfFile; omega), he, hp, hc]
  congr 2
  rw [show pre ++ d :: t1 = (pre ++ [d]) ++ t1 by simp]
  exact List.drop_left' (by simp)

/-- A parser that has gone past runes that leave the scan in another state than the one
before d has not reached d. -/
theorem not_boundary {pre t1 : List Nat} {d : Nat} (hd : d < 128) {st : ScanState} {p : parser}
    (hst : (scan (runes pre)).2 ≠ st) (he : p.re.expr = pre ++ d :: t1) {pr : List Int}
    (htk : runes (pre ++ d :: t1) = pr ++ p.toks) (hs : (scan pr).2 = st)
    (hb : Before (pre.length + 1) (d : Int) p) : p.pos < pre.length + 1 := by
  rcases hb with h | ⟨h1, h2⟩
  · exact h
  · exfalso
    rw [toks_boundary he h1 h2, runes_fork d hd t1 _ pre (le_refl _)] at htk
    have := List.append_cancel_right htk
    rw [this] at hst
    exact hst hs

theorem inside_ne_eof {e1 : List Nat} {n : Nat} {st : ScanState} {q : parser}
    (hn : n ≤ e1.length) (h : Inside e1 n st q) : q.ch ≠ endOfFile := by
  obtain ⟨hok, he, hp, -⟩ := h
  intro h0
  have := hok.1 h0
  rw [he] at this
  omega

/-- One call of nextc inside a class or after a backslash: the parsers on the two patterns
load the same rune, and the rune is before d. -/
theorem inside_nextc {pre t1 : List Nat} {d : Nat} (hd : d < 128) (t2 : List Nat)
    {st st2 : ScanState} {q : parser} (h : Inside (pre ++ d :: t1) (pre.length + 1) st q)
    (hstep : ∀ a : Nat × ScanState, a.2 = st → (scanStep a q.ch).2 = st2)
    (hout : (scan (runes pre)).2 ≠ st2) :
    (q.onExpr (pre ++ d :: t2)).nextc = q.nextc.onExpr (pre ++ d :: t2) ∧
      Inside (pre ++ d :: t1) (pre.length + 1) st2 q.nextc := by
  have hne := inside_ne_eof (by simp) h
  obtain ⟨hok, he, hp, pr, htk, hs⟩ := h
  obtain ⟨h1, h2, h3⟩ := nextc_fork hd t2 he hp
  have he2 : q.nextc.re.expr = pre ++ d :: t1 := by simpa using he
  have htk2 : runes (pre ++ d :: t1) = (pr ++ [q.ch]) ++ q.nextc.toks := by
    rw [htk, toks_nextc hne]; simp
  have hs2 : (scan (pr ++ [q.ch])).2 = st2 := by
    rw [scan_snoc]; exact hstep _ hs
  exact ⟨h1, posOK_nextc q, he2, not_boundary hd hout he2 htk2 hs2 h2, _, htk2, hs2⟩

theorem scanStep_cls_plain {a : Nat × ScanState} (h : a.2 = .cls) {c : Int} (h1 : c ≠ 92)
    (h2 : c ≠ 93) : (scanStep a c).2 = .cls := by
  unfold scanStep; rw [h]; simp [h1, h2]

theorem scanStep_cls_esc {a : Nat × ScanState} (h : a.2 = .cls) : (scanStep a 92).2 = .escCls := by
  unfold scanStep; rw [h]; simp

theorem scanStep_escCls {a : Nat × ScanState} (h : a.2 = .escCls) (c : Int) :
    (scanStep a c).2 = .cls := by
  unfold scanStep; rw [h]

theorem scanStep_out_esc {a : Nat × ScanState} (h : a.2 = .out) : (scanStep a 92).2 = .escOut := by
  unfold scanStep; rw [h]; simp

theorem scanStep_out_cls {a : Nat × ScanState} (h : a.2 = .out) : (scanStep a 91).2 = .cls := by
  unfold scanStep; rw [h]; simp

/-! ### The two parsers do the same -/

@[simp] theorem onExpr_c (p : parser) (e : List Nat) : (p.onExpr e).c = p.c := rfl

@[simp] theorem onExpr_ch (p : parser) (e : List Nat) : (p.onExpr e).ch = p.ch := rfl

@[simp] theorem onExpr_nlpar (p : parser) (e : List Nat) : (p.onExpr e).nlpar = p.nlpar := rfl

@[simp] theorem onExpr_pos (p : parser) (e : List Nat) : (p.onExpr e).pos = p.pos := rfl

@[simp] theorem onExpr_inst (p : parser) (e : List Nat) : (p.onExpr e).re.inst = p.re.inst := rfl

@[simp] theorem onExpr_nbra (p : parser) (e : List Nat) : (p.onExpr e).re.nbra = p.re.nbra := rfl

theorem onExpr_addI (p : parser) (e : List Nat) (i : instr) :
    (p.onExpr e).addI i = (p.addI i).onExpr e := rfl

theorem setNext_onExpr {re re1 : Regexp} {i j : Option Nat} (e : List Nat)
    (h : re.setNext i j = .ok re1) :
    ({ re with expr := e } : Regexp).setNext i j = .ok { re1 with expr := e } := by
  obtain ⟨k, x, rfl, hx, rfl⟩ := setNext_ok h
  unfold Regexp.setNext
  simp only [hx]

theorem setLeft_onExpr {re re1 : Regexp} {i j : Option Nat} (e : List Nat)
    (h : re.setLeft i j = .ok re1) :
    ({ re with expr := e } : Regexp).setLeft i j = .ok { re1 with expr := e } := by
  obtain ⟨k, x, rfl, hx, rfl⟩ := setLeft_ok h
  unfold Regexp.setLeft
  simp only [hx]

theorem termNil_onExpr {p : parser} (e : List Nat) (h : TermNil p) : TermNil (p.onExpr e) := h

/-- The call of checkBackslash on the two patterns, when the rune after a backslash is the
same in both. -/
theorem checkBackslash_fork {p p1 : parser} {c : Int} (e : List Nat)
    (h : p.checkBackslash = .ok (p1, c))
    (hn : p.c = 92 → (p.onExpr e).nextc = p.nextc.onExpr e) :
    (p.onExpr e).checkBackslash = .ok (p1.onExpr e, c) := by
  rcases checkBackslash_ok h with ⟨h92, rfl, rfl⟩ | ⟨h92, rfl, hne, hc⟩
  · exact checkBackslash_plain _ h92
  · unfold parser.checkBackslash at h ⊢
    simp only [onExpr_c] at h ⊢
    rw [if_pos h92] at h ⊢
    rw [hn h92]
    simp only [onExpr_ch]
    split at h
    · cases h
    · rename_i h1
      rw [if_neg h1]
      split at h
      · rename_i h2
        rw [if_pos h2]
        cases h
        rfl
      · rename_i h2
        rw [if_neg h2]
        split at h
        · rename_i h3
          rw [if_pos h3]
          cases h
          rfl
        · cases h

end GoRegexp

namespace GoRegexp

/-! ## A class before the byte where two patterns part -/

/-- One character of a class, before the byte d outside it: the parsers on the two patterns
read the same character. -/
theorem class_char_fork {pre t1 : List Nat} {d : Nat} (hd : d < 128) (t2 : List Nat)
    (hout : (scan (runes pre)).2 = .out) {q q1 : parser} {c : Int}
    (hin : Inside (pre ++ d :: t1) (pre.length + 1) .cls q)
    (h1 : ¬ (q.c = 93 ∨ q.c = endOfFile)) (hb : q.checkBackslash = .ok (q1, c)) :
    (q.onExpr (pre ++ d :: t2)).checkBackslash = .ok (q1.onExpr (pre ++ d :: t2), c) ∧
      (q1.onExpr (pre ++ d :: t2)).nextc = q1.nextc.onExpr (pre ++ d :: t2) ∧
      Inside (pre ++ d :: t1) (pre.length + 1) .cls q1.nextc := by
  have h93 : q.ch ≠ 93 := fun h => h1 (Or.inl h)
  rcases checkBackslash_ok hb with ⟨h92, e1, -⟩ | ⟨h92, e1, -, -⟩
  · subst e1
    obtain ⟨a1, a2⟩ := inside_nextc hd t2 hin
      (fun a ha => scanStep_cls_plain ha h92 h93) (by rw [hout]; decide)
    exact ⟨checkBackslash_fork _ hb (fun h => absurd h h92), a1, a2⟩
  · subst e1
    have h92' : q.ch = 92 := h92
    obtain ⟨a1, a2⟩ := inside_nextc hd t2 hin
      (fun a ha => by rw [h92']; exact scanStep_cls_esc ha) (by rw [hout]; decide)
    obtain ⟨b1, b2⟩ := inside_nextc hd t2 a2
      (fun a ha => scanStep_escCls ha _) (by rw [hout]; decide)
    exact ⟨checkBackslash_fork _ hb (fun _ => a1), b1, b2⟩

/-- The loop of parser.charClass before the byte d outside the class: the parsers on the
two patterns read the same class. -/
theorem classRun_fork {pre t1 : List Nat} {d : Nat} (hd : d < 128) (t2 : List Nat)
    (hout : (scan (runes pre)).2 = .out) {q q2 : parser} {cc cc2 : charClass} {left : Int}
    (h : ClassRun q cc left q2 cc2) :
    Inside (pre ++ d :: t1) (pre.length + 1) .cls q →
      Inside (pre ++ d :: t1) (pre.length + 1) .cls q2 ∧
      ClassRun (q.onExpr (pre ++ d :: t2)) cc left (q2.onExpr (pre ++ d :: t2)) cc2 := by
  induction h with
  | @done p cc left h1 hl =>
    intro hin
    exact ⟨hin, .done h1 hl⟩
  | @single p p1 cc left c p3 cc3 h1 h2 hb hl h45 hrun ih =>
    intro hin
    obtain ⟨a1, a2, a3⟩ := class_char_fork hd t2 hout hin h1 hb
    obtain ⟨b1, b2⟩ := ih a3
    refine ⟨b1, .single h1 h2 a1 hl ?_ ?_⟩
    · rw [a2]; exact h45
    · rw [a2]; exact b2
  | @lower p p1 cc left c p3 cc3 h1 h2 hb hl h45 hrun ih =>
    intro hin
    obtain ⟨a1, a2, a3⟩ := class_char_fork hd t2 hout hin h1 hb
    have h45' : p1.nextc.ch = 45 := h45
    obtain ⟨c1, c2⟩ := inside_nextc hd t2 a3
      (fun a ha => by rw [h45']; exact scanStep_cls_plain ha (by decide) (by decide))
      (by rw [hout]; decide)
    obtain ⟨b1, b2⟩ := ih c2
    refine ⟨b1, .lower h1 h2 a1 hl ?_ ?_⟩
    · rw [a2]; exact h45
    · rw [a2, c1]; exact b2
  | @upper p p1 cc left c p3 cc3 h1 h2 hb hl hle hrun ih =>
    intro hin
    obtain ⟨a1, a2, a3⟩ := class_char_fork hd t2 hout hin h1 hb
    obtain ⟨b1, b2⟩ := ih a3
    refine ⟨b1, .upper h1 h2 a1 hl hle ?_⟩
    rw [a2]; exact b2

end GoRegexp

namespace GoRegexp

/-! ## The run of the parser up to the byte where two patterns part -/

theorem before_lt {n : Nat} {d : Int} {p : parser} (hb : Before n d p) (hc : p.ch ≠ d) :
    p.pos < n := by
  rcases hb with h | ⟨_, h⟩
  · exact h
  · exact absurd h hc

theorem before_congr {n : Nat} {d : Int} {p q : parser} (hb : Before n d p)
    (h1 : q.pos = p.pos) (h2 : q.ch = p.ch) : Before n d q := by
  unfold Before at hb ⊢
  rw [h1, h2]
  exact hb

theorem entry_inside {e1 : List Nat} {n : Nat} {nt : NT} {p : parser} (h : Entry e1 nt p)
    (hacc : nt.acc = none) (hp : p.pos < n) : Inside e1 n .out p := by
  unfold Entry at h
  rw [hacc] at h
  obtain ⟨hok, he, pr, htk, hs⟩ := h
  exact ⟨hok, he, hp, pr, htk, by rw [hs]⟩

/-- The rune that the parser on the second pattern loads after d. -/
theorem boundary_nextc {pre r : List Nat} {d q : Nat} (hq : q < 128) (p : parser)
    (hp : p.pos = pre.length + 1) :
    (p.onExpr (pre ++ d :: q :: r)).nextc.ch = (q : Int) := by
  have := nextc_eq (p.onExpr (pre ++ d :: q :: r)) (pre ++ [d]) (q :: r) (q : Int) 1
    (by simp [parser.onExpr]) (by simp [parser.onExpr, hp]) (by simp) (decode_ascii q hq r)
  rw [this]

/-- In the second pattern the opening parenthesis d is followed by a quantifier. -/
theorem group_bare {pre r : List Nat} {d q : Nat} (hq : q = 42 ∨ q = 43 ∨ q = 63) (p : parser)
    (hc : p.c = 40) (hp : p.pos = pre.length + 1) (M : Nat) :
    parser.term (M + 6) (p.onExpr (pre ++ d :: q :: r)) = .error (.error .ErrBareClosure) := by
  have hch := @boundary_nextc pre r d q (by omega) p hp
  have hl : (p.onExpr (pre ++ d :: q :: r)).lpar.c = (q : Int) := by
    unfold parser.lpar parser.c
    exact hch
  rw [term_eq_group (M + 5) _ (by simpa using hc),
    regexp_bare M _ (by rw [hl]; omega)]

/-- In the second pattern the bar d is followed by a quantifier. -/
theorem bar_bare {pre r : List Nat} {d q : Nat} (hq : q = 42 ∨ q = 43 ∨ q = 63) (p : parser)
    (hc : p.c = 124) (hp : p.pos = pre.length + 1) (s e : Option Nat) (M : Nat) :
    parser.regexpLoop (M + 5) (p.onExpr (pre ++ d :: q :: r)) s e =
      .error (.error .ErrBareClosure) := by
  have hch := @boundary_nextc pre r d q (by omega) p hp
  refine regexpLoop_err (M + 4) _ s e (by simpa using hc) (concatenation_bare M _ ?_)
  unfold parser.c
  rw [hch]
  omega

/-- A leaf of one rune that is not d: the two parsers go over it in the same way. -/
theorem leaf_fork {pre t1 : List Nat} {d : Nat} (hd : d < 128) (t2 : List Nat) {p : parser}
    (he : p.re.expr = pre ++ d :: t1) (hb : Before (pre.length + 1) (d : Int) p)
    (hc : p.ch ≠ (d : Int)) (i : instr) :
    Before (pre.length + 1) (d : Int) (p.nextc.addI i) ∧
      (p.onExpr (pre ++ d :: t2)).nextc.addI i = (p.nextc.addI i).onExpr (pre ++ d :: t2) := by
  obtain ⟨a1, a2, -⟩ := nextc_fork hd t2 he (before_lt hb hc)
  exact ⟨a2, by rw [a1]; rfl⟩

end GoRegexp

namespace GoRegexp

/-! ## The parser on a pattern with a quantifier after a parenthesis or a bar -/

/-- The run of the parser on a pattern, up to an unescaped parenthesis or bar d outside a
class, against its run on a pattern that begins with the same bytes and has a quantifier
after d: a function that returns before d is gone past returns the same on the second
pattern, and one that goes past d fails on the second pattern with ErrBareClosure. -/
theorem parse_fork {pre t1 r : List Nat} {d q : Nat} (hd : d = 40 ∨ d = 124)
    (hq : q = 42 ∨ q = 43 ∨ q = 63) (hout : (scan (runes pre)).2 = .out)
    {nt : NT} {p p2 : parser} {a0 : Ast} {s e : Nat} (h : Parse nt p a0 p2 s e) :
    Before (pre.length + 1) (d : Int) p → Entry (pre ++ d :: t1) nt p →
      (Before (pre.length + 1) (d : Int) p2 ∧
        Parse nt (p.onExpr (pre ++ d :: q :: r)) a0 (p2.onExpr (pre ++ d :: q :: r)) s e) ∨
      ∃ N, ∀ M, N ≤ M →
        callNT nt M (p.onExpr (pre ++ d :: q :: r)) = .error (.error .ErrBareClosure) := by
  have hd8 : d < 128 := by omega
  induction h with
  | @bot p h =>
    intro hb hent
    have hc : p.ch ≠ (d : Int) := by
      have : p.ch = 94 := h
      rw [this]; omega
    obtain ⟨a1, a2⟩ := leaf_fork hd8 (q :: r) hent.2.1 hb hc { kind := .iBOT }
    refine Or.inl ⟨a1, ?_⟩
    have := Parse.bot (p := p.onExpr (pre ++ d :: q :: r)) h
    rw [a2] at this
    exact this
  | @eot p h =>
    intro hb hent
    have hc : p.ch ≠ (d : Int) := by
      have : p.ch = 36 := h
      rw [this]; omega
    obtain ⟨a1, a2⟩ := leaf_fork hd8 (q :: r) hent.2.1 hb hc { kind := .iEOT }
    refine Or.inl ⟨a1, ?_⟩
    have := Parse.eot (p := p.onExpr (pre ++ d :: q :: r)) h
    rw [a2] at this
    exact this
  | @any p h =>
    intro hb hent
    have hc : p.ch ≠ (d : Int) := by
      have : p.ch = 46 := h
      rw [this]; omega
    obtain ⟨a1, a2⟩ := leaf_fork hd8 (q :: r) hent.2.1 hb hc { kind := .iAny }
    refine Or.inl ⟨a1, ?_⟩
    have := Parse.any (p := p.onExpr (pre ++ d :: q :: r)) h
    rw [a2] at this
    exact this
  | @char p p1 c h hb =>
    intro hbf hent
    have he := hent.2.1
    have hc : p.ch ≠ (d : Int) := by
      intro h0
      apply h
      unfold parser.c
      rw [h0]
      rcases hd with rfl | rfl <;> decide
    have hp := before_lt hbf hc
    have hin := entry_inside hent rfl hp
    rcases checkBackslash_ok hb with ⟨h92, e1, -⟩ | ⟨h92, e1, -, -⟩
    · rw [e1] at hb ⊢
      obtain ⟨a1, a2⟩ := leaf_fork hd8 (q :: r) he hbf hc { kind := .iChar, char := c }
      refine Or.inl ⟨a1, ?_⟩
      have := Parse.char (p := p.onExpr (pre ++ d :: q :: r)) h
        (checkBackslash_fork (pre ++ d :: q :: r) hb (fun h0 => absurd h0 h92))
      rw [a2] at this
      exact this
    · rw [e1] at hb ⊢
      have h92' : p.ch = 92 := h92
      obtain ⟨a1, a2⟩ := inside_nextc hd8 (q :: r) hin
        (fun a ha => by rw [h92']; exact scanStep_out_esc ha) (by rw [hout]; decide)
      obtain ⟨b1, b2, -⟩ := nextc_fork hd8 (q :: r) a2.2.1 a2.2.2.1
      refine Or.inl ⟨b2, ?_⟩
      have := Parse.char (p := p.onExpr (pre ++ d :: q :: r)) h
        (checkBackslash_fork (pre ++ d :: q :: r) hb (fun _ => a1))
      rw [b1] at this
      exact this
  | @cls p p1 cc h hrun h93 =>
    intro hbf hent
    have h91 : p.ch = 91 := h
    have hc : p.ch ≠ (d : Int) := by rw [h91]; omega
    have hp := before_lt hbf hc
    have hin := entry_inside hent rfl hp
    obtain ⟨a1, a2⟩ := inside_nextc hd8 (q :: r) hin
      (fun a ha => by rw [h91]; exact scanStep_out_cls ha) (by rw [hout]; decide)
    have hstart : Inside (pre ++ d :: t1) (pre.length + 1) .cls
          (if p.nextc.c = 94 then p.nextc.nextc else p.nextc) ∧
        (if (p.onExpr (pre ++ d :: q :: r)).nextc.c = 94
          then (p.onExpr (pre ++ d :: q :: r)).nextc.nextc
          else (p.onExpr (pre ++ d :: q :: r)).nextc) =
          (if p.nextc.c = 94 then p.nextc.nextc else p.nextc).onExpr (pre ++ d :: q :: r) := by
      rw [a1]
      by_cases h94 : p.nextc.c = 94
      · have h94' : p.nextc.ch = 94 := h94
        obtain ⟨b1, b2⟩ := inside_nextc hd8 (q :: r) a2
          (fun a ha => by rw [h94']; exact scanStep_cls_plain ha (by decide) (by decide))
          (by rw [hout]; decide)
        simp only [onExpr_c, h94, if_true]
        exact ⟨b2, b1⟩
      · simp only [onExpr_c, h94, if_false]
        exact ⟨a2, trivial⟩
    obtain ⟨c1, c2⟩ := classRun_fork hd8 (q :: r) hout hrun hstart.1
    obtain ⟨d1, d2, -⟩ := nextc_fork hd8 (q :: r) (p := p1.addI (classInstr cc)) c1.2.1 c1.2.2.1
    refine Or.inl ⟨d2, ?_⟩
    have hcr : ClassRun
        (if (p.onExpr (pre ++ d :: q :: r)).nextc.c = 94
          then (p.onExpr (pre ++ d :: q :: r)).nextc.nextc
          else (p.onExpr (pre ++ d :: q :: r)).nextc)
        { newCharClass with negate := decide ((p.onExpr (pre ++ d :: q :: r)).nextc.c = 94) }
        (-1) (p1.onExpr (pre ++ d :: q :: r)) cc := by
      rw [hstart.2, a1]
      exact c2
    have := Parse.cls (p := p.onExpr (pre ++ d :: q :: r)) h hcr h93
    rw [onExpr_addI, d1] at this
    exact this
  | @group p p2 r0 s e re1 re2 h hr hc h1 h2 ih =>
    intro hbf hent
    have he := hent.2.1
    by_cases hp : p.pos < pre.length + 1
    · obtain ⟨a1, a2, a3⟩ := nextc_fork hd8 (q :: r) he hp
      have hlp : (p.onExpr (pre ++ d :: q :: r)).lpar = p.lpar.onExpr (pre ++ d :: q :: r) := by
        unfold parser.lpar
        rw [a1]
        rfl
      have hbl : Before (pre.length + 1) (d : Int) p.lpar :=
        before_congr a2 (by simp [parser.lpar]) (by simp [parser.lpar])
      have hentl : Entry (pre ++ d :: t1) .regexp p.lpar := by
        simp only [Entry, NT.acc] at hent ⊢
        obtain ⟨hok, -, pr, htk, hs⟩ := hent
        have hlt : p.lpar.toks = p.nextc.toks :=
          toks_congr (by simp) (by simp [parser.lpar]) (by simp [parser.lpar])
        refine ⟨posOK_congr (p := p.nextc) (by simp) (by simp [parser.lpar])
          (by simp [parser.lpar]) (posOK_nextc p), by simpa [parser.lpar] using he,
          pr ++ [40], ?_, ?_⟩
        · rw [htk, toks_c h (by decide), hlt]; simp
        · simpa using scan_lpar hs
      rcases ih hbl hentl with ⟨b1, b2⟩ | ⟨N, hN⟩
      · have hc2 : p2.ch ≠ (d : Int) := by
          have : p2.ch = 41 := hc
          rw [this]; omega
        have hp2 := before_lt b1 hc2
        have he2 : p2.re.expr = pre ++ d :: t1 := by
          rw [hr.shrinks.1]; simpa [parser.lpar] using he
        obtain ⟨c1, c2, -⟩ := nextc_fork hd8 (q :: r)
          (p := ({ p2 with nlpar := p2.nlpar - 1 } : parser)) he2 hp2
        have hrp : (p2.onExpr (pre ++ d :: q :: r)).rpar = p2.rpar.onExpr (pre ++ d :: q :: r) := c1
        refine Or.inl ⟨c2, ?_⟩
        have hh1 := setNext_onExpr (pre ++ d :: q :: r) h1
        have hh2 := setNext_onExpr (pre ++ d :: q :: r) h2
        have := @Parse.group (p.onExpr (pre ++ d :: q :: r)) (p2.onExpr (pre ++ d :: q :: r)) r0 s e
          { re1 with expr := pre ++ d :: q :: r } { re2 with expr := pre ++ d :: q :: r } h
          (by rw [hlp]; exact b2) hc (by rw [hrp, hlp]; exact hh1) (by rw [hrp]; exact hh2)
        rw [hrp, hlp] at this
        exact this
      · refine Or.inr ⟨N + 1, fun M hM => ?_⟩
        obtain ⟨M, rfl⟩ : ∃ M', M = M' + 1 := ⟨M - 1, by omega⟩
        simp only [callNT] at hN ⊢
        rw [term_eq_group M _ (by simpa using h), hlp, hN M (by omega)]
    · have hp' : p.pos = pre.length + 1 := by
        rcases hbf with h0 | ⟨h0, -⟩
        · exact absurd h0 hp
        · exact h0
      refine Or.inr ⟨6, fun M hM => ?_⟩
      obtain ⟨M, rfl⟩ : ∃ M', M = M' + 6 := ⟨M - 6, by omega⟩
      exact group_bare hq p h hp' M
  | @plain p r0 p1 s e ht h1 h2 h3 ih =>
    intro hbf hent
    rcases ih hbf (by simpa only [Entry, NT.acc] using hent) with ⟨b1, b2⟩ | ⟨N, hN⟩
    · exact Or.inl ⟨b1, .plain b2 h1 h2 h3⟩
    · refine Or.inr ⟨N + 1, fun M hM => ?_⟩
      obtain ⟨M, rfl⟩ : ∃ M', M = M' + 1 := ⟨M - 1, by omega⟩
      exact closure_err M _ (hN M (by omega))
  | @star p r0 p1 s e re1 re2 ht hc h1 h2 h3 ih =>
    intro hbf hent
    rcases ih hbf (by simpa only [Entry, NT.acc] using hent) with ⟨b1, b2⟩ | ⟨N, hN⟩
    · have hc1 : p1.ch ≠ (d : Int) := by
        have : p1.ch = 42 := hc
        rw [this]; omega
      have hp1 := before_lt b1 hc1
      have he1 : p1.re.expr = pre ++ d :: t1 := by rw [ht.shrinks.1]; exact hent.2.1
      have hex : re2.expr = p1.re.expr := by
        rw [(setLeft_nbra h2).2, (setNext_nbra h1).2]; simp
      have he3 : ({ p1 with re := re2 } : parser).re.expr = pre ++ d :: t1 := by
        rw [← he1, ← hex]
      obtain ⟨c1, c2, -⟩ := nextc_fork hd8 (q :: r) he3 hp1
      have c1' : ({ p1.onExpr (pre ++ d :: q :: r) with
          re := { re2 with expr := pre ++ d :: q :: r } } : parser).nextc =
          ({ p1 with re := re2 } : parser).nextc.onExpr (pre ++ d :: q :: r) := c1
      refine Or.inl ⟨c2, ?_⟩
      have := @Parse.star (p.onExpr (pre ++ d :: q :: r)) r0 (p1.onExpr (pre ++ d :: q :: r)) s e
        { re1 with expr := pre ++ d :: q :: r } { re2 with expr := pre ++ d :: q :: r } b2 hc
        (setNext_onExpr _ h1) (setLeft_onExpr _ h2) (by rw [c1']; exact h3)
      rw [c1'] at this
      exact this
    · refine Or.inr ⟨N + 1, fun M hM => ?_⟩
      obtain ⟨M, rfl⟩ : ∃ M', M = M' + 1 := ⟨M - 1, by omega⟩
      exact closure_err M _ (hN M (by omega))
  | @plus p r0 p1 s e re1 re2 ht hc h1 h2 h3 ih =>
    intro hbf hent
    rcases ih hbf (by simpa only [Entry, NT.acc] using hent) with ⟨b1, b2⟩ | ⟨N, hN⟩
    · have hc1 : p1.ch ≠ (d : Int) := by
        have : p1.ch = 43 := hc
        rw [this]; omega
      have hp1 := before_lt b1 hc1
      have he1 : p1.re.expr = pre ++ d :: t1 := by rw [ht.shrinks.1]; exact hent.2.1
      have hex : re2.expr = p1.re.expr := by
        rw [(setLeft_nbra h2).2, (setNext_nbra h1).2]; simp
      have he3 : ({ p1 with re := re2 } : parser).re.expr = pre ++ d :: t1 := by
        rw [← he1, ← hex]
      obtain ⟨c1, c2, -⟩ := nextc_fork hd8 (q :: r) he3 hp1
      have c1' : ({ p1.onExpr (pre ++ d :: q :: r) with
          re := { re2 with expr := pre ++ d :: q :: r } } : parser).nextc =
          ({ p1 with re := re2 } : parser).nextc.onExpr (pre ++ d :: q :: r) := c1
      refine Or.inl ⟨c2, ?_⟩
      have := @Parse.plus (p.onExpr (pre ++ d :: q :: r)) r0 (p1.onExpr (pre ++ d :: q :: r)) s e
        { re1 with expr := pre ++ d :: q :: r } { re2 with expr := pre ++ d :: q :: r } b2 hc
        (setNext_onExpr _ h1) (setLeft_onExpr _ h2) (by rw [c1']; exact h3)
      rw [c1'] at this
      exact this
    · refine Or.inr ⟨N + 1, fun M hM => ?_⟩
      obtain ⟨M, rfl⟩ : ∃ M', M = M' + 1 := ⟨M - 1, by omega⟩
      exact closure_err M _ (hN M (by omega))
  | @opt p r0 p1 s e re1 re2 re3 ht hc h1 h2 h3 h4 ih =>
    intro hbf hent
    rcases ih hbf (by simpa only [Entry, NT.acc] using hent) with ⟨b1, b2⟩ | ⟨N, hN⟩
    · have hc1 : p1.ch ≠ (d : Int) := by
        have : p1.ch = 63 := hc
        rw [this]; omega
      have hp1 := before_lt b1 hc1
      have he1 : p1.re.expr = pre ++ d :: t1 := by rw [ht.shrinks.1]; exact hent.2.1
      have hex : re3.expr = p1.re.expr := by
        rw [(setNext_nbra h3).2, (setNext_nbra h2).2, (setLeft_nbra h1).2]; simp
      have he3 : ({ p1 with re := re3 } : parser).re.expr = pre ++ d :: t1 := by
        rw [← he1, ← hex]
      obtain ⟨c1, c2, -⟩ := nextc_fork hd8 (q :: r) he3 hp1
      have c1' : ({ p1.onExpr (pre ++ d :: q :: r) with
          re := { re3 with expr := pre ++ d :: q :: r } } : parser).nextc =
          ({ p1 with re := re3 } : parser).nextc.onExpr (pre ++ d :: q :: r) := c1
      refine Or.inl ⟨c2, ?_⟩
      have := @Parse.opt (p.onExpr (pre ++ d :: q :: r)) r0 (p1.onExpr (pre ++ d :: q :: r)) s e
        { re1 with expr := pre ++ d :: q :: r } { re2 with expr := pre ++ d :: q :: r }
        { re3 with expr := pre ++ d :: q :: r } b2 hc
        (setLeft_onExpr _ h1) (setNext_onExpr _ h2) (setNext_onExpr _ h3)
        (by rw [c1']; exact h4)
      rw [c1'] at this
      exact this
    · refine Or.inr ⟨N + 1, fun M hM => ?_⟩
      obtain ⟨M, rfl⟩ : ∃ M', M = M' + 1 := ⟨M - 1, by omega⟩
      exact closure_err M _ (hN M (by omega))
  | @emptyConcat p h =>
    intro hbf _
    exact Or.inl ⟨hbf, .emptyConcat h⟩
  | @first p c p1 s1 e1 r0 p2 s e hc hl ih1 ih2 =>
    intro hbf hent
    rcases ih1 hbf (by simpa only [Entry, NT.acc] using hent) with ⟨b1, b2⟩ | ⟨N, hN⟩
    · simp only [Entry, NT.acc] at hent
      obtain ⟨hok, he, pr, htk, hs⟩ := hent
      obtain ⟨hok1, g1⟩ := parse_gram hc hok
      simp only [NT.acc, NT.gram] at g1
      obtain ⟨t, x1, x2, x3⟩ := g1 pr hs
      have hent2 : Entry (pre ++ d :: t1) (.concatLoop c s1 e1) p1 := by
        simp only [Entry, NT.acc, NT.gram]
        exact ⟨hok1, by rw [hc.shrinks.1, he], pr, t, .one x2,
          by rw [htk, x1, List.append_assoc], x3⟩
      rcases ih2 b1 hent2 with ⟨c1, c2⟩ | ⟨N2, hN2⟩
      · exact Or.inl ⟨c1, .first b2 c2⟩
      · obtain ⟨N1, hN1⟩ := parse_complete b2
        simp only [callNT] at hN1 hN2 ⊢
        refine Or.inr ⟨N1 + N2 + 2, fun M hM => ?_⟩
        obtain ⟨M, rfl⟩ : ∃ M', M = M' + 2 := ⟨M - 2, by omega⟩
        rw [concatenation_eq, concatLoop_first M _ (hN1 M (by omega))]
        exact hN2 M (by omega)
    · refine Or.inr ⟨N + 2, fun M hM => ?_⟩
      obtain ⟨M, rfl⟩ : ∃ M', M = M' + 2 := ⟨M - 2, by omega⟩
      simp only [callNT] at hN ⊢
      rw [concatenation_eq]
      exact concatLoop_err M _ none none (hN M (by omega))
  | @last p ac s e h =>
    intro hbf _
    exact Or.inl ⟨hbf, .last h⟩
  | @next p ac s e c p1 s1 e1 re1 r0 p2 s2 e2 hc h1 hl ih1 ih2 =>
    intro hbf hent
    simp only [Entry, NT.acc, NT.gram] at hent
    obtain ⟨hok, he, pr, t0, hg, htk, hs⟩ := hent
    have hentc : Entry (pre ++ d :: t1) .closure p := by
      simp only [Entry, NT.acc]
      exact ⟨hok, he, pr ++ t0, htk, hs⟩
    rcases ih1 hbf hentc with ⟨b1, b2⟩ | ⟨N, hN⟩
    · obtain ⟨hok1, g1⟩ := parse_gram hc hok
      simp only [NT.acc, NT.gram] at g1
      obtain ⟨t, x1, x2, x3⟩ := g1 (pr ++ t0) hs
      have hex := (setNext_nbra h1).2
      have hnb := (setNext_nbra h1).1
      have htoks : ({ p1 with re := re1 } : parser).toks = p1.toks := toks_congr hex rfl rfl
      have hent2 : Entry (pre ++ d :: t1) (.concatLoop (.cat ac c) s e1)
          ({ p1 with re := re1 } : parser) := by
        simp only [Entry, NT.acc, NT.gram]
        refine ⟨posOK_withRe hok1 re1 hex, by rw [hex, hc.shrinks.1, he], pr, t0 ++ t,
          .more hg x2, ?_, ?_⟩
        · rw [htk, x1, htoks]; simp
        · rw [hnb, ← List.append_assoc]; exact x3
      rcases ih2 (before_congr b1 rfl rfl) hent2 with ⟨c1, c2⟩ | ⟨N2, hN2⟩
      · exact Or.inl ⟨c1, .next b2 (setNext_onExpr _ h1) c2⟩
      · obtain ⟨N1, hN1⟩ := parse_complete b2
        simp only [callNT] at hN1 hN2 ⊢
        refine Or.inr ⟨N1 + N2 + 1, fun M hM => ?_⟩
        obtain ⟨M, rfl⟩ : ∃ M', M = M' + 1 := ⟨M - 1, by omega⟩
        rw [concatLoop_next M _ s e (hN1 M (by omega)) (setNext_onExpr _ h1)]
        exact hN2 M (by omega)
    · refine Or.inr ⟨N + 1, fun M hM => ?_⟩
      obtain ⟨M, rfl⟩ : ∃ M', M = M' + 1 := ⟨M - 1, by omega⟩
      simp only [callNT] at hN ⊢
      exact concatLoop_err M _ _ _ (hN M (by omega))
  | @regexp p c p1 s1 e1 r0 p2 s e hc hl ih1 ih2 =>
    intro hbf hent
    rcases ih1 hbf (by simpa only [Entry, NT.acc] using hent) with ⟨b1, b2⟩ | ⟨N, hN⟩
    · simp only [Entry, NT.acc] at hent
      obtain ⟨hok, he, pr, htk, hs⟩ := hent
      obtain ⟨hok1, g1⟩ := parse_gram hc hok
      simp only [NT.acc, NT.gram] at g1
      obtain ⟨t, x1, x2, x3⟩ := g1 pr hs
      have hent2 : Entry (pre ++ d :: t1) (.regexpLoop c s1 e1) p1 := by
        simp only [Entry, NT.acc, NT.gram]
        exact ⟨hok1, by rw [hc.shrinks.1, he], pr, t, .single x2,
          by rw [htk, x1, List.append_assoc], x3⟩
      rcases ih2 b1 hent2 with ⟨c1, c2⟩ | ⟨N2, hN2⟩
      · exact Or.inl ⟨c1, .regexp b2 c2⟩
      · obtain ⟨N1, hN1⟩ := parse_complete b2
        simp only [callNT] at hN1 hN2 ⊢
        refine Or.inr ⟨N1 + N2 + 1, fun M hM => ?_⟩
        obtain ⟨M, rfl⟩ : ∃ M', M = M' + 1 := ⟨M - 1, by omega⟩
        rw [regexp_eq M _ (hN1 M (by omega))]
        exact hN2 M (by omega)
    · refine Or.inr ⟨N + 1, fun M hM => ?_⟩
      obtain ⟨M, rfl⟩ : ∃ M', M = M' + 1 := ⟨M - 1, by omega⟩
      simp only [callNT] at hN ⊢
      exact regexp_err M _ (hN M (by omega))
  | @done p ac s e h =>
    intro hbf _
    exact Or.inl ⟨hbf, .done h⟩
  | @bar p ac s e c p1 s1 e1 re1 re2 re3 re4 r0 p2 s2 e2 h hc h1 h2 h3 h4 hl ih1 ih2 =>
    intro hbf hent
    simp only [Entry, NT.acc, NT.gram] at hent
    obtain ⟨hok, he, pr, t0, hg, htk, hs⟩ := hent
    by_cases hp : p.pos < pre.length + 1
    · obtain ⟨a1, a2, a3⟩ := nextc_fork hd8 (q :: r) he hp
      have hs1 := scan_plain hs (c := 124) (by decide) (by decide) (by decide)
      have hentc : Entry (pre ++ d :: t1) .concat p.nextc := by
        simp only [Entry, NT.acc]
        refine ⟨posOK_nextc p, by simpa using he, pr ++ t0 ++ [124], ?_, by simpa using hs1⟩
        rw [htk, toks_c h (by decide)]; simp
      rcases ih1 a2 hentc with ⟨b1, b2⟩ | ⟨N, hN⟩
      · obtain ⟨hok1, g1⟩ := parse_gram hc (posOK_nextc p)
        simp only [NT.acc, NT.gram, nextc_re] at g1
        obtain ⟨t, x1, x2, x3⟩ := g1 (pr ++ t0 ++ [124]) hs1
        have hex : re4.expr = p1.re.expr := by
          rw [(setNext_nbra h4).2, (setNext_nbra h3).2]
          simp only [add_expr]
          rw [(setNext_nbra h2).2, (setLeft_nbra h1).2]; simp
        have hnb : re4.nbra = p1.re.nbra := by
          rw [(setNext_nbra h4).1, (setNext_nbra h3).1]
          simp only [add_nbra]
          rw [(setNext_nbra h2).1, (setLeft_nbra h1).1]; simp
        have htoks : ({ p1 with re := re4 } : parser).toks = p1.toks := toks_congr hex rfl rfl
        have hent2 : Entry (pre ++ d :: t1)
            (.regexpLoop (.alt ac c) p1.re.inst.length (p1.re.inst.length + 1))
            ({ p1 with re := re4 } : parser) := by
          simp only [Entry, NT.acc, NT.gram]
          refine ⟨posOK_withRe hok1 re4 hex, ?_, pr, t0 ++ [124] ++ t, .bar hg x2, ?_, ?_⟩
          · rw [hex, hc.shrinks.1]; simpa using he
          · rw [htk, toks_c h (by decide), x1, htoks]; simp
          · rw [hnb]; simpa [List.append_assoc] using x3
        have k1 := setLeft_onExpr (pre ++ d :: q :: r) h1
        have k2 := setNext_onExpr (pre ++ d :: q :: r) h2
        have k3 := setNext_onExpr (pre ++ d :: q :: r) h3
        have k4 := setNext_onExpr (pre ++ d :: q :: r) h4
        have b2' : Parse .concat (p.onExpr (pre ++ d :: q :: r)).nextc c
            (p1.onExpr (pre ++ d :: q :: r)) s1 e1 := by rw [a1]; exact b2
        rcases ih2 (before_congr b1 rfl rfl) hent2 with ⟨c1, c2⟩ | ⟨N2, hN2⟩
        · refine Or.inl ⟨c1, ?_⟩
          exact @Parse.bar (p.onExpr (pre ++ d :: q :: r)) ac s e c
            (p1.onExpr (pre ++ d :: q :: r)) s1 e1
            { re1 with expr := pre ++ d :: q :: r } { re2 with expr := pre ++ d :: q :: r }
            { re3 with expr := pre ++ d :: q :: r } { re4 with expr := pre ++ d :: q :: r }
            r0 (p2.onExpr (pre ++ d :: q :: r)) s2 e2 h b2' k1 k2 k3 k4 c2
        · obtain ⟨N1, hN1⟩ := parse_complete b2'
          simp only [callNT] at hN1 hN2 ⊢
          have l2 : re2.inst.length = p1.re.inst.length + 1 := by
            rw [(setNext_inst h2).1, updNext_length, (setLeft_inst h1).1, updLeft_length]; simp
          refine Or.inr ⟨N1 + N2 + 1, fun M hM => ?_⟩
          obtain ⟨M, rfl⟩ : ∃ M', M = M' + 1 := ⟨M - 1, by omega⟩
          rw [regexpLoop_bar M _ s e (by simpa using h) _ _ _ _ (hN1 M (by omega)) k1 k2 k3 k4]
          have := hN2 M (by omega)
          rw [← l2] at this
          exact this
      · refine Or.inr ⟨N + 1, fun M hM => ?_⟩
        obtain ⟨M, rfl⟩ : ∃ M', M = M' + 1 := ⟨M - 1, by omega⟩
        simp only [callNT] at hN ⊢
        rw [← a1] at hN
        exact regexpLoop_err M _ _ _ (by simpa using h) (hN M (by omega))
    · have hp' : p.pos = pre.length + 1 := by
        rcases hbf with h0 | ⟨h0, -⟩
        · exact absurd h0 hp
        · exact h0
      refine Or.inr ⟨5, fun M hM => ?_⟩
      obtain ⟨M, rfl⟩ : ∃ M', M = M' + 5 := ⟨M - 5, by omega⟩
      exact bar_bare hq p h hp' _ _ M

/-- A quantifier right after an unescaped parenthesis or bar outside a class, at a place up
to which the pattern is the beginning of a pattern that compiles, makes Compile fail with
ErrBareClosure. -/
theorem Compile_fork {pre t1 r : List Nat} {d q : Nat} {re : Regexp} (hd : d = 40 ∨ d = 124)
    (hq : q = 42 ∨ q = 43 ∨ q = 63) (hout : (scan (runes pre)).2 = .out)
    (h : Compile (pre ++ d :: t1) = .ok re) :
    Compile (pre ++ d :: q :: r) = .error (.error .ErrBareClosure) := by
  have hd8 : d < 128 := by omega
  obtain ⟨a, q1, s, e, hp⟩ := Compile_ok_parse h
  have hdec : ∀ t, ∃ c w, DecodeRune (pre ++ d :: t) = (c, w) ∧
      (c, w) = DecodeRune (pre ++ d :: t1) ∧
      (w < pre.length + 1 ∨ (w = pre.length + 1 ∧ c = (d : Int))) := by
    intro t
    by_cases hm : pre = []
    · subst hm
      exact ⟨(d : Int), 1, decode_ascii d hd8 t, (decode_ascii d hd8 t1).symm,
        Or.inr ⟨rfl, rfl⟩⟩
    · have hw := DecodeRune_width_le pre
      exact ⟨(DecodeRune pre).1, (DecodeRune pre).2, decode_mid d hd8 pre t hm,
        (decode_mid d hd8 pre t1 hm).symm, Or.inl (by omega)⟩
  obtain ⟨c, w, e1, -, hw⟩ := hdec t1
  obtain ⟨c2, w2, e2, e3, -⟩ := hdec (q :: r)
  rw [e1] at e3
  cases e3
  have hs1 := startParser_eq (pre ++ d :: t1) c w (by simp) e1
  have hs2 := startParser_eq (pre ++ d :: q :: r) c w (by simp) e2
  have htw : (startParser (pre ++ d :: t1)).onExpr (pre ++ d :: q :: r) =
      startParser (pre ++ d :: q :: r) := by
    rw [hs1, hs2]
    rfl
  have hbef : Before (pre.length + 1) (d : Int) (startParser (pre ++ d :: t1)) := by
    rw [hs1]
    exact hw
  have hok := startParser_posOK (pre ++ d :: t1)
  have hex : (startParser (pre ++ d :: t1)).re.expr = pre ++ d :: t1 := by
    rw [hs1]; rfl
  have hent : Entry (pre ++ d :: t1) .regexp (startParser (pre ++ d :: t1)) := by
    simp only [Entry, NT.acc]
    refine ⟨hok, hex, [], by rw [startParser_toks]; rfl, ?_⟩
    rw [hs1]
    rfl
  rcases parse_fork hd hq hout (r := r) hp hbef hent with ⟨b1, -⟩ | ⟨N, hN⟩
  · exfalso
    have heof := hp.top_eof (startParser_nlpar _)
    have hok1 := (parse_gram hp hok).1
    have hlen := hok1.1 heof
    rw [hp.shrinks.1, hex] at hlen
    simp only [List.length_append, List.length_cons] at hlen
    rcases b1 with h0 | ⟨-, h0⟩
    · omega
    · rw [heof] at h0
      unfold endOfFile at h0
      omega
  · simp only [callNT] at hN
    rw [htw] at hN
    exact Compile_of_regexp_error (regexp_at_parseFuel ⟨N, hN⟩ (by simp))

end GoRegexp

namespace GoRegexp

/-! ## The entry points on a byte slice -/

/-- The matcher on a byte slice is the matcher on the string of the same bytes. -/
theorem doExecute_bytes (re : Regexp) (s b : List Nat) (pos : Nat) :
    re.doExecute s (some b) pos = re.doExecute b none pos := by
  unfold Regexp.doExecute
  simp only [bytesIndex, bytesHasPrefix]

theorem replaceBytesLoop_eq (re : Regexp) (src : List Nat) (repl : List Nat → List Nat) :
    ∀ (fuel : Nat) (last : Int) (pos : Nat) (buf : List Nat),
      replaceBytesLoop re src repl fuel last pos buf = replaceLoop re src repl fuel last pos buf := by
  intro fuel
  induction fuel with
  | zero => intro last pos buf; rfl
  | succ fuel ih =>
    intro last pos buf
    unfold replaceBytesLoop replaceLoop
    simp only [doExecute_bytes, DecodeRuneInString, ih]
    first | done | rfl

theorem ReplaceAllFunc_eq (re : Regexp) (src : List Nat) (repl : List Nat → List Nat) :
    re.ReplaceAllFunc src repl = re.ReplaceAllStringFunc src repl := by
  unfold Regexp.ReplaceAllFunc Regexp.ReplaceAllStringFunc
  exact replaceBytesLoop_eq re src repl _ _ _ _

theorem allMatchesBytesLoop_eq (re : Regexp) (b : List Nat) (n : Int) (end' : Nat) :
    ∀ (fuel pos : Nat) (i prev : Int),
      allMatchesBytesLoop re b n end' fuel pos i prev = allMatchesLoop re b n end' fuel pos i prev := by
  intro fuel
  induction fuel with
  | zero => intro pos i prev; rfl
  | succ fuel ih =>
    intro pos i prev
    unfold allMatchesBytesLoop allMatchesLoop
    simp only [doExecute_bytes, DecodeRuneInString, ih]
    first | done | rfl

theorem allMatchesBytes_eq (re : Regexp) (b : List Nat) (n : Int) :
    re.allMatchesBytes b n = re.allMatches b n := by
  unfold Regexp.allMatchesBytes Regexp.allMatches
  exact allMatchesBytesLoop_eq re b n _ _ _ _ _

/-! ## The pairs of a match vector -/

theorem mapM_total {α β : Type} (f : α → Option β) (l : List α)
    (h : ∀ x ∈ l, ∃ y, f x = some y) : ∃ r, l.mapM f = some r := by
  induction l with
  | nil => exact ⟨[], by rw [List.mapM_nil]; rfl⟩
  | cons a t ih =>
    obtain ⟨y, hy⟩ := h a (by simp)
    obtain ⟨r, hr⟩ := ih (fun x hx => h x (by simp [hx]))
    refine ⟨y :: r, ?_⟩
    rw [List.mapM_cons, hy, hr]
    rfl

/-- The pairs of the vector after a span of the language has been read: a pair is what it
was before, or it holds a span inside the one that was read. -/
theorem langV_pairs {b : List Nat} {r : Ast} {p q : Nat} {m m1 : List Int}
    (h : LangV b r p m q m1) :
    p ≤ b.length → (∃ N, m.length = 2 * N) →
      m1.length = m.length ∧ p ≤ q ∧ q ≤ b.length ∧
      ∀ i, (m1[2 * i]? = m[2 * i]? ∧ m1[2 * i + 1]? = m[2 * i + 1]?) ∨
        ∃ lo hi : Nat, m1[2 * i]? = some (lo : Int) ∧ m1[2 * i + 1]? = some (hi : Int) ∧
          p ≤ lo ∧ lo ≤ hi ∧ hi ≤ q := by
  have hcomp : ∀ {p q t : Nat} {m m1 m2 : List Int}, p ≤ q → q ≤ t →
      (∀ i, (m1[2 * i]? = m[2 * i]? ∧ m1[2 * i + 1]? = m[2 * i + 1]?) ∨
        ∃ lo hi : Nat, m1[2 * i]? = some (lo : Int) ∧ m1[2 * i + 1]? = some (hi : Int) ∧
          p ≤ lo ∧ lo ≤ hi ∧ hi ≤ q) →
      (∀ i, (m2[2 * i]? = m1[2 * i]? ∧ m2[2 * i + 1]? = m1[2 * i + 1]?) ∨
        ∃ lo hi : Nat, m2[2 * i]? = some (lo : Int) ∧ m2[2 * i + 1]? = some (hi : Int) ∧
          q ≤ lo ∧ lo ≤ hi ∧ hi ≤ t) →
      ∀ i, (m2[2 * i]? = m[2 * i]? ∧ m2[2 * i + 1]? = m[2 * i + 1]?) ∨
        ∃ lo hi : Nat, m2[2 * i]? = some (lo : Int) ∧ m2[2 * i + 1]? = some (hi : Int) ∧
          p ≤ lo ∧ lo ≤ hi ∧ hi ≤ t := by
    intro p q t m m1 m2 hpq hqt hA hB i
    rcases hB i with ⟨b1, b2⟩ | ⟨lo, hi, b1, b2, b3, b4, b5⟩
    · rcases hA i with ⟨a1, a2⟩ | ⟨lo, hi, a1, a2, a3, a4, a5⟩
      · exact Or.inl ⟨b1.trans a1, b2.trans a2⟩
      · exact Or.inr ⟨lo, hi, b1.trans a1, b2.trans a2, a3, a4, by omega⟩
    · exact Or.inr ⟨lo, hi, b1, b2, by omega, b4, b5⟩
  have hstep : ∀ p : Nat, p < b.length → p + (DecodeRune (b.drop p)).2 ≤ b.length := by
    intro p hp
    have := DecodeRune_width_le (b.drop p)
    simp only [List.length_drop] at this
    omega
  induction h with
  | bot => intro hp _; exact ⟨rfl, le_refl _, hp, fun i => Or.inl ⟨rfl, rfl⟩⟩
  | eot => intro hp _; exact ⟨rfl, le_refl _, hp, fun i => Or.inl ⟨rfl, rfl⟩⟩
  | any hl => intro _ _; exact ⟨rfl, by omega, hstep _ hl, fun i => Or.inl ⟨rfl, rfl⟩⟩
  | char hl _ => intro _ _; exact ⟨rfl, by omega, hstep _ hl, fun i => Or.inl ⟨rfl, rfl⟩⟩
  | cls hl _ => intro _ _; exact ⟨rfl, by omega, hstep _ hl, fun i => Or.inl ⟨rfl, rfl⟩⟩
  | @group k r p q m m1 _ ih =>
    intro hp hev
    obtain ⟨N, hN⟩ := hev
    obtain ⟨h1, h2, h3, h4⟩ := ih hp ⟨N, by rw [List.length_set, hN]⟩
    rw [List.length_set] at h1
    refine ⟨by rw [List.length_set, h1], h2, h3, fun i => ?_⟩
    by_cases hik : i = k
    · subst hik
      by_cases hlt : 2 * i + 1 < m.length
      · right
        have e1 : (m1.set (2 * i + 1) (q : Int))[2 * i + 1]? = some (q : Int) :=
          List.getElem?_set_self (by omega)
        have e0 : (m1.set (2 * i + 1) (q : Int))[2 * i]? = m1[2 * i]? :=
          List.getElem?_set_ne (by omega)
        rcases h4 i with ⟨a1, -⟩ | ⟨lo, hi, a1, a2, a3, a4, a5⟩
        · rw [List.getElem?_set_self (by omega)] at a1
          exact ⟨p, q, by rw [e0, a1], e1, le_refl _, h2, le_refl _⟩
        · exact ⟨lo, q, by rw [e0, a1], e1, a3, by omega, le_refl _⟩
      · left
        have hl2 : m.length ≤ 2 * i := by omega
        constructor
        · rw [List.getElem?_eq_none (by rw [List.length_set]; omega),
            List.getElem?_eq_none hl2]
        · rw [List.getElem?_eq_none (by rw [List.length_set]; omega),
            List.getElem?_eq_none (by omega)]
    · have e0 : (m1.set (2 * k + 1) (q : Int))[2 * i]? = m1[2 * i]? :=
        List.getElem?_set_ne (by omega)
      have e1 : (m1.set (2 * k + 1) (q : Int))[2 * i + 1]? = m1[2 * i + 1]? :=
        List.getElem?_set_ne (by omega)
      have f0 : (m.set (2 * k) (p : Int))[2 * i]? = m[2 * i]? :=
        List.getElem?_set_ne (by omega)
      have f1 : (m.set (2 * k) (p : Int))[2 * i + 1]? = m[2 * i + 1]? :=
        List.getElem?_set_ne (by omega)
      rw [e0, e1]
      rcases h4 i with ⟨a1, a2⟩ | h5
      · exact Or.inl ⟨a1.trans f0, a2.trans f1⟩
      · exact Or.inr h5
  | starNil => intro hp _; exact ⟨rfl, le_refl _, hp, fun i => Or.inl ⟨rfl, rfl⟩⟩
  | starCons _ _ ih1 ih2 =>
    intro hp hev
    obtain ⟨a1, a2, a3, a4⟩ := ih1 hp hev
    obtain ⟨b1, b2, b3, b4⟩ := ih2 a3 (by rw [a1]; exact hev)
    exact ⟨b1.trans a1, by omega, b3, hcomp a2 b2 a4 b4⟩
  | plus _ _ ih1 ih2 =>
    intro hp hev
    obtain ⟨a1, a2, a3, a4⟩ := ih1 hp hev
    obtain ⟨b1, b2, b3, b4⟩ := ih2 a3 (by rw [a1]; exact hev)
    exact ⟨b1.trans a1, by omega, b3, hcomp a2 b2 a4 b4⟩
  | optNil => intro hp _; exact ⟨rfl, le_refl _, hp, fun i => Or.inl ⟨rfl, rfl⟩⟩
  | optSome _ ih => exact ih
  | empty => intro hp _; exact ⟨rfl, le_refl _, hp, fun i => Or.inl ⟨rfl, rfl⟩⟩
  | cat _ _ ih1 ih2 =>
    intro hp hev
    obtain ⟨a1, a2, a3, a4⟩ := ih1 hp hev
    obtain ⟨b1, b2, b3, b4⟩ := ih2 a3 (by rw [a1]; exact hev)
    exact ⟨b1.trans a1, by omega, b3, hcomp a2 b2 a4 b4⟩
  | altLeft _ ih => exact ih
  | altRight _ ih => exact ih

/-- The vector of a match of a compiled program has the length of the arena, holds the span
of the match in its first pair, and every other pair of it is unset or a span of the
subject. -/
theorem matchAt_pairs {pat : List Nat} {re : Regexp} (h : Compile pat = .ok re)
    {rk : Nat → Nat} {x0 : instr} {s0 : Nat} (hR : Ready re rk x0 s0) {b : List Nat}
    {pos : Nat} {m : List Int} (hm : MatchAt re b s0 pos m) :
    m.length = 2 * (re.nbra + 1) ∧ PairsOK b m := by
  obtain ⟨a, q1, s, e, hp⟩ := Compile_ok_parse h
  obtain ⟨hlen, -⟩ := MatchAt_span hR.prog hm
  obtain ⟨p, q, tr, m1, k, e1, e2, e3, e4, e5⟩ := hm
  have hpq := Run_pos_le e3
  obtain ⟨m2, hl, hm2⟩ := (Compile_semantics h hp b p q m).1
    ⟨tr, 0, x0, s0, k, m1, hR.start, hR.first, hR.next, e3, e4, e5⟩
  obtain ⟨a1, a2, a3, a4⟩ := langV_pairs hl (by omega) ⟨re.nbra + 1, seedVec_length re p⟩
  rw [seedVec_length] at a1
  refine ⟨hlen, ?_⟩
  intro i lo hlo h0
  by_cases hi0 : i = 0
  · subst hi0
    have g1 : m[2 * 0 + 1]? = some (q : Int) := by
      rw [hm2]
      exact List.getElem?_set_self (by omega)
    have g0 : m[2 * 0]? = m2[2 * 0]? := by
      rw [hm2]
      exact List.getElem?_set_ne (by omega)
    rw [g0] at hlo
    rcases a4 0 with ⟨c1, -⟩ | ⟨lo2, hi2, c1, c2, c3, c4, c5⟩
    · rw [c1] at hlo
      have : (seedVec re p)[2 * 0]? = some (p : Int) := by
        unfold seedVec
        exact List.getElem?_set_self (by simp [noMatch])
      rw [this] at hlo
      cases hlo
      exact ⟨q, g1, by omega, by omega⟩
    · rw [c1] at hlo
      cases hlo
      exact ⟨q, g1, by omega, by omega⟩
  · have g0 : m[2 * i]? = m2[2 * i]? := by
      rw [hm2]
      exact List.getElem?_set_ne (by omega)
    have g1 : m[2 * i + 1]? = m2[2 * i + 1]? := by
      rw [hm2]
      exact List.getElem?_set_ne (by omega)
    rw [g0] at hlo
    rw [g1]
    rcases a4 i with ⟨c1, -⟩ | ⟨lo2, hi2, c1, c2, c3, c4, c5⟩
    · exfalso
      rw [c1] at hlo
      by_cases hlt : 2 * i < 2 * (re.nbra + 1)
      · rw [seedVec_entry re p (2 * i) (by omega) hlt] at hlo
        cases hlo
        omega
      · rw [List.getElem?_eq_none (by rw [seedVec_length]; omega)] at hlo
        cases hlo
    · rw [c1] at hlo
      cases hlo
      exact ⟨hi2, c2, by omega, by omega⟩

theorem sliceOf_some (b : List Nat) (lo hi : Int) (h0 : 0 ≤ lo) (h1 : lo ≤ hi)
    (h2 : hi ≤ (b.length : Int)) : ∃ t, sliceOf b lo hi = some t := by
  unfold sliceOf
  rw [if_pos ⟨h0, h1, h2⟩]
  exact ⟨_, rfl⟩

/-- The slices of the subject that the Find functions take for a match vector exist. -/
theorem pairs_texts {b : List Nat} {m : List Int} {N : Nat} (hl : m.length = 2 * (N + 1))
    (hp : PairsOK b m) (h0 : ∃ p : Nat, m[0]? = some (p : Int)) :
    (∃ t, matchText b m = some t) ∧ (∃ t, matchSpan m = some t) ∧
      ∃ t, submatchTexts b m = some t := by
  refine ⟨?_, ?_, ?_⟩
  · obtain ⟨p, hp0⟩ := h0
    obtain ⟨hi, e1, e2, e3⟩ := hp 0 p hp0 (by omega)
    unfold matchText
    simp only [Nat.mul_zero, Nat.zero_add] at e1
    rw [hp0, e1]
    exact sliceOf_some b _ _ (by omega) e2 e3
  · unfold matchSpan
    rw [if_pos (by omega)]
    exact ⟨_, rfl⟩
  · unfold submatchTexts
    apply mapM_total
    intro i hi
    rw [List.mem_range] at hi
    have hlt : 2 * i < m.length := by omega
    rw [List.getElem?_eq_getElem hlt]
    simp only
    by_cases hge : m[2 * i] ≥ 0
    · rw [if_pos hge]
      obtain ⟨hi2, e1, e2, e3⟩ := hp i _ (List.getElem?_eq_getElem hlt) hge
      rw [e1]
      obtain ⟨t, ht⟩ := sliceOf_some b _ _ hge e2 e3
      exact ⟨some t, by simp [ht]⟩
    · rw [if_neg hge]
      exact ⟨none, rfl⟩

/-! ## The entry points return -/

/-- The matcher on a compiled program returns, on a string and on a byte slice, and the
vector it returns can be sliced as the Find functions do. -/
theorem doExecute_total {pat : List Nat} {re : Regexp} (h : Compile pat = .ok re)
    (s : List Nat) (pos : Nat) (hpos : pos ≤ s.length) :
    ∃ r, re.doExecute s none pos = some r ∧ (∀ x, re.doExecute x (some s) pos = some r) ∧
      ∀ m, r = some m → m.length = 2 * (re.nbra + 1) ∧ PairsOK s m ∧
        ∃ p : Nat, m[0]? = some (p : Int) := by
  obtain ⟨rk, x0, s0, hR⟩ := Compile_ready h
  obtain ⟨r, hr, hm⟩ := doExecute_sound hR s pos hpos
  refine ⟨r, hr, fun x => by rw [doExecute_bytes, hr], fun m e => ?_⟩
  obtain ⟨a1, a2⟩ := matchAt_pairs h hR (hm m e)
  obtain ⟨-, p, q, b1, -⟩ := MatchAt_span hR.prog (hm m e)
  exact ⟨a1, a2, p, b1⟩

/-- The loop of allMatches on a compiled program returns, for every limit, and the vectors
it delivers can be sliced as the Find functions do. -/
theorem allMatches_total {pat : List Nat} {re : Regexp} (h : Compile pat = .ok re)
    (s : List Nat) (n : Int) :
    ∃ R, re.allMatches s n = some R ∧ re.allMatchesBytes s n = some R ∧
      ∀ m ∈ R, m.length = 2 * (re.nbra + 1) ∧ PairsOK s m ∧ ∃ p : Nat, m[0]? = some (p : Int) := by
  obtain ⟨rk, x0, s0, hR⟩ := Compile_ready h
  obtain ⟨R, h1, -, -, h4⟩ := allMatchesLoop_spec hR s (s.length + 2) 0 (-1) (by omega)
    (by omega) (by omega)
  have e1 : re.allMatches s n = some (R.take n.toNat) := by
    unfold Regexp.allMatches
    exact h1 n
  refine ⟨R.take n.toNat, e1, by rw [allMatchesBytes_eq, e1], fun m hm => ?_⟩
  have hmem := MatchesFrom_mem R 0 h4 m (List.mem_of_mem_take hm)
  obtain ⟨a1, a2⟩ := matchAt_pairs h hR hmem
  obtain ⟨-, p, q, b1, -⟩ := MatchAt_span hR.prog hmem
  exact ⟨a1, a2, p, b1⟩

/-- ReplaceAllStringFunc and ReplaceAllFunc return on a compiled program. -/
theorem replace_total {pat : List Nat} {re : Regexp} (h : Compile pat = .ok re)
    (s : List Nat) (f : List Nat → List Nat) :
    ∃ r, re.ReplaceAllStringFunc s f = some r ∧ re.ReplaceAllFunc s f = some r := by
  obtain ⟨rk, x0, s0, hR⟩ := Compile_ready h
  have hpre := prefix_head (Compile_prefixed h)
  obtain ⟨R, h1, h2, -, -⟩ := allMatchesLoop_spec hR s (s.length + 2) 0 (-1) (by omega)
    (by omega) (by omega)
  have hl := h1 ((s.length : Int) + 2)
  rw [List.take_of_length_le (by omega)] at hl
  have := replaceLoop_spec hR hpre s f (s.length + 2) 0 (-1) 0 []
    ((s.length : Int) + 2) R (by omega) (by omega) (Or.inl ⟨rfl, rfl, rfl⟩) (by omega) hl
    (by omega)
  have e1 : re.ReplaceAllStringFunc s f = some ([] ++ spliceSpans s f (0 : Int).toNat
      (R.map (fun a => a.take 2))) := this
  exact ⟨_, e1, by rw [ReplaceAllFunc_eq, e1]⟩

/-- The functions that find the leftmost match return on a compiled program. -/
theorem find_total {pat : List Nat} {re : Regexp} (h : Compile pat = .ok re) (s : List Nat) :
    (∃ r, re.MatchString s = some r) ∧ (∃ r, re.Match s = some r) ∧
    (∃ r, re.Find s = some r) ∧ (∃ r, re.FindIndex s = some r) ∧
    (∃ r, re.FindString s = some r) ∧ (∃ r, re.FindStringIndex s = some r) ∧
    (∃ r, re.FindSubmatch s = some r) ∧ (∃ r, re.FindSubmatchIndex s = some r) ∧
    (∃ r, re.FindStringSubmatch s = some r) ∧ (∃ r, re.FindStringSubmatchIndex s = some r) := by
  obtain ⟨r, hr, hb, hm⟩ := doExecute_total h s 0 (Nat.zero_le _)
  have hb0 := hb []
  unfold Regexp.MatchString Regexp.Match Regexp.Find Regexp.FindIndex Regexp.FindString
    Regexp.FindStringIndex Regexp.FindSubmatch Regexp.FindSubmatchIndex
    Regexp.FindStringSubmatch Regexp.FindStringSubmatchIndex
  rw [hr, hb0]
  cases r with
  | none => exact ⟨⟨_, rfl⟩, ⟨_, rfl⟩, ⟨_, rfl⟩, ⟨_, rfl⟩, ⟨_, rfl⟩, ⟨_, rfl⟩, ⟨_, rfl⟩, ⟨_, rfl⟩,
      ⟨_, rfl⟩, ⟨_, rfl⟩⟩
  | some m =>
    obtain ⟨a1, a2, a3⟩ := hm m rfl
    obtain ⟨⟨t1, e1⟩, ⟨t2, e2⟩, ⟨t3, e3⟩⟩ := pairs_texts a1 a2 a3
    simp only [e1, e2, e3, Option.map_some']
    rw [if_pos (by omega)]
    exact ⟨⟨_, rfl⟩, ⟨_, rfl⟩, ⟨_, rfl⟩, ⟨_, rfl⟩, ⟨_, rfl⟩, ⟨_, rfl⟩, ⟨_, rfl⟩, ⟨_, rfl⟩,
      ⟨_, rfl⟩, ⟨_, rfl⟩⟩

/-- The functions that find all matches return on a compiled program. -/
theorem findAll_total {pat : List Nat} {re : Regexp} (h : Compile pat = .ok re) (s : List Nat)
    (n : Int) :
    (∃ r, re.FindAll s n = some r) ∧ (∃ r, re.FindAllIndex s n = some r) ∧
    (∃ r, re.FindAllString s n = some r) ∧ (∃ r, re.FindAllStringIndex s n = some r) ∧
    (∃ r, re.FindAllSubmatch s n = some r) ∧ (∃ r, re.FindAllSubmatchIndex s n = some r) ∧
    (∃ r, re.FindAllStringSubmatch s n = some r) ∧
    (∃ r, re.FindAllStringSubmatchIndex s n = some r) := by
  obtain ⟨R, h1, h2, h3⟩ := allMatches_total h s (if n < 0 then (s.length : Int) + 1 else n)
  have t1 : ∃ r, R.mapM (matchText s) = some r :=
    mapM_total _ _ fun m hm => by
      obtain ⟨a1, a2, a3⟩ := h3 m hm
      exact (pairs_texts a1 a2 a3).1
  have t2 : ∃ r, R.mapM matchSpan = some r :=
    mapM_total _ _ fun m hm => by
      obtain ⟨a1, a2, a3⟩ := h3 m hm
      exact (pairs_texts a1 a2 a3).2.1
  have t3 : ∃ r, R.mapM (submatchTexts s) = some r :=
    mapM_total _ _ fun m hm => by
      obtain ⟨a1, a2, a3⟩ := h3 m hm
      exact (pairs_texts a1 a2 a3).2.2
  unfold Regexp.FindAll Regexp.FindAllIndex Regexp.FindAllString Regexp.FindAllStringIndex
    Regexp.FindAllSubmatch Regexp.FindAllSubmatchIndex Regexp.FindAllStringSubmatch
    Regexp.FindAllStringSubmatchIndex
  simp only [h1, h2, Option.some_bind, Option.map_some']
  exact ⟨t1, t2, t1, ⟨_, rfl⟩, t3, ⟨_, rfl⟩, t3, ⟨_, rfl⟩⟩

end GoRegexp

namespace GoRegexp

/-! ## QuoteMeta: the text it returns -/

theorem quoteBytes_length (s : List Nat) : (quoteBytes s).length ≤ 2 * s.length := by
  induction s with
  | nil => simp [quoteBytes]
  | cons x t ih =>
    have : quoteBytes (x :: t) = (if special (x : Int) then [92, x] else [x]) ++ quoteBytes t := by
      simp [quoteBytes, List.flatMap_cons]
    rw [this]
    split <;> simp only [List.length_append, List.length_cons, List.length_nil] <;> omega

theorem quoteBytes_cons (x : Nat) (t : List Nat) :
    quoteBytes (x :: t) = (if special (x : Int) then [92, x] else [x]) ++ quoteBytes t := by
  simp [quoteBytes, List.flatMap_cons]

theorem quoteBytes_append (a b : List Nat) : quoteBytes (a ++ b) = quoteBytes a ++ quoteBytes b := by
  simp [quoteBytes, List.flatMap_append]

/-- The loop of QuoteMeta writes the quoted bytes after the bytes it has written, when the
buffer has room for two bytes for each byte left. -/
theorem quoteLoop_spec : ∀ (s pre junk : List Nat), 2 * s.length ≤ junk.length →
    quoteLoop s (pre ++ junk) pre.length =
      some (pre ++ quoteBytes s ++ junk.drop (quoteBytes s).length,
        pre.length + (quoteBytes s).length) := by
  intro s
  induction s with
  | nil => intro pre junk _; simp [quoteLoop, quoteBytes]
  | cons x t ih =>
    intro pre junk h
    simp only [List.length_cons] at h
    rw [quoteBytes_cons]
    unfold quoteLoop
    by_cases hx : special (x : Int) = true
    · rw [if_pos hx, if_pos hx]
      obtain ⟨j1, junk1, rfl⟩ : ∃ j1 junk1, junk = j1 :: junk1 := by
        cases junk with
        | nil => simp at h
        | cons a b => exact ⟨a, b, rfl⟩
      obtain ⟨j2, junk2, rfl⟩ : ∃ j2 junk2, junk1 = j2 :: junk2 := by
        cases junk1 with
        | nil => simp at h; omega
        | cons a b => exact ⟨a, b, rfl⟩
      simp only [List.length_cons] at h
      rw [if_pos (by simp)]
      simp only
      rw [if_pos (by simp), set_at_length]
      have e1 : pre ++ 92 :: j2 :: junk2 = (pre ++ [92]) ++ j2 :: junk2 := by simp
      have e2 : pre.length + 1 = (pre ++ [92]).length := by simp
      rw [e1, e2, set_at_length]
      have := ih (pre ++ [92, x]) junk2 (by omega)
      simp only [List.length_append, List.length_singleton, List.length_cons, List.length_nil,
        List.append_assoc, List.singleton_append, List.cons_append, List.nil_append] at this ⊢
      rw [this]
      simp only [List.drop_succ_cons, Option.some.injEq, Prod.mk.injEq, true_and]
      omega
    · rw [if_neg hx, if_neg hx]
      obtain ⟨j1, junk1, rfl⟩ : ∃ j1 junk1, junk = j1 :: junk1 := by
        cases junk with
        | nil => simp at h
        | cons a b => exact ⟨a, b, rfl⟩
      simp only [List.length_cons] at h
      rw [if_pos (by simp), set_at_length]
      have := ih (pre ++ [x]) junk1 (by omega)
      simp only [List.length_append, List.length_singleton, List.length_cons, List.length_nil,
        List.append_assoc, List.singleton_append, List.cons_append, List.nil_append] at this ⊢
      rw [this]
      simp only [List.drop_succ_cons, Option.some.injEq, Prod.mk.injEq, true_and]
      omega

/-- QuoteMeta returns, and what it returns is the text with a backslash before every byte
that is a metacharacter. -/
theorem QuoteMeta_eq (s : List Nat) : QuoteMeta s = some (quoteBytes s) := by
  unfold QuoteMeta
  have := quoteLoop_spec s [] (List.replicate (2 * s.length) 0) (by simp)
  simp only [List.nil_append, List.length_nil, Nat.zero_add] at this
  rw [this]
  simp

theorem special_iff (c : Int) : special c = true ↔
    c = 92 ∨ c = 46 ∨ c = 43 ∨ c = 42 ∨ c = 63 ∨ c = 40 ∨ c = 41 ∨ c = 124 ∨ c = 91 ∨
      c = 93 ∨ c = 94 ∨ c = 36 := by
  simp [special, specialRunes]

theorem special_punct {c : Int} (h : special c = true) : ispunct c = true := by
  rw [special_iff] at h
  rcases h with h | h | h | h | h | h | h | h | h | h | h | h <;> subst h <;> decide

theorem special_bytes (x : Nat) :
    special (x : Int) = true ↔ x ∈ bytesOf "\\.+*?()|[]^$" := by
  have : bytesOf "\\.+*?()|[]^$" = [92, 46, 43, 42, 63, 40, 41, 124, 91, 93, 94, 36] := by
    decide
  rw [this, special_iff]
  simp only [List.mem_cons, List.mem_singleton, List.not_mem_nil, or_false]
  omega

end GoRegexp

namespace GoRegexp

/-! ## The parse of a quoted text -/

theorem toks_nil_ch {p : parser} (h : p.toks = []) : p.ch = endOfFile := by
  unfold parser.toks at h
  split at h
  · assumption
  · cases h

theorem toks_head {p : parser} {c : Int} {rest : List Int} (h : p.toks = c :: rest) :
    p.ch = c ∧ p.ch ≠ endOfFile ∧ p.nextc.toks = rest := by
  have hne : p.ch ≠ endOfFile := by
    intro h0
    rw [toks_eof h0] at h
    cases h
  rw [toks_nextc hne] at h
  injection h with h1 h2
  exact ⟨h1, hne, h2⟩

theorem quoteRunes_cons (c : Int) (cs : List Int) :
    quoteRunes (c :: cs) = (if special c then [92, c] else [c]) ++ quoteRunes cs := by
  simp [quoteRunes, List.flatMap_cons]

/-- The rune the parser is at, when the runes it has not gone past are a quoted text, is not
a quantifier. -/
theorem quoted_not_closure {p : parser} {cs : List Int} (h : p.toks = quoteRunes cs) :
    p.c ≠ 42 ∧ p.c ≠ 43 ∧ p.c ≠ 63 ∧ p.c ≠ 124 ∧
      (cs = [] → p.ch = endOfFile) := by
  cases cs with
  | nil =>
    have := toks_nil_ch (by rw [h]; rfl)
    unfold parser.c
    rw [this]
    exact ⟨by decide, by decide, by decide, by decide, fun _ => rfl⟩
  | cons c cs =>
    rw [quoteRunes_cons] at h
    unfold parser.c
    by_cases hc : special c = true
    · rw [if_pos hc] at h
      obtain ⟨h1, -, -⟩ := toks_head h
      rw [h1]
      exact ⟨by decide, by decide, by decide, by decide, fun h0 => by cases h0⟩
    · rw [if_neg hc] at h
      obtain ⟨h1, -, -⟩ := toks_head h
      rw [h1]
      rw [special_iff] at hc
      exact ⟨fun h0 => hc (by omega), fun h0 => hc (by omega), fun h0 => hc (by omega),
        fun h0 => hc (by omega), fun h0 => by cases h0⟩

/-- The parser reads a character of a quoted text, with the backslash before it if it has
one, as a term: the character itself. -/
theorem quoted_term {p : parser} {c : Int} {rest : List Int}
    (h : p.toks = (if special c then [92, c] else [c]) ++ rest) :
    ∃ p1, Parse .term p (.char c) p1 p.re.inst.length p.re.inst.length ∧ PosOK p1 ∧
      p1.toks = rest ∧ p1.re.inst.length = p.re.inst.length + 1 := by
  by_cases hc : special c = true
  · rw [if_pos hc] at h
    obtain ⟨h1, h2, h3⟩ := toks_head h
    obtain ⟨h4, h5, h6⟩ := toks_head h3
    have hpc : p.c = 92 := h1
    have hts : p.c ∉ termSpecial := by rw [hpc]; decide
    have hb := checkBackslash_punct p hpc (by rw [h4]; exact special_punct hc)
    rw [h4] at hb
    refine ⟨_, Parse.char hts hb, posOK_addI (posOK_nextc _) _, ?_, ?_⟩
    · rw [addI_toks]; exact h6
    · simp
  · rw [if_neg hc] at h
    obtain ⟨h1, h2, h3⟩ := toks_head h
    have hpc : p.c = c := h1
    rw [special_iff] at hc
    have hts : p.c ∉ termSpecial := by
      rw [hpc]
      unfold termSpecial
      simp only [List.mem_cons, List.mem_singleton, List.not_mem_nil, or_false]
      intro h0
      rcases h0 with h0 | h0 | h0 | h0 | h0 | h0 | h0 | h0 | h0 | h0 | h0 | h0
      · exact hc (by omega)
      · rw [← h1] at h0; exact h2 h0
      all_goals exact hc (by omega)
    have hb := checkBackslash_plain p (by rw [hpc]; intro h0; exact hc (by omega))
    rw [hpc] at hb
    refine ⟨_, Parse.char hts hb, posOK_addI (posOK_nextc _) _, ?_, ?_⟩
    · rw [addI_toks]; exact h3
    · simp

theorem catAst_cons (a : Ast) (c : Int) (cs : List Int) :
    catAst a (c :: cs) = catAst (.cat a (.char c)) cs := rfl

/-- The loop of parser.concatenation reads a quoted text to its end. -/
theorem quoted_loop : ∀ (cs : List Int) (p : parser) (a : Ast) (s e : Nat), PosOK p →
    p.toks = quoteRunes cs → e < p.re.inst.length →
    ∃ p2 e2, Parse (.concatLoop a s e) p (catAst a cs) p2 s e2 ∧ p2.ch = endOfFile := by
  intro cs
  induction cs with
  | nil =>
    intro p a s e hp ht he
    have h0 := toks_nil_ch (by rw [ht]; rfl)
    exact ⟨p, e, Parse.last (Or.inr (Or.inl h0)), h0⟩
  | cons c cs ih =>
    intro p a s e hp ht he
    rw [quoteRunes_cons] at ht
    obtain ⟨p1, h1, h2, h3, h4⟩ := quoted_term ht
    obtain ⟨c1, c2, c3, -, -⟩ := quoted_not_closure h3
    have hcl := Parse.plain h1 c1 c2 c3
    obtain ⟨re1, hre1⟩ := setNext_some p1.re e (some p.re.inst.length) (by omega)
    have hx := setNext_nbra hre1
    have hl := setNext_length hre1
    have hp1 : PosOK ({ p1 with re := re1 } : parser) :=
      posOK_congr (p := p1) hx.2.symm rfl rfl h2
    have ht1 : ({ p1 with re := re1 } : parser).toks = quoteRunes cs := by
      rw [← h3]
      exact toks_congr hx.2 rfl rfl
    obtain ⟨p2, e2, h5, h6⟩ := ih { p1 with re := re1 } (.cat a (.char c)) s p.re.inst.length
      hp1 ht1 (by simp only [hl]; omega)
    exact ⟨p2, e2, Parse.next hcl hre1 h5, h6⟩

/-- A pattern whose runes are a quoted text is read by the parser as the sequence of the
characters of the text. -/
theorem quoted_parse {pat : List Nat} {cs : List Int} (h : runes pat = quoteRunes cs) :
    ∃ q1 s e, Parse .regexp (startParser pat) (litAst cs) q1 s e := by
  have hp := startParser_posOK pat
  have ht : (startParser pat).toks = quoteRunes cs := by rw [startParser_toks, h]
  cases cs with
  | nil =>
    have h0 := toks_nil_ch (by rw [ht]; rfl)
    have hc := @Parse.emptyConcat (startParser pat) (Or.inr (Or.inl h0))
    refine ⟨_, _, _, Parse.regexp hc (Parse.done ?_)⟩
    unfold parser.c
    rw [addI_ch, h0]
    decide
  | cons c cs =>
    rw [quoteRunes_cons] at ht
    obtain ⟨p1, h1, h2, h3, h4⟩ := quoted_term ht
    obtain ⟨c1, c2, c3, -, -⟩ := quoted_not_closure h3
    have hcl := Parse.plain h1 c1 c2 c3
    obtain ⟨p2, e2, h5, h6⟩ := quoted_loop cs p1 (.char c) (startParser pat).re.inst.length
      (startParser pat).re.inst.length h2 h3 (by omega)
    refine ⟨p2, _, e2, Parse.regexp (Parse.first hcl h5) (Parse.done ?_)⟩
    unfold parser.c
    rw [h6]
    decide

/-- A pattern the parser reads to its end compiles. -/
theorem Compile_of_parse {pat : List Nat} {r : Ast} {q1 : parser} {s e : Nat}
    (hp : Parse .regexp (startParser pat) r q1 s e) : ∃ re, Compile pat = .ok re := by
  have h1 := regexp_at_parseFuel (parse_complete hp) (by simp)
  simp only [callNT] at h1
  unfold Compile
  rcases doParse_spec pat with ⟨re, v, -, h2, -⟩ | ⟨e, he, -⟩
  · exact ⟨re, h2⟩
  · rw [h1] at he
    cases he

end GoRegexp

namespace GoRegexp

/-! ## The runes of a quoted text -/

/-- A rune that is decoded is a Unicode scalar value. -/
theorem DecodeRune_scalar (b : List Nat) :
    (DecodeRune b).1 < 1114112 ∧ ¬ (55296 ≤ (DecodeRune b).1 ∧ (DecodeRune b).1 < 57344) := by
  unfold DecodeRune RuneError
  (repeat' split) <;>
    first
    | (simp only []; omega)
    | (simp only []; split <;> simp only [] <;> omega)

theorem EncodeRune_high {c : Int} (h : 128 ≤ c) : ∀ x ∈ EncodeRune c, 128 ≤ x := by
  have hn : 128 ≤ c.toNat := by omega
  unfold EncodeRune
  simp only
  (repeat' split) <;> simp <;> omega

theorem EncodeRune_low {c : Int} (h0 : 0 ≤ c) (h : c < 128) : EncodeRune c = [c.toNat] := by
  have hn : c.toNat < 128 := by omega
  unfold EncodeRune
  simp only
  rw [if_neg (by omega), if_pos hn]

theorem quoteBytes_high : ∀ (l : List Nat), (∀ x ∈ l, 128 ≤ x) → quoteBytes l = l := by
  intro l
  induction l with
  | nil => intro _; rfl
  | cons x t ih =>
    intro h
    have hx := h x (by simp)
    have hs : ¬ special (x : Int) = true := by
      rw [special_iff]
      omega
    rw [quoteBytes_cons, if_neg hs, ih (fun y hy => h y (by simp [hy]))]
    rfl

theorem runes_ascii (d : Nat) (hd : d < 128) (t : List Nat) :
    runes (d :: t) = (d : Int) :: runes t := by
  rw [runes_cons (by simp), decode_ascii d hd t]
  rfl

theorem runes_encoded (c : Int) (h0 : 0 ≤ c) (h1 : c < 1114112)
    (h2 : ¬ (55296 ≤ c ∧ c < 57344)) (t : List Nat) :
    runes (EncodeRune c ++ t) = c :: runes t := by
  have hne : EncodeRune c ++ t ≠ [] := by
    intro h
    exact EncodeRune_ne_nil c (List.append_eq_nil.mp h).1
  rw [runes_cons hne, DecodeRune_EncodeRune c h0 h1 h2 t]
  simp

/-- Of well-formed UTF-8 text: its runes encode to the text, are Unicode scalar values, and
the runes of the quoted text are the quoted runes. -/
theorem valid_runes : ∀ (n : Nat) (b : List Nat), b.length ≤ n → validUTF8 n b = true →
    stringOfRunes (runes b) = b ∧ runes (quoteBytes b) = quoteRunes (runes b) ∧
    ∀ c ∈ runes b, 0 ≤ c ∧ c < 1114112 ∧ ¬ (55296 ≤ c ∧ c < 57344) := by
  intro n
  induction n with
  | zero =>
    intro b hb _
    have : b = [] := List.length_eq_zero.mp (by omega)
    subst this
    exact ⟨rfl, rfl, fun c hc => by cases hc⟩
  | succ n ih =>
    intro b hb hv
    cases b with
    | nil => exact ⟨rfl, rfl, fun c hc => by cases hc⟩
    | cons x t =>
      unfold validUTF8 at hv
      simp only [Bool.and_eq_true, decide_eq_true_eq] at hv
      obtain ⟨hv1, hv2⟩ := hv
      have hw := DecodeRune_width_pos (b := x :: t) (by simp)
      have hsplit : x :: t = EncodeRune (DecodeRune (x :: t)).1 ++
          (x :: t).drop (DecodeRune (x :: t)).2 := by
        rw [← hv1, List.take_append_drop]
      have hlen : ((x :: t).drop (DecodeRune (x :: t)).2).length ≤ n := by
        simp only [List.length_drop, List.length_cons] at hb ⊢
        omega
      obtain ⟨i1, i2, i3⟩ := ih _ hlen hv2
      have hsc := DecodeRune_scalar (x :: t)
      have hnn := DecodeRune_nonneg (x :: t)
      have hr := runes_cons (b := x :: t) (by simp)
      generalize hc : (DecodeRune (x :: t)).1 = c at *
      generalize hb2 : (x :: t).drop (DecodeRune (x :: t)).2 = b2 at *
      rw [hr]
      refine ⟨?_, ?_, ?_⟩
      · rw [stringOfRunes_cons, i1, ← hsplit]
      · rw [quoteRunes_cons, ← i2]
        conv_lhs => rw [hsplit]
        rw [quoteBytes_append]
        by_cases h128 : c < 128
        · rw [EncodeRune_low hnn h128]
          have hcast : ((c.toNat : Nat) : Int) = c := Int.toNat_of_nonneg hnn
          rw [quoteBytes_cons, hcast]
          have hq : quoteBytes [] = [] := rfl
          rw [hq]
          split
          · simp only [List.append_nil, List.cons_append, List.nil_append]
            rw [runes_ascii 92 (by decide), runes_ascii c.toNat (by omega), hcast]
            rfl
          · simp only [List.append_nil, List.cons_append, List.nil_append]
            rw [runes_ascii c.toNat (by omega), hcast]
        · have hs : ¬ special c = true := by
            rw [special_iff]
            omega
          rw [if_neg hs, quoteBytes_high _ (EncodeRune_high (by omega)),
            runes_encoded c hnn hsc.1 hsc.2]
          rfl
      · intro y hy
        rcases List.mem_cons.mp hy with rfl | hy
        · exact ⟨hnn, hsc.1, hsc.2⟩
        · exact i3 y hy

end GoRegexp

namespace GoRegexp

/-! ## The language of a quoted text -/

theorem lang_catAst (b : List Nat) : ∀ (cs : List Int) (a : Ast) (p q : Nat),
    Lang b (catAst a cs) p q ↔ ∃ m, Lang b a p m ∧ Reads b m cs q := by
  intro cs
  induction cs with
  | nil =>
    intro a p q
    constructor
    · intro h
      exact ⟨q, h, .nil⟩
    · rintro ⟨m, h1, h2⟩
      cases h2
      exact h1
  | cons c cs ih =>
    intro a p q
    rw [catAst_cons, ih]
    constructor
    · rintro ⟨m, h1, h2⟩
      cases h1 with
      | cat ha hc =>
        cases hc with
        | char hl hd => exact ⟨_, ha, .cons hl hd h2⟩
    · rintro ⟨m, h1, h2⟩
      cases h2 with
      | cons hl hd hr => exact ⟨_, .cat h1 (.char hl hd), hr⟩

theorem lang_litAst (b : List Nat) (cs : List Int) (p q : Nat) :
    Lang b (litAst cs) p q ↔ Reads b p cs q := by
  cases cs with
  | nil =>
    constructor
    · intro h
      cases h
      exact .nil
    · intro h
      cases h
      exact .empty
  | cons c cs =>
    show Lang b (catAst (.char c) cs) p q ↔ _
    rw [lang_catAst]
    constructor
    · rintro ⟨m, h1, h2⟩
      cases h1 with
      | char hl hd => exact .cons hl hd h2
    · intro h
      cases h with
      | cons hl hd hr => exact ⟨_, .char hl hd, hr⟩

theorem reads_bound {b : List Nat} {p q : Nat} {cs : List Int} (h : Reads b p cs q)
    (hp : p ≤ b.length) : q ≤ b.length := by
  induction h with
  | nil => exact hp
  | @cons p q c cs hl _ _ ih =>
    apply ih
    have := DecodeRune_width_le (b.drop p)
    simp only [List.length_drop] at this
    omega

/-- The runes of a text are read where the text stands. -/
theorem reads_of_text (b : List Nat) : ∀ (cs : List Int),
    (∀ c ∈ cs, 0 ≤ c ∧ c < 1114112 ∧ ¬ (55296 ≤ c ∧ c < 57344)) → ∀ (p : Nat),
    (b.drop p).take (stringOfRunes cs).length = stringOfRunes cs →
    Reads b p cs (p + (stringOfRunes cs).length) := by
  intro cs
  induction cs with
  | nil =>
    intro _ p _
    exact .nil
  | cons c cs ih =>
    intro hcs p h
    obtain ⟨c0, c1, c2⟩ := hcs c (by simp)
    rw [stringOfRunes_cons] at h ⊢
    have hsplit : b.drop p = EncodeRune c ++ (stringOfRunes cs ++
        (b.drop p).drop (EncodeRune c ++ stringOfRunes cs).length) := by
      rw [← List.append_assoc]
      conv_lhs => rw [← List.take_append_drop (EncodeRune c ++ stringOfRunes cs).length (b.drop p)]
      rw [h]
    have hd : DecodeRune (b.drop p) = (c, (EncodeRune c).length) := by
      rw [hsplit]
      exact DecodeRune_EncodeRune c c0 c1 c2 _
    have hne := EncodeRune_ne_nil c
    have hl : p < b.length := by
      by_contra hge
      rw [List.drop_of_length_le (by omega)] at hsplit
      exact hne (List.append_eq_nil.mp hsplit.symm).1
    have hnext : (b.drop (p + (EncodeRune c).length)).take (stringOfRunes cs).length =
        stringOfRunes cs := by
      rw [← List.drop_drop, hsplit, List.drop_left, List.take_left]
    have hr := ih (fun y hy => hcs y (by simp [hy])) (p + (EncodeRune c).length) hnext
    have e : (DecodeRune (b.drop p)).2 = (EncodeRune c).length := by rw [hd]
    have e1 : (DecodeRune (b.drop p)).1 = c := by rw [hd]
    rw [List.length_append, ← Nat.add_assoc]
    rw [← e] at hr ⊢
    exact .cons hl e1 hr

/-- In a text, a nonempty sequence of encoded runes stands only where a rune starts. -/
theorem text_runeStart {b : List Nat} {c : Int} {cs : List Int} {i : Nat}
    (h : (b.drop i).take (stringOfRunes (c :: cs)).length = stringOfRunes (c :: cs)) :
    RuneStart b 0 i := by
  obtain ⟨x, t, hx, hnc⟩ := EncodeRune_head c
  rw [stringOfRunes_cons, hx] at h
  have h0 : ((b.drop i).take ((x :: t) ++ stringOfRunes cs).length)[0]? = some x := by
    rw [h]; simp
  rw [List.getElem?_take_of_lt (by simp), List.getElem?_drop] at h0
  exact noncont_boundary h0 hnc i 0 .first (Nat.zero_le _) (by omega)

theorem take2_vector {a : List Int} (h : 2 ≤ a.length) : a.take 2 = [vstart a, vend a] := by
  rcases a with _ | ⟨a0, _ | ⟨a1, rest⟩⟩
  · simp at h
  · simp at h
  · simp [vstart, vend]

/-- The span FindStringIndex returns when the expression accepts, from an offset where a
rune starts, the occurrences of a text and nothing else: the first occurrence. -/
theorem literal_find {pat : List Nat} {re : Regexp} (h : Compile pat = .ok re)
    (s t : List Nat) (hv : ValidUTF8 t)
    (hacc : ∀ p q, RuneStart t 0 p → (Accepts re t p q ↔
      q = p + s.length ∧ q ≤ t.length ∧ (t.drop p).take s.length = s))
    (hstart : ∀ i, i + s.length ≤ t.length → (t.drop i).take s.length = s →
      (∀ k < i, (t.drop k).take s.length ≠ s) → RuneStart t 0 i) :
    ∃ r, re.FindStringIndex t = some r ∧
      (∀ i : Nat, i + s.length ≤ t.length → (t.drop i).take s.length = s →
        (∀ k < i, (t.drop k).take s.length ≠ s) →
        r = some [(i : Int), (i : Int) + (s.length : Int)]) ∧
      ((∀ i, i + s.length ≤ t.length → (t.drop i).take s.length ≠ s) → r = none) := by
  obtain ⟨rk, x0, s0, hR⟩ := Compile_ready h
  obtain ⟨r, hr, hsound, hcomp⟩ := doExecute_complete hR (Compile_prefixed h) t hv 0 .first
    (Nat.zero_le _)
  unfold Regexp.FindStringIndex
  rw [hr]
  cases r with
  | none =>
    refine ⟨none, rfl, ?_, fun _ => rfl⟩
    intro i ho1 ho2 hfirst
    exfalso
    have hi := hstart i ho1 ho2 hfirst
    have ha : Accepts re t i (i + s.length) := (hacc i _ hi).2 ⟨rfl, ho1, ho2⟩
    obtain ⟨tr, k, m1, hrun, hend⟩ := accepts_run hR ha
    obtain ⟨f, hf, -⟩ := hcomp i _ k tr m1 hi hrun hend
    cases hf
  | some a =>
    obtain ⟨p0, q0, tr0, m1, k0, h1, h2, h3, h4, h5⟩ := hsound a rfl
    obtain ⟨hl, hv0, hv1⟩ := run_vector hR.prog h3
    rw [← h5] at hl hv0 hv1
    simp only
    rw [if_pos (by omega), take2_vector (by omega), hv0, hv1]
    have ha0 : Accepts re t p0 q0 :=
      ⟨tr0, a, 0, x0, s0, k0, m1, hR.start, hR.first, hR.next, h3, h4, h5⟩
    obtain ⟨e1, e2, e3⟩ := (hacc p0 q0 h1).1 ha0
    refine ⟨_, rfl, ?_, ?_⟩
    · intro i ho1 ho2 hfirst
      have hi := hstart i ho1 ho2 hfirst
      have ha : Accepts re t i (i + s.length) := (hacc i _ hi).2 ⟨rfl, ho1, ho2⟩
      obtain ⟨tr, k, m2, hrun, hend⟩ := accepts_run hR ha
      obtain ⟨f, hf, hd⟩ := hcomp i _ k tr m2 hi hrun hend
      cases hf
      rw [hv0] at hd
      have hle : i ≤ p0 := by
        by_contra hlt
        exact hfirst p0 (by omega) e3
      have hpi : p0 = i := by omega
      subst hpi
      rw [e1]
      push_cast
      rfl
    · intro hno
      exact absurd e3 (hno p0 (by omega))

end GoRegexp

namespace GoRegexp

/-! ## The parser never reports ErrInternal -/

theorem setNext_err (re : Regexp) (i j : Option Nat) (E : Error) :
    re.setNext i j ≠ .error (.error E) := by
  unfold Regexp.setNext
  intro h
  split at h
  · cases h
  · split at h <;> cases h

theorem setLeft_err (re : Regexp) (i j : Option Nat) (E : Error) :
    re.setLeft i j ≠ .error (.error E) := by
  unfold Regexp.setLeft
  intro h
  split at h
  · cases h
  · split at h <;> cases h

theorem checkBackslash_noInternal (p : parser) :
    p.checkBackslash ≠ .error (.error .ErrInternal) := by
  unfold parser.checkBackslash
  simp only
  intro h
  repeat' split at h
  all_goals cases h

theorem charClassLoop_noInternal (n : Nat) : ∀ (p : parser) (cc : charClass) (left : Int),
    parser.charClassLoop n p cc left ≠ .error (.error .ErrInternal) := by
  induction n with
  | zero => intro p cc left h; cases h
  | succ n ih =>
    intro p cc left
    unfold parser.charClassLoop
    simp only
    split
    · repeat' split
      all_goals (intro h; cases h)
    · split
      · intro h; cases h
      · cases hb : p.checkBackslash with
        | error e =>
          simp only
          intro h
          cases h
          exact checkBackslash_noInternal p hb
        | ok v =>
          obtain ⟨p1, c⟩ := v
          simp only
          repeat' split
          all_goals first
            | exact ih _ _ _
            | (intro h; cases h)

theorem charClass_noInternal (n : Nat) (p : parser) :
    parser.charClass n p ≠ .error (.error .ErrInternal) := by
  unfold parser.charClass
  simp only
  split <;> exact charClassLoop_noInternal n _ _ _

theorem term_noInternal (n : Nat)
    (hR : ∀ p, parser.regexp n p ≠ .error (.error .ErrInternal)) (p : parser) :
    parser.term (n + 1) p ≠ .error (.error .ErrInternal) := by
  by_cases h91 : p.c = 91
  · rw [term_eq_cls n p h91]
    cases hc : parser.charClass n p.nextc with
    | error e =>
      simp only
      intro h
      cases h
      exact charClass_noInternal n p.nextc hc
    | ok v =>
      obtain ⟨p1, s⟩ := v
      simp only
      split <;> (intro h; cases h)
  · by_cases h40 : p.c = 40
    · rw [term_eq_group n p h40]
      cases hr : parser.regexp n p.lpar with
      | error e =>
        simp only
        intro h
        cases h
        exact hR p.lpar hr
      | ok v =>
        obtain ⟨p2, start, end'⟩ := v
        obtain ⟨r, s, e, hse, -⟩ := ((parser_spec n).2.2.2.2.2.2 p.lpar).value _ hr
        simp only at hse
        cases hse
        simp only
        split
        · intro h; cases h
        · rw [if_neg (by simp)]
          split
          · rename_i h1
            intro h
            cases h
            exact setNext_err _ _ _ _ h1
          · split
            · rename_i h1
              intro h
              cases h
              exact setNext_err _ _ _ _ h1
            · intro h; cases h
    · rw [term_eq_other n p h91 h40]
      unfold parser.term
      simp only [h91, h40, if_false]
      repeat' split
      all_goals first
        | (intro h; cases h; done)
        | (rename_i h1; intro h; cases h; exact checkBackslash_noInternal _ h1)

theorem closure_noInternal (n : Nat)
    (hT : ∀ p, parser.term n p ≠ .error (.error .ErrInternal)) (p : parser) :
    parser.closure (n + 1) p ≠ .error (.error .ErrInternal) := by
  unfold parser.closure
  cases ht : parser.term n p with
  | error e =>
    simp only
    intro h
    cases h
    exact hT p ht
  | ok v =>
    obtain ⟨p1, start, end'⟩ := v
    simp only
    intro h
    repeat' split at h
    all_goals first
      | (cases h; done)
      | (rename_i h1; simp only [Option.some.injEq] at h1; done)
      | skip
    all_goals (rename_i hq)
    all_goals (repeat' split at hq)
    all_goals first
      | (cases hq; done)
      | (cases h; cases hq; done)
      | skip
    all_goals (cases h)
    all_goals first
      | (rename_i h1 h2; simp only [Option.some.injEq] at hq; cases hq; first
          | exact setNext_err _ _ _ _ (by assumption)
          | exact setLeft_err _ _ _ _ (by assumption))
      | skip

theorem concatenationLoop_noInternal (n : Nat)
    (hC : ∀ p, parser.closure n p ≠ .error (.error .ErrInternal))
    (hL : ∀ p s e, parser.concatenationLoop n p s e ≠ .error (.error .ErrInternal))
    (p : parser) (s e : Option Nat) :
    parser.concatenationLoop (n + 1) p s e ≠ .error (.error .ErrInternal) := by
  unfold parser.concatenationLoop
  cases hc : parser.closure n p with
  | error x =>
    simp only
    intro h
    cases h
    exact hC p hc
  | ok v =>
    obtain ⟨p1, ns, ne⟩ := v
    simp only
    repeat' split
    all_goals first
      | exact hL _ _ _
      | (intro h; cases h; done)
      | (intro h; cases h; exact setNext_err _ _ _ _ (by assumption))

theorem regexpLoop_noInternal (n : Nat)
    (hK : ∀ p, parser.concatenation n p ≠ .error (.error .ErrInternal))
    (hL : ∀ p s e, parser.regexpLoop n p s e ≠ .error (.error .ErrInternal))
    (p : parser) (s e : Option Nat) :
    parser.regexpLoop (n + 1) p s e ≠ .error (.error .ErrInternal) := by
  unfold parser.regexpLoop
  simp only
  split
  · cases hc : parser.concatenation n p.nextc with
    | error x =>
      simp only
      intro h
      cases h
      exact hK _ hc
    | ok v =>
      obtain ⟨p1, ns, ne⟩ := v
      simp only
      repeat' split
      all_goals first
        | exact hL _ _ _
        | (intro h; cases h; exact setNext_err _ _ _ _ (by assumption))
        | (intro h; cases h; exact setLeft_err _ _ _ _ (by assumption))
  · intro h; cases h

/-- No function of the parser reports ErrInternal. -/
theorem parser_noInternal (n : Nat) :
    (∀ p, parser.term n p ≠ .error (.error .ErrInternal)) ∧
    (∀ p, parser.closure n p ≠ .error (.error .ErrInternal)) ∧
    (∀ p s e, parser.concatenationLoop n p s e ≠ .error (.error .ErrInternal)) ∧
    (∀ p, parser.concatenation n p ≠ .error (.error .ErrInternal)) ∧
    (∀ p s e, parser.regexpLoop n p s e ≠ .error (.error .ErrInternal)) ∧
    (∀ p, parser.regexp n p ≠ .error (.error .ErrInternal)) := by
  induction n with
  | zero =>
    refine ⟨?_, ?_, ?_, ?_, ?_, ?_⟩
    · intro p h; simp [parser.term] at h
    · intro p h; simp [parser.closure] at h
    · intro p s e h; simp [parser.concatenationLoop] at h
    · intro p h; simp [parser.concatenation] at h
    · intro p s e h; simp [parser.regexpLoop] at h
    · intro p h; simp [parser.regexp] at h
  | succ n ih =>
    obtain ⟨i1, i2, i3, i4, i5, i6⟩ := ih
    refine ⟨term_noInternal n i6, closure_noInternal n i1,
      concatenationLoop_noInternal n i2 i3, ?_, regexpLoop_noInternal n i4 i5, ?_⟩
    · intro p
      unfold parser.concatenation
      exact i3 _ _ _
    · intro p
      unfold parser.regexp
      cases hc : parser.concatenation n p with
      | error x =>
        simp only
        intro h
        cases h
        exact i4 p hc
      | ok v =>
        obtain ⟨p1, s, e⟩ := v
        simp only
        exact i5 _ _ _

/-- What parser.regexp returns without an error is a fragment: its start and its end are not
nil. -/
theorem regexp_not_nil (n : Nat) (p : parser) (v : parser × Option Nat × Option Nat)
    (h : parser.regexp n p = .ok v) : v.2.1 ≠ none ∧ v.2.2 ≠ none := by
  obtain ⟨r, s, e, hse, -⟩ := ((parser_spec n).2.2.2.2.2.2 p).value v h
  rw [hse]
  exact ⟨by simp, by simp⟩

theorem Compile_noInternal (pat : List Nat) : Compile pat ≠ .error (.error .ErrInternal) := by
  unfold Compile
  rcases doParse_spec pat with ⟨re, v, -, h2, -⟩ | ⟨e, he, h2⟩
  · rw [h2]
    intro h
    cases h
  · rw [h2]
    intro h
    cases h
    exact (parser_noInternal _).2.2.2.2.2 _ he

end GoRegexp

namespace GoRegexp

/-! ## The elimination of the iNop instructions, in Compile -/

/-- Regexp.doParse is its part before eliminateNops, then eliminateNops, then setPrefix. -/
theorem doParse_parsed (re : Regexp) :
    re.doParse =
      match re.parsed with
      | .error e => .error e
      | .ok r =>
        match r.eliminateNops with
        | .error e => .error e
        | .ok r => r.setPrefix := by
  unfold Regexp.doParse Regexp.parsed linkEnds
  simp only
  cases parser.regexp (parseFuel re.expr.length)
      { newParser re with re := ((newParser re).re.add { kind := .iStart }).1 } with
  | error e => rfl
  | ok v =>
    obtain ⟨p, s, e⟩ := v
    simp only
    cases p.re.setNext ((newParser re).re.add { kind := .iStart }).2 s with
    | error e => rfl
    | ok r =>
      simp only
      all_goals
        cases (({ r with start := ((newParser re).re.add { kind := .iStart }).2 } : Regexp).add
            { kind := .iEnd }).1.setNext e
            (({ r with start := ((newParser re).re.add { kind := .iStart }).2 } : Regexp).add
              { kind := .iEnd }).2 with
        | error e => rfl
        | ok r2 => rfl

/-- One step of eliminateNops leaves an iEnd instruction as it is. -/
theorem elimAt_end {G G2 : List instr} {k : Nat} (h : eliminateNopsAt G k = .ok G2)
    {i : Nat} {x : instr} (hx : G[i]? = some x) (hk : x.kind = .iEnd) : G2[i]? = some x := by
  cases hxk : G[k]? with
  | none =>
    unfold eliminateNopsAt at h
    simp only [hxk] at h
    cases h
  | some xk =>
    by_cases hik : i = k
    · subst hik
      rw [hx] at hxk
      cases hxk
      unfold eliminateNopsAt at h
      simp only [hx, hk, if_true, Except.ok.injEq] at h
      rw [← h]
      exact hx
    · obtain ⟨-, h2, -⟩ := elimAt_links h hxk
      rw [h2 i hik]
      exact hx

theorem elimFrom_end : ∀ (n k : Nat) (G G2 : List instr), eliminateNopsFrom n k G = .ok G2 →
    ∀ (i : Nat) (x : instr), G[i]? = some x → x.kind = .iEnd → G2[i]? = some x := by
  intro n
  induction n with
  | zero =>
    intro k G G2 h i x hx _
    simp only [eliminateNopsFrom, Except.ok.injEq] at h
    rw [← h]
    exact hx
  | succ n ih =>
    intro k G G2 h i x hx hk
    unfold eliminateNopsFrom at h
    cases h1 : eliminateNopsAt G k with
    | error e => rw [h1] at h; cases h
    | ok G1 =>
      rw [h1] at h
      simp only at h
      exact ih (k + 1) G1 G2 h i x (elimAt_end h1 hx hk) hk

theorem updNext_kind (G : List instr) (k : Nat) (j : Option Nat) (i : Nat) (x : instr)
    (h : (updNext G k j)[i]? = some x) : ∃ y, G[i]? = some y ∧ y.kind = x.kind ∧
      (i ≠ k → y = x) := by
  rw [updNext_get] at h
  by_cases hik : i = k
  · rw [if_pos hik] at h
    cases hy : G[i]? with
    | none => rw [hy] at h; cases h
    | some y =>
      rw [hy] at h
      simp only [Option.map_some', Option.some.injEq] at h
      exact ⟨y, rfl, by rw [← h], fun hne => absurd hik hne⟩
  · rw [if_neg hik] at h
    exact ⟨x, h, rfl, fun _ => rfl⟩

/-- The program doParse hands to eliminateNops has one iEnd instruction, the last one, and
its `next` link is nil. -/
theorem linkEnds_end {pat : List Nat} {r : Ast} {q1 : parser} {s e : Nat} {r0 : Regexp}
    (hp : Parse .regexp (startParser pat) r q1 s e)
    (h : linkEnds (some 0) q1 (some s) (some e) = .ok r0) :
    ∀ (i : Nat) (x : instr), r0.inst[i]? = some x → x.kind = .iEnd → x.next = none := by
  unfold linkEnds at h
  cases h1 : q1.re.setNext (some 0) (some s) with
  | error x => rw [h1] at h; cases h
  | ok r1 =>
    rw [h1] at h
    simp only at h
    obtain ⟨i1, -⟩ := setNext_inst h1
    have l1 : r1.inst.length = q1.re.inst.length := by rw [i1, updNext_length]
    obtain ⟨i2, -⟩ := setNext_inst h
    simp only [add_inst, add_nbra, add_snd] at i2
    have hB0 := parse_built hp
    simp only [BuiltSpec] at hB0
    have hlen0 : (startParser pat).re.inst.length = 1 := by simp [startParser, newParser]
    rw [hlen0] at hB0
    have hr := built_range hB0
    obtain ⟨-, hfr, -⟩ := hp.frag
    rw [hlen0] at hfr
    have h0 : q1.re.inst[0]? = some { kind := .iStart, index := 0 } := by
      rw [hfr 0 (by omega)]; simp [startParser, newParser]
    intro i x hx hk
    rw [i2] at hx
    obtain ⟨y, hy, hyk, hye⟩ := updNext_kind _ _ _ _ _ hx
    rw [l1] at hy
    by_cases hi : i < q1.re.inst.length
    · exfalso
      rw [List.getElem?_append_left (by rw [l1]; exact hi), i1] at hy
      obtain ⟨z, hz, hzk, -⟩ := updNext_kind _ _ _ _ _ hy
      by_cases hi0 : i = 0
      · subst hi0
        rw [h0] at hz
        cases hz
        rw [← hyk, ← hzk] at hk
        cases hk
      · obtain ⟨w, hw, hwk, -⟩ := built_kinds hB0 i (by omega) hi
        rw [hw] at hz
        cases hz
        rw [← hyk, ← hzk] at hk
        exact hwk hk
    · have hne : i ≠ e := by omega
      have := hye hne
      subst this
      have hi2 : i = q1.re.inst.length := by
        have := (List.getElem?_eq_some.mp hy).1
        simp only [List.length_append, List.length_singleton, l1] at this
        omega
      subst hi2
      rw [List.getElem?_append_right (by rw [l1]), l1] at hy
      simp only [Nat.sub_self, List.getElem?_cons_zero, Option.some.injEq] at hy
      rw [← hy]

/-- What Compile does to the program of a pattern that compiles: the program the parser has
built, linked to iStart and iEnd, goes through eliminateNops and setPrefix. -/
theorem Compile_elim {pat : List Nat} {re : Regexp} (h : Compile pat = .ok re) :
    ∃ r0 r1, Regexp.parsed { expr := pat } = .ok r0 ∧ r0.eliminateNops = .ok r1 ∧
      r1.setPrefix = .ok re ∧ re.inst = r1.inst ∧ Elim r0.inst re.inst ∧
      ∀ (i : Nat) (x : instr), r0.inst[i]? = some x → x.kind = .iEnd →
        x.next = none ∧ re.inst[i]? = some x := by
  obtain ⟨r, q1, s, e, hp⟩ := Compile_ok_parse h
  have hreg := regexp_at_parseFuel (parse_complete hp) (by simp)
  simp only [callNT] at hreg
  unfold Compile at h
  rw [doParse_parsed] at h
  have hpd : Regexp.parsed { expr := pat } = linkEnds (some 0) q1 (some s) (some e) := by
    unfold Regexp.parsed
    simp only
    have : ({ newParser { expr := pat } with
        re := ((newParser { expr := pat }).re.add { kind := .iStart }).1 } : parser) =
        startParser pat := rfl
    rw [this, hreg]
    simp only [add_snd]
    have : (newParser { expr := pat }).re.inst = [] := by simp [newParser]
    rw [this]
    rfl
  cases h0 : Regexp.parsed { expr := pat } with
  | error x => rw [h0] at h; cases h
  | ok r0 =>
    rw [h0] at h
    simp only at h
    rw [h0] at hpd
    cases h1 : r0.eliminateNops with
    | error x => rw [h1] at h; cases h
    | ok r1 =>
      rw [h1] at h
      simp only at h
      obtain ⟨j1, -⟩ := setPrefix_inst h
      unfold Regexp.eliminateNops at h1
      cases h4 : eliminateNopsFrom r0.inst.length 0 r0.inst with
      | error x => rw [h4] at h1; cases h1
      | ok G2 =>
        have h1' := h1
        rw [h4] at h1
        simp only [Except.ok.injEq] at h1
        subst h1
        simp only at j1
        refine ⟨r0, _, rfl, ?_, h, j1, by rw [j1]; exact eliminateNops_elim h4, ?_⟩
        · unfold Regexp.eliminateNops
          rw [h4]
        · intro i x hx hk
          refine ⟨linkEnds_end hp hpd.symm i x hx hk, ?_⟩
          rw [j1]
          exact elimFrom_end _ _ _ _ h4 i x hx hk

/-- The pass eliminateNops returns on every program that doParse hands to it. -/
theorem eliminateNops_returns {pat : List Nat} {r0 : Regexp}
    (h : Regexp.parsed { expr := pat } = .ok r0) : ∃ r1, r0.eliminateNops = .ok r1 := by
  rcases doParse_spec pat with ⟨re, v, -, h2, -⟩ | ⟨e, he, -⟩
  · rw [doParse_parsed, h] at h2
    simp only at h2
    cases h1 : r0.eliminateNops with
    | error x => rw [h1] at h2; cases h2
    | ok r1 => exact ⟨r1, rfl⟩
  · exfalso
    unfold Regexp.parsed at h
    simp only at h
    have : ({ newParser { expr := pat } with
        re := ((newParser { expr := pat }).re.add { kind := .iStart }).1 } : parser) =
        startParser pat := rfl
    rw [this, he] at h
    cases h

end GoRegexp

namespace GoRegexp

/-! ## addState on any list of threads -/

/-- What a call of addState returns, on any program and any list: the list with threads
added at its end, whose instructions are instructions of the program, differ from those of
the list and differ from one another. -/
theorem addState_extends (G : List instr) : ∀ (fuel : Nat) (s : List state) (i : Option Nat)
    (pf : Bool) (m : List Int) (pos end' : Nat) (s2 : List state),
    addState G fuel s i pf m pos end' = some s2 →
    ∃ t, s2 = s ++ t ∧ (∀ th ∈ t, th.inst < G.length ∧ th.inst ∉ s.map (fun x => x.inst)) ∧
      (t.map (fun x => x.inst)).Nodup := by
  intro fuel
  induction fuel with
  | zero => intro s i pf m pos end' s2 h; simp [addState] at h
  | succ fuel ih =>
    intro s i pf m pos end' s2 h
    unfold addState at h
    cases i with
    | none => simp at h
    | some k =>
      simp only at h
      cases hx : G[k]? with
      | none => rw [hx] at h; simp at h
      | some x =>
        rw [hx] at h
        simp only at h
        have hk : k < G.length := (List.getElem?_eq_some.mp hx).1
        have hnil : ∃ t : List state, s = s ++ t ∧
            (∀ th ∈ t, th.inst < G.length ∧ th.inst ∉ s.map (fun x => x.inst)) ∧
            (t.map (fun x => x.inst)).Nodup :=
          ⟨[], by simp, fun th hth => (by cases hth), by simp⟩
        by_cases hbot : x.kind = .iBOT
        · rw [if_pos hbot] at h
          by_cases hp : pos = 0
          · rw [if_pos hp] at h
            exact ih _ _ _ _ _ _ _ h
          · rw [if_neg hp] at h
            cases h
            exact hnil
        · rw [if_neg hbot] at h
          by_cases heot : x.kind = .iEOT
          · rw [if_pos heot] at h
            by_cases hp : pos = end'
            · rw [if_pos hp] at h
              exact ih _ _ _ _ _ _ _ h
            · rw [if_neg hp] at h
              cases h
              exact hnil
          · rw [if_neg heot] at h
            by_cases hbra : x.kind = .iBra
            · rw [if_pos hbra] at h
              cases hv : vecSet m x.braNum (pos : Int) with
              | none => rw [hv] at h; simp at h
              | some m2 =>
                rw [hv] at h
                exact ih _ _ _ _ _ _ _ h
            · rw [if_neg hbra] at h
              by_cases hany : s.any (fun st => decide (st.inst = k)) = true
              · rw [if_pos hany] at h
                cases h
                exact hnil
              · rw [if_neg hany] at h
                have hnew := any_inst_false hany
                by_cases halt : x.kind = .iAlt
                · rw [if_pos halt] at h
                  cases h1 : addState G fuel (s ++ [{ inst := k, prefixed := pf, m := m }])
                      x.left pf m pos end' with
                  | none => rw [h1] at h; simp at h
                  | some s1 =>
                    rw [h1] at h
                    simp only at h
                    obtain ⟨t1, e1, d1, n1⟩ := ih _ _ _ _ _ _ _ h1
                    obtain ⟨t2, e2, d2, n2⟩ := ih _ _ _ _ _ _ _ h
                    subst e1
                    refine ⟨[{ inst := k, prefixed := pf, m := m }] ++ t1 ++ t2,
                      by rw [e2]; simp only [List.append_assoc], ⟨?_, ?_⟩⟩
                    · intro th hth
                      rcases List.mem_append.1 hth with h3 | h3
                      · rcases List.mem_append.1 h3 with h4 | h4
                        · simp only [List.mem_singleton] at h4
                          subst h4
                          exact ⟨hk, hnew⟩
                        · refine ⟨(d1 th h4).1, fun hc => (d1 th h4).2 ?_⟩
                          rw [List.map_append]
                          exact List.mem_append_left _ hc
                      · refine ⟨(d2 th h3).1, fun hc => (d2 th h3).2 ?_⟩
                        rw [List.map_append, List.map_append]
                        exact List.mem_append_left _ (List.mem_append_left _ hc)
                    · rw [List.map_append, List.map_append]
                      refine List.Nodup.append (List.Nodup.append (by simp) n1 ?_) n2 ?_
                      · intro a ha1 ha2
                        obtain ⟨th, hth, rfl⟩ := List.mem_map.1 ha2
                        apply (d1 th hth).2
                        rw [List.map_append]
                        exact List.mem_append_right _ ha1
                      · intro a ha1 ha2
                        obtain ⟨th, hth, rfl⟩ := List.mem_map.1 ha2
                        apply (d2 th hth).2
                        rw [List.map_append, List.map_append]
                        rcases List.mem_append.1 ha1 with h5 | h5
                        · exact List.mem_append_left _ (List.mem_append_right _ h5)
                        · exact List.mem_append_right _ h5
                · rw [if_neg halt] at h
                  cases h
                  exact ⟨[{ inst := k, prefixed := pf, m := m }], rfl,
                    ⟨fun th hth => by
                      simp only [List.mem_singleton] at hth
                      subst hth
                      exact ⟨hk, hnew⟩, by simp⟩⟩

/-- A call of addState on a list without two threads at the same instruction returns a list
without two threads at the same instruction. -/
theorem addState_nodup (G : List instr) (fuel : Nat) (s : List state) (i : Option Nat)
    (pf : Bool) (m : List Int) (pos end' : Nat) (s2 : List state)
    (h : addState G fuel s i pf m pos end' = some s2)
    (hs : (s.map (fun x => x.inst)).Nodup) : (s2.map (fun x => x.inst)).Nodup := by
  obtain ⟨t, rfl, d, n⟩ := addState_extends G _ _ _ _ _ _ _ _ h
  rw [List.map_append]
  refine List.Nodup.append hs n ?_
  intro a ha1 ha2
  obtain ⟨th, hth, rfl⟩ := List.mem_map.1 ha2
  exact (d th hth).2 ha1

/-- A list without two threads at the same instruction, all at instructions of the program,
is no longer than the program. -/
theorem nodup_length_le (G : List instr) (s : List state)
    (hs : (s.map (fun x => x.inst)).Nodup) (hb : ∀ th ∈ s, th.inst < G.length) :
    s.length ≤ G.length := by
  have h1 : (s.map (fun th => th.inst)) ⊆ List.range G.length := by
    intro k hk
    obtain ⟨th, hth, rfl⟩ := List.mem_map.1 hk
    exact List.mem_range.2 (hb th hth)
  have h2 := (List.subperm_of_subset hs h1).length_le
  simpa using h2

end GoRegexp

namespace GoRegexp

/-! ## addState returns -/

theorem countP_succ_le {l : List Nat} {p q : Nat → Bool} (hpq : ∀ x, p x = true → q x = true)
    {k : Nat} (hk : k ∈ l) (hq : q k = true) (hp : p k = false) :
    l.countP p + 1 ≤ l.countP q := by
  induction l with
  | nil => cases hk
  | cons a t ih =>
    have hmono : t.countP p ≤ t.countP q := List.countP_mono_left (fun x _ hx => hpq x hx)
    rw [List.countP_cons, List.countP_cons]
    rcases List.mem_cons.1 hk with rfl | h1
    · rw [if_neg (by rw [hp]; simp), if_pos hq]
      omega
    · have := ih h1
      by_cases hpa : p a = true
      · rw [if_pos hpa, if_pos (hpq a hpa)]
        omega
      · rw [if_neg hpa]
        split <;> omega

theorem unlisted_le (G : List instr) (s : List state) : unlisted G s ≤ G.length := by
  unfold unlisted
  have := List.countP_le_length (fun k => !(s.any (fun st => decide (st.inst = k))))
    (l := List.range G.length)
  simpa using this

theorem unlisted_append_le (G : List instr) (s t : List state) :
    unlisted G (s ++ t) ≤ unlisted G s := by
  unfold unlisted
  apply List.countP_mono_left
  intro x _ hx
  simp only [List.any_append, Bool.not_or, Bool.and_eq_true, Bool.not_eq_true'] at hx
  simp only [Bool.not_eq_true']
  exact hx.1

theorem unlisted_snoc (G : List instr) (s : List state) (st : state) (hk : st.inst < G.length)
    (hany : ¬ (s.any (fun x => decide (x.inst = st.inst)) = true)) :
    unlisted G (s ++ [st]) + 1 ≤ unlisted G s := by
  unfold unlisted
  apply countP_succ_le (k := st.inst)
  · intro x hx
    simp only [List.any_append, Bool.not_or, Bool.and_eq_true, Bool.not_eq_true'] at hx
    simp only [Bool.not_eq_true']
    exact hx.1
  · exact List.mem_range.2 hk
  · simpa using hany
  · simp

theorem fuel_alt {N u u1 r ri f : Nat} (hu : u1 + 1 ≤ u) (hr : r < N)
    (hf : ri + 1 + u * N ≤ f + 1) : r + 1 + u1 * N ≤ f := by
  have h1 : (u1 + 1) * N ≤ u * N := Nat.mul_le_mul_right _ hu
  rw [Nat.add_mul, Nat.one_mul] at h1
  omega

/-- A call of addState on a well-formed program returns, for every list of threads, every
instruction of the program and every vector of the length of the arena, given fuel for the
rank of the instruction and for the instructions that no thread of the list is at. -/
theorem addState_returns {G : List instr} {nb : Nat} {rk : Nat → Nat} (hG : ProgOK G nb rk) :
    ∀ (fuel : Nat) (s : List state) (i : Nat) (pf : Bool) (m : List Int) (pos end' : Nat),
      i < G.length → m.length = 2 * (nb + 1) →
      rk i + 1 + unlisted G s * G.length ≤ fuel →
      ∃ t, addState G fuel s (some i) pf m pos end' = some (s ++ t) := by
  intro fuel
  induction fuel with
  | zero => intro s i pf m pos end' _ _ hf; omega
  | succ fuel ih =>
    intro s i pf m pos end' hi hm hf
    have hx : G[i]? = some G[i] := List.getElem?_eq_getElem hi
    generalize G[i] = x at hx
    have hrk := (hG.nodes i x hx).rankLt
    have hlt : ∀ j, Good G j → j < G.length := by
      intro j hj
      obtain ⟨y, hy, -, -⟩ := Good_get hj
      exact (List.getElem?_eq_some.mp hy).1
    unfold addState
    simp only [hx]
    by_cases hbot : x.kind = .iBOT
    · rw [if_pos hbot]
      obtain ⟨j, hj, hgj, hrj⟩ := ProgOK_good_next hG hx (by rw [hbot]; simp)
      have hrj := hrj (by rw [hbot]; simp)
      by_cases hp : pos = 0
      · rw [if_pos hp, hj]
        exact ih s j pf m pos end' (hlt j hgj) hm (by omega)
      · rw [if_neg hp]
        exact ⟨[], by simp⟩
    · rw [if_neg hbot]
      by_cases heot : x.kind = .iEOT
      · rw [if_pos heot]
        obtain ⟨j, hj, hgj, hrj⟩ := ProgOK_good_next hG hx (by rw [heot]; simp)
        have hrj := hrj (by rw [heot]; simp)
        by_cases hp : pos = end'
        · rw [if_pos hp, hj]
          exact ih s j pf m pos end' (hlt j hgj) hm (by omega)
        · rw [if_neg hp]
          exact ⟨[], by simp⟩
      · rw [if_neg heot]
        by_cases hbra : x.kind = .iBra
        · rw [if_pos hbra]
          obtain ⟨j, hj, hgj, hrj⟩ := ProgOK_good_next hG hx (by rw [hbra]; simp)
          have hrj := hrj (by rw [hbra]; simp)
          obtain ⟨hb2, hbn⟩ := (hG.nodes i x hx).bra hbra
          have hv : vecSet m x.braNum (pos : Int) = some (m.set x.braNum (pos : Int)) := by
            unfold vecSet
            rw [if_pos (by omega)]
          rw [hv, hj]
          simp only
          exact ih s j pf _ pos end' (hlt j hgj) (by rw [List.length_set]; exact hm) (by omega)
        · rw [if_neg hbra]
          by_cases hany : s.any (fun st => decide (st.inst = i)) = true
          · rw [if_pos hany]
            exact ⟨[], by simp⟩
          · rw [if_neg hany]
            have hu := unlisted_snoc G s { inst := i, prefixed := pf, m := m } hi hany
            by_cases halt : x.kind = .iAlt
            · rw [if_pos halt]
              obtain ⟨l, hl, hgl⟩ := ProgOK_good_left hG hx halt
              obtain ⟨n, hn, hgn, -⟩ := ProgOK_good_next hG hx (by rw [halt]; simp)
              obtain ⟨xl, hxl, -, -⟩ := Good_get hgl
              obtain ⟨xn, hxn, -, -⟩ := Good_get hgn
              have hrl := (hG.nodes l xl hxl).rankLt
              have hrn := (hG.nodes n xn hxn).rankLt
              rw [hl]
              obtain ⟨t1, ht1⟩ := ih (s ++ [{ inst := i, prefixed := pf, m := m }]) l pf m pos
                end' (hlt l hgl) hm (fuel_alt hu hrl hf)
              rw [ht1]
              simp only
              rw [hn]
              have hu2 := unlisted_append_le G (s ++ [{ inst := i, prefixed := pf, m := m }]) t1
              obtain ⟨t2, ht2⟩ := ih ((s ++ [{ inst := i, prefixed := pf, m := m }]) ++ t1) n pf
                m pos end' (hlt n hgn) hm (fuel_alt (by omega) hrn hf)
              rw [ht2]
              exact ⟨[{ inst := i, prefixed := pf, m := m }] ++ t1 ++ t2,
                by simp only [List.append_assoc]⟩
            · rw [if_neg halt]
              exact ⟨[{ inst := i, prefixed := pf, m := m }], rfl⟩

/-- A call of addState on a well-formed program of N instructions returns on fuel
(N + 1) * (N + 1). -/
theorem addState_total {G : List instr} {nb : Nat} {rk : Nat → Nat} (hG : ProgOK G nb rk)
    (fuel : Nat) (hf : (G.length + 1) * (G.length + 1) ≤ fuel) (s : List state) (i : Nat)
    (pf : Bool) (m : List Int) (pos end' : Nat) (hi : i < G.length)
    (hm : m.length = 2 * (nb + 1)) :
    ∃ t, addState G fuel s (some i) pf m pos end' = some (s ++ t) := by
  apply addState_returns hG fuel s i pf m pos end' hi hm
  have hx : G[i]? = some G[i] := List.getElem?_eq_getElem hi
  have hrk := (hG.nodes i _ hx).rankLt
  have hu := unlisted_le G s
  have h1 : unlisted G s * G.length ≤ G.length * G.length := Nat.mul_le_mul_right _ hu
  have h2 : (G.length + 1) * (G.length + 1) = G.length * G.length + 2 * G.length + 1 := by ring
  omega

end GoRegexp

namespace GoRegexp

/-! ## The lists of threads of doExecute -/

/-- A list that calls of addState build from the empty list has no two threads at the same
instruction, and its threads are at instructions of the program. -/
theorem addList_nodup {G : List instr} {s : List state} (h : AddList G s) :
    (s.map (fun x => x.inst)).Nodup ∧ ∀ th ∈ s, th.inst < G.length := by
  induction h with
  | nil => exact ⟨by simp, fun th hth => by cases hth⟩
  | add fuel i pf m pos end' _ hadd ih =>
    obtain ⟨t, rfl, d, -⟩ := addState_extends G _ _ _ _ _ _ _ _ hadd
    refine ⟨addState_nodup G _ _ _ _ _ _ _ _ hadd ih.1, fun th hth => ?_⟩
    rcases List.mem_append.1 hth with h1 | h1
    · exact ih.2 th h1
    · exact (d th h1).1

theorem map_out_addList {G : List instr} {acc acc2 : execState} {fuel : Nat} {i : Option Nat}
    {pf : Bool} {m : List Int} {pos end' : Nat} (ha : AddList G acc.out)
    (h : (addState G fuel acc.out i pf m pos end').map (fun o => { acc with out := o }) =
      some acc2) : AddList G acc2.out := by
  cases h1 : addState G fuel acc.out i pf m pos end' with
  | none => rw [h1] at h; cases h
  | some o =>
    rw [h1] at h
    simp only [Option.map_some', Option.some.injEq] at h
    rw [← h]
    exact .add fuel i pf m pos end' ha h1

/-- One step of a thread in doExecute leaves the list s[out] one that calls of addState
build from the empty list. -/
theorem stepState_addList {G : List instr} {fuel : Nat} {c : Int} {pos cw end' : Nat}
    {acc acc2 : execState} {st : state} (ha : AddList G acc.out)
    (h : stepState G fuel c pos cw end' acc st = some acc2) : AddList G acc2.out := by
  unfold stepState at h
  cases hx : G[st.inst]? with
  | none => rw [hx] at h; cases h
  | some x =>
    rw [hx] at h
    simp only at h
    cases hk : x.kind <;> rw [hk] at h <;> simp only at h
    case iStart => cases h
    case iNop => cases h
    case iBOT => cases h; exact ha
    case iEOT => cases h; exact ha
    case iBra => cases h; exact ha
    case iAlt => cases h; exact ha
    case iChar =>
      split at h
      · exact map_out_addList ha h
      · cases h; exact ha
    case iAny =>
      split at h
      · exact map_out_addList ha h
      · cases h; exact ha
    case iNotNL =>
      split at h
      · exact map_out_addList ha h
      · cases h; exact ha
    case iCharClass =>
      cases hc : x.cclass with
      | none => rw [hc] at h; cases h
      | some cc =>
        rw [hc] at h
        simp only at h
        split at h
        · exact map_out_addList ha h
        · cases h; exact ha
    case iEnd =>
      cases hb : better acc.found acc.final st pos cw with
      | none => rw [hb] at h; cases h
      | some v =>
        rw [hb] at h
        cases v with
        | false => simp only at h; cases h; exact ha
        | true =>
          simp only at h
          cases hv : vecSet st.m 1 ((pos : Int) - cw) with
          | none => rw [hv] at h; cases h
          | some m2 => rw [hv] at h; cases h; exact ha

/-- The loop over s[in] of doExecute leaves the list s[out] one that calls of addState build
from the empty list. -/
theorem stepAll_addList {G : List instr} {fuel : Nat} {c : Int} {pos cw end' : Nat} :
    ∀ (sin : List state) (acc acc2 : execState), AddList G acc.out →
      stepAll G fuel c pos cw end' sin acc = some acc2 → AddList G acc2.out := by
  intro sin
  induction sin with
  | nil =>
    intro acc acc2 ha h
    simp only [stepAll, Option.some.injEq] at h
    rw [← h]
    exact ha
  | cons st t ih =>
    intro acc acc2 ha h
    unfold stepAll at h
    cases h1 : stepState G fuel c pos cw end' acc st with
    | none => rw [h1] at h; cases h
    | some a1 =>
      rw [h1] at h
      exact ih a1 acc2 (stepState_addList ha h1) h

/-- One turn of the loop of doExecute: it ends, or it goes on with lists s[in] and s[out]
that calls of addState have built from the empty list. -/
theorem executeLoop_lists (re : Regexp) (b : List Nat) (end' sp : Nat) (anch : Bool)
    (fuel pos : Nat) (out : List state) (final : Option state) (found : Bool)
    (ha : AddList re.inst out) :
    executeLoop re b end' sp anch (fuel + 1) pos out final found = some final ∨
    executeLoop re b end' sp anch (fuel + 1) pos out final found = none ∨
    ∃ (sin : List state) (acc : execState) (c : Int) (cw : Nat),
      AddList re.inst sin ∧ AddList re.inst acc.out ∧
      stepAll re.inst (addFuel re) c (pos + cw) cw end' sin
        { out := [], final := final, found := found } = some acc ∧
      executeLoop re b end' sp anch (fuel + 1) pos out final found =
        executeLoop re b end' sp anch fuel (pos + cw) acc.out acc.final acc.found := by
  generalize hR : executeLoop re b end' sp anch fuel = R
  unfold executeLoop
  by_cases h1 : ¬ pos ≤ end'
  · rw [if_pos h1]
    exact Or.inl rfl
  · rw [if_neg h1]
    simp only
    split
    · exact Or.inl rfl
    · right
      split
      · exact Or.inl rfl
      · rename_i sin hsd
        have hsin : AddList re.inst sin := by
          split at hsd
          · split at hsd
            · cases hsd
            · split at hsd
              · exact .add _ _ _ _ _ _ ha hsd
              · cases hsd
          · cases hsd
            exact ha
        split
        · exact Or.inl rfl
        · rename_i acc hst
          exact Or.inr ⟨sin, acc, _, _, hsin, stepAll_addList sin _ acc .nil hst, hst,
            by rw [hR]⟩

end GoRegexp

namespace GoRegexp

/-! ## The vector of a match is within bounds -/

/-- The vector of a match of a compiled program, from offset pos on: it has the length of
the arena, it is within the bounds of the subject, and the match starts at pos or after. -/
theorem matchAt_bounds {pat : List Nat} {re : Regexp} (h : Compile pat = .ok re)
    {rk : Nat → Nat} {x0 : instr} {s0 : Nat} (hR : Ready re rk x0 s0) {b : List Nat}
    {pos : Nat} {m : List Int} (hm : MatchAt re b s0 pos m) :
    m.length = 2 * (re.nbra + 1) ∧ VecInBounds b m ∧
      ∃ p : Nat, m[0]? = some (p : Int) ∧ pos ≤ p := by
  obtain ⟨a, q1, s, e, hp⟩ := Compile_ok_parse h
  obtain ⟨hlen, p0, q0, g0, g1, g2, g3, g4⟩ := MatchAt_span hR.prog hm
  obtain ⟨p, q, tr, m1, k, e1, e2, e3, e4, e5⟩ := hm
  have hpq := Run_pos_le e3
  obtain ⟨m2, hl, hm2⟩ := (Compile_semantics h hp b p q m).1
    ⟨tr, 0, x0, s0, k, m1, hR.start, hR.first, hR.next, e3, e4, e5⟩
  obtain ⟨a1, a2, a3, a4⟩ := langV_pairs hl (by omega) ⟨re.nbra + 1, seedVec_length re p⟩
  rw [seedVec_length] at a1
  have hq : m[1]? = some (q : Int) := by
    rw [hm2]
    exact List.getElem?_set_self (by omega)
  have hp0 : m[0]? = some (p : Int) := by
    have hv := Run_vstart hR.prog e3
    rw [vstart_seedVec] at hv
    have hv2 : m1[0]? = some (p : Int) := by
      rw [get0_vstart (by rw [Run_length e3, seedVec_length]; omega), hv]
    rw [e5, List.getElem?_set_ne (by omega)]
    exact hv2
  refine ⟨hlen, ⟨p, q, hp0, hq, by omega, by omega, by omega, ?_⟩, p, hp0, e1⟩
  intro i hi1 hi2
  have f0 : m[2 * i]? = m2[2 * i]? := by
    rw [hm2]
    exact List.getElem?_set_ne (by omega)
  have f1 : m[2 * i + 1]? = m2[2 * i + 1]? := by
    rw [hm2]
    exact List.getElem?_set_ne (by omega)
  rw [f0, f1]
  rcases a4 i with ⟨c1, c2⟩ | ⟨lo2, hi2, c1, c2, c3, c4, c5⟩
  · left
    rw [c1, c2, seedVec_entry re p (2 * i) (by omega) (by omega),
      seedVec_entry re p (2 * i + 1) (by omega) (by omega)]
    exact ⟨rfl, rfl⟩
  · right
    exact ⟨lo2, hi2, c1, c2, by omega, by omega, by omega⟩

/-- The matcher on a compiled program returns, and the vector it returns is within the
bounds of the subject. -/
theorem doExecute_bounds {pat : List Nat} {re : Regexp} (h : Compile pat = .ok re)
    (s : List Nat) (pos : Nat) (hpos : pos ≤ s.length) :
    ∃ r, re.doExecute s none pos = some r ∧ (∀ x, re.doExecute x (some s) pos = some r) ∧
      ∀ m, r = some m → m.length = 2 * (re.nbra + 1) ∧ VecInBounds s m := by
  obtain ⟨rk, x0, s0, hR⟩ := Compile_ready h
  obtain ⟨r, hr, hm⟩ := doExecute_sound hR s pos hpos
  refine ⟨r, hr, fun x => by rw [doExecute_bytes, hr], fun m e => ?_⟩
  obtain ⟨a1, a2, -⟩ := matchAt_bounds h hR (hm m e)
  exact ⟨a1, a2⟩

/-- The loop of allMatches on a compiled program returns, and the vectors it delivers are
within the bounds of the subject. -/
theorem allMatches_bounds {pat : List Nat} {re : Regexp} (h : Compile pat = .ok re)
    (s : List Nat) (n : Int) :
    ∃ R, re.allMatches s n = some R ∧ re.allMatchesBytes s n = some R ∧
      ∀ m ∈ R, m.length = 2 * (re.nbra + 1) ∧ VecInBounds s m := by
  obtain ⟨rk, x0, s0, hR⟩ := Compile_ready h
  obtain ⟨R, h1, -, -, h4⟩ := allMatchesLoop_spec hR s (s.length + 2) 0 (-1) (by omega)
    (by omega) (by omega)
  have e1 : re.allMatches s n = some (R.take n.toNat) := by
    unfold Regexp.allMatches
    exact h1 n
  refine ⟨R.take n.toNat, e1, by rw [allMatchesBytes_eq, e1], fun m hm => ?_⟩
  have hmem := MatchesFrom_mem R 0 h4 m (List.mem_of_mem_take hm)
  obtain ⟨a1, a2, -⟩ := matchAt_bounds h hR hmem
  exact ⟨a1, a2⟩

end GoRegexp

namespace GoRegexp

/-! ## The driving loops move forward -/

/-- One turn of the loop of allMatches at the search offset pos: the loop ends, with no
match or with the limit n reached, or doExecute has found a match a and the loop goes on at
an offset after pos. -/
theorem allMatchesLoop_turn {pat : List Nat} {re : Regexp} (h : Compile pat = .ok re)
    (s : List Nat) (n : Int) (fuel pos : Nat) (i prev : Int) (hpos : pos ≤ s.length) :
    allMatchesLoop re s n s.length (fuel + 1) pos i prev = some [] ∨
    ∃ (a : List Int) (m0 m1 : Int) (pos2 : Nat),
      re.doExecute s none pos = some (some a) ∧ a[0]? = some m0 ∧ a[1]? = some m1 ∧
      pos2 = (if m1 = (pos : Int) then
        (if (DecodeRuneInString ((s.drop pos).take (s.length - pos))).2 > 0 then
          pos + (DecodeRuneInString ((s.drop pos).take (s.length - pos))).2
        else s.length + 1) else m1.toNat) ∧
      pos < pos2 ∧ pos2 ≤ s.length + 1 ∧
      allMatchesLoop re s n s.length (fuel + 1) pos i prev =
        (if m1 = (pos : Int) ∧ m0 = prev then allMatchesLoop re s n s.length fuel pos2 i m1
         else (allMatchesLoop re s n s.length fuel pos2 (i + 1) m1).map (fun r => a :: r)) := by
  obtain ⟨rk, x0, s0, hR⟩ := Compile_ready h
  obtain ⟨r, hr, hm⟩ := doExecute_sound hR s pos hpos
  generalize hL : allMatchesLoop re s n s.length fuel = L
  unfold allMatchesLoop
  by_cases hc : ¬ (i < n ∧ pos ≤ s.length)
  · rw [if_pos hc]
    exact Or.inl rfl
  · rw [if_neg hc, hr]
    cases r with
    | none => exact Or.inl rfl
    | some a =>
      simp only
      obtain ⟨hlen, p, q, g0, g1, g2, g3, g4⟩ := MatchAt_span hR.prog (hm a rfl)
      rw [if_neg (by omega), g0, g1]
      simp only
      right
      have hw := DecodeRune_width_le ((s.drop pos).take (s.length - pos))
      simp only [List.length_take, List.length_drop] at hw
      refine ⟨a, p, q, _, rfl, g0, g1, rfl, ?_, ?_, ?_⟩
      · split
        · split <;> omega
        · omega
      · split
        · split
          · simp only [DecodeRuneInString]
            omega
          · omega
        · omega
      · rw [hL]
        by_cases he : (q : Int) = (pos : Int)
        · by_cases hp : (p : Int) = prev
          · simp [he, hp]
          · simp [he, hp]
        · simp [he]

/-- One turn of the loop of ReplaceAllStringFunc at the search offset pos: the loop ends
with no match, or doExecute has found a match a and the loop, unless a slice of it is out
of range, goes on at an offset after pos. -/
theorem replaceLoop_turn {pat : List Nat} {re : Regexp} (h : Compile pat = .ok re)
    (src : List Nat) (repl : List Nat → List Nat) (fuel : Nat) (last : Int) (pos : Nat)
    (buf : List Nat) (hpos : pos ≤ src.length) :
    replaceLoop re src repl (fuel + 1) last pos buf =
      (sliceOf src last src.length).map (fun t => buf ++ t) ∨
    ∃ (a : List Int) (a0 a1 : Int) (pos2 : Nat),
      re.doExecute src none pos = some (some a) ∧ a[0]? = some a0 ∧ a[1]? = some a1 ∧
      pos2 = (if (pos : Int) + (DecodeRuneInString (src.drop pos)).2 > a1 then
          pos + (DecodeRuneInString (src.drop pos)).2
        else if (pos : Int) + 1 > a1 then pos + 1 else a1.toNat) ∧
      pos < pos2 ∧ pos2 ≤ src.length + 1 ∧
      (replaceLoop re src repl (fuel + 1) last pos buf = none ∨
        ∃ buf2, replaceLoop re src repl (fuel + 1) last pos buf =
          replaceLoop re src repl fuel a1 pos2 buf2) := by
  obtain ⟨rk, x0, s0, hR⟩ := Compile_ready h
  obtain ⟨r, hr, hm⟩ := doExecute_sound hR src pos hpos
  generalize hL : replaceLoop re src repl fuel = L
  unfold replaceLoop
  rw [if_neg (by omega), hr]
  cases r with
  | none => exact Or.inl rfl
  | some a =>
    simp only
    obtain ⟨hlen, p, q, g0, g1, g2, g3, g4⟩ := MatchAt_span hR.prog (hm a rfl)
    rw [if_neg (by omega), g0, g1]
    simp only
    right
    have hw := DecodeRune_width_le (src.drop pos)
    simp only [List.length_drop] at hw
    refine ⟨a, p, q, _, rfl, g0, g1, rfl, ?_, ?_, ?_⟩
    · simp only [DecodeRuneInString]
      split
      · omega
      · split <;> omega
    · simp only [DecodeRuneInString]
      split
      · omega
      · split <;> omega
    · split
      · exact Or.inl rfl
      · split
        · exact Or.inl rfl
        · rename_i buf2 _
          right
          exact ⟨buf2, by rw [hL]⟩

end GoRegexp

namespace GoRegexp

/-! ## adler32: the deferred reduction -/

theorem adler_step_bound {a b x : Nat} (hq : a * a ≤ 510 * b + 65520 * 65520)
    (hb : b ≤ 2147483520) (hx : x < 256) :
    a ≤ 1048575 ∧ a + x < 2 ^ 32 ∧ b + (a + x) < 2 ^ 32 := by
  have ha : a ≤ 1048575 := by
    by_contra hc
    have h1 : 1048576 ≤ a := by omega
    have h2 : 1048576 * 1048576 ≤ a * a := Nat.mul_le_mul h1 h1
    omega
  refine ⟨ha, ?_, ?_⟩
  · norm_num; omega
  · norm_num; omega

theorem adler_step_quad {a b x : Nat} (hq : a * a ≤ 510 * b + 65520 * 65520)
    (hx : x < 256) : (a + x) * (a + x) ≤ 510 * (b + (a + x)) + 65520 * 65520 := by
  have h1 : x * x ≤ 255 * x := Nat.mul_le_mul_right _ (by omega)
  have h2 : a * x ≤ a * 255 := Nat.mul_le_mul_left _ (by omega)
  have h3 : (a + x) * (a + x) = a * a + 2 * (a * x) + x * x := by ring
  rw [h3]
  omega

theorem adler_mod_quad {a b : Nat} (ha : a < 65521) : a * a ≤ 510 * b + 65520 * 65520 := by
  have h1 : a * a ≤ 65520 * 65520 := Nat.mul_le_mul (by omega) (by omega)
  omega

theorem adlerSumsFrom_cons (s : Nat × Nat) (x : Nat) (p : List Nat) :
    adlerSumsFrom s (x :: p) = adlerSumsFrom (s.1 + x, s.2 + (s.1 + x)) p := rfl

theorem adler_update_eq (a b x : Nat) (p : List Nat) :
    adler32.update a b (x :: p) =
      if (b + (a + x) % 2 ^ 32) % 2 ^ 32 > (0xffffffff - 255) / 2 then
        adler32.update ((a + x) % 2 ^ 32 % adler32.mod)
          ((b + (a + x) % 2 ^ 32) % 2 ^ 32 % adler32.mod) p
      else adler32.update ((a + x) % 2 ^ 32) ((b + (a + x) % 2 ^ 32) % 2 ^ 32) p := by
  rw [adler32.update]

theorem adler_update_cons (a b x : Nat) (p : List Nat)
    (hq : a * a ≤ 510 * b + 65520 * 65520) (hb : b ≤ 2147483520) (hx : x < 256) :
    adler32.update a b (x :: p) =
      if b + (a + x) > 2147483520 then
        adler32.update ((a + x) % 65521) ((b + (a + x)) % 65521) p
      else adler32.update (a + x) (b + (a + x)) p := by
  obtain ⟨-, h1, h2⟩ := adler_step_bound hq hb hx
  have e1 : (a + x) % 2 ^ 32 = a + x := Nat.mod_eq_of_lt h1
  have e2 : (b + (a + x)) % 2 ^ 32 = b + (a + x) := Nat.mod_eq_of_lt h2
  have e3 : (0xffffffff - 255) / 2 = 2147483520 := by norm_num
  rw [adler_update_eq]
  simp only [e1, e2, e3, adler32.mod]

/-- The sums a and b that update keeps: they are the sums of RFC 1950 modulo 65521, and they
stay in the range in which the additions of the next byte do not wrap around. -/
theorem adler_update_spec : ∀ (p : List Nat) (a b : Nat) (s : Nat × Nat),
    (∀ x ∈ p, x < 256) → a % 65521 = s.1 % 65521 → b % 65521 = s.2 % 65521 →
    a * a ≤ 510 * b + 65520 * 65520 → b ≤ 2147483520 →
    (a ≤ b ∨ (a < 65521 ∧ b < 65521)) →
    (adler32.update a b p).1 % 65521 = (adlerSumsFrom s p).1 % 65521 ∧
    (adler32.update a b p).2 % 65521 = (adlerSumsFrom s p).2 % 65521 ∧
    (adler32.update a b p).1 * (adler32.update a b p).1 ≤
      510 * (adler32.update a b p).2 + 65520 * 65520 ∧
    (adler32.update a b p).2 ≤ 2147483520 ∧
    ((adler32.update a b p).1 ≤ (adler32.update a b p).2 ∨
      ((adler32.update a b p).1 < 65521 ∧ (adler32.update a b p).2 < 65521)) := by
  intro p
  induction p with
  | nil =>
    intro a b s _ h1 h2 h3 h4 h5
    exact ⟨h1, h2, h3, h4, h5⟩
  | cons x p ih =>
    intro a b s hp h1 h2 h3 h4 h5
    have hx : x < 256 := hp x (by simp)
    have hp2 : ∀ y ∈ p, y < 256 := fun y hy => hp y (by simp [hy])
    rw [adler_update_cons a b x p h3 h4 hx, adlerSumsFrom_cons]
    by_cases hbig : b + (a + x) > 2147483520
    · rw [if_pos hbig]
      have ha2 : (a + x) % 65521 < 65521 := Nat.mod_lt _ (by norm_num)
      have hb2 : (b + (a + x)) % 65521 < 65521 := Nat.mod_lt _ (by norm_num)
      exact ih _ _ (s.1 + x, s.2 + (s.1 + x)) hp2 (by simp only; omega) (by simp only; omega)
        (adler_mod_quad ha2) (by omega) (Or.inr ⟨ha2, hb2⟩)
    · rw [if_neg hbig]
      exact ih _ _ (s.1 + x, s.2 + (s.1 + x)) hp2 (by simp only; omega) (by simp only; omega)
        (adler_step_quad h3 hx) (by omega) (Or.inl (by omega))

theorem adler_update_append : ∀ (p q : List Nat) (a b : Nat),
    adler32.update a b (p ++ q) =
      adler32.update (adler32.update a b p).1 (adler32.update a b p).2 q := by
  intro p
  induction p with
  | nil => intro q a b; rfl
  | cons x p ih =>
    intro q a b
    simp only [List.cons_append]
    rw [adler_update_eq, adler_update_eq]
    split
    · exact ih _ _ _
    · exact ih _ _ _

theorem adler_finish_eq {a b : Nat} (h : a ≤ b ∨ (a < 65521 ∧ b < 65521)) :
    adler32.finish a b = (b % 65521) * 65536 + a % 65521 := by
  have key : ∀ a2 b2 : Nat, a2 < 65521 → b2 < 65521 →
      ((b2 <<< 16) % 2 ^ 32) ||| a2 = b2 * 65536 + a2 := by
    intro a2 b2 ha hb
    rw [Nat.shiftLeft_eq]
    have h1 : b2 * 2 ^ 16 < 2 ^ 32 := by norm_num; omega
    rw [Nat.mod_eq_of_lt h1]
    have h2 := Nat.mul_add_lt_is_or (i := 16) (b := a2) (by norm_num; omega) b2
    rw [Nat.mul_comm (2 ^ 16) b2] at h2
    rw [← h2]
  unfold adler32.finish
  simp only [adler32.mod]
  by_cases hb : b ≥ 65521
  · rw [if_pos hb]
    exact key _ _ (Nat.mod_lt _ (by norm_num)) (Nat.mod_lt _ (by norm_num))
  · rw [if_neg hb]
    have hb2 : b < 65521 := by omega
    have ha2 : a < 65521 := by omega
    rw [Nat.mod_eq_of_lt ha2, Nat.mod_eq_of_lt hb2]
    exact key a b ha2 hb2

theorem adlerSumsFrom_snoc (s : Nat × Nat) (p : List Nat) (x : Nat) :
    adlerSumsFrom s (p ++ [x]) =
      ((adlerSumsFrom s p).1 + x, (adlerSumsFrom s p).2 + ((adlerSumsFrom s p).1 + x)) := by
  unfold adlerSumsFrom
  rw [List.foldl_append]
  rfl

/-- The sums of RFC 1950 in closed form: s1 is 1 plus the sum of the bytes, and s2 is the sum,
over the bytes, of the value of s1 after the byte. -/
theorem adlerSums_closed (data : List Nat) :
    (adlerSums data).1 = 1 + data.sum ∧
    (adlerSums data).2 =
      ((List.range data.length).map (fun k => 1 + (data.take (k + 1)).sum)).sum := by
  induction data using List.reverseRecOn with
  | nil => exact ⟨rfl, rfl⟩
  | append_singleton p x ih =>
    obtain ⟨i1, i2⟩ := ih
    unfold adlerSums at i1 i2 ⊢
    rw [adlerSumsFrom_snoc]
    simp only
    rw [i1, i2]
    refine ⟨by simp; omega, ?_⟩
    rw [List.length_append, List.length_singleton, List.range_succ, List.map_append,
      List.sum_append]
    have h1 : (List.range p.length).map (fun k => 1 + ((p ++ [x]).take (k + 1)).sum) =
        (List.range p.length).map (fun k => 1 + (p.take (k + 1)).sum) := by
      apply List.map_congr_left
      intro k hk
      rw [List.mem_range] at hk
      rw [List.take_append_of_le_length (by omega)]
    rw [h1]
    simp only [List.map_cons, List.map_nil, List.sum_cons, List.sum_nil, Nat.add_zero]
    rw [List.take_of_length_le (by simp)]
    simp
    omega

/-- The checksum of a sequence of bytes is made of the two sums of RFC 1950, and no addition
of update wraps around. -/
theorem adler_checksum_eq (data : List Nat) (hb : ∀ x ∈ data, x < 256) :
    adler32.Checksum data =
      ((adlerSums data).2 % 65521) * 65536 + (adlerSums data).1 % 65521 ∧
    ∀ (p : List Nat) (x : Nat) (rest : List Nat), data = p ++ x :: rest →
      (adler32.update 1 0 p).1 + x < 2 ^ 32 ∧
      (adler32.update 1 0 p).2 + ((adler32.update 1 0 p).1 + x) < 2 ^ 32 := by
  constructor
  · obtain ⟨h1, h2, -, -, h5⟩ := adler_update_spec data 1 0 (1, 0) hb rfl rfl (by norm_num)
      (by norm_num) (Or.inr ⟨by norm_num, by norm_num⟩)
    unfold adler32.Checksum
    simp only
    rw [adler_finish_eq h5, h1, h2]
    rfl
  · intro p x rest hd
    have hp : ∀ y ∈ p, y < 256 := fun y hy => hb y (by rw [hd]; simp [hy])
    have hx : x < 256 := hb x (by rw [hd]; simp)
    obtain ⟨-, -, h3, h4, -⟩ := adler_update_spec p 1 0 (1, 0) hp rfl rfl (by norm_num)
      (by norm_num) (Or.inr ⟨by norm_num, by norm_num⟩)
    obtain ⟨-, a1, a2⟩ := adler_step_bound h3 h4 hx
    exact ⟨a1, a2⟩

end GoRegexp

namespace GoRegexp

/-! ## Paths of links -/

theorem pathR_append {R : Nat → Nat → Prop} {n i j : Nat} (h : PathR R n i j) :
    ∀ {n2 k : Nat}, PathR R n2 j k → PathR R (n + n2) i k := by
  induction h with
  | nil => intro n2 k h2; simpa using h2
  | @cons n0 _ _ _ hs _ ih =>
    intro n2 k h2
    have := PathR.cons hs (ih h2)
    rwa [show n0 + 1 + n2 = n0 + n2 + 1 by omega]

theorem pathR_uncons {R : Nat → Nat → Prop} {n i k : Nat} (h : PathR R (n + 1) i k) :
    ∃ j, R i j ∧ PathR R n j k := by
  cases h with
  | cons hs hp => exact ⟨_, hs, hp⟩

theorem pathR_zero {R : Nat → Nat → Prop} {i k : Nat} (h : PathR R 0 i k) : k = i := by
  cases h with
  | nil => rfl

theorem pathR_mono {R S : Nat → Nat → Prop} (hRS : ∀ i j, R i j → S i j) {n i k : Nat}
    (h : PathR R n i k) : PathR S n i k := by
  induction h with
  | nil => exact .nil
  | cons hs _ ih => exact .cons (hRS _ _ hs) ih

/-- A cycle can be gone around as often as one likes. -/
theorem pathR_cycle {R : Nat → Nat → Prop} {L x : Nat} (h : PathR R (L + 1) x x) (K : Nat) :
    ∃ L2, K ≤ L2 ∧ PathR R L2 x x := by
  induction K with
  | zero => exact ⟨0, le_refl _, .nil⟩
  | succ K ih =>
    obtain ⟨L2, h1, h2⟩ := ih
    exact ⟨L + 1 + L2, by omega, pathR_append h h2⟩

/-- A chain of links is a path. -/
theorem pathR_of_chain {R : Nat → Nat → Prop} : ∀ (l : List Nat) (x y : Nat),
    List.Chain R x (l ++ [y]) → PathR R (l.length + 1) x y := by
  intro l
  induction l with
  | nil =>
    intro x y h
    simp only [List.nil_append, List.chain_cons] at h
    exact .cons h.1 .nil
  | cons a l ih =>
    intro x y h
    simp only [List.cons_append, List.chain_cons] at h
    exact .cons h.1 (ih a y h.2)

/-! ## Reaching an instruction within a number of links -/

theorem reach_refl (R : Nat → Nat → Prop) (t : Nat) : ReachWithin R t t 0 :=
  fun L _ _ h => ⟨0, L, by omega, le_refl _, .nil, h⟩

theorem reach_mono {R : Nat → Nat → Prop} {i t B B2 : Nat} (h : ReachWithin R i t B)
    (hB : B ≤ B2) : ReachWithin R i t B2 := by
  intro L k hL hp
  obtain ⟨L1, L2, h1, h2, h3, h4⟩ := h L k (by omega) hp
  exact ⟨L1, L2, h1, by omega, h3, h4⟩

theorem reach_trans {R : Nat → Nat → Prop} {i u t B1 B2 : Nat} (h1 : ReachWithin R i u B1)
    (h2 : ReachWithin R u t B2) : ReachWithin R i t (B1 + B2) := by
  intro L k hL hp
  obtain ⟨L1, L2, e1, e2, e3, e4⟩ := h1 L k (by omega) hp
  obtain ⟨L3, L4, f1, f2, f3, f4⟩ := h2 L2 k (by omega) e4
  exact ⟨L1 + L3, L4, by omega, by omega, pathR_append e3 f3, f4⟩

/-- From an instruction whose links of R all lead to y or to z. -/
theorem reach_fork {R : Nat → Nat → Prop} {i y z t B : Nat}
    (hi : ∀ j, R i j → j = y ∨ j = z)
    (hy : R i y → ReachWithin R y t B) (hz : R i z → ReachWithin R z t B) :
    ReachWithin R i t (B + 1) := by
  intro L k hL hp
  obtain ⟨L0, rfl⟩ : ∃ L0, L = L0 + 1 := ⟨L - 1, by omega⟩
  obtain ⟨j, hs, hp0⟩ := pathR_uncons hp
  rcases hi j hs with rfl | rfl
  · obtain ⟨L1, L2, e1, e2, e3, e4⟩ := hy hs L0 k (by omega) hp0
    exact ⟨L1 + 1, L2, by omega, by omega, .cons hs e3, e4⟩
  · obtain ⟨L1, L2, e1, e2, e3, e4⟩ := hz hs L0 k (by omega) hp0
    exact ⟨L1 + 1, L2, by omega, by omega, .cons hs e3, e4⟩

/-- From an instruction whose links of R all lead to y. -/
theorem reach_step {R : Nat → Nat → Prop} {i y t B : Nat} (hi : ∀ j, R i j → j = y)
    (hy : ReachWithin R y t B) : ReachWithin R i t (B + 1) :=
  reach_fork (fun j hj => Or.inl (hi j hj)) (fun _ => hy) (fun _ => hy)

/-! ## The links of an instruction -/

theorem nextAt_unique {G : List instr} {i j k : Nat} (h1 : NextAt G i j) (h2 : NextAt G i k) :
    j = k := by
  obtain ⟨x, hx, hn⟩ := h1
  obtain ⟨y, hy, hm⟩ := h2
  rw [hx] at hy; cases hy
  rw [hn] at hm
  exact Option.some.inj hm

theorem altAt_unique {G : List instr} {i j k : Nat} (h1 : AltAt G i j) (h2 : AltAt G i k) :
    j = k := by
  obtain ⟨x, hx, -, hn⟩ := h1
  obtain ⟨y, hy, -, hm⟩ := h2
  rw [hx] at hy; cases hy
  rw [hn] at hm
  exact Option.some.inj hm

/-- The only link of an instruction that is not an iAlt is its `next` link. -/
theorem link_plain {G : List instr} {i j t : Nat} {x : instr} (hx : G[i]? = some x)
    (hk : x.kind ≠ .iAlt) (ht : NextAt G i t) (h : Link G i j) : j = t := by
  rcases h with h | ⟨y, hy, hka, -⟩
  · exact nextAt_unique h ht
  · rw [hx] at hy; cases hy
    exact absurd hka hk

/-- The two links of an iAlt. -/
theorem link_alt {G : List instr} {i j s t : Nat} (hs : AltAt G i s) (ht : NextAt G i t)
    (h : Link G i j) : j = s ∨ j = t := by
  rcases h with h | h
  · exact Or.inr (nextAt_unique h ht)
  · exact Or.inl (altAt_unique h hs)

theorem leafFor_notAlt {x : instr} {r : Ast} (h : LeafFor x r) : x.kind ≠ .iAlt := by
  cases r <;> simp only [LeafFor] at h
  · rw [h]; simp
  · rw [h]; simp
  · rw [h]; simp
  · rw [h.1]; simp
  · rcases h.1 with h1 | h1 | h1 <;> rw [h1] <;> simp
  · rw [h]; simp

/-! ## The size of a fragment and its closures -/

theorem built_size {G : List instr} {m n s e : Nat} {r : Ast} (h : Built G m n r s e) :
    n = m + r.size := by
  induction h with
  | @leaf m r x hx hl =>
    cases r <;> simp only [LeafFor] at hl <;> simp [Ast.size]
  | group _ _ _ _ _ ih => simp only [Ast.size]; omega
  | star _ _ _ ih => simp only [Ast.size]; omega
  | plus _ _ _ ih => simp only [Ast.size]; omega
  | opt _ _ _ _ _ ih => simp only [Ast.size]; omega
  | cat _ _ _ ih1 ih2 => simp only [Ast.size]; omega
  | alt _ _ _ _ _ _ _ ih1 ih2 => simp only [Ast.size]; omega

/-- Every closure of a tree has its fragment in the fragment of the tree: the fragment of
its operand, and right after it the iAlt whose `left` link leads to the start of the
operand, and to which the end of the operand leads. -/
theorem built_closures {G : List instr} {m n s e : Nat} {r : Ast} (h : Built G m n r s e) :
    ∀ c ∈ r.closures m, ∃ m1 s1 e1, Built G m1 c.1 c.2 s1 e1 ∧ AltAt G c.1 s1 ∧
      NextAt G e1 c.1 ∧ m ≤ c.1 ∧ c.1 < n := by
  induction h with
  | @leaf m r x hx hl =>
    intro c hc
    cases r <;> simp only [LeafFor] at hl <;> simp [Ast.closures] at hc
  | @group m n1 k s1 e1 r hB _ _ _ _ ih =>
    intro c hc
    simp only [Ast.closures] at hc
    obtain ⟨m1, s2, e2, h1, h2, h3, h4, h5⟩ := ih c hc
    exact ⟨m1, s2, e2, h1, h2, h3, h4, by omega⟩
  | @star m n1 s1 e1 r hB ha hn ih =>
    intro c hc
    simp only [Ast.closures, List.mem_cons] at hc
    have hr := built_range hB
    rcases hc with rfl | hc
    · rw [← built_size hB]
      exact ⟨m, s1, e1, hB, ha, hn, by omega, by omega⟩
    · obtain ⟨m1, s2, e2, h1, h2, h3, h4, h5⟩ := ih c hc
      exact ⟨m1, s2, e2, h1, h2, h3, h4, by omega⟩
  | @plus m n1 s1 e1 r hB ha hn ih =>
    intro c hc
    simp only [Ast.closures, List.mem_cons] at hc
    have hr := built_range hB
    rcases hc with rfl | hc
    · rw [← built_size hB]
      exact ⟨m, s1, e1, hB, ha, hn, by omega, by omega⟩
    · obtain ⟨m1, s2, e2, h1, h2, h3, h4, h5⟩ := ih c hc
      exact ⟨m1, s2, e2, h1, h2, h3, h4, by omega⟩
  | @opt m n1 s1 e1 r hB _ _ _ _ ih =>
    intro c hc
    simp only [Ast.closures] at hc
    obtain ⟨m1, s2, e2, h1, h2, h3, h4, h5⟩ := ih c hc
    exact ⟨m1, s2, e2, h1, h2, h3, h4, by omega⟩
  | @cat m n1 n s1 e1 s2 e2 r1 r2 hB1 hB2 _ ih1 ih2 =>
    intro c hc
    simp only [Ast.closures, List.mem_append] at hc
    have hr1 := built_range hB1
    have hr2 := built_range hB2
    rcases hc with hc | hc
    · obtain ⟨m1, s3, e3, h1, h2, h3, h4, h5⟩ := ih1 c hc
      exact ⟨m1, s3, e3, h1, h2, h3, h4, by omega⟩
    · rw [← built_size hB1] at hc
      obtain ⟨m1, s3, e3, h1, h2, h3, h4, h5⟩ := ih2 c hc
      exact ⟨m1, s3, e3, h1, h2, h3, by omega, h5⟩
  | @alt m n1 n2 s1 e1 s2 e2 r1 r2 hB1 hB2 _ _ _ _ _ ih1 ih2 =>
    intro c hc
    simp only [Ast.closures, List.mem_append] at hc
    have hr1 := built_range hB1
    have hr2 := built_range hB2
    rcases hc with hc | hc
    · obtain ⟨m1, s3, e3, h1, h2, h3, h4, h5⟩ := ih1 c hc
      exact ⟨m1, s3, e3, h1, h2, h3, h4, by omega⟩
    · rw [← built_size hB1] at hc
      obtain ⟨m1, s3, e3, h1, h2, h3, h4, h5⟩ := ih2 c hc
      exact ⟨m1, s3, e3, h1, h2, h3, by omega, by omega⟩

end GoRegexp

namespace GoRegexp

/-! ## Every long path leaves a fragment -/

/-- Let R be a relation of links of G such that no path of R leads from the start of the
operand of a closure back to its iAlt when the `left` link of the iAlt is in R. Then every
path of R from an instruction of a fragment, when it is long enough, goes through the
instruction the end of the fragment leads to: the paths of R inside the fragment have a
bounded length. -/
theorem built_leaves {G : List instr} {R : Nat → Nat → Prop} (hR : ∀ i j, R i j → Link G i j)
    {m n s e : Nat} {r : Ast} (h : Built G m n r s e) :
    (∀ c ∈ r.closures m, ∀ s1, AltAt G c.1 s1 → R c.1 s1 →
      ∀ L, PathR R L s1 c.1 → False) →
    ∀ t, NextAt G e t → ∃ B, ∀ x, m ≤ x → x < n → ReachWithin R x t B := by
  induction h with
  | @leaf m r x hx hl =>
    intro _ t ht
    refine ⟨0 + 1, fun y h1 h2 => ?_⟩
    have : y = m := by omega
    subst this
    exact reach_step (fun j hj => link_plain hx (leafFor_notAlt hl) ht (hR _ _ hj))
      (reach_refl R t)
  | @group m n1 k s1 e1 r hB hb1 hn1 hn2 hb2 ih =>
    intro hc t ht
    obtain ⟨B1, h1⟩ := ih (fun c hc1 => hc c (by simpa only [Ast.closures] using hc1))
      _ hn2
    have hr := built_range hB
    obtain ⟨xb, hxb, hkb, -⟩ := hb1
    obtain ⟨xe, hxe, hke, -⟩ := hb2
    have hE : ReachWithin R (n1 + 1) t (0 + 1) :=
      reach_step (fun j hj => link_plain hxe (by rw [hke]; simp) ht (hR _ _ hj))
        (reach_refl R t)
    refine ⟨B1 + 1 + 1, fun y h2 h3 => ?_⟩
    by_cases hy : y < n1
    · exact reach_mono (reach_trans (h1 y h2 hy) hE) (by omega)
    · by_cases hy2 : y = n1
      · subst hy2
        exact reach_step (fun j hj => link_plain hxb (by rw [hkb]; simp) hn1 (hR _ _ hj))
          (reach_mono (reach_trans (h1 s1 hr.1 hr.2.1) hE) (by omega))
      · have : y = n1 + 1 := by omega
        subst this
        exact reach_mono hE (by omega)
  | @star m n1 s1 e1 r hB ha hn ih =>
    intro hc t ht
    obtain ⟨B1, h1⟩ := ih (fun c hc1 => hc c (by
      simp only [Ast.closures, List.mem_cons]; exact Or.inr hc1)) _ hn
    have hr := built_range hB
    have hmem : (n1, r) ∈ (Ast.star r).closures m := by
      simp only [Ast.closures, List.mem_cons]
      exact Or.inl (by rw [built_size hB])
    have hA : ReachWithin R n1 t (B1 + 1) :=
      reach_fork (fun j hj => link_alt ha ht (hR _ _ hj))
        (fun hs L k hL hp => by
          obtain ⟨L1, L2, -, -, e3, -⟩ := h1 s1 hr.1 hr.2.1 L k hL hp
          exact (hc _ hmem s1 ha hs L1 e3).elim)
        (fun _ => reach_mono (reach_refl R t) (by omega))
    refine ⟨B1 + (B1 + 1), fun y h2 h3 => ?_⟩
    by_cases hy : y < n1
    · exact reach_trans (h1 y h2 hy) hA
    · have : y = n1 := by omega
      subst this
      exact reach_mono hA (by omega)
  | @plus m n1 s1 e1 r hB ha hn ih =>
    intro hc t ht
    obtain ⟨B1, h1⟩ := ih (fun c hc1 => hc c (by
      simp only [Ast.closures, List.mem_cons]; exact Or.inr hc1)) _ hn
    have hr := built_range hB
    have hmem : (n1, r) ∈ (Ast.plus r).closures m := by
      simp only [Ast.closures, List.mem_cons]
      exact Or.inl (by rw [built_size hB])
    have hA : ReachWithin R n1 t (B1 + 1) :=
      reach_fork (fun j hj => link_alt ha ht (hR _ _ hj))
        (fun hs L k hL hp => by
          obtain ⟨L1, L2, -, -, e3, -⟩ := h1 s1 hr.1 hr.2.1 L k hL hp
          exact (hc _ hmem s1 ha hs L1 e3).elim)
        (fun _ => reach_mono (reach_refl R t) (by omega))
    refine ⟨B1 + (B1 + 1), fun y h2 h3 => ?_⟩
    by_cases hy : y < n1
    · exact reach_trans (h1 y h2 hy) hA
    · have : y = n1 := by omega
      subst this
      exact reach_mono hA (by omega)
  | @opt m n1 s1 e1 r hB ha hn hp he ih =>
    intro hc t ht
    obtain ⟨B1, h1⟩ := ih (fun c hc1 => hc c (by simpa only [Ast.closures] using hc1))
      _ he
    have hr := built_range hB
    obtain ⟨xp, hxp, hkp⟩ := hp
    have hE : ReachWithin R (n1 + 1) t (0 + 1) :=
      reach_step (fun j hj => link_plain hxp (by rw [hkp]; simp) ht (hR _ _ hj))
        (reach_refl R t)
    refine ⟨B1 + 1 + 1, fun y h2 h3 => ?_⟩
    by_cases hy : y < n1
    · exact reach_mono (reach_trans (h1 y h2 hy) hE) (by omega)
    · by_cases hy2 : y = n1
      · subst hy2
        exact reach_fork (fun j hj => link_alt ha hn (hR _ _ hj))
          (fun _ => reach_trans (h1 s1 hr.1 hr.2.1) hE)
          (fun _ => reach_mono hE (by omega))
      · have : y = n1 + 1 := by omega
        subst this
        exact reach_mono hE (by omega)
  | @cat m n1 n s1 e1 s2 e2 r1 r2 hB1 hB2 hn ih1 ih2 =>
    intro hc t ht
    obtain ⟨B1, h1⟩ := ih1 (fun c hc1 => hc c (by
      simp only [Ast.closures, List.mem_append]; exact Or.inl hc1)) _ hn
    obtain ⟨B2, h2⟩ := ih2 (fun c hc1 => hc c (by
      simp only [Ast.closures, List.mem_append]
      exact Or.inr (by rw [← built_size hB1]; exact hc1))) _ ht
    have hr1 := built_range hB1
    have hr2 := built_range hB2
    refine ⟨B1 + B2, fun y h3 h4 => ?_⟩
    by_cases hy : y < n1
    · exact reach_trans (h1 y h3 hy) (h2 s2 hr2.1 hr2.2.1)
    · exact reach_mono (h2 y (by omega) h4) (by omega)
  | @alt m n1 n2 s1 e1 s2 e2 r1 r2 hB1 hB2 ha hn hp he1 he2 ih1 ih2 =>
    intro hc t ht
    obtain ⟨B1, h1⟩ := ih1 (fun c hc1 => hc c (by
      simp only [Ast.closures, List.mem_append]; exact Or.inl hc1)) _ he1
    obtain ⟨B2, h2⟩ := ih2 (fun c hc1 => hc c (by
      simp only [Ast.closures, List.mem_append]
      exact Or.inr (by rw [← built_size hB1]; exact hc1))) _ he2
    have hr1 := built_range hB1
    have hr2 := built_range hB2
    obtain ⟨xp, hxp, hkp⟩ := hp
    have hE : ReachWithin R (n2 + 1) t (0 + 1) :=
      reach_step (fun j hj => link_plain hxp (by rw [hkp]; simp) ht (hR _ _ hj))
        (reach_refl R t)
    refine ⟨B1 + B2 + 1 + 1, fun y h3 h4 => ?_⟩
    by_cases hy : y < n1
    · exact reach_mono (reach_trans (h1 y h3 hy) hE) (by omega)
    · by_cases hy2 : y < n2
      · exact reach_mono (reach_trans (h2 y (by omega) hy2) hE) (by omega)
      · by_cases hy3 : y = n2
        · subst hy3
          exact reach_fork (fun j hj => link_alt ha hn (hR _ _ hj))
            (fun _ => reach_mono (reach_trans (h1 s1 hr1.1 hr1.2.1) hE) (by omega))
            (fun _ => reach_mono (reach_trans (h2 s2 hr2.1 hr2.2.1) hE) (by omega))
        · have : y = n2 + 1 := by omega
          subst this
          exact reach_mono hE (by omega)

/-- In the program the parser has built, linked to iStart and iEnd, a relation of links as
in built_leaves has no cycle. -/
theorem built_acyclic {G : List instr} {R : Nat → Nat → Prop} (hR : ∀ i j, R i j → Link G i j)
    {N s e : Nat} {r : Ast} (h : Built G 1 N r s e) (hN : NextAt G e N)
    (h0 : G[0]? = some { kind := .iStart, index := 0, next := some s })
    (hE : G[N]? = some { kind := .iEnd, index := N }) (hlen : G.length = N + 1)
    (hc : ∀ c ∈ r.closures 1, ∀ s1, AltAt G c.1 s1 → R c.1 s1 →
      ∀ L, PathR R L s1 c.1 → False)
    {L x : Nat} (hp : PathR R (L + 1) x x) : False := by
  obtain ⟨B, hB⟩ := built_leaves hR h hc N hN
  have hr := built_range h
  have hend : ∀ j, ¬ R N j := by
    intro j hj
    rcases hR _ _ hj with ⟨y, hy, hn⟩ | ⟨y, hy, hk, -⟩
    · rw [hE] at hy; cases hy; cases hn
    · rw [hE] at hy; cases hy; cases hk
  have key : ∀ y, 1 ≤ y → y < N → ∀ L2, B + 1 ≤ L2 → ∀ k, PathR R L2 y k → False := by
    intro y h1 h2 L2 hL k hk
    obtain ⟨L3, L4, e1, e2, -, e4⟩ := hB y h1 h2 L2 k (by omega) hk
    obtain ⟨L5, rfl⟩ : ∃ L5, L4 = L5 + 1 := ⟨L4 - 1, by omega⟩
    obtain ⟨j, hj, -⟩ := pathR_uncons e4
    exact hend j hj
  obtain ⟨L2, hL2, hp2⟩ := pathR_cycle hp (B + 2)
  obtain ⟨L3, rfl⟩ : ∃ L3, L2 = L3 + 1 := ⟨L2 - 1, by omega⟩
  obtain ⟨j, hj, hp3⟩ := pathR_uncons hp2
  by_cases hx0 : x = 0
  · subst hx0
    have : j = s := link_plain h0 (by simp) ⟨_, h0, rfl⟩ (hR _ _ hj)
    subst this
    exact key j hr.1 hr.2.1 L3 (by omega) _ hp3
  · by_cases hxN : x < N
    · exact key x (by omega) hxN _ (by omega) _ hp2
    · by_cases hxe : x = N
      · subst hxe
        exact hend j hj
      · have hnone : G[x]? = none := List.getElem?_eq_none (by omega)
        rcases hR _ _ hj with ⟨y, hy, -⟩ | ⟨y, hy, -⟩
        · rw [hnone] at hy; cases hy
        · rw [hnone] at hy; cases hy

end GoRegexp

namespace GoRegexp

/-! ## The trees that read nothing -/

theorem lang_nullable {b : List Nat} {r : Ast} {p q : Nat} (h : Lang b r p q) :
    b = [] → r.nullable = true := by
  induction h with
  | bot => exact fun _ => rfl
  | eot => exact fun _ => rfl
  | any h1 => intro hb; subst hb; simp at h1
  | char h1 _ => intro hb; subst hb; simp at h1
  | cls h1 _ => intro hb; subst hb; simp at h1
  | group _ ih => exact fun hb => by simp only [Ast.nullable]; exact ih hb
  | starNil => exact fun _ => rfl
  | starCons _ _ _ _ => exact fun _ => rfl
  | plus _ _ ih _ => exact fun hb => by simp only [Ast.nullable]; exact ih hb
  | optNil => exact fun _ => rfl
  | optSome _ _ => exact fun _ => rfl
  | empty => exact fun _ => rfl
  | cat _ _ ih1 ih2 =>
    exact fun hb => by simp only [Ast.nullable, Bool.and_eq_true]; exact ⟨ih1 hb, ih2 hb⟩
  | altLeft _ ih =>
    exact fun hb => by simp only [Ast.nullable, Bool.or_eq_true]; exact Or.inl (ih hb)
  | altRight _ ih =>
    exact fun hb => by simp only [Ast.nullable, Bool.or_eq_true]; exact Or.inr (ih hb)

theorem nullable_lang : ∀ (r : Ast), r.nullable = true → Lang [] r 0 0 := by
  intro r
  induction r with
  | bot => exact fun _ => .bot
  | eot => exact fun _ => Lang.eot
  | any => intro h; simp [Ast.nullable] at h
  | char c => intro h; simp [Ast.nullable] at h
  | cls n rs => intro h; simp [Ast.nullable] at h
  | group k r ih => exact fun h => .group (ih (by simpa only [Ast.nullable] using h))
  | star r _ => exact fun _ => .starNil
  | plus r ih => exact fun h => .plus (ih (by simpa only [Ast.nullable] using h)) .starNil
  | opt r _ => exact fun _ => .optNil
  | empty => exact fun _ => .empty
  | cat r1 r2 ih1 ih2 =>
    intro h
    simp only [Ast.nullable, Bool.and_eq_true] at h
    exact .cat (ih1 h.1) (ih2 h.2)
  | alt r1 r2 ih1 ih2 =>
    intro h
    simp only [Ast.nullable, Bool.or_eq_true] at h
    rcases h with h | h
    · exact .altLeft (ih1 h)
    · exact .altRight (ih2 h)

/-- A tree can be read without any input when its language, on the empty subject, has the
empty span. -/
theorem nullable_iff (r : Ast) : r.nullable = true ↔ Lang [] r 0 0 :=
  ⟨nullable_lang r, fun h => lang_nullable h rfl⟩

/-! ## The paths that consume nothing -/

/-- A link that leaves an instruction a thread passes without consuming input is a move of
the program on the empty subject. -/
theorem silent_step {G : List instr} {i j : Nat} (h : SilentLink G i j) (v : List Int) :
    ∃ v1, StepN G [] i 0 v j 0 v1 := by
  obtain ⟨hl, x, hx, hk⟩ := h
  have hnext : x.kind ≠ .iAlt → x.next = some j := by
    intro hna
    rcases hl with ⟨y, hy, hn⟩ | ⟨y, hy, hka, -⟩
    · rw [hx] at hy; cases hy; exact hn
    · rw [hx] at hy; cases hy; exact absurd hka hna
  rcases hk with hk | hk | hk | hk | hk
  · exact ⟨v, .step (.bot hx hk rfl (hnext (by rw [hk]; simp)))⟩
  · exact ⟨v, .step (.eot hx hk rfl (hnext (by rw [hk]; simp)))⟩
  · exact ⟨_, .step (.bra hx hk (hnext (by rw [hk]; simp)))⟩
  · rcases hl with ⟨y, hy, hn⟩ | ⟨y, hy, -, hn⟩
    · rw [hx] at hy; cases hy
      exact ⟨v, .step (.altNext hx hk hn)⟩
    · rw [hx] at hy; cases hy
      exact ⟨v, .step (.altLeft hx hk hn)⟩
  · exact ⟨v, .nop hx hk (hnext (by rw [hk]; simp))⟩

theorem silent_path {G : List instr} {L i k : Nat} (h : PathR (SilentLink G) L i k) :
    ∀ v, ∃ v1, PathN G [] L i 0 v k 0 v1 := by
  induction h with
  | nil => exact fun v => ⟨v, .nil⟩
  | cons hs _ ih =>
    intro v
    obtain ⟨v1, h1⟩ := silent_step hs v
    obtain ⟨v2, h2⟩ := ih v1
    exact ⟨v2, .cons h1 h2⟩

/-- No path that consumes nothing leads from the start of the operand of a closure back to
its iAlt, when the operand cannot be read without input. -/
theorem silent_closure {G : List instr} {m n s e : Nat} {r : Ast} (h : Built G m n r s e)
    (hn : ∀ c ∈ r.closures m, c.2.nullable = false) :
    ∀ c ∈ r.closures m, ∀ s1, AltAt G c.1 s1 → SilentLink G c.1 s1 →
      ∀ L, PathR (SilentLink G) L s1 c.1 → False := by
  intro c hc s1 ha _ L hp
  obtain ⟨m1, s2, e1, hB, ha2, hne, -, -⟩ := built_closures h c hc
  have := altAt_unique ha ha2
  subst this
  obtain ⟨v1, hpn⟩ := silent_path hp []
  obtain ⟨q, v2, L1, hlang, -, -⟩ := built_split hB c.1 hne c.1 0 v1 (by omega) L 0 [] hpn
  have := lang_nullable (lang_of_langV hlang) rfl
  rw [hn c hc] at this
  cases this

/-- No link that is not the `left` link of the iAlt of a closure is the `left` link of the
iAlt of a closure. -/
theorem forward_closure {G : List instr} (A : List Nat) {m : Nat} {r : Ast}
    (hA : ∀ c ∈ r.closures m, c.1 ∈ A) :
    ∀ c ∈ r.closures m, ∀ s1, AltAt G c.1 s1 → ForwardLink G A c.1 s1 →
      ∀ L, PathR (ForwardLink G A) L s1 c.1 → False :=
  fun c hc _ ha hf _ _ => hf.2 ⟨hA c hc, ha⟩

end GoRegexp

namespace GoRegexp

/-! ## The program before and after the elimination of the iNop instructions -/

theorem parsed_eq {pat : List Nat} {r : Ast} {q1 : parser} {s e : Nat}
    (hp : Parse .regexp (startParser pat) r q1 s e) :
    Regexp.parsed { expr := pat } = linkEnds (some 0) q1 (some s) (some e) := by
  have hreg := regexp_at_parseFuel (parse_complete hp) (by simp)
  simp only [callNT] at hreg
  unfold Regexp.parsed
  simp only
  have : ({ newParser { expr := pat } with
      re := ((newParser { expr := pat }).re.add { kind := .iStart }).1 } : parser) =
      startParser pat := rfl
  rw [this, hreg]
  simp only [add_snd]
  have : (newParser { expr := pat }).re.inst = [] := by simp [newParser]
  rw [this]
  rfl

theorem linkEnds_inst {q1 : parser} {s e : Nat} {r0 : Regexp}
    (h : linkEnds (some 0) q1 (some s) (some e) = .ok r0) :
    r0.inst = updNext (updNext q1.re.inst 0 (some s) ++
      [({ kind := .iEnd, index := q1.re.inst.length } : instr)]) e
      (some q1.re.inst.length) := by
  unfold linkEnds at h
  cases h1 : q1.re.setNext (some 0) (some s) with
  | error x => rw [h1] at h; cases h
  | ok r1 =>
    rw [h1] at h
    simp only at h
    obtain ⟨i1, -⟩ := setNext_inst h1
    have l1 : r1.inst.length = q1.re.inst.length := by rw [i1, updNext_length]
    obtain ⟨i2, -⟩ := setNext_inst h
    simp only [add_inst, add_nbra, add_snd] at i2
    rw [i2, l1, i1]

/-- The program of a pattern that compiles, before the elimination of its iNop
instructions: iStart leads to the fragment of the tree of the pattern, whose end leads to
iEnd, the last instruction. -/
theorem Compile_built {pat : List Nat} {re : Regexp} (h : Compile pat = .ok re) :
    ∃ (r : Ast) (G : List instr) (N s e : Nat), Gram .regexp [] (runes pat) r ∧
      Built G 1 N r s e ∧ NextAt G e N ∧
      G[0]? = some { kind := .iStart, index := 0, next := some s } ∧
      G[N]? = some { kind := .iEnd, index := N } ∧ G.length = N + 1 ∧ Elim G re.inst ∧
      ∀ (i : Nat) (x : instr), G[i]? = some x → x.kind = .iEnd →
        x.next = none ∧ re.inst[i]? = some x := by
  obtain ⟨r, q1, s, e, hp, hg, -⟩ := Compile_gram h
  obtain ⟨r0, r1, hpd, -, -, -, hE, hEnd⟩ := Compile_elim h
  rw [parsed_eq hp] at hpd
  have hG := linkEnds_inst hpd
  have hB0 := parse_built hp
  simp only [BuiltSpec] at hB0
  have hlen0 : (startParser pat).re.inst.length = 1 := by simp [startParser, newParser]
  rw [hlen0] at hB0
  have hr := built_range hB0
  obtain ⟨-, hfr, -⟩ := hp.frag
  rw [hlen0] at hfr
  have h0 : q1.re.inst[0]? = some { kind := .iStart, index := 0 } := by
    rw [hfr 0 (by omega)]; simp [startParser, newParser]
  generalize r0.inst = G at hG hE hEnd
  have hold : ∀ i, 1 ≤ i → i < q1.re.inst.length → i ≠ e → G[i]? = q1.re.inst[i]? := by
    intro i h1 h2 h3
    rw [hG, updNext_get, if_neg h3,
      List.getElem?_append_left (by rw [updNext_length]; exact h2), updNext_get,
      if_neg (by omega)]
  have hEe : G[e]? = (q1.re.inst[e]?).map
      (fun x => { x with next := some q1.re.inst.length }) := by
    rw [hG, updNext_get, if_pos rfl,
      List.getElem?_append_left (by rw [updNext_length]; omega), updNext_get,
      if_neg (by omega)]
  have hB : Built G 1 q1.re.inst.length r s e := built_link hB0 _ hold hEe
  have hNe : NextAt G e q1.re.inst.length := by
    obtain ⟨x, hx⟩ : ∃ x, q1.re.inst[e]? = some x := ⟨_, List.getElem?_eq_getElem (by omega)⟩
    exact ⟨_, by rw [hEe, hx]; rfl, rfl⟩
  have hG0 : G[0]? = some { kind := .iStart, index := 0, next := some s } := by
    rw [hG, updNext_get, if_neg (by omega),
      List.getElem?_append_left (by rw [updNext_length]; omega), updNext_get, if_pos rfl, h0]
    rfl
  have hGe : G[q1.re.inst.length]? = some { kind := .iEnd, index := q1.re.inst.length } := by
    rw [hG, updNext_get, if_neg (by omega),
      List.getElem?_append_right (by rw [updNext_length]), updNext_length]
    simp
  have hlen : G.length = q1.re.inst.length + 1 := by
    rw [hG, updNext_length, List.length_append, updNext_length]
    rfl
  exact ⟨r, G, _, s, e, hg, hB, hNe, hG0, hGe, hlen, hE, hEnd⟩

/-- A `next` link of the program without its iNop instructions comes from a `next` link of
the program with them, followed by the steps over the iNop instructions. -/
theorem next_back {G F : List instr} (hE : Elim G F)
    (hEnd : ∀ (i : Nat) (x : instr), G[i]? = some x → x.kind = .iEnd →
      x.next = none ∧ F[i]? = some x)
    {i t : Nat} (h : NextAt F i t) : ∃ j, NextAt G i j ∧ Skip G j t := by
  obtain ⟨y, hy, hn⟩ := h
  have hi : i < G.length := by
    rw [← hE.length]; exact (List.getElem?_eq_some.mp hy).1
  obtain ⟨y2, hy2, -, h2, -⟩ := hE.node i _ (List.getElem?_eq_getElem hi)
  rw [hy] at hy2; cases hy2
  by_cases hk : (G[i]).kind = .iEnd
  · obtain ⟨e1, e2⟩ := hEnd i _ (List.getElem?_eq_getElem hi) hk
    rw [hy] at e2; cases e2
    rw [e1] at hn; cases hn
  · obtain ⟨j, t2, a1, a2, a3⟩ := h2 hk
    rw [hn] at a2; cases a2
    exact ⟨j, ⟨_, List.getElem?_eq_getElem hi, a1⟩, a3⟩

/-- The `left` link of an iAlt of the program without its iNop instructions comes from the
`left` link of the iAlt of the program with them. -/
theorem alt_back {G F : List instr} (hE : Elim G F) {i t : Nat} (h : AltAt F i t) :
    ∃ j, AltAt G i j ∧ Skip G j t := by
  obtain ⟨y, hy, hk, hn⟩ := h
  have hi : i < G.length := by
    rw [← hE.length]; exact (List.getElem?_eq_some.mp hy).1
  obtain ⟨y2, hy2, hs, -, h3⟩ := hE.node i _ (List.getElem?_eq_getElem hi)
  rw [hy] at hy2; cases hy2
  have hkx : (G[i]).kind = .iAlt := by rw [← hs.1, hk]
  obtain ⟨j, t2, a1, a2, a3⟩ := h3 hkx
  rw [hn] at a2; cases a2
  exact ⟨j, ⟨_, List.getElem?_eq_getElem hi, hkx, a1⟩, a3⟩

/-- The `left` link of an iAlt is kept by the elimination, up to the steps over the iNop
instructions. -/
theorem alt_forth {G F : List instr} (hE : Elim G F) {i j : Nat} (h : AltAt G i j) :
    ∃ t, AltAt F i t ∧ Skip G j t := by
  obtain ⟨x, hx, hk, hn⟩ := h
  obtain ⟨y, hy, hs, -, h3⟩ := hE.node i _ hx
  obtain ⟨j2, t, a1, a2, a3⟩ := h3 hk
  rw [hn] at a1; cases a1
  exact ⟨t, ⟨y, hy, by rw [hs.1, hk], a2⟩, a3⟩

theorem skip_pathR {G : List instr} {R : Nat → Nat → Prop}
    (hNop : ∀ i j, NopAt G i → NextAt G i j → R i j) {j t : Nat} (h : Skip G j t) :
    ∃ L, PathR R L j t := by
  induction h with
  | here _ _ => exact ⟨0, .nil⟩
  | step hx hk hn _ ih =>
    obtain ⟨L, hL⟩ := ih
    exact ⟨L + 1, .cons (hNop _ _ ⟨_, hx, hk⟩ ⟨_, hx, hn⟩) hL⟩

/-- A chain of links each of which is a path of R is a path of R. -/
theorem chain_path {Q R : Nat → Nat → Prop}
    (hQ : ∀ a b, Q a b → ∃ L, PathR R (L + 1) a b) : ∀ (l : List Nat) (x y : Nat),
    List.Chain Q x (l ++ [y]) → ∃ L, PathR R (L + 1) x y := by
  intro l
  induction l with
  | nil =>
    intro x y h
    simp only [List.nil_append, List.chain_cons] at h
    exact hQ _ _ h.1
  | cons a l ih =>
    intro x y h
    simp only [List.cons_append, List.chain_cons] at h
    obtain ⟨L1, h1⟩ := hQ _ _ h.1
    obtain ⟨L2, h2⟩ := ih a y h.2
    exact ⟨L1 + 1 + L2, by
      have := pathR_append h1 h2
      rwa [show L1 + 1 + (L2 + 1) = L1 + 1 + L2 + 1 by omega] at this⟩

/-- Every instruction of a chain but the first one is led to by a link of the chain. -/
theorem chain_target {Q : Nat → Nat → Prop} : ∀ (l : List Nat) (x : Nat), List.Chain Q x l →
    ∀ b ∈ l, ∃ a, Q a b := by
  intro l
  induction l with
  | nil => intro x _ b hb; cases hb
  | cons a l ih =>
    intro x h b hb
    simp only [List.chain_cons] at h
    rcases List.mem_cons.mp hb with rfl | hb
    · exact ⟨x, h.1⟩
    · exact ih a h.2 b hb

/-- A chain of links between instructions with the property P. -/
theorem chain_and {Q : Nat → Nat → Prop} {P : Nat → Prop} : ∀ (l : List Nat) (x : Nat),
    List.Chain Q x l → P x → (∀ b ∈ l, P b) →
    List.Chain (fun a b => Q a b ∧ P a) x l := by
  intro l
  induction l with
  | nil => intro x _ _ _; exact .nil
  | cons a l ih =>
    intro x h hx hl
    simp only [List.chain_cons] at h
    exact .cons ⟨h.1, hx⟩ (ih a h.2 (hl a (List.mem_cons_self _ _))
      (fun b hb => hl b (List.mem_cons_of_mem _ hb)))

/-! ## The cycles of a compiled program -/

/-- Every cycle of the program of a pattern that compiles goes through the `left` link of
the iAlt of a closure: the links that are not such a link form no cycle. -/
theorem forward_acyclic {G F : List instr} {N s e : Nat} {r : Ast}
    (hB : Built G 1 N r s e) (hN : NextAt G e N)
    (h0 : G[0]? = some { kind := .iStart, index := 0, next := some s })
    (hGN : G[N]? = some { kind := .iEnd, index := N }) (hlen : G.length = N + 1)
    (hE : Elim G F)
    (hEnd : ∀ (i : Nat) (x : instr), G[i]? = some x → x.kind = .iEnd →
      x.next = none ∧ F[i]? = some x)
    (x : Nat) (c : List Nat) :
    ¬ List.Chain (ForwardLink F ((r.closures 1).map Prod.fst)) x (c ++ [x]) := by
  intro hch
  generalize hA : (r.closures 1).map Prod.fst = A at hch
  have hNop : ∀ i j, NopAt G i → NextAt G i j → ForwardLink G A i j := by
    intro i j ⟨y, hy, hk⟩ hn
    refine ⟨Or.inl hn, ?_⟩
    rintro ⟨-, y2, hy2, hk2, -⟩
    rw [hy] at hy2; cases hy2
    rw [hk] at hk2; cases hk2
  have hstep : ∀ a b, ForwardLink F A a b → ∃ L, PathR (ForwardLink G A) (L + 1) a b := by
    intro a b ⟨hl, hna⟩
    rcases hl with hl | hl
    · obtain ⟨j, h1, h2⟩ := next_back hE hEnd hl
      obtain ⟨L, hL⟩ := skip_pathR hNop h2
      refine ⟨L, ?_⟩
      have h3 : ForwardLink G A a j := by
        refine ⟨Or.inl h1, ?_⟩
        rintro ⟨ha, hal⟩
        obtain ⟨t, h4, h5⟩ := alt_forth hE hal
        have := skip_unique h2 h5
        subst this
        exact hna ⟨ha, h4⟩
      have := PathR.cons h3 hL
      exact this
    · obtain ⟨j, h1, h2⟩ := alt_back hE hl
      obtain ⟨L, hL⟩ := skip_pathR hNop h2
      exact ⟨L, .cons ⟨Or.inr h1, fun hh => hna ⟨hh.1, hl⟩⟩ hL⟩
  obtain ⟨L, hL⟩ := chain_path hstep c x x hch
  exact built_acyclic (fun _ _ h => h.1) hB hN h0 hGN hlen
    (forward_closure A (fun c hc => by rw [← hA]; exact List.mem_map_of_mem _ hc)) hL

/-- When no closure of the pattern has an operand that can be read without input, every
cycle of the program has an instruction that consumes a rune. -/
theorem silent_acyclic {G F : List instr} {N s e nb : Nat} {r : Ast}
    (hB : Built G 1 N r s e) (hN : NextAt G e N)
    (h0 : G[0]? = some { kind := .iStart, index := 0, next := some s })
    (hGN : G[N]? = some { kind := .iEnd, index := N }) (hlen : G.length = N + 1)
    (hE : Elim G F)
    (hEnd : ∀ (i : Nat) (x : instr), G[i]? = some x → x.kind = .iEnd →
      x.next = none ∧ F[i]? = some x)
    (hW : GraphOK F nb)
    (hnull : ∀ c ∈ r.closures 1, c.2.nullable = false)
    (x : Nat) (c : List Nat) (hch : List.Chain (Link F) x (c ++ [x])) :
    ∃ i ∈ x :: c, ConsumesAt F i := by
  by_contra hno
  have hno2 : ∀ i ∈ x :: c, ¬ ConsumesAt F i := fun i hi hc => hno ⟨i, hi, hc⟩
  obtain ⟨rk, hnodes⟩ := hW.nodes
  -- the instructions of the cycle are led to by a link, so that none is iStart
  have hP : ∀ b ∈ c ++ [x], ¬ ConsumesAt F b ∧ kindAt F b ≠ some .iStart := by
    intro b hb
    refine ⟨hno2 b (by
      rcases List.mem_append.mp hb with h | h
      · exact List.mem_cons_of_mem _ h
      · rw [List.mem_singleton.mp h]; exact List.mem_cons_self _ _), ?_⟩
    obtain ⟨a, ha⟩ := chain_target _ _ hch b hb
    have htarget : Target F b := by
      rcases ha with ⟨y, hy, hn⟩ | ⟨y, hy, hk, hn⟩
      · have hi : a < G.length := by
          rw [← hE.length]; exact (List.getElem?_eq_some.mp hy).1
        have hne : y.kind ≠ .iEnd := by
          intro hk
          obtain ⟨y2, hy2, hs, -, -⟩ := hE.node a _ (List.getElem?_eq_getElem hi)
          rw [hy] at hy2; cases hy2
          obtain ⟨e1, e2⟩ := hEnd a _ (List.getElem?_eq_getElem hi) (by rw [← hs.1, hk])
          rw [hy] at e2; cases e2
          rw [e1] at hn; cases hn
        obtain ⟨j, hj, ht⟩ := (hnodes a y hy).next hne
        rw [hn] at hj; cases hj
        exact ht
      · obtain ⟨j, hj, ht⟩ := (hnodes a y hy).left hk
        rw [hn] at hj; cases hj
        exact ht
    obtain ⟨k, hk1, hk2⟩ := htarget
    rw [hk1]
    simpa using hk2
  have hx : ¬ ConsumesAt F x ∧ kindAt F x ≠ some .iStart :=
    hP x (List.mem_append.mpr (Or.inr (List.mem_singleton.mpr rfl)))
  have hch2 := chain_and (P := fun b => ¬ ConsumesAt F b ∧ kindAt F b ≠ some .iStart)
    _ _ hch hx hP
  have hNop : ∀ i j, NopAt G i → NextAt G i j → SilentLink G i j := by
    intro i j ⟨y, hy, hk⟩ hn
    exact ⟨Or.inl hn, y, hy, Or.inr (Or.inr (Or.inr (Or.inr hk)))⟩
  have hstep : ∀ a b, (Link F a b ∧ ¬ ConsumesAt F a ∧ kindAt F a ≠ some .iStart) →
      ∃ L, PathR (SilentLink G) (L + 1) a b := by
    intro a b ⟨hl, hnc, hns⟩
    -- the kind of the instruction a
    have hkind : ∃ x, G[a]? = some x ∧
        (x.kind = .iBOT ∨ x.kind = .iEOT ∨ x.kind = .iBra ∨ x.kind = .iAlt ∨
          x.kind = .iNop) := by
      have hy : ∃ y, F[a]? = some y := by
        rcases hl with ⟨y, hy, -⟩ | ⟨y, hy, -⟩ <;> exact ⟨y, hy⟩
      obtain ⟨y, hy⟩ := hy
      have hi : a < G.length := by
        rw [← hE.length]; exact (List.getElem?_eq_some.mp hy).1
      obtain ⟨y2, hy2, hs, -, -⟩ := hE.node a _ (List.getElem?_eq_getElem hi)
      rw [hy] at hy2; cases hy2
      refine ⟨_, List.getElem?_eq_getElem hi, ?_⟩
      have hne : y.kind ≠ .iEnd := by
        intro hk
        obtain ⟨e1, e2⟩ := hEnd a _ (List.getElem?_eq_getElem hi) (by rw [← hs.1, hk])
        rw [hy] at e2; cases e2
        rcases hl with ⟨y3, hy3, hn⟩ | ⟨y3, hy3, hk3, -⟩
        · rw [hy] at hy3; cases hy3
          rw [e1] at hn; cases hn
        · rw [hy] at hy3; cases hy3
          rw [hk] at hk3; cases hk3
      have hnc2 : y.kind.consumes = false := by
        cases hc : y.kind.consumes with
        | false => rfl
        | true => exact absurd ⟨y, hy, hc⟩ hnc
      have hns2 : y.kind ≠ .iStart := by
        intro hk
        apply hns
        unfold kindAt
        rw [hy]
        simp [hk]
      rw [← hs.1]
      cases hk : y.kind <;> simp_all [Kind.consumes]
    rcases hl with hl | hl
    · obtain ⟨j, h1, h2⟩ := next_back hE hEnd hl
      obtain ⟨L, hL⟩ := skip_pathR hNop h2
      exact ⟨L, .cons ⟨Or.inl h1, hkind⟩ hL⟩
    · obtain ⟨j, h1, h2⟩ := alt_back hE hl
      obtain ⟨L, hL⟩ := skip_pathR hNop h2
      exact ⟨L, .cons ⟨Or.inr h1, hkind⟩ hL⟩
  obtain ⟨L, hL⟩ := chain_path hstep c x x hch2
  exact built_acyclic (fun _ _ h => h.1) hB hN h0 hGN hlen (silent_closure hB hnull) hL

end GoRegexp

namespace GoRegexp

/-! ## The heap of the match arena -/

theorem contents_of_get {h : List matchVec} {v : Nat} {x : matchVec} (hx : h[v]? = some x) :
    contents h v = x.m := by
  unfold contents; rw [hx]

theorem contents_congr {h h2 : List matchVec} {v : Nat} (hv : h2[v]? = h[v]?) :
    contents h2 v = contents h v := by
  unfold contents; rw [hv]

theorem get_lt {h : List matchVec} {v : Nat} {x : matchVec} (hx : h[v]? = some x) :
    v < h.length := (List.getElem?_eq_some.mp hx).1

theorem get_set_self {h : List matchVec} {v : Nat} {x : matchVec} (hx : h[v]? = some x)
    (y : matchVec) : (h.set v y)[v]? = some y :=
  List.getElem?_set_self (get_lt hx)

theorem get_set_ne {h : List matchVec} {v u : Nat} (hne : u ≠ v) (y : matchVec) :
    (h.set v y)[u]? = h[u]? :=
  List.getElem?_set_ne (Ne.symm hne)

theorem views_congr {h h2 : List matchVec} {s : List stateA}
    (hs : ∀ st ∈ s, contents h2 st.vec = contents h st.vec) : views h2 s = views h s := by
  unfold views
  apply List.map_congr_left
  intro st hst
  unfold stateA.view
  rw [hs st hst]

theorem views_append (h : List matchVec) (s t : List stateA) :
    views h (s ++ t) = views h s ++ views h t := by
  unfold views; rw [List.map_append]

theorem views_any (h : List matchVec) (s : List stateA) (k : Nat) :
    (views h s).any (fun st => decide (st.inst = k)) = s.any (fun st => decide (st.inst = k)) := by
  unfold views
  induction s with
  | nil => rfl
  | cons st t ih =>
    simp only [List.map_cons, List.any_cons, ih]
    rfl

theorem vecs_append (s t : List stateA) : vecs (s ++ t) = vecs s ++ vecs t := by
  unfold vecs; rw [List.map_append]

theorem mem_vecs {s : List stateA} {st : stateA} (h : st ∈ s) : st.vec ∈ vecs s :=
  List.mem_map_of_mem _ h

theorem mem_vecs_iff {s : List stateA} {v : Nat} : v ∈ vecs s ↔ ∃ st ∈ s, st.vec = v := by
  unfold vecs
  rw [List.mem_map]

/-! ### The free list -/

theorem freeList_lt {h : List matchVec} {hd : Option Nat} {l : List Nat}
    (hf : FreeList h hd l) : ∀ v ∈ l, v < h.length := by
  induction hf with
  | nil => intro v hv; cases hv
  | cons hx _ ih =>
    intro v hv
    rcases List.mem_cons.mp hv with rfl | hv
    · exact get_lt hx
    · exact ih v hv

theorem freeList_none {h : List matchVec} {l : List Nat} (hf : FreeList h none l) : l = [] := by
  cases hf
  rfl

theorem freeList_some {h : List matchVec} {v : Nat} {l : List Nat}
    (hf : FreeList h (some v) l) :
    ∃ x l2, h[v]? = some x ∧ l = v :: l2 ∧ FreeList h x.next l2 := by
  cases hf with
  | cons hx hr => exact ⟨_, _, hx, rfl, hr⟩

/-- The free list is kept by an assignment to a vector that is not in it, or that leaves
the link of the vector as it is. -/
theorem freeList_set {h : List matchVec} {hd : Option Nat} {l : List Nat}
    (hf : FreeList h hd l) {v : Nat} {y : matchVec}
    (hy : ∀ x, h[v]? = some x → v ∈ l → y.next = x.next) : FreeList (h.set v y) hd l := by
  induction hf with
  | nil => exact .nil
  | @cons u x l hx _ ih =>
    by_cases huv : u = v
    · subst huv
      have h1 := hy x hx (List.mem_cons_self _ _)
      refine .cons (get_set_self hx y) ?_
      rw [h1]
      exact ih (fun x2 hx2 hm => hy x2 hx2 (List.mem_cons_of_mem _ hm))
    · refine .cons (by rw [get_set_ne huv]; exact hx) ?_
      exact ih (fun x2 hx2 hm => hy x2 hx2 (List.mem_cons_of_mem _ hm))

theorem freeList_append {h : List matchVec} {hd : Option Nat} {l : List Nat}
    (hf : FreeList h hd l) (t : List matchVec) : FreeList (h ++ t) hd l := by
  induction hf with
  | nil => exact .nil
  | cons hx _ ih =>
    exact .cons (by rw [List.getElem?_append_left (get_lt hx)]; exact hx) ih

/-! ### The invariant under the statements of the arena -/

theorem held_of_live {a : matchArena} {fl R : List Nat} (hI : ArenaInv a fl R) {v : Nat}
    (hv : v ∈ R) : Held a fl v (R.count v : Int) := by
  obtain ⟨h1, x, h2, h3, h4⟩ := hI.live v hv
  exact ⟨h1, x, h2, h3, h4⟩

/-- The invariant is kept by an assignment to one vector that leaves its link as it is when
the vector is in the free list, and that fits the references. -/
theorem inv_set {a : matchArena} {fl R R2 : List Nat} (hI : ArenaInv a fl R) {v : Nat}
    {x y : matchVec} (hx : a.heap[v]? = some x) (hnext : v ∈ fl → y.next = x.next)
    (hsz : y.m = [] ∨ y.m.length = a.len)
    (hR : ∀ u ∈ R2, u ≠ v → u ∈ R ∧ R2.count u = R.count u)
    (hv : v ∈ R2 → v ∉ fl ∧ y.ref = (R2.count v : Int) ∧ y.m.length = a.len)
    (w : List Write) :
    ArenaInv { a with heap := a.heap.set v y, writes := w } fl R2 := by
  refine ⟨?_, hI.nodup, hI.pos, ?_, ?_⟩
  · exact freeList_set hI.chain (fun x2 hx2 hm => by
      rw [hx] at hx2; cases hx2; exact hnext hm)
  · intro u z hz
    simp only at hz
    by_cases huv : u = v
    · subst huv
      rw [get_set_self hx] at hz
      cases hz
      exact hsz
    · rw [get_set_ne huv] at hz
      exact hI.sized u z hz
  · intro u hu
    by_cases huv : u = v
    · subst huv
      obtain ⟨h1, h2, h3⟩ := hv hu
      exact ⟨h1, y, get_set_self hx y, h2, h3⟩
    · obtain ⟨h1, h2⟩ := hR u hu huv
      obtain ⟨h3, z, h4, h5, h6⟩ := hI.live u h1
      exact ⟨h3, z, by simp only; rw [get_set_ne huv]; exact h4, by rw [h2]; exact h5, h6⟩

/-- The assignment `v.m[i] = val` to a vector in the hands of the caller. -/
theorem writeAt_spec {a : matchArena} {fl R : List Nat} (hI : ArenaInv a fl R) {v : Nat}
    {r : Int} (hh : Held a fl v r) (hr : v ∈ R → r = (R.count v : Int))
    (site : Site) (i : Nat) (val : Int) :
    (vecSet (contents a.heap v) i val = none → a.writeAt site v i val = none) ∧
    ∀ m, vecSet (contents a.heap v) i val = some m →
      ∃ a2, a.writeAt site v i val = some a2 ∧ ArenaInv a2 fl R ∧ Held a2 fl v r ∧
        contents a2.heap v = m ∧ (∀ u, u ≠ v → a2.heap[u]? = a.heap[u]?) ∧
        a2.len = a.len ∧ a2.writes = a.writes ++ [{ site := site, vec := v, ref := r }] := by
  obtain ⟨h1, x, hx, h2, h3⟩ := hh
  rw [contents_of_get hx]
  constructor
  · intro hn
    unfold matchArena.writeAt
    rw [hx]
    simp only [hn]
  · intro m hm
    have hlen : m.length = x.m.length := by
      unfold vecSet at hm
      split at hm
      · cases hm; simp
      · cases hm
    have hres : a.writeAt site v i val = some { a with
        heap := a.heap.set v { x with m := m },
        writes := a.writes ++ [{ site := site, vec := v, ref := x.ref }] } := by
      unfold matchArena.writeAt
      rw [hx]
      simp only [hm]
    refine ⟨_, hres, ?_, ?_, ?_, ?_, rfl, by rw [h2]⟩
    · exact inv_set hI hx (y := { x with m := m }) (fun _ => rfl)
        (Or.inr (by rw [hlen, h3]))
        (fun u hu _ => ⟨hu, rfl⟩)
        (fun hv => ⟨h1, by rw [h2]; exact hr hv, by rw [hlen, h3]⟩) _
    · exact ⟨h1, _, get_set_self hx _, h2, by rw [hlen, h3]⟩
    · exact contents_of_get (get_set_self hx _)
    · intro u hu
      exact get_set_ne hu _

/-- The statement `v.ref++` for a new reference to v. -/
theorem incRef_spec {a : matchArena} {fl R : List Nat} (hI : ArenaInv a fl R) {v : Nat}
    (hh : Held a fl v (R.count v : Int)) :
    ∃ a2, a.incRef v = some a2 ∧ ArenaInv a2 fl (R ++ [v]) ∧
      (∀ u, contents a2.heap u = contents a.heap u) ∧ a2.len = a.len ∧
      a2.writes = a.writes := by
  obtain ⟨h1, x, hx, h2, h3⟩ := hh
  have hres : a.incRef v = some { a with heap := a.heap.set v { x with ref := x.ref + 1 } } := by
    unfold matchArena.incRef
    rw [hx]
  refine ⟨_, hres, ?_, ?_, rfl, rfl⟩
  · refine inv_set hI hx (y := { x with ref := x.ref + 1 }) (fun _ => rfl) (Or.inr h3)
      ?_ ?_ _
    · intro u hu hne
      rw [List.mem_append, List.mem_singleton] at hu
      rcases hu with hu | hu
      · refine ⟨hu, ?_⟩
        rw [List.count_append, List.count_singleton]
        simp [Ne.symm hne]
      · exact absurd hu hne
    · intro _
      refine ⟨h1, ?_, h3⟩
      simp only
      rw [h2, List.count_append, List.count_singleton]
      simp
  · intro u
    simp only
    by_cases huv : u = v
    · subst huv
      rw [contents_of_get (get_set_self hx _), contents_of_get hx]
    · exact contents_congr (get_set_ne huv _)

/-- The call matchArena.free for a reference that is dropped. -/
theorem free_spec {a : matchArena} {fl R : List Nat} (hI : ArenaInv a fl R) {v : Nat}
    (hv : v ∈ R) :
    ∃ a2 fl2, a.free v = some a2 ∧ ArenaInv a2 fl2 (R.erase v) ∧
      (∀ u, contents a2.heap u = contents a.heap u) ∧ a2.len = a.len ∧
      a2.writes = a.writes := by
  obtain ⟨h1, x, hx, h2, h3⟩ := hI.live v hv
  have hc : 1 ≤ R.count v := List.one_le_count_iff.mpr hv
  have hcont : ∀ (y : matchVec), y.m = x.m → ∀ u,
      contents (a.heap.set v y) u = contents a.heap u := by
    intro y hy u
    by_cases huv : u = v
    · subst huv
      rw [contents_of_get (get_set_self hx _), contents_of_get hx, hy]
    · exact contents_congr (get_set_ne huv _)
  by_cases h0 : x.ref - 1 = 0
  · have hc1 : R.count v = 1 := by omega
    have hnot : v ∉ R.erase v := by
      intro hm
      have := List.one_le_count_iff.mpr hm
      rw [List.count_erase_self, hc1] at this
      omega
    have hres : a.free v = some { a with
        heap := a.heap.set v { m := x.m, ref := x.ref - 1, next := a.head },
        head := some v } := by
      unfold matchArena.free
      rw [hx]
      simp only [h0, if_true]
    refine ⟨_, v :: fl, hres, ?_, ?_, rfl, rfl⟩
    · refine ⟨?_, List.nodup_cons.mpr ⟨h1, hI.nodup⟩, hI.pos, ?_, ?_⟩
      · refine .cons (get_set_self hx _) ?_
        exact freeList_set hI.chain (fun _ _ hm => absurd hm h1)
      · intro u z hz
        simp only at hz
        by_cases huv : u = v
        · subst huv
          rw [get_set_self hx] at hz
          cases hz
          exact hI.sized u x hx
        · rw [get_set_ne huv] at hz
          exact hI.sized u z hz
      · intro u hu
        have hne : u ≠ v := fun e => hnot (e ▸ hu)
        have huR : u ∈ R := List.mem_of_mem_erase hu
        obtain ⟨g1, z, g2, g3, g4⟩ := hI.live u huR
        refine ⟨?_, z, by simp only; rw [get_set_ne hne]; exact g2, ?_, g4⟩
        · intro hm
          rcases List.mem_cons.mp hm with e | e
          · exact hne e
          · exact g1 e
        · rw [List.count_erase_of_ne hne]
          exact g3
    · exact hcont _ rfl
  · have hres : a.free v = some { a with
        heap := a.heap.set v { x with ref := x.ref - 1 } } := by
      unfold matchArena.free
      rw [hx]
      simp only [h0, if_false]
    refine ⟨_, fl, hres, ?_, ?_, rfl, rfl⟩
    · have := @inv_set a fl R (R.erase v) hI v x { x with ref := x.ref - 1 } hx
        (fun _ => rfl) (Or.inr h3)
        (fun u hu hne => ⟨List.mem_of_mem_erase hu, List.count_erase_of_ne hne _⟩)
        (fun _ => ⟨h1, by
          simp only
          rw [h2, List.count_erase_self]
          omega, h3⟩) a.writes
      exact this
    · exact hcont _ rfl

/-- The loop of matchArena.new that makes a block. -/
theorem grow_spec (R : List Nat) : ∀ (n : Nat) (a : matchArena) (fl : List Nat),
    ArenaInv a fl R →
    ∃ fl2, ArenaInv (a.grow n) fl2 R ∧ (0 < n → (a.grow n).head ≠ none) ∧
      (∀ (u : Nat) (x : matchVec), a.heap[u]? = some x → (a.grow n).heap[u]? = some x) ∧
      (∀ u ∈ fl2, u ∈ fl ∨ a.heap.length ≤ u) ∧
      (a.grow n).len = a.len ∧ (a.grow n).writes = a.writes ∧
      ((a.grow n).head = none → a.head = none) := by
  intro n
  induction n with
  | zero =>
    intro a fl hI
    exact ⟨fl, hI, fun h => absurd h (by omega), fun _ _ h => h, fun u hu => Or.inl hu,
      rfl, rfl, fun h => h⟩
  | succ n ih =>
    intro a fl hI
    have hI1 : ArenaInv { a with
        heap := a.heap ++ [{ m := [], ref := 0, next := a.head }],
        head := some a.heap.length } (a.heap.length :: fl) R := by
      refine ⟨?_, ?_, hI.pos, ?_, ?_⟩
      · exact .cons (x := { m := [], ref := 0, next := a.head })
          (by simp) (freeList_append hI.chain _)
      · refine List.nodup_cons.mpr ⟨fun hm => ?_, hI.nodup⟩
        have := freeList_lt hI.chain _ hm
        omega
      · intro u z hz
        simp only at hz
        by_cases hu : u < a.heap.length
        · rw [List.getElem?_append_left hu] at hz
          exact hI.sized u z hz
        · have hlt := get_lt hz
          simp only [List.length_append, List.length_singleton] at hlt
          have : u = a.heap.length := by omega
          subst this
          simp at hz
          rw [← hz]
          exact Or.inl rfl
      · intro u hu
        obtain ⟨g1, z, g2, g3, g4⟩ := hI.live u hu
        have hlt := get_lt g2
        refine ⟨?_, z, by simp only; rw [List.getElem?_append_left hlt]; exact g2, g3, g4⟩
        intro hm
        rcases List.mem_cons.mp hm with e | e
        · omega
        · exact g1 e
    obtain ⟨fl2, h1, h2, h3, h4, h5, h6, h7⟩ := ih _ _ hI1
    refine ⟨fl2, h1, fun _ => ?_, ?_, ?_, h5, h6, ?_⟩
    · intro hn
      have := h7 hn
      simp at this
    · intro u x hx
      exact h3 u x (by simp only; rw [List.getElem?_append_left (get_lt hx)]; exact hx)
    · intro u hu
      rcases h4 u hu with h | h
      · rcases List.mem_cons.mp h with e | e
        · exact Or.inr (by omega)
        · exact Or.inl e
      · simp only [List.length_append, List.length_singleton] at h
        exact Or.inr (by omega)
    · intro hn
      have := h7 hn
      simp at this

/-- The call matchArena.new: a vector that is in no list, with the reference count 0. -/
theorem new_spec {a : matchArena} {fl R : List Nat} (hI : ArenaInv a fl R) :
    ∃ a2 v fl2, a.new = some (a2, v) ∧ ArenaInv a2 fl2 R ∧ Held a2 fl2 v 0 ∧
      (∀ (u : Nat) (x : matchVec), u ≠ v → a.heap[u]? = some x → a2.heap[u]? = some x) ∧
      (∀ u, u ∉ fl → u < a.heap.length → u ≠ v ∧ u ∉ fl2) ∧
      a2.len = a.len ∧ a2.writes = a.writes := by
  -- the arena with a free list that is not empty
  obtain ⟨a1, fl1, hI1, hhd, hfr, hfl, hlen, hw, hdef⟩ :
      ∃ a1 fl1, ArenaInv a1 fl1 R ∧ a1.head ≠ none ∧
        (∀ (u : Nat) (x : matchVec), a.heap[u]? = some x → a1.heap[u]? = some x) ∧
        (∀ u ∈ fl1, u ∈ fl ∨ a.heap.length ≤ u) ∧ a1.len = a.len ∧ a1.writes = a.writes ∧
        a1 = (if a.head = none then a.grow 10 else a) := by
    by_cases hh : a.head = none
    · obtain ⟨fl2, h1, h2, h3, h4, h5, h6, -⟩ := grow_spec R 10 a fl hI
      exact ⟨a.grow 10, fl2, h1, h2 (by omega), h3, h4, h5, h6, by rw [if_pos hh]⟩
    · exact ⟨a, fl, hI, hh, fun _ _ h => h, fun u hu => Or.inl hu, rfl, rfl,
        by rw [if_neg hh]⟩
  obtain ⟨v, hv⟩ : ∃ v, a1.head = some v := by
    cases h : a1.head with
    | none => exact absurd h hhd
    | some v => exact ⟨v, rfl⟩
  have hch := hI1.chain
  rw [hv] at hch
  obtain ⟨x, fl2, hx, hflv, hrest⟩ := freeList_some hch
  have hnd := hI1.nodup
  rw [hflv] at hnd
  obtain ⟨hvn, hnd2⟩ := List.nodup_cons.mp hnd
  have hxm : (if x.m = [] then List.replicate a1.len 0 else x.m).length = a1.len := by
    split
    · simp
    · rename_i hne
      rcases hI1.sized v x hx with h | h
      · exact absurd h hne
      · exact h
  have hres : a.new = some ({ a1 with
      head := x.next,
      heap := a1.heap.set v
        { m := if x.m = [] then List.replicate a1.len 0 else x.m, ref := 0,
          next := x.next } }, v) := by
    unfold matchArena.new
    simp only
    rw [← hdef, hv]
    simp only
    rw [hx]
    simp only
    split <;> rfl
  refine ⟨_, v, fl2, hres, ?_, ?_, ?_, ?_, hlen, hw⟩
  · refine ⟨?_, hnd2, hI1.pos, ?_, ?_⟩
    · exact freeList_set hrest (fun _ _ hm => absurd hm hvn)
    · intro u z hz
      simp only at hz
      by_cases huv : u = v
      · subst huv
        rw [get_set_self hx] at hz
        cases hz
        exact Or.inr hxm
      · rw [get_set_ne huv] at hz
        exact hI1.sized u z hz
    · intro u hu
      obtain ⟨g1, z, g2, g3, g4⟩ := hI1.live u hu
      rw [hflv] at g1
      have hne : u ≠ v := fun e => g1 (e ▸ List.mem_cons_self _ _)
      exact ⟨fun hm => g1 (List.mem_cons_of_mem _ hm), z,
        by simp only; rw [get_set_ne hne]; exact g2, g3, g4⟩
  · exact ⟨hvn, _, get_set_self hx _, rfl, hxm⟩
  · intro u z hne hz
    simp only
    rw [get_set_ne hne]
    exact hfr u z hz
  · intro u hu1 hu2
    have hu3 : u ∉ fl1 := by
      intro hm
      rcases hfl u hm with h | h
      · exact hu1 h
      · omega
    rw [hflv] at hu3
    exact ⟨fun e => hu3 (e ▸ List.mem_cons_self _ _),
      fun hm => hu3 (List.mem_cons_of_mem _ hm)⟩

theorem copySlice_same {d m : List Int} (h : d.length = m.length) : copySlice d m = m := by
  unfold copySlice
  rw [h, List.take_length, ← h, List.drop_length, List.append_nil]

theorem not_mem_of_held {a : matchArena} {fl R : List Nat} (hI : ArenaInv a fl R) {c : Nat}
    (hc : ∀ u, u ∉ fl → u < a.heap.length → u ≠ c) : c ∉ R := by
  intro hm
  obtain ⟨g1, z, g2, -, -⟩ := hI.live c hm
  exact hc c g1 (get_lt g2) rfl

/-- The call matchArena.copy: a vector that is in no list, with the reference count 0 and
the contents of the vector that is copied. -/
theorem copy_spec {a : matchArena} {fl R : List Nat} (hI : ArenaInv a fl R) {mt : Nat}
    {r : Int} (hh : Held a fl mt r) :
    ∃ a2 c fl2, a.copy mt = some (a2, c) ∧ ArenaInv a2 fl2 R ∧ Held a2 fl2 c 0 ∧ c ∉ R ∧
      c ≠ mt ∧ Held a2 fl2 mt r ∧ contents a2.heap c = contents a.heap mt ∧
      (∀ u, u ≠ c → u < a.heap.length → contents a2.heap u = contents a.heap u) ∧
      a2.len = a.len ∧
      a2.writes = a.writes ++ [{ site := .copy, vec := c, ref := 0 }] := by
  obtain ⟨a1, c, fl1, hnew, hI1, hc, hfr, hfl, hlen, hw⟩ := new_spec hI
  obtain ⟨m1, xm, hxm, m2, m3⟩ := hh
  obtain ⟨hne, hm1⟩ := hfl mt m1 (get_lt hxm)
  have hxm1 : a1.heap[mt]? = some xm := hfr mt xm hne hxm
  obtain ⟨c1, x1, hx1, c2, c3⟩ := hc
  have hcR : c ∉ R := not_mem_of_held hI (fun u h1 h2 => (hfl u h1 h2).1)
  have hres : a.copy mt = some ({ a1 with
      heap := a1.heap.set c { x1 with m := copySlice x1.m xm.m },
      writes := a1.writes ++ [{ site := .copy, vec := c, ref := x1.ref }] }, c) := by
    unfold matchArena.copy
    rw [hnew]
    simp only
    rw [hx1, hxm1]
  have hcs : copySlice x1.m xm.m = xm.m := copySlice_same (by rw [c3, m3, hlen])
  refine ⟨_, c, fl1, hres, ?_, ?_, hcR, Ne.symm hne, ?_, ?_, ?_, hlen, ?_⟩
  · exact inv_set hI1 hx1 (y := { x1 with m := copySlice x1.m xm.m }) (fun _ => rfl)
      (Or.inr (by rw [hcs, m3, hlen])) (fun u hu _ => ⟨hu, rfl⟩)
      (fun hm => absurd hm hcR) _
  · exact ⟨c1, _, get_set_self hx1 _, c2, by rw [hcs, m3, hlen]⟩
  · exact ⟨hm1, xm, by simp only; rw [get_set_ne hne]; exact hxm1, m2, by rw [m3, hlen]⟩
  · rw [contents_of_get (get_set_self hx1 _), contents_of_get hxm]
    exact hcs
  · intro u hu hlt
    obtain ⟨z, hz⟩ : ∃ z, a.heap[u]? = some z := ⟨_, List.getElem?_eq_getElem hlt⟩
    rw [contents_of_get hz]
    apply contents_of_get
    simp only
    rw [get_set_ne hu]
    exact hfr u z hu hz
  · simp only
    rw [hw, c2]

/-- The call matchArena.noMatch: a vector that is in no list, with the reference count 1
and all entries -1. -/
theorem noMatch_spec {a : matchArena} {fl R : List Nat} (hI : ArenaInv a fl R) :
    ∃ a2 v fl2, a.noMatch = some (a2, v) ∧ ArenaInv a2 fl2 R ∧ Held a2 fl2 v 1 ∧ v ∉ R ∧
      contents a2.heap v = noMatch a.len ∧
      (∀ u, u ≠ v → u < a.heap.length → contents a2.heap u = contents a.heap u) ∧
      a2.len = a.len ∧
      ∃ ws, a2.writes = a.writes ++ ws ∧ ∀ w ∈ ws, w.site = .fill ∧ w.ref = 0 := by
  obtain ⟨a1, v, fl1, hnew, hI1, hc, hfr, hfl, hlen, hw⟩ := new_spec hI
  obtain ⟨c1, x1, hx1, c2, c3⟩ := hc
  have hvR : v ∉ R := not_mem_of_held hI (fun u h1 h2 => (hfl u h1 h2).1)
  have hres : a.noMatch = some ({ a1 with
      heap := a1.heap.set v { x1 with m := List.replicate x1.m.length (-1), ref := 1 },
      writes := a1.writes ++
        List.replicate x1.m.length { site := .fill, vec := v, ref := x1.ref } }, v) := by
    unfold matchArena.noMatch
    rw [hnew]
    simp only
    rw [hx1]
  refine ⟨_, v, fl1, hres, ?_, ?_, hvR, ?_, ?_, hlen, _, by simp only; rw [hw], ?_⟩
  · exact inv_set hI1 hx1 (y := { x1 with m := List.replicate x1.m.length (-1), ref := 1 })
      (fun _ => rfl) (Or.inr (by simp [c3])) (fun u hu _ => ⟨hu, rfl⟩)
      (fun hm => absurd hm hvR) _
  · exact ⟨c1, _, get_set_self hx1 _, rfl, by simp [c3]⟩
  · rw [contents_of_get (get_set_self hx1 _)]
    simp only
    rw [c3, hlen]
    rfl
  · intro u hu hlt
    obtain ⟨z, hz⟩ : ∃ z, a.heap[u]? = some z := ⟨_, List.getElem?_eq_getElem hlt⟩
    rw [contents_of_get hz]
    apply contents_of_get
    simp only
    rw [get_set_ne hu]
    exact hfr u z hu hz
  · intro w hw2
    rw [List.mem_replicate] at hw2
    rw [hw2.2]
    exact ⟨rfl, c2⟩

theorem held_lt {a : matchArena} {fl : List Nat} {v : Nat} {r : Int} (h : Held a fl v r) :
    v < a.heap.length := by
  obtain ⟨-, x, hx, -, -⟩ := h
  exact get_lt hx

theorem live_lt {a : matchArena} {fl R : List Nat} (hI : ArenaInv a fl R) {v : Nat}
    (hv : v ∈ R) : v < a.heap.length := held_lt (held_of_live hI hv)

end GoRegexp

namespace GoRegexp

/-! ## addState with the vectors in the arena -/

theorem addPost_refl {a : matchArena} {fl R : List Nat} (hI : ArenaInv a fl R)
    (s : List stateA) (mt : Nat) (r0 : Int) : AddPostA a R s mt r0 a s :=
  ⟨⟨[], fl, by simp, by simpa [vecs] using hI, by simp [vecs], by simp⟩, rfl,
    fun _ _ _ => rfl, ⟨[], by simp, by simp⟩⟩

theorem inAdd_zero {r : Int} {w : Write} (h : w.inAdd 0) : w.inAdd r := by
  rcases h with ⟨h1, h2 | h2⟩ | h
  · exact Or.inl ⟨h1, Or.inr h2⟩
  · exact Or.inl ⟨h1, Or.inr h2⟩
  · exact Or.inr h

/-- A call of addState with the vectors in the arena goes as the call with the vectors as
values: it returns when that call does, its list is the list of that call, thread by
thread, with the contents of the vectors, and it leaves the arena as AddPostA says. -/
theorem addStateA_spec (inst : List instr) : ∀ (fuel : Nat) (a : matchArena) (fl R : List Nat)
    (s : List stateA) (i : Option Nat) (pf : Bool) (mt pos end' : Nat),
    ArenaInv a fl R → Held a fl mt (R.count mt : Int) →
    (∀ st ∈ s, st.vec ∈ R ∧ st.vec ≠ mt) →
    (addStateA inst fuel a s i pf mt pos end').map (fun r => views r.1.heap r.2) =
      addState inst fuel (views a.heap s) i pf (contents a.heap mt) pos end' ∧
    ∀ a2 s2, addStateA inst fuel a s i pf mt pos end' = some (a2, s2) →
      AddPostA a R s mt (R.count mt : Int) a2 s2 := by
  intro fuel
  induction fuel with
  | zero =>
    intro a fl R s i pf mt pos end' _ _ _
    exact ⟨rfl, fun a2 s2 h => by cases h⟩
  | succ fuel ih =>
    intro a fl R s i pf mt pos end' hI hh hs
    cases i with
    | none => exact ⟨rfl, fun a2 s2 h => by cases h⟩
    | some k =>
      cases hk : inst[k]? with
      | none =>
        simp only [addStateA, addState, hk]
        exact ⟨rfl, fun a2 s2 h => by cases h⟩
      | some x =>
        simp only [addStateA, addState, hk]
        by_cases h1 : x.kind = .iBOT
        · simp only [if_pos h1]
          by_cases hp : pos = 0
          · simp only [if_pos hp]
            exact ih a fl R s x.next pf mt pos end' hI hh hs
          · simp only [if_neg hp]
            exact ⟨rfl, fun a2 s2 h => by cases h; exact addPost_refl hI s mt _⟩
        · simp only [if_neg h1]
          by_cases h2 : x.kind = .iEOT
          · simp only [if_pos h2]
            by_cases hp : pos = end'
            · simp only [if_pos hp]
              exact ih a fl R s x.next pf mt pos end' hI hh hs
            · simp only [if_neg hp]
              exact ⟨rfl, fun a2 s2 h => by cases h; exact addPost_refl hI s mt _⟩
          · simp only [if_neg h2]
            by_cases h3 : x.kind = .iBra
            · simp only [if_pos h3]
              obtain ⟨hw1, hw2⟩ := writeAt_spec hI hh (fun _ => rfl) .stamp x.braNum (pos : Int)
              cases hv : vecSet (contents a.heap mt) x.braNum (pos : Int) with
              | none =>
                simp only [hw1 hv]
                exact ⟨rfl, fun a2 s2 h => by cases h⟩
              | some m =>
                obtain ⟨a1, e1, hI1, hh1, hc1, hf1, hl1, hwr1⟩ := hw2 m hv
                simp only [e1]
                have hs1 : views a1.heap s = views a.heap s :=
                  views_congr (fun st hst => contents_congr (hf1 _ (hs st hst).2))
                obtain ⟨g1, g2⟩ := ih a1 fl R s x.next pf mt pos end' hI1 hh1 hs
                rw [hs1, hc1] at g1
                refine ⟨g1, fun a2 s2 h => ?_⟩
                have hp := g2 a2 s2 h
                refine ⟨hp.ext, by rw [hp.len, hl1], fun v hv hne => ?_, ?_⟩
                · rw [hp.frame v hv hne]
                  exact contents_congr (hf1 v hne)
                · obtain ⟨ws, e, hws⟩ := hp.writes
                  refine ⟨_ :: ws, by rw [e, hwr1, List.append_assoc]; rfl, ?_⟩
                  intro w hw
                  rcases List.mem_cons.mp hw with rfl | hw
                  · exact Or.inl ⟨rfl, Or.inl rfl⟩
                  · exact hws w hw
            · simp only [if_neg h3]
              rw [views_any]
              by_cases h4 : s.any (fun st => decide (st.inst = k)) = true
              · simp only [if_pos h4]
                exact ⟨rfl, fun a2 s2 h => by cases h; exact addPost_refl hI s mt _⟩
              · simp only [if_neg h4]
                obtain ⟨a1, hinc, hI1, hc1, hl1, hwr1⟩ := incRef_spec hI hh
                simp only [hinc]
                have hv1 : views a1.heap (s ++ [{ inst := k, prefixed := pf, vec := mt }]) =
                    views a.heap s ++ [{ inst := k, prefixed := pf, m := contents a.heap mt }] := by
                  rw [views_append, views_congr (fun st _ => hc1 st.vec)]
                  simp only [views, List.map_cons, List.map_nil, stateA.view, hc1]
                by_cases h5 : x.kind = .iAlt
                · simp only [if_pos h5]
                  have hmt1 := held_of_live hI1 (v := mt) (by simp)
                  obtain ⟨a2, c1, fl2, hcp1, hI2, hhc1, hc1R, hc1ne, -, hcc1, hfr2, hl2, hwr2⟩ :=
                    copy_spec hI1 hmt1
                  simp only [hcp1]
                  have hz1 : (((R ++ [mt]).count c1 : Nat) : Int) = 0 := by
                    rw [List.count_eq_zero_of_not_mem hc1R]; rfl
                  have hs1 : ∀ st ∈ s ++ [{ inst := k, prefixed := pf, vec := mt }],
                      st.vec ∈ R ++ [mt] ∧ st.vec ≠ c1 := by
                    intro st hst
                    have hm : st.vec ∈ R ++ [mt] := by
                      rcases List.mem_append.mp hst with h | h
                      · exact List.mem_append_left _ (hs st h).1
                      · rw [List.mem_singleton.mp h]; simp
                    exact ⟨hm, fun e => hc1R (e ▸ hm)⟩
                  obtain ⟨g1, g2⟩ := ih a2 fl2 (R ++ [mt])
                    (s ++ [{ inst := k, prefixed := pf, vec := mt }]) x.left pf c1 pos end' hI2
                    (by rw [hz1]; exact hhc1) hs1
                  rw [hz1] at g2
                  have hv2 : views a2.heap (s ++ [{ inst := k, prefixed := pf, vec := mt }]) =
                      views a.heap s ++
                        [{ inst := k, prefixed := pf, m := contents a.heap mt }] := by
                    rw [← hv1]
                    exact views_congr (fun st hst =>
                      hfr2 st.vec (hs1 st hst).2 (live_lt hI1 (hs1 st hst).1))
                  have hcc : contents a2.heap c1 = contents a.heap mt := by rw [hcc1, hc1]
                  rw [hv2, hcc] at g1
                  rw [← g1]
                  cases hrec1 : addStateA inst fuel a2
                      (s ++ [{ inst := k, prefixed := pf, vec := mt }]) x.left pf c1 pos end' with
                  | none => exact ⟨rfl, fun a2 s2 h => by cases h⟩
                  | some r1 =>
                    obtain ⟨a3, s3⟩ := r1
                    simp only [Option.map_some']
                    have hp1 := g2 a3 s3 hrec1
                    obtain ⟨t1, fl3, es3, hI3, hnd1, ht1⟩ := hp1.ext
                    have hmt3 := held_of_live hI3 (v := mt) (by simp)
                    obtain ⟨a4, c2, fl4, hcp2, hI4, hhc2, hc2R, hc2ne, -, hcc2, hfr4, hl4, hwr4⟩ :=
                      copy_spec hI3 hmt3
                    simp only [hcp2]
                    have hz2 : (((R ++ [mt] ++ vecs t1).count c2 : Nat) : Int) = 0 := by
                      rw [List.count_eq_zero_of_not_mem hc2R]; rfl
                    have hs3 : ∀ st ∈ s3, st.vec ∈ R ++ [mt] ++ vecs t1 ∧ st.vec ≠ c2 := by
                      intro st hst
                      have hm : st.vec ∈ R ++ [mt] ++ vecs t1 := by
                        rw [es3] at hst
                        rcases List.mem_append.mp hst with h | h
                        · exact List.mem_append_left _ (hs1 st h).1
                        · exact List.mem_append_right _ (mem_vecs h)
                      exact ⟨hm, fun e => hc2R (e ▸ hm)⟩
                    obtain ⟨g3, g4⟩ := ih a4 fl4 (R ++ [mt] ++ vecs t1) s3 x.next pf c2 pos end'
                      hI4 (by rw [hz2]; exact hhc2) hs3
                    rw [hz2] at g4
                    have hv4 : views a4.heap s3 = views a3.heap s3 :=
                      views_congr (fun st hst =>
                        hfr4 st.vec (hs3 st hst).2 (live_lt hI3 (hs3 st hst).1))
                    have hmtR : mt ∈ R ++ [mt] := by simp
                    have hcc3 : contents a4.heap c2 = contents a.heap mt := by
                      rw [hcc2, hp1.frame mt hmtR (Ne.symm hc1ne),
                        hfr2 mt (Ne.symm hc1ne) (live_lt hI1 hmtR), hc1]
                    rw [hv4, hcc3] at g3
                    refine ⟨g3, fun a5 s5 h => ?_⟩
                    have hp2 := g4 a5 s5 h
                    obtain ⟨t2, fl5, es5, hI5, hnd2, ht2⟩ := hp2.ext
                    have hmem1 : ∀ v ∈ vecs t1, v ∉ R ++ [mt] := by
                      intro v hv
                      obtain ⟨st, hst, rfl⟩ := mem_vecs_iff.mp hv
                      rcases ht1 st hst with e | e
                      · rw [e]; exact hc1R
                      · exact e
                    have hmem2 : ∀ v ∈ vecs t2, v ∉ R ++ [mt] ++ vecs t1 := by
                      intro v hv
                      obtain ⟨st, hst, rfl⟩ := mem_vecs_iff.mp hv
                      rcases ht2 st hst with e | e
                      · rw [e]; exact hc2R
                      · exact e
                    refine ⟨⟨{ inst := k, prefixed := pf, vec := mt } :: (t1 ++ t2), fl5, ?_, ?_,
                      ?_, ?_⟩, ?_, ?_, ?_⟩
                    · rw [es5, es3]
                      simp
                    · have e : R ++ vecs ({ inst := k, prefixed := pf, vec := mt } :: (t1 ++ t2)) =
                          R ++ [mt] ++ vecs t1 ++ vecs t2 := by simp [vecs]
                      rw [e]
                      exact hI5
                    · have e : vecs ({ inst := k, prefixed := pf, vec := mt } :: (t1 ++ t2)) =
                          mt :: (vecs t1 ++ vecs t2) := by simp [vecs]
                      rw [e]
                      refine List.nodup_cons.mpr ⟨?_, List.nodup_append.mpr ⟨hnd1, hnd2, ?_⟩⟩
                      · intro hm
                        rcases List.mem_append.mp hm with h | h
                        · exact hmem1 mt h hmtR
                        · exact hmem2 mt h (List.mem_append_left _ hmtR)
                      · intro v hv1 hv2
                        exact hmem2 v hv2 (List.mem_append_right _ hv1)
                    · intro st hst
                      rcases List.mem_cons.mp hst with rfl | hst
                      · exact Or.inl rfl
                      · right
                        rcases List.mem_append.mp hst with h | h
                        · exact fun hR => hmem1 _ (mem_vecs h) (List.mem_append_left _ hR)
                        · exact fun hR => hmem2 _ (mem_vecs h)
                            (List.mem_append_left _ (List.mem_append_left _ hR))
                    · rw [hp2.len, hl4, hp1.len, hl2, hl1]
                    · intro v hv hne
                      have hv1' : v ∈ R ++ [mt] := List.mem_append_left _ hv
                      have hv2' : v ∈ R ++ [mt] ++ vecs t1 := List.mem_append_left _ hv1'
                      rw [hp2.frame v hv2' (fun e => hc2R (e ▸ hv2')),
                        hfr4 v (fun e => hc2R (e ▸ hv2')) (live_lt hI3 hv2'),
                        hp1.frame v hv1' (fun e => hc1R (e ▸ hv1')),
                        hfr2 v (fun e => hc1R (e ▸ hv1')) (live_lt hI1 hv1'), hc1]
                    · obtain ⟨ws1, e1, hws1⟩ := hp1.writes
                      obtain ⟨ws2, e2, hws2⟩ := hp2.writes
                      refine ⟨[{ site := .copy, vec := c1, ref := 0 }] ++ ws1 ++
                        [{ site := .copy, vec := c2, ref := 0 }] ++ ws2, ?_, ?_⟩
                      · rw [e2, hwr4, e1, hwr2, hwr1]
                        simp only [List.append_assoc]
                      · intro w hw
                        simp only [List.mem_append, List.mem_singleton] at hw
                        rcases hw with ((rfl | hw) | rfl) | hw
                        · exact Or.inr ⟨rfl, rfl⟩
                        · exact inAdd_zero (hws1 w hw)
                        · exact Or.inr ⟨rfl, rfl⟩
                        · exact inAdd_zero (hws2 w hw)
                · simp only [if_neg h5]
                  refine ⟨by simp only [Option.map_some', hv1], fun a2 s2 h => ?_⟩
                  cases h
                  exact ⟨⟨[{ inst := k, prefixed := pf, vec := mt }], fl, rfl,
                    by simpa [vecs] using hI1, by simp [vecs], by simp⟩, hl1,
                    fun v _ _ => hc1 v, ⟨[], by simp [hwr1], by simp⟩⟩

end GoRegexp

namespace GoRegexp

/-! ## The step of a thread with the vectors in the arena -/

/-- The invariant of the arena depends on the references only through their number. -/
theorem inv_count {a : matchArena} {fl R R2 : List Nat} (hI : ArenaInv a fl R)
    (h : ∀ v, R2.count v = R.count v) : ArenaInv a fl R2 := by
  refine ⟨hI.chain, hI.nodup, hI.pos, hI.sized, fun v hv => ?_⟩
  have hv2 : v ∈ R := by
    have := List.one_le_count_iff.mpr hv
    rw [h v] at this
    exact List.one_le_count_iff.mp this
  obtain ⟨g1, x, g2, g3, g4⟩ := hI.live v hv2
  exact ⟨g1, x, g2, by rw [h v]; exact g3, g4⟩

/-- A vector in the hands of the caller, with the reference count 1, counts as
referenced once. -/
theorem inv_adopt {a : matchArena} {fl R : List Nat} (hI : ArenaInv a fl R) {v : Nat}
    (hh : Held a fl v 1) (hv : v ∉ R) : ArenaInv a fl (R ++ [v]) := by
  refine ⟨hI.chain, hI.nodup, hI.pos, hI.sized, fun u hu => ?_⟩
  by_cases huv : u = v
  · subst huv
    obtain ⟨h1, x, h2, h3, h4⟩ := hh
    refine ⟨h1, x, h2, ?_, h4⟩
    rw [h3, List.count_append, List.count_eq_zero_of_not_mem hv, List.count_singleton]
    simp
  · have huR : u ∈ R := by
      rcases List.mem_append.mp hu with h | h
      · exact h
      · exact absurd (List.mem_singleton.mp h) huv
    obtain ⟨g1, x, g2, g3, g4⟩ := hI.live u huR
    refine ⟨g1, x, g2, ?_, g4⟩
    rw [g3, List.count_append, List.count_singleton]
    simp [Ne.symm huv]

theorem vecs_cons (st : stateA) (s : List stateA) : vecs (st :: s) = st.vec :: vecs s := rfl

theorem vecs_nil : vecs [] = [] := rfl

theorem finalVec_none : finalVec none = [] := rfl

theorem finalVec_some (st : stateA) : finalVec (some st) = [st.vec] := rfl

theorem views_cons (h : List matchVec) (st : stateA) (s : List stateA) :
    views h (st :: s) = st.view h :: views h s := rfl

/-- The references when a thread has been stepped: the same list. -/
theorem vecs_shift (done rest : List stateA) (st : stateA) :
    vecs (done ++ [st]) ++ vecs rest = vecs done ++ vecs (st :: rest) := by
  simp [vecs]

/-- A thread that is not stepped yet is referenced once. -/
theorem stepInv_count {a : matchArena} {done rest out : List stateA} {final : Option stateA}
    {st : stateA} (hJ : StepInv a done (st :: rest) out final) :
    (vecs done ++ vecs (st :: rest) ++ vecs out ++ finalVec final).count st.vec = 1 := by
  have hm : st.vec ∈ vecs (st :: rest) := by rw [vecs_cons]; exact List.mem_cons_self _ _
  rw [List.count_append, List.count_append,
    List.count_eq_zero_of_not_mem (hJ.restFinal _ hm),
    List.count_eq_zero_of_not_mem (hJ.restOut _ hm),
    List.count_eq_one_of_mem hJ.nodupIn (List.mem_append_right _ hm)]

/-- The invariant when the step of a thread changes nothing. -/
theorem stepInv_skip {a : matchArena} {done rest out : List stateA} {final : Option stateA}
    {st : stateA} (hJ : StepInv a done (st :: rest) out final) :
    StepInv a (done ++ [st]) rest out final := by
  obtain ⟨fl, hI⟩ := hJ.inv
  refine ⟨⟨fl, by rw [vecs_shift]; exact hI⟩, by rw [vecs_shift]; exact hJ.nodupIn,
    hJ.nodupOut, ?_, ?_, hJ.finalOut, hJ.writes⟩
  · intro v hv
    exact hJ.restOut v (by rw [vecs_cons]; exact List.mem_cons_of_mem _ hv)
  · intro v hv
    exact hJ.restFinal v (by rw [vecs_cons]; exact List.mem_cons_of_mem _ hv)

theorem ok_of_inAdd {w : Write} (h : w.inAdd 1) : w.ok := by
  unfold Write.ok
  rcases h with ⟨h1, h2⟩ | ⟨h1, h2⟩
  · rw [h1]
    rcases h2 with h2 | h2
    · exact Or.inr h2
    · exact Or.inl h2
  · rw [h1]
    exact h2

/-- The call of addState for a thread of s[in] that goes over the rune. -/
theorem step_add (inst : List instr) (fuel : Nat) {a : matchArena}
    {done rest out : List stateA} {final : Option stateA} {st : stateA}
    (hJ : StepInv a done (st :: rest) out final) (i : Option Nat) (pos end' : Nat) :
    (addStateA inst fuel a out i st.prefixed st.vec pos end').map
        (fun r => views r.1.heap r.2) =
      addState inst fuel (views a.heap out) i st.prefixed (contents a.heap st.vec) pos end' ∧
    ∀ a2 s2, addStateA inst fuel a out i st.prefixed st.vec pos end' = some (a2, s2) →
      StepInv a2 (done ++ [st]) rest s2 final ∧ a2.len = a.len ∧
      ∀ v ∈ vecs rest ++ finalVec final, contents a2.heap v = contents a.heap v := by
  obtain ⟨fl, hI⟩ := hJ.inv
  have hcount := stepInv_count hJ
  have hm : st.vec ∈ vecs (st :: rest) := by rw [vecs_cons]; exact List.mem_cons_self _ _
  have hst : st.vec ∈ vecs done ++ vecs (st :: rest) ++ vecs out ++ finalVec final :=
    List.mem_append_left _ (List.mem_append_left _ (List.mem_append_right _ hm))
  have hs : ∀ st2 ∈ out,
      st2.vec ∈ vecs done ++ vecs (st :: rest) ++ vecs out ++ finalVec final ∧
      st2.vec ≠ st.vec := by
    intro st2 h2
    exact ⟨List.mem_append_left _ (List.mem_append_right _ (mem_vecs h2)),
      fun e => hJ.restOut _ hm (e ▸ mem_vecs h2)⟩
  obtain ⟨g1, g2⟩ := addStateA_spec inst fuel a fl _ out i st.prefixed st.vec pos end' hI
    (held_of_live hI hst) hs
  refine ⟨g1, fun a2 s2 h => ?_⟩
  have hp := g2 a2 s2 h
  rw [hcount] at hp
  obtain ⟨t, fl2, es, hI2, hnd, ht⟩ := hp.ext
  have hnotin : st.vec ∉ vecs rest := by
    have := hJ.nodupIn
    rw [vecs_cons] at this
    have h2 := (List.nodup_append.mp this).2.1
    exact (List.nodup_cons.mp h2).1
  -- a vector of a new thread is the vector of st or was not referenced
  have hnew : ∀ v ∈ vecs t, v = st.vec ∨
      v ∉ vecs done ++ vecs (st :: rest) ++ vecs out ++ finalVec final := by
    intro v hv
    obtain ⟨st2, h2, rfl⟩ := mem_vecs_iff.mp hv
    exact ht st2 h2
  refine ⟨⟨⟨fl2, ?_⟩, by rw [vecs_shift]; exact hJ.nodupIn, ?_, ?_, ?_, ?_, ?_⟩, hp.len, ?_⟩
  · refine inv_count hI2 (fun v => ?_)
    rw [es, vecs_shift, vecs_append]
    simp only [List.count_append]
    omega
  · rw [es, vecs_append]
    refine List.nodup_append.mpr ⟨hJ.nodupOut, hnd, ?_⟩
    intro v hv1 hv2
    rcases hnew v hv2 with e | e
    · exact hJ.restOut _ hm (e ▸ hv1)
    · exact e (List.mem_append_left _ (List.mem_append_right _ hv1))
  · intro v hv hv2
    have hv' : v ∈ vecs (st :: rest) := by rw [vecs_cons]; exact List.mem_cons_of_mem _ hv
    rw [es, vecs_append] at hv2
    rcases List.mem_append.mp hv2 with h2 | h2
    · exact hJ.restOut v hv' h2
    · rcases hnew v h2 with e | e
      · exact hnotin (e ▸ hv)
      · exact e (List.mem_append_left _ (List.mem_append_left _ (List.mem_append_right _ hv')))
  · intro v hv
    exact hJ.restFinal v (by rw [vecs_cons]; exact List.mem_cons_of_mem _ hv)
  · intro v hv hv2
    rw [es, vecs_append] at hv2
    rcases List.mem_append.mp hv2 with h2 | h2
    · exact hJ.finalOut v hv h2
    · rcases hnew v h2 with e | e
      · exact hJ.restFinal _ hm (e ▸ hv)
      · exact e (List.mem_append_right _ hv)
  · obtain ⟨ws, e, hws⟩ := hp.writes
    intro w hw
    rw [e] at hw
    rcases List.mem_append.mp hw with h2 | h2
    · exact hJ.writes w h2
    · exact ok_of_inAdd (hws w h2)
  · intro v hv
    have hne : v ≠ st.vec := by
      rintro rfl
      rcases List.mem_append.mp hv with h2 | h2
      · exact hnotin h2
      · exact hJ.restFinal _ hm h2
    refine hp.frame v ?_ hne
    rcases List.mem_append.mp hv with h2 | h2
    · exact List.mem_append_left _ (List.mem_append_left _ (List.mem_append_right _
        (by rw [vecs_cons]; exact List.mem_cons_of_mem _ h2)))
    · exact List.mem_append_right _ h2

/-- The step of a thread of s[in] that goes over the rune, in the variables of the loop. -/
theorem step_add_acc (inst : List instr) (fuel : Nat) {acc : execStateA}
    {done rest : List stateA} {st : stateA}
    (hJ : StepInv acc.arena done (st :: rest) acc.out acc.final) (i : Option Nat)
    (pos end' : Nat) :
    ((addStateA inst fuel acc.arena acc.out i st.prefixed st.vec pos end').map
        (fun r => ({ acc with arena := r.1, out := r.2 } : execStateA))).map
          execStateA.view =
      (addState inst fuel acc.view.out i (st.view acc.arena.heap).prefixed
        (st.view acc.arena.heap).m pos end').map (fun o => { acc.view with out := o }) ∧
    ∀ acc2, (addStateA inst fuel acc.arena acc.out i st.prefixed st.vec pos end').map
        (fun r => ({ acc with arena := r.1, out := r.2 } : execStateA)) = some acc2 →
      StepInv acc2.arena (done ++ [st]) rest acc2.out acc2.final ∧
      acc2.arena.len = acc.arena.len ∧
      ∀ v ∈ vecs rest, contents acc2.arena.heap v = contents acc.arena.heap v := by
  obtain ⟨g1, g2⟩ := step_add inst fuel hJ i pos end'
  cases h : addStateA inst fuel acc.arena acc.out i st.prefixed st.vec pos end' with
  | none =>
    rw [h] at g1
    have g1' : addState inst fuel acc.view.out i (st.view acc.arena.heap).prefixed
        (st.view acc.arena.heap).m pos end' = none := g1.symm
    rw [g1']
    exact ⟨rfl, fun acc2 h2 => by cases h2⟩
  | some r =>
    obtain ⟨a2, s2⟩ := r
    rw [h] at g1
    have g1' : addState inst fuel acc.view.out i (st.view acc.arena.heap).prefixed
        (st.view acc.arena.heap).m pos end' = some (views a2.heap s2) := g1.symm
    rw [g1']
    obtain ⟨hJ2, hl, hf⟩ := g2 a2 s2 h
    refine ⟨?_, fun acc2 h2 => ?_⟩
    · simp only [Option.map_some', execStateA.view, Option.some.injEq, execState.mk.injEq,
        true_and, and_true]
      cases hfin : acc.final with
      | none => rfl
      | some f =>
        simp only [Option.map_some', Option.some.injEq]
        unfold stateA.view
        rw [hf f.vec (List.mem_append_right _ (by rw [hfin, finalVec_some]; simp))]
    · simp only [Option.map_some', Option.some.injEq] at h2
      subst h2
      exact ⟨hJ2, hl, fun v hv => hf v (List.mem_append_left _ hv)⟩

/-- The statement that frees the vector of `final`. -/
theorem freeFinal_spec {a : matchArena} {fl X : List Nat} {final : Option stateA}
    (hI : ArenaInv a fl (X ++ finalVec final)) :
    ∃ a1 fl1, freeFinal a final = some a1 ∧ ArenaInv a1 fl1 X ∧
      (∀ u, contents a1.heap u = contents a.heap u) ∧ a1.len = a.len ∧
      a1.writes = a.writes := by
  cases final with
  | none =>
    rw [finalVec_none, List.append_nil] at hI
    exact ⟨a, fl, rfl, hI, fun _ => rfl, rfl, rfl⟩
  | some f =>
    rw [finalVec_some] at hI
    obtain ⟨a1, fl1, h1, h2, h3, h4, h5⟩ := free_spec hI (v := f.vec) (by simp)
    refine ⟨a1, fl1, h1, inv_count h2 (fun v => ?_), h3, h4, h5⟩
    by_cases hv : v = f.vec
    · subst hv
      rw [List.count_erase_self, List.count_append, List.count_singleton]
      simp
    · rw [List.count_erase_of_ne hv, List.count_append, List.count_singleton]
      simp [Ne.symm hv]

/-- The statements of the iEnd case for a thread that is the best match so far: the end of
the match is written into its vector at the reference count 2. -/
theorem setFinal_spec {acc : execStateA} {done rest : List stateA} {st : stateA}
    (hJ : StepInv acc.arena done (st :: rest) acc.out acc.final) (val : Int) :
    (acc.setFinal st val).map execStateA.view =
      (vecSet (st.view acc.arena.heap).m 1 val).map (fun m =>
        ({ acc.view with final := some { st.view acc.arena.heap with m := m },
                         found := true } : execState)) ∧
    ∀ acc2, acc.setFinal st val = some acc2 →
      StepInv acc2.arena (done ++ [st]) rest acc2.out acc2.final ∧
      acc2.arena.len = acc.arena.len ∧
      ∀ v ∈ vecs rest, contents acc2.arena.heap v = contents acc.arena.heap v := by
  obtain ⟨fl, hI⟩ := hJ.inv
  have hcount := stepInv_count hJ
  have hm : st.vec ∈ vecs (st :: rest) := by rw [vecs_cons]; exact List.mem_cons_self _ _
  have hnotin : st.vec ∉ vecs rest := by
    have := hJ.nodupIn
    rw [vecs_cons] at this
    have h2 := (List.nodup_append.mp this).2.1
    exact (List.nodup_cons.mp h2).1
  obtain ⟨a1, fl1, hfr, hI1, hc1, hl1, hw1⟩ := freeFinal_spec hI
  have hst1 : st.vec ∈ vecs done ++ vecs (st :: rest) ++ vecs acc.out :=
    List.mem_append_left _ (List.mem_append_right _ hm)
  have hcount1 : (vecs done ++ vecs (st :: rest) ++ vecs acc.out).count st.vec = 1 := by
    have := hcount
    rw [List.count_append, List.count_eq_zero_of_not_mem (hJ.restFinal _ hm)] at this
    exact this
  obtain ⟨a2, hinc, hI2, hc2, hl2, hw2⟩ := incRef_spec hI1 (held_of_live hI1 hst1)
  have hst2 : st.vec ∈ vecs done ++ vecs (st :: rest) ++ vecs acc.out ++ [st.vec] := by simp
  have hcount2 : ((vecs done ++ vecs (st :: rest) ++ vecs acc.out ++ [st.vec]).count st.vec
      : Int) = 2 := by
    rw [List.count_append, hcount1, List.count_singleton]
    simp
  have hh2 := held_of_live hI2 hst2
  rw [hcount2] at hh2
  obtain ⟨hwn, hws⟩ := writeAt_spec hI2 hh2 (fun _ => hcount2.symm) .matchEnd 1 val
  have hcont : contents a2.heap st.vec = (st.view acc.arena.heap).m := by
    rw [hc2, hc1]
    rfl
  unfold execStateA.setFinal
  rw [hfr]
  simp only [hinc]
  rw [← hcont]
  cases hv : vecSet (contents a2.heap st.vec) 1 val with
  | none =>
    rw [hwn hv]
    exact ⟨rfl, fun acc2 h => by cases h⟩
  | some m =>
    obtain ⟨a3, e3, hI3, hh3, hc3, hf3, hl3, hw3⟩ := hws m hv
    rw [e3]
    have hother : ∀ v, v ≠ st.vec → contents a3.heap v = contents acc.arena.heap v := by
      intro v hne
      rw [contents_congr (hf3 v hne), hc2, hc1]
    refine ⟨?_, fun acc2 h => ?_⟩
    · simp only [Option.map_some', execStateA.view, Option.some.injEq, execState.mk.injEq,
        and_true]
      refine ⟨views_congr (fun st2 h2 => hother _ (fun e => hJ.restOut _ hm (e ▸ mem_vecs h2))),
        ?_⟩
      unfold stateA.view
      rw [hc3]
    · simp only [Option.some.injEq] at h
      subst h
      refine ⟨⟨⟨fl1, ?_⟩, by rw [vecs_shift]; exact hJ.nodupIn, hJ.nodupOut, ?_, ?_, ?_, ?_⟩,
        by rw [hl3, hl2, hl1], fun v hv2 => hother v (fun e => hnotin (e ▸ hv2))⟩
      · refine inv_count hI3 (fun v => ?_)
        rw [finalVec_some, vecs_shift]
      · intro v hv2
        exact hJ.restOut v (by rw [vecs_cons]; exact List.mem_cons_of_mem _ hv2)
      · intro v hv2 hv3
        rw [finalVec_some, List.mem_singleton] at hv3
        exact hnotin (hv3 ▸ hv2)
      · intro v hv2
        rw [finalVec_some, List.mem_singleton] at hv2
        rw [hv2]
        exact hJ.restOut _ hm
      · intro w hw
        rw [hw3, hw2, hw1] at hw
        rcases List.mem_append.mp hw with h2 | h2
        · exact hJ.writes w h2
        · rw [List.mem_singleton.mp h2]
          exact (rfl : (2 : Int) = 2)

/-- The step of a thread with the vectors in the arena goes as the step with the vectors
as values, and keeps the invariant of the loop. -/
theorem stepStateA_spec (inst : List instr) (fuel : Nat) (c : Int) (pos cw end' : Nat)
    {acc : execStateA} {done rest : List stateA} {st : stateA}
    (hJ : StepInv acc.arena done (st :: rest) acc.out acc.final) :
    (stepStateA inst fuel c pos cw end' acc st).map execStateA.view =
      stepState inst fuel c pos cw end' acc.view (st.view acc.arena.heap) ∧
    ∀ acc2, stepStateA inst fuel c pos cw end' acc st = some acc2 →
      StepInv acc2.arena (done ++ [st]) rest acc2.out acc2.final ∧
      acc2.arena.len = acc.arena.len ∧
      ∀ v ∈ vecs rest, contents acc2.arena.heap v = contents acc.arena.heap v := by
  have hskip : (some acc).map execStateA.view = some acc.view ∧
      ∀ acc2, some acc = some acc2 →
        StepInv acc2.arena (done ++ [st]) rest acc2.out acc2.final ∧
        acc2.arena.len = acc.arena.len ∧
        ∀ v ∈ vecs rest, contents acc2.arena.heap v = contents acc.arena.heap v :=
    ⟨rfl, fun acc2 h => by cases h; exact ⟨stepInv_skip hJ, rfl, fun _ _ => rfl⟩⟩
  have hinst : (st.view acc.arena.heap).inst = st.inst := rfl
  unfold stepStateA stepState
  rw [hinst]
  cases hk : inst[st.inst]? with
  | none => exact ⟨rfl, fun acc2 h => by cases h⟩
  | some x =>
    simp only
    cases hkind : x.kind with
    | iStart => exact ⟨rfl, fun acc2 h => by cases h⟩
    | iNop => exact ⟨rfl, fun acc2 h => by cases h⟩
    | iBOT => exact hskip
    | iEOT => exact hskip
    | iBra => exact hskip
    | iAlt => exact hskip
    | iChar =>
      simp only
      by_cases hc : c = x.char
      · simp only [if_pos hc]
        exact step_add_acc inst fuel hJ x.next pos end'
      · simp only [if_neg hc]
        exact hskip
    | iCharClass =>
      simp only
      cases hcc : x.cclass with
      | none => exact ⟨rfl, fun acc2 h => by cases h⟩
      | some cc =>
        simp only
        by_cases hc : cc.matches c = true
        · simp only [if_pos hc]
          exact step_add_acc inst fuel hJ x.next pos end'
        · simp only [if_neg hc]
          exact hskip
    | iAny =>
      simp only
      by_cases hc : c ≠ endOfFile
      · simp only [if_pos hc]
        exact step_add_acc inst fuel hJ x.next pos end'
      · simp only [if_neg hc]
        exact hskip
    | iNotNL =>
      simp only
      by_cases hc : c ≠ endOfFile ∧ c ≠ 10
      · simp only [if_pos hc]
        exact step_add_acc inst fuel hJ x.next pos end'
      · simp only [if_neg hc]
        exact hskip
    | iEnd =>
      simp only
      have hb : better acc.found (acc.final.map (stateA.view acc.arena.heap))
          (st.view acc.arena.heap) pos cw =
          better acc.view.found acc.view.final (st.view acc.arena.heap) pos cw := rfl
      rw [hb]
      cases hbet : better acc.view.found acc.view.final (st.view acc.arena.heap) pos cw with
      | none => exact ⟨rfl, fun acc2 h => by cases h⟩
      | some bt =>
        cases bt with
        | true =>
          simp only
          obtain ⟨g1, g2⟩ := setFinal_spec hJ ((pos : Int) - cw)
          refine ⟨?_, g2⟩
          rw [g1]
          cases vecSet (st.view acc.arena.heap).m 1 ((pos : Int) - cw) <;> rfl
        | false =>
          simp only
          exact ⟨rfl, fun acc2 h => by
            cases h
            exact ⟨stepInv_skip hJ, rfl, fun _ _ => rfl⟩⟩

/-- The loop over the threads of s[in] with the vectors in the arena goes as the loop with
the vectors as values, and keeps the invariant. -/
theorem stepAllA_spec (inst : List instr) (fuel : Nat) (c : Int) (pos cw end' : Nat) :
    ∀ (rest done : List stateA) (acc : execStateA),
    StepInv acc.arena done rest acc.out acc.final →
    (stepAllA inst fuel c pos cw end' rest acc).map execStateA.view =
      stepAll inst fuel c pos cw end' (views acc.arena.heap rest) acc.view ∧
    ∀ acc2, stepAllA inst fuel c pos cw end' rest acc = some acc2 →
      StepInv acc2.arena (done ++ rest) [] acc2.out acc2.final ∧
      acc2.arena.len = acc.arena.len := by
  intro rest
  induction rest with
  | nil =>
    intro done acc hJ
    exact ⟨rfl, fun acc2 h => by
      cases h
      rw [List.append_nil]
      exact ⟨hJ, rfl⟩⟩
  | cons st rest ih =>
    intro done acc hJ
    obtain ⟨g1, g2⟩ := stepStateA_spec inst fuel c pos cw end' hJ
    rw [views_cons]
    unfold stepAllA stepAll
    rw [← g1]
    cases h : stepStateA inst fuel c pos cw end' acc st with
    | none => exact ⟨rfl, fun acc2 h => by cases h⟩
    | some acc1 =>
      simp only [Option.map_some']
      obtain ⟨hJ1, hl1, hf1⟩ := g2 acc1 h
      obtain ⟨g3, g4⟩ := ih (done ++ [st]) acc1 hJ1
      have hv : views acc1.arena.heap rest = views acc.arena.heap rest :=
        views_congr (fun st2 h2 => hf1 _ (mem_vecs h2))
      rw [hv] at g3
      refine ⟨g3, fun acc2 h2 => ?_⟩
      obtain ⟨hJ2, hl2⟩ := g4 acc2 h2
      rw [List.append_assoc] at hJ2
      exact ⟨hJ2, by rw [hl2, hl1]⟩

end GoRegexp

namespace GoRegexp

/-! ## The main loop with the vectors in the arena -/

/-- The loop that frees the vectors of the threads of the list before last. -/
theorem freeAll_spec (X : List Nat) : ∀ (old : List stateA) (a : matchArena) (fl : List Nat),
    ArenaInv a fl (vecs old ++ X) →
    ∃ a1 fl1, freeAll a old = some a1 ∧ ArenaInv a1 fl1 X ∧
      (∀ u, contents a1.heap u = contents a.heap u) ∧ a1.len = a.len ∧
      a1.writes = a.writes := by
  intro old
  induction old with
  | nil =>
    intro a fl hI
    exact ⟨a, fl, rfl, by simpa [vecs] using hI, fun _ => rfl, rfl, rfl⟩
  | cons st t ih =>
    intro a fl hI
    rw [vecs_cons, List.cons_append] at hI
    obtain ⟨a1, fl1, h1, h2, h3, h4, h5⟩ := free_spec hI (v := st.vec) (List.mem_cons_self _ _)
    rw [List.erase_cons_head] at h2
    obtain ⟨a2, fl2, g1, g2, g3, g4, g5⟩ := ih a1 fl1 h2
    refine ⟨a2, fl2, ?_, g2, fun u => by rw [g3, h3], by rw [g4, h4], by rw [g5, h5]⟩
    unfold freeAll
    rw [h1]
    exact g1

theorem primeA_start {re : Regexp} (h : re.start = none) (a : matchArena) (out : List stateA)
    (pos end' : Nat) : primeA re a out pos end' = none := by
  unfold primeA
  rw [h]

theorem primeA_inst {re : Regexp} {k : Nat} (h : re.start = some k) (hk : re.inst[k]? = none)
    (a : matchArena) (out : List stateA) (pos end' : Nat) :
    primeA re a out pos end' = none := by
  unfold primeA
  rw [h]
  simp only [hk]

theorem ok_of_fill {w : Write} (h : w.site = .fill ∧ w.ref = 0) : w.ok := by
  unfold Write.ok
  rw [h.1]
  exact h.2

/-- The statements that prime the pump, with the vectors in the arena: they go as with the
vectors as values, and keep the invariant of the main loop. -/
theorem primeA_spec {re : Regexp} {a : matchArena} {out old : List stateA}
    {final : Option stateA} (hL : LoopInvA re a out old final) {k : Nat} {x : instr}
    (hs : re.start = some k) (hk : re.inst[k]? = some x) (pos end' : Nat) :
    (vecSet (noMatch (2 * (re.nbra + 1))) 0 (pos : Int) = none →
      primeA re a out pos end' = none) ∧
    ∀ m, vecSet (noMatch (2 * (re.nbra + 1))) 0 (pos : Int) = some m →
      (primeA re a out pos end').map (fun r => views r.1.heap r.2) =
        addState re.inst (addFuel re) (views a.heap out) x.next false m pos end' ∧
      ∀ a2 sin, primeA re a out pos end' = some (a2, sin) →
        LoopInvA re a2 sin old final ∧
        ∀ v ∈ finalVec final, contents a2.heap v = contents a.heap v := by
  obtain ⟨fl, hI⟩ := hL.inv
  obtain ⟨a1, mt, fl1, hnm, hI1, hh1, hmtR, hc1, hf1, hl1, ws0, hw1, hws0⟩ := noMatch_spec hI
  obtain ⟨hwn, hwsome⟩ := writeAt_spec hI1 hh1 (fun h => absurd h hmtR) .seed 0 (pos : Int)
  rw [hc1, hL.len] at hwn hwsome
  constructor
  · intro hv
    unfold primeA
    rw [hs]
    simp only [hk, hnm, hwn hv]
  · intro m hv
    obtain ⟨a2, e2, hI2, hh2, hc2, hf2, hl2, hw2⟩ := hwsome m hv
    have hI2' := inv_adopt hI2 hh2 hmtR
    have hcnt : (((vecs old ++ vecs out ++ finalVec final ++ [mt]).count mt : Nat) : Int)
        = 1 := by
      rw [List.count_append, List.count_eq_zero_of_not_mem hmtR, List.count_singleton]
      simp
    have hso : ∀ st ∈ out, st.vec ∈ vecs old ++ vecs out ++ finalVec final ++ [mt] ∧
        st.vec ≠ mt := by
      intro st hst
      have h1 : st.vec ∈ vecs old ++ vecs out ++ finalVec final :=
        List.mem_append_left _ (List.mem_append_right _ (mem_vecs hst))
      exact ⟨List.mem_append_left _ h1, fun e => hmtR (e ▸ h1)⟩
    obtain ⟨g1, g2⟩ := addStateA_spec re.inst (addFuel re) a2 fl1 _ out x.next false mt pos
      end' hI2' (by rw [hcnt]; exact hh2) hso
    rw [hcnt] at g2
    have hold : ∀ v ∈ vecs old ++ vecs out ++ finalVec final,
        contents a2.heap v = contents a.heap v := by
      intro v hvR
      have hne : v ≠ mt := fun e => hmtR (e ▸ hvR)
      rw [contents_congr (hf2 v hne)]
      exact hf1 v hne (live_lt hI hvR)
    have hvo : views a2.heap out = views a.heap out :=
      views_congr (fun st hst => hold _
        (List.mem_append_left _ (List.mem_append_right _ (mem_vecs hst))))
    rw [hvo, hc2] at g1
    unfold primeA
    rw [hs]
    simp only [hk, hnm, e2]
    rw [← g1]
    cases hadd : addStateA re.inst (addFuel re) a2 out x.next false mt pos end' with
    | none => exact ⟨rfl, fun a2 sin h => by cases h⟩
    | some r =>
      obtain ⟨a3, sin⟩ := r
      simp only
      have hp := g2 a3 sin hadd
      obtain ⟨t, fl3, es, hI3, hnd, ht⟩ := hp.ext
      obtain ⟨a4, fl4, hfree, hI4, hc4, hl4, hw4⟩ := free_spec hI3 (v := mt) (by simp)
      rw [hfree]
      simp only [Option.map_some']
      have hnew : ∀ v ∈ vecs t, v ∉ vecs old ++ vecs out ++ finalVec final := by
        intro v hv2
        obtain ⟨st, hst, rfl⟩ := mem_vecs_iff.mp hv2
        rcases ht st hst with e | e
        · rw [e]; exact hmtR
        · exact fun h => e (List.mem_append_left _ h)
      refine ⟨by rw [views_congr (fun st _ => hc4 st.vec)], fun a5 s5 h => ?_⟩
      simp only [Option.some.injEq, Prod.mk.injEq] at h
      obtain ⟨rfl, rfl⟩ := h
      refine ⟨⟨⟨fl4, ?_⟩, by rw [hl4, hp.len, hl2, hl1]; exact hL.len, ?_, ?_, ?_⟩, ?_⟩
      · refine inv_count hI4 (fun v => ?_)
        rw [es, vecs_append]
        by_cases hv2 : v = mt
        · subst hv2
          rw [List.count_erase_self]
          simp only [List.count_append, List.count_singleton]
          simp
          omega
        · rw [List.count_erase_of_ne hv2]
          simp only [List.count_append, List.count_singleton]
          simp [Ne.symm hv2]
          omega
      · rw [es, vecs_append]
        refine List.nodup_append.mpr ⟨hL.nodupOut, hnd, ?_⟩
        intro v hv1 hv2
        exact hnew v hv2 (List.mem_append_left _ (List.mem_append_right _ hv1))
      · intro v hv1 hv2
        rw [es, vecs_append] at hv2
        rcases List.mem_append.mp hv2 with h2 | h2
        · exact hL.finalOut v hv1 h2
        · exact hnew v h2 (List.mem_append_right _ hv1)
      · obtain ⟨ws, e, hws⟩ := hp.writes
        intro w hw
        rw [hw4, e, hw2, hw1] at hw
        simp only [List.mem_append, List.mem_singleton] at hw
        rcases hw with ((h2 | h2) | h2) | h2
        · exact hL.writes w h2
        · exact ok_of_fill (hws0 w h2)
        · rw [h2]
          exact (rfl : (1 : Int) = 1)
        · exact ok_of_inAdd (hws w h2)
      · intro v hv2
        have hvR : v ∈ vecs old ++ vecs out ++ finalVec final := List.mem_append_right _ hv2
        rw [hc4, hp.frame v (List.mem_append_left _ hvR) (fun e => hmtR (e ▸ hvR))]
        exact hold v hvR

theorem views_length (h : List matchVec) (s : List stateA) : (views h s).length = s.length := by
  unfold views
  rw [List.length_map]

theorem final_view_congr {h h2 : List matchVec} {final : Option stateA}
    (hf : ∀ v ∈ finalVec final, contents h2 v = contents h v) :
    final.map (stateA.view h2) = final.map (stateA.view h) := by
  cases final with
  | none => rfl
  | some f =>
    simp only [Option.map_some', Option.some.injEq]
    unfold stateA.view
    rw [hf f.vec (by rw [finalVec_some]; simp)]

/-- The second half of a turn of the main loop: the vectors of the list before last are
freed and the threads of s[in] are stepped. -/
theorem turnA_spec {re : Regexp} {a1 : matchArena} {sin old : List stateA}
    {final : Option stateA} (hL : LoopInvA re a1 sin old final) (found : Bool) (c : Int)
    (pos cw end' : Nat) :
    ∃ a2, freeAll a1 old = some a2 ∧
      (stepAllA re.inst (addFuel re) c pos cw end' sin
          { arena := a2, out := [], final := final, found := found }).map execStateA.view =
        stepAll re.inst (addFuel re) c pos cw end' (views a1.heap sin)
          { out := [], final := final.map (stateA.view a1.heap), found := found } ∧
      ∀ acc, stepAllA re.inst (addFuel re) c pos cw end' sin
          { arena := a2, out := [], final := final, found := found } = some acc →
        LoopInvA re acc.arena acc.out sin acc.final := by
  obtain ⟨fl, hI⟩ := hL.inv
  rw [List.append_assoc] at hI
  obtain ⟨a2, fl2, hfree, hI2, hc2, hl2, hw2⟩ := freeAll_spec _ old a1 fl hI
  have hJ : StepInv a2 [] sin [] final := by
    refine ⟨⟨fl2, by simpa [vecs] using hI2⟩, by simpa [vecs] using hL.nodupOut,
      by simp [vecs], fun _ _ h => by simp [vecs] at h, ?_, fun _ _ h => by simp [vecs] at h,
      by rw [hw2]; exact hL.writes⟩
    intro v hv hv2
    exact hL.finalOut v hv2 hv
  obtain ⟨g1, g2⟩ := stepAllA_spec re.inst (addFuel re) c pos cw end' sin []
    { arena := a2, out := [], final := final, found := found } hJ
  refine ⟨a2, hfree, ?_, fun acc h => ?_⟩
  · rw [g1]
    have e1 : views a2.heap sin = views a1.heap sin := views_congr (fun st _ => hc2 st.vec)
    have e2 : final.map (stateA.view a2.heap) = final.map (stateA.view a1.heap) :=
      final_view_congr (fun v _ => hc2 v)
    simp only [execStateA.view, e1, e2]
    rfl
  · obtain ⟨hJ2, hl⟩ := g2 acc h
    obtain ⟨fl3, hI3⟩ := hJ2.inv
    refine ⟨⟨fl3, by simpa [vecs] using hI3⟩, by rw [hl]; simp only; rw [hl2]; exact hL.len,
      hJ2.nodupOut, hJ2.finalOut, hJ2.writes⟩

/-- The main loop of doExecute with the vectors in the arena goes as the loop with the
vectors as values: it returns when that loop does, the same state `final` with the contents
of its vector, and all the writes into the vectors are at the reference counts of
Write.ok. -/
theorem executeLoopA_spec (re : Regexp) (b : List Nat) (end' sp : Nat) (anch : Bool) :
    ∀ (fuel : Nat) (a : matchArena) (pos : Nat) (out old : List stateA)
      (final : Option stateA) (found : Bool),
    LoopInvA re a out old final →
    (executeLoopA re b end' sp anch fuel a pos out old final found).map
        (fun r => r.2.map (stateA.view r.1.heap)) =
      executeLoop re b end' sp anch fuel pos (views a.heap out)
        (final.map (stateA.view a.heap)) found ∧
    ∀ a2 f2, executeLoopA re b end' sp anch fuel a pos out old final found = some (a2, f2) →
      ∃ out2 old2, LoopInvA re a2 out2 old2 f2 := by
  intro fuel
  induction fuel with
  | zero =>
    intro a pos out old final found _
    exact ⟨rfl, fun a2 f2 h => by cases h⟩
  | succ fuel ih =>
    intro a pos out old final found hL
    have hdone : (some (a, final)).map
          (fun r : matchArena × Option stateA => r.2.map (stateA.view r.1.heap)) =
          some (final.map (stateA.view a.heap)) ∧
        ∀ a2 f2, some (a, final) = some (a2, f2) → ∃ out2 old2, LoopInvA re a2 out2 old2 f2 :=
      ⟨rfl, fun a2 f2 h => by cases h; exact ⟨out, old, hL⟩⟩
    -- the rest of the turn, from the list s[in]
    have hturn : ∀ (a1 : matchArena) (sin : List stateA), LoopInvA re a1 sin old final →
        final.map (stateA.view a1.heap) = final.map (stateA.view a.heap) →
        ∀ (c : Int) (pos2 cw : Nat),
        (match freeAll a1 old with
          | none => none
          | some a =>
            match stepAllA re.inst (addFuel re) c pos2 cw end' sin
                { arena := a, out := [], final := final, found := found } with
            | none => none
            | some acc =>
              executeLoopA re b end' sp anch fuel acc.arena pos2 acc.out sin
                acc.final acc.found).map
            (fun r : matchArena × Option stateA => r.2.map (stateA.view r.1.heap)) =
          (match stepAll re.inst (addFuel re) c pos2 cw end' (views a1.heap sin)
              { out := [], final := final.map (stateA.view a.heap), found := found } with
            | none => none
            | some acc => executeLoop re b end' sp anch fuel pos2 acc.out acc.final acc.found) ∧
        ∀ a2 f2, (match freeAll a1 old with
          | none => none
          | some a =>
            match stepAllA re.inst (addFuel re) c pos2 cw end' sin
                { arena := a, out := [], final := final, found := found } with
            | none => none
            | some acc =>
              executeLoopA re b end' sp anch fuel acc.arena pos2 acc.out sin
                acc.final acc.found) = some (a2, f2) →
          ∃ out2 old2, LoopInvA re a2 out2 old2 f2 := by
      intro a1 sin hL1 hfin c pos2 cw
      obtain ⟨a2, hfree, g1, g2⟩ := turnA_spec hL1 found c pos2 cw end'
      rw [hfree, ← hfin, ← g1]
      simp only
      cases hst : stepAllA re.inst (addFuel re) c pos2 cw end' sin
          { arena := a2, out := [], final := final, found := found } with
      | none => exact ⟨rfl, fun a2 f2 h => by cases h⟩
      | some acc =>
        simp only [Option.map_some']
        exact ih acc.arena pos2 acc.out sin acc.final acc.found (g2 acc hst)
    simp only [executeLoopA, executeLoop]
    by_cases h1 : ¬ pos ≤ end'
    · simp only [if_pos h1]
      exact hdone
    · simp only [if_neg h1]
      rw [views_length]
      generalize (!found && (decide (pos = sp) || !anch)) = prime
      cases prime with
      | false =>
        simp only [Bool.false_eq_true, not_false_eq_true, true_and, if_false]
        by_cases h2 : out.length = 0
        · simp only [if_pos h2]
          exact hdone
        · simp only [if_neg h2]
          exact hturn a out hL rfl _ _ _
      | true =>
        simp only [not_true_eq_false, false_and, if_false, if_true]
        cases hs : re.start with
        | none =>
          rw [primeA_start hs]
          simp only [Option.map_none']
          exact ⟨trivial, fun a2 f2 h => by cases h⟩
        | some k =>
          simp only
          cases hk : re.inst[k]? with
          | none =>
            rw [primeA_inst hs hk]
            simp only [Option.map_none']
            exact ⟨trivial, fun a2 f2 h => by cases h⟩
          | some x =>
            obtain ⟨p1, p2⟩ := primeA_spec hL hs hk pos end'
            cases hv : vecSet (noMatch (2 * (re.nbra + 1))) 0 (pos : Int) with
            | none =>
              rw [p1 hv]
              simp only [Option.map_none']
              exact ⟨trivial, fun a2 f2 h => by cases h⟩
            | some m =>
              obtain ⟨q1, q2⟩ := p2 m hv
              simp only
              rw [← q1]
              cases hpa : primeA re a out pos end' with
              | none => exact ⟨rfl, fun a2 f2 h => by cases h⟩
              | some r =>
                obtain ⟨a1, sin⟩ := r
                obtain ⟨hL1, hf1⟩ := q2 a1 sin hpa
                simp only [Option.map_some']
                exact hturn a1 sin hL1 (final_view_congr hf1) _ _ _

/-- The invariant of the main loop holds of the empty arena. -/
theorem loopInvA_init (re : Regexp) :
    LoopInvA re { head := none, len := 2 * (re.nbra + 1), heap := [], writes := [] } [] []
      none := by
  have hp : 0 < 2 * (re.nbra + 1) := by omega
  refine ⟨⟨[], ⟨.nil, List.nodup_nil, hp, ?_, ?_⟩⟩, rfl, List.nodup_nil,
    fun _ h => (by cases h), fun _ h => (by cases h)⟩
  · intro v x hx
    simp at hx
  · intro v hv
    cases hv

/-- What the end of doExecute makes of the state `final` the main loop leaves. -/
theorem finishA_spec {re : Regexp} {a : matchArena} {out old : List stateA} {f : stateA}
    (hL : LoopInvA re a out old (some f)) (val : Int)
    (hpos : (contents a.heap f.vec).length > 0) :
    ∃ a2, a.writeAt .backUp f.vec 0 val = some a2 ∧
      contents a2.heap f.vec = (contents a.heap f.vec).set 0 val ∧
      ∀ w ∈ a2.writes, w.ok ∨ w.site = .backUp := by
  obtain ⟨fl, hI⟩ := hL.inv
  have hm : f.vec ∈ vecs old ++ vecs out ++ finalVec (some f) :=
    List.mem_append_right _ (by rw [finalVec_some]; simp)
  obtain ⟨-, hws⟩ := writeAt_spec hI (held_of_live hI hm) (fun _ => rfl) .backUp 0 val
  have hv : vecSet (contents a.heap f.vec) 0 val = some ((contents a.heap f.vec).set 0 val) := by
    unfold vecSet
    rw [if_pos hpos]
  obtain ⟨a2, e2, -, -, hc, -, -, hw⟩ := hws _ hv
  refine ⟨a2, e2, hc, fun w hw2 => ?_⟩
  rw [hw] at hw2
  rcases List.mem_append.mp hw2 with h | h
  · exact Or.inl (hL.writes w h)
  · rw [List.mem_singleton.mp h]
    exact Or.inr rfl

/-- The matcher with the vectors as values, with the fast check of the prefix by its
name. -/
theorem doExecute_prelude (re : Regexp) (str : List Nat) (bytestr : Option (List Nat))
    (pos : Nat) :
    re.doExecute str bytestr pos =
      match re.inst[0]? with
      | none => none
      | some i0 =>
        match i0.next with
        | none => none
        | some n0 =>
          match re.inst[n0]? with
          | none => none
          | some i1 =>
            if decide (i1.kind = .iBOT) = true ∧ pos > 0 then some none
            else
              if prefixAdvance re str bytestr pos (decide (i1.kind = .iBOT)) = -1 then some none
              else
                match executeLoop re
                    (match bytestr with
                      | none => str
                      | some b => b)
                    (match bytestr with
                      | none => str.length
                      | some b => b.length)
                    (pos + (prefixAdvance re str bytestr pos
                      (decide (i1.kind = .iBOT))).toNat)
                    (decide (i1.kind = .iBOT))
                    ((match bytestr with
                      | none => str.length
                      | some b => b.length) + 2)
                    (pos + (prefixAdvance re str bytestr pos
                      (decide (i1.kind = .iBOT))).toNat) [] none false with
                | none => none
                | some none => some none
                | some (some final) =>
                  if final.prefixed ∧ final.m.length > 0 then
                    match final.m[0]? with
                    | none => none
                    | some m0 => some (some (final.m.set 0 (m0 - re.prefixBytes.length)))
                  else some (some final.m) := by
  unfold Regexp.doExecute prefixAdvance
  rfl

/-- The main loop from the empty arena, and the end of doExecute. -/
theorem finish_lockstep (re : Regexp) (b : List Nat) (end' p : Nat) (anch : Bool) :
    (match executeLoopA re b end' p anch (end' + 2)
          { head := none, len := 2 * (re.nbra + 1), heap := [], writes := [] } p [] [] none
          false with
      | none => none
      | some (a, none) => some (a, none)
      | some (a, some final) =>
        if final.prefixed ∧ (contents a.heap final.vec).length > 0 then
          match (contents a.heap final.vec)[0]? with
          | none => none
          | some m0 =>
            match a.writeAt .backUp final.vec 0 (m0 - re.prefixBytes.length) with
            | none => none
            | some a => some (a, some (contents a.heap final.vec))
        else some (a, some (contents a.heap final.vec))).map Prod.snd =
      (match executeLoop re b end' p anch (end' + 2) p [] none false with
        | none => none
        | some none => some none
        | some (some final) =>
          if final.prefixed ∧ final.m.length > 0 then
            match final.m[0]? with
            | none => none
            | some m0 => some (some (final.m.set 0 (m0 - re.prefixBytes.length)))
          else some (some final.m)) ∧
    ∀ a r, (match executeLoopA re b end' p anch (end' + 2)
          { head := none, len := 2 * (re.nbra + 1), heap := [], writes := [] } p [] [] none
          false with
      | none => none
      | some (a, none) => some (a, none)
      | some (a, some final) =>
        if final.prefixed ∧ (contents a.heap final.vec).length > 0 then
          match (contents a.heap final.vec)[0]? with
          | none => none
          | some m0 =>
            match a.writeAt .backUp final.vec 0 (m0 - re.prefixBytes.length) with
            | none => none
            | some a => some (a, some (contents a.heap final.vec))
        else some (a, some (contents a.heap final.vec))) = some (a, r) →
      (∀ w ∈ a.writes, w.ok ∨ w.site = .backUp) ∧
      ((∀ f, executeLoop re b end' p anch (end' + 2) p [] none false = some (some f) →
          f.prefixed = false) → ∀ w ∈ a.writes, w.ok) := by
  obtain ⟨g1, g2⟩ := executeLoopA_spec re b end' p anch (end' + 2)
    { head := none, len := 2 * (re.nbra + 1), heap := [], writes := [] } p [] [] none false
    (loopInvA_init re)
  have g1' : executeLoop re b end' p anch (end' + 2) p [] none false =
      (executeLoopA re b end' p anch (end' + 2)
        { head := none, len := 2 * (re.nbra + 1), heap := [], writes := [] } p [] [] none
        false).map (fun r => r.2.map (stateA.view r.1.heap)) := g1.symm
  rw [g1']
  cases hres : executeLoopA re b end' p anch (end' + 2)
      { head := none, len := 2 * (re.nbra + 1), heap := [], writes := [] } p [] [] none
      false with
  | none => exact ⟨rfl, fun a r h => by cases h⟩
  | some res =>
    obtain ⟨a, f⟩ := res
    obtain ⟨out2, old2, hL⟩ := g2 a f hres
    have hok : ∀ P : Prop, (∀ w ∈ a.writes, w.ok ∨ w.site = .backUp) ∧
        (P → ∀ w ∈ a.writes, w.ok) :=
      fun _ => ⟨fun w hw => Or.inl (hL.writes w hw), fun _ => hL.writes⟩
    cases f with
    | none =>
      exact ⟨rfl, fun a2 r h => by cases h; exact hok _⟩
    | some f =>
      simp only [Option.map_some']
      have hm : (stateA.view a.heap f).m = contents a.heap f.vec := rfl
      have hp : (stateA.view a.heap f).prefixed = f.prefixed := rfl
      rw [hm, hp]
      by_cases hc : f.prefixed = true ∧ (contents a.heap f.vec).length > 0
      · simp only [if_pos hc]
        cases h0 : (contents a.heap f.vec)[0]? with
        | none => exact ⟨rfl, fun a2 r h => by cases h⟩
        | some m0 =>
          obtain ⟨a2, e2, hc2, hw2⟩ := finishA_spec hL (m0 - re.prefixBytes.length) hc.2
          simp only [e2, Option.map_some', hc2]
          refine ⟨trivial, fun a3 r h => ?_⟩
          cases h
          refine ⟨hw2, fun hpf => ?_⟩
          have hf := hpf (stateA.view a.heap f) rfl
          rw [hp, hc.1] at hf
          cases hf
      · simp only [if_neg hc, Option.map_some']
        exact ⟨trivial, fun a2 r h => by cases h; exact hok _⟩

/-- The matcher with the vectors in the arena returns what the matcher with the vectors as
values returns, and all its writes into the vectors are at the reference counts of
Write.ok. -/
theorem doExecuteA_spec (re : Regexp) (str : List Nat) (bytestr : Option (List Nat))
    (pos : Nat) :
    (re.doExecuteA str bytestr pos).map Prod.snd = re.doExecute str bytestr pos ∧
    ∀ a r, re.doExecuteA str bytestr pos = some (a, r) →
      ∀ w ∈ a.writes, w.ok ∨ w.site = .backUp := by
  have hnil : (some (({ head := none, len := 2 * (re.nbra + 1), heap := [], writes := [] } :
        matchArena), (none : Option (List Int)))).map Prod.snd = some none ∧
      ∀ a r, some (({ head := none, len := 2 * (re.nbra + 1), heap := [], writes := [] } :
        matchArena), (none : Option (List Int))) = some (a, r) →
        ∀ w ∈ a.writes, w.ok ∨ w.site = .backUp :=
    ⟨rfl, fun a r h => by cases h; intro w hw; cases hw⟩
  rw [doExecute_prelude]
  unfold Regexp.doExecuteA
  simp only
  cases h0 : re.inst[0]? with
  | none => exact ⟨rfl, fun a r h => by cases h⟩
  | some i0 =>
    simp only
    cases hn : i0.next with
    | none => exact ⟨rfl, fun a r h => by cases h⟩
    | some n0 =>
      simp only
      cases h1 : re.inst[n0]? with
      | none => exact ⟨rfl, fun a r h => by cases h⟩
      | some i1 =>
        simp only
        by_cases c1 : decide (i1.kind = .iBOT) = true ∧ pos > 0
        · simp only [if_pos c1]
          exact hnil
        · simp only [if_neg c1]
          by_cases c2 : prefixAdvance re str bytestr pos (decide (i1.kind = .iBOT)) = -1
          · simp only [if_pos c2]
            exact hnil
          · simp only [if_neg c2]
            exact ⟨(finish_lockstep re _ _ _ _).1,
              fun a r h => ((finish_lockstep re _ _ _ _).2 a r h).1⟩

/-- The fast check of the prefix, on a string. -/
theorem prefixAdvance_none (re : Regexp) (str : List Nat) (pos : Nat) (anchored : Bool) :
    prefixAdvance re str none pos anchored = advanceOf re str pos anchored := by
  unfold prefixAdvance advanceOf
  rfl

/-- The matcher with the vectors in the arena does on a slice of bytes what it does on the
string of these bytes. -/
theorem doExecuteA_bytes (re : Regexp) (s b : List Nat) (pos : Nat) :
    re.doExecuteA s (some b) pos = re.doExecuteA b none pos := by
  unfold Regexp.doExecuteA prefixAdvance
  simp only [bytesIndex, bytesHasPrefix]

/-- The matcher with the vectors in the arena, on a well-formed program: it returns, with
what the matcher with the vectors as values returns, and each of its writes into a vector
is at one of the reference counts of Write.ok. -/
theorem doExecuteA_ready {re : Regexp} {rk : Nat → Nat} {x0 : instr} {s0 : Nat}
    (hR : Ready re rk x0 s0) (str : List Nat) (pos : Nat) (hpos : pos ≤ str.length) :
    ∃ a r, re.doExecuteA str none pos = some (a, r) ∧ re.doExecute str none pos = some r ∧
      ∀ w ∈ a.writes, w.ok := by
  obtain ⟨xs, hxs, -, -⟩ := Good_get hR.good
  have hw : ∀ a r, re.doExecuteA str none pos = some (a, r) → ∀ w ∈ a.writes, w.ok := by
    unfold Regexp.doExecuteA
    simp only [hR.first, hR.next, hxs, prefixAdvance_none]
    by_cases c1 : decide (xs.kind = .iBOT) = true ∧ pos > 0
    · simp only [if_pos c1]
      intro a r h w hw
      cases h
      cases hw
    · simp only [if_neg c1]
      rcases advanceOf_range re str pos (decide (xs.kind = .iBOT)) hpos with hadv | ⟨hadv, hle⟩
      · simp only [if_pos hadv]
        intro a r h w hw
        cases h
        cases hw
      · have hne : ¬ advanceOf re str pos (decide (xs.kind = .iBOT)) = -1 := by omega
        simp only [if_neg hne]
        obtain ⟨r, hr, hfin, -⟩ := executeLoop_spec hR str
          (pos + (advanceOf re str pos (decide (xs.kind = .iBOT))).toNat)
          (decide (xs.kind = .iBOT))
          (fun h => ⟨xs, hxs, by simpa using h⟩) (str.length + 2) _ [] none false
          (by omega) (by omega) le_rfl (LoopInv_init re str s0 _)
        intro a r2 h
        refine ((finish_lockstep re str str.length
          (pos + (advanceOf re str pos (decide (xs.kind = .iBOT))).toNat)
          (decide (xs.kind = .iBOT))).2 a r2 h).2 (fun f hf => ?_)
        rw [hr] at hf
        exact (hfin f (Option.some.inj hf)).1
  obtain ⟨g1, -⟩ := doExecuteA_spec re str none pos
  obtain ⟨r, hr, -⟩ := doExecute_sound hR str pos hpos
  rw [hr] at g1
  cases hA : re.doExecuteA str none pos with
  | none =>
    rw [hA] at g1
    cases g1
  | some ar =>
    obtain ⟨a, r2⟩ := ar
    rw [hA] at g1
    simp only [Option.map_some', Option.some.injEq] at g1
    subst g1
    exact ⟨a, r2, rfl, hr, hw a r2 hA⟩

end GoRegexp

namespace GoRegexp

/-! ## Examples of submatches, and the source text -/

/-- C27: the pattern `(a)(b(c))` compiles to a Regexp with NumSubexp() = 3, and
FindStringSubmatchIndex("abc") returns [0, 3, 0, 1, 1, 3, 2, 3]. -/
theorem nested_groups_abc :
    ∃ re, Compile (bytesOf "(a)(b(c))") = .ok re ∧ re.NumSubexp = 3 ∧
      re.FindStringSubmatchIndex (bytesOf "abc") = some (some [0, 3, 0, 1, 1, 3, 2, 3]) := by
  have h : ((Compile (bytesOf "(a)(b(c))")).toOption.map
      (fun re => (re.NumSubexp, re.FindStringSubmatchIndex (bytesOf "abc")))) =
      some (3, some (some [0, 3, 0, 1, 1, 3, 2, 3])) := by decide!
  cases hc : Compile (bytesOf "(a)(b(c))") with
  | error e => rw [hc] at h; cases h
  | ok re =>
    rw [hc] at h
    simp only [Except.toOption, Option.map_some', Option.some.injEq, Prod.mk.injEq] at h
    exact ⟨re, rfl, h.1, h.2⟩

/-- C28: for the pattern `a(b|c)*d` and the subject "abcbcd", FindStringSubmatchIndex
returns [0, 6, 4, 5]: the group reports its last iteration. -/
theorem group_last_iteration :
    ∃ re, Compile (bytesOf "a(b|c)*d") = .ok re ∧
      re.FindStringSubmatchIndex (bytesOf "abcbcd") = some (some [0, 6, 4, 5]) := by
  have h : ((Compile (bytesOf "a(b|c)*d")).toOption.map
      (fun re => re.FindStringSubmatchIndex (bytesOf "abcbcd"))) =
      some (some (some [0, 6, 4, 5])) := by decide!
  cases hc : Compile (bytesOf "a(b|c)*d") with
  | error e => rw [hc] at h; cases h
  | ok re =>
    rw [hc] at h
    simp only [Except.toOption, Option.map_some', Option.some.injEq] at h
    exact ⟨re, rfl, h⟩

theorem Compile_expr {p : List Nat} {re : Regexp} (h : Compile p = .ok re) : re.expr = p := by
  unfold Compile at h
  rcases doParse_spec p with ⟨re2, v, -, h2, -, he, -⟩ | ⟨e, -, he⟩
  · rw [h2] at h; cases h; exact he
  · rw [he] at h; cases h

/-- C29: for every pattern p that compiles, String() of the resulting Regexp is p. -/
theorem String_eq_pattern (p : List Nat) (re : Regexp) (h : Compile p = .ok re) :
    re.String = p := Compile_expr h

theorem String_eq_pattern_witness :
    Compile [97, 40, 98, 41, 63, 99] = .ok progOptGroup ∧
      progOptGroup.String = [97, 40, 98, 41, 63, 99] :=
  ⟨Compile_of_toOption (by decide!),
    String_eq_pattern [97, 40, 98, 41, 63, 99] progOptGroup (Compile_of_toOption (by decide!))⟩

end GoRegexp

namespace GoRegexp

/-! ## The language and the groups of a compiled pattern -/

theorem Compile_of_some (pat : List Nat) (h : (Compile pat).toOption.isSome = true) :
    ∃ re, Compile pat = .ok re := by
  cases hc : Compile pat with
  | error e => rw [hc] at h; cases h
  | ok re => exact ⟨re, rfl⟩

/-- C3: for every pattern that compiles, the runes of the pattern are derived from the
grammar of the package comment with a syntax tree r, which is the only syntax tree the
grammar gives them (a `^` right after the opening bracket of a class negates the class and
is not one of its runes), and the program accepts a span of a subject exactly when the span
belongs to the language of r: juxtaposition is concatenation, the bar alternation, the star
zero or more, the plus one or more and the question mark zero or one repetition of the term
right before it, the dot any rune, a class its set of runes, `^` and `$` hold only at offset
0 and at the end of the text, and parentheses only group. -/
theorem Compile_language (pat : List Nat) (re : Regexp) (h : Compile pat = .ok re) :
    ∃ r, Gram .regexp [] (runes pat) r ∧
      (∀ r2, Gram .regexp [] (runes pat) r2 → r2 = r) ∧
      ∀ (b : List Nat) (p q : Nat), Accepts re b p q ↔ Lang b r p q := by
  obtain ⟨r, q1, s, e, hp, hg, -⟩ := Compile_gram h
  exact ⟨r, hg, fun r2 h2 => gram_unique h2 hg, Compile_accepts h hp⟩

/-- The pattern `a(b)?c` compiles to progOptGroup, whose accepted spans are the language of
the one tree of the pattern; and the pattern `[^a]` compiles to a program that accepts the
spans of one rune other than `a`, the language of its one tree, the negated class of the
range from `a` to `a`. -/
theorem Compile_language_witness :
    (Compile [97, 40, 98, 41, 63, 99] = .ok progOptGroup ∧
      ∃ r, Gram .regexp [] (runes [97, 40, 98, 41, 63, 99]) r ∧
        (∀ r2, Gram .regexp [] (runes [97, 40, 98, 41, 63, 99]) r2 → r2 = r) ∧
        ∀ (b : List Nat) (p q : Nat), Accepts progOptGroup b p q ↔ Lang b r p q) ∧
    ∃ re, Compile [91, 94, 97, 93] = .ok re ∧
      Gram .regexp [] (runes [91, 94, 97, 93]) (.cls true [97, 97]) ∧
      (∀ r2, Gram .regexp [] (runes [91, 94, 97, 93]) r2 → r2 = .cls true [97, 97]) ∧
      ∀ (b : List Nat) (p q : Nat), Accepts re b p q ↔ Lang b (.cls true [97, 97]) p q :=
  ⟨⟨Compile_of_toOption (by decide!),
      Compile_language [97, 40, 98, 41, 63, 99] progOptGroup
        (Compile_of_toOption (by decide!))⟩,
    (Compile_of_some [91, 94, 97, 93] (by decide!)).elim fun re hre =>
      (Compile_language [91, 94, 97, 93] re hre).elim fun r hr =>
        have hrun : runes [91, 94, 97, 93] = [91, 94, 97, 93] := by decide!
        have ht : Gram .regexp [] (runes [91, 94, 97, 93]) (.cls true [97, 97]) :=
          hrun ▸ gram_negated_class
        have e : Ast.cls true [97, 97] = r := hr.2.1 _ ht
        ⟨re, hre, ht, e ▸ hr.2.1, e ▸ hr.2.2⟩⟩

/-- C5: for every pattern that compiles, NumSubexp() is the number of group-opening
parentheses of the pattern (the parentheses outside a class that no backslash escapes), and
the pattern is derived from the grammar with a tree r in which the group opened by the k-th
such parenthesis from the left has the number k: the numbers of the groups, in the order of
their opening parentheses, are 1, 2, ..., NumSubexp(), and a group has a lower number than
every group nested in it. The runs of the program from the instruction after iStart to iEnd
read the spans of the language of r with the same match vectors, where the group with number
k writes the start of its span at position 2k and its end at position 2k+1. -/
theorem groups_numbered_by_lpar (pat : List Nat) (re : Regexp) (h : Compile pat = .ok re) :
    re.NumSubexp = openParens (runes pat) ∧
    ∃ r, Gram .regexp [] (runes pat) r ∧ r.groups = List.range' 1 re.NumSubexp ∧
      r.outerLower ∧
      ∀ (b : List Nat) (p q : Nat) (m : List Int), (∃ tr, AcceptsVia re b p q tr m) ↔
        ∃ m1, LangV b r p (seedVec re p) q m1 ∧ m = m1.set 1 (q : Int) := by
  obtain ⟨r, q1, s, e, hp, hg, hn⟩ := Compile_gram h
  obtain ⟨-, -, g3, g4⟩ := gram_groups hg rfl
  refine ⟨hn.symm, r, hg, ?_, g4, Compile_semantics h hp⟩
  rw [g3]
  simp only [List.nil_append, hn, Regexp.NumSubexp]
  first | done | rfl

theorem groups_numbered_by_lpar_witness :
    Compile [97, 40, 98, 41, 63, 99] = .ok progOptGroup ∧
    progOptGroup.NumSubexp = openParens (runes [97, 40, 98, 41, 63, 99]) ∧
    ∃ r, Gram .regexp [] (runes [97, 40, 98, 41, 63, 99]) r ∧
      r.groups = List.range' 1 progOptGroup.NumSubexp ∧ r.outerLower ∧
      ∀ (b : List Nat) (p q : Nat) (m : List Int),
        (∃ tr, AcceptsVia progOptGroup b p q tr m) ↔
        ∃ m1, LangV b r p (seedVec progOptGroup p) q m1 ∧ m = m1.set 1 (q : Int) :=
  ⟨Compile_of_toOption (by decide!),
    groups_numbered_by_lpar [97, 40, 98, 41, 63, 99] progOptGroup
      (Compile_of_toOption (by decide!))⟩

end GoRegexp

namespace GoRegexp

/-! ## LiteralPrefix -/

/-- C24: for every pattern that compiles, LiteralPrefix() returns a pair (lit, complete),
and on every well-formed UTF-8 subject b the text of every span that the program accepts
from an offset where a rune starts begins with lit, and is exactly lit when complete is
true; FindStringIndex(b) returns, and the text `b[i:j]` of the match [i, j] it returns
begins with lit, and is exactly lit when complete is true. -/
theorem LiteralPrefix_begins_match (pat : List Nat) (re : Regexp) (h : Compile pat = .ok re) :
    ∃ lit complete, re.LiteralPrefix = some (lit, complete) ∧
      ∀ b, ValidUTF8 b →
        (∀ p q, RuneStart b 0 p → Accepts re b p q →
          ∃ rest, (b.drop p).take (q - p) = lit ++ rest ∧ (complete = true → rest = [])) ∧
        (∃ r, re.FindStringIndex b = some r ∧ ∀ i j : Int, r = some [i, j] →
          ∃ rest, sliceOf b i j = some (lit ++ rest) ∧ (complete = true → rest = [])) := by
  obtain ⟨rk, x0, s0, hR, hk0⟩ := Compile_ready_start h
  obtain ⟨cs, ok, hlit, hc⟩ := LiteralPrefix_spec hR hk0
  refine ⟨stringOfRunes cs, ok, hlit, fun b hv => ⟨?_, ?_⟩⟩
  · intro p q hp hacc
    obtain ⟨tr, k, m1, hrun, hend⟩ := accepts_run hR hacc
    exact chain_text hv hc hrun hend hp
  · obtain ⟨r, hr, hsound, -⟩ := doExecute_complete hR (Compile_prefixed h) b hv 0 .first
      (Nat.zero_le _)
    unfold Regexp.FindStringIndex
    rw [hr]
    cases r with
    | none => exact ⟨none, rfl, fun i j hij => by cases hij⟩
    | some a =>
      obtain ⟨p0, q0, tr0, m1, k0, h1, h2, h3, h4, h5⟩ := hsound a rfl
      obtain ⟨hl, hv0, hv1⟩ := run_vector hR.prog h3
      rw [← h5] at hl hv0 hv1
      simp only
      rw [if_pos (by omega)]
      refine ⟨_, rfl, ?_⟩
      intro i j hij
      simp only [Option.some.injEq] at hij
      have e0 : (a.take 2)[0]? = some i := by rw [hij]; rfl
      have e1 : (a.take 2)[1]? = some j := by rw [hij]; rfl
      rw [List.getElem?_take_of_lt (by omega), get0_vstart (by omega)] at e0
      rw [List.getElem?_take_of_lt (by omega), get1_vend (by omega)] at e1
      simp only [Option.some.injEq] at e0 e1
      rw [hv0] at e0
      rw [hv1] at e1
      subst e0 e1
      have hle := Run_pos_le h3
      obtain ⟨rest, ht, hok⟩ := chain_text hv hc h3 h4 h1
      refine ⟨rest, ?_, hok⟩
      unfold sliceOf
      rw [if_pos (by omega)]
      simp only [Int.toNat_ofNat]
      rw [ht]

theorem LiteralPrefix_begins_match_witness :
    Compile [97, 40, 98, 41, 63, 99] = .ok progOptGroup ∧
    ∃ lit complete, progOptGroup.LiteralPrefix = some (lit, complete) ∧
      ∀ b, ValidUTF8 b →
        (∀ p q, RuneStart b 0 p → Accepts progOptGroup b p q →
          ∃ rest, (b.drop p).take (q - p) = lit ++ rest ∧ (complete = true → rest = [])) ∧
        (∃ r, progOptGroup.FindStringIndex b = some r ∧ ∀ i j : Int, r = some [i, j] →
          ∃ rest, sliceOf b i j = some (lit ++ rest) ∧ (complete = true → rest = [])) :=
  ⟨Compile_of_toOption (by decide!),
    LiteralPrefix_begins_match [97, 40, 98, 41, 63, 99] progOptGroup
      (Compile_of_toOption (by decide!))⟩

/-- C25, as stated, fails: for the pattern `^abc` LiteralPrefix() returns the empty text
(and false), while the prefix that setPrefix stores is "abc"; for the pattern `abc$`
LiteralPrefix() returns "abc", while the prefix that setPrefix stores is "ab". -/
theorem LiteralPrefix_differs_from_prefix :
    (Compile (bytesOf "^abc") = .ok progBotAbc ∧
      progBotAbc.LiteralPrefix = some ([], false) ∧ progBotAbc.prefixBytes = bytesOf "abc") ∧
    (Compile (bytesOf "abc$") = .ok progAbcEot ∧
      progAbcEot.LiteralPrefix = some (bytesOf "abc", false) ∧
      progAbcEot.prefixBytes = bytesOf "ab") :=
  ⟨⟨Compile_of_toOption (by decide!), by decide!, by decide!⟩,
    ⟨Compile_of_toOption (by decide!), by decide!, by decide!⟩⟩

/-- C25, amended: for every pattern that compiles, LiteralPrefix() returns the text of a
list cs of runes and a boolean. When the instruction after iStart is iBOT, the text is empty
and the boolean false, whatever the prefix that setPrefix stores. When it is not iBOT, the
prefix that setPrefix stores is the text that LiteralPrefix() returns, or, the boolean being
false, that text without its last rune. When the boolean is true, the two are equal. -/
theorem LiteralPrefix_extends_prefix (pat : List Nat) (re : Regexp)
    (h : Compile pat = .ok re) :
    ∃ cs complete x0 s0 x1, re.LiteralPrefix = some (stringOfRunes cs, complete) ∧
      re.inst[0]? = some x0 ∧ x0.next = some s0 ∧ re.inst[s0]? = some x1 ∧
      (x1.kind = .iBOT → cs = [] ∧ complete = false) ∧
      (x1.kind ≠ .iBOT →
        re.prefixBytes = stringOfRunes cs ∨
          (complete = false ∧ ∃ cs0 c, cs = cs0 ++ [c] ∧ re.prefixBytes = stringOfRunes cs0)) ∧
      (complete = true → re.prefixBytes = stringOfRunes cs) := by
  obtain ⟨rk, x0, s0, hR, hk0⟩ := Compile_ready_start h
  obtain ⟨cs, ok, hlit, hc⟩ := LiteralPrefix_spec hR hk0
  obtain ⟨x1, hx1⟩ := chain_get hc
  have hp := Compile_prefixed h
  refine ⟨cs, ok, x0, s0, x1, hlit, hR.first, hR.next, hx1, ?_, ?_, ?_⟩
  · intro hk
    exact chain_stop hc hx1 (by rw [hk]; simp) (by rw [hk]; simp)
  · intro hk
    exact (setPrefix_chain hp hR.first hR.next hx1 hk hc).1
  · intro hok
    by_cases hk : x1.kind = .iBOT
    · have := (chain_stop hc hx1 (by rw [hk]; simp) (by rw [hk]; simp)).2
      rw [this] at hok
      cases hok
    · exact (setPrefix_chain hp hR.first hR.next hx1 hk hc).2 hok

theorem LiteralPrefix_extends_prefix_witness :
    Compile (bytesOf "abc$") = .ok progAbcEot ∧
    ∃ cs complete x0 s0 x1, progAbcEot.LiteralPrefix = some (stringOfRunes cs, complete) ∧
      progAbcEot.inst[0]? = some x0 ∧ x0.next = some s0 ∧ progAbcEot.inst[s0]? = some x1 ∧
      (x1.kind = .iBOT → cs = [] ∧ complete = false) ∧
      (x1.kind ≠ .iBOT →
        progAbcEot.prefixBytes = stringOfRunes cs ∨
          (complete = false ∧
            ∃ cs0 c, cs = cs0 ++ [c] ∧ progAbcEot.prefixBytes = stringOfRunes cs0)) ∧
      (complete = true → progAbcEot.prefixBytes = stringOfRunes cs) :=
  ⟨Compile_of_toOption (by decide!),
    LiteralPrefix_extends_prefix (bytesOf "abc$") progAbcEot (Compile_of_toOption (by decide!))⟩

end GoRegexp

namespace GoRegexp

/-! ## Stacked quantifiers -/

/-- C21: for every character c (a Unicode scalar value) that is not one of the special
characters, all quantifier characters q1 and q2 among `*`, `+`, `?` and every remaining
text r, Compile of the pattern `c q1 q2 r` fails with ErrBadClosure. -/
theorem stacked_quantifiers_rejected (c : Int) (q1 q2 : Nat) (r : List Nat)
    (h0 : 0 ≤ c) (h1 : c < 1114112) (h2 : ¬ (55296 ≤ c ∧ c < 57344))
    (hc : special c = false) (hq1 : q1 ∈ bytesOf "*+?") (hq2 : q2 ∈ bytesOf "*+?") :
    Compile (EncodeRune c ++ [q1, q2] ++ r) = .error (.error .ErrBadClosure) := by
  have e : bytesOf "*+?" = [42, 43, 63] := by decide
  rw [e] at hq1 hq2
  simp only [List.mem_cons, List.mem_singleton, List.not_mem_nil, or_false] at hq1 hq2
  have := Compile_stacked c q1 q2 r h0 h1 h2 hc hq1 hq2
  simpa using this

theorem stacked_quantifiers_rejected_witness :
    Compile (bytesOf "a**") = .error (.error .ErrBadClosure) ∧
    Compile (bytesOf "a*+") = .error (.error .ErrBadClosure) ∧
    Compile (bytesOf "a??b") = .error (.error .ErrBadClosure) :=
  ⟨stacked_quantifiers_rejected 97 42 42 [] (by decide) (by decide) (by decide) (by decide)
      (by decide) (by decide),
    stacked_quantifiers_rejected 97 42 43 [] (by decide) (by decide) (by decide) (by decide)
      (by decide) (by decide),
    stacked_quantifiers_rejected 97 63 63 [98] (by decide) (by decide) (by decide) (by decide)
      (by decide) (by decide)⟩

end GoRegexp

namespace GoRegexp

/-! ## strings.Split and strings.Join -/

/-- C30: for every string s, every separator sep and every n other than 0, Split(s, sep, n)
returns and Join of its result with sep returns s; for the empty separator, s being
well-formed UTF-8. -/
theorem Split_Join_roundtrip (s sep : List Nat) (n : Int) (hn : n ≠ 0)
    (hv : sep = [] → ValidUTF8 s) :
    ∃ a, Split s sep n = some a ∧ Join a sep = some s :=
  Split_join s sep n hn hv

theorem Split_Join_roundtrip_witness :
    ((-1 : Int) ≠ 0 ∧ (bytesOf "," = [] → ValidUTF8 (bytesOf "a,b,c"))) ∧
    ∃ a, Split (bytesOf "a,b,c") (bytesOf ",") (-1) = some a ∧
      Join a (bytesOf ",") = some (bytesOf "a,b,c") :=
  ⟨⟨by decide, fun h => absurd h (by decide)⟩,
    Split_Join_roundtrip (bytesOf "a,b,c") (bytesOf ",") (-1) (by decide)
      (fun h => absurd h (by decide))⟩

end GoRegexp

namespace GoRegexp

/-! ## A quantifier with nothing before it -/

theorem Compile_of_isSome {pat : List Nat} (h : (Compile pat).toOption.isSome = true) :
    ∃ re, Compile pat = .ok re := by
  cases hc : Compile pat with
  | error e => rw [hc] at h; cases h
  | ok re => exact ⟨re, rfl⟩

/-- C22: for every quantifier character q among `*`, `+`, `?` and every text r, Compile of
the pattern `q r` fails with ErrBareClosure; and so does Compile of every pattern
`pre d q r` in which d is `(` or `|`, d is unescaped (the scan of pre ends outside a class
and not on a backslash) and d is reached without error (`pre d` is the beginning of some
pattern `pre d t` that compiles). -/
theorem bare_quantifier_rejected (q : Nat) (hq : q ∈ bytesOf "*+?") :
    (∀ r : List Nat, Compile ([q] ++ r) = .error (.error .ErrBareClosure)) ∧
    (∀ (pre : List Nat) (d : Nat) (t r : List Nat) (re : Regexp), d ∈ bytesOf "(|" →
      (scan (runes pre)).2 = .out → Compile (pre ++ [d] ++ t) = .ok re →
      Compile (pre ++ [d] ++ [q] ++ r) = .error (.error .ErrBareClosure)) := by
  have e : bytesOf "*+?" = [42, 43, 63] := by decide
  have e2 : bytesOf "(|" = [40, 124] := by decide
  rw [e] at hq
  simp only [List.mem_cons, List.mem_singleton, List.not_mem_nil, or_false] at hq
  refine ⟨fun r => Compile_bare q r hq, ?_⟩
  intro pre d t r re hd hout h
  rw [e2] at hd
  simp only [List.mem_cons, List.mem_singleton, List.not_mem_nil, or_false] at hd
  have h1 : Compile (pre ++ d :: t) = .ok re := by simpa using h
  have := Compile_fork (r := r) hd hq hout h1
  simpa using this

theorem bare_quantifier_rejected_witness :
    Compile (bytesOf "*a") = .error (.error .ErrBareClosure) ∧
    Compile (bytesOf "(*)") = .error (.error .ErrBareClosure) ∧
    Compile (bytesOf "a|+") = .error (.error .ErrBareClosure) ∧
    Compile (bytesOf "a(b|?c)") = .error (.error .ErrBareClosure) :=
  ⟨(bare_quantifier_rejected 42 (by decide)).1 [97],
    (@Compile_of_isSome (bytesOf "()") (by decide!)).elim fun re h =>
      (bare_quantifier_rejected 42 (by decide)).2 [] 40 [41] [41] re (by decide) (by decide) h,
    (@Compile_of_isSome (bytesOf "a|") (by decide!)).elim fun re h =>
      (bare_quantifier_rejected 43 (by decide)).2 [97] 124 [] [] re (by decide) (by decide) h,
    (@Compile_of_isSome (bytesOf "a(b|)") (by decide!)).elim fun re h =>
      (bare_quantifier_rejected 63 (by decide)).2 [97, 40, 98] 124 [41] [99, 41] re (by decide)
        (by decide) h⟩

end GoRegexp

namespace GoRegexp

/-! ## Matching never fails -/

/-- C26: for every pattern that compiles and every subject s, a sequence of bytes that need
not be well-formed UTF-8, the matcher doExecute returns from every offset of s, on the string
and on the byte slice, and so does every Find, Match and ReplaceAll function of the package.
In the model a result is `some`; the panic "unknown instruction in execute" of a thread at
iStart or iNop, an index out of the range of a match vector or of the subject, and a missing
`next` or `left` link are the result `none`. -/
theorem matching_never_fails (pat : List Nat) (re : Regexp) (h : Compile pat = .ok re)
    (s : List Nat) :
    (∀ (x : List Nat) (pos : Nat), pos ≤ s.length →
      (∃ r, re.doExecute s none pos = some r) ∧ (∃ r, re.doExecute x (some s) pos = some r)) ∧
    ((∃ r, re.MatchString s = some r) ∧ (∃ r, re.Match s = some r) ∧
      (∃ r, MatchString pat s = some r) ∧ (∃ r, Match pat s = some r)) ∧
    (∀ repl : List Nat,
      (∃ r, re.ReplaceAllString s repl = some r) ∧ (∃ r, re.ReplaceAll s repl = some r)) ∧
    (∀ f : List Nat → List Nat,
      (∃ r, re.ReplaceAllStringFunc s f = some r) ∧ (∃ r, re.ReplaceAllFunc s f = some r)) ∧
    ((∃ r, re.Find s = some r) ∧ (∃ r, re.FindIndex s = some r) ∧
      (∃ r, re.FindString s = some r) ∧ (∃ r, re.FindStringIndex s = some r) ∧
      (∃ r, re.FindSubmatch s = some r) ∧ (∃ r, re.FindSubmatchIndex s = some r) ∧
      (∃ r, re.FindStringSubmatch s = some r) ∧
      (∃ r, re.FindStringSubmatchIndex s = some r)) ∧
    (∀ n : Int,
      (∃ r, re.FindAll s n = some r) ∧ (∃ r, re.FindAllIndex s n = some r) ∧
      (∃ r, re.FindAllString s n = some r) ∧ (∃ r, re.FindAllStringIndex s n = some r) ∧
      (∃ r, re.FindAllSubmatch s n = some r) ∧ (∃ r, re.FindAllSubmatchIndex s n = some r) ∧
      (∃ r, re.FindAllStringSubmatch s n = some r) ∧
      (∃ r, re.FindAllStringSubmatchIndex s n = some r)) := by
  obtain ⟨f1, f2, f3, f4, f5, f6, f7, f8, f9, f10⟩ := find_total h s
  refine ⟨?_, ⟨f1, f2, ?_, ?_⟩, ?_, ?_, ⟨f3, f4, f5, f6, f7, f8, f9, f10⟩,
    fun n => findAll_total h s n⟩
  · intro x pos hpos
    obtain ⟨r, hr, hb, -⟩ := doExecute_total h s pos hpos
    exact ⟨⟨r, hr⟩, ⟨r, hb x⟩⟩
  · obtain ⟨r, hr⟩ := f1
    unfold MatchString
    rw [h]
    exact ⟨(r, none), by simp only [hr, Option.map_some']⟩
  · obtain ⟨r, hr⟩ := f2
    unfold Match
    rw [h]
    exact ⟨(r, none), by simp only [hr, Option.map_some']⟩
  · intro repl
    obtain ⟨r, h1, h2⟩ := replace_total h s (fun _ => repl)
    exact ⟨⟨r, h1⟩, ⟨r, h2⟩⟩
  · intro f
    obtain ⟨r, h1, h2⟩ := replace_total h s f
    exact ⟨⟨r, h1⟩, ⟨r, h2⟩⟩

theorem matching_never_fails_witness :
    Compile [97, 40, 98, 41, 63, 99] = .ok progOptGroup ∧
    (∃ r, progOptGroup.doExecute [255, 97, 98, 99, 192] none 5 = some r) ∧
    (∃ r, progOptGroup.FindSubmatch [255, 97, 98, 99, 192] = some r) ∧
    (∃ r, progOptGroup.ReplaceAll [255, 97, 98, 99, 192] [120] = some r) ∧
    (∃ r, progOptGroup.FindAllStringSubmatch [255, 97, 98, 99, 192] (-1) = some r) :=
  ⟨Compile_of_toOption (by decide!),
    ((matching_never_fails [97, 40, 98, 41, 63, 99] progOptGroup
      (Compile_of_toOption (by decide!)) [255, 97, 98, 99, 192]).1 [] 5 (by decide)).1,
    (matching_never_fails [97, 40, 98, 41, 63, 99] progOptGroup
      (Compile_of_toOption (by decide!)) [255, 97, 98, 99, 192]).2.2.2.2.1.2.2.2.2.1,
    ((matching_never_fails [97, 40, 98, 41, 63, 99] progOptGroup
      (Compile_of_toOption (by decide!)) [255, 97, 98, 99, 192]).2.2.1 [120]).2,
    ((matching_never_fails [97, 40, 98, 41, 63, 99] progOptGroup
      (Compile_of_toOption (by decide!)) [255, 97, 98, 99, 192]).2.2.2.2.2 (-1)).2.2.2.2.2.2.1⟩

end GoRegexp

namespace GoRegexp

/-! ## QuoteMeta -/

/-- The expression compiled from a quoted text accepts, from an offset of a subject where a
rune starts, the occurrences of the text and nothing else. -/
theorem quoted_accepts {s : List Nat} (hs : ValidUTF8 s) {re : Regexp}
    (h : Compile (quoteBytes s) = .ok re) {t : List Nat} (hv : ValidUTF8 t) (p q : Nat)
    (hp : RuneStart t 0 p) :
    Accepts re t p q ↔ q = p + s.length ∧ q ≤ t.length ∧ (t.drop p).take s.length = s := by
  obtain ⟨v1, v2, v3⟩ := valid_runes s.length s le_rfl hs
  obtain ⟨q1, s1, e1, hparse⟩ := quoted_parse v2
  rw [Compile_accepts h hparse, lang_litAst]
  constructor
  · intro hr
    have hle := reads_le hr
    have hb := reads_bound hr (RuneStart_le_length hp (Nat.zero_le _))
    have ht := reads_text hv hr hp
    rw [v1] at ht
    have hlen := congrArg List.length ht
    simp only [List.length_take, List.length_drop] at hlen
    have : q - p = s.length := by omega
    exact ⟨by omega, hb, by rw [← this]; exact ht⟩
  · rintro ⟨rfl, -, h3⟩
    have := reads_of_text t (runes s) v3 p (by rw [v1]; exact h3)
    rwa [v1] at this

/-- The first occurrence of well-formed UTF-8 text in a subject is where a rune starts. -/
theorem occurrence_runeStart {s : List Nat} (hs : ValidUTF8 s) (t : List Nat) (i : Nat)
    (ho : (t.drop i).take s.length = s) (hfirst : ∀ k < i, (t.drop k).take s.length ≠ s) :
    RuneStart t 0 i := by
  obtain ⟨v1, -, -⟩ := valid_runes s.length s le_rfl hs
  cases hr : runes s with
  | nil =>
    rw [hr] at v1
    have hs0 : s = [] := v1.symm
    subst hs0
    have hi : i = 0 := by
      by_contra hne
      exact hfirst 0 (by omega) (by simp)
    subst hi
    exact .first
  | cons c cs =>
    rw [hr] at v1
    rw [← v1] at ho
    exact text_runeStart ho

theorem quoteBytes_eq (s : List Nat) :
    quoteBytes s =
      s.flatMap (fun x => if x ∈ bytesOf "\\.+*?()|[]^$" then [92, x] else [x]) := by
  induction s with
  | nil => rfl
  | cons x t ih =>
    rw [quoteBytes_cons, List.flatMap_cons, ← ih]
    by_cases hx : special (x : Int) = true
    · rw [if_pos hx, if_pos ((special_bytes x).1 hx)]
    · rw [if_neg hx, if_neg (fun h => hx ((special_bytes x).2 h))]

/-- C23: for every valid UTF-8 string s, QuoteMeta(s) returns s with a backslash inserted
before exactly the bytes among the twelve metacharacters (QuoteMeta of `[foo]` is
`\[foo\]`); Compile of the result succeeds; and on every valid UTF-8 subject t the
compiled expression accepts, from an offset where a rune starts, the spans that hold the
text s and no other span, and FindStringIndex(t) is [i, i + len(s)] for the first index i
at which s occurs in t, and nil when s does not occur in t. -/
theorem QuoteMeta_matches_literal (s : List Nat) (hs : ValidUTF8 s) :
    QuoteMeta (bytesOf "[foo]") = some (bytesOf "\\[foo\\]") ∧
    ∃ qs re, QuoteMeta s = some qs ∧
      qs = s.flatMap (fun x => if x ∈ bytesOf "\\.+*?()|[]^$" then [92, x] else [x]) ∧
      Compile qs = .ok re ∧
      ∀ t, ValidUTF8 t →
        (∀ p q, RuneStart t 0 p → (Accepts re t p q ↔
          q = p + s.length ∧ q ≤ t.length ∧ (t.drop p).take s.length = s)) ∧
        ∃ r, re.FindStringIndex t = some r ∧
          (∀ i : Nat, i + s.length ≤ t.length → (t.drop i).take s.length = s →
            (∀ k < i, (t.drop k).take s.length ≠ s) →
            r = some [(i : Int), (i : Int) + (s.length : Int)]) ∧
          ((∀ i, i + s.length ≤ t.length → (t.drop i).take s.length ≠ s) → r = none) := by
  refine ⟨by decide, ?_⟩
  obtain ⟨-, v2, -⟩ := valid_runes s.length s le_rfl hs
  obtain ⟨q1, s1, e1, hparse⟩ := quoted_parse v2
  obtain ⟨re, hre⟩ := Compile_of_parse hparse
  refine ⟨quoteBytes s, re, QuoteMeta_eq s, quoteBytes_eq s, hre, ?_⟩
  intro t hv
  have hacc := fun p q hp => quoted_accepts hs hre hv p q hp
  exact ⟨hacc, literal_find hre s t hv hacc
    (fun i _ ho hfirst => occurrence_runeStart hs t i ho hfirst)⟩

theorem QuoteMeta_matches_literal_witness :
    ValidUTF8 (bytesOf "a.b") ∧
    QuoteMeta (bytesOf "[foo]") = some (bytesOf "\\[foo\\]") ∧
    ∃ qs re, QuoteMeta (bytesOf "a.b") = some qs ∧
      qs = (bytesOf "a.b").flatMap
        (fun x => if x ∈ bytesOf "\\.+*?()|[]^$" then [92, x] else [x]) ∧
      Compile qs = .ok re ∧
      ∀ t, ValidUTF8 t →
        (∀ p q, RuneStart t 0 p → (Accepts re t p q ↔
          q = p + (bytesOf "a.b").length ∧ q ≤ t.length ∧
            (t.drop p).take (bytesOf "a.b").length = bytesOf "a.b")) ∧
        ∃ r, re.FindStringIndex t = some r ∧
          (∀ i : Nat, i + (bytesOf "a.b").length ≤ t.length →
            (t.drop i).take (bytesOf "a.b").length = bytesOf "a.b" →
            (∀ k < i, (t.drop k).take (bytesOf "a.b").length ≠ bytesOf "a.b") →
            r = some [(i : Int), (i : Int) + ((bytesOf "a.b").length : Int)]) ∧
          ((∀ i, i + (bytesOf "a.b").length ≤ t.length →
            (t.drop i).take (bytesOf "a.b").length ≠ bytesOf "a.b") → r = none) :=
  ⟨by unfold ValidUTF8; decide,
    QuoteMeta_matches_literal (bytesOf "a.b") (by unfold ValidUTF8; decide)⟩

end GoRegexp

namespace GoRegexp

/-! ## strings.Index -/

/-- C31: Index(s, sep) is the least index i such that s[i:i+len(sep)] == sep, and it is -1
exactly when sep does not occur in s; so it is 0 for the empty sep. The cases of indexTests
are instances. -/
theorem Index_least_occurrence (s sep : List Nat) :
    (∀ i : Nat, Index s sep = (i : Int) ↔
      (i + sep.length ≤ s.length ∧ (s.drop i).take sep.length = sep ∧
        ∀ k < i, (s.drop k).take sep.length ≠ sep)) ∧
    (Index s sep = -1 ↔
      ∀ k, k + sep.length ≤ s.length → (s.drop k).take sep.length ≠ sep) ∧
    (Index s sep = -1 ∨ ∃ i : Nat, Index s sep = (i : Int)) ∧
    Index s [] = 0 ∧
    (Index (bytesOf "") (bytesOf "") = 0 ∧ Index (bytesOf "") (bytesOf "a") = -1 ∧
      Index (bytesOf "") (bytesOf "foo") = -1 ∧ Index (bytesOf "fo") (bytesOf "foo") = -1 ∧
      Index (bytesOf "foo") (bytesOf "foo") = 0 ∧
      Index (bytesOf "oofofoofooo") (bytesOf "f") = 2 ∧
      Index (bytesOf "oofofoofooo") (bytesOf "foo") = 4 ∧
      Index (bytesOf "barfoobarfoo") (bytesOf "foo") = 3 ∧
      Index (bytesOf "foo") (bytesOf "") = 0 ∧ Index (bytesOf "foo") (bytesOf "o") = 1 ∧
      Index (bytesOf "abcABCabc") (bytesOf "A") = 3 ∧ Index (bytesOf "x") (bytesOf "a") = -1 ∧
      Index (bytesOf "x") (bytesOf "x") = 0 ∧ Index (bytesOf "abc") (bytesOf "a") = 0 ∧
      Index (bytesOf "abc") (bytesOf "b") = 1 ∧ Index (bytesOf "abc") (bytesOf "c") = 2 ∧
      Index (bytesOf "abc") (bytesOf "x") = -1) := by
  refine ⟨?_, ?_, ?_, rfl, by decide⟩
  · intro i
    rcases Index_spec s sep with ⟨h1, h2⟩ | ⟨r, h1, h2, h3, h4⟩
    · constructor
      · intro h
        rw [h1] at h
        omega
      · rintro ⟨a1, a2, -⟩
        exact absurd a2 (h2 i a1)
    · constructor
      · intro h
        rw [h1] at h
        have : r = i := by omega
        subst this
        exact ⟨h2, h3, h4⟩
      · rintro ⟨a1, a2, a3⟩
        rw [h1]
        have : r = i := by
          rcases Nat.lt_trichotomy r i with h | h | h
          · exact absurd h3 (a3 r h)
          · exact h
          · exact absurd a2 (h4 i h)
        rw [this]
  · rcases Index_spec s sep with ⟨h1, h2⟩ | ⟨r, h1, h2, h3, h4⟩
    · exact ⟨fun _ => h2, fun _ => h1⟩
    · constructor
      · intro h
        rw [h1] at h
        omega
      · intro h
        exact absurd h3 (h r h2)
  · rcases Index_spec s sep with ⟨h1, -⟩ | ⟨r, h1, -⟩
    · exact Or.inl h1
    · exact Or.inr ⟨r, h1⟩

end GoRegexp

namespace GoRegexp

/-! ## ErrInternal -/

/-- C40: Compile never returns ErrInternal. For every pattern, parser.regexp returns, in
every state of the parser and whenever it returns without an error, a start and an end that
are not nil, so the branch `start == nil` of the group case of parser.term is not taken; and
no function of the parser reports ErrInternal. The empty group `()` compiles. -/
theorem Compile_never_ErrInternal (pat : List Nat) :
    Compile pat ≠ .error (.error .ErrInternal) ∧
    (∀ (n : Nat) (p : parser) (v : parser × Option Nat × Option Nat),
      parser.regexp n p = .ok v → v.2.1 ≠ none ∧ v.2.2 ≠ none) ∧
    (∀ (n : Nat) (p : parser), parser.term n p ≠ .error (.error .ErrInternal) ∧
      parser.regexp n p ≠ .error (.error .ErrInternal)) ∧
    (Compile (bytesOf "()")).toOption.isSome = true :=
  ⟨Compile_noInternal pat, regexp_not_nil,
    fun n p => ⟨(parser_noInternal n).1 p, (parser_noInternal n).2.2.2.2.2 p⟩, by decide!⟩

end GoRegexp

namespace GoRegexp

/-! ## The elimination of the iNop instructions -/

/-- C36: after Compile succeeds, no `next` link of an instruction and no `left` link of an
iAlt leads to an iNop. The program is the one doParse has built before its call of
eliminateNops, with each such link led to the first instruction that is not an iNop on the
chain of `next` links from where the link led; and eliminateNops returns on every program
that doParse hands to it. -/
theorem nops_eliminated (pat : List Nat) (re : Regexp) (h : Compile pat = .ok re) :
    (∀ (i : Nat) (x : instr), re.inst[i]? = some x →
      (∀ j, x.next = some j → kindAt re.inst j ≠ some .iNop) ∧
      (x.kind = .iAlt → ∀ j, x.left = some j → kindAt re.inst j ≠ some .iNop)) ∧
    (∃ r0 r1, Regexp.parsed { expr := pat } = .ok r0 ∧ r0.eliminateNops = .ok r1 ∧
      r1.setPrefix = .ok re ∧ re.inst.length = r0.inst.length ∧
      ∀ (i : Nat) (x : instr), r0.inst[i]? = some x →
        ∃ y, re.inst[i]? = some y ∧ y.kind = x.kind ∧
          (∀ j, x.next = some j → ∃ t, y.next = some t ∧ Skip r0.inst j t) ∧
          (x.kind = .iAlt → ∀ j, x.left = some j → ∃ t, y.left = some t ∧ Skip r0.inst j t)) ∧
    (∀ (p2 : List Nat) (r0 : Regexp), Regexp.parsed { expr := p2 } = .ok r0 →
      ∃ r1, r0.eliminateNops = .ok r1) := by
  obtain ⟨r0, r1, h0, h1, h2, h3, hE, hend⟩ := Compile_elim h
  have hnode : ∀ (i : Nat) (x : instr), r0.inst[i]? = some x →
      ∃ y, re.inst[i]? = some y ∧ y.kind = x.kind ∧
        (∀ j, x.next = some j → ∃ t, y.next = some t ∧ Skip r0.inst j t) ∧
        (x.kind = .iAlt → ∀ j, x.left = some j → ∃ t, y.left = some t ∧ Skip r0.inst j t) := by
    intro i x hx
    obtain ⟨y, hy, hs, hn, hl⟩ := hE.node i x hx
    refine ⟨y, hy, hs.1, ?_, ?_⟩
    · intro j hj
      by_cases hk : x.kind = .iEnd
      · rw [(hend i x hx hk).1] at hj
        cases hj
      · obtain ⟨j2, t, a1, a2, a3⟩ := hn hk
        rw [hj] at a1
        cases a1
        exact ⟨t, a2, a3⟩
    · intro hk j hj
      obtain ⟨j2, t, a1, a2, a3⟩ := hl hk
      rw [hj] at a1
      cases a1
      exact ⟨t, a2, a3⟩
  refine ⟨?_, ⟨r0, r1, h0, h1, h2, hE.length, hnode⟩, fun p2 r hp => eliminateNops_returns hp⟩
  intro i y hy
  have hi : i < r0.inst.length := by
    rw [← hE.length]
    exact (List.getElem?_eq_some.mp hy).1
  obtain ⟨y2, hy2, hk, hn, hl⟩ := hnode i _ (List.getElem?_eq_getElem hi)
  rw [hy] at hy2
  cases hy2
  by_cases hend2 : y.kind = .iEnd
  · have hx := hend i _ (List.getElem?_eq_getElem hi) (by rw [← hk]; exact hend2)
    rw [hy] at hx
    have hyn : y.next = none := by
      have h5 := hx.2
      simp only [Option.some.injEq] at h5
      rw [h5]
      exact hx.1
    refine ⟨fun j hj => ?_, fun ha => ?_⟩
    · rw [hyn] at hj
      cases hj
    · rw [hend2] at ha
      cases ha
  · exact (Compile_wf h).noNop i y hy hend2

theorem nops_eliminated_witness :
    Compile [97, 40, 98, 41, 63, 99] = .ok progOptGroup ∧
    (∀ (i : Nat) (x : instr), progOptGroup.inst[i]? = some x →
      (∀ j, x.next = some j → kindAt progOptGroup.inst j ≠ some .iNop) ∧
      (x.kind = .iAlt → ∀ j, x.left = some j → kindAt progOptGroup.inst j ≠ some .iNop)) :=
  ⟨Compile_of_toOption (by decide!),
    (nops_eliminated [97, 40, 98, 41, 63, 99] progOptGroup
      (Compile_of_toOption (by decide!))).1⟩

end GoRegexp

namespace GoRegexp

/-! ## addState and doExecute return -/

/-- C38: for every compiled program, a program with a loop that can be gone through without
consuming input included (`()*`, `(a*)*` and `^*` compile, and doExecute returns on them),
every call of addState returns: on every list of threads, at every instruction i of the
program, with every vector of the length of the arena, at every offset, given fuel
(N + 1) * (N + 1) for a program of N instructions, which is less than what doExecute gives
it; and doExecute returns on every subject, string or byte slice, and every start offset. -/
theorem addState_doExecute_return (pat : List Nat) (re : Regexp) (h : Compile pat = .ok re) :
    (∀ (fuel : Nat), (re.inst.length + 1) * (re.inst.length + 1) ≤ fuel →
      ∀ (s : List state) (i : Nat) (pf : Bool) (m : List Int) (pos end' : Nat),
        i < re.inst.length → m.length = 2 * (re.nbra + 1) →
        ∃ t, addState re.inst fuel s (some i) pf m pos end' = some (s ++ t)) ∧
    (re.inst.length + 1) * (re.inst.length + 1) ≤ addFuel re ∧
    (∀ (b : List Nat) (pos : Nat), pos ≤ b.length →
      (∃ r, re.doExecute b none pos = some r) ∧
      ∀ x : List Nat, ∃ r, re.doExecute x (some b) pos = some r) ∧
    ((Compile (bytesOf "()*")).toOption.bind
        (fun re => re.doExecute (bytesOf "ab") none 0) = some (some [0, 0, -1, -1]) ∧
      (Compile (bytesOf "(a*)*")).toOption.bind
        (fun re => re.doExecute (bytesOf "aab") none 0) = some (some [0, 2, 0, 2]) ∧
      (Compile (bytesOf "^*")).toOption.bind
        (fun re => re.doExecute (bytesOf "ab") none 0) = some (some [0, 0])) := by
  obtain ⟨rk, x0, s0, hR⟩ := Compile_ready h
  refine ⟨?_, ?_, ?_, by decide!, by decide!, by decide!⟩
  · intro fuel hf s i pf m pos end' hi hm
    exact addState_total hR.prog fuel hf s i pf m pos end' hi hm
  · unfold addFuel
    have : (re.inst.length + 1) * (re.inst.length + 1) ≤
        (re.inst.length + 1) * (2 * (re.inst.length + 1) * (re.inst.length + 1) + 2) := by
      apply Nat.mul_le_mul_left
      have h1 : re.inst.length + 1 ≤ 2 * (re.inst.length + 1) * (re.inst.length + 1) := by
        have := Nat.le_mul_of_pos_left (re.inst.length + 1)
          (show 0 < 2 * (re.inst.length + 1) by omega)
        exact this
      omega
    exact this
  · intro b pos hpos
    obtain ⟨r, h1, h2, -⟩ := doExecute_total h b pos hpos
    exact ⟨⟨r, h1⟩, fun x => ⟨r, h2 x⟩⟩

theorem addState_doExecute_return_witness :
    ∃ re, Compile (bytesOf "(a*)*") = .ok re ∧
      ∀ (b : List Nat) (pos : Nat), pos ≤ b.length →
        (∃ r, re.doExecute b none pos = some r) ∧
        ∀ x : List Nat, ∃ r, re.doExecute x (some b) pos = some r :=
  (@Compile_of_isSome (bytesOf "(a*)*") (by decide!)).elim fun re hre =>
    ⟨re, hre, (addState_doExecute_return (bytesOf "(a*)*") re hre).2.2.1⟩

end GoRegexp

namespace GoRegexp

/-! ## No instruction twice in a list of threads -/

/-- C33: if no two entries of the list s hold the same instruction, then no two entries of
the list addState(s, ...) returns do. So a list that calls of addState build from the empty
list has no two entries with the same instruction and has at most as many entries as the
program has instructions; and the lists of the loop of doExecute are such lists: a turn of
the loop that starts with such a list s[out] ends the loop, or steps a list s[in] into a list
s[out] that are both such lists, and goes on with them. -/
theorem thread_lists_distinct (re : Regexp) :
    (∀ (fuel : Nat) (s : List state) (i : Option Nat) (pf : Bool) (m : List Int)
        (pos end' : Nat) (s2 : List state),
      addState re.inst fuel s i pf m pos end' = some s2 →
      (s.map (fun x => x.inst)).Nodup → (s2.map (fun x => x.inst)).Nodup) ∧
    (∀ l, AddList re.inst l → (l.map (fun x => x.inst)).Nodup ∧ l.length ≤ re.inst.length) ∧
    (∀ (b : List Nat) (end' sp : Nat) (anch : Bool) (fuel pos : Nat) (out : List state)
        (final : Option state) (found : Bool), AddList re.inst out →
      executeLoop re b end' sp anch (fuel + 1) pos out final found = some final ∨
      executeLoop re b end' sp anch (fuel + 1) pos out final found = none ∨
      ∃ (sin : List state) (acc : execState) (c : Int) (cw : Nat),
        AddList re.inst sin ∧ AddList re.inst acc.out ∧
        stepAll re.inst (addFuel re) c (pos + cw) cw end' sin
          { out := [], final := final, found := found } = some acc ∧
        executeLoop re b end' sp anch (fuel + 1) pos out final found =
          executeLoop re b end' sp anch fuel (pos + cw) acc.out acc.final acc.found) :=
  ⟨fun fuel s i pf m pos end' s2 h hs => addState_nodup re.inst fuel s i pf m pos end' s2 h hs,
    fun l hl => ⟨(addList_nodup hl).1,
      nodup_length_le re.inst l (addList_nodup hl).1 (addList_nodup hl).2⟩,
    fun b end' sp anch fuel pos out final found ha =>
      executeLoop_lists re b end' sp anch fuel pos out final found ha⟩

end GoRegexp

namespace GoRegexp

/-! ## Match vectors within bounds -/

/-- C39: for a pattern that compiles and a subject s, every match vector m that doExecute
returns (from any offset, for the string or the byte slice) and every vector that
allMatches delivers has the length of the arena and satisfies 0 <= m[0] <= m[1] <= len(s)
and, for every group k >= 1, either m[2k] = m[2k+1] = -1 or
m[0] <= m[2k] <= m[2k+1] <= m[1]; and Find, FindString, FindSubmatch, FindStringSubmatch
and their FindAll variants return, that is, their slices of s are within bounds. A negated
class that accepts the end-of-input sentinel yields no offset past len(s): `b[^a]` does not
match "b", and on "b" the group of `b([^a]*)` is the empty span at 1. -/
theorem match_vectors_in_bounds (pat : List Nat) (re : Regexp) (h : Compile pat = .ok re)
    (s : List Nat) :
    (∀ pos, pos ≤ s.length →
      ∃ r, re.doExecute s none pos = some r ∧ (∀ x, re.doExecute x (some s) pos = some r) ∧
        ∀ m, r = some m → m.length = 2 * (re.nbra + 1) ∧ VecInBounds s m) ∧
    (∀ n : Int, ∃ R, re.allMatches s n = some R ∧ re.allMatchesBytes s n = some R ∧
      ∀ m ∈ R, m.length = 2 * (re.nbra + 1) ∧ VecInBounds s m) ∧
    ((∃ r, re.Find s = some r) ∧ (∃ r, re.FindString s = some r) ∧
      (∃ r, re.FindSubmatch s = some r) ∧ (∃ r, re.FindStringSubmatch s = some r)) ∧
    (∀ n : Int, (∃ r, re.FindAll s n = some r) ∧ (∃ r, re.FindAllString s n = some r) ∧
      (∃ r, re.FindAllSubmatch s n = some r) ∧
      (∃ r, re.FindAllStringSubmatch s n = some r)) ∧
    ((Compile (bytesOf "b[^a]")).toOption.bind
        (fun re => re.doExecute (bytesOf "b") none 0) = some none ∧
      (Compile (bytesOf "b([^a]*)")).toOption.bind
        (fun re => re.doExecute (bytesOf "b") none 0) = some (some [0, 1, 1, 1])) := by
  obtain ⟨f1, f2, f3, f4, f5, f6, f7, f8, f9, f10⟩ := find_total h s
  refine ⟨fun pos hpos => doExecute_bounds h s pos hpos, fun n => allMatches_bounds h s n,
    ⟨f3, f5, f7, f9⟩, fun n => ?_, by decide!, by decide!⟩
  obtain ⟨g1, g2, g3, g4, g5, g6, g7, g8⟩ := findAll_total h s n
  exact ⟨g1, g3, g5, g7⟩

theorem match_vectors_in_bounds_witness :
    Compile [97, 40, 98, 41, 63, 99] = .ok progOptGroup ∧
    ∃ r, progOptGroup.doExecute [120, 97, 99] none 0 = some r ∧
      (∀ x, progOptGroup.doExecute x (some [120, 97, 99]) 0 = some r) ∧
      ∀ m, r = some m → m.length = 2 * (progOptGroup.nbra + 1) ∧
        VecInBounds [120, 97, 99] m :=
  ⟨Compile_of_toOption (by decide!),
    (match_vectors_in_bounds [97, 40, 98, 41, 63, 99] progOptGroup
      (Compile_of_toOption (by decide!)) [120, 97, 99]).1 0 (by decide)⟩

end GoRegexp

namespace GoRegexp

/-! ## The driving loops -/

/-- C37: for a pattern that compiles (one that matches the empty string included), every
subject s and every limit n, each turn of the loop of allMatches and of the loop of
ReplaceAllStringFunc that does not end the loop leaves the search offset greater than it
was; and both loops return on the fuel len(s) + 2 that allMatches, for the string and for
the byte slice, and ReplaceAllStringFunc and ReplaceAllFunc give them, which is len(s) + 1
turns and the last test of the loop condition. The empty pattern has three matches in "ab",
and `a*` replaced by "x" in "baaac" gives "xbxcx". -/
theorem driving_loops_progress (pat : List Nat) (re : Regexp) (h : Compile pat = .ok re)
    (s : List Nat) :
    (∀ (n : Int) (fuel pos : Nat) (i prev : Int), pos ≤ s.length →
      allMatchesLoop re s n s.length (fuel + 1) pos i prev = some [] ∨
      ∃ (a : List Int) (m0 m1 : Int) (pos2 : Nat),
        re.doExecute s none pos = some (some a) ∧ a[0]? = some m0 ∧ a[1]? = some m1 ∧
        pos2 = (if m1 = (pos : Int) then
          (if (DecodeRuneInString ((s.drop pos).take (s.length - pos))).2 > 0 then
            pos + (DecodeRuneInString ((s.drop pos).take (s.length - pos))).2
          else s.length + 1) else m1.toNat) ∧
        pos < pos2 ∧ pos2 ≤ s.length + 1 ∧
        allMatchesLoop re s n s.length (fuel + 1) pos i prev =
          (if m1 = (pos : Int) ∧ m0 = prev then allMatchesLoop re s n s.length fuel pos2 i m1
           else (allMatchesLoop re s n s.length fuel pos2 (i + 1) m1).map
            (fun r => a :: r))) ∧
    (∀ (repl : List Nat → List Nat) (fuel : Nat) (last : Int) (pos : Nat) (buf : List Nat),
      pos ≤ s.length →
      replaceLoop re s repl (fuel + 1) last pos buf =
        (sliceOf s last s.length).map (fun t => buf ++ t) ∨
      ∃ (a : List Int) (a0 a1 : Int) (pos2 : Nat),
        re.doExecute s none pos = some (some a) ∧ a[0]? = some a0 ∧ a[1]? = some a1 ∧
        pos2 = (if (pos : Int) + (DecodeRuneInString (s.drop pos)).2 > a1 then
            pos + (DecodeRuneInString (s.drop pos)).2
          else if (pos : Int) + 1 > a1 then pos + 1 else a1.toNat) ∧
        pos < pos2 ∧ pos2 ≤ s.length + 1 ∧
        (replaceLoop re s repl (fuel + 1) last pos buf = none ∨
          ∃ buf2, replaceLoop re s repl (fuel + 1) last pos buf =
            replaceLoop re s repl fuel a1 pos2 buf2)) ∧
    (∀ n : Int, ∃ R, allMatchesLoop re s n s.length (s.length + 2) 0 0 (-1) = some R ∧
      re.allMatches s n = some R ∧ re.allMatchesBytes s n = some R) ∧
    (∀ repl : List Nat → List Nat, ∃ r, replaceLoop re s repl (s.length + 2) 0 0 [] = some r ∧
      re.ReplaceAllStringFunc s repl = some r ∧ re.ReplaceAllFunc s repl = some r) ∧
    ((Compile (bytesOf "")).toOption.bind (fun re => re.allMatches (bytesOf "ab") 5) =
        some [[0, 0], [1, 1], [2, 2]] ∧
      (Compile (bytesOf "a*")).toOption.bind
        (fun re => re.ReplaceAllStringFunc (bytesOf "baaac") (fun _ => bytesOf "x")) =
        some (bytesOf "xbxcx")) := by
  refine ⟨fun n fuel pos i prev hpos => allMatchesLoop_turn h s n fuel pos i prev hpos,
    fun repl fuel last pos buf hpos => replaceLoop_turn h s repl fuel last pos buf hpos,
    fun n => ?_, fun repl => ?_, by decide!, by decide!⟩
  · obtain ⟨R, h1, h2, -⟩ := allMatches_total h s n
    exact ⟨R, h1, h1, h2⟩
  · obtain ⟨r, h1, h2⟩ := replace_total h s repl
    exact ⟨r, h1, h1, h2⟩

theorem driving_loops_progress_witness :
    ∃ re, Compile (bytesOf "a*") = .ok re ∧
      (∀ n : Int, ∃ R,
        allMatchesLoop re (bytesOf "baaac") n (bytesOf "baaac").length
          ((bytesOf "baaac").length + 2) 0 0 (-1) = some R ∧
        re.allMatches (bytesOf "baaac") n = some R ∧
        re.allMatchesBytes (bytesOf "baaac") n = some R) :=
  (@Compile_of_isSome (bytesOf "a*") (by decide!)).elim fun re hre =>
    ⟨re, hre, (driving_loops_progress (bytesOf "a*") re hre (bytesOf "baaac")).2.2.1⟩

end GoRegexp

namespace GoRegexp

/-! ## The Adler-32 checksum -/

/-- C32: for every sequence data of bytes, adler32.Checksum data is
(s2 mod 65521) * 65536 + (s1 mod 65521), where, over the unbounded naturals, s1 is 1 plus
the sum of all the bytes and s2 is the sum, over the bytes, of the value of s1 after the
byte; and at every byte, neither of the two 32-bit additions of update wraps around: the
state update has reached before the byte, plus the byte, stays below 2^32. -/
theorem adler32_checksum (data : List Nat) (hb : ∀ x ∈ data, x < 256) :
    adler32.Checksum data =
      ((adlerSums data).2 % 65521) * 65536 + (adlerSums data).1 % 65521 ∧
    (adlerSums data).1 = 1 + data.sum ∧
    (adlerSums data).2 =
      ((List.range data.length).map (fun k => 1 + (data.take (k + 1)).sum)).sum ∧
    ∀ (p : List Nat) (x : Nat) (rest : List Nat), data = p ++ x :: rest →
      (adler32.update 1 0 p).1 + x < 2 ^ 32 ∧
      (adler32.update 1 0 p).2 + ((adler32.update 1 0 p).1 + x) < 2 ^ 32 :=
  ⟨(adler_checksum_eq data hb).1, (adlerSums_closed data).1, (adlerSums_closed data).2,
    (adler_checksum_eq data hb).2⟩

/-- The checksum of "Wikipedia" is 0x11E60398. -/
theorem adler32_checksum_witness :
    (∀ x ∈ bytesOf "Wikipedia", x < 256) ∧
    adler32.Checksum (bytesOf "Wikipedia") = 300286872 ∧
    ((adlerSums (bytesOf "Wikipedia")).2 % 65521) * 65536 +
      (adlerSums (bytesOf "Wikipedia")).1 % 65521 = 300286872 :=
  ⟨by decide, by decide,
    (adler32_checksum (bytesOf "Wikipedia") (by decide)).1.symm.trans (by decide)⟩

end GoRegexp

namespace GoRegexp

/-! ## The loops of a program -/

/-- C34, as stated, fails: the program of the pattern `()*` has the loop that goes from the
iAlt of the star (instruction 4) by its `left` link to the opening group marker
(instruction 2), on to the closing group marker (instruction 3) and back to the iAlt, and
none of the three instructions consumes input. -/
theorem closure_loop_without_consuming :
    Compile (bytesOf "()*") = .ok progEmptyStar ∧
    List.Chain (Link progEmptyStar.inst) 4 ([2, 3] ++ [4]) ∧
    AltAt progEmptyStar.inst 4 2 ∧
    ¬ ∃ i ∈ [4, 2, 3], ConsumesAt progEmptyStar.inst i := by
  refine ⟨Compile_of_toOption (by decide!), ?_, ⟨_, rfl, rfl, rfl⟩, ?_⟩
  · exact .cons (Or.inr ⟨_, rfl, rfl, rfl⟩) (.cons (Or.inl ⟨_, rfl, rfl⟩)
      (.cons (Or.inl ⟨_, rfl, rfl⟩) .nil))
  · rintro ⟨i, hi, x, hx, hc⟩
    simp only [List.mem_cons, List.mem_singleton, List.not_mem_nil, or_false] at hi
    rcases hi with rfl | rfl | rfl <;>
    · simp only [progEmptyStar, List.getElem?_cons_succ, List.getElem?_cons_zero,
        Option.some.injEq] at hx
      subst hx
      simp [Kind.consumes] at hc

/-- C34, amended: let r be the tree of a pattern that compiles. The iAlt instructions the
parser adds for the `*` and `+` closures of r are iAlt instructions of the program, and the
graph of the next/left links of the program is acyclic except for the loops they create:
the links other than the `left` links of these instructions form no cycle. When no `*` or
`+` of the pattern is applied to an operand that can be read without input (an operand
whose language has the empty span of the empty subject), every cycle of the program
contains at least one input-consuming instruction (iChar, iCharClass, iAny or iNotNL), so
that no cycle can be traversed without consuming at least one input rune. -/
theorem closure_loops_consume (pat : List Nat) (re : Regexp) (h : Compile pat = .ok re) :
    ∃ r : Ast, Gram .regexp [] (runes pat) r ∧
      (∀ c ∈ r.closures 1, ∃ j, AltAt re.inst c.1 j) ∧
      (∀ (x : Nat) (c : List Nat),
        ¬ List.Chain (ForwardLink re.inst ((r.closures 1).map Prod.fst)) x (c ++ [x])) ∧
      ((∀ c ∈ r.closures 1, c.2.nullable = false) →
        ∀ (x : Nat) (c : List Nat), List.Chain (Link re.inst) x (c ++ [x]) →
          ∃ i ∈ x :: c, ConsumesAt re.inst i) ∧
      (∀ r2 : Ast, r2.nullable = true ↔ Lang [] r2 0 0) := by
  obtain ⟨r, G, N, s, e, hg, hB, hN, h0, hGN, hlen, hE, hEnd⟩ := Compile_built h
  refine ⟨r, hg, ?_, forward_acyclic hB hN h0 hGN hlen hE hEnd,
    fun hnull => silent_acyclic hB hN h0 hGN hlen hE hEnd (Compile_wf h).graph hnull,
    nullable_iff⟩
  intro c hc
  obtain ⟨m1, s1, e1, -, ha, -, -, -⟩ := built_closures hB c hc
  obtain ⟨t, ht, -⟩ := alt_forth hE ha
  exact ⟨t, ht⟩

/-- The pattern `(ab|c+)*d` compiles, and its star and its plus have operands that
cannot be read without input. -/
theorem closure_loops_consume_witness :
    ∃ re, Compile (bytesOf "(ab|c+)*d") = .ok re ∧
      ∃ r : Ast, Gram .regexp [] (runes (bytesOf "(ab|c+)*d")) r ∧
        (∀ c ∈ r.closures 1, ∃ j, AltAt re.inst c.1 j) ∧
        (∀ (x : Nat) (c : List Nat),
          ¬ List.Chain (ForwardLink re.inst ((r.closures 1).map Prod.fst)) x (c ++ [x])) ∧
        ((∀ c ∈ r.closures 1, c.2.nullable = false) →
          ∀ (x : Nat) (c : List Nat), List.Chain (Link re.inst) x (c ++ [x]) →
            ∃ i ∈ x :: c, ConsumesAt re.inst i) ∧
        (∀ r2 : Ast, r2.nullable = true ↔ Lang [] r2 0 0) :=
  (@Compile_of_isSome (bytesOf "(ab|c+)*d") (by decide!)).elim fun re hre =>
    ⟨re, hre, closure_loops_consume (bytesOf "(ab|c+)*d") re hre⟩

end GoRegexp

namespace GoRegexp

/-! ## The reference counts at the writes into the match vectors -/

/-- C35, as stated, fails: in the match of the pattern `a` on the subject `a` the statement
`final.match.m[1] = pos - charwidth` of doExecute, which records the end of the match,
writes into vector 9 of the arena while the reference count of the vector is 2; it runs
right after `final.match.ref++`, and the vector is also held by the thread of s[in]. -/
theorem match_end_written_at_ref_two :
    (Compile (bytesOf "a")).toOption.bind (fun re =>
      (re.doExecuteA (bytesOf "a") none 0).map (fun p =>
        (p.1.writes.filter (fun w => decide (w.site = .matchEnd)), p.2))) =
      some ([{ site := .matchEnd, vec := 9, ref := 2 }], some [0, 1]) ∧
    ¬ ({ site := .matchEnd, vec := 9, ref := 2 } : Write).ref ≤ 1 := by
  refine ⟨by decide!, by decide⟩

/-- C35, amended: let the pattern pat compile to re. From every offset pos of every subject
s, the matcher with the match vectors in the arena returns, on the string s and on the
slice of bytes s, with the result of doExecute; and every write into the entries of a
vector during the match is one of these: a write of the loop of noMatch or of the copy, at
the reference count 0; the seeding of slot 0 in doExecute, at the reference count 1; the
stamping of a group marker in addState, at the reference count 0 or 1; the recording of the
end of the match in doExecute, at the reference count 2. -/
theorem writes_at_ref_counts (pat : List Nat) (re : Regexp) (h : Compile pat = .ok re)
    (s : List Nat) (pos : Nat) (hpos : pos ≤ s.length) :
    ∃ a r, re.doExecuteA s none pos = some (a, r) ∧
      (∀ x, re.doExecuteA x (some s) pos = some (a, r)) ∧
      re.doExecute s none pos = some r ∧
      ∀ w ∈ a.writes,
        (w.site = .fill ∧ w.ref = 0) ∨ (w.site = .copy ∧ w.ref = 0) ∨
        (w.site = .seed ∧ w.ref = 1) ∨ (w.site = .stamp ∧ (w.ref = 0 ∨ w.ref = 1)) ∨
        (w.site = .matchEnd ∧ w.ref = 2) := by
  obtain ⟨rk, x0, s0, hR⟩ := Compile_ready h
  obtain ⟨a, r, h1, h2, h3⟩ := doExecuteA_ready hR s pos hpos
  refine ⟨a, r, h1, fun x => by rw [doExecuteA_bytes, h1], h2, fun w hw => ?_⟩
  have hk := h3 w hw
  unfold Write.ok at hk
  cases hs : w.site <;> rw [hs] at hk <;> simp only at hk
  · exact Or.inl ⟨rfl, hk⟩
  · exact Or.inr (Or.inl ⟨rfl, hk⟩)
  · exact Or.inr (Or.inr (Or.inl ⟨rfl, hk⟩))
  · exact Or.inr (Or.inr (Or.inr (Or.inl ⟨rfl, hk⟩)))
  · exact Or.inr (Or.inr (Or.inr (Or.inr ⟨rfl, hk⟩)))

/-- The pattern `(a|ab)(c|bcd)*` compiles, and its match on the subject `xabcbcd` from
offset 1 writes into the vectors at these reference counts only. -/
theorem writes_at_ref_counts_witness :
    ∃ re, Compile (bytesOf "(a|ab)(c|bcd)*") = .ok re ∧
      ∃ a r, re.doExecuteA (bytesOf "xabcbcd") none 1 = some (a, r) ∧
        (∀ x, re.doExecuteA x (some (bytesOf "xabcbcd")) 1 = some (a, r)) ∧
        re.doExecute (bytesOf "xabcbcd") none 1 = some r ∧
        ∀ w ∈ a.writes,
          (w.site = .fill ∧ w.ref = 0) ∨ (w.site = .copy ∧ w.ref = 0) ∨
          (w.site = .seed ∧ w.ref = 1) ∨ (w.site = .stamp ∧ (w.ref = 0 ∨ w.ref = 1)) ∨
          (w.site = .matchEnd ∧ w.ref = 2) :=
  (@Compile_of_isSome (bytesOf "(a|ab)(c|bcd)*") (by decide!)).elim fun re hre =>
    ⟨re, hre, writes_at_ref_counts (bytesOf "(a|ab)(c|bcd)*") re hre (bytesOf "xabcbcd") 1
      (by decide)⟩

end GoRegexp
